import Mathlib

/-!
# internal_ptr: a verification development

A shallow embedding of `internal_ptr.hpp` (namespace `jss`): the header blocks with
their two counters and their back-pointer set, the registration list of every
`internal_base`, the three handle kinds, and the reachability engine
(`check_reachable`, `find_unreachable_children`, `mark_unreachable`,
`cleanup_unreachable_nodes`).

Modelling conventions.

* Every C++ object lives in a table indexed by a natural number that stands for its
  address: `headers`, `bases` (the `internal_base` sub-objects), `iptrs` (the
  `internal_ptr` handles) and `roots` (the `root_ptr` handles).  A freed or never
  allocated address holds `none`; dereferencing it is undefined behaviour in C++ and
  yields `none` (no result) here.  Addresses are never reused, and `std::less` on
  pointers is `<` on the numbers.
* The counters are `unsigned`.  `--c` wraps from `0` to `2^32 - 1`, which is modelled;
  `++c` is modelled as `c + 1` (wrapping upwards needs `2^32` simultaneous handles to
  one object and is outside what this development covers).
* A `std::vector` used as a stack (`pending`, `nodes_to_check_children`) is a list
  whose head is the vector's back.
* Loops that are not structurally bounded carry a fuel argument; running out of fuel
  gives `none`.  The public entry points compute a sufficient fuel from the heap.
* The payload-destroy hook `do_delete` runs user code (the payload's destructor).
  Payloads are as in `tests.cpp`: the destructor of a payload that is an
  `internal_base` destroys the `internal_ptr` members registered with it and then the
  `internal_base` itself; any other payload just goes away.
* A ghost `trace` records the order of severance, payload destruction and block
  deallocation.
-/

namespace jss

/-! ## `detail::pointer_set` -/

/-- The position returned by `find_bp_pos` (that is `std::lower_bound` with `std::less`), as an
index into the vector: the first position whose element is not less than `p`. -/
def find_bp_pos : List Nat → Nat → Nat
  | [], _ => 0
  | x :: v, p => if x < p then find_bp_pos v p + 1 else 0

/-- The method `pointer_set::contains`: `(pos != vec.end()) && (*pos == p)`. -/
def contains (vec : List Nat) (p : Nat) : Bool :=
  match vec.get? (find_bp_pos vec p) with
  | some x => x == p
  | none => false

/-- The method `pointer_set::add`: `vec.insert(pos, p)`. -/
def add (vec : List Nat) (p : Nat) : List Nat :=
  vec.take (find_bp_pos vec p) ++ p :: vec.drop (find_bp_pos vec p)

/-- The method `pointer_set::add_unique`: the new vector and the returned flag. -/
def add_unique (vec : List Nat) (p : Nat) : List Nat × Bool :=
  if contains vec p then (vec, false) else (add vec p, true)

/-- The method `pointer_set::remove`: erases the element at `pos` when it equals `p`. -/
def remove (vec : List Nat) (p : Nat) : List Nat :=
  if contains vec p then vec.eraseIdx (find_bp_pos vec p) else vec

/-! ## The data model -/

/-- The fields of `detail::root_ptr_header_block_base`; `get_internal_base` is the result of
the virtual `get_internal_base()` (the address of the payload's `internal_base`, if any). -/
structure root_ptr_header_block_base where
  owner_count : Nat
  internal_count : Nat
  back_pointers : List Nat
  unreachable : Bool
  deleted : Bool
  get_internal_base : Option Nat
  deriving DecidableEq, Repr

/-- The fields of `class internal_base`; `pointers` is the intrusive list threaded through
`internal_ptr_base::next`, head first. -/
structure internal_base where
  self_header : Option Nat
  pointers : List Nat
  deriving DecidableEq, Repr

/-- The fields of an `internal_ptr<T>`: those of `detail::internal_ptr_base` (the `next` link
lives in `internal_base.pointers`) and the payload pointer `ptr`. -/
structure internal_ptr where
  base : Nat
  header : Option Nat
  ptr : Option Nat
  deriving DecidableEq, Repr

/-- The fields of a `root_ptr<T>`. -/
structure root_ptr where
  ptr : Option Nat
  header : Option Nat
  deriving DecidableEq, Repr

/-- Ghost events: `marked h` when `mark_unreachable` starts on `h`; `destroyed h obs` when the
payload-destroy hook `do_delete` of `h` is invoked, `obs` being the `header` field of every
handle registered with the payload at that moment; `freed h` when the block of `h` is
deallocated. -/
inductive Event where
  | marked (h : Nat)
  | destroyed (h : Nat) (obs : List (Option Nat))
  | freed (h : Nat)
  deriving DecidableEq, Repr

/-- The heap: the four object tables, their allocation frontiers and the ghost trace. -/
structure Heap where
  headers : Nat → Option root_ptr_header_block_base
  bases : Nat → Option internal_base
  iptrs : Nat → Option internal_ptr
  roots : Nat → Option root_ptr
  next_header : Nat
  next_base : Nat
  next_iptr : Nat
  next_root : Nat
  trace : List Event

/-- The heap with nothing allocated. -/
def Heap.empty : Heap :=
  { headers := fun _ => none, bases := fun _ => none, iptrs := fun _ => none,
    roots := fun _ => none, next_header := 0, next_base := 0, next_iptr := 0,
    next_root := 0, trace := [] }

/-- Store a header block at an address. -/
def Heap.set_header (s : Heap) (h : Nat) (v : Option root_ptr_header_block_base) : Heap :=
  { s with headers := Function.update s.headers h v }

/-- Store an `internal_base` at an address. -/
def Heap.set_base (s : Heap) (b : Nat) (v : Option internal_base) : Heap :=
  { s with bases := Function.update s.bases b v }

/-- Store an `internal_ptr` at an address. -/
def Heap.set_iptr (s : Heap) (p : Nat) (v : Option internal_ptr) : Heap :=
  { s with iptrs := Function.update s.iptrs p v }

/-- Store a `root_ptr` at an address. -/
def Heap.set_root (s : Heap) (r : Nat) (v : Option root_ptr) : Heap :=
  { s with roots := Function.update s.roots r v }

/-- Append an event to the ghost trace. -/
def Heap.log (s : Heap) (e : Event) : Heap :=
  { s with trace := s.trace ++ [e] }

/-- The decrement `--c` of an `unsigned` counter. -/
def dec (c : Nat) : Nat := if c = 0 then 4294967295 else c - 1

/-! ## Header block operations that do not collect -/

/-- The method `is_owned`. -/
def is_owned (hd : root_ptr_header_block_base) : Bool :=
  if hd.owner_count ≠ 0 then true
  else if hd.internal_count > hd.back_pointers.length then true
  else false

/-- The method `use_count` of a header block. -/
def header_use_count (hd : root_ptr_header_block_base) : Nat :=
  if hd.unreachable then 0 else hd.internal_count

/-- The constructor of `root_ptr_header_block_base`. -/
def new_header (b : Option Nat) : root_ptr_header_block_base :=
  { owner_count := 1, internal_count := 1, back_pointers := [], unreachable := false,
    deleted := false, get_internal_base := b }

/-- The method `add_back_pointer` of header `h`. -/
def add_back_pointer (h p : Nat) (s : Heap) : Option Heap :=
  match s.headers h with
  | none => none
  | some hd => some (s.set_header h (some { hd with back_pointers := add hd.back_pointers p }))

/-- The method `add_owner` of header `h`. -/
def add_owner (h : Nat) (s : Heap) : Option Heap :=
  match s.headers h with
  | none => none
  | some hd => some (s.set_header h (some { hd with owner_count := hd.owner_count + 1,
                                                     internal_count := hd.internal_count + 1 }))

/-- The method `owner_from_internal` of header `h`: the new heap and the returned flag. -/
def owner_from_internal (h : Nat) (s : Heap) : Option (Heap × Bool) :=
  match s.headers h with
  | none => none
  | some hd =>
    if hd.unreachable then some (s, false)
    else some (s.set_header h (some { hd with owner_count := hd.owner_count + 1,
                                               internal_count := hd.internal_count + 1 }), true)

/-- The method `reachable_from` of header `h`, called with the `internal_base` at `b`. -/
def reachable_from (h b : Nat) (s : Heap) : Option Heap :=
  match s.headers h, s.bases b with
  | some hd, some base =>
    let hd1 := { hd with internal_count := hd.internal_count + 1 }
    match base.self_header with
    | some sh => some (s.set_header h (some { hd1 with back_pointers := add hd1.back_pointers sh }))
    | none => some (s.set_header h (some hd1))
  | _, _ => none

/-- The loop of `internal_base::set_self_header` over the registered handles. -/
def set_self_header_loop (header : Nat) : List Nat → Heap → Option Heap
  | [], s => some s
  | p :: ps, s =>
    match s.iptrs p with
    | none => none
    | some ip =>
      match ip.header with
      | some t =>
        match add_back_pointer t header s with
        | none => none
        | some s1 => set_self_header_loop header ps s1
      | none => set_self_header_loop header ps s

/-- The method `internal_base::set_self_header` of the `internal_base` at `b`. -/
def set_self_header (b header : Nat) (s : Heap) : Option Heap :=
  match s.bases b with
  | none => none
  | some base =>
    set_self_header_loop header base.pointers
      (s.set_base b (some { base with self_header := some header }))

/-- The method `set_owner` of header `h`. -/
def set_owner (h : Nat) (s : Heap) : Option Heap :=
  match s.headers h with
  | none => none
  | some hd =>
    match hd.get_internal_base with
    | some target => set_self_header target h s
    | none => some s

/-! ## The reachability traversal -/

/-- Membership test through a possibly null `pointer_set *`: `set && set->contains(p)`. -/
def opt_contains (set : Option (List Nat)) (p : Nat) : Bool :=
  match set with
  | some v => contains v p
  | none => false

/-- The call `owned_nodes->add_unique(node)` guarded by `if (owned_nodes)`. -/
def opt_add_unique (set : Option (List Nat)) (p : Nat) : Option (List Nat) :=
  match set with
  | some v => some (add_unique v p).1
  | none => none

/-- What the static `check_reachable` leaves behind: the returned flag and the final values of
the reference parameters `seen_parents`, `pending` and `*owned_nodes`. -/
structure Walk where
  result : Bool
  seen_parents : List Nat
  pending : List Nat
  owned_nodes : Option (List Nat)
  deriving DecidableEq, Repr

/-- The loop `for (auto bp : node->back_pointers)` of the static `check_reachable`; `result` is
true when the loop left through `return true`. -/
def check_reachable_bps (node : Nat) (unreachable_nodes : Option (List Nat)) :
    List Nat → List Nat → List Nat → Option (List Nat) → Walk
  | [], seen_parents, pending, owned_nodes => ⟨false, seen_parents, pending, owned_nodes⟩
  | bp :: bps, seen_parents, pending, owned_nodes =>
    if opt_contains unreachable_nodes bp || contains seen_parents bp then
      check_reachable_bps node unreachable_nodes bps seen_parents pending owned_nodes
    else if opt_contains owned_nodes bp then
      ⟨true, seen_parents, pending, opt_add_unique owned_nodes node⟩
    else
      check_reachable_bps node unreachable_nodes bps (add seen_parents bp) (bp :: pending)
        owned_nodes

/-- The `while (!pending.empty())` loop of the static `check_reachable`, with fuel. -/
def check_reachable_loop (headers : Nat → Option root_ptr_header_block_base)
    (unreachable_nodes : Option (List Nat)) :
    Nat → List Nat → List Nat → Option (List Nat) → Option Walk
  | _, seen_parents, [], owned_nodes => some ⟨false, seen_parents, [], owned_nodes⟩
  | 0, _, _ :: _, _ => none
  | fuel + 1, seen_parents, node :: pending, owned_nodes =>
    if opt_contains owned_nodes node then some ⟨true, seen_parents, pending, owned_nodes⟩
    else if opt_contains unreachable_nodes node then
      check_reachable_loop headers unreachable_nodes fuel seen_parents pending owned_nodes
    else
      match headers node with
      | none => none
      | some hd =>
        if !is_owned hd then
          let w := check_reachable_bps node unreachable_nodes hd.back_pointers seen_parents
            pending owned_nodes
          if w.result then some w
          else check_reachable_loop headers unreachable_nodes fuel w.seen_parents w.pending
            w.owned_nodes
        else some ⟨true, seen_parents, pending, opt_add_unique owned_nodes node⟩

/-- The static `check_reachable(seen_parents, pending, unreachable_nodes, owned_nodes)`. -/
def check_reachable_static (s : Heap) (seen_parents pending : List Nat)
    (unreachable_nodes owned_nodes : Option (List Nat)) : Option Walk :=
  check_reachable_loop s.headers unreachable_nodes (s.next_header + pending.length + 1)
    seen_parents pending owned_nodes

/-- The local state of `find_unreachable_children`: `unreachable_nodes`,
`nodes_to_check_children`, `owned_nodes`, `seen_parents` and `pending`. -/
structure Search where
  unreachable_nodes : List Nat
  nodes_to_check_children : List Nat
  owned_nodes : List Nat
  seen_parents : List Nat
  pending : List Nat
  deriving DecidableEq, Repr

/-- The loop `for (auto p : seen_parents) if (unreachable_nodes.add_unique(p))
nodes_to_check_children.push_back(p);` of `find_unreachable_children`. -/
def add_seen_parents : List Nat → List Nat → List Nat → List Nat × List Nat
  | [], unreachable_nodes, nodes_to_check_children => (unreachable_nodes, nodes_to_check_children)
  | p :: ps, unreachable_nodes, nodes_to_check_children =>
    if (add_unique unreachable_nodes p).2 then
      add_seen_parents ps (add_unique unreachable_nodes p).1 (p :: nodes_to_check_children)
    else add_seen_parents ps (add_unique unreachable_nodes p).1 nodes_to_check_children

/-- The body of the loop `while (child)` of `find_unreachable_children` for one handle whose
`header` field is `child_node`. -/
def check_child (s : Heap) (child_node : Nat) (st : Search) : Option Search :=
  if contains st.unreachable_nodes child_node || contains st.owned_nodes child_node then some st
  else
    match s.headers child_node with
    | none => none
    | some hd =>
      if is_owned hd then some { st with owned_nodes := add st.owned_nodes child_node }
      else
        match check_reachable_static s [] [child_node] (some st.unreachable_nodes)
            (some st.owned_nodes) with
        | none => none
        | some w =>
          let owned := w.owned_nodes.getD st.owned_nodes
          if !w.result then
            let r := add_seen_parents w.seen_parents st.unreachable_nodes
              st.nodes_to_check_children
            let u := add_unique r.1 child_node
            some { unreachable_nodes := u.1,
                   nodes_to_check_children := if u.2 then child_node :: r.2 else r.2,
                   owned_nodes := owned, seen_parents := w.seen_parents, pending := w.pending }
          else
            some { st with owned_nodes := (add_unique owned child_node).1,
                           seen_parents := w.seen_parents, pending := w.pending }

/-- The loop `while (child)` of `find_unreachable_children` over the handles registered with one
`internal_base`. -/
def check_children (s : Heap) : List Nat → Search → Option Search
  | [], st => some st
  | child :: children, st =>
    match s.iptrs child with
    | none => none
    | some ip =>
      match ip.header with
      | some child_node =>
        match check_child s child_node st with
        | none => none
        | some st1 => check_children s children st1
      | none => check_children s children st

/-- The loop `while (!nodes_to_check_children.empty())` of `find_unreachable_children`, with
fuel. -/
def find_unreachable_children_loop (s : Heap) : Nat → Search → Option Search
  | fuel, st =>
    match st.nodes_to_check_children with
    | [] => some st
    | next :: rest =>
      match fuel with
      | 0 => none
      | fuel + 1 =>
        match s.headers next with
        | none => none
        | some hd =>
          match hd.get_internal_base with
          | some b =>
            match s.bases b with
            | none => none
            | some base =>
              match check_children s base.pointers { st with nodes_to_check_children := rest } with
              | none => none
              | some st1 => find_unreachable_children_loop s fuel st1
          | none =>
            find_unreachable_children_loop s fuel { st with nodes_to_check_children := rest }

/-- The static `find_unreachable_children(unreachable_nodes, nodes_to_check_children)`: the final
value of `unreachable_nodes`. -/
def find_unreachable_children (s : Heap) (unreachable_nodes : List Nat) : Option (List Nat) :=
  match find_unreachable_children_loop s (s.next_header + unreachable_nodes.length + 1)
      { unreachable_nodes := unreachable_nodes,
        nodes_to_check_children := unreachable_nodes.reverse,
        owned_nodes := [], seen_parents := [], pending := [] } with
  | none => none
  | some st => some st.unreachable_nodes

/-! ## Collection -/

/-- The body of the loop `while (child)` of `mark_unreachable` on header `this`, for the handle
at `child`. -/
def sever (this child : Nat) (s : Heap) : Option Heap :=
  match s.iptrs child with
  | none => none
  | some ip =>
    match ip.header with
    | some child_node =>
      match s.headers child_node with
      | none => none
      | some hd =>
        some ((s.set_header child_node
          (some { hd with internal_count := dec hd.internal_count,
                          back_pointers := remove hd.back_pointers this })).set_iptr child
          (some { ip with header := none }))
    | none => some s

/-- The loop `while (child)` of `mark_unreachable` over the registered handles. -/
def sever_all (this : Nat) : List Nat → Heap → Option Heap
  | [], s => some s
  | child :: children, s =>
    match sever this child s with
    | none => none
    | some s1 => sever_all this children s1

/-- The method `mark_unreachable` of header `h`. -/
def mark_unreachable (h : Nat) (s : Heap) : Option Heap :=
  match s.headers h with
  | none => none
  | some hd =>
    let s1 := (s.set_header h (some { hd with unreachable := true })).log (Event.marked h)
    match hd.get_internal_base with
    | some b =>
      match s1.bases b with
      | none => none
      | some base => sever_all h base.pointers s1
    | none => some s1

/-- The method `internal_base::deregister_ptr` of the `internal_base` at `b` for the handle at
`p`; `nrf h b` is the callee `h->not_reachable_from(b)`. -/
def deregister_ptr (nrf : Nat → Nat → Heap → Option Heap) (b p : Nat) (s : Heap) :
    Option Heap :=
  match s.bases b, s.iptrs p with
  | some base, some ip =>
    let s1 := s.set_base b (some { base with pointers := base.pointers.erase p })
    match ip.header with
    | some h => nrf h b s1
    | none => some s1
  | _, _ => none

/-- The destructor `~internal_ptr` of the handle at `p`, after which the handle is gone. -/
def destroy_internal_ptr (nrf : Nat → Nat → Heap → Option Heap) (p : Nat) (s : Heap) :
    Option Heap :=
  match s.iptrs p with
  | none => none
  | some ip =>
    match deregister_ptr nrf ip.base p s with
    | none => none
    | some s1 => some (s1.set_iptr p none)

/-- The member destructors run by a payload's destructor: every handle registered with the
payload is destroyed. -/
def destroy_members (nrf : Nat → Nat → Heap → Option Heap) : List Nat → Heap → Option Heap
  | [], s => some s
  | p :: ps, s =>
    match destroy_internal_ptr nrf p s with
    | none => none
    | some s1 => destroy_members nrf ps s1

/-- The `header` field of each of the listed handles. -/
def observe (s : Heap) (ps : List Nat) : List (Option Nat) :=
  ps.map (fun p => match s.iptrs p with
    | some ip => ip.header
    | none => none)

/-- The virtual `do_delete` of header `h`: the payload's destructor runs. -/
def do_delete (nrf : Nat → Nat → Heap → Option Heap) (h : Nat) (s : Heap) : Option Heap :=
  match s.headers h with
  | none => none
  | some hd =>
    match hd.get_internal_base with
    | some b =>
      match s.bases b with
      | none => none
      | some base =>
        match destroy_members nrf base.pointers
            (s.log (Event.destroyed h (observe s base.pointers))) with
        | none => none
        | some s1 => some (s1.set_base b none)
    | none => some (s.log (Event.destroyed h []))

/-- The method `delete_object` of header `h`. -/
def delete_object (nrf : Nat → Nat → Heap → Option Heap) (h : Nat) (s : Heap) : Option Heap :=
  match s.headers h with
  | none => none
  | some hd =>
    if !hd.deleted then do_delete nrf h (s.set_header h (some { hd with deleted := true }))
    else some s

/-- The first loop of `cleanup_unreachable_nodes`. -/
def mark_all : List Nat → Heap → Option Heap
  | [], s => some s
  | p :: ps, s =>
    match mark_unreachable p s with
    | none => none
    | some s1 => mark_all ps s1

/-- The second loop of `cleanup_unreachable_nodes`. -/
def delete_all (nrf : Nat → Nat → Heap → Option Heap) : List Nat → Heap → Option Heap
  | [], s => some s
  | p :: ps, s =>
    match delete_object nrf p s with
    | none => none
    | some s1 => delete_all nrf ps s1

/-- The statement `delete p` on a header block. -/
def free_header (p : Nat) (s : Heap) : Option Heap :=
  match s.headers p with
  | none => none
  | some _ => some ((s.set_header p none).log (Event.freed p))

/-- The third loop of `cleanup_unreachable_nodes`. -/
def free_all : List Nat → Heap → Option Heap
  | [], s => some s
  | p :: ps, s =>
    match free_header p s with
    | none => none
    | some s1 => free_all ps s1

/-- The static `cleanup_unreachable_nodes(seen)`. -/
def cleanup_unreachable_nodes (nrf : Nat → Nat → Heap → Option Heap) (seen : List Nat)
    (s : Heap) : Option Heap :=
  match mark_all seen s with
  | none => none
  | some s1 =>
    match delete_all nrf seen s1 with
    | none => none
    | some s2 => free_all seen s2

/-- The method `free_self` of header `h`. -/
def free_self (nrf : Nat → Nat → Heap → Option Heap) (h : Nat) (s : Heap) : Option Heap :=
  match s.headers h with
  | none => none
  | some hd =>
    if hd.unreachable then some s
    else
      match find_unreachable_children s (add [] h) with
      | none => none
      | some seen => cleanup_unreachable_nodes nrf seen s

/-- The non-static method `check_reachable` of header `h`. -/
def check_reachable (nrf : Nat → Nat → Heap → Option Heap) (h : Nat) (s : Heap) :
    Option Heap :=
  match s.headers h with
  | none => none
  | some hd =>
    if is_owned hd then some s
    else
      match check_reachable_static s (add [] h) [h] none none with
      | none => none
      | some w =>
        if w.result then some s
        else
          match find_unreachable_children s w.seen_parents with
          | none => none
          | some seen => cleanup_unreachable_nodes nrf seen s

/-- The method `dec_internal_count` of header `h`. -/
def dec_internal_count (nrf : Nat → Nat → Heap → Option Heap) (h : Nat) (s : Heap) :
    Option Heap :=
  match s.headers h with
  | none => none
  | some hd =>
    let s1 := s.set_header h (some { hd with internal_count := dec hd.internal_count })
    if dec hd.internal_count = 0 then free_self nrf h s1
    else if !hd.unreachable && hd.owner_count = 0 then check_reachable nrf h s1
    else some s1

/-- The body of the method `not_reachable_from` of header `h`, called with the `internal_base`
at `b`. -/
def not_reachable_from_body (nrf : Nat → Nat → Heap → Option Heap) (h b : Nat) (s : Heap) :
    Option Heap :=
  match s.headers h, s.bases b with
  | some hd, some base =>
    match base.self_header with
    | some sh =>
      dec_internal_count nrf h
        (s.set_header h (some { hd with back_pointers := remove hd.back_pointers sh }))
    | none => dec_internal_count nrf h s
  | _, _ => none

/-- The method `not_reachable_from`, unfolded to a nesting depth of calls made from within
payload destructors. -/
def not_reachable_from_depth : Nat → Nat → Nat → Heap → Option Heap
  | 0 => fun _ _ _ => none
  | depth + 1 => not_reachable_from_body (not_reachable_from_depth depth)

/-- The method `not_reachable_from` of header `h`, called with the `internal_base` at `b`.  A
nested call made from a payload destructor destroys a payload of its own, so the nesting is
bounded by the number of header blocks. -/
def not_reachable_from (h b : Nat) (s : Heap) : Option Heap :=
  not_reachable_from_depth (s.next_header + 1) h b s

/-- The method `remove_owner` of header `h`. -/
def remove_owner (h : Nat) (s : Heap) : Option Heap :=
  match s.headers h with
  | none => none
  | some hd =>
    dec_internal_count (not_reachable_from_depth s.next_header) h
      (s.set_header h (some { hd with owner_count := dec hd.owner_count }))

/-! ## `internal_base` and the handles

A constructor returns the new heap; the object it constructs is at the address that was the
allocation frontier of its table before the call. -/

/-- Construct an `internal_base` (as a sub-object of a payload under construction, or of an
object that no `root_ptr` will own). -/
def internal_base_ctor (s : Heap) : Heap :=
  { s with next_base := s.next_base + 1 }.set_base s.next_base (some ⟨none, []⟩)

/-- The destructor `~internal_base` of the `internal_base` at `b`. -/
def internal_base_dtor (b : Nat) (s : Heap) : Option Heap :=
  match s.bases b with
  | none => none
  | some _ => some (s.set_base b none)

/-- The method `internal_base::register_ptr` of the `internal_base` at `b`. -/
def register_ptr (b p : Nat) (s : Heap) : Option Heap :=
  match s.bases b with
  | none => none
  | some base => some (s.set_base b (some { base with pointers := p :: base.pointers }))

/-- The constructor `root_ptr()`. -/
def root_ptr_default (s : Heap) : Heap :=
  { s with next_root := s.next_root + 1 }.set_root s.next_root (some ⟨none, none⟩)

/-- The constructors `root_ptr(Y *p)` and `root_ptr(root_ptr_header_combined<T> *)` (the one
used by `make_root`): a fresh header block for a payload whose `internal_base` is `b`, then
`set_owner()`.  The payload pointer is represented by the address of the header block. -/
def root_ptr_from_raw (b : Option Nat) (s : Heap) : Option Heap :=
  let h := s.next_header
  let s1 := ({ s with next_header := h + 1, next_root := s.next_root + 1 }.set_header h
    (some (new_header b))).set_root s.next_root (some ⟨some h, some h⟩)
  set_owner h s1

/-- The copy constructor `root_ptr(const root_ptr &r)` from the handle at `r`. -/
def root_ptr_copy (r : Nat) (s : Heap) : Option Heap :=
  match s.roots r with
  | none => none
  | some rp =>
    let s1 := { s with next_root := s.next_root + 1 }.set_root s.next_root (some rp)
    match rp.header with
    | some h => add_owner h s1
    | none => some s1

/-- The aliasing constructor `root_ptr(const root_ptr<Y> &r, T *p)`. -/
def root_ptr_alias (r : Nat) (p : Option Nat) (s : Heap) : Option Heap :=
  match s.roots r with
  | none => none
  | some rp =>
    let s1 := { s with next_root := s.next_root + 1 }.set_root s.next_root (some ⟨p, rp.header⟩)
    match rp.header with
    | some h => add_owner h s1
    | none => some s1

/-- The move constructor `root_ptr(root_ptr &&r)` from the handle at `r`. -/
def root_ptr_move (r : Nat) (s : Heap) : Option Heap :=
  match s.roots r with
  | none => none
  | some rp =>
    some (({ s with next_root := s.next_root + 1 }.set_root s.next_root (some rp)).set_root r
      (some ⟨none, none⟩))

/-- The constructor `root_ptr(internal_ptr<Y> const &other)` from the handle at `other`. -/
def root_ptr_from_internal (other : Nat) (s : Heap) : Option Heap :=
  match s.iptrs other with
  | none => none
  | some ip =>
    let s1 := { s with next_root := s.next_root + 1 }
    match ip.header with
    | some h =>
      match owner_from_internal h s1 with
      | none => none
      | some (s2, true) => some (s2.set_root s.next_root (some ⟨ip.ptr, some h⟩))
      | some (s2, false) => some (s2.set_root s.next_root (some ⟨none, none⟩))
    | none => some (s1.set_root s.next_root (some ⟨ip.ptr, none⟩))

/-- The destructor `~root_ptr` of the handle at `r`, after which the handle is gone. -/
def root_ptr_dtor (r : Nat) (s : Heap) : Option Heap :=
  match s.roots r with
  | none => none
  | some rp =>
    match rp.header with
    | some h =>
      match remove_owner h s with
      | none => none
      | some s1 => some (s1.set_root r none)
    | none => some (s.set_root r none)

/-- The method `root_ptr::reset()` of the handle at `r`. -/
def root_ptr_reset (r : Nat) (s : Heap) : Option Heap :=
  match s.roots r with
  | none => none
  | some rp =>
    match rp.header with
    | some h =>
      match remove_owner h s with
      | none => none
      | some s1 =>
        match s1.roots r with
        | none => none
        | some _ => some (s1.set_root r (some ⟨none, none⟩))
    | none => some (s.set_root r (some ⟨none, none⟩))

/-- The method `root_ptr::swap` between the handles at `a` and `b`. -/
def root_ptr_swap (a b : Nat) (s : Heap) : Option Heap :=
  match s.roots a, s.roots b with
  | some ra, some rb => some ((s.set_root a (some rb)).set_root b (some ra))
  | _, _ => none

/-- The copy assignment `root_ptr::operator=(const root_ptr &r)` to the handle at `this`. -/
def root_ptr_assign (this r : Nat) (s : Heap) : Option Heap :=
  if r ≠ this then
    let temp := s.next_root
    match root_ptr_copy r s with
    | none => none
    | some s1 =>
      match root_ptr_swap this temp s1 with
      | none => none
      | some s2 => root_ptr_dtor temp s2
  else
    match s.roots this with
    | none => none
    | some _ => some s

/-- The move assignment `root_ptr::operator=(root_ptr &&r)` to the handle at `this`. -/
def root_ptr_move_assign (this r : Nat) (s : Heap) : Option Heap :=
  match root_ptr_swap this r s with
  | none => none
  | some s1 => root_ptr_reset r s1

/-- The assignment `root_ptr::operator=(const internal_ptr<Y> &r)` to the handle at `this`. -/
def root_ptr_assign_internal (this r : Nat) (s : Heap) : Option Heap :=
  let temp := s.next_root
  match root_ptr_from_internal r s with
  | none => none
  | some s1 =>
    match root_ptr_swap this temp s1 with
    | none => none
    | some s2 => root_ptr_dtor temp s2

/-- The method `root_ptr::get`. -/
def root_ptr_get (s : Heap) (r : Nat) : Option (Option Nat) :=
  match s.roots r with
  | none => none
  | some rp => some rp.ptr

/-- The method `root_ptr::use_count`. -/
def root_ptr_use_count (s : Heap) (r : Nat) : Option Nat :=
  match s.roots r with
  | none => none
  | some rp =>
    match rp.header with
    | some h =>
      match s.headers h with
      | none => none
      | some hd => some (header_use_count hd)
    | none => some 0

/-- The conversion `root_ptr::operator bool`. -/
def root_ptr_bool (s : Heap) (r : Nat) : Option Bool :=
  match s.roots r with
  | none => none
  | some rp => some rp.ptr.isSome

/-- The constructor `internal_ptr(internal_base *base_)`. -/
def internal_ptr_empty (base_ : Nat) (s : Heap) : Option Heap :=
  register_ptr base_ s.next_iptr
    ({ s with next_iptr := s.next_iptr + 1 }.set_iptr s.next_iptr (some ⟨base_, none, none⟩))

/-- The common body of the two constructors `internal_ptr(base_, p)`: the handle is built with
the given `header` and `ptr`, registered, and counted on its target. -/
def internal_ptr_ctor (base_ : Nat) (header ptr : Option Nat) (s : Heap) : Option Heap :=
  match register_ptr base_ s.next_iptr
      ({ s with next_iptr := s.next_iptr + 1 }.set_iptr s.next_iptr
        (some ⟨base_, header, ptr⟩)) with
  | none => none
  | some s1 =>
    match header with
    | some h => reachable_from h base_ s1
    | none => some s1

/-- The constructor `internal_ptr(internal_base *base_, root_ptr<T> const &p)`. -/
def internal_ptr_from_root (base_ p : Nat) (s : Heap) : Option Heap :=
  match s.roots p with
  | none => none
  | some rp => internal_ptr_ctor base_ rp.header rp.ptr s

/-- The constructor `internal_ptr(internal_base *base_, internal_ptr<T> const &p)`. -/
def internal_ptr_from_internal (base_ p : Nat) (s : Heap) : Option Heap :=
  match s.iptrs p with
  | none => none
  | some ip => internal_ptr_ctor base_ ip.header ip.ptr s

/-- The move constructor `internal_ptr(internal_ptr &&other)`. -/
def internal_ptr_move (other : Nat) (s : Heap) : Option Heap :=
  match s.iptrs other with
  | none => none
  | some ip =>
    match register_ptr ip.base s.next_iptr
        ({ s with next_iptr := s.next_iptr + 1 }.set_iptr s.next_iptr (some ip)) with
    | none => none
    | some s1 => some (s1.set_iptr other (some { ip with header := none, ptr := none }))

/-- The method `internal_ptr::reset()` of the handle at `this`. -/
def internal_ptr_reset (this : Nat) (s : Heap) : Option Heap :=
  match s.iptrs this with
  | none => none
  | some ip =>
    match ip.header with
    | some h =>
      match not_reachable_from h ip.base s with
      | none => none
      | some s1 =>
        match s1.iptrs this with
        | none => none
        | some ip1 => some (s1.set_iptr this (some { ip1 with header := none, ptr := none }))
    | none => some (s.set_iptr this (some { ip with header := none, ptr := none }))

/-- The assignment `internal_ptr::operator=(root_ptr<T> const &p)` to the handle at `this`. -/
def internal_ptr_assign_root (this p : Nat) (s : Heap) : Option Heap :=
  match internal_ptr_reset this s with
  | none => none
  | some s1 =>
    match s1.iptrs this, s1.roots p with
    | some ip, some rp =>
      let s2 := s1.set_iptr this (some { ip with ptr := rp.ptr, header := rp.header })
      match rp.header with
      | some h => reachable_from h ip.base s2
      | none => some s2
    | _, _ => none

/-- The assignment `internal_ptr::operator=(internal_ptr const &p)` to the handle at `this`. -/
def internal_ptr_assign (this p : Nat) (s : Heap) : Option Heap :=
  match s.iptrs this, s.iptrs p with
  | some ip, some src =>
    if src.header ≠ ip.header ∨ src.ptr ≠ ip.ptr then
      let s1 := s.set_iptr this (some { ip with header := src.header, ptr := src.ptr })
      match (match src.header with
          | some h => reachable_from h ip.base s1
          | none => some s1) with
      | none => none
      | some s2 =>
        match ip.header with
        | some temp_header => not_reachable_from temp_header ip.base s2
        | none => some s2
    else some s
  | _, _ => none

/-- The destructor `~internal_ptr` of the handle at `p`, called from outside any payload
destructor. -/
def internal_ptr_dtor (p : Nat) (s : Heap) : Option Heap :=
  destroy_internal_ptr not_reachable_from p s

/-- The method `internal_ptr::swap` between the handles at `this` and `other`. -/
def internal_ptr_swap (this other : Nat) (s : Heap) : Option Heap :=
  let temp := s.next_root
  let temp2 := s.next_root + 1
  match root_ptr_from_internal other s with
  | none => none
  | some s1 =>
    match root_ptr_from_internal this s1 with
    | none => none
    | some s2 =>
      match internal_ptr_assign_root other temp2 s2 with
      | none => none
      | some s3 =>
        match internal_ptr_assign_root this temp s3 with
        | none => none
        | some s4 =>
          match root_ptr_dtor temp2 s4 with
          | none => none
          | some s5 => root_ptr_dtor temp s5

/-- The method `internal_ptr::get`. -/
def internal_ptr_get (s : Heap) (p : Nat) : Option (Option Nat) :=
  match s.iptrs p with
  | none => none
  | some ip =>
    match ip.header with
    | some h =>
      match s.headers h with
      | none => none
      | some hd => some (if hd.unreachable then none else ip.ptr)
    | none => some none

/-- The method `internal_ptr::use_count`. -/
def internal_ptr_use_count (s : Heap) (p : Nat) : Option Nat :=
  match s.iptrs p with
  | none => none
  | some ip =>
    match ip.header with
    | some h =>
      match s.headers h with
      | none => none
      | some hd => some (header_use_count hd)
    | none => some 0

/-- The conversion `internal_ptr::operator bool`. -/
def internal_ptr_bool (s : Heap) (p : Nat) : Option Bool :=
  match internal_ptr_get s p with
  | none => none
  | some g => some g.isSome

/-! ## The back-pointer graph -/

/-- An edge of the back-pointer graph: `y` is an element of `back_pointers` of the live
header `x`. -/
def bp_edge (s : Heap) (x y : Nat) : Prop :=
  ∃ hd, s.headers x = some hd ∧ y ∈ hd.back_pointers

/-- A back-pointer path of length `>= 0` from `x` to `y`. -/
def bp_path (s : Heap) : Nat → Nat → Prop :=
  Relation.ReflTransGen (bp_edge s)

/-- The header at `z` is live and `is_owned()` holds for it. -/
def owned_at (s : Heap) (z : Nat) : Prop :=
  ∃ hd, s.headers z = some hd ∧ is_owned hd = true

/-- The header `x` has a back-pointer path of length `>= 0` to a header for which `is_owned()`
is true. -/
def has_owner (s : Heap) (x : Nat) : Prop :=
  ∃ z, bp_path s x z ∧ owned_at s z

/-! ## Counting handles, and the invariant -/

/-- The number of addresses below `n` that satisfy `f`. -/
def count_upto (n : Nat) (f : Nat → Bool) : Nat := (List.range n).countP f

/-- The `internal_ptr` at `p` has the header `t` as its target; the handle `ex`, when given, is
one that is being reset or destroyed and is left out. -/
def iptr_targets (s : Heap) (ex : Option Nat) (t p : Nat) : Bool :=
  decide (some p ≠ ex) &&
    match s.iptrs p with
    | some ip => decide (ip.header = some t)
    | none => false

/-- The `internal_ptr` at `p` has target `t` and is held by an `internal_base` whose
`self_header` is `parent`. -/
def iptr_targets_from (s : Heap) (ex : Option Nat) (t parent p : Nat) : Bool :=
  iptr_targets s ex t p &&
    match s.iptrs p with
    | some ip =>
      match s.bases ip.base with
      | some base => decide (base.self_header = some parent)
      | none => false
    | none => false

/-- The `internal_ptr` at `p` has target `t` and is held by an `internal_base` that has a
`self_header`. -/
def iptr_targets_bound (s : Heap) (ex : Option Nat) (t p : Nat) : Bool :=
  iptr_targets s ex t p &&
    match s.iptrs p with
    | some ip =>
      match s.bases ip.base with
      | some base => base.self_header.isSome
      | none => false
    | none => false

/-- The `root_ptr` at `r` shares the header `t`; the handle `ex`, when given, is one that is
being released and is left out. -/
def root_targets (s : Heap) (ex : Option Nat) (t r : Nat) : Bool :=
  decide (some r ≠ ex) &&
    match s.roots r with
    | some rp => decide (rp.header = some t)
    | none => false

/-- The number of `internal_ptr` handles whose target is `t`. -/
def iptr_count (s : Heap) (ex : Option Nat) (t : Nat) : Nat :=
  count_upto s.next_iptr (iptr_targets s ex t)

/-- The number of `internal_ptr` handles with target `t` held by the payload of `parent`. -/
def iptr_count_from (s : Heap) (ex : Option Nat) (t parent : Nat) : Nat :=
  count_upto s.next_iptr (iptr_targets_from s ex t parent)

/-- The number of `internal_ptr` handles with target `t` held by a payload that has a
header. -/
def iptr_count_bound (s : Heap) (ex : Option Nat) (t : Nat) : Nat :=
  count_upto s.next_iptr (iptr_targets_bound s ex t)

/-- The number of `root_ptr` handles sharing the header `t`. -/
def root_count (s : Heap) (ex : Option Nat) (t : Nat) : Nat :=
  count_upto s.next_root (root_targets s ex t)

/-- The part of the invariant that holds at every moment of a handle operation, also inside a
collection.  `exI` and `exR` are the `internal_ptr` and the `root_ptr` (if any) whose removal
is in progress: their target has already been told, they are no longer counted, and they may
dangle. -/
structure inv_core (s : Heap) (exI exR : Option Nat) : Prop where
  header_lt : ∀ h hd, s.headers h = some hd → h < s.next_header
  base_lt : ∀ b base, s.bases b = some base → b < s.next_base
  iptr_lt : ∀ p ip, s.iptrs p = some ip → p < s.next_iptr
  root_lt : ∀ r rp, s.roots r = some rp → r < s.next_root
  bp_sorted : ∀ h hd, s.headers h = some hd → hd.back_pointers.Sorted (· ≤ ·)
  header_of_base : ∀ b base h, s.bases b = some base → base.self_header = some h →
    ∃ hd, s.headers h = some hd ∧ hd.get_internal_base = some b
  ptr_of_base : ∀ b base, s.bases b = some base → ∀ p ∈ base.pointers,
    ∃ ip, s.iptrs p = some ip ∧ ip.base = b
  pointers_nodup : ∀ b base, s.bases b = some base → base.pointers.Nodup
  base_of_ptr : ∀ p ip, s.iptrs p = some ip → some p ≠ exI →
    ∃ base, s.bases ip.base = some base ∧ p ∈ base.pointers
  target_live : ∀ p ip t, s.iptrs p = some ip → some p ≠ exI → ip.header = some t →
    ∃ hd, s.headers t = some hd
  root_target_live : ∀ r rp t, s.roots r = some rp → some r ≠ exR → rp.header = some t →
    ∃ hd, s.headers t = some hd
  bp_count : ∀ t hd, s.headers t = some hd →
    ∀ parent, hd.back_pointers.count parent = iptr_count_from s exI t parent
  bp_length : ∀ t hd, s.headers t = some hd →
    hd.back_pointers.length = iptr_count_bound s exI t
  owner_count_eq : ∀ t hd, s.headers t = some hd → hd.owner_count = root_count s exR t
  internal_count_eq : ∀ t hd, s.headers t = some hd →
    hd.internal_count = hd.owner_count + iptr_count s exI t

/-- Outside the set `Z` under collection no header is flagged. -/
def flags_ok (s : Heap) (Z : List Nat) : Prop :=
  ∀ h hd, s.headers h = some hd → h ∉ Z → hd.unreachable = false ∧ hd.deleted = false

/-- Outside the set `Z` under collection the payload's `internal_base` of every header is
alive and knows its header. -/
def header_base_ok (s : Heap) (Z : List Nat) : Prop :=
  ∀ h hd b, s.headers h = some hd → h ∉ Z → hd.get_internal_base = some b →
    ∃ base, s.bases b = some base ∧ base.self_header = some h

/-- The invariant between handle operations, with a handle removal possibly in progress. -/
structure inv (s : Heap) (exI exR : Option Nat) : Prop where
  core : inv_core s exI exR
  flags : flags_ok s []
  header_base : header_base_ok s []

/-- Every live header has a back-pointer path to an owned header. -/
def all_owned (s : Heap) : Prop :=
  ∀ h hd, s.headers h = some hd → has_owner s h

/-- The handles registered with the payload of the header `h` (none when the payload is not an
`internal_base`). -/
def payload_handles (s : Heap) (h : Nat) : List Nat :=
  match s.headers h with
  | some hd =>
    match hd.get_internal_base with
    | some b =>
      match s.bases b with
      | some base => base.pointers
      | none => []
    | none => []
  | none => []

/-- The edge contributed by the `internal_ptr` at `p`: its target header and the `self_header`
of the `internal_base` holding it. -/
def iptr_edge (s : Heap) (ex : Option Nat) (p : Nat) : Option (Nat × Option Nat) :=
  if some p = ex then none
  else
    match s.iptrs p with
    | some ip =>
      match ip.header with
      | some t =>
        some (t, match s.bases ip.base with
          | some base => base.self_header
          | none => none)
      | none => none
    | none => none

/-! ## The heap at the moment a collection may start -/

/-- The heap at the moment `remove_owner` of header `T` has executed `--owner_count` and
`--internal_count` and is about to decide whether anything must be collected. -/
def Heap.released (s : Heap) (T : Nat) : Heap :=
  match s.headers T with
  | some hd =>
    s.set_header T (some { hd with owner_count := dec hd.owner_count,
                                   internal_count := dec hd.internal_count })
  | none => s

/-- The header block after `not_reachable_from`, called with an `internal_base` whose
`self_header` is `parent`, has removed the back pointer and executed `--internal_count`. -/
def unlink_header (hd : root_ptr_header_block_base) (parent : Option Nat) :
    root_ptr_header_block_base :=
  { hd with
    internal_count := dec hd.internal_count,
    back_pointers := match parent with
      | some sh => remove hd.back_pointers sh
      | none => hd.back_pointers }

/-- The heap at the moment `not_reachable_from` of header `T`, called with an `internal_base`
whose `self_header` is `parent`, has removed the back pointer and executed
`--internal_count`, and is about to decide whether anything must be collected. -/
def Heap.unlinked (s : Heap) (T : Nat) (parent : Option Nat) : Heap :=
  match s.headers T with
  | some hd => s.set_header T (some (unlink_header hd parent))
  | none => s

/-! ## Predicates used by the proofs -/

/-- A node whose back pointers have all been looked at. -/
def walk_done (s : Heap) (unr : Option (List Nat)) (seen : List Nat) (x : Nat) : Prop :=
  ∃ hd, s.headers x = some hd ∧ is_owned hd = false ∧
    ∀ y ∈ hd.back_pointers, opt_contains unr y = true ∨ y ∈ seen

/-- The number of addresses below `N` that are not in `seen`. -/
def unseen (N : Nat) (seen : List Nat) : Nat := (Finset.range N \ seen.toFinset).card

/-- The part of well-formedness that the traversals rely on: nothing they dereference
dangles. -/
structure graph_ok (s : Heap) : Prop where
  header_lt : ∀ h hd, s.headers h = some hd → h < s.next_header
  bp_live : ∀ h hd, s.headers h = some hd → ∀ y ∈ hd.back_pointers, ∃ hd1, s.headers y = some hd1
  base_live : ∀ h hd b, s.headers h = some hd → hd.get_internal_base = some b →
    ∃ base, s.bases b = some base
  ptr_live : ∀ b base, s.bases b = some base → ∀ p ∈ base.pointers, ∃ ip, s.iptrs p = some ip
  target_live : ∀ p ip t, s.iptrs p = some ip → ip.header = some t → ∃ hd, s.headers t = some hd

/-- Every member of `U` is a live header that is not owned and whose back pointers are all
in `U`. -/
def dead_closed (s : Heap) (U : List Nat) : Prop :=
  ∀ u ∈ U, ∃ hd, s.headers u = some hd ∧ is_owned hd = false ∧ ∀ y ∈ hd.back_pointers, y ∈ U

/-- Every target of a handle registered with the payload of `x` is in `U` or has an owner. -/
def children_classified (s : Heap) (U : List Nat) (x : Nat) : Prop :=
  ∀ hd b base, s.headers x = some hd → hd.get_internal_base = some b →
    s.bases b = some base → ∀ p ∈ base.pointers, ∀ ip c, s.iptrs p = some ip →
      ip.header = some c → c ∈ U ∨ has_owner s c

/-- The loop invariant of `find_unreachable_children`, without the part about children. -/
structure search_ok (s : Heap) (st : Search) : Prop where
  sorted : st.unreachable_nodes.Sorted (· ≤ ·)
  nodup : st.unreachable_nodes.Nodup
  dead : dead_closed s st.unreachable_nodes
  owned : ∀ x ∈ st.owned_nodes, has_owner s x
  work : ∀ x ∈ st.nodes_to_check_children, x ∈ st.unreachable_nodes

/-- How a surviving header block may change while the set `Z` is collected. -/
structure hdr_step (Z : List Nat) (hd hd1 : root_ptr_header_block_base) : Prop where
  owner : hd1.owner_count = hd.owner_count
  gib : hd1.get_internal_base = hd.get_internal_base
  owned : is_owned hd1 = is_owned hd
  unr : hd.unreachable = true → hd1.unreachable = true
  bp_sub : ∀ y ∈ hd1.back_pointers, y ∈ hd.back_pointers
  bp_keep : ∀ y ∈ hd.back_pointers, y ∉ Z → y ∈ hd1.back_pointers

/-- How the heap may change during the first two passes of the collection of `Z`: no block is
freed, roots and frontiers stay, header blocks change as in `hdr_step`. -/
structure heap_step (Z : List Nat) (s s1 : Heap) : Prop where
  roots : s1.roots = s.roots
  next_header : s1.next_header = s.next_header
  next_base : s1.next_base = s.next_base
  next_iptr : s1.next_iptr = s.next_iptr
  next_root : s1.next_root = s.next_root
  headers_none : ∀ x, s.headers x = none → s1.headers x = none
  headers_some : ∀ x hd, s.headers x = some hd →
    ∃ hd1, s1.headers x = some hd1 ∧ hdr_step Z hd hd1 ∧
      (x ∉ Z → hd1.unreachable = hd.unreachable ∧ hd1.deleted = hd.deleted)

/-- Two header blocks agree on every field that the counting invariant reads. -/
def same_counts (hd hd1 : root_ptr_header_block_base) : Prop :=
  hd1.owner_count = hd.owner_count ∧ hd1.internal_count = hd.internal_count ∧
  hd1.back_pointers = hd.back_pointers ∧ hd1.get_internal_base = hd.get_internal_base

/-- The handle `exI` (if any) is not registered with the payload of any member of `Z`. -/
def excluded (s : Heap) (exI : Option Nat) (Z : List Nat) : Prop :=
  ∀ p, exI = some p → ∀ u ∈ Z, ∀ hd b base, s.headers u = some hd →
    hd.get_internal_base = some b → s.bases b = some base → p ∉ base.pointers

/-- The precondition on a member of the collected set for the second pass. -/
def ready_to_delete (s : Heap) (exI : Option Nat) (u : Nat) : Prop :=
  (∃ hd, s.headers u = some hd ∧ hd.deleted = false ∧
    ∀ b, hd.get_internal_base = some b →
      ∃ base, s.bases b = some base ∧ base.self_header = some u) ∧
  (∀ p ∈ payload_handles s u, ∃ ip, s.iptrs p = some ip ∧ ip.header = none) ∧
  (∀ p ∈ payload_handles s u, some p ≠ exI)

/-- What a collection of the set `Z` leaves behind. -/
structure collected (Z : List Nat) (s s1 : Heap) : Prop where
  roots : s1.roots = s.roots
  next_header : s1.next_header = s.next_header
  next_base : s1.next_base = s.next_base
  next_iptr : s1.next_iptr = s.next_iptr
  next_root : s1.next_root = s.next_root
  freed : ∀ x ∈ Z, s1.headers x = none
  kept : ∀ x hd, x ∉ Z → s.headers x = some hd →
    ∃ hd1, s1.headers x = some hd1 ∧ hdr_step Z hd hd1
  headers_none : ∀ x, s.headers x = none → s1.headers x = none
  bases_gone : ∀ u ∈ Z, ∀ hd b, s.headers u = some hd → hd.get_internal_base = some b →
    s1.bases b = none
  bases_kept : ∀ b, (∀ u ∈ Z, ∀ hd, s.headers u = some hd → hd.get_internal_base ≠ some b) →
    s1.bases b = s.bases b
  iptrs_gone : ∀ u ∈ Z, ∀ q ∈ payload_handles s u, s1.iptrs q = none
  iptrs_kept : ∀ q, (∀ u ∈ Z, q ∉ payload_handles s u) → s1.iptrs q = s.iptrs q
  trace : ∃ obs : Nat → List (Option Nat), (∀ u, ∀ o ∈ obs u, o = none) ∧
    s1.trace = s.trace ++ Z.map Event.marked ++
      Z.map (fun u => Event.destroyed u (obs u)) ++ Z.map Event.freed

/-- What the three loops of `cleanup_unreachable_nodes(Z)` do, run from the heap `m` and
ending in the heap `s3`.  After the first loop (heap `s1`) only `marked` events have been
logged, every member of `Z` is flagged `unreachable` and every handle registered with the
payload of a member has a nil target, so that it reads as nil.  The second loop (ending in
heap `s2`) logs one `destroyed` event per member, with the targets that the handles of the
payload have when its destructor starts: all nil; no header block has been freed by then.  The
third loop logs the `freed` events and frees the header blocks. -/
def passes (nrf : Nat → Nat → Heap → Option Heap) (Z : List Nat) (m s3 : Heap) : Prop :=
  ∃ s1 s2, mark_all Z m = some s1 ∧ delete_all nrf Z s1 = some s2 ∧ free_all Z s2 = some s3 ∧
    s1.trace = m.trace ++ Z.map Event.marked ∧
    (∀ u ∈ Z, ∃ hd, s1.headers u = some hd ∧ hd.unreachable = true) ∧
    (∀ u ∈ Z, ∀ q ∈ payload_handles s1 u, ∃ ip, s1.iptrs q = some ip ∧ ip.header = none) ∧
    (∀ u ∈ Z, ∀ q ∈ payload_handles s1 u,
      internal_ptr_get s1 q = some none ∧ internal_ptr_bool s1 q = some false) ∧
    s2.trace = s1.trace ++
      Z.map (fun u => Event.destroyed u (observe s1 (payload_handles s1 u))) ∧
    (∀ u ∈ Z, ∀ o ∈ observe s1 (payload_handles s1 u), o = none) ∧
    (∀ u ∈ Z, ∃ hd, s2.headers u = some hd ∧ hd.unreachable = true) ∧
    s3.trace = s2.trace ++ Z.map Event.freed ∧
    (∀ u ∈ Z, s3.headers u = none)

/-- The result of a call that may collect, seen from the state `s1` in which the count of the
header `T` has just been decremented. -/
structure dec_result (T : Nat) (s1 s2 : Heap) (exI exR : Option Nat) (U : List Nat) :
    Prop where
  inv2 : inv s2 exI exR
  owned2 : all_owned s2
  col : collected U s1 s2
  nodup : U.Nodup
  dead : dead_closed s1 U
  same : has_owner s1 T → s2 = s1 ∧ U = []
  mem : ¬ has_owner s1 T → T ∈ U

/-- How the result `s2` of a call that may collect came about, from the heap `m` in which
the count of the header `T` has just been decremented: either nothing is collected and
`cleanup_unreachable_nodes` is not called, or it is called, once, with the set `U`. -/
def ran (nrf : Nat → Nat → Heap → Option Heap) (T : Nat) (m s2 : Heap) (U : List Nat) : Prop :=
  (U = [] ∧ s2 = m) ∨
  (T ∈ U ∧ cleanup_unreachable_nodes nrf U m = some s2 ∧ passes nrf U m s2)

/-- The relation between the old and the new block of the header `x` when the handle `p`
changes the edge it contributes. -/
structure hdr_retarget (s s1 : Heap) (exI exI1 : Option Nat) (p x : Nat)
    (hd hd1 : root_ptr_header_block_base) : Prop where
  gib : hd1.get_internal_base = hd.get_internal_base
  sorted : hd1.back_pointers.Sorted (· ≤ ·)
  bp : ∀ P, hd1.back_pointers.count P + (if iptr_targets_from s exI x P p then 1 else 0) =
    hd.back_pointers.count P + (if iptr_targets_from s1 exI1 x P p then 1 else 0)
  len : hd1.back_pointers.length + (if iptr_targets_bound s exI x p then 1 else 0) =
    hd.back_pointers.length + (if iptr_targets_bound s1 exI1 x p then 1 else 0)
  ic : hd1.internal_count + (if iptr_targets s exI x p then 1 else 0) =
    hd.internal_count + hd1.owner_count - hd.owner_count +
      (if iptr_targets s1 exI1 x p then 1 else 0)
  oc_le : hd.owner_count ≤ hd.internal_count + hd1.owner_count

/-- The invariant between two handle operations. -/
structure good (s : Heap) : Prop where
  inv0 : inv s none none
  owned : all_owned s

/-- What releasing the header `T` through the handle at `r` does. -/
def release_result (s : Heap) (r : Nat) (rp : root_ptr) (v : Option root_ptr) (s1 : Heap) :
    Prop :=
  match rp.header with
  | none => s1 = s.set_root r v
  | some T => ∃ U s2, remove_owner T s = some s2 ∧ s1 = s2.set_root r v ∧
      dec_result T (s.released T) s2 none (some r) U

/-- The edge `e` has target `x`: 1 or 0. -/
def edge_tgt (e : Option (Nat × Option Nat)) (x : Nat) : Nat :=
  match e with
  | some (t, _) => if t = x then 1 else 0
  | none => 0

/-- The edge `e` has target `x` and comes from the payload of `P`: 1 or 0. -/
def edge_from (e : Option (Nat × Option Nat)) (x P : Nat) : Nat :=
  match e with
  | some (t, some Q) => if t = x ∧ Q = P then 1 else 0
  | _ => 0

/-- The edge `e` has target `x` and comes from a payload that has a header: 1 or 0. -/
def edge_bound (e : Option (Nat × Option Nat)) (x : Nat) : Nat :=
  match e with
  | some (t, some _) => if t = x then 1 else 0
  | _ => 0

/-- What removing the edge of the handle `p` (as stored: `ip`) does, from the heap `sd` in
which `not_reachable_from` is called; `v` is what is stored for the handle afterwards. -/
def unlink_result (sd : Heap) (p : Nat) (ip : internal_ptr) (sh : Option Nat)
    (v : Option internal_ptr) (s1 : Heap) : Prop :=
  match ip.header with
  | none => s1 = sd.set_iptr p v
  | some T => ∃ U s2, not_reachable_from T ip.base sd = some s2 ∧ s1 = s2.set_iptr p v ∧
      dec_result T (sd.unlinked T sh) s2 (some p) none U

/-- The header block after `reachable_from`, called with an `internal_base` whose
`self_header` is `parent`. -/
def link_header (hd : root_ptr_header_block_base) (parent : Option Nat) :
    root_ptr_header_block_base :=
  { hd with
    internal_count := hd.internal_count + 1,
    back_pointers := match parent with
      | some sh => add hd.back_pointers sh
      | none => hd.back_pointers }

/-- The heap after the handle at `p` has been overwritten by `ip1` and `reachable_from` has
been run on its new target, for a handle held by an `internal_base` whose `self_header` is
`parent`. -/
def Heap.retargeted (s : Heap) (p : Nat) (ip1 : internal_ptr) (parent : Option Nat) : Heap :=
  match ip1.header with
  | some N =>
    match s.headers N with
    | some hd => (s.set_iptr p (some ip1)).set_header N (some (link_header hd parent))
    | none => s.set_iptr p (some ip1)
  | none => s.set_iptr p (some ip1)

/-- What `operator=(internal_ptr const &)` does to the handle `p` (as stored: `ip`) when the
new value `ip1` differs. -/
def assign_result (s : Heap) (p : Nat) (ip ip1 : internal_ptr) (sh : Option Nat) (s1 : Heap) :
    Prop :=
  match ip.header with
  | none => s1 = s.retargeted p ip1 sh
  | some T => ∃ U, dec_result T ((s.retargeted p ip1 sh).unlinked T sh) s1 none none U

/-- The header block after `add_owner` (or a successful `owner_from_internal`). -/
def own_header (hd : root_ptr_header_block_base) : root_ptr_header_block_base :=
  { hd with owner_count := hd.owner_count + 1, internal_count := hd.internal_count + 1 }

/-- The heap after a new `root_ptr` with the fields `v` has been constructed and counted on
the header it shares. -/
def Heap.rooted (s : Heap) (v : root_ptr) : Heap :=
  match v.header with
  | some h =>
    match s.headers h with
    | some hd =>
      ({ s with next_root := s.next_root + 1 }.set_root s.next_root (some v)).set_header h
        (some (own_header hd))
    | none => { s with next_root := s.next_root + 1 }.set_root s.next_root (some v)
  | none => { s with next_root := s.next_root + 1 }.set_root s.next_root (some v)

/-- The number of `destroyed` events of the header `h` in a trace. -/
def destroy_count (tr : List Event) (h : Nat) : Nat :=
  tr.countP (fun e => match e with
    | Event.destroyed x _ => decide (x = h)
    | _ => false)

/-- The ghost trace agrees with the table of header blocks: the payload of a header that is
live or not yet allocated has not been destroyed, the payload of a freed one has been destroyed
exactly once. -/
def trace_ok (s : Heap) : Prop :=
  ∀ h, destroy_count s.trace h = if h < s.next_header ∧ s.headers h = none then 1 else 0

/-- Nothing is logged, allocated or freed between the two heaps. -/
def quiet (s s1 : Heap) : Prop :=
  s1.next_header = s.next_header ∧ s1.trace = s.trace ∧
    ∀ x, s1.headers x = none ↔ s.headers x = none

/-- What an operation that collected the set `U` did to the table of header blocks and to the
trace: the members of `U` (live before) are freed, and the trace grows by the three passes of
the collection, every handle read inside a payload destructor being nil. -/
structure effect (U : List Nat) (s s1 : Heap) : Prop where
  next_header : s1.next_header = s.next_header
  nodup : U.Nodup
  live : ∀ u ∈ U, ∃ hd, s.headers u = some hd
  gone : ∀ x, s1.headers x = none ↔ (s.headers x = none ∨ x ∈ U)
  trace : ∃ obs : Nat → List (Option Nat), (∀ u, ∀ o ∈ obs u, o = none) ∧
    s1.trace = s.trace ++ U.map Event.marked ++
      U.map (fun u => Event.destroyed u (obs u)) ++ U.map Event.freed

/-- The public handle operations.  An address argument names the object the operation is
applied to or reads; a constructor creates its object at the allocation frontier. -/
inductive Op where
  | base_ctor
  | base_dtor (b : Nat)
  | iptr_empty (b : Nat)
  | iptr_from_root (b r : Nat)
  | iptr_from_internal (b p : Nat)
  | iptr_move (p : Nat)
  | iptr_reset (p : Nat)
  | iptr_assign_root (p r : Nat)
  | iptr_assign (p q : Nat)
  | iptr_dtor (p : Nat)
  | root_default
  | root_from_raw (ob : Option Nat)
  | root_copy (r : Nat)
  | root_alias (r : Nat) (x : Option Nat)
  | root_move (r : Nat)
  | root_from_internal (p : Nat)
  | root_dtor (r : Nat)
  | root_reset (r : Nat)
  | root_swap (a b : Nat)
  deriving DecidableEq, Repr

/-- One public operation.  An operation whose C++ precondition does not hold (it would be
undefined behaviour) has no result: an object that is used must be alive; an `internal_base`
that is destroyed directly has no registered handle left and belongs to no header; a raw
pointer bound to a new `root_ptr` is to an object that no header owns yet. -/
def Op.apply : Op → Heap → Option Heap
  | Op.base_ctor, s => some (internal_base_ctor s)
  | Op.base_dtor b, s =>
    match s.bases b with
    | some base =>
      if base.pointers = [] ∧ base.self_header = none then internal_base_dtor b s else none
    | none => none
  | Op.iptr_empty b, s => internal_ptr_empty b s
  | Op.iptr_from_root b r, s => internal_ptr_from_root b r s
  | Op.iptr_from_internal b p, s => internal_ptr_from_internal b p s
  | Op.iptr_move p, s => internal_ptr_move p s
  | Op.iptr_reset p, s => internal_ptr_reset p s
  | Op.iptr_assign_root p r, s => internal_ptr_assign_root p r s
  | Op.iptr_assign p q, s => internal_ptr_assign p q s
  | Op.iptr_dtor p, s => internal_ptr_dtor p s
  | Op.root_default, s => some (root_ptr_default s)
  | Op.root_from_raw none, s => root_ptr_from_raw none s
  | Op.root_from_raw (some b), s =>
    match s.bases b with
    | some base => if base.self_header = none then root_ptr_from_raw (some b) s else none
    | none => none
  | Op.root_copy r, s => root_ptr_copy r s
  | Op.root_alias r x, s => root_ptr_alias r x s
  | Op.root_move r, s => root_ptr_move r s
  | Op.root_from_internal p, s => root_ptr_from_internal p s
  | Op.root_dtor r, s => root_ptr_dtor r s
  | Op.root_reset r, s => root_ptr_reset r s
  | Op.root_swap a b, s => root_ptr_swap a b s

/-- A sequence of public operations. -/
def run : List Op → Heap → Option Heap
  | [], s => some s
  | op :: ops, s =>
    match op.apply s with
    | some s1 => run ops s1
    | none => none

/-- The heaps that a program reaches from the empty heap through the public operations. -/
def reachable (s : Heap) : Prop := ∃ ops, run ops Heap.empty = some s

/-- The heap at the moment `~root_ptr` or `root_ptr::reset` of the handle at `r` has, inside
`remove_owner`, decremented the two counters of the header it shares. -/
def root_moment (r : Nat) (s : Heap) : Option Heap :=
  match s.roots r with
  | some rp =>
    match rp.header with
    | some T => some (s.released T)
    | none => none
  | none => none

/-- The heap at the moment `internal_ptr::reset` of the handle at `p` has, inside
`not_reachable_from`, removed the back pointer and decremented the counter of its target. -/
def reset_moment (p : Nat) (s : Heap) : Option Heap :=
  match s.iptrs p with
  | some ip =>
    match ip.header, s.bases ip.base with
    | some T, some bs => some (s.unlinked T bs.self_header)
    | _, _ => none
  | none => none

/-- The same moment for `~internal_ptr`, which has deregistered the handle before. -/
def dtor_moment (p : Nat) (s : Heap) : Option Heap :=
  match s.iptrs p with
  | some ip =>
    match ip.header, s.bases ip.base with
    | some T, some bs =>
      some ((s.set_base ip.base (some { bs with pointers := bs.pointers.erase p })).unlinked T
        bs.self_header)
    | _, _ => none
  | none => none

/-- The same moment for `operator=(internal_ptr const &)`, which has established the new
edge before. -/
def assign_moment (p q : Nat) (s : Heap) : Option Heap :=
  match s.iptrs p, s.iptrs q with
  | some ip, some src =>
    if src.header ≠ ip.header ∨ src.ptr ≠ ip.ptr then
      match ip.header, s.bases ip.base with
      | some T, some bs =>
        some ((s.retargeted p ⟨ip.base, src.header, src.ptr⟩ bs.self_header).unlinked T
          bs.self_header)
      | _, _ => none
    else none
  | _, _ => none

/-- The heap at the moment an operation that gives up a target has adjusted the counters of
that target and is about to decide whether anything must be collected; `none` for an operation
that gives up no target. -/
def Op.moment : Op → Heap → Option Heap
  | Op.root_dtor r, s => root_moment r s
  | Op.root_reset r, s => root_moment r s
  | Op.iptr_reset p, s => reset_moment p s
  | Op.iptr_assign_root p _, s => reset_moment p s
  | Op.iptr_dtor p, s => dtor_moment p s
  | Op.iptr_assign p q, s => assign_moment p q s
  | _, _ => none

/-- One header block is allocated, which is live afterwards; nothing is logged and no other
block appears or disappears. -/
def allocates (s s1 : Heap) : Prop :=
  s1.trace = s.trace ∧ s1.next_header = s.next_header + 1 ∧
    (∃ hd, s1.headers s.next_header = some hd) ∧
    ∀ t, t ≠ s.next_header → (s1.headers t = none ↔ s.headers t = none)

/-- The set `U` consists of the live headers of `m` that have no back-pointer path to an owned
header. -/
def exact_set (m : Heap) (U : List Nat) : Prop :=
  ∀ x, x ∈ U ↔ (∃ hd, m.headers x = some hd) ∧ ¬ has_owner m x

/-- What one public operation does: either it gives up no target, and then it logs and frees
nothing; or at its moment `m` it collects exactly the headers that have no owner in `m`. -/
def step_spec (op : Op) (s s1 : Heap) : Prop :=
  (op.moment s = none ∧ (quiet s s1 ∨ allocates s s1)) ∨
  (∃ m U, op.moment s = some m ∧ quiet s m ∧ effect U m s1 ∧ exact_set m U)

/-- The invariant of the reachable heaps. -/
structure sound (s : Heap) : Prop where
  good0 : good s
  trace0 : trace_ok s

/-- The count bounds of a heap: for every live header,
`|back_pointers| <= internal_count`, `owner_count <= internal_count` and
`internal_count - |back_pointers| >= owner_count`. -/
def count_bounds (s : Heap) : Prop :=
  ∀ H hd, s.headers H = some hd →
    hd.back_pointers.length ≤ hd.internal_count ∧ hd.owner_count ≤ hd.internal_count ∧
    hd.internal_count - hd.back_pointers.length ≥ hd.owner_count

/-- A program in which the payload of one object holds a single handle to another object:
`A` (base 0, handles 0 and 1, header 0, root 0), `X` (base 1, header 1, root 1), then
`A.p0 = X`. -/
def one_edge_program : List Op :=
  [Op.base_ctor, Op.iptr_empty 0, Op.iptr_empty 0, Op.root_from_raw (some 0),
   Op.base_ctor, Op.root_from_raw (some 1), Op.iptr_assign_root 0 1]

/-- The heap reached by `one_edge_program`. -/
def one_edge_heap : Heap := (run one_edge_program Heap.empty).getD Heap.empty

/-- The same program followed by `A.p1 = X`: two handles of `A` have the target `X`. -/
def two_edges_program : List Op := one_edge_program ++ [Op.iptr_assign_root 1 1]

/-- The heap reached by `two_edges_program`. -/
def two_edges_heap : Heap := (run two_edges_program Heap.empty).getD Heap.empty

/-- A program that builds a ring of three nodes: node `i` has the `internal_base` `i`, the
handle `i`, the header `i` and the `root_ptr` `i`, and the handle of node `i` is assigned the
root of node `(i + 1) mod 3`. -/
def ring3_program : List Op :=
  [Op.base_ctor, Op.iptr_empty 0, Op.root_from_raw (some 0),
   Op.base_ctor, Op.iptr_empty 1, Op.root_from_raw (some 1),
   Op.base_ctor, Op.iptr_empty 2, Op.root_from_raw (some 2),
   Op.iptr_assign_root 0 1, Op.iptr_assign_root 1 2, Op.iptr_assign_root 2 0]

/-- The heap reached by `ring3_program`. -/
def ring3_heap : Heap := (run ring3_program Heap.empty).getD Heap.empty

/-- A program after which the payload of the rooted object `A` holds two handles to the
object `X` and no `root_ptr` shares `X`. -/
def dup2_program : List Op := two_edges_program ++ [Op.root_dtor 1]

/-- The heap reached by `dup2_program`. -/
def dup2_heap : Heap := (run dup2_program Heap.empty).getD Heap.empty

/-- A program that builds a chain of three nodes with a single root on the first one: node
`t` has the `internal_base` `t`, the handle `t` and the header `t`; the handle of node 0 is
assigned the root of node 1 and the handle of node 1 the root of node 2, then the roots of
the nodes 1 and 2 are released. -/
def chain3_program : List Op :=
  [Op.base_ctor, Op.iptr_empty 0, Op.root_from_raw (some 0),
   Op.base_ctor, Op.iptr_empty 1, Op.root_from_raw (some 1),
   Op.base_ctor, Op.iptr_empty 2, Op.root_from_raw (some 2),
   Op.iptr_assign_root 0 1, Op.iptr_assign_root 1 2, Op.root_dtor 1, Op.root_dtor 2]

/-- The heap reached by `chain3_program`. -/
def chain3_heap : Heap := (run chain3_program Heap.empty).getD Heap.empty

/-- The program `ring3_program` followed by the release of the roots of the nodes 1 and 2:
the ring of three nodes is held by the root of node 0 alone. -/
def ring3_last_program : List Op := ring3_program ++ [Op.root_dtor 1, Op.root_dtor 2]

/-- The heap reached by `ring3_last_program`. -/
def ring3_last_heap : Heap := (run ring3_last_program Heap.empty).getD Heap.empty

/-- A program after which the payload of the rooted object `A` (header 0, handle 0) holds the
only reference to the object `B` (header 1), and the object `C` (header 2) is shared by the
root 2. -/
def reassign_program : List Op :=
  [Op.base_ctor, Op.iptr_empty 0, Op.root_from_raw (some 0),
   Op.base_ctor, Op.iptr_empty 1, Op.root_from_raw (some 1),
   Op.base_ctor, Op.iptr_empty 2, Op.root_from_raw (some 2),
   Op.iptr_assign_root 0 1, Op.root_dtor 1]

/-- The heap reached by `reassign_program`. -/
def reassign_heap : Heap := (run reassign_program Heap.empty).getD Heap.empty

/-- The heap in which `operator=(root_ptr const &)`, applied in `reassign_heap` to the handle 0
with the root 2, has returned from its call of `reset()`. -/
def reassign_mid : Heap := (internal_ptr_reset 0 reassign_heap).getD Heap.empty

/-- A program after which the only reference to the object `X` (header 1) is the handle 0 of
the rooted object `A`. -/
def solo_program : List Op := one_edge_program ++ [Op.root_dtor 1]

/-- The heap reached by `solo_program`. -/
def solo_heap : Heap := (run solo_program Heap.empty).getD Heap.empty

/-- The heap in which the first loop of `cleanup_unreachable_nodes` has run, when the last
root of the ring of three nodes (`ring3_last_heap`) is released: every node of the ring is
flagged and every handle of the ring is severed. -/
def severed_heap : Heap := (mark_all [0, 1, 2] (ring3_last_heap.released 0)).getD Heap.empty

/-- A program after which the handle 0, held by an `internal_base` that belongs to no header,
has been constructed from a `root_ptr` made by the aliasing constructor with a nil pointer:
the handle has a live target and a nil stored pointer. -/
def alias_program : List Op :=
  [Op.base_ctor, Op.root_from_raw (some 0), Op.root_alias 0 none, Op.base_ctor,
   Op.iptr_from_root 1 1]

/-- The heap reached by `alias_program`. -/
def alias_heap : Heap := (run alias_program Heap.empty).getD Heap.empty

/-- A program after which the `internal_base` 0, which belongs to no header, holds the handle
0 whose target is the object `X2` (header 0), and no `root_ptr` shares `X2`. -/
def unbound_program : List Op :=
  [Op.base_ctor, Op.iptr_empty 0, Op.base_ctor, Op.iptr_empty 1, Op.root_from_raw (some 1),
   Op.iptr_assign_root 0 0, Op.root_dtor 0]

/-- The heap reached by `unbound_program`. -/
def unbound_heap : Heap := (run unbound_program Heap.empty).getD Heap.empty

/-- A program after which the rooted node 0 holds a handle to node 1, and the nodes 1 and 2,
which no `root_ptr` shares, hold handles to each other. -/
def lasso_program : List Op :=
  [Op.base_ctor, Op.iptr_empty 0, Op.root_from_raw (some 0),
   Op.base_ctor, Op.iptr_empty 1, Op.root_from_raw (some 1),
   Op.base_ctor, Op.iptr_empty 2, Op.root_from_raw (some 2),
   Op.iptr_assign_root 0 1, Op.iptr_assign_root 1 2, Op.iptr_assign_root 2 1,
   Op.root_dtor 1, Op.root_dtor 2]

/-- The heap reached by `lasso_program`. -/
def lasso_heap : Heap := (run lasso_program Heap.empty).getD Heap.empty

/-- A program that builds three rooted nodes (node `t` has the `internal_base` `t`, the handle
`t`, the header `t` and the `root_ptr` `t`), the handle of node 0 having node 1 as its target
and the handle of node 1 node 2. -/
def rooted_chain_program : List Op :=
  [Op.base_ctor, Op.iptr_empty 0, Op.root_from_raw (some 0),
   Op.base_ctor, Op.iptr_empty 1, Op.root_from_raw (some 1),
   Op.base_ctor, Op.iptr_empty 2, Op.root_from_raw (some 2),
   Op.iptr_assign_root 0 1, Op.iptr_assign_root 1 2]

/-- The heap reached by `rooted_chain_program`. -/
def rooted_chain_heap : Heap := (run rooted_chain_program Heap.empty).getD Heap.empty

/-- The number of `internal_ptr` handles with target `T` that are registered with the payload
of a member of `U`. -/
def iptr_count_in (s : Heap) (T : Nat) (U : List Nat) : Nat :=
  count_upto s.next_iptr
    (fun q => iptr_targets s none T q && U.any (fun u => decide (q ∈ payload_handles s u)))

/-- A program in which the payload of `N` holds a handle to `A` and a handle to `T`, the
payload of `A` holds a handle to `T`, `T` has a `root_ptr` of its own and `A` has none:
`N` (base 0, handles 0 and 1, header 0, root 0), `A` (base 1, handle 2, header 1, root 1),
`T` (base 2, header 2, root 2), then `N.p0 = A; N.p1 = T; A.p2 = T` and root 1 is
released. -/
def diamond_program : List Op :=
  [Op.base_ctor, Op.iptr_empty 0, Op.iptr_empty 0, Op.root_from_raw (some 0),
   Op.base_ctor, Op.iptr_empty 1, Op.root_from_raw (some 1),
   Op.base_ctor, Op.root_from_raw (some 2),
   Op.iptr_assign_root 0 1, Op.iptr_assign_root 1 2, Op.iptr_assign_root 2 2, Op.root_dtor 1]

/-- The heap reached by `diamond_program`. -/
def diamond_heap : Heap := (run diamond_program Heap.empty).getD Heap.empty

/-- A program after which the two `root_ptr` handles 0 and 1 share one object (header 0),
which is not an `internal_base`. -/
def shared_program : List Op := [Op.root_from_raw none, Op.root_copy 0]

/-- The heap reached by `shared_program`. -/
def shared_heap : Heap := (run shared_program Heap.empty).getD Heap.empty

/-- The field of a `local_ptr<T>`: a plain pointer.  A `local_ptr` is a local variable; it
lives in no table of the heap. -/
structure local_ptr where
  ptr : Option Nat
  deriving DecidableEq, Repr

/-- The constructor `local_ptr(root_ptr<T> const &other)`: `ptr(other.get())`.  The heap after
the call is returned with the new object. -/
def local_ptr_from_root (other : Nat) (s : Heap) : Option (Heap × local_ptr) :=
  match root_ptr_get s other with
  | none => none
  | some g => some (s, ⟨g⟩)

/-- The constructor `local_ptr(internal_ptr<T> const &other)`: `ptr(other.get())`. -/
def local_ptr_from_internal (other : Nat) (s : Heap) : Option (Heap × local_ptr) :=
  match internal_ptr_get s other with
  | none => none
  | some g => some (s, ⟨g⟩)

/-- The constructor `local_ptr(std::nullptr_t)`. -/
def local_ptr_null : local_ptr := ⟨none⟩

/-- The method `local_ptr::get`. -/
def local_ptr_get (l : local_ptr) : Option Nat := l.ptr

/-- The conversion `local_ptr::operator bool`. -/
def local_ptr_bool (l : local_ptr) : Bool := (local_ptr_get l).isSome

/-- The method `local_ptr::reset`: `ptr = nullptr`. -/
def local_ptr_reset (_this : local_ptr) : local_ptr := ⟨none⟩

/-- The assignment `lp = r` from a `root_ptr`: the converting constructor builds a temporary,
the implicit copy assignment stores its pointer. -/
def local_ptr_assign_root (_this : local_ptr) (other : Nat) (s : Heap) :
    Option (Heap × local_ptr) :=
  match local_ptr_from_root other s with
  | none => none
  | some (s1, temp) => some (s1, ⟨temp.ptr⟩)

/-- The assignment `lp = p` from an `internal_ptr`. -/
def local_ptr_assign_internal (_this : local_ptr) (other : Nat) (s : Heap) :
    Option (Heap × local_ptr) :=
  match local_ptr_from_internal other s with
  | none => none
  | some (s1, temp) => some (s1, ⟨temp.ptr⟩)

/-- The comparison `operator==(local_ptr const &, T *)`. -/
def local_ptr_eq_raw (lhs : local_ptr) (rhs : Option Nat) : Bool :=
  decide (local_ptr_get lhs = rhs)

/-- The comparison `operator==(local_ptr const &, root_ptr const &)`:
`lhs.get() == rhs.get()`. -/
def local_ptr_eq_root (s : Heap) (lhs : local_ptr) (rhs : Nat) : Option Bool :=
  match root_ptr_get s rhs with
  | none => none
  | some g => some (decide (local_ptr_get lhs = g))

/-- The comparison `operator==(local_ptr const &, internal_ptr const &)`:
`lhs.get() == rhs.get()`. -/
def local_ptr_eq_internal (s : Heap) (lhs : local_ptr) (rhs : Nat) : Option Bool :=
  match internal_ptr_get s rhs with
  | none => none
  | some g => some (decide (local_ptr_get lhs = g))

/-- The comparison `operator!=(local_ptr const &, root_ptr const &)`: `!(lhs == rhs)`. -/
def local_ptr_ne_root (s : Heap) (lhs : local_ptr) (rhs : Nat) : Option Bool :=
  match local_ptr_eq_root s lhs rhs with
  | none => none
  | some b => some (!b)

/-- The comparison `operator!=(local_ptr const &, internal_ptr const &)`: `!(lhs == rhs)`. -/
def local_ptr_ne_internal (s : Heap) (lhs : local_ptr) (rhs : Nat) : Option Bool :=
  match local_ptr_eq_internal s lhs rhs with
  | none => none
  | some b => some (!b)

/-- A back-pointer path of length `>= 0` from `x` none of whose later headers is in `U`. -/
def bp_path_outside (s : Heap) (U : List Nat) : Nat → Nat → Prop :=
  Relation.ReflTransGen (fun x y => bp_edge s x y ∧ y ∉ U)

/-- What the collection of the set `Z`, triggered for the header `T` from the heap `m` in
which the counter of `T` has just been decremented, did when it ended in the heap `s3`:
either nothing was collected, or the three loops of `cleanup_unreachable_nodes(Z)` ran from
`m`, and in the heap `sb` in which the deallocation loop started every member of `Z` was a
live header block with `owner_count == 0`, `internal_count == 0` and no back pointer; the
header blocks freed are exactly the members of `Z`. -/
def frees_at_zero (nrf : Nat → Nat → Heap → Option Heap) (T : Nat) (m s3 : Heap) : Prop :=
  s3 = m ∨
  ∃ Z sa sb, T ∈ Z ∧ cleanup_unreachable_nodes nrf Z m = some s3 ∧
    mark_all Z m = some sa ∧ delete_all nrf Z sa = some sb ∧ free_all Z sb = some s3 ∧
    (∀ u ∈ Z, ∃ hd, sb.headers u = some hd ∧ hd.owner_count = 0 ∧
      hd.internal_count = 0 ∧ hd.back_pointers = []) ∧
    (∀ u ∈ Z, s3.headers u = none) ∧
    (∀ x, x ∉ Z → (s3.headers x = none ↔ m.headers x = none))

/-- Between the two heaps no freed header block comes back, and on every header block that is
live in both a flag that was set is still set. -/
def sticky (s s1 : Heap) : Prop :=
  (∀ h, s.headers h = none → s1.headers h = none) ∧
  ∀ h hd hd1, s.headers h = some hd → s1.headers h = some hd1 →
    (hd.unreachable = true → hd1.unreachable = true) ∧
    (hd.deleted = true → hd1.deleted = true)

/-- The loop `for (auto bp : node->back_pointers)` of the static `check_reachable` as in
`check_reachable_bps`, with a ghost log to which every `pending.push_back(bp)` appends `bp`. -/
def check_reachable_bps_log (node : Nat) (unreachable_nodes : Option (List Nat)) :
    List Nat → List Nat → List Nat → Option (List Nat) → List Nat → Walk × List Nat
  | [], seen_parents, pending, owned_nodes, log =>
    (⟨false, seen_parents, pending, owned_nodes⟩, log)
  | bp :: bps, seen_parents, pending, owned_nodes, log =>
    if opt_contains unreachable_nodes bp || contains seen_parents bp then
      check_reachable_bps_log node unreachable_nodes bps seen_parents pending owned_nodes log
    else if opt_contains owned_nodes bp then
      (⟨true, seen_parents, pending, opt_add_unique owned_nodes node⟩, log)
    else
      check_reachable_bps_log node unreachable_nodes bps (add seen_parents bp) (bp :: pending)
        owned_nodes (log ++ [bp])

/-- The `while (!pending.empty())` loop of the static `check_reachable` as in
`check_reachable_loop`, with the ghost log of the pushes onto `pending`. -/
def check_reachable_loop_log (headers : Nat → Option root_ptr_header_block_base)
    (unreachable_nodes : Option (List Nat)) :
    Nat → List Nat → List Nat → Option (List Nat) → List Nat → Option (Walk × List Nat)
  | _, seen_parents, [], owned_nodes, log => some (⟨false, seen_parents, [], owned_nodes⟩, log)
  | 0, _, _ :: _, _, _ => none
  | fuel + 1, seen_parents, node :: pending, owned_nodes, log =>
    if opt_contains owned_nodes node then some (⟨true, seen_parents, pending, owned_nodes⟩, log)
    else if opt_contains unreachable_nodes node then
      check_reachable_loop_log headers unreachable_nodes fuel seen_parents pending owned_nodes
        log
    else
      match headers node with
      | none => none
      | some hd =>
        if !is_owned hd then
          let r := check_reachable_bps_log node unreachable_nodes hd.back_pointers seen_parents
            pending owned_nodes log
          if r.1.result then some r
          else check_reachable_loop_log headers unreachable_nodes fuel r.1.seen_parents
            r.1.pending r.1.owned_nodes r.2
        else some (⟨true, seen_parents, pending, opt_add_unique owned_nodes node⟩, log)

/-- The static `check_reachable` as in `check_reachable_static`, with the ghost log of the
pushes onto `pending` made by the call (the seed is put there by the caller). -/
def check_reachable_static_log (s : Heap) (seen_parents pending : List Nat)
    (unreachable_nodes owned_nodes : Option (List Nat)) : Option (Walk × List Nat) :=
  check_reachable_loop_log s.headers unreachable_nodes (s.next_header + pending.length + 1)
    seen_parents pending owned_nodes []

/-- The loop over `seen_parents` of `find_unreachable_children` as in `add_seen_parents`, with
a ghost log to which every `nodes_to_check_children.push_back(p)` appends `p`. -/
def add_seen_parents_log :
    List Nat → List Nat → List Nat → List Nat → (List Nat × List Nat) × List Nat
  | [], unreachable_nodes, nodes_to_check_children, log =>
    ((unreachable_nodes, nodes_to_check_children), log)
  | p :: ps, unreachable_nodes, nodes_to_check_children, log =>
    if (add_unique unreachable_nodes p).2 then
      add_seen_parents_log ps (add_unique unreachable_nodes p).1 (p :: nodes_to_check_children)
        (log ++ [p])
    else add_seen_parents_log ps (add_unique unreachable_nodes p).1 nodes_to_check_children log

/-- The body of the loop `while (child)` as in `check_child`, with the ghost log of the pushes
onto `nodes_to_check_children`. -/
def check_child_log (s : Heap) (child_node : Nat) (st : Search) (log : List Nat) :
    Option (Search × List Nat) :=
  if contains st.unreachable_nodes child_node || contains st.owned_nodes child_node then
    some (st, log)
  else
    match s.headers child_node with
    | none => none
    | some hd =>
      if is_owned hd then some ({ st with owned_nodes := add st.owned_nodes child_node }, log)
      else
        match check_reachable_static s [] [child_node] (some st.unreachable_nodes)
            (some st.owned_nodes) with
        | none => none
        | some w =>
          let owned := w.owned_nodes.getD st.owned_nodes
          if !w.result then
            let r := add_seen_parents_log w.seen_parents st.unreachable_nodes
              st.nodes_to_check_children log
            let u := add_unique r.1.1 child_node
            some ({ unreachable_nodes := u.1,
                    nodes_to_check_children := if u.2 then child_node :: r.1.2 else r.1.2,
                    owned_nodes := owned, seen_parents := w.seen_parents,
                    pending := w.pending },
              if u.2 then r.2 ++ [child_node] else r.2)
          else
            some ({ st with owned_nodes := (add_unique owned child_node).1,
                            seen_parents := w.seen_parents, pending := w.pending }, log)

/-- The loop `while (child)` as in `check_children`, with the ghost log. -/
def check_children_log (s : Heap) : List Nat → Search → List Nat → Option (Search × List Nat)
  | [], st, log => some (st, log)
  | child :: children, st, log =>
    match s.iptrs child with
    | none => none
    | some ip =>
      match ip.header with
      | some child_node =>
        match check_child_log s child_node st log with
        | none => none
        | some r => check_children_log s children r.1 r.2
      | none => check_children_log s children st log

/-- The loop `while (!nodes_to_check_children.empty())` as in
`find_unreachable_children_loop`, with the ghost log. -/
def find_unreachable_children_loop_log (s : Heap) :
    Nat → Search → List Nat → Option (Search × List Nat)
  | fuel, st, log =>
    match st.nodes_to_check_children with
    | [] => some (st, log)
    | next :: rest =>
      match fuel with
      | 0 => none
      | fuel + 1 =>
        match s.headers next with
        | none => none
        | some hd =>
          match hd.get_internal_base with
          | some b =>
            match s.bases b with
            | none => none
            | some base =>
              match check_children_log s base.pointers
                  { st with nodes_to_check_children := rest } log with
              | none => none
              | some r => find_unreachable_children_loop_log s fuel r.1 r.2
          | none =>
            find_unreachable_children_loop_log s fuel
              { st with nodes_to_check_children := rest } log

/-- The static `find_unreachable_children` as in `find_unreachable_children`, with the ghost
log of the headers that enter `nodes_to_check_children`: first those that
`nodes_to_check_children.assign(...)` copies from the initial set, then every header pushed. -/
def find_unreachable_children_log (s : Heap) (unreachable_nodes : List Nat) :
    Option (List Nat × List Nat) :=
  match find_unreachable_children_loop_log s (s.next_header + unreachable_nodes.length + 1)
      { unreachable_nodes := unreachable_nodes,
        nodes_to_check_children := unreachable_nodes.reverse,
        owned_nodes := [], seen_parents := [], pending := [] } unreachable_nodes with
  | none => none
  | some r => some (r.1.unreachable_nodes, r.2)

/-- The loop invariant of the instrumented `find_unreachable_children`: the set is sorted and
has no duplicates, its members are live, the work list is inside the set, and the log of the
headers that entered the work list has no duplicates and is inside the set. -/
structure work_ok (s : Heap) (st : Search) (log : List Nat) : Prop where
  sorted : st.unreachable_nodes.Sorted (· ≤ ·)
  nodup : st.unreachable_nodes.Nodup
  live : ∀ x ∈ st.unreachable_nodes, ∃ hd, s.headers x = some hd
  work : ∀ x ∈ st.nodes_to_check_children, x ∈ st.unreachable_nodes
  log_nodup : log.Nodup
  log_sub : ∀ x ∈ log, x ∈ st.unreachable_nodes

/-- One step of the instrumented search from `(st, log)` to `(st1, log1)`: the headers `new`
were pushed, each one new to the set. -/
def work_step (st : Search) (log : List Nat) (st1 : Search) (log1 : List Nat) : Prop :=
  ∃ new, log1 = log ++ new ∧
    st1.nodes_to_check_children = new.reverse ++ st.nodes_to_check_children ∧
    st1.unreachable_nodes.length = st.unreachable_nodes.length + new.length

/-- What the collection triggered for the header `T`, from the heap `m` in which the counter
of `T` has just been decremented, did to the handles when it ended in the heap `s3`; `exI` and
`exR` are the `internal_ptr` and the `root_ptr` (if any) whose release triggered the call and
which still hold their old header.  Either nothing was collected, or
`cleanup_unreachable_nodes(Z)` ran from `m`, its severance pass ending in the heap `sa`, and:
the header blocks freed are exactly the members of `Z`; in `m` no other `root_ptr` shares a
member of `Z`, and every other `internal_ptr` whose target is a member of `Z` is registered
with the payload of a member of `Z`; in `sa` every handle registered with the payload of a
member of `Z` has a nil header, while the `root_ptr` handles and the handles of all other
payloads are as in `m`; in `s3` the handles of the collected payloads are gone, the
`root_ptr` handles and the handles of all other payloads are as in `m`, and no other handle
has a freed header as its target. -/
def no_dangling (nrf : Nat → Nat → Heap → Option Heap) (T : Nat) (exI exR : Option Nat)
    (m s3 : Heap) : Prop :=
  s3 = m ∨
  ∃ Z sa, T ∈ Z ∧ cleanup_unreachable_nodes nrf Z m = some s3 ∧ mark_all Z m = some sa ∧
    (∀ u ∈ Z, (∃ hd, m.headers u = some hd) ∧ s3.headers u = none) ∧
    (∀ x, x ∉ Z → (s3.headers x = none ↔ m.headers x = none)) ∧
    (∀ r rp u, m.roots r = some rp → some r ≠ exR → rp.header = some u → u ∉ Z) ∧
    (∀ q iq u, m.iptrs q = some iq → some q ≠ exI → iq.header = some u → u ∈ Z →
      ∃ w, w ∈ Z ∧ q ∈ payload_handles m w) ∧
    (∀ w ∈ Z, ∀ q ∈ payload_handles m w, ∃ iq1, sa.iptrs q = some iq1 ∧ iq1.header = none) ∧
    sa.roots = m.roots ∧
    (∀ q, (∀ w ∈ Z, q ∉ payload_handles m w) → sa.iptrs q = m.iptrs q) ∧
    (∀ w ∈ Z, ∀ q ∈ payload_handles m w, s3.iptrs q = none) ∧
    s3.roots = m.roots ∧
    (∀ q, (∀ w ∈ Z, q ∉ payload_handles m w) → s3.iptrs q = m.iptrs q) ∧
    (∀ r rp u, s3.roots r = some rp → some r ≠ exR → rp.header = some u →
      ∃ hd, s3.headers u = some hd) ∧
    (∀ q iq u, s3.iptrs q = some iq → some q ≠ exI → iq.header = some u →
      ∃ hd, s3.headers u = some hd)

/-! ## Theorems -/

theorem find_bp_pos_le (v : List Nat) (p : Nat) : find_bp_pos v p ≤ v.length := by
  induction v with
  | nil => simp [find_bp_pos]
  | cons x v ih => simp only [find_bp_pos]; split <;> simp; omega

theorem add_nil (p : Nat) : add [] p = [p] := by simp [add, find_bp_pos]

theorem add_cons (x : Nat) (v : List Nat) (p : Nat) :
    add (x :: v) p = if x < p then x :: add v p else p :: x :: v := by
  unfold add; simp only [find_bp_pos]; split <;> simp

theorem contains_nil (p : Nat) : contains [] p = false := by simp [contains, find_bp_pos]

theorem contains_cons (x : Nat) (v : List Nat) (p : Nat) :
    contains (x :: v) p = if x < p then contains v p else (x == p) := by
  unfold contains; simp only [find_bp_pos]
  by_cases h : x < p <;> simp [h]

theorem remove_nil (p : Nat) : remove [] p = [] := by simp [remove, contains_nil]

theorem remove_cons (x : Nat) (v : List Nat) (p : Nat) :
    remove (x :: v) p = if x < p then x :: remove v p else if x = p then v else x :: v := by
  unfold remove; rw [contains_cons]; simp only [find_bp_pos]
  by_cases h : x < p
  · simp only [h, if_true]; split <;> simp
  · simp only [h, if_false]; by_cases h2 : x = p <;> simp [h2]

theorem mem_add {v : List Nat} {p x : Nat} : x ∈ add v p ↔ x = p ∨ x ∈ v := by
  induction v with
  | nil => simp [add_nil]
  | cons y v ih =>
    rw [add_cons]; split
    · simp only [List.mem_cons, ih]; tauto
    · simp only [List.mem_cons]

theorem length_add (v : List Nat) (p : Nat) : (add v p).length = v.length + 1 := by
  induction v with
  | nil => simp [add_nil]
  | cons y v ih => rw [add_cons]; split <;> simp [ih]

theorem count_add (v : List Nat) (p x : Nat) :
    (add v p).count x = v.count x + if x = p then 1 else 0 := by
  induction v with
  | nil =>
    rw [add_nil, List.count_cons, List.count_nil]
    by_cases h : x = p
    · subst h; simp
    · have h2 : ¬ p = x := fun e => h e.symm
      simp [h, h2]
  | cons y v ih =>
    rw [add_cons]; split
    · simp only [List.count_cons, ih]; omega
    · simp only [List.count_cons]; split <;> split <;> simp_all <;> omega

theorem sorted_add {v : List Nat} (p : Nat) (h : v.Sorted (· ≤ ·)) : (add v p).Sorted (· ≤ ·) := by
  induction v with
  | nil => simp [add_nil]
  | cons y v ih =>
    rw [add_cons]; split
    · rename_i hlt
      rw [List.sorted_cons] at h ⊢
      refine ⟨?_, ih h.2⟩
      intro b hb; rw [mem_add] at hb
      rcases hb with rfl | hb
      · omega
      · exact h.1 b hb
    · rename_i hlt
      rw [List.sorted_cons]
      refine ⟨?_, h⟩
      intro b hb
      rw [List.sorted_cons] at h
      rcases List.mem_cons.1 hb with rfl | hb
      · omega
      · have := h.1 b hb; omega

theorem mem_of_contains {v : List Nat} {p : Nat} (h : contains v p = true) : p ∈ v := by
  induction v with
  | nil => simp [contains_nil] at h
  | cons y v ih =>
    rw [contains_cons] at h; split at h
    · exact List.mem_cons_of_mem _ (ih h)
    · simp at h; simp [h]

theorem contains_iff_mem {v : List Nat} (hs : v.Sorted (· ≤ ·)) (p : Nat) :
    contains v p = true ↔ p ∈ v := by
  refine ⟨mem_of_contains, ?_⟩
  induction v with
  | nil => simp
  | cons y v ih =>
    intro hm
    rw [List.sorted_cons] at hs
    rw [contains_cons]; split
    · rename_i hlt
      rcases List.mem_cons.1 hm with rfl | hm
      · omega
      · exact ih hs.2 hm
    · rename_i hlt
      rcases List.mem_cons.1 hm with rfl | hm
      · simp
      · have := hs.1 p hm; simp; omega

theorem remove_eq_erase {v : List Nat} (hs : v.Sorted (· ≤ ·)) (p : Nat) :
    remove v p = v.erase p := by
  induction v with
  | nil => simp [remove_nil]
  | cons y v ih =>
    rw [List.sorted_cons] at hs
    rw [remove_cons]
    by_cases h1 : y < p
    · have : y ≠ p := by omega
      simp [h1, List.erase_cons, this, ih hs.2]
    · by_cases h2 : y = p
      · simp [h1, h2]
      · simp only [h1, h2, if_false]
        have hn : p ∉ v := fun hm => by have := hs.1 p hm; omega
        rw [List.erase_cons]; simp [h2, List.erase_of_not_mem hn]

theorem sorted_remove {v : List Nat} (p : Nat) (h : v.Sorted (· ≤ ·)) :
    (remove v p).Sorted (· ≤ ·) := by
  rw [remove_eq_erase h]; exact h.sublist (List.erase_sublist p v)

theorem nodup_add {v : List Nat} {p : Nat} (h : v.Nodup) (hp : p ∉ v) : (add v p).Nodup := by
  rw [List.nodup_iff_count_le_one] at h ⊢
  intro a; rw [count_add]; split
  · subst_vars; rw [List.count_eq_zero_of_not_mem hp]
  · have := h a; omega

theorem sorted_lt_add {v : List Nat} {p : Nat} (h : v.Sorted (· < ·)) (hp : p ∉ v) :
    (add v p).Sorted (· < ·) := by
  induction v with
  | nil => simp [add_nil]
  | cons y v ih =>
    have hne : p ≠ y := fun e => hp (by rw [e]; exact List.mem_cons_self _ _)
    have hpv : p ∉ v := fun hm => hp (List.mem_cons_of_mem _ hm)
    rw [add_cons]; split
    · rename_i hlt
      rw [List.sorted_cons] at h ⊢
      refine ⟨?_, ih h.2 hpv⟩
      intro b hb; rw [mem_add] at hb
      rcases hb with rfl | hb
      · exact hlt
      · exact h.1 b hb
    · rename_i hlt
      rw [List.sorted_cons]
      refine ⟨?_, h⟩
      intro b hb
      rw [List.sorted_cons] at h
      rcases List.mem_cons.1 hb with rfl | hb
      · omega
      · have := h.1 b hb; omega

theorem sorted_le_of_lt {v : List Nat} (h : v.Sorted (· < ·)) : v.Sorted (· ≤ ·) :=
  List.Pairwise.imp (fun hab => Nat.le_of_lt hab) h

theorem walk_done_mono {s : Heap} {unr : Option (List Nat)} {seen seen1 : List Nat} {x : Nat}
    (h : walk_done s unr seen x) (hsub : ∀ y ∈ seen, y ∈ seen1) : walk_done s unr seen1 x := by
  obtain ⟨hd, h1, h2, h3⟩ := h
  exact ⟨hd, h1, h2, fun y hy => (h3 y hy).imp id (hsub y)⟩

theorem check_reachable_bps_spec (node : Nat) (unr : Option (List Nat)) (bps : List Nat) :
    ∀ (seen pending : List Nat) (owned : Option (List Nat)) (w : Walk),
    seen.Sorted (· < ·) →
    check_reachable_bps node unr bps seen pending owned = w →
    ∃ new : List Nat,
      w.pending = new ++ pending ∧
      w.seen_parents.Sorted (· < ·) ∧
      (∀ x, x ∈ w.seen_parents ↔ x ∈ seen ∨ x ∈ new) ∧
      new.Nodup ∧
      (∀ x ∈ new, x ∈ bps ∧ opt_contains unr x = false ∧ x ∉ seen) ∧
      (w.result = false → w.owned_nodes = owned ∧
        ∀ bp ∈ bps, opt_contains unr bp = true ∨ bp ∈ w.seen_parents) ∧
      (w.result = true →
        (∃ bp ∈ bps, opt_contains owned bp = true) ∧
        w.owned_nodes = opt_add_unique owned node) := by
  induction bps with
  | nil =>
    intro seen pending owned w hs hw
    simp only [check_reachable_bps] at hw; subst hw
    exact ⟨[], by simp, hs, by simp, by simp, by simp, by simp, by simp⟩
  | cons bp bps ih =>
    intro seen pending owned w hs hw
    simp only [check_reachable_bps] at hw
    by_cases h1 : (opt_contains unr bp || contains seen bp) = true
    · rw [if_pos h1] at hw
      obtain ⟨new, e1, e0, e2, en, e3, e4, e5⟩ := ih seen pending owned w hs hw
      refine ⟨new, e1, e0, e2, en, ?_, ?_, ?_⟩
      · intro x hx; obtain ⟨a, b, c⟩ := e3 x hx; exact ⟨List.mem_cons_of_mem _ a, b, c⟩
      · intro hr; refine ⟨(e4 hr).1, ?_⟩
        intro b hb
        rcases List.mem_cons.1 hb with rfl | hb
        · rcases Bool.or_eq_true_iff.1 h1 with h | h
          · exact Or.inl h
          · exact Or.inr ((e2 _).2 (Or.inl (mem_of_contains h)))
        · exact (e4 hr).2 b hb
      · intro hr; obtain ⟨⟨b, hb, hc⟩, e⟩ := e5 hr
        exact ⟨⟨b, List.mem_cons_of_mem _ hb, hc⟩, e⟩
    · rw [if_neg h1] at hw
      simp only [Bool.or_eq_true, not_or, Bool.not_eq_true] at h1
      by_cases h2 : opt_contains owned bp = true
      · rw [if_pos h2] at hw; subst hw
        refine ⟨[], by simp, hs, by simp, by simp, by simp, by simp, ?_⟩
        intro _; exact ⟨⟨bp, List.mem_cons_self _ _, h2⟩, rfl⟩
      · rw [if_neg h2] at hw
        have hbp : bp ∉ seen := fun hm => by
          have := (contains_iff_mem (sorted_le_of_lt hs) bp).2 hm
          rw [h1.2] at this; exact absurd this (by simp)
        obtain ⟨new, e1, e0, e2, en, e3, e4, e5⟩ :=
          ih (add seen bp) (bp :: pending) owned w (sorted_lt_add hs hbp) hw
        refine ⟨new ++ [bp], by simp [e1], e0, ?_, ?_, ?_, ?_, ?_⟩
        · intro x; rw [e2, mem_add]; simp only [List.mem_append, List.mem_singleton]; tauto
        · rw [List.nodup_append]
          refine ⟨en, by simp, ?_⟩
          intro a ha hb
          simp only [List.mem_singleton] at hb; subst hb
          exact (e3 a ha).2.2 (mem_add.2 (Or.inl rfl))
        · intro x hx
          rcases List.mem_append.1 hx with hx | hx
          · obtain ⟨a, b, c⟩ := e3 x hx
            exact ⟨List.mem_cons_of_mem _ a, b, fun hm => c (mem_add.2 (Or.inr hm))⟩
          · simp only [List.mem_singleton] at hx; subst hx
            exact ⟨List.mem_cons_self _ _, h1.1, hbp⟩
        · intro hr; refine ⟨(e4 hr).1, ?_⟩
          intro b hb
          rcases List.mem_cons.1 hb with rfl | hb
          · exact Or.inr ((e2 _).2 (Or.inl (mem_add.2 (Or.inl rfl))))
          · exact (e4 hr).2 b hb
        · intro hr; obtain ⟨⟨b, hb, hc⟩, e⟩ := e5 hr
          exact ⟨⟨b, List.mem_cons_of_mem _ hb, hc⟩, e⟩

theorem unseen_add_new (N : Nat) (seen seen1 new : List Nat)
    (h : ∀ x, x ∈ seen1 ↔ x ∈ seen ∨ x ∈ new) (hn : new.Nodup)
    (hd : ∀ x ∈ new, x ∉ seen ∧ x < N) : unseen N seen1 + new.length = unseen N seen := by
  unfold unseen
  rw [← List.toFinset_card_of_nodup hn, ← Finset.card_union_of_disjoint]
  · congr 1
    ext x
    simp only [Finset.mem_union, Finset.mem_sdiff, Finset.mem_range, List.mem_toFinset, h]
    constructor
    · rintro (⟨a, b⟩ | a)
      · exact ⟨a, fun hx => b (Or.inl hx)⟩
      · exact ⟨(hd x a).2, (hd x a).1⟩
    · rintro ⟨a, b⟩
      by_cases hx : x ∈ new
      · exact Or.inr hx
      · exact Or.inl ⟨a, fun hh => hh.elim b hx⟩
  · rw [Finset.disjoint_left]
    intro x hx hx2
    simp only [Finset.mem_sdiff, Finset.mem_range, List.mem_toFinset, h] at hx hx2
    exact hx.2 (Or.inr hx2)

theorem has_owner_of_edge {s : Heap} {x y : Nat} (he : bp_edge s x y) (h : has_owner s y) :
    has_owner s x := by
  obtain ⟨z, hp, hz⟩ := h
  exact ⟨z, Relation.ReflTransGen.head he hp, hz⟩

theorem has_owner_of_path {s : Heap} {x y : Nat} (hp : bp_path s x y) (h : has_owner s y) :
    has_owner s x := by
  obtain ⟨z, hp2, hz⟩ := h
  exact ⟨z, Relation.ReflTransGen.trans hp hp2, hz⟩

theorem has_owner_of_owned {s : Heap} {x : Nat} (h : owned_at s x) : has_owner s x :=
  ⟨x, Relation.ReflTransGen.refl, h⟩

theorem opt_add_unique_mem {owned : Option (List Nat)} {node : Nat} {v : List Nat}
    (h : opt_add_unique owned node = some v) {x : Nat} (hx : x ∈ v) :
    x = node ∨ ∃ v0, owned = some v0 ∧ x ∈ v0 := by
  cases owned with
  | none => simp [opt_add_unique] at h
  | some v0 =>
    simp only [opt_add_unique, Option.some.injEq, add_unique] at h
    subst h
    split at hx
    · exact Or.inr ⟨v0, rfl, hx⟩
    · rcases mem_add.1 hx with h | h
      · exact Or.inl h
      · exact Or.inr ⟨v0, rfl, h⟩

theorem opt_add_unique_isSome (owned : Option (List Nat)) (node : Nat) :
    (opt_add_unique owned node).isSome = owned.isSome := by
  cases owned <;> rfl

theorem check_reachable_loop_spec (s : Heap) (unr : Option (List Nat)) (I seen0 : List Nat)
    (N : Nat) (hfront : ∀ x hd, s.headers x = some hd → x < N)
    (hlive : ∀ x hd, s.headers x = some hd → ∀ y ∈ hd.back_pointers,
      ∃ hd1, s.headers y = some hd1) :
    ∀ (fuel : Nat) (seen pending : List Nat) (owned : Option (List Nat)),
    seen.Sorted (· < ·) →
    (∀ x ∈ pending, ∃ hd, s.headers x = some hd) →
    (∀ x ∈ pending, x ∈ seen ∨ x ∈ I) →
    (∀ x, x ∈ seen ∨ x ∈ I →
      x ∈ pending ∨ opt_contains unr x = true ∨ walk_done s unr seen x) →
    (∀ x ∈ pending, ∃ i ∈ I, bp_path s i x) →
    (∀ x ∈ seen, x ∈ seen0 ∨ ∃ i ∈ I, bp_path s i x) →
    (∀ v, owned = some v → ∀ x ∈ v, has_owner s x) →
    pending.length + unseen N seen < fuel →
    ∃ w, check_reachable_loop s.headers unr fuel seen pending owned = some w ∧
      w.seen_parents.Sorted (· < ·) ∧
      (∀ x ∈ seen, x ∈ w.seen_parents) ∧
      (∀ x ∈ w.seen_parents, x ∈ seen0 ∨ ∃ i ∈ I, bp_path s i x) ∧
      (∀ v, w.owned_nodes = some v → ∀ x ∈ v, has_owner s x) ∧
      w.owned_nodes.isSome = owned.isSome ∧
      (w.result = true → ∃ i ∈ I, has_owner s i) ∧
      (w.result = false → w.pending = [] ∧ w.owned_nodes = owned ∧
        ∀ x, x ∈ w.seen_parents ∨ x ∈ I →
          opt_contains unr x = true ∨ walk_done s unr w.seen_parents x) := by
  intro fuel
  induction fuel with
  | zero => intro seen pending owned _ _ _ _ _ _ _ hf; omega
  | succ fuel ih =>
    intro seen pending owned hs hl k2 k3 k4 k5 k6 hf
    cases pending with
    | nil =>
      refine ⟨⟨false, seen, [], owned⟩, by simp [check_reachable_loop], hs, fun x hx => hx, k5,
        k6, rfl, by simp, ?_⟩
      intro _
      refine ⟨rfl, rfl, ?_⟩
      intro x hx
      rcases k3 x hx with h | h | h
      · simp at h
      · exact Or.inl h
      · exact Or.inr h
    | cons node pending =>
      obtain ⟨i0, hi0, hp0⟩ := k4 node (List.mem_cons_self _ _)
      simp only [check_reachable_loop]
      by_cases c1 : opt_contains owned node = true
      · rw [if_pos c1]
        refine ⟨_, rfl, hs, fun x hx => hx, k5, k6, rfl, ?_, by simp⟩
        intro _
        cases owned with
        | none => simp [opt_contains] at c1
        | some v =>
          exact ⟨i0, hi0, has_owner_of_path hp0 (k6 v rfl node (mem_of_contains c1))⟩
      · rw [if_neg c1]
        have k2' : ∀ x ∈ pending, x ∈ seen ∨ x ∈ I :=
          fun x hx => k2 x (List.mem_cons_of_mem _ hx)
        have k4' : ∀ x ∈ pending, ∃ i ∈ I, bp_path s i x :=
          fun x hx => k4 x (List.mem_cons_of_mem _ hx)
        have hl' : ∀ x ∈ pending, ∃ hd, s.headers x = some hd :=
          fun x hx => hl x (List.mem_cons_of_mem _ hx)
        by_cases c2 : opt_contains unr node = true
        · rw [if_pos c2]
          have k3' : ∀ x, x ∈ seen ∨ x ∈ I →
              x ∈ pending ∨ opt_contains unr x = true ∨ walk_done s unr seen x := by
            intro x hx
            rcases k3 x hx with h | h | h
            · rcases List.mem_cons.1 h with rfl | h
              · exact Or.inr (Or.inl c2)
              · exact Or.inl h
            · exact Or.inr (Or.inl h)
            · exact Or.inr (Or.inr h)
          exact ih seen pending owned hs hl' k2' k3' k4' k5 k6
            (by simp only [List.length_cons] at hf; omega)
        · rw [if_neg c2]
          obtain ⟨hd, hhd⟩ := hl node (List.mem_cons_self _ _)
          rw [hhd]
          simp only
          by_cases c3 : is_owned hd = true
          · simp only [c3, Bool.not_true, Bool.false_eq_true, if_false]
            have hown : has_owner s node := has_owner_of_owned ⟨hd, hhd, c3⟩
            refine ⟨_, rfl, hs, fun x hx => hx, k5, ?_, opt_add_unique_isSome _ _, ?_, by simp⟩
            · intro v hv x hx
              rcases opt_add_unique_mem hv hx with rfl | ⟨v0, hv0, hx0⟩
              · exact hown
              · exact k6 v0 hv0 x hx0
            · intro _; exact ⟨i0, hi0, has_owner_of_path hp0 hown⟩
          · simp only [Bool.not_eq_true] at c3
            simp only [c3, Bool.not_false, if_true]
            obtain ⟨new, e1, e0, e2, en, e3, e4, e5⟩ :=
              check_reachable_bps_spec node unr hd.back_pointers seen pending owned _ hs rfl
            generalize check_reachable_bps node unr hd.back_pointers seen pending owned = w
              at e1 e0 e2 en e3 e4 e5
            by_cases c4 : w.result = true
            · rw [if_pos c4]
              obtain ⟨⟨bp, hbp, hbo⟩, e6⟩ := e5 c4
              have hown : has_owner s node := by
                cases owned with
                | none => simp [opt_contains] at hbo
                | some v =>
                  exact has_owner_of_edge ⟨hd, hhd, hbp⟩ (k6 v rfl bp (mem_of_contains hbo))
              refine ⟨w, rfl, e0, fun x hx => (e2 x).2 (Or.inl hx), ?_, ?_, ?_, ?_, ?_⟩
              · intro x hx
                rcases (e2 x).1 hx with h | h
                · exact k5 x h
                · exact Or.inr ⟨i0, hi0, hp0.tail ⟨hd, hhd, (e3 x h).1⟩⟩
              · intro v hv x hx
                rw [e6] at hv
                rcases opt_add_unique_mem hv hx with rfl | ⟨v0, hv0, hx0⟩
                · exact hown
                · exact k6 v0 hv0 x hx0
              · rw [e6]; exact opt_add_unique_isSome _ _
              · intro _; exact ⟨i0, hi0, has_owner_of_path hp0 hown⟩
              · intro h; rw [c4] at h; exact absurd h (by simp)
            · rw [if_neg c4]
              simp only [Bool.not_eq_true] at c4
              obtain ⟨e4a, e4b⟩ := e4 c4
              have hnew : ∀ x ∈ new, x ∉ seen ∧ x < N := by
                intro x hx
                obtain ⟨a, _, c⟩ := e3 x hx
                obtain ⟨hd1, h1⟩ := hlive node hd hhd x a
                exact ⟨c, hfront x hd1 h1⟩
              have hm := unseen_add_new N seen w.seen_parents new e2 en hnew
              have a1 : ∀ x ∈ w.pending, ∃ hd, s.headers x = some hd := by
                intro x hx; rw [e1] at hx
                rcases List.mem_append.1 hx with h | h
                · exact hlive node hd hhd x (e3 x h).1
                · exact hl' x h
              have a2 : ∀ x ∈ w.pending, x ∈ w.seen_parents ∨ x ∈ I := by
                intro x hx; rw [e1] at hx
                rcases List.mem_append.1 hx with h | h
                · exact Or.inl ((e2 x).2 (Or.inr h))
                · exact (k2' x h).imp (fun h => (e2 x).2 (Or.inl h)) id
              have a3 : ∀ x, x ∈ w.seen_parents ∨ x ∈ I →
                  x ∈ w.pending ∨ opt_contains unr x = true ∨
                    walk_done s unr w.seen_parents x := by
                intro x hx
                have hsub : ∀ y ∈ seen, y ∈ w.seen_parents := fun y hy => (e2 y).2 (Or.inl hy)
                have hcase : x ∈ seen ∨ x ∈ I ∨ x ∈ new := by
                  rcases hx with h | h
                  · rcases (e2 x).1 h with h | h
                    · exact Or.inl h
                    · exact Or.inr (Or.inr h)
                  · exact Or.inr (Or.inl h)
                have hold : x ∈ seen ∨ x ∈ I →
                    x ∈ w.pending ∨ opt_contains unr x = true ∨
                      walk_done s unr w.seen_parents x := by
                  intro hx
                  rcases k3 x hx with h | h | h
                  · rcases List.mem_cons.1 h with rfl | h
                    · exact Or.inr (Or.inr ⟨hd, hhd, c3, e4b⟩)
                    · exact Or.inl (by rw [e1]; exact List.mem_append_right _ h)
                  · exact Or.inr (Or.inl h)
                  · exact Or.inr (Or.inr (walk_done_mono h hsub))
                rcases hcase with h | h | h
                · exact hold (Or.inl h)
                · exact hold (Or.inr h)
                · exact Or.inl (by rw [e1]; exact List.mem_append_left _ h)
              have a4 : ∀ x ∈ w.pending, ∃ i ∈ I, bp_path s i x := by
                intro x hx; rw [e1] at hx
                rcases List.mem_append.1 hx with h | h
                · exact ⟨i0, hi0, hp0.tail ⟨hd, hhd, (e3 x h).1⟩⟩
                · exact k4' x h
              have a5 : ∀ x ∈ w.seen_parents, x ∈ seen0 ∨ ∃ i ∈ I, bp_path s i x := by
                intro x hx
                rcases (e2 x).1 hx with h | h
                · exact k5 x h
                · exact Or.inr ⟨i0, hi0, hp0.tail ⟨hd, hhd, (e3 x h).1⟩⟩
              have a6 : ∀ v, w.owned_nodes = some v → ∀ x ∈ v, has_owner s x := by
                rw [e4a]; exact k6
              have a7 : w.pending.length + unseen N w.seen_parents < fuel := by
                rw [e1]; simp only [List.length_append, List.length_cons] at hf ⊢; omega
              obtain ⟨w2, r1, r2, r3, r4, r5, r6, r7, r8⟩ :=
                ih w.seen_parents w.pending w.owned_nodes e0 a1 a2 a3 a4 a5 a6 a7
              refine ⟨w2, r1, r2, fun x hx => r3 x ((e2 x).2 (Or.inl hx)), r4, r5, ?_, r7, ?_⟩
              · rw [r6, e4a]
              · intro h; obtain ⟨a, b, c⟩ := r8 h; exact ⟨a, by rw [b, e4a], c⟩

theorem dead_closed_path {s : Heap} {U : List Nat} (h : dead_closed s U) {x z : Nat}
    (hp : bp_path s x z) (hx : x ∈ U) : z ∈ U := by
  induction hp with
  | refl => exact hx
  | tail _ he ih =>
    obtain ⟨hd, h1, h2⟩ := he
    obtain ⟨hd1, h3, _, h5⟩ := h _ ih
    rw [h1] at h3; cases h3
    exact h5 _ h2

theorem dead_closed_not_has_owner {s : Heap} {U : List Nat} (h : dead_closed s U) {x : Nat}
    (hx : x ∈ U) : ¬ has_owner s x := by
  rintro ⟨z, hp, hd, h1, h2⟩
  obtain ⟨hd1, h3, h4, _⟩ := h z (dead_closed_path h hp hx)
  rw [h1] at h3; cases h3
  rw [h2] at h4; exact absurd h4 (by simp)

theorem mem_add_unique {v : List Nat} {p x : Nat} : x ∈ (add_unique v p).1 ↔ x = p ∨ x ∈ v := by
  unfold add_unique
  split
  · rename_i h
    constructor
    · exact Or.inr
    · rintro (rfl | h1)
      · exact mem_of_contains h
      · exact h1
  · exact mem_add

theorem sorted_add_unique {v : List Nat} (p : Nat) (h : v.Sorted (· ≤ ·)) :
    (add_unique v p).1.Sorted (· ≤ ·) := by
  unfold add_unique
  split
  · exact h
  · exact sorted_add p h

theorem add_unique_snd {v : List Nat} (hs : v.Sorted (· ≤ ·)) (p : Nat) :
    (add_unique v p).2 = true ↔ p ∉ v := by
  unfold add_unique
  split
  · rename_i h; simp [(contains_iff_mem hs p).1 h]
  · rename_i h; simp only [true_iff]; exact fun hm => h ((contains_iff_mem hs p).2 hm)

theorem nodup_add_unique {v : List Nat} (hs : v.Sorted (· ≤ ·)) (hn : v.Nodup) (p : Nat) :
    (add_unique v p).1.Nodup := by
  unfold add_unique
  split
  · exact hn
  · rename_i h; exact nodup_add hn (fun hm => h ((contains_iff_mem hs p).2 hm))

theorem length_add_unique {v : List Nat} (p : Nat) :
    (add_unique v p).1.length = v.length + if (add_unique v p).2 then 1 else 0 := by
  unfold add_unique
  split <;> simp [length_add]

theorem add_seen_parents_spec (ps : List Nat) :
    ∀ (U W : List Nat), U.Sorted (· ≤ ·) → U.Nodup →
    (add_seen_parents ps U W).1.Sorted (· ≤ ·) ∧ (add_seen_parents ps U W).1.Nodup ∧
    (∀ x, x ∈ (add_seen_parents ps U W).1 ↔ x ∈ U ∨ x ∈ ps) ∧
    ∃ new, (add_seen_parents ps U W).2 = new ++ W ∧
      (∀ x ∈ new, x ∈ ps ∧ x ∉ U) ∧
      (∀ x ∈ (add_seen_parents ps U W).1, x ∈ U ∨ x ∈ new) ∧
      (add_seen_parents ps U W).1.length = U.length + new.length := by
  induction ps with
  | nil =>
    intro U W hs hn
    exact ⟨hs, hn, by simp [add_seen_parents], [], by simp [add_seen_parents],
      by simp, by simp [add_seen_parents], by simp [add_seen_parents]⟩
  | cons p ps ih =>
    intro U W hs hn
    have hs1 := sorted_add_unique p hs
    have hn1 := nodup_add_unique hs hn p
    simp only [add_seen_parents]
    by_cases h : (add_unique U p).2 = true
    · rw [if_pos h]
      obtain ⟨a, b, c, new, d, e, g, f⟩ := ih (add_unique U p).1 (p :: W) hs1 hn1
      refine ⟨a, b, ?_, new ++ [p], by simp [d], ?_, ?_, ?_⟩
      · intro x; rw [c, mem_add_unique]; simp only [List.mem_cons]; tauto
      · intro x hx
        rcases List.mem_append.1 hx with hx | hx
        · obtain ⟨e1, e2⟩ := e x hx
          exact ⟨List.mem_cons_of_mem _ e1, fun hm => e2 (mem_add_unique.2 (Or.inr hm))⟩
        · simp only [List.mem_singleton] at hx; subst hx
          exact ⟨List.mem_cons_self _ _, (add_unique_snd hs x).1 h⟩
      · intro x hx
        rcases g x hx with h1 | h1
        · rcases mem_add_unique.1 h1 with h2 | h2
          · exact Or.inr (by simp [h2])
          · exact Or.inl h2
        · exact Or.inr (List.mem_append_left _ h1)
      · rw [f, length_add_unique, if_pos h]; simp; omega
    · rw [if_neg h]
      obtain ⟨a, b, c, new, d, e, g, f⟩ := ih (add_unique U p).1 W hs1 hn1
      refine ⟨a, b, ?_, new, d, ?_, ?_, ?_⟩
      · intro x; rw [c, mem_add_unique]; simp only [List.mem_cons]; tauto
      · intro x hx
        obtain ⟨e1, e2⟩ := e x hx
        exact ⟨List.mem_cons_of_mem _ e1, fun hm => e2 (mem_add_unique.2 (Or.inr hm))⟩
      · intro x hx
        rcases g x hx with h1 | h1
        · rcases mem_add_unique.1 h1 with h2 | h2
          · subst h2
            refine Or.inl ?_
            by_contra hc
            exact h ((add_unique_snd hs x).2 hc)
          · exact Or.inl h2
        · exact Or.inr h1
      · rw [f, length_add_unique, if_neg h]; simp

theorem unseen_nil (N : Nat) : unseen N [] = N := by simp [unseen]

theorem check_child_spec {s : Heap} (hg : graph_ok s) {c : Nat} {st : Search}
    (hc : ∃ hd, s.headers c = some hd) (hst : search_ok s st) :
    ∃ st1, check_child s c st = some st1 ∧ search_ok s st1 ∧
      (∀ x ∈ st.unreachable_nodes, x ∈ st1.unreachable_nodes) ∧
      (c ∈ st1.unreachable_nodes ∨ has_owner s c) ∧
      (∃ new, st1.nodes_to_check_children = new ++ st.nodes_to_check_children ∧
        (∀ x ∈ st1.unreachable_nodes, x ∈ st.unreachable_nodes ∨ x ∈ new) ∧
        st1.unreachable_nodes.length = st.unreachable_nodes.length + new.length) := by
  obtain ⟨hd, hhd⟩ := hc
  unfold check_child
  by_cases c1 : (contains st.unreachable_nodes c || contains st.owned_nodes c) = true
  · rw [if_pos c1]
    refine ⟨st, rfl, hst, fun x hx => hx, ?_, [], by simp, by simp, by simp⟩
    rcases Bool.or_eq_true_iff.1 c1 with h | h
    · exact Or.inl (mem_of_contains h)
    · exact Or.inr (hst.owned c (mem_of_contains h))
  · rw [if_neg c1, hhd]
    simp only
    by_cases c2 : is_owned hd = true
    · rw [if_pos c2]
      refine ⟨_, rfl, ⟨hst.sorted, hst.nodup, hst.dead, ?_, hst.work⟩, fun x hx => hx,
        Or.inr (has_owner_of_owned ⟨hd, hhd, c2⟩), [], by simp, by simp, by simp⟩
      intro x hx
      rcases mem_add.1 hx with rfl | hx
      · exact has_owner_of_owned ⟨hd, hhd, c2⟩
      · exact hst.owned x hx
    · rw [if_neg c2]
      simp only [Bool.not_eq_true] at c2
      obtain ⟨w, r1, r2, r3, r4, r5, r6, r7, r8⟩ :=
        check_reachable_loop_spec s (some st.unreachable_nodes) [c] [] s.next_header
          hg.header_lt hg.bp_live (s.next_header + [c].length + 1) [] [c] (some st.owned_nodes)
          (by simp) (by intro x hx; simp at hx; subst hx; exact ⟨hd, hhd⟩)
          (by intro x hx; exact Or.inr hx)
          (by intro x hx; rcases hx with h | h; simp at h; exact Or.inl h)
          (by intro x hx; simp at hx; subst hx; exact ⟨x, by simp, Relation.ReflTransGen.refl⟩)
          (by simp) (by intro v hv x hx; cases hv; exact hst.owned x hx)
          (by rw [unseen_nil]; simp; omega)
      unfold check_reachable_static
      rw [r1]
      simp only
      obtain ⟨ov, hov⟩ : ∃ ov, w.owned_nodes = some ov := by
        cases h : w.owned_nodes with
        | none => rw [h] at r6; simp at r6
        | some ov => exact ⟨ov, rfl⟩
      rw [hov]; simp only [Option.getD_some]
      by_cases c3 : w.result = true
      · simp only [c3, Bool.not_true, Bool.false_eq_true, if_false]
        have hown : has_owner s c := by
          obtain ⟨i, hi, ho⟩ := r7 c3
          simp at hi; subst hi; exact ho
        refine ⟨_, rfl, ⟨hst.sorted, hst.nodup, hst.dead, ?_, hst.work⟩, fun x hx => hx,
          Or.inr hown, [], by simp, by simp, by simp⟩
        intro x hx
        rcases mem_add_unique.1 hx with rfl | hx
        · exact hown
        · exact r5 ov hov x hx
      · simp only [Bool.not_eq_true] at c3
        simp only [c3, Bool.not_false, if_true]
        obtain ⟨q1, q2, q3⟩ := r8 c3
        obtain ⟨a, b, cc, new, d, e, g, f⟩ := add_seen_parents_spec w.seen_parents
          st.unreachable_nodes st.nodes_to_check_children hst.sorted hst.nodup
        generalize add_seen_parents w.seen_parents st.unreachable_nodes
          st.nodes_to_check_children = r at a b cc d e g f
        have hU : ∀ x, x ∈ (add_unique r.1 c).1 ↔
            x ∈ st.unreachable_nodes ∨ x ∈ w.seen_parents ∨ x = c := by
          intro x; rw [mem_add_unique, cc]; tauto
        have hov2 : ov = st.owned_nodes := by rw [q2] at hov; cases hov; rfl
        refine ⟨_, rfl, ⟨sorted_add_unique c a, nodup_add_unique a b c, ?_, ?_, ?_⟩, ?_,
          Or.inl ((hU c).2 (Or.inr (Or.inr rfl))), ?_⟩
        · intro u hu
          have hcase : u ∈ st.unreachable_nodes ∨ (u ∈ w.seen_parents ∨ u ∈ [c]) := by
            rcases (hU u).1 hu with h | h | h
            · exact Or.inl h
            · exact Or.inr (Or.inl h)
            · exact Or.inr (Or.inr (by simp [h]))
          have hold : u ∈ st.unreachable_nodes → ∃ hd, s.headers u = some hd ∧
              is_owned hd = false ∧ ∀ y ∈ hd.back_pointers, y ∈ (add_unique r.1 c).1 := by
            intro h
            obtain ⟨hd1, h1, h2, h3⟩ := hst.dead u h
            exact ⟨hd1, h1, h2, fun y hy => (hU y).2 (Or.inl (h3 y hy))⟩
          rcases hcase with h | h
          · exact hold h
          · rcases q3 u h with h1 | ⟨hd1, h1, h2, h3⟩
            · exact hold (mem_of_contains h1)
            · refine ⟨hd1, h1, h2, fun y hy => (hU y).2 ?_⟩
              rcases h3 y hy with h4 | h4
              · exact Or.inl (mem_of_contains h4)
              · exact Or.inr (Or.inl h4)
        · intro x hx; subst hov2; exact hst.owned x hx
        · intro x hx
          simp only at hx
          have hx2 : x = c ∨ x ∈ r.2 := by
            split at hx
            · simpa using hx
            · exact Or.inr hx
          rcases hx2 with h | h
          · exact (hU x).2 (Or.inr (Or.inr h))
          · rw [d] at h
            rcases List.mem_append.1 h with h | h
            · exact (hU x).2 (Or.inr (Or.inl (e x h).1))
            · exact (hU x).2 (Or.inl (hst.work x h))
        · intro x hx; exact (hU x).2 (Or.inl hx)
        · by_cases c4 : (add_unique r.1 c).2 = true
          · refine ⟨c :: new, by simp [c4, d], ?_, ?_⟩
            · intro x hx
              rcases mem_add_unique.1 hx with h | h
              · exact Or.inr (by simp [h])
              · exact (g x h).imp id (List.mem_cons_of_mem _)
            · simp only [length_add_unique, c4, if_true, f, List.length_cons]; omega
          · refine ⟨new, by simp [c4, d], ?_, ?_⟩
            · intro x hx
              rcases mem_add_unique.1 hx with h | h
              · subst h
                have : x ∈ r.1 := by
                  by_contra hc
                  exact c4 ((add_unique_snd a x).2 hc)
                exact g x this
              · exact g x h
            · simp only [length_add_unique, c4, f]; simp

theorem check_children_spec {s : Heap} (hg : graph_ok s) (ps : List Nat) :
    ∀ (st : Search), (∀ p ∈ ps, ∃ ip, s.iptrs p = some ip) → search_ok s st →
    ∃ st1, check_children s ps st = some st1 ∧ search_ok s st1 ∧
      (∀ x ∈ st.unreachable_nodes, x ∈ st1.unreachable_nodes) ∧
      (∀ p ∈ ps, ∀ ip c, s.iptrs p = some ip → ip.header = some c →
        c ∈ st1.unreachable_nodes ∨ has_owner s c) ∧
      (∃ new, st1.nodes_to_check_children = new ++ st.nodes_to_check_children ∧
        (∀ x ∈ st1.unreachable_nodes, x ∈ st.unreachable_nodes ∨ x ∈ new) ∧
        st1.unreachable_nodes.length = st.unreachable_nodes.length + new.length) := by
  induction ps with
  | nil =>
    intro st _ hst
    exact ⟨st, rfl, hst, fun x hx => by exact hx, by simp, [], by simp, by simp, by simp⟩
  | cons p ps ih =>
    intro st hp hst
    obtain ⟨ip, hip⟩ := hp p (List.mem_cons_self _ _)
    have hp' : ∀ q ∈ ps, ∃ ip, s.iptrs q = some ip := fun q hq => hp q (List.mem_cons_of_mem _ hq)
    simp only [check_children, hip]
    cases hh : ip.header with
    | none =>
      simp only
      obtain ⟨st1, a, b, c, d, e⟩ := ih st hp' hst
      refine ⟨st1, a, b, c, ?_, e⟩
      intro q hq iq cq h1 h2
      rcases List.mem_cons.1 hq with rfl | hq
      · rw [hip] at h1; cases h1; rw [hh] at h2; cases h2
      · exact d q hq iq cq h1 h2
    | some cn =>
      simp only
      obtain ⟨st0, a0, b0, c0, d0, new0, e0, f0, g0⟩ :=
        check_child_spec hg (hg.target_live p ip cn hip hh) hst
      rw [a0]
      simp only
      obtain ⟨st1, a, b, c, d, new, e, f, g⟩ := ih st0 hp' b0
      refine ⟨st1, a, b, fun x hx => c x (c0 x hx), ?_, new ++ new0, ?_, ?_, ?_⟩
      · intro q hq iq cq h1 h2
        rcases List.mem_cons.1 hq with rfl | hq
        · rw [hip] at h1; cases h1; rw [hh] at h2; cases h2
          exact d0.imp (c _) id
        · exact d q hq iq cq h1 h2
      · rw [e, e0]; simp
      · intro x hx
        rcases f x hx with h | h
        · rcases f0 x h with h | h
          · exact Or.inl h
          · exact Or.inr (List.mem_append_right _ h)
        · exact Or.inr (List.mem_append_left _ h)
      · rw [g, g0]; simp; omega

theorem length_le_of_nodup_lt {l : List Nat} {N : Nat} (hn : l.Nodup) (h : ∀ x ∈ l, x < N) :
    l.length ≤ N := by
  rw [← List.toFinset_card_of_nodup hn, ← Finset.card_range N]
  apply Finset.card_le_card
  intro x hx
  simp only [List.mem_toFinset] at hx
  simp [h x hx]

theorem children_classified_mono {s : Heap} {U U1 : List Nat} {x : Nat}
    (h : children_classified s U x) (hsub : ∀ y ∈ U, y ∈ U1) : children_classified s U1 x := by
  intro hd b base h1 h2 h3 p hp ip c h4 h5
  exact (h hd b base h1 h2 h3 p hp ip c h4 h5).imp (hsub c) id

theorem find_unreachable_children_loop_spec {s : Heap} (hg : graph_ok s) :
    ∀ (fuel : Nat) (st : Search), search_ok s st →
    (∀ x ∈ st.unreachable_nodes,
      x ∈ st.nodes_to_check_children ∨ children_classified s st.unreachable_nodes x) →
    st.nodes_to_check_children.length + (s.next_header - st.unreachable_nodes.length) < fuel →
    ∃ st1, find_unreachable_children_loop s fuel st = some st1 ∧ search_ok s st1 ∧
      (∀ x ∈ st.unreachable_nodes, x ∈ st1.unreachable_nodes) ∧
      (∀ x ∈ st1.unreachable_nodes, children_classified s st1.unreachable_nodes x) := by
  intro fuel
  induction fuel with
  | zero => intro st _ _ hf; omega
  | succ fuel ih =>
    intro st hst hcl hf
    unfold find_unreachable_children_loop
    cases hw : st.nodes_to_check_children with
    | nil =>
      simp only
      refine ⟨st, rfl, hst, fun x hx => hx, ?_⟩
      intro x hx
      rcases hcl x hx with h | h
      · rw [hw] at h; simp at h
      · exact h
    | cons next rest =>
      simp only
      have hnext : next ∈ st.unreachable_nodes := hst.work next (by rw [hw]; simp)
      obtain ⟨hd, hhd, _, _⟩ := hst.dead next hnext
      rw [hhd]
      simp only
      have hst' : search_ok s { st with nodes_to_check_children := rest } :=
        ⟨hst.sorted, hst.nodup, hst.dead, hst.owned,
          fun x hx => hst.work x (by rw [hw]; exact List.mem_cons_of_mem _ hx)⟩
      have hlen : ∀ (st1 : Search), search_ok s st1 → st1.unreachable_nodes.length ≤ s.next_header := by
        intro st1 h1
        apply length_le_of_nodup_lt h1.nodup
        intro x hx
        obtain ⟨hd1, h2, _⟩ := h1.dead x hx
        exact hg.header_lt x hd1 h2
      cases hb : hd.get_internal_base with
      | none =>
        simp only
        apply ih _ hst'
        · intro x hx
          rcases hcl x hx with h | h
          · rw [hw] at h
            rcases List.mem_cons.1 h with rfl | h
            · right
              intro hd1 b base h1 h2
              rw [hhd] at h1; cases h1; rw [hb] at h2; cases h2
            · exact Or.inl h
          · exact Or.inr h
        · simp only; rw [hw] at hf; simp only [List.length_cons] at hf; omega
      | some b =>
        simp only
        obtain ⟨base, hbase⟩ := hg.base_live next hd b hhd hb
        rw [hbase]
        simp only
        obtain ⟨st1, a, b1, c, d, new, e, f, g⟩ :=
          check_children_spec hg base.pointers _ (hg.ptr_live b base hbase) hst'
        rw [a]
        simp only
        have hl1 := hlen st1 b1
        obtain ⟨st2, a2, b2, c2, d2⟩ := ih st1 b1 (by
          intro x hx
          rcases f x hx with h | h
          · rcases hcl x h with h1 | h1
            · rw [hw] at h1
              rcases List.mem_cons.1 h1 with rfl | h1
              · right
                intro hd1 b0 base0 h1 h2 h3 p hp ip cn h4 h5
                rw [hhd] at h1; cases h1; rw [hb] at h2; cases h2
                rw [hbase] at h3; cases h3
                exact d p hp ip cn h4 h5
              · left; rw [e]; exact List.mem_append_right _ h1
            · exact Or.inr (children_classified_mono h1 c)
          · left; rw [e]; exact List.mem_append_left _ h) (by
          rw [e, g]; simp only [List.length_append]
          rw [hw] at hf; simp only [List.length_cons] at hf
          rw [g] at hl1
          simp only at hl1 ⊢
          omega)
        exact ⟨st2, a2, b2, fun x hx => c2 x (c x hx), d2⟩

theorem find_unreachable_children_spec {s : Heap} (hg : graph_ok s) {S0 : List Nat}
    (hs : S0.Sorted (· ≤ ·)) (hn : S0.Nodup) (hd : dead_closed s S0) :
    ∃ U, find_unreachable_children s S0 = some U ∧ U.Sorted (· ≤ ·) ∧ U.Nodup ∧
      dead_closed s U ∧ (∀ x ∈ S0, x ∈ U) ∧ ∀ x ∈ U, children_classified s U x := by
  obtain ⟨st1, a, b, c, d⟩ := find_unreachable_children_loop_spec hg
    (s.next_header + S0.length + 1)
    { unreachable_nodes := S0, nodes_to_check_children := S0.reverse, owned_nodes := [],
      seen_parents := [], pending := [] }
    ⟨hs, hn, hd, by simp, by simp⟩ (by intro x hx; left; simpa using hx)
    (by simp only [List.length_reverse]; omega)
  refine ⟨st1.unreachable_nodes, ?_, b.sorted, b.nodup, b.dead, c, d⟩
  unfold find_unreachable_children
  rw [a]

/-! ### Field access through the setters -/

@[simp] theorem set_header_headers (s : Heap) (h : Nat) (v : Option root_ptr_header_block_base) :
    (s.set_header h v).headers = Function.update s.headers h v := rfl

@[simp] theorem set_header_bases (s : Heap) (h : Nat) (v : Option root_ptr_header_block_base) :
    (s.set_header h v).bases = s.bases := rfl

@[simp] theorem set_header_iptrs (s : Heap) (h : Nat) (v : Option root_ptr_header_block_base) :
    (s.set_header h v).iptrs = s.iptrs := rfl

@[simp] theorem set_header_roots (s : Heap) (h : Nat) (v : Option root_ptr_header_block_base) :
    (s.set_header h v).roots = s.roots := rfl

@[simp] theorem set_header_next_header (s : Heap) (h : Nat)
    (v : Option root_ptr_header_block_base) : (s.set_header h v).next_header = s.next_header := rfl

@[simp] theorem set_header_next_base (s : Heap) (h : Nat)
    (v : Option root_ptr_header_block_base) : (s.set_header h v).next_base = s.next_base := rfl

@[simp] theorem set_header_next_iptr (s : Heap) (h : Nat)
    (v : Option root_ptr_header_block_base) : (s.set_header h v).next_iptr = s.next_iptr := rfl

@[simp] theorem set_header_next_root (s : Heap) (h : Nat)
    (v : Option root_ptr_header_block_base) : (s.set_header h v).next_root = s.next_root := rfl

@[simp] theorem set_header_trace (s : Heap) (h : Nat) (v : Option root_ptr_header_block_base) :
    (s.set_header h v).trace = s.trace := rfl

@[simp] theorem set_base_headers (s : Heap) (b : Nat) (v : Option internal_base) :
    (s.set_base b v).headers = s.headers := rfl

@[simp] theorem set_base_bases (s : Heap) (b : Nat) (v : Option internal_base) :
    (s.set_base b v).bases = Function.update s.bases b v := rfl

@[simp] theorem set_base_iptrs (s : Heap) (b : Nat) (v : Option internal_base) :
    (s.set_base b v).iptrs = s.iptrs := rfl

@[simp] theorem set_base_roots (s : Heap) (b : Nat) (v : Option internal_base) :
    (s.set_base b v).roots = s.roots := rfl

@[simp] theorem set_base_next_header (s : Heap) (b : Nat) (v : Option internal_base) :
    (s.set_base b v).next_header = s.next_header := rfl

@[simp] theorem set_base_next_base (s : Heap) (b : Nat) (v : Option internal_base) :
    (s.set_base b v).next_base = s.next_base := rfl

@[simp] theorem set_base_next_iptr (s : Heap) (b : Nat) (v : Option internal_base) :
    (s.set_base b v).next_iptr = s.next_iptr := rfl

@[simp] theorem set_base_next_root (s : Heap) (b : Nat) (v : Option internal_base) :
    (s.set_base b v).next_root = s.next_root := rfl

@[simp] theorem set_base_trace (s : Heap) (b : Nat) (v : Option internal_base) :
    (s.set_base b v).trace = s.trace := rfl

@[simp] theorem set_iptr_headers (s : Heap) (p : Nat) (v : Option internal_ptr) :
    (s.set_iptr p v).headers = s.headers := rfl

@[simp] theorem set_iptr_bases (s : Heap) (p : Nat) (v : Option internal_ptr) :
    (s.set_iptr p v).bases = s.bases := rfl

@[simp] theorem set_iptr_iptrs (s : Heap) (p : Nat) (v : Option internal_ptr) :
    (s.set_iptr p v).iptrs = Function.update s.iptrs p v := rfl

@[simp] theorem set_iptr_roots (s : Heap) (p : Nat) (v : Option internal_ptr) :
    (s.set_iptr p v).roots = s.roots := rfl

@[simp] theorem set_iptr_next_header (s : Heap) (p : Nat) (v : Option internal_ptr) :
    (s.set_iptr p v).next_header = s.next_header := rfl

@[simp] theorem set_iptr_next_base (s : Heap) (p : Nat) (v : Option internal_ptr) :
    (s.set_iptr p v).next_base = s.next_base := rfl

@[simp] theorem set_iptr_next_iptr (s : Heap) (p : Nat) (v : Option internal_ptr) :
    (s.set_iptr p v).next_iptr = s.next_iptr := rfl

@[simp] theorem set_iptr_next_root (s : Heap) (p : Nat) (v : Option internal_ptr) :
    (s.set_iptr p v).next_root = s.next_root := rfl

@[simp] theorem set_iptr_trace (s : Heap) (p : Nat) (v : Option internal_ptr) :
    (s.set_iptr p v).trace = s.trace := rfl

@[simp] theorem set_root_headers (s : Heap) (r : Nat) (v : Option root_ptr) :
    (s.set_root r v).headers = s.headers := rfl

@[simp] theorem set_root_bases (s : Heap) (r : Nat) (v : Option root_ptr) :
    (s.set_root r v).bases = s.bases := rfl

@[simp] theorem set_root_iptrs (s : Heap) (r : Nat) (v : Option root_ptr) :
    (s.set_root r v).iptrs = s.iptrs := rfl

@[simp] theorem set_root_roots (s : Heap) (r : Nat) (v : Option root_ptr) :
    (s.set_root r v).roots = Function.update s.roots r v := rfl

@[simp] theorem set_root_next_header (s : Heap) (r : Nat) (v : Option root_ptr) :
    (s.set_root r v).next_header = s.next_header := rfl

@[simp] theorem set_root_next_base (s : Heap) (r : Nat) (v : Option root_ptr) :
    (s.set_root r v).next_base = s.next_base := rfl

@[simp] theorem set_root_next_iptr (s : Heap) (r : Nat) (v : Option root_ptr) :
    (s.set_root r v).next_iptr = s.next_iptr := rfl

@[simp] theorem set_root_next_root (s : Heap) (r : Nat) (v : Option root_ptr) :
    (s.set_root r v).next_root = s.next_root := rfl

@[simp] theorem set_root_trace (s : Heap) (r : Nat) (v : Option root_ptr) :
    (s.set_root r v).trace = s.trace := rfl

@[simp] theorem log_headers (s : Heap) (e : Event) : (s.log e).headers = s.headers := rfl
@[simp] theorem log_bases (s : Heap) (e : Event) : (s.log e).bases = s.bases := rfl

@[simp] theorem log_iptrs (s : Heap) (e : Event) : (s.log e).iptrs = s.iptrs := rfl
@[simp] theorem log_roots (s : Heap) (e : Event) : (s.log e).roots = s.roots := rfl

@[simp] theorem log_next_header (s : Heap) (e : Event) :
    (s.log e).next_header = s.next_header := rfl

@[simp] theorem log_next_base (s : Heap) (e : Event) : (s.log e).next_base = s.next_base := rfl
@[simp] theorem log_next_iptr (s : Heap) (e : Event) : (s.log e).next_iptr = s.next_iptr := rfl

@[simp] theorem log_next_root (s : Heap) (e : Event) : (s.log e).next_root = s.next_root := rfl
@[simp] theorem log_trace (s : Heap) (e : Event) : (s.log e).trace = s.trace ++ [e] := rfl

/-! ### Counting -/

theorem count_upto_succ (n : Nat) (f : Nat → Bool) :
    count_upto (n + 1) f = count_upto n f + if f n then 1 else 0 := by
  unfold count_upto
  rw [List.range_succ, List.countP_append]
  simp [List.countP_cons]

theorem count_upto_congr {n : Nat} {f g : Nat → Bool} (h : ∀ x, x < n → f x = g x) :
    count_upto n f = count_upto n g := by
  induction n with
  | zero => rfl
  | succ n ih =>
    rw [count_upto_succ, count_upto_succ, ih (fun x hx => h x (by omega)), h n (by omega)]

theorem count_upto_update {n : Nat} {f g : Nat → Bool} {i : Nat}
    (h : ∀ x, x ≠ i → f x = g x) (hi : i < n) :
    count_upto n g + (if f i then 1 else 0) = count_upto n f + (if g i then 1 else 0) := by
  induction n with
  | zero => omega
  | succ n ih =>
    rw [count_upto_succ, count_upto_succ]
    by_cases hin : i = n
    · subst hin
      rw [count_upto_congr (fun x hx => h x (by omega))]
      omega
    · have := ih (by omega)
      rw [h n (fun e => hin e.symm)]
      omega

theorem count_upto_pos {n : Nat} {f : Nat → Bool} {i : Nat} (hi : i < n) (hf : f i = true) :
    1 ≤ count_upto n f := by
  induction n with
  | zero => omega
  | succ n ih =>
    rw [count_upto_succ]
    by_cases hin : i = n
    · subst hin; simp [hf]
    · have := ih (by omega); omega

theorem count_upto_zero {n : Nat} {f : Nat → Bool} (h : ∀ x, x < n → f x = false) :
    count_upto n f = 0 := by
  induction n with
  | zero => rfl
  | succ n ih => rw [count_upto_succ, ih (fun x hx => h x (by omega)), h n (by omega)]; simp

theorem exists_of_count_upto_pos {n : Nat} {f : Nat → Bool} (h : 0 < count_upto n f) :
    ∃ i, i < n ∧ f i = true := by
  by_contra hc
  push_neg at hc
  have := count_upto_zero (f := f) (n := n) (fun x hx => by simpa using hc x hx)
  omega

theorem hdr_step_refl (Z : List Nat) (hd : root_ptr_header_block_base) : hdr_step Z hd hd :=
  ⟨rfl, rfl, rfl, id, fun _ h => h, fun _ h _ => h⟩

theorem hdr_step_trans {Z : List Nat} {a b c : root_ptr_header_block_base}
    (h1 : hdr_step Z a b) (h2 : hdr_step Z b c) : hdr_step Z a c :=
  ⟨h2.owner.trans h1.owner, h2.gib.trans h1.gib, h2.owned.trans h1.owned,
    fun h => h2.unr (h1.unr h), fun y hy => h1.bp_sub y (h2.bp_sub y hy),
    fun y hy hz => h2.bp_keep y (h1.bp_keep y hy hz) hz⟩

theorem heap_step_refl (Z : List Nat) (s : Heap) : heap_step Z s s :=
  ⟨rfl, rfl, rfl, rfl, rfl, fun _ h => h,
    fun _ hd h => ⟨hd, h, hdr_step_refl Z hd, fun _ => ⟨rfl, rfl⟩⟩⟩

theorem heap_step_trans {Z : List Nat} {a b c : Heap} (h1 : heap_step Z a b)
    (h2 : heap_step Z b c) : heap_step Z a c := by
  refine ⟨h2.roots.trans h1.roots, h2.next_header.trans h1.next_header,
    h2.next_base.trans h1.next_base, h2.next_iptr.trans h1.next_iptr,
    h2.next_root.trans h1.next_root, fun x h => h2.headers_none x (h1.headers_none x h), ?_⟩
  intro x hd h
  obtain ⟨hd1, e1, e2, e3⟩ := h1.headers_some x hd h
  obtain ⟨hd2, f1, f2, f3⟩ := h2.headers_some x hd1 e1
  refine ⟨hd2, f1, hdr_step_trans e2 f2, fun hz => ?_⟩
  obtain ⟨a1, a2⟩ := e3 hz
  obtain ⟨b1, b2⟩ := f3 hz
  exact ⟨b1.trans a1, b2.trans a2⟩

theorem dec_pos {c : Nat} (h : 1 ≤ c) : dec c = c - 1 := by
  unfold dec; rw [if_neg (by omega)]

theorem iptr_lt_of_targets {s : Heap} {exI exR : Option Nat} (hi : inv_core s exI exR)
    {t p : Nat} (h : iptr_targets s exI t p = true) : p < s.next_iptr := by
  unfold iptr_targets at h
  cases hq : s.iptrs p with
  | none => rw [hq] at h; simp at h
  | some ip => exact hi.iptr_lt p ip hq

theorem sever_ok {s : Heap} {exI exR : Option Nat} {Z : List Nat} {this p : Nat}
    {ip : internal_ptr} {base : internal_base}
    (hi : inv_core s exI exR) (hp : s.iptrs p = some ip) (hne : some p ≠ exI)
    (hb : s.bases ip.base = some base) (hsh : base.self_header = some this)
    (hzt : this ∈ Z) :
    ∃ s1, sever this p s = some s1 ∧ inv_core s1 exI exR ∧ heap_step Z s s1 ∧
      s1.bases = s.bases ∧ s1.trace = s.trace ∧
      (∀ q, q ≠ p → s1.iptrs q = s.iptrs q) ∧
      (∀ x hd hd1, s.headers x = some hd → s1.headers x = some hd1 →
        hd1.deleted = hd.deleted ∧ hd1.unreachable = hd.unreachable) ∧
      ∃ ip1, s1.iptrs p = some ip1 ∧ ip1.header = none ∧ ip1.base = ip.base := by
  unfold sever
  rw [hp]
  simp only
  cases hh : ip.header with
  | none =>
    refine ⟨s, rfl, hi, heap_step_refl Z s, rfl, rfl, fun _ _ => rfl, ?_, ip, hp, hh, rfl⟩
    intro x hd hd1 h1 h2; rw [h1] at h2; cases h2; exact ⟨rfl, rfl⟩
  | some c =>
    simp only
    obtain ⟨hd, hhd⟩ := hi.target_live p ip c hp hne hh
    rw [hhd]
    simp only
    have hplt := hi.iptr_lt p ip hp
    have hfp : iptr_targets s exI c p = true := by
      unfold iptr_targets; rw [hp]; simp [hne, hh]
    have hfp2 : iptr_targets_from s exI c this p = true := by
      unfold iptr_targets_from; rw [hfp, hp]; simp [hb, hsh]
    have hfp3 : iptr_targets_bound s exI c p = true := by
      unfold iptr_targets_bound; rw [hfp, hp]; simp [hb, hsh]
    have hcnt : 1 ≤ iptr_count s exI c := count_upto_pos hplt hfp
    have hcnt2 : 1 ≤ iptr_count_from s exI c this := count_upto_pos hplt hfp2
    have hic : 1 ≤ hd.internal_count := by
      rw [hi.internal_count_eq c hd hhd]; omega
    have hbpc : 1 ≤ hd.back_pointers.count this := by
      rw [hi.bp_count c hd hhd this]; exact hcnt2
    have hsort := hi.bp_sorted c hd hhd
    have hmem : this ∈ hd.back_pointers := List.count_pos_iff.1 (by omega)
    obtain ⟨hd', hhd'⟩ : ∃ hd' : root_ptr_header_block_base, hd' = { hd with
        internal_count := dec hd.internal_count,
        back_pointers := remove hd.back_pointers this } := ⟨_, rfl⟩
    obtain ⟨ip', hip'⟩ : ∃ ip' : internal_ptr, ip' = { ip with header := none } := ⟨_, rfl⟩
    rw [← hhd', ← hip']
    have e_oc : hd'.owner_count = hd.owner_count := by rw [hhd']
    have e_ic : hd'.internal_count = hd.internal_count - 1 := by rw [hhd']; exact dec_pos hic
    have e_bp : hd'.back_pointers = hd.back_pointers.erase this := by
      rw [hhd']; exact remove_eq_erase hsort this
    have e_un : hd'.unreachable = hd.unreachable := by rw [hhd']
    have e_de : hd'.deleted = hd.deleted := by rw [hhd']
    have e_gib : hd'.get_internal_base = hd.get_internal_base := by rw [hhd']
    have e_ib : ip'.base = ip.base := by rw [hip']
    have e_ih : ip'.header = none := by rw [hip']
    clear hhd' hip'
    obtain ⟨s1, hs1⟩ : ∃ s1, s1 = (s.set_header c (some hd')).set_iptr p (some ip') := ⟨_, rfl⟩
    rw [← hs1]
    have g_h : ∀ x, x ≠ c → s1.headers x = s.headers x := by
      intro x hx; rw [hs1]; simp [Function.update_noteq hx]
    have g_hc : s1.headers c = some hd' := by rw [hs1]; simp
    have g_b : s1.bases = s.bases := by rw [hs1]; rfl
    have g_r : s1.roots = s.roots := by rw [hs1]; rfl
    have g_p : ∀ q, q ≠ p → s1.iptrs q = s.iptrs q := by
      intro q hq; rw [hs1]; simp [Function.update_noteq hq]
    have g_pp : s1.iptrs p = some ip' := by rw [hs1]; simp
    have g_ni : s1.next_iptr = s.next_iptr := by rw [hs1]; rfl
    have g_nh : s1.next_header = s.next_header := by rw [hs1]; rfl
    have g_nb : s1.next_base = s.next_base := by rw [hs1]; rfl
    have g_nr : s1.next_root = s.next_root := by rw [hs1]; rfl
    have g_tr : s1.trace = s.trace := by rw [hs1]; rfl
    clear hs1
    have hlive : ∀ x hd1, s1.headers x = some hd1 → ∃ hd0, s.headers x = some hd0 := by
      intro x hd1 h1
      by_cases hx : x = c
      · subst hx; exact ⟨hd, hhd⟩
      · rw [g_h x hx] at h1; exact ⟨hd1, h1⟩
    have hlive2 : ∀ x hd0, s.headers x = some hd0 → ∃ hd1, s1.headers x = some hd1 := by
      intro x hd0 h1
      by_cases hx : x = c
      · subst hx; exact ⟨hd', g_hc⟩
      · rw [← g_h x hx] at h1; exact ⟨hd0, h1⟩
    have ht : ∀ t q, iptr_targets s1 exI t q =
        if q = p then false else iptr_targets s exI t q := by
      intro t q
      unfold iptr_targets
      by_cases hq : q = p
      · subst hq; rw [g_pp]; simp [e_ih]
      · rw [g_p q hq]; simp [hq]
    have htf : ∀ t P q, iptr_targets_from s1 exI t P q =
        if q = p then false else iptr_targets_from s exI t P q := by
      intro t P q
      unfold iptr_targets_from
      rw [ht]
      by_cases hq : q = p
      · subst hq; simp
      · rw [g_p q hq, g_b]; simp [hq]
    have htb : ∀ t q, iptr_targets_bound s1 exI t q =
        if q = p then false else iptr_targets_bound s exI t q := by
      intro t q
      unfold iptr_targets_bound
      rw [ht]
      by_cases hq : q = p
      · subst hq; simp
      · rw [g_p q hq, g_b]; simp [hq]
    have hcount : ∀ (f g : Nat → Bool), (∀ q, g q = if q = p then false else f q) →
        count_upto s.next_iptr g + (if f p then 1 else 0) = count_upto s.next_iptr f := by
      intro f g hfg
      have hu := count_upto_update (n := s.next_iptr) (f := f) (g := g) (i := p)
        (fun x hx => by rw [hfg x]; simp [hx]) hplt
      rw [hfg p] at hu
      simpa using hu
    have hoff : ∀ t, t ≠ c → iptr_targets s exI t p = false := by
      intro t htc
      unfold iptr_targets; rw [hp]; simp [hh]
      intro _ e; exact absurd e.symm htc
    refine ⟨s1, rfl, ?_, ?_, g_b, g_tr, g_p, ?_, ip', g_pp, e_ih, e_ib⟩
    rotate_left 2
    · intro x hd0 hd1 h1 h2
      by_cases hxc : x = c
      · subst hxc; rw [hhd] at h1; cases h1; rw [g_hc] at h2; cases h2; exact ⟨e_de, e_un⟩
      · rw [g_h x hxc, h1] at h2; cases h2; exact ⟨rfl, rfl⟩
    · constructor
      · intro h hd1 h1
        obtain ⟨hd0, h0⟩ := hlive h hd1 h1
        rw [g_nh]; exact hi.header_lt h hd0 h0
      · intro b base1 h1; rw [g_b] at h1; rw [g_nb]; exact hi.base_lt b base1 h1
      · intro q iq h1
        rw [g_ni]
        by_cases hq : q = p
        · subst hq; exact hplt
        · rw [g_p q hq] at h1; exact hi.iptr_lt q iq h1
      · intro r rp h1; rw [g_r] at h1; rw [g_nr]; exact hi.root_lt r rp h1
      · intro h hd1 h1
        by_cases hx : h = c
        · subst hx; rw [g_hc] at h1; cases h1; rw [e_bp]
          exact hsort.sublist (List.erase_sublist _ _)
        · rw [g_h h hx] at h1; exact hi.bp_sorted h hd1 h1
      · intro b base1 h h1 h2
        rw [g_b] at h1
        obtain ⟨hd1, e1, e2⟩ := hi.header_of_base b base1 h h1 h2
        by_cases hx : h = c
        · subst hx; rw [hhd] at e1; cases e1; exact ⟨hd', g_hc, e_gib.trans e2⟩
        · exact ⟨hd1, by rw [g_h h hx]; exact e1, e2⟩
      · intro b base1 h1 q hq
        rw [g_b] at h1
        obtain ⟨iq, e1, e2⟩ := hi.ptr_of_base b base1 h1 q hq
        by_cases hqp : q = p
        · subst hqp; rw [hp] at e1; cases e1; exact ⟨ip', g_pp, e_ib.trans e2⟩
        · exact ⟨iq, by rw [g_p q hqp]; exact e1, e2⟩
      · intro b base1 h1; rw [g_b] at h1; exact hi.pointers_nodup b base1 h1
      · intro q iq h1 h2
        rw [g_b]
        by_cases hqp : q = p
        · subst hqp; rw [g_pp] at h1; cases h1; rw [e_ib]; exact hi.base_of_ptr q ip hp h2
        · rw [g_p q hqp] at h1; exact hi.base_of_ptr q iq h1 h2
      · intro q iq t h1 h2 h3
        by_cases hqp : q = p
        · subst hqp; rw [g_pp] at h1; cases h1; rw [e_ih] at h3; cases h3
        · rw [g_p q hqp] at h1
          obtain ⟨hd0, h0⟩ := hi.target_live q iq t h1 h2 h3
          exact hlive2 t hd0 h0
      · intro r rp t h1 h2 h3
        rw [g_r] at h1
        obtain ⟨hd0, h0⟩ := hi.root_target_live r rp t h1 h2 h3
        exact hlive2 t hd0 h0
      · intro t hd1 h1 P
        unfold iptr_count_from
        rw [g_ni]
        have hu := hcount _ _ (htf t P)
        by_cases hx : t = c
        · subst hx; rw [g_hc] at h1; cases h1
          rw [e_bp]
          have hc := hi.bp_count t hd hhd P
          unfold iptr_count_from at hc
          by_cases hP : P = this
          · subst hP
            rw [hfp2] at hu; simp only [if_true] at hu
            rw [List.count_erase_self]; omega
          · have : iptr_targets_from s exI t P p = false := by
              unfold iptr_targets_from; rw [hp]; simp [hb, hsh]
              intro _ e; exact hP e.symm
            rw [this] at hu; simp only [Bool.false_eq_true, if_false, add_zero] at hu
            rw [List.count_erase_of_ne hP]; omega
        · rw [g_h t hx] at h1
          have hc := hi.bp_count t hd1 h1 P
          unfold iptr_count_from at hc
          have : iptr_targets_from s exI t P p = false := by
            unfold iptr_targets_from; rw [hoff t hx]; rfl
          rw [this] at hu; simp only [Bool.false_eq_true, if_false, add_zero] at hu
          omega
      · intro t hd1 h1
        unfold iptr_count_bound
        rw [g_ni]
        have hu := hcount _ _ (htb t)
        by_cases hx : t = c
        · subst hx; rw [g_hc] at h1; cases h1
          rw [e_bp, List.length_erase_of_mem hmem]
          have hc := hi.bp_length t hd hhd
          unfold iptr_count_bound at hc
          rw [hfp3] at hu; simp only [if_true] at hu
          omega
        · rw [g_h t hx] at h1
          have hc := hi.bp_length t hd1 h1
          unfold iptr_count_bound at hc
          have : iptr_targets_bound s exI t p = false := by
            unfold iptr_targets_bound; rw [hoff t hx]; rfl
          rw [this] at hu; simp only [Bool.false_eq_true, if_false, add_zero] at hu
          omega
      · intro t hd1 h1
        have hr : root_count s1 exR t = root_count s exR t := by
          unfold root_count root_targets; rw [g_nr, g_r]
        rw [hr]
        by_cases hx : t = c
        · subst hx; rw [g_hc] at h1; cases h1; rw [e_oc]; exact hi.owner_count_eq t hd hhd
        · rw [g_h t hx] at h1; exact hi.owner_count_eq t hd1 h1
      · intro t hd1 h1
        unfold iptr_count
        rw [g_ni]
        have hu := hcount _ _ (ht t)
        by_cases hx : t = c
        · subst hx; rw [g_hc] at h1; cases h1
          have hc := hi.internal_count_eq t hd hhd
          unfold iptr_count at hc hcnt
          rw [hfp] at hu; simp only [if_true] at hu
          rw [e_ic, e_oc]; omega
        · rw [g_h t hx] at h1
          have hc := hi.internal_count_eq t hd1 h1
          unfold iptr_count at hc
          rw [hoff t hx] at hu; simp only [Bool.false_eq_true, if_false, add_zero] at hu
          omega
    · refine ⟨g_r, g_nh, g_nb, g_ni, g_nr, ?_, ?_⟩
      · intro x hx
        by_cases hxc : x = c
        · subst hxc; rw [hhd] at hx; cases hx
        · rw [g_h x hxc]; exact hx
      · intro x hd1 hx
        by_cases hxc : x = c
        · subst hxc; rw [hhd] at hx; cases hx
          refine ⟨hd', g_hc, ⟨e_oc, e_gib, ?_, fun h => by rw [e_un]; exact h, ?_, ?_⟩,
            fun _ => ⟨e_un, e_de⟩⟩
          · unfold is_owned
            rw [e_oc, e_ic, e_bp, List.length_erase_of_mem hmem]
            have : 1 ≤ hd.back_pointers.length := List.length_pos_of_mem hmem
            by_cases ho : hd.owner_count = 0
            · simp only [ho, ne_eq, not_true_eq_false, if_false, gt_iff_lt]
              by_cases hlt : hd.back_pointers.length < hd.internal_count
              · rw [if_pos hlt, if_pos (by omega)]
              · rw [if_neg hlt, if_neg (by omega)]
            · simp [ho]
          · intro y hy
            rw [e_bp] at hy
            exact List.mem_of_mem_erase hy
          · intro y hy hz
            rw [e_bp]
            have hne2 : y ≠ this := fun e => hz (by rw [e]; exact hzt)
            exact (List.mem_erase_of_ne hne2).2 hy
        · rw [g_h x hxc]
          exact ⟨hd1, hx, hdr_step_refl Z hd1, fun _ => ⟨rfl, rfl⟩⟩

theorem inv_core_headers_congr {s s1 : Heap} {exI exR : Option Nat} (hi : inv_core s exI exR)
    (hb : s1.bases = s.bases) (hp : s1.iptrs = s.iptrs) (hr : s1.roots = s.roots)
    (hnh : s1.next_header = s.next_header) (hnb : s1.next_base = s.next_base)
    (hni : s1.next_iptr = s.next_iptr) (hnr : s1.next_root = s.next_root)
    (h1 : ∀ x hd, s.headers x = some hd → ∃ hd1, s1.headers x = some hd1 ∧ same_counts hd hd1)
    (h2 : ∀ x, s.headers x = none → s1.headers x = none) : inv_core s1 exI exR := by
  have back : ∀ x hd1, s1.headers x = some hd1 →
      ∃ hd, s.headers x = some hd ∧ same_counts hd hd1 := by
    intro x hd1 hx
    cases h : s.headers x with
    | none => rw [h2 x h] at hx; cases hx
    | some hd =>
      obtain ⟨hd2, e1, e2⟩ := h1 x hd h
      rw [hx] at e1; cases e1
      exact ⟨hd, rfl, e2⟩
  have c1 : ∀ t, iptr_count s1 exI t = iptr_count s exI t := by
    intro t; unfold iptr_count iptr_targets; rw [hni, hp]
  have c2 : ∀ t P, iptr_count_from s1 exI t P = iptr_count_from s exI t P := by
    intro t P; unfold iptr_count_from iptr_targets_from iptr_targets; rw [hni, hp, hb]
  have c3 : ∀ t, iptr_count_bound s1 exI t = iptr_count_bound s exI t := by
    intro t; unfold iptr_count_bound iptr_targets_bound iptr_targets; rw [hni, hp, hb]
  have c4 : ∀ t, root_count s1 exR t = root_count s exR t := by
    intro t; unfold root_count root_targets; rw [hnr, hr]
  constructor
  · intro h hd1 hx
    obtain ⟨hd, e1, _⟩ := back h hd1 hx
    rw [hnh]; exact hi.header_lt h hd e1
  · intro b base hx; rw [hb] at hx; rw [hnb]; exact hi.base_lt b base hx
  · intro p ip hx; rw [hp] at hx; rw [hni]; exact hi.iptr_lt p ip hx
  · intro r rp hx; rw [hr] at hx; rw [hnr]; exact hi.root_lt r rp hx
  · intro h hd1 hx
    obtain ⟨hd, e1, e2⟩ := back h hd1 hx
    rw [e2.2.2.1]; exact hi.bp_sorted h hd e1
  · intro b base h hx hs
    rw [hb] at hx
    obtain ⟨hd, e1, e2⟩ := hi.header_of_base b base h hx hs
    obtain ⟨hd1, f1, f2⟩ := h1 h hd e1
    exact ⟨hd1, f1, f2.2.2.2.trans e2⟩
  · intro b base hx p hpm; rw [hb] at hx; rw [hp]; exact hi.ptr_of_base b base hx p hpm
  · intro b base hx; rw [hb] at hx; exact hi.pointers_nodup b base hx
  · intro p ip hx hne; rw [hp] at hx; rw [hb]; exact hi.base_of_ptr p ip hx hne
  · intro p ip t hx hne ht
    rw [hp] at hx
    obtain ⟨hd, e1⟩ := hi.target_live p ip t hx hne ht
    obtain ⟨hd1, f1, _⟩ := h1 t hd e1
    exact ⟨hd1, f1⟩
  · intro r rp t hx hne ht
    rw [hr] at hx
    obtain ⟨hd, e1⟩ := hi.root_target_live r rp t hx hne ht
    obtain ⟨hd1, f1, _⟩ := h1 t hd e1
    exact ⟨hd1, f1⟩
  · intro t hd1 hx P
    obtain ⟨hd, e1, e2⟩ := back t hd1 hx
    rw [e2.2.2.1, c2]; exact hi.bp_count t hd e1 P
  · intro t hd1 hx
    obtain ⟨hd, e1, e2⟩ := back t hd1 hx
    rw [e2.2.2.1, c3]; exact hi.bp_length t hd e1
  · intro t hd1 hx
    obtain ⟨hd, e1, e2⟩ := back t hd1 hx
    rw [e2.1, c4]; exact hi.owner_count_eq t hd e1
  · intro t hd1 hx
    obtain ⟨hd, e1, e2⟩ := back t hd1 hx
    rw [e2.1, e2.2.1, c1]; exact hi.internal_count_eq t hd e1

theorem sever_all_ok {exI exR : Option Nat} {Z : List Nat} {this b : Nat}
    (hzt : this ∈ Z) (ps : List Nat) :
    ∀ {s : Heap} {base : internal_base}, inv_core s exI exR → s.bases b = some base →
    base.self_header = some this → (∀ p ∈ ps, p ∈ base.pointers) →
    (∀ p ∈ ps, some p ≠ exI) →
    ∃ s1, sever_all this ps s = some s1 ∧ inv_core s1 exI exR ∧ heap_step Z s s1 ∧
      s1.bases = s.bases ∧ s1.trace = s.trace ∧
      (∀ q, q ∉ ps → s1.iptrs q = s.iptrs q) ∧
      (∀ q ip, s.iptrs q = some ip → ip.header = none →
        ∃ ip1, s1.iptrs q = some ip1 ∧ ip1.header = none) ∧
      (∀ q ∈ ps, ∃ ip1, s1.iptrs q = some ip1 ∧ ip1.header = none) ∧
      (∀ x hd hd1, s.headers x = some hd → s1.headers x = some hd1 →
        hd1.deleted = hd.deleted ∧ hd1.unreachable = hd.unreachable) := by
  induction ps with
  | nil =>
    intro s base hi _ _ _ _
    refine ⟨s, rfl, hi, heap_step_refl Z s, rfl, rfl, fun _ _ => rfl,
      fun q ip h1 h2 => ⟨ip, h1, h2⟩, by simp, ?_⟩
    intro x hd hd1 h1 h2; rw [h1] at h2; cases h2; exact ⟨rfl, rfl⟩
  | cons p ps ih =>
    intro s base hi hb hsh hps hex
    obtain ⟨ip, hip, hipb⟩ := hi.ptr_of_base b base hb p (hps p (List.mem_cons_self _ _))
    obtain ⟨s1, a1, a2, a3, a4, a5, a6, a10, ip1, a7, a8, a9⟩ :=
      sever_ok (Z := Z) hi hip (hex p (List.mem_cons_self _ _)) (by rw [hipb]; exact hb) hsh hzt
    simp only [sever_all, a1]
    obtain ⟨s2, b1, b2, b3, b4, b5, b6, b7, b8, b9⟩ := ih a2 (by rw [a4]; exact hb) hsh
      (fun q hq => hps q (List.mem_cons_of_mem _ hq))
      (fun q hq => hex q (List.mem_cons_of_mem _ hq))
    have hnil1 : ∀ q ip, s.iptrs q = some ip → ip.header = none →
        ∃ ip1, s1.iptrs q = some ip1 ∧ ip1.header = none := by
      intro q iq h1 h2
      by_cases hq : q = p
      · subst hq; exact ⟨ip1, a7, a8⟩
      · rw [a6 q hq]; exact ⟨iq, h1, h2⟩
    refine ⟨s2, b1, b2, heap_step_trans a3 b3, b4.trans a4, b5.trans a5, ?_, ?_, ?_, ?_⟩
    · intro q hq
      rw [b6 q (fun h => hq (List.mem_cons_of_mem _ h)), a6 q (fun h => hq (h ▸ List.mem_cons_self _ _))]
    · intro q iq h1 h2
      obtain ⟨iq1, c1, c2⟩ := hnil1 q iq h1 h2
      exact b7 q iq1 c1 c2
    · intro q hq
      rcases List.mem_cons.1 hq with rfl | hq
      · exact b7 q ip1 a7 a8
      · exact b8 q hq
    · intro x hd hd2 h1 h2
      obtain ⟨hd1, c1, c2, c3⟩ := a3.headers_some x hd h1
      obtain ⟨d1, d2⟩ := a10 x hd hd1 h1 c1
      obtain ⟨d3, d4⟩ := b9 x hd1 hd2 c1 h2
      exact ⟨d3.trans d1, d4.trans d2⟩

theorem is_owned_congr {hd hd1 : root_ptr_header_block_base} (h : same_counts hd hd1) :
    is_owned hd1 = is_owned hd := by
  unfold is_owned; rw [h.1, h.2.1, h.2.2.1]

theorem mark_unreachable_ok {s : Heap} {exI exR : Option Nat} {Z : List Nat} {u : Nat}
    {hd : root_ptr_header_block_base}
    (hi : inv_core s exI exR) (hz : u ∈ Z) (hu : s.headers u = some hd)
    (hhb : ∀ b, hd.get_internal_base = some b →
      ∃ base, s.bases b = some base ∧ base.self_header = some u)
    (hex : ∀ p, exI = some p → ∀ b base, hd.get_internal_base = some b →
      s.bases b = some base → p ∉ base.pointers) :
    ∃ s1, mark_unreachable u s = some s1 ∧ inv_core s1 exI exR ∧ heap_step Z s s1 ∧
      s1.bases = s.bases ∧ s1.trace = s.trace ++ [Event.marked u] ∧
      (∃ hd1, s1.headers u = some hd1 ∧ hd1.unreachable = true) ∧
      (∀ q, (∀ b base, hd.get_internal_base = some b → s.bases b = some base →
        q ∉ base.pointers) → s1.iptrs q = s.iptrs q) ∧
      (∀ q ip, s.iptrs q = some ip → ip.header = none →
        ∃ ip1, s1.iptrs q = some ip1 ∧ ip1.header = none) ∧
      (∀ b base, hd.get_internal_base = some b → s.bases b = some base →
        ∀ q ∈ base.pointers, ∃ ip1, s1.iptrs q = some ip1 ∧ ip1.header = none) ∧
      (∀ x hd0 hd1, s.headers x = some hd0 → s1.headers x = some hd1 →
        hd1.deleted = hd0.deleted) := by
  unfold mark_unreachable
  rw [hu]
  simp only
  obtain ⟨hd', hhd'⟩ : ∃ hd' : root_ptr_header_block_base,
      hd' = { hd with unreachable := true } := ⟨_, rfl⟩
  rw [← hhd']
  have e_sc : same_counts hd hd' := by rw [hhd']; exact ⟨rfl, rfl, rfl, rfl⟩
  have e_un : hd'.unreachable = true := by rw [hhd']
  have e_de : hd'.deleted = hd.deleted := by rw [hhd']
  clear hhd'
  obtain ⟨s0, hs0⟩ : ∃ s0, s0 = (s.set_header u (some hd')).log (Event.marked u) := ⟨_, rfl⟩
  rw [← hs0]
  have g_h : ∀ x, x ≠ u → s0.headers x = s.headers x := by
    intro x hx; rw [hs0]; simp [Function.update_noteq hx]
  have g_hu : s0.headers u = some hd' := by rw [hs0]; simp
  have g_b : s0.bases = s.bases := by rw [hs0]; rfl
  have g_p : s0.iptrs = s.iptrs := by rw [hs0]; rfl
  have g_tr : s0.trace = s.trace ++ [Event.marked u] := by rw [hs0]; rfl
  have hi0 : inv_core s0 exI exR := by
    refine inv_core_headers_congr hi g_b g_p (by rw [hs0]; rfl) (by rw [hs0]; rfl)
      (by rw [hs0]; rfl) (by rw [hs0]; rfl) (by rw [hs0]; rfl) ?_ ?_
    · intro x hd0 hx
      by_cases hxu : x = u
      · subst hxu; rw [hu] at hx; cases hx; exact ⟨hd', g_hu, e_sc⟩
      · rw [g_h x hxu]; exact ⟨hd0, hx, rfl, rfl, rfl, rfl⟩
    · intro x hx
      by_cases hxu : x = u
      · subst hxu; rw [hu] at hx; cases hx
      · rw [g_h x hxu]; exact hx
  have hst0 : heap_step Z s s0 := by
    refine ⟨by rw [hs0]; rfl, by rw [hs0]; rfl, by rw [hs0]; rfl, by rw [hs0]; rfl,
      by rw [hs0]; rfl, ?_, ?_⟩
    · intro x hx
      by_cases hxu : x = u
      · subst hxu; rw [hu] at hx; cases hx
      · rw [g_h x hxu]; exact hx
    · intro x hd0 hx
      by_cases hxu : x = u
      · subst hxu; rw [hu] at hx; cases hx
        refine ⟨hd', g_hu, ⟨e_sc.1, e_sc.2.2.2, is_owned_congr e_sc, fun _ => e_un, ?_, ?_⟩,
          fun h => absurd hz h⟩
        · intro y hy; rw [e_sc.2.2.1] at hy; exact hy
        · intro y hy _; rw [e_sc.2.2.1]; exact hy
      · rw [g_h x hxu]; exact ⟨hd0, hx, hdr_step_refl Z hd0, fun _ => ⟨rfl, rfl⟩⟩
  clear hs0
  cases hg : hd.get_internal_base with
  | none =>
    simp only
    refine ⟨s0, rfl, hi0, hst0, g_b, g_tr, ⟨hd', g_hu, e_un⟩, fun q _ => by rw [g_p], ?_, ?_, ?_⟩
    · intro q ip h1 h2; rw [g_p]; exact ⟨ip, h1, h2⟩
    · intro b base h; cases h
    · intro x hd0 hd1 h1 h2
      by_cases hxu : x = u
      · subst hxu; rw [hu] at h1; cases h1; rw [g_hu] at h2; cases h2; exact e_de
      · rw [g_h x hxu, h1] at h2; cases h2; rfl
  | some b =>
    simp only
    obtain ⟨base, hb, hsh⟩ := hhb b hg
    rw [g_b, hb]
    simp only
    obtain ⟨s1, a1, a2, a3, a4, a5, a6, a7, a8, a9⟩ :=
      sever_all_ok (Z := Z) (b := b) hz base.pointers
        hi0 (by rw [g_b]; exact hb) hsh (fun p hp => hp)
        (fun p hp e => hex p e.symm b base hg hb hp)
    refine ⟨s1, a1, a2, heap_step_trans hst0 a3, a4.trans g_b, a5.trans g_tr, ?_, ?_, ?_, ?_, ?_⟩
    · obtain ⟨hd1, c1, c2, _⟩ := a3.headers_some u hd' g_hu
      exact ⟨hd1, c1, c2.unr e_un⟩
    · intro q hq
      rw [a6 q (hq b base rfl hb), g_p]
    · intro q ip h1 h2
      exact a7 q ip (by rw [g_p]; exact h1) h2
    · intro b0 base0 h1 h2 q hq
      cases h1; rw [hb] at h2; cases h2
      exact a8 q hq
    · intro x hd0 hd1 h1 h2
      have h0 : ∃ hd2, s0.headers x = some hd2 ∧ hd2.deleted = hd0.deleted := by
        by_cases hxu : x = u
        · subst hxu; rw [hu] at h1; cases h1; exact ⟨hd', g_hu, e_de⟩
        · exact ⟨hd0, by rw [g_h x hxu]; exact h1, rfl⟩
      obtain ⟨hd2, c1, c2⟩ := h0
      exact ((a9 x hd2 hd1 c1 h2).1).trans c2

theorem mark_all_ok {exI exR : Option Nat} {Z : List Nat} (L : List Nat) :
    ∀ {s : Heap}, inv_core s exI exR → (∀ u ∈ L, u ∈ Z) →
    (∀ u ∈ L, ∃ hd, s.headers u = some hd) →
    (∀ u ∈ L, ∀ hd b, s.headers u = some hd → hd.get_internal_base = some b →
      ∃ base, s.bases b = some base ∧ base.self_header = some u) →
    excluded s exI L →
    ∃ s1, mark_all L s = some s1 ∧ inv_core s1 exI exR ∧ heap_step Z s s1 ∧
      s1.bases = s.bases ∧ s1.trace = s.trace ++ L.map Event.marked ∧
      (∀ u ∈ L, ∃ hd1, s1.headers u = some hd1 ∧ hd1.unreachable = true) ∧
      (∀ q, (∀ u ∈ L, ∀ hd b base, s.headers u = some hd → hd.get_internal_base = some b →
        s.bases b = some base → q ∉ base.pointers) → s1.iptrs q = s.iptrs q) ∧
      (∀ q ip, s.iptrs q = some ip → ip.header = none →
        ∃ ip1, s1.iptrs q = some ip1 ∧ ip1.header = none) ∧
      (∀ u ∈ L, ∀ hd b base, s.headers u = some hd → hd.get_internal_base = some b →
        s.bases b = some base → ∀ q ∈ base.pointers,
          ∃ ip1, s1.iptrs q = some ip1 ∧ ip1.header = none) ∧
      (∀ x hd0 hd1, s.headers x = some hd0 → s1.headers x = some hd1 →
        hd1.deleted = hd0.deleted) := by
  induction L with
  | nil =>
    intro s hi _ _ _ _
    refine ⟨s, rfl, hi, heap_step_refl Z s, rfl, by simp, by simp, fun _ _ => rfl,
      fun q ip h1 h2 => ⟨ip, h1, h2⟩, by simp, ?_⟩
    intro x hd0 hd1 h1 h2; rw [h1] at h2; cases h2; rfl
  | cons u L ih =>
    intro s hi hz hl hhb hex
    obtain ⟨hd, hu⟩ := hl u (List.mem_cons_self _ _)
    obtain ⟨s1, a1, a2, a3, a4, a5, a6, a7, a8, a9, a10⟩ :=
      mark_unreachable_ok (Z := Z) hi (hz u (List.mem_cons_self _ _)) hu
        (fun b hb => hhb u (List.mem_cons_self _ _) hd b hu hb)
        (fun p hp b base hb1 hb2 => hex p hp u (List.mem_cons_self _ _) hd b base hu hb1 hb2)
    simp only [mark_all, a1]
    have tr : ∀ x hd1, s1.headers x = some hd1 →
        ∃ hd0, s.headers x = some hd0 ∧ hd1.get_internal_base = hd0.get_internal_base := by
      intro x hd1 hx
      cases h : s.headers x with
      | none => rw [a3.headers_none x h] at hx; cases hx
      | some hd0 =>
        obtain ⟨hd2, c1, c2, _⟩ := a3.headers_some x hd0 h
        rw [hx] at c1; cases c1
        exact ⟨hd0, rfl, c2.gib⟩
    obtain ⟨s2, b1, b2, b3, b4, b5, b6, b7, b8, b9, b10⟩ := ih (s := s1) a2
      (fun v hv => hz v (List.mem_cons_of_mem _ hv))
      (fun v hv => by
        obtain ⟨hd0, h0⟩ := hl v (List.mem_cons_of_mem _ hv)
        obtain ⟨hd1, c1, _⟩ := a3.headers_some v hd0 h0
        exact ⟨hd1, c1⟩)
      (fun v hv hd1 b h1 h2 => by
        obtain ⟨hd0, c1, c2⟩ := tr v hd1 h1
        rw [a4]; exact hhb v (List.mem_cons_of_mem _ hv) hd0 b c1 (c2 ▸ h2))
      (fun p hp v hv hd1 b base h1 h2 h3 => by
        obtain ⟨hd0, c1, c2⟩ := tr v hd1 h1
        rw [a4] at h3
        exact hex p hp v (List.mem_cons_of_mem _ hv) hd0 b base c1 (c2 ▸ h2) h3)
    refine ⟨s2, b1, b2, heap_step_trans a3 b3, b4.trans a4, ?_, ?_, ?_, ?_, ?_, ?_⟩
    · rw [b5, a5]; simp
    · intro v hv
      rcases List.mem_cons.1 hv with rfl | hv
      · obtain ⟨hd1, c1, c2⟩ := a6
        obtain ⟨hd2, d1, d2, _⟩ := b3.headers_some v hd1 c1
        exact ⟨hd2, d1, d2.unr c2⟩
      · exact b6 v hv
    · intro q hq
      rw [b7 q, a7 q]
      · intro b base h1 h2; exact hq u (List.mem_cons_self _ _) hd b base hu h1 h2
      · intro v hv hd1 b base h1 h2 h3
        obtain ⟨hd0, c1, c2⟩ := tr v hd1 h1
        rw [a4] at h3
        exact hq v (List.mem_cons_of_mem _ hv) hd0 b base c1 (c2 ▸ h2) h3
    · intro q ip h1 h2
      obtain ⟨ip1, c1, c2⟩ := a8 q ip h1 h2
      exact b8 q ip1 c1 c2
    · intro v hv hd0 b base h1 h2 h3 q hq
      rcases List.mem_cons.1 hv with rfl | hv
      · rw [hu] at h1; cases h1
        obtain ⟨ip1, c1, c2⟩ := a9 b base h2 h3 q hq
        exact b8 q ip1 c1 c2
      · obtain ⟨hd1, c1, c2, _⟩ := a3.headers_some v hd0 h1
        exact b9 v hv hd1 b base c1 (c2.gib.trans h2) (by rw [a4]; exact h3) q hq
    · intro x hd0 hd2 h1 h2
      obtain ⟨hd1, c1, _, _⟩ := a3.headers_some x hd0 h1
      exact (b10 x hd1 hd2 c1 h2).trans (a10 x hd0 hd1 h1 c1)

theorem mem_payload_handles {s : Heap} {h q : Nat} :
    q ∈ payload_handles s h ↔ ∃ hd b base, s.headers h = some hd ∧
      hd.get_internal_base = some b ∧ s.bases b = some base ∧ q ∈ base.pointers := by
  unfold payload_handles
  constructor
  · intro hq
    cases h1 : s.headers h with
    | none => rw [h1] at hq; simp at hq
    | some hd =>
      rw [h1] at hq; simp only at hq
      cases h2 : hd.get_internal_base with
      | none => rw [h2] at hq; simp at hq
      | some b =>
        rw [h2] at hq; simp only at hq
        cases h3 : s.bases b with
        | none => rw [h3] at hq; simp at hq
        | some base => rw [h3] at hq; exact ⟨hd, b, base, rfl, h2, h3, hq⟩
  · rintro ⟨hd, b, base, h1, h2, h3, h4⟩
    rw [h1]; simp only; rw [h2]; simp only; rw [h3]; exact h4

theorem iptr_targets_edge (s : Heap) (ex : Option Nat) (t p : Nat) :
    iptr_targets s ex t p = true ↔ (iptr_edge s ex p).map Prod.fst = some t := by
  unfold iptr_targets iptr_edge
  by_cases h : some p = ex
  · simp [h]
  · simp only [h, if_false, ne_eq, not_false_eq_true, decide_True, Bool.true_and]
    cases s.iptrs p with
    | none => simp
    | some ip =>
      obtain ⟨ib, ih, ipt⟩ := ip
      cases ih <;> simp

theorem iptr_targets_from_edge (s : Heap) (ex : Option Nat) (t P p : Nat) :
    iptr_targets_from s ex t P p = true ↔ iptr_edge s ex p = some (t, some P) := by
  unfold iptr_targets_from iptr_targets iptr_edge
  by_cases h : some p = ex
  · simp [h]
  · simp only [h, if_false, ne_eq, not_false_eq_true, decide_True, Bool.true_and]
    cases s.iptrs p with
    | none => simp
    | some ip =>
      obtain ⟨ib, ih, ipt⟩ := ip
      cases ih with
      | none => simp
      | some c =>
        simp only
        cases hb : s.bases ib with
        | none => simp
        | some base => simp

theorem iptr_targets_bound_edge (s : Heap) (ex : Option Nat) (t p : Nat) :
    iptr_targets_bound s ex t p = true ↔ ∃ P, iptr_edge s ex p = some (t, some P) := by
  unfold iptr_targets_bound iptr_targets iptr_edge
  by_cases h : some p = ex
  · simp [h]
  · simp only [h, if_false, ne_eq, not_false_eq_true, decide_True, Bool.true_and]
    cases s.iptrs p with
    | none => simp
    | some ip =>
      obtain ⟨ib, ih, ipt⟩ := ip
      cases ih with
      | none => simp
      | some c =>
        simp only
        cases hb : s.bases ib with
        | none => simp
        | some base =>
          cases hs : base.self_header with
          | none => simp [hs]
          | some P => simp [hs]

/-- The counts of two heaps agree when every handle contributes the same edge. -/
theorem counts_congr {s s1 : Heap} {ex ex1 : Option Nat}
    (hn : s1.next_iptr = s.next_iptr)
    (he : ∀ q, iptr_edge s1 ex1 q = iptr_edge s ex q) :
    (∀ t, iptr_count s1 ex1 t = iptr_count s ex t) ∧
    (∀ t P, iptr_count_from s1 ex1 t P = iptr_count_from s ex t P) ∧
    (∀ t, iptr_count_bound s1 ex1 t = iptr_count_bound s ex t) := by
  refine ⟨?_, ?_, ?_⟩
  · intro t; unfold iptr_count; rw [hn]
    exact count_upto_congr (fun q _ => by
      rw [Bool.eq_iff_iff, iptr_targets_edge, iptr_targets_edge, he])
  · intro t P; unfold iptr_count_from; rw [hn]
    exact count_upto_congr (fun q _ => by
      rw [Bool.eq_iff_iff, iptr_targets_from_edge, iptr_targets_from_edge, he])
  · intro t; unfold iptr_count_bound; rw [hn]
    exact count_upto_congr (fun q _ => by
      rw [Bool.eq_iff_iff, iptr_targets_bound_edge, iptr_targets_bound_edge, he])

/-- Transfer of the invariant to a heap with the same roots, the same edges and header blocks
that agree on the counted fields, once the structural facts about the new handle and
`internal_base` tables are known. -/
theorem inv_core_transfer {s s1 : Heap} {exI exI1 exR : Option Nat}
    (hi : inv_core s exI exR)
    (hr : s1.roots = s.roots)
    (hnh : s1.next_header = s.next_header) (hnr : s1.next_root = s.next_root)
    (hni : s1.next_iptr = s.next_iptr)
    (h1 : ∀ x hd, s.headers x = some hd → ∃ hd1, s1.headers x = some hd1 ∧ same_counts hd hd1)
    (h2 : ∀ x, s.headers x = none → s1.headers x = none)
    (he : ∀ q, iptr_edge s1 exI1 q = iptr_edge s exI q)
    (hbl : ∀ b base, s1.bases b = some base → b < s1.next_base)
    (hil : ∀ p ip, s1.iptrs p = some ip → p < s1.next_iptr)
    (hhob : ∀ b base h, s1.bases b = some base → base.self_header = some h →
      ∃ base0, s.bases b = some base0 ∧ base0.self_header = some h)
    (hpob : ∀ b base, s1.bases b = some base → ∀ p ∈ base.pointers,
      ∃ ip, s1.iptrs p = some ip ∧ ip.base = b)
    (hnd : ∀ b base, s1.bases b = some base → base.pointers.Nodup)
    (hbop : ∀ p ip, s1.iptrs p = some ip → some p ≠ exI1 →
      ∃ base, s1.bases ip.base = some base ∧ p ∈ base.pointers) :
    inv_core s1 exI1 exR := by
  have back : ∀ x hd1, s1.headers x = some hd1 →
      ∃ hd, s.headers x = some hd ∧ same_counts hd hd1 := by
    intro x hd1 hx
    cases h : s.headers x with
    | none => rw [h2 x h] at hx; cases hx
    | some hd =>
      obtain ⟨hd2, e1, e2⟩ := h1 x hd h
      rw [hx] at e1; cases e1
      exact ⟨hd, rfl, e2⟩
  obtain ⟨c1, c2, c3⟩ := counts_congr hni he
  have c4 : ∀ t, root_count s1 exR t = root_count s exR t := by
    intro t; unfold root_count root_targets; rw [hnr, hr]
  constructor
  · intro h hd1 hx
    obtain ⟨hd, e1, _⟩ := back h hd1 hx
    rw [hnh]; exact hi.header_lt h hd e1
  · exact hbl
  · exact hil
  · intro r rp hx; rw [hr] at hx; rw [hnr]; exact hi.root_lt r rp hx
  · intro h hd1 hx
    obtain ⟨hd, e1, e2⟩ := back h hd1 hx
    rw [e2.2.2.1]; exact hi.bp_sorted h hd e1
  · intro b base h hx hs
    obtain ⟨base0, f0, f1⟩ := hhob b base h hx hs
    obtain ⟨hd, e1, e2⟩ := hi.header_of_base b base0 h f0 f1
    obtain ⟨hd1, f1, f2⟩ := h1 h hd e1
    exact ⟨hd1, f1, f2.2.2.2.trans e2⟩
  · exact hpob
  · exact hnd
  · exact hbop
  · intro p ip t hx hne ht
    obtain ⟨o, hedge⟩ : ∃ o, iptr_edge s1 exI1 p = some (t, o) := by
      unfold iptr_edge; rw [if_neg hne, hx]; simp only; rw [ht]; exact ⟨_, rfl⟩
    rw [he] at hedge
    unfold iptr_edge at hedge
    by_cases hex : some p = exI
    · rw [if_pos hex] at hedge; cases hedge
    · rw [if_neg hex] at hedge
      cases hq : s.iptrs p with
      | none => rw [hq] at hedge; cases hedge
      | some iq =>
        rw [hq] at hedge; simp only at hedge
        cases hqh : iq.header with
        | none => rw [hqh] at hedge; cases hedge
        | some t0 =>
          rw [hqh] at hedge; simp only [Option.some.injEq, Prod.mk.injEq] at hedge
          obtain ⟨hd, e1⟩ := hi.target_live p iq t0 hq hex hqh
          obtain ⟨hd1, f1, _⟩ := h1 t0 hd e1
          rw [← hedge.1]; exact ⟨hd1, f1⟩
  · intro r rp t hx hne ht
    rw [hr] at hx
    obtain ⟨hd, e1⟩ := hi.root_target_live r rp t hx hne ht
    obtain ⟨hd1, f1, _⟩ := h1 t hd e1
    exact ⟨hd1, f1⟩
  · intro t hd1 hx P
    obtain ⟨hd, e1, e2⟩ := back t hd1 hx
    rw [e2.2.2.1, c2]; exact hi.bp_count t hd e1 P
  · intro t hd1 hx
    obtain ⟨hd, e1, e2⟩ := back t hd1 hx
    rw [e2.2.2.1, c3]; exact hi.bp_length t hd e1
  · intro t hd1 hx
    obtain ⟨hd, e1, e2⟩ := back t hd1 hx
    rw [e2.1, c4]; exact hi.owner_count_eq t hd e1
  · intro t hd1 hx
    obtain ⟨hd, e1, e2⟩ := back t hd1 hx
    rw [e2.1, e2.2.1, c1]; exact hi.internal_count_eq t hd e1

theorem same_counts_refl (hd : root_ptr_header_block_base) : same_counts hd hd :=
  ⟨rfl, rfl, rfl, rfl⟩

/-- Destroying a registered handle whose target field is nil. -/
theorem destroy_nil_ptr_ok {s : Heap} {exI exR : Option Nat} {p : Nat} {ip : internal_ptr}
    (nrf : Nat → Nat → Heap → Option Heap)
    (hi : inv_core s exI exR) (hp : s.iptrs p = some ip) (hne : some p ≠ exI)
    (hh : ip.header = none) :
    ∃ s1 base base1, destroy_internal_ptr nrf p s = some s1 ∧ inv_core s1 exI exR ∧
      s.bases ip.base = some base ∧
      s1.bases = Function.update s.bases ip.base (some base1) ∧
      base1.self_header = base.self_header ∧ base1.pointers = base.pointers.erase p ∧
      s1.iptrs = Function.update s.iptrs p none ∧
      s1.headers = s.headers ∧ s1.roots = s.roots ∧ s1.trace = s.trace ∧
      s1.next_header = s.next_header ∧ s1.next_base = s.next_base ∧
      s1.next_iptr = s.next_iptr ∧ s1.next_root = s.next_root := by
  obtain ⟨base, hb, hpm⟩ := hi.base_of_ptr p ip hp hne
  unfold destroy_internal_ptr deregister_ptr
  rw [hp]; simp only; rw [hb]; simp only; rw [hh]; simp only
  obtain ⟨base', hbase'⟩ : ∃ base' : internal_base,
      base' = { base with pointers := base.pointers.erase p } := ⟨_, rfl⟩
  rw [← hbase']
  have e_sh : base'.self_header = base.self_header := by rw [hbase']
  have e_pt : base'.pointers = base.pointers.erase p := by rw [hbase']
  clear hbase'
  refine ⟨_, base, base', rfl, ?_, rfl, rfl, e_sh, e_pt, rfl, rfl, rfl, rfl, rfl, rfl, rfl, rfl⟩
  obtain ⟨s1, hs1⟩ : ∃ s1, s1 = (s.set_base ip.base (some base')).set_iptr p none := ⟨_, rfl⟩
  rw [← hs1]
  have g_h : s1.headers = s.headers := by rw [hs1]; rfl
  have g_bb : s1.bases ip.base = some base' := by rw [hs1]; simp
  have g_b : ∀ b, b ≠ ip.base → s1.bases b = s.bases b := by
    intro b hb; rw [hs1]; simp [Function.update_noteq hb]
  have g_pp : s1.iptrs p = none := by rw [hs1]; simp
  have g_p : ∀ q, q ≠ p → s1.iptrs q = s.iptrs q := by
    intro q hq; rw [hs1]; simp [Function.update_noteq hq]
  have g_nb : s1.next_base = s.next_base := by rw [hs1]; rfl
  have g_ni : s1.next_iptr = s.next_iptr := by rw [hs1]; rfl
  have hnd := hi.pointers_nodup ip.base base hb
  refine inv_core_transfer hi (by rw [hs1]; rfl) (by rw [hs1]; rfl) (by rw [hs1]; rfl)
    g_ni (fun x hd hx => ⟨hd, by rw [g_h]; exact hx, same_counts_refl hd⟩)
    (fun x hx => by rw [g_h]; exact hx) ?_ ?_ ?_ ?_ ?_ ?_ ?_
  · intro q
    unfold iptr_edge
    by_cases hq : q = p
    · subst hq; rw [g_pp, hp]; simp only; rw [hh]
    · rw [g_p q hq]
      cases hiq : s.iptrs q with
      | none => rfl
      | some iq =>
        simp only
        by_cases hbb : iq.base = ip.base
        · rw [hbb, g_bb, hb]; simp only [e_sh]
        · rw [g_b _ hbb]
  · intro b base1 hx
    rw [g_nb]
    by_cases hbb : b = ip.base
    · subst hbb; exact hi.base_lt _ base hb
    · rw [g_b b hbb] at hx; exact hi.base_lt b base1 hx
  · intro q iq hx
    rw [g_ni]
    by_cases hq : q = p
    · subst hq; rw [g_pp] at hx; cases hx
    · rw [g_p q hq] at hx; exact hi.iptr_lt q iq hx
  · intro b base1 h hx hs
    by_cases hbb : b = ip.base
    · subst hbb; rw [g_bb] at hx; cases hx; exact ⟨base, hb, e_sh ▸ hs⟩
    · rw [g_b b hbb] at hx; exact ⟨base1, hx, hs⟩
  · intro b base1 hx q hq
    have key : ∃ iq, s.iptrs q = some iq ∧ iq.base = b ∧ q ≠ p := by
      by_cases hbb : b = ip.base
      · subst hbb; rw [g_bb] at hx; cases hx
        rw [e_pt] at hq
        obtain ⟨iq, e1, e2⟩ := hi.ptr_of_base _ base hb q (List.mem_of_mem_erase hq)
        refine ⟨iq, e1, e2, ?_⟩
        rintro rfl
        exact (List.Nodup.not_mem_erase hnd) hq
      · rw [g_b b hbb] at hx
        obtain ⟨iq, e1, e2⟩ := hi.ptr_of_base b base1 hx q hq
        refine ⟨iq, e1, e2, ?_⟩
        rintro rfl
        rw [hp] at e1; cases e1; exact hbb e2.symm
    obtain ⟨iq, e1, e2, e3⟩ := key
    exact ⟨iq, by rw [g_p q e3]; exact e1, e2⟩
  · intro b base1 hx
    by_cases hbb : b = ip.base
    · subst hbb; rw [g_bb] at hx; cases hx; rw [e_pt]; exact hnd.erase p
    · rw [g_b b hbb] at hx; exact hi.pointers_nodup b base1 hx
  · intro q iq hx hqe
    by_cases hq : q = p
    · subst hq; rw [g_pp] at hx; cases hx
    · rw [g_p q hq] at hx
      obtain ⟨base0, e1, e2⟩ := hi.base_of_ptr q iq hx hqe
      by_cases hbb : iq.base = ip.base
      · rw [hbb, g_bb]; rw [hbb, hb] at e1; cases e1
        exact ⟨base', rfl, by rw [e_pt]; exact (List.mem_erase_of_ne hq).2 e2⟩
      · rw [g_b _ hbb]; exact ⟨base0, e1, e2⟩

/-- Destroying an `internal_base` with which no handle is registered any more. -/
theorem free_base_ok {s : Heap} {exI exR : Option Nat} {b : Nat} {base : internal_base}
    (hi : inv_core s exI exR) (hb : s.bases b = some base) (hemp : base.pointers = []) :
    inv_core (s.set_base b none) exI exR := by
  have g_b : ∀ b0, b0 ≠ b → (s.set_base b none).bases b0 = s.bases b0 := by
    intro b0 hb0; simp [Function.update_noteq hb0]
  have g_bb : (s.set_base b none).bases b = none := by simp
  have hnob : ∀ q iq, s.iptrs q = some iq → some q ≠ exI → iq.base ≠ b := by
    intro q iq h1 h2 h3
    obtain ⟨base0, e1, e2⟩ := hi.base_of_ptr q iq h1 h2
    rw [h3, hb] at e1; cases e1; rw [hemp] at e2; simp at e2
  refine inv_core_transfer hi rfl rfl rfl rfl
    (fun x hd hx => ⟨hd, hx, same_counts_refl hd⟩) (fun x hx => hx) ?_ ?_ ?_ ?_ ?_ ?_ ?_
  · intro q
    unfold iptr_edge
    by_cases hqe : some q = exI
    · rw [if_pos hqe, if_pos hqe]
    · rw [if_neg hqe, if_neg hqe]
      simp only [set_base_iptrs]
      cases hiq : s.iptrs q with
      | none => rfl
      | some iq => simp only; rw [g_b _ (hnob q iq hiq hqe)]
  · intro b0 base0 hx
    by_cases hbb : b0 = b
    · subst hbb; rw [g_bb] at hx; cases hx
    · rw [g_b b0 hbb] at hx; exact hi.base_lt b0 base0 hx
  · intro q iq hx; exact hi.iptr_lt q iq hx
  · intro b0 base0 h hx hs
    by_cases hbb : b0 = b
    · subst hbb; rw [g_bb] at hx; cases hx
    · rw [g_b b0 hbb] at hx; exact ⟨base0, hx, hs⟩
  · intro b0 base0 hx q hq
    by_cases hbb : b0 = b
    · subst hbb; rw [g_bb] at hx; cases hx
    · rw [g_b b0 hbb] at hx; exact hi.ptr_of_base b0 base0 hx q hq
  · intro b0 base0 hx
    by_cases hbb : b0 = b
    · subst hbb; rw [g_bb] at hx; cases hx
    · rw [g_b b0 hbb] at hx; exact hi.pointers_nodup b0 base0 hx
  · intro q iq hx hqe
    simp only [set_base_iptrs] at hx
    rw [g_b _ (hnob q iq hx hqe)]
    exact hi.base_of_ptr q iq hx hqe

theorem destroy_members_ok {exI exR : Option Nat} (nrf : Nat → Nat → Heap → Option Heap)
    {b : Nat} (ps : List Nat) :
    ∀ {s : Heap} {base : internal_base}, inv_core s exI exR → s.bases b = some base →
    ps.Nodup → (∀ p ∈ ps, p ∈ base.pointers) → (∀ p ∈ base.pointers, p ∈ ps) →
    (∀ p ∈ ps, ∃ ip, s.iptrs p = some ip ∧ ip.header = none) → (∀ p ∈ ps, some p ≠ exI) →
    ∃ s1 base1, destroy_members nrf ps s = some s1 ∧ inv_core s1 exI exR ∧
      s1.bases b = some base1 ∧ base1.pointers = [] ∧
      base1.self_header = base.self_header ∧
      (∀ b0, b0 ≠ b → s1.bases b0 = s.bases b0) ∧
      (∀ q, q ∉ ps → s1.iptrs q = s.iptrs q) ∧ (∀ q ∈ ps, s1.iptrs q = none) ∧
      s1.headers = s.headers ∧ s1.roots = s.roots ∧ s1.trace = s.trace ∧
      s1.next_header = s.next_header ∧ s1.next_base = s.next_base ∧
      s1.next_iptr = s.next_iptr ∧ s1.next_root = s.next_root := by
  induction ps with
  | nil =>
    intro s base hi hb _ _ hsub _ _
    refine ⟨s, base, rfl, hi, hb, ?_, rfl, fun _ _ => rfl, fun _ _ => rfl, by simp,
      rfl, rfl, rfl, rfl, rfl, rfl, rfl⟩
    exact List.eq_nil_iff_forall_not_mem.2 (fun q hq => by simpa using hsub q hq)
  | cons p ps ih =>
    intro s base hi hb hnd hin hsub hnil hex
    obtain ⟨ip, hip, hiph⟩ := hnil p (List.mem_cons_self _ _)
    obtain ⟨ip0, e1, e2⟩ := hi.ptr_of_base b base hb p (hin p (List.mem_cons_self _ _))
    rw [hip] at e1; cases e1
    obtain ⟨s1, base0, base1, a1, a2, a3, a4, a5, a6, a7, a8, a9, a10, a11, a12, a13, a14⟩ :=
      destroy_nil_ptr_ok nrf hi hip (hex p (List.mem_cons_self _ _)) hiph
    rw [e2] at a3 a4
    rw [hb] at a3; cases a3
    simp only [destroy_members, a1]
    have hpn : p ∉ ps := (List.nodup_cons.1 hnd).1
    have hndp := hi.pointers_nodup b base hb
    obtain ⟨s2, base2, b1, b2, b3, b4, b5, b6, b7, b8, b9, b10, b11, b12, b13, b14, b15⟩ :=
      ih (s := s1) a2 (show s1.bases b = some base1 by rw [a4]; simp) (List.nodup_cons.1 hnd).2
        (fun q hq => by
          rw [a6]
          exact (List.mem_erase_of_ne (ne_of_mem_of_not_mem hq hpn)).2
            (hin q (List.mem_cons_of_mem _ hq)))
        (fun q hq => by
          rw [a6] at hq
          rcases List.mem_cons.1 (hsub q (List.mem_of_mem_erase hq)) with h | h
          · subst h; exact absurd hq (List.Nodup.not_mem_erase hndp)
          · exact h)
        (fun q hq => by
          rw [a7, Function.update_noteq (ne_of_mem_of_not_mem hq hpn)]
          exact hnil q (List.mem_cons_of_mem _ hq))
        (fun q hq => hex q (List.mem_cons_of_mem _ hq))
    refine ⟨s2, base2, b1, b2, b3, b4, b5.trans a5, ?_, ?_, ?_, b9.trans a8, b10.trans a9,
      b11.trans a10, b12.trans a11, b13.trans a12, b14.trans a13, b15.trans a14⟩
    · intro b0 hb0; rw [b6 b0 hb0, a4, Function.update_noteq hb0]
    · intro q hq
      rw [b7 q (fun h => hq (List.mem_cons_of_mem _ h)), a7,
        Function.update_noteq (fun (e : q = p) => hq (by rw [e]; exact List.mem_cons_self _ _))]
    · intro q hq
      rcases List.mem_cons.1 hq with rfl | hq
      · rw [b7 q hpn, a7]; simp
      · exact b8 q hq

theorem inv_core_log {s : Heap} {exI exR : Option Nat} (hi : inv_core s exI exR) (e : Event) :
    inv_core (s.log e) exI exR :=
  inv_core_headers_congr hi rfl rfl rfl rfl rfl rfl rfl
    (fun _ hd hx => ⟨hd, hx, same_counts_refl hd⟩) (fun _ hx => hx)

theorem do_delete_ok {s : Heap} {exI exR : Option Nat} (nrf : Nat → Nat → Heap → Option Heap)
    {u : Nat} {hd : root_ptr_header_block_base}
    (hi : inv_core s exI exR) (hu : s.headers u = some hd)
    (hhb : ∀ b, hd.get_internal_base = some b → ∃ base, s.bases b = some base)
    (hnil : ∀ p ∈ payload_handles s u, ∃ ip, s.iptrs p = some ip ∧ ip.header = none)
    (hex : ∀ p ∈ payload_handles s u, some p ≠ exI) :
    ∃ s1, do_delete nrf u s = some s1 ∧ inv_core s1 exI exR ∧
      s1.headers = s.headers ∧ s1.roots = s.roots ∧
      s1.trace = s.trace ++ [Event.destroyed u (observe s (payload_handles s u))] ∧
      s1.next_header = s.next_header ∧ s1.next_base = s.next_base ∧
      s1.next_iptr = s.next_iptr ∧ s1.next_root = s.next_root ∧
      (∀ b, hd.get_internal_base = some b → s1.bases b = none) ∧
      (∀ b, hd.get_internal_base ≠ some b → s1.bases b = s.bases b) ∧
      (∀ q ∈ payload_handles s u, s1.iptrs q = none) ∧
      (∀ q, q ∉ payload_handles s u → s1.iptrs q = s.iptrs q) := by
  unfold do_delete
  rw [hu]; simp only
  cases hg : hd.get_internal_base with
  | none =>
    have hph : payload_handles s u = [] := by unfold payload_handles; rw [hu]; simp [hg]
    simp only [hph]
    refine ⟨_, rfl, inv_core_log hi _, rfl, rfl, ?_, rfl, rfl, rfl, rfl, ?_, fun _ _ => rfl,
      by simp, fun _ _ => rfl⟩
    · simp [observe]
    · intro b hb; cases hb
  | some b =>
    simp only
    obtain ⟨base, hb⟩ := hhb b hg
    rw [hb]; simp only
    have hph : payload_handles s u = base.pointers := by
      unfold payload_handles; rw [hu]; simp only; rw [hg]; simp only; rw [hb]
    rw [hph] at hnil hex ⊢
    obtain ⟨s1, base1, a1, a2, a3, a4, a5, a6, a7, a8, a9, a10, a11, a12, a13, a14, a15⟩ :=
      destroy_members_ok nrf (b := b) base.pointers
        (s := s.log (Event.destroyed u (observe s base.pointers)))
        (inv_core_log hi _) hb (hi.pointers_nodup b base hb) (fun _ h => h) (fun _ h => h)
        hnil hex
    rw [a1]; simp only
    refine ⟨_, rfl, free_base_ok a2 a3 a4, a9, a10, a11, a12, a13, a14, a15, ?_, ?_, a8, a7⟩
    · intro b0 hb0; cases hb0; simp
    · intro b0 hb0
      have : b0 ≠ b := fun e => hb0 (by rw [e])
      simp only [set_base_bases, Function.update_noteq this]
      exact a6 b0 this

theorem delete_object_ok {s : Heap} {exI exR : Option Nat}
    (nrf : Nat → Nat → Heap → Option Heap) {u : Nat} {hd : root_ptr_header_block_base}
    (hi : inv_core s exI exR) (hu : s.headers u = some hd) (hdel : hd.deleted = false)
    (hhb : ∀ b, hd.get_internal_base = some b → ∃ base, s.bases b = some base)
    (hnil : ∀ p ∈ payload_handles s u, ∃ ip, s.iptrs p = some ip ∧ ip.header = none)
    (hex : ∀ p ∈ payload_handles s u, some p ≠ exI) :
    ∃ s1 hd1, delete_object nrf u s = some s1 ∧ inv_core s1 exI exR ∧
      s1.headers = Function.update s.headers u (some hd1) ∧ same_counts hd hd1 ∧
      hd1.unreachable = hd.unreachable ∧ s1.roots = s.roots ∧
      s1.trace = s.trace ++ [Event.destroyed u (observe s (payload_handles s u))] ∧
      s1.next_header = s.next_header ∧ s1.next_base = s.next_base ∧
      s1.next_iptr = s.next_iptr ∧ s1.next_root = s.next_root ∧
      (∀ b, hd.get_internal_base = some b → s1.bases b = none) ∧
      (∀ b, hd.get_internal_base ≠ some b → s1.bases b = s.bases b) ∧
      (∀ q ∈ payload_handles s u, s1.iptrs q = none) ∧
      (∀ q, q ∉ payload_handles s u → s1.iptrs q = s.iptrs q) := by
  unfold delete_object
  rw [hu]; simp only [hdel, Bool.not_false, if_true]
  obtain ⟨hd', hhd'⟩ : ∃ hd' : root_ptr_header_block_base,
      hd' = { hd with deleted := true } := ⟨_, rfl⟩
  rw [← hhd']
  have e_sc : same_counts hd hd' := by rw [hhd']; exact ⟨rfl, rfl, rfl, rfl⟩
  have e_un : hd'.unreachable = hd.unreachable := by rw [hhd']
  clear hhd'
  have hi0 : inv_core (s.set_header u (some hd')) exI exR := by
    refine inv_core_headers_congr hi rfl rfl rfl rfl rfl rfl rfl ?_ ?_
    · intro x hd0 hx
      by_cases hxu : x = u
      · subst hxu; rw [hu] at hx; cases hx; exact ⟨hd', by simp, e_sc⟩
      · exact ⟨hd0, by simp [Function.update_noteq hxu, hx], same_counts_refl hd0⟩
    · intro x hx
      by_cases hxu : x = u
      · subst hxu; rw [hu] at hx; cases hx
      · simp [Function.update_noteq hxu, hx]
  have hph : payload_handles (s.set_header u (some hd')) u = payload_handles s u := by
    unfold payload_handles
    rw [hu]; simp [e_sc.2.2.2]
  have hobs : observe (s.set_header u (some hd')) (payload_handles s u) =
      observe s (payload_handles s u) := rfl
  obtain ⟨s1, a1, a2, a3, a4, a5, a6, a7, a8, a9, a10, a11, a12, a13⟩ :=
    do_delete_ok nrf (s := s.set_header u (some hd')) (u := u)
      hi0 (by simp) (fun b hb => hhb b (e_sc.2.2.2 ▸ hb))
      (by rw [hph]; exact hnil) (by rw [hph]; exact hex)
  rw [hph] at a5 a12 a13
  refine ⟨s1, hd', a1, a2, a3, e_sc, e_un, a4, a5, a6, a7, a8, a9, ?_, ?_, a12, a13⟩
  · intro b hb; exact a10 b (e_sc.2.2.2.trans hb)
  · intro b hb; exact a11 b (fun e => hb (e_sc.2.2.2.symm.trans e))

theorem payload_disjoint {s : Heap} {exI exR : Option Nat} (hi : inv_core s exI exR)
    {u v : Nat} (huv : u ≠ v) (hu : ready_to_delete s exI u) (hv : ready_to_delete s exI v)
    {p : Nat} (hp : p ∈ payload_handles s v) : p ∉ payload_handles s u := by
  intro hpu
  obtain ⟨hd1, b1, base1, e1, e2, e3, e4⟩ := mem_payload_handles.1 hp
  obtain ⟨hd2, b2, base2, f1, f2, f3, f4⟩ := mem_payload_handles.1 hpu
  obtain ⟨ip1, g1, g2⟩ := hi.ptr_of_base b1 base1 e3 p e4
  obtain ⟨ip2, g3, g4⟩ := hi.ptr_of_base b2 base2 f3 p f4
  rw [g1] at g3; cases g3
  rw [g2] at g4; subst g4
  rw [e3] at f3; cases f3
  obtain ⟨⟨hd3, k1, _, k3⟩, _⟩ := hv
  obtain ⟨⟨hd4, l1, _, l3⟩, _⟩ := hu
  rw [e1] at k1; cases k1
  rw [f1] at l1; cases l1
  obtain ⟨base3, m1, m2⟩ := k3 _ e2
  obtain ⟨base4, n1, n2⟩ := l3 _ f2
  rw [m1] at n1; cases n1
  rw [m2] at n2; cases n2
  exact huv rfl

theorem delete_all_ok {exI exR : Option Nat} (nrf : Nat → Nat → Heap → Option Heap)
    (L : List Nat) :
    ∀ {s : Heap}, inv_core s exI exR → L.Nodup → (∀ u ∈ L, ready_to_delete s exI u) →
    ∃ s1, delete_all nrf L s = some s1 ∧ inv_core s1 exI exR ∧
      (∀ x hd, s.headers x = some hd → ∃ hd1, s1.headers x = some hd1 ∧ same_counts hd hd1 ∧
        hd1.unreachable = hd.unreachable ∧ (x ∉ L → hd1.deleted = hd.deleted)) ∧
      (∀ x, s.headers x = none → s1.headers x = none) ∧
      s1.roots = s.roots ∧ s1.next_header = s.next_header ∧ s1.next_base = s.next_base ∧
      s1.next_iptr = s.next_iptr ∧ s1.next_root = s.next_root ∧
      s1.trace = s.trace ++
        L.map (fun u => Event.destroyed u (observe s (payload_handles s u))) ∧
      (∀ u ∈ L, ∀ hd b, s.headers u = some hd → hd.get_internal_base = some b →
        s1.bases b = none) ∧
      (∀ b0, (∀ u ∈ L, ∀ hd, s.headers u = some hd → hd.get_internal_base ≠ some b0) →
        s1.bases b0 = s.bases b0) ∧
      (∀ u ∈ L, ∀ q ∈ payload_handles s u, s1.iptrs q = none) ∧
      (∀ q, (∀ u ∈ L, q ∉ payload_handles s u) → s1.iptrs q = s.iptrs q) := by
  induction L with
  | nil =>
    intro s hi _ _
    refine ⟨s, rfl, hi, fun x hd hx => ⟨hd, hx, same_counts_refl hd, rfl, fun _ => rfl⟩,
      fun _ h => h, rfl, rfl, rfl, rfl, rfl, by simp, by simp, fun _ _ => rfl, by simp,
      fun _ _ => rfl⟩
  | cons u L ih =>
    intro s hi hnd hrd
    have hru := hrd u (List.mem_cons_self _ _)
    obtain ⟨⟨hd, hu, hdel, hhb⟩, hnil, hex⟩ := hru
    have hun : u ∉ L := (List.nodup_cons.1 hnd).1
    obtain ⟨s1, hd1, a1, a2, a3, a4, a5, a6, a7, a8, a9, a10, a11, a12, a13, a14, a15⟩ :=
      delete_object_ok nrf hi hu hdel
        (fun b hb => by obtain ⟨base, h1, _⟩ := hhb b hb; exact ⟨base, h1⟩) hnil hex
    simp only [delete_all, a1]
    have hne : ∀ v ∈ L, v ≠ u := fun v hv => ne_of_mem_of_not_mem hv hun
    have hhv : ∀ v ∈ L, s1.headers v = s.headers v := by
      intro v hv; rw [a3, Function.update_noteq (hne v hv)]
    have hbv : ∀ v ∈ L, ∀ hdv b, s.headers v = some hdv → hdv.get_internal_base = some b →
        s1.bases b = s.bases b := by
      intro v hv hdv b h1 h2
      apply a13
      intro hgu
      obtain ⟨⟨hdv2, k1, _, k3⟩, _⟩ := hrd v (List.mem_cons_of_mem _ hv)
      rw [h1] at k1; cases k1
      obtain ⟨base3, m1, m2⟩ := k3 b h2
      obtain ⟨base4, n1, n2⟩ := hhb b hgu
      rw [m1] at n1; cases n1
      rw [m2] at n2; cases n2
      exact hun hv
    have hpv : ∀ v ∈ L, payload_handles s1 v = payload_handles s v := by
      intro v hv
      unfold payload_handles
      rw [hhv v hv]
      cases h1 : s.headers v with
      | none => rfl
      | some hdv =>
        simp only
        cases h2 : hdv.get_internal_base with
        | none => rfl
        | some b => simp only; rw [hbv v hv hdv b h1 h2]
    have hiv : ∀ v ∈ L, ∀ p ∈ payload_handles s v, s1.iptrs p = s.iptrs p := by
      intro v hv p hp
      exact a15 p (payload_disjoint hi (hne v hv).symm (hrd u (List.mem_cons_self _ _))
        (hrd v (List.mem_cons_of_mem _ hv)) hp)
    have hov : ∀ v ∈ L, observe s1 (payload_handles s1 v) = observe s (payload_handles s v) := by
      intro v hv
      rw [hpv v hv]
      unfold observe
      apply List.map_congr_left
      intro p hp
      rw [hiv v hv p hp]
    obtain ⟨s2, b1, b2, b3, b4, b5, b6, b7, b8, b9, b10, b11, b12, b13, b14⟩ :=
      ih (s := s1) a2 (List.nodup_cons.1 hnd).2 (fun v hv => by
        obtain ⟨⟨hdv, k1, k2, k3⟩, k4, k5⟩ := hrd v (List.mem_cons_of_mem _ hv)
        refine ⟨⟨hdv, by rw [hhv v hv]; exact k1, k2, ?_⟩, ?_, ?_⟩
        · intro b hb
          rw [hbv v hv hdv b k1 hb]; exact k3 b hb
        · intro p hp
          rw [hpv v hv] at hp
          rw [hiv v hv p hp]; exact k4 p hp
        · intro p hp
          rw [hpv v hv] at hp
          exact k5 p hp)
    refine ⟨s2, b1, b2, ?_, ?_, b5.trans a6, b6.trans a8, b7.trans a9, b8.trans a10,
      b9.trans a11, ?_, ?_, ?_, ?_, ?_⟩
    · intro x hdx hx
      by_cases hxu : x = u
      · subst hxu; rw [hu] at hx; cases hx
        obtain ⟨hd2, c1, c2, c3, c4⟩ := b3 x hd1 (by rw [a3]; simp)
        refine ⟨hd2, c1, ⟨c2.1.trans a4.1, c2.2.1.trans a4.2.1, c2.2.2.1.trans a4.2.2.1,
          c2.2.2.2.trans a4.2.2.2⟩, c3.trans a5, fun h => absurd (List.mem_cons_self _ _) h⟩
      · obtain ⟨hd2, c1, c2, c3, c4⟩ := b3 x hdx (by rw [a3, Function.update_noteq hxu]; exact hx)
        exact ⟨hd2, c1, c2, c3, fun h => c4 (fun h2 => h (List.mem_cons_of_mem _ h2))⟩
    · intro x hx
      apply b4
      by_cases hxu : x = u
      · subst hxu; rw [hu] at hx; cases hx
      · rw [a3, Function.update_noteq hxu]; exact hx
    · rw [b10, a7]
      simp only [List.map_cons, List.append_assoc, List.singleton_append, List.append_cancel_left_eq,
        List.cons.injEq, true_and]
      apply List.map_congr_left
      intro v hv
      rw [hov v hv]
    · intro v hv hdv b h1 h2
      rcases List.mem_cons.1 hv with rfl | hv
      · rw [hu] at h1; cases h1
        have := a12 b h2
        by_cases hcase : ∀ w ∈ L, ∀ hdw, s1.headers w = some hdw →
            hdw.get_internal_base ≠ some b
        · rw [b12 b hcase]; exact this
        · push_neg at hcase
          obtain ⟨w, hw, hdw, h3, h4⟩ := hcase
          exact b11 w hw hdw b h3 h4
      · exact b11 v hv hdv b (by rw [hhv v hv]; exact h1) h2
    · intro b0 hb0
      rw [b12 b0, a13 b0]
      · exact hb0 u (List.mem_cons_self _ _) hd hu
      · intro w hw hdw h3
        rw [hhv w hw] at h3
        exact hb0 w (List.mem_cons_of_mem _ hw) hdw h3
    · intro v hv q hq
      rcases List.mem_cons.1 hv with rfl | hv
      · by_cases hcase : ∀ w ∈ L, q ∉ payload_handles s1 w
        · rw [b14 q hcase]; exact a14 q hq
        · push_neg at hcase
          obtain ⟨w, hw, h3⟩ := hcase
          exact b13 w hw q h3
      · exact b13 v hv q (by rw [hpv v hv]; exact hq)
    · intro q hq
      rw [b14 q, a15 q (hq u (List.mem_cons_self _ _))]
      intro w hw
      rw [hpv w hw]
      exact hq w (List.mem_cons_of_mem _ hw)

/-- Deallocating a header block that nothing refers to. -/
theorem free_header_ok {s : Heap} {exI exR : Option Nat} {u : Nat}
    (hi : inv_core s exI exR) (hlive : ∃ hd, s.headers u = some hd)
    (n1 : ∀ p ip, s.iptrs p = some ip → some p ≠ exI → ip.header ≠ some u)
    (n2 : ∀ r rp, s.roots r = some rp → some r ≠ exR → rp.header ≠ some u)
    (n3 : ∀ b base, s.bases b = some base → base.self_header ≠ some u) :
    ∃ s1, free_header u s = some s1 ∧ inv_core s1 exI exR ∧
      s1.headers = Function.update s.headers u none ∧ s1.bases = s.bases ∧
      s1.iptrs = s.iptrs ∧ s1.roots = s.roots ∧ s1.trace = s.trace ++ [Event.freed u] ∧
      s1.next_header = s.next_header ∧ s1.next_base = s.next_base ∧
      s1.next_iptr = s.next_iptr ∧ s1.next_root = s.next_root := by
  obtain ⟨hd, hu⟩ := hlive
  unfold free_header
  rw [hu]; simp only
  refine ⟨_, rfl, ?_, rfl, rfl, rfl, rfl, rfl, rfl, rfl, rfl, rfl⟩
  have g_h : ∀ x hd1, ((s.set_header u none).log (Event.freed u)).headers x = some hd1 →
      s.headers x = some hd1 ∧ x ≠ u := by
    intro x hd1 hx
    simp only [log_headers, set_header_headers] at hx
    by_cases hxu : x = u
    · subst hxu; simp at hx
    · rw [Function.update_noteq hxu] at hx; exact ⟨hx, hxu⟩
  have g_h2 : ∀ x hd1, s.headers x = some hd1 → x ≠ u →
      ((s.set_header u none).log (Event.freed u)).headers x = some hd1 := by
    intro x hd1 hx hxu
    simp only [log_headers, set_header_headers]
    rw [Function.update_noteq hxu]; exact hx
  constructor
  · intro h hd1 hx; exact hi.header_lt h hd1 (g_h h hd1 hx).1
  · exact hi.base_lt
  · exact hi.iptr_lt
  · exact hi.root_lt
  · intro h hd1 hx; exact hi.bp_sorted h hd1 (g_h h hd1 hx).1
  · intro b base h hx hs
    obtain ⟨hd1, e1, e2⟩ := hi.header_of_base b base h hx hs
    have : h ≠ u := fun e => n3 b base hx (by rw [hs, e])
    exact ⟨hd1, g_h2 h hd1 e1 this, e2⟩
  · exact hi.ptr_of_base
  · exact hi.pointers_nodup
  · exact hi.base_of_ptr
  · intro p ip t hx hne ht
    obtain ⟨hd1, e1⟩ := hi.target_live p ip t hx hne ht
    have : t ≠ u := fun e => n1 p ip hx hne (by rw [ht, e])
    exact ⟨hd1, g_h2 t hd1 e1 this⟩
  · intro r rp t hx hne ht
    obtain ⟨hd1, e1⟩ := hi.root_target_live r rp t hx hne ht
    have : t ≠ u := fun e => n2 r rp hx hne (by rw [ht, e])
    exact ⟨hd1, g_h2 t hd1 e1 this⟩
  · intro t hd1 hx P; exact hi.bp_count t hd1 (g_h t hd1 hx).1 P
  · intro t hd1 hx; exact hi.bp_length t hd1 (g_h t hd1 hx).1
  · intro t hd1 hx; exact hi.owner_count_eq t hd1 (g_h t hd1 hx).1
  · intro t hd1 hx; exact hi.internal_count_eq t hd1 (g_h t hd1 hx).1

theorem free_all_ok {exI exR : Option Nat} (L : List Nat) :
    ∀ {s : Heap}, inv_core s exI exR → L.Nodup → (∀ u ∈ L, ∃ hd, s.headers u = some hd) →
    (∀ u ∈ L, ∀ p ip, s.iptrs p = some ip → some p ≠ exI → ip.header ≠ some u) →
    (∀ u ∈ L, ∀ r rp, s.roots r = some rp → some r ≠ exR → rp.header ≠ some u) →
    (∀ u ∈ L, ∀ b base, s.bases b = some base → base.self_header ≠ some u) →
    ∃ s1, free_all L s = some s1 ∧ inv_core s1 exI exR ∧
      (∀ x, x ∈ L → s1.headers x = none) ∧ (∀ x, x ∉ L → s1.headers x = s.headers x) ∧
      s1.bases = s.bases ∧ s1.iptrs = s.iptrs ∧ s1.roots = s.roots ∧
      s1.trace = s.trace ++ L.map Event.freed ∧
      s1.next_header = s.next_header ∧ s1.next_base = s.next_base ∧
      s1.next_iptr = s.next_iptr ∧ s1.next_root = s.next_root := by
  induction L with
  | nil =>
    intro s hi _ _ _ _ _
    exact ⟨s, rfl, hi, by simp, fun _ _ => rfl, rfl, rfl, rfl, by simp, rfl, rfl, rfl, rfl⟩
  | cons u L ih =>
    intro s hi hnd hl n1 n2 n3
    have hun : u ∉ L := (List.nodup_cons.1 hnd).1
    obtain ⟨s1, a1, a2, a3, a4, a5, a6, a7, a8, a9, a10, a11⟩ :=
      free_header_ok hi (hl u (List.mem_cons_self _ _)) (n1 u (List.mem_cons_self _ _))
        (n2 u (List.mem_cons_self _ _)) (n3 u (List.mem_cons_self _ _))
    simp only [free_all, a1]
    obtain ⟨s2, b1, b2, b3, b4, b5, b6, b7, b8, b9, b10, b11, b12⟩ := ih (s := s1) a2
      (List.nodup_cons.1 hnd).2
      (fun v hv => by
        rw [a3, Function.update_noteq (ne_of_mem_of_not_mem hv hun)]
        exact hl v (List.mem_cons_of_mem _ hv))
      (fun v hv => by rw [a5]; exact n1 v (List.mem_cons_of_mem _ hv))
      (fun v hv => by rw [a6]; exact n2 v (List.mem_cons_of_mem _ hv))
      (fun v hv => by rw [a4]; exact n3 v (List.mem_cons_of_mem _ hv))
    refine ⟨s2, b1, b2, ?_, ?_, b5.trans a4, b6.trans a5, b7.trans a6, ?_, b9.trans a8,
      b10.trans a9, b11.trans a10, b12.trans a11⟩
    · intro x hx
      rcases List.mem_cons.1 hx with rfl | hx
      · rw [b4 x hun, a3]; simp
      · exact b3 x hx
    · intro x hx
      rw [b4 x (fun h => hx (List.mem_cons_of_mem _ h)), a3,
        Function.update_noteq (fun (e : x = u) => hx (by rw [e]; exact List.mem_cons_self _ _))]
    · rw [b8, a7]; simp

theorem is_owned_false_iff (hd : root_ptr_header_block_base) :
    is_owned hd = false ↔
      hd.owner_count = 0 ∧ hd.internal_count ≤ hd.back_pointers.length := by
  unfold is_owned
  by_cases h1 : hd.owner_count = 0
  · by_cases h2 : hd.internal_count > hd.back_pointers.length
    · simp [h1, h2]
    · simp [h1, h2]; omega
  · simp [h1]

theorem not_targets_of_count_zero {s : Heap} {exI exR : Option Nat} (hi : inv_core s exI exR)
    {u : Nat} (h0 : iptr_count s exI u = 0) :
    ∀ p ip, s.iptrs p = some ip → some p ≠ exI → ip.header ≠ some u := by
  intro p ip hp hne hh
  have : iptr_targets s exI u p = true := by
    unfold iptr_targets; rw [hp]; simp [hne, hh]
  have := count_upto_pos (hi.iptr_lt p ip hp) this
  unfold iptr_count at h0
  omega

theorem not_root_targets_of_count_zero {s : Heap} {exI exR : Option Nat}
    (hi : inv_core s exI exR) {u : Nat} (h0 : root_count s exR u = 0) :
    ∀ r rp, s.roots r = some rp → some r ≠ exR → rp.header ≠ some u := by
  intro r rp hr hne hh
  have : root_targets s exR u r = true := by
    unfold root_targets; rw [hr]; simp [hne, hh]
  have := count_upto_pos (hi.root_lt r rp hr) this
  unfold root_count at h0
  omega

/-- After the severance pass a member of the collected set has no back pointer left, provided
the handles of all members have been set to nil. -/
theorem bp_nil_of_severed {s : Heap} {exI exR : Option Nat} {Z : List Nat}
    (hi : inv_core s exI exR)
    (hnil : ∀ u ∈ Z, ∀ q ∈ payload_handles s u, ∃ ip, s.iptrs q = some ip ∧ ip.header = none)
    {x : Nat} {hd : root_ptr_header_block_base} (hx : s.headers x = some hd) :
    ∀ P ∈ Z, P ∉ hd.back_pointers := by
  intro P hP hmem
  have hc : 0 < hd.back_pointers.count P := List.count_pos_iff.2 hmem
  rw [hi.bp_count x hd hx P] at hc
  obtain ⟨q, hq, hf⟩ := exists_of_count_upto_pos hc
  rw [iptr_targets_from_edge] at hf
  unfold iptr_edge at hf
  by_cases hqe : some q = exI
  · rw [if_pos hqe] at hf; cases hf
  · rw [if_neg hqe] at hf
    cases hiq : s.iptrs q with
    | none => rw [hiq] at hf; cases hf
    | some iq =>
      rw [hiq] at hf; simp only at hf
      cases hh : iq.header with
      | none => rw [hh] at hf; cases hf
      | some t =>
        rw [hh] at hf; simp only [Option.some.injEq, Prod.mk.injEq] at hf
        obtain ⟨base, hb, hqm⟩ := hi.base_of_ptr q iq hiq hqe
        rw [hb] at hf
        obtain ⟨hdP, e1, e2⟩ := hi.header_of_base iq.base base P hb hf.2
        have : q ∈ payload_handles s P := mem_payload_handles.2 ⟨hdP, iq.base, base, e1, e2, hb, hqm⟩
        obtain ⟨iq2, f1, f2⟩ := hnil P hP q this
        rw [hiq] at f1; cases f1
        rw [hh] at f2; cases f2

theorem payload_handles_congr {s s1 : Heap} {u : Nat} {hd hd1 : root_ptr_header_block_base}
    (h : s.headers u = some hd) (h1 : s1.headers u = some hd1)
    (hg : hd1.get_internal_base = hd.get_internal_base) (hb : s1.bases = s.bases) :
    payload_handles s1 u = payload_handles s u := by
  unfold payload_handles
  rw [h, h1, hb]; simp only; rw [hg]

theorem cleanup_passes {s : Heap} {exI exR : Option Nat} {Z : List Nat}
    (nrf : Nat → Nat → Heap → Option Heap)
    (hinv : inv s exI exR) (hnd : Z.Nodup) (hdead : dead_closed s Z)
    (hex : excluded s exI Z) :
    ∃ s3, cleanup_unreachable_nodes nrf Z s = some s3 ∧ inv s3 exI exR ∧
      collected Z s s3 ∧ passes nrf Z s s3 := by
  have hlive : ∀ u ∈ Z, ∃ hd, s.headers u = some hd := by
    intro u hu; obtain ⟨hd, h1, _⟩ := hdead u hu; exact ⟨hd, h1⟩
  have hhb : ∀ u hd b, s.headers u = some hd → hd.get_internal_base = some b →
      ∃ base, s.bases b = some base ∧ base.self_header = some u :=
    fun u hd b h1 h2 => hinv.header_base u hd b h1 (by simp) h2
  -- first pass
  obtain ⟨s1, a1, a2, a3, a4, a5, a6, a7, a8, a9, a10⟩ :=
    mark_all_ok (Z := Z) Z hinv.core (fun _ h => h) hlive
      (fun u _ hd b h1 h2 => hhb u hd b h1 h2) hex
  have hph1 : ∀ u, u ∈ Z → payload_handles s1 u = payload_handles s u := by
    intro u hu
    obtain ⟨hd, h1⟩ := hlive u hu
    obtain ⟨hd1, e1, e2, _⟩ := a3.headers_some u hd h1
    exact payload_handles_congr h1 e1 e2.gib a4
  have hnil1 : ∀ u ∈ Z, ∀ q ∈ payload_handles s1 u,
      ∃ ip, s1.iptrs q = some ip ∧ ip.header = none := by
    intro u hu q hq
    rw [hph1 u hu] at hq
    obtain ⟨hd, b, base, e1, e2, e3, e4⟩ := mem_payload_handles.1 hq
    exact a9 u hu hd b base e1 e2 e3 q e4
  have hex1 : ∀ u ∈ Z, ∀ q ∈ payload_handles s1 u, some q ≠ exI := by
    intro u hu q hq
    rw [hph1 u hu] at hq
    obtain ⟨hd, b, base, e1, e2, e3, e4⟩ := mem_payload_handles.1 hq
    intro e
    exact hex q e.symm u hu hd b base e1 e2 e3 e4
  have hready : ∀ u ∈ Z, ready_to_delete s1 exI u := by
    intro u hu
    obtain ⟨hd, h1⟩ := hlive u hu
    obtain ⟨hd1, e1, e2, _⟩ := a3.headers_some u hd h1
    refine ⟨⟨hd1, e1, ?_, ?_⟩, hnil1 u hu, hex1 u hu⟩
    · rw [a10 u hd hd1 h1 e1]; exact (hinv.flags u hd h1 (by simp)).2
    · intro b hb
      rw [a4]; exact hhb u hd b h1 (e2.gib ▸ hb)
  have hdead1 : dead_closed s1 Z := by
    intro u hu
    obtain ⟨hd, h1, h2, h3⟩ := hdead u hu
    obtain ⟨hd1, e1, e2, _⟩ := a3.headers_some u hd h1
    exact ⟨hd1, e1, e2.owned.trans h2, fun y hy => h3 y (e2.bp_sub y hy)⟩
  have hzero : ∀ u ∈ Z, ∃ hd1, s1.headers u = some hd1 ∧ hd1.owner_count = 0 ∧
      hd1.internal_count = 0 ∧ hd1.back_pointers = [] := by
    intro u hu
    obtain ⟨hd1, e1, e2, e3⟩ := hdead1 u hu
    have hbp : hd1.back_pointers = [] := by
      apply List.eq_nil_iff_forall_not_mem.2
      intro P hP
      exact bp_nil_of_severed a2 hnil1 e1 P (e3 P hP) hP
    obtain ⟨f1, f2⟩ := (is_owned_false_iff hd1).1 e2
    rw [hbp] at f2
    exact ⟨hd1, e1, f1, by simpa using f2, hbp⟩
  have hn1 : ∀ u ∈ Z, ∀ p ip, s1.iptrs p = some ip → some p ≠ exI → ip.header ≠ some u := by
    intro u hu
    obtain ⟨hd1, e1, e2, e3, _⟩ := hzero u hu
    apply not_targets_of_count_zero a2
    have := a2.internal_count_eq u hd1 e1
    omega
  have hn2 : ∀ u ∈ Z, ∀ r rp, s1.roots r = some rp → some r ≠ exR → rp.header ≠ some u := by
    intro u hu
    obtain ⟨hd1, e1, e2, e3, _⟩ := hzero u hu
    apply not_root_targets_of_count_zero a2
    have := a2.owner_count_eq u hd1 e1
    omega
  -- second pass
  obtain ⟨s2, b1, b2, b3, b4, b5, b6, b7, b8, b9, b10, b11, b12, b13, b14⟩ :=
    delete_all_ok nrf Z a2 hnd hready
  have hiptr2 : ∀ p ip, s2.iptrs p = some ip → s1.iptrs p = some ip := by
    intro p ip hp
    by_cases hc : ∀ u ∈ Z, p ∉ payload_handles s1 u
    · rw [← b14 p hc]; exact hp
    · push_neg at hc
      obtain ⟨u, hu, hq⟩ := hc
      rw [b13 u hu p hq] at hp; cases hp
  have hbase2 : ∀ b base, s2.bases b = some base → s1.bases b = some base := by
    intro b base hb
    by_cases hc : ∀ u ∈ Z, ∀ hd, s1.headers u = some hd → hd.get_internal_base ≠ some b
    · rw [← b12 b hc]; exact hb
    · push_neg at hc
      obtain ⟨u, hu, hd, h1, h2⟩ := hc
      rw [b11 u hu hd b h1 h2] at hb; cases hb
  -- third pass
  obtain ⟨s3, c1, c2, c3, c4, c5, c6, c7, c8, c9, c10, c11, c12⟩ :=
    free_all_ok Z b2 hnd
      (fun u hu => by
        obtain ⟨hd1, e1, _⟩ := hzero u hu
        obtain ⟨hd2, f1, _⟩ := b3 u hd1 e1
        exact ⟨hd2, f1⟩)
      (fun u hu p ip hp hne => hn1 u hu p ip (hiptr2 p ip hp) hne)
      (fun u hu r rp hr hne => hn2 u hu r rp (by rw [← b5]; exact hr) hne)
      (fun u hu b base hb hs => by
        have hb1 := hbase2 b base hb
        obtain ⟨hd1, e1, e2⟩ := a2.header_of_base b base u hb1 hs
        rw [b11 u hu hd1 b e1 e2] at hb; cases hb)
  have hpass : passes nrf Z s s3 := by
    refine ⟨s1, s2, a1, b1, c1, a5, a6, hnil1, ?_, b10, ?_, ?_, c8, c3⟩
    · intro u hu q hq
      obtain ⟨ip, e1, e2⟩ := hnil1 u hu q hq
      have hget : internal_ptr_get s1 q = some none := by
        unfold internal_ptr_get; rw [e1]; simp only; rw [e2]
      exact ⟨hget, by unfold internal_ptr_bool; rw [hget]; rfl⟩
    · intro u hu o ho
      unfold observe at ho
      obtain ⟨q, hq, rfl⟩ := List.mem_map.1 ho
      obtain ⟨ip, e1, e2⟩ := hnil1 u hu q hq
      rw [e1]; exact e2
    · intro u hu
      obtain ⟨hd1, e1, e2⟩ := a6 u hu
      obtain ⟨hd2, f1, _, f3, _⟩ := b3 u hd1 e1
      exact ⟨hd2, f1, f3.trans e2⟩
  have hcl : cleanup_unreachable_nodes nrf Z s = some s3 := by
    unfold cleanup_unreachable_nodes
    rw [a1]; simp only; rw [b1]; simp only; exact c1
  have hkept : ∀ x hd, x ∉ Z → s.headers x = some hd →
      ∃ hd3, s3.headers x = some hd3 ∧ hdr_step Z hd hd3 ∧
        hd3.unreachable = hd.unreachable ∧ hd3.deleted = hd.deleted := by
    intro x hd hxz hx
    obtain ⟨hd1, e1, e2, e3⟩ := a3.headers_some x hd hx
    obtain ⟨hd2, f1, f2, f3, f4⟩ := b3 x hd1 e1
    refine ⟨hd2, by rw [c4 x hxz]; exact f1, ?_, f3.trans (e3 hxz).1,
      (f4 hxz).trans (e3 hxz).2⟩
    exact hdr_step_trans e2 ⟨f2.1, f2.2.2.2, is_owned_congr f2, fun h => by rw [f3]; exact h,
      fun y hy => by rw [f2.2.2.1] at hy; exact hy, fun y hy _ => by rw [f2.2.2.1]; exact hy⟩
  have hback : ∀ x hd3, s3.headers x = some hd3 → x ∉ Z ∧ ∃ hd, s.headers x = some hd := by
    intro x hd3 hx
    have hxz : x ∉ Z := fun h => by rw [c3 x h] at hx; cases hx
    refine ⟨hxz, ?_⟩
    cases h : s.headers x with
    | none =>
      rw [c4 x hxz, b4 x (a3.headers_none x h)] at hx; cases hx
    | some hd => exact ⟨hd, rfl⟩
  have hzbase : ∀ b, (∀ u ∈ Z, ∀ hd, s.headers u = some hd → hd.get_internal_base ≠ some b) →
      s3.bases b = s.bases b := by
    intro b hb
    rw [c5, b12 b, a4]
    intro u hu hd1 h1 h2
    obtain ⟨hd, h0⟩ := hlive u hu
    obtain ⟨hd1', e1, e2, _⟩ := a3.headers_some u hd h0
    rw [h1] at e1; cases e1
    exact hb u hu hd h0 (e2.gib ▸ h2)
  refine ⟨s3, hcl, ⟨c2, ?_, ?_⟩, ⟨c7.trans (b5.trans a3.roots), c9.trans (b6.trans a3.next_header),
    c10.trans (b7.trans a3.next_base), c11.trans (b8.trans a3.next_iptr),
    c12.trans (b9.trans a3.next_root), c3, ?_, ?_, ?_, hzbase, ?_, ?_, ?_⟩, hpass⟩
  · intro x hd3 hx _
    obtain ⟨hxz, hd, h0⟩ := hback x hd3 hx
    obtain ⟨hd3', e1, _, e3, e4⟩ := hkept x hd hxz h0
    rw [hx] at e1; cases e1
    obtain ⟨f1, f2⟩ := hinv.flags x hd h0 (by simp)
    exact ⟨e3.trans f1, e4.trans f2⟩
  · intro x hd3 b hx _ hg
    obtain ⟨hxz, hd, h0⟩ := hback x hd3 hx
    obtain ⟨hd3', e1, e2, _⟩ := hkept x hd hxz h0
    rw [hx] at e1; cases e1
    obtain ⟨base, f1, f2⟩ := hhb x hd b h0 (e2.gib ▸ hg)
    refine ⟨base, ?_, f2⟩
    rw [hzbase b]
    · exact f1
    · intro u hu hdu h1 h2
      obtain ⟨base2, g1, g2⟩ := hhb u hdu b h1 h2
      rw [f1] at g1; cases g1
      rw [f2] at g2; cases g2
      exact hxz hu
  · intro x hd hxz hx
    obtain ⟨hd3, e1, e2, _⟩ := hkept x hd hxz hx
    exact ⟨hd3, e1, e2⟩
  · intro x hx
    by_cases hxz : x ∈ Z
    · exact c3 x hxz
    · rw [c4 x hxz]; exact b4 x (a3.headers_none x hx)
  · intro u hu hd b h1 h2
    obtain ⟨hd1, e1, e2, _⟩ := a3.headers_some u hd h1
    rw [c5]; exact b11 u hu hd1 b e1 (e2.gib.trans h2)
  · intro u hu q hq
    rw [c6]; exact b13 u hu q (by rw [hph1 u hu]; exact hq)
  · intro q hq
    rw [c6, b14 q (fun u hu => by rw [hph1 u hu]; exact hq u hu)]
    apply a7
    intro u hu hd b base h1 h2 h3 h4
    exact hq u hu (mem_payload_handles.2 ⟨hd, b, base, h1, h2, h3, h4⟩)
  · refine ⟨fun u => if u ∈ Z then observe s1 (payload_handles s1 u) else [], ?_, ?_⟩
    · intro u o ho
      simp only at ho
      by_cases hu : u ∈ Z
      · rw [if_pos hu] at ho
        unfold observe at ho
        obtain ⟨q, hq, rfl⟩ := List.mem_map.1 ho
        obtain ⟨ip, e1, e2⟩ := hnil1 u hu q hq
        rw [e1]; exact e2
      · rw [if_neg hu] at ho; simp at ho
    · rw [c8, b10, a5]
      congr 2
      apply List.map_congr_left
      intro u hu
      simp only
      rw [if_pos hu]

theorem cleanup_ok {s : Heap} {exI exR : Option Nat} {Z : List Nat}
    (nrf : Nat → Nat → Heap → Option Heap)
    (hinv : inv s exI exR) (hnd : Z.Nodup) (hdead : dead_closed s Z)
    (hex : excluded s exI Z) :
    ∃ s1, cleanup_unreachable_nodes nrf Z s = some s1 ∧ inv s1 exI exR ∧
      collected Z s s1 := by
  obtain ⟨s3, a, b, c, _⟩ := cleanup_passes nrf hinv hnd hdead hex
  exact ⟨s3, a, b, c⟩

theorem handle_of_bp {s : Heap} {exI exR : Option Nat} (hi : inv_core s exI exR)
    {x P : Nat} {hd : root_ptr_header_block_base} (hx : s.headers x = some hd)
    (hP : P ∈ hd.back_pointers) :
    ∃ q iq base, s.iptrs q = some iq ∧ some q ≠ exI ∧ iq.header = some x ∧
      s.bases iq.base = some base ∧ base.self_header = some P ∧ q ∈ base.pointers := by
  have hc : 0 < hd.back_pointers.count P := List.count_pos_iff.2 hP
  rw [hi.bp_count x hd hx P] at hc
  obtain ⟨q, hq, hf⟩ := exists_of_count_upto_pos hc
  rw [iptr_targets_from_edge] at hf
  unfold iptr_edge at hf
  by_cases hqe : some q = exI
  · rw [if_pos hqe] at hf; cases hf
  · rw [if_neg hqe] at hf
    cases hiq : s.iptrs q with
    | none => rw [hiq] at hf; cases hf
    | some iq =>
      rw [hiq] at hf; simp only at hf
      cases hh : iq.header with
      | none => rw [hh] at hf; cases hf
      | some t =>
        rw [hh] at hf; simp only [Option.some.injEq, Prod.mk.injEq] at hf
        obtain ⟨base, hb, hqm⟩ := hi.base_of_ptr q iq hiq hqe
        rw [hb] at hf
        exact ⟨q, iq, base, hiq, hqe, by rw [hh, hf.1], hb, hf.2, hqm⟩

theorem graph_ok_of_inv {s : Heap} {exI exR : Option Nat} (hinv : inv s exI exR)
    (hext : ∀ p ip t, s.iptrs p = some ip → some p = exI → ip.header = some t →
      ∃ hd, s.headers t = some hd) : graph_ok s := by
  refine ⟨hinv.core.header_lt, ?_, ?_, ?_, ?_⟩
  · intro h hd hx y hy
    obtain ⟨q, iq, base, e1, e2, e3, e4, e5, e6⟩ := handle_of_bp hinv.core hx hy
    obtain ⟨hdy, f1, _⟩ := hinv.core.header_of_base iq.base base y e4 e5
    exact ⟨hdy, f1⟩
  · intro h hd b hx hg
    obtain ⟨base, e1, _⟩ := hinv.header_base h hd b hx (by simp) hg
    exact ⟨base, e1⟩
  · intro b base hb p hp
    obtain ⟨ip, e1, _⟩ := hinv.core.ptr_of_base b base hb p hp
    exact ⟨ip, e1⟩
  · intro p ip t hp ht
    by_cases hpe : some p = exI
    · exact hext p ip t hp hpe ht
    · exact hinv.core.target_live p ip t hp hpe ht

/-- Every header that has lost its owner lies below a member of a closed set whose children
are classified, hence is in the set. -/
theorem descend {s : Heap} {exI exR : Option Nat} (hi : inv_core s exI exR) {U : List Nat}
    (hcl : ∀ x ∈ U, children_classified s U x) {x t : Nat} (hp : bp_path s x t)
    (ht : t ∈ U) (hx : ¬ has_owner s x) : x ∈ U := by
  induction hp using Relation.ReflTransGen.head_induction_on with
  | refl => exact ht
  | head he hp2 ih =>
    rename_i a c
    have hc : c ∈ U := ih (fun h => hx (has_owner_of_edge he h))
    obtain ⟨hd, h1, h2⟩ := he
    obtain ⟨q, iq, base, e1, e2, e3, e4, e5, e6⟩ := handle_of_bp hi h1 h2
    obtain ⟨hdc, f1, f2⟩ := hi.header_of_base iq.base base c e4 e5
    rcases hcl c hc hdc iq.base base f1 f2 e4 q e6 iq a e1 e3 with h | h
    · exact h
    · exact absurd h hx

theorem survive_has_owner {s s1 : Heap} {U : List Nat} (hdead : dead_closed s U)
    (hcol : collected U s s1) {x z : Nat} (hp : bp_path s x z) (hz : owned_at s z)
    (hx : x ∉ U) : has_owner s1 x := by
  induction hp using Relation.ReflTransGen.head_induction_on with
  | refl =>
    obtain ⟨hd, h1, h2⟩ := hz
    obtain ⟨hd1, e1, e2⟩ := hcol.kept z hd hx h1
    exact has_owner_of_owned ⟨hd1, e1, e2.owned.trans h2⟩
  | head he hp2 ih =>
    rename_i a c
    have hc : c ∉ U := by
      intro hcu
      exact dead_closed_not_has_owner hdead hcu ⟨z, hp2, hz⟩
    obtain ⟨hd, h1, h2⟩ := he
    obtain ⟨hd1, e1, e2⟩ := hcol.kept a hd hx h1
    exact has_owner_of_edge ⟨hd1, e1, e2.bp_keep c h2 hc⟩ (ih hc)

theorem collect_ok {s : Heap} {exI exR : Option Nat} {S0 : List Nat}
    (nrf : Nat → Nat → Heap → Option Heap)
    (hinv : inv s exI exR)
    (hext : ∀ p ip t, s.iptrs p = some ip → some p = exI → ip.header = some t →
      ∃ hd, s.headers t = some hd)
    (hexh : ∀ p, exI = some p → ∀ u hd b base, s.headers u = some hd →
      hd.get_internal_base = some b → s.bases b = some base → p ∈ base.pointers →
      has_owner s u)
    (hs0 : S0.Sorted (· ≤ ·)) (hn0 : S0.Nodup) (hd0 : dead_closed s S0)
    (hcomplete : ∀ x hd, s.headers x = some hd →
      has_owner s x ∨ ∃ t ∈ S0, bp_path s x t) :
    ∃ U s1, find_unreachable_children s S0 = some U ∧
      cleanup_unreachable_nodes nrf U s = some s1 ∧ inv s1 exI exR ∧ all_owned s1 ∧
      collected U s s1 ∧ U.Nodup ∧ dead_closed s U ∧ (∀ x ∈ S0, x ∈ U) ∧
      passes nrf U s s1 := by
  obtain ⟨U, a1, a2, a3, a4, a5, a6⟩ :=
    find_unreachable_children_spec (graph_ok_of_inv hinv hext) hs0 hn0 hd0
  have hex : excluded s exI U := by
    intro p hp u hu hd b base h1 h2 h3 h4
    exact dead_closed_not_has_owner a4 hu (hexh p hp u hd b base h1 h2 h3 h4)
  obtain ⟨s1, b1, b2, b3, b4⟩ := cleanup_passes nrf hinv a3 a4 hex
  refine ⟨U, s1, a1, b1, b2, ?_, b3, a3, a4, a5, b4⟩
  intro x hd1 hx
  have hxu : x ∉ U := fun h => by rw [b3.freed x h] at hx; cases hx
  cases h0 : s.headers x with
  | none => rw [b3.headers_none x h0] at hx; cases hx
  | some hd =>
    have hown : has_owner s x := by
      by_contra hno
      rcases hcomplete x hd h0 with h | ⟨t, ht, hp⟩
      · exact hno h
      · exact hxu (descend hinv.core a6 hp (a5 t ht) hno)
    obtain ⟨z, hp, hz⟩ := hown
    exact survive_has_owner a4 b3 hp hz hxu

theorem count_upto_mono {n : Nat} {f g : Nat → Bool} (h : ∀ x, f x = true → g x = true) :
    count_upto n f ≤ count_upto n g := by
  induction n with
  | zero => simp [count_upto]
  | succ n ih =>
    rw [count_upto_succ, count_upto_succ]
    by_cases hf : f n = true
    · rw [hf, h n hf]; omega
    · simp only [Bool.not_eq_true] at hf; rw [hf]; simp; omega

theorem iptr_count_bound_le (s : Heap) (ex : Option Nat) (t : Nat) :
    iptr_count_bound s ex t ≤ iptr_count s ex t := by
  unfold iptr_count_bound iptr_count
  apply count_upto_mono
  intro x hx
  unfold iptr_targets_bound at hx
  simp only [Bool.and_eq_true] at hx
  exact hx.1

theorem collected_refl (s : Heap) : collected [] s s := by
  refine ⟨rfl, rfl, rfl, rfl, rfl, by simp, fun x hd _ hx => ⟨hd, hx, hdr_step_refl [] hd⟩,
    fun _ h => h, by simp, fun _ _ => rfl, by simp, fun _ _ => rfl, fun _ => [], by simp, by simp⟩

theorem unseen_le (N : Nat) (seen : List Nat) : unseen N seen ≤ N := by
  unfold unseen
  calc (Finset.range N \ seen.toFinset).card ≤ (Finset.range N).card :=
        Finset.card_le_card Finset.sdiff_subset
    _ = N := Finset.card_range N

theorem all_owned_of_top {s : Heap} {T : Nat}
    (hcomplete : ∀ x hd, s.headers x = some hd → has_owner s x ∨ bp_path s x T)
    (hT : has_owner s T) : all_owned s := by
  intro x hd hx
  rcases hcomplete x hd hx with h | h
  · exact h
  · exact has_owner_of_path h hT

theorem free_self_ok {s : Heap} {exI exR : Option Nat} {T : Nat}
    {hd : root_ptr_header_block_base} (nrf : Nat → Nat → Heap → Option Heap)
    (hinv : inv s exI exR) (hT : s.headers T = some hd) (hz : hd.internal_count = 0)
    (hext : ∀ p ip t, s.iptrs p = some ip → some p = exI → ip.header = some t →
      ∃ hd, s.headers t = some hd)
    (hexh : ∀ p, exI = some p → ∀ u hd b base, s.headers u = some hd →
      hd.get_internal_base = some b → s.bases b = some base → p ∈ base.pointers →
      has_owner s u)
    (hcomplete : ∀ x hd, s.headers x = some hd → has_owner s x ∨ bp_path s x T) :
    ∃ U s2, free_self nrf T s = some s2 ∧ ran nrf T s s2 U ∧
      dec_result T s s2 exI exR U := by
  have hic := hinv.core.internal_count_eq T hd hT
  have hbl := hinv.core.bp_length T hd hT
  have hle := iptr_count_bound_le s exI T
  have hoc : hd.owner_count = 0 := by omega
  have hbp : hd.back_pointers = [] := List.eq_nil_of_length_eq_zero (by omega)
  have hno : is_owned hd = false := (is_owned_false_iff hd).2 ⟨hoc, by omega⟩
  have hdead : dead_closed s [T] := by
    intro u hu
    simp only [List.mem_singleton] at hu; subst hu
    exact ⟨hd, hT, hno, by rw [hbp]; simp⟩
  have hnoT : ¬ has_owner s T := dead_closed_not_has_owner hdead (by simp)
  obtain ⟨U, s2, a1, a2, a3, a4, a5, a6, a7, a8, a9⟩ :=
    collect_ok nrf hinv hext hexh (by simp) (by simp) hdead
      (fun x hdx hx => (hcomplete x hdx hx).imp id (fun h => ⟨T, by simp, h⟩))
  refine ⟨U, s2, ?_, Or.inr ⟨a8 T (by simp), a2, a9⟩, a3, a4, a5, a6, a7,
    fun h => absurd h hnoT, fun _ => a8 T (by simp)⟩
  unfold free_self
  rw [hT]; simp only
  rw [(hinv.flags T hd hT (by simp)).1]
  simp only [Bool.false_eq_true, if_false]
  rw [add_nil, a1]; simp only; exact a2

theorem check_reachable_ok {s : Heap} {exI exR : Option Nat} {T : Nat}
    {hd : root_ptr_header_block_base} (nrf : Nat → Nat → Heap → Option Heap)
    (hinv : inv s exI exR) (hT : s.headers T = some hd)
    (hext : ∀ p ip t, s.iptrs p = some ip → some p = exI → ip.header = some t →
      ∃ hd, s.headers t = some hd)
    (hexh : ∀ p, exI = some p → ∀ u hd b base, s.headers u = some hd →
      hd.get_internal_base = some b → s.bases b = some base → p ∈ base.pointers →
      has_owner s u)
    (hcomplete : ∀ x hd, s.headers x = some hd → has_owner s x ∨ bp_path s x T) :
    ∃ U s2, check_reachable nrf T s = some s2 ∧ ran nrf T s s2 U ∧
      dec_result T s s2 exI exR U := by
  have hg := graph_ok_of_inv hinv hext
  have hsame : has_owner s T → dec_result T s s exI exR [] := fun h =>
    ⟨hinv, all_owned_of_top hcomplete h, collected_refl s, by simp, by intro u hu; simp at hu,
      fun _ => ⟨rfl, rfl⟩, fun hn => absurd h hn⟩
  unfold check_reachable
  rw [hT]; simp only
  by_cases c1 : is_owned hd = true
  · rw [if_pos c1]
    exact ⟨[], s, rfl, Or.inl ⟨rfl, rfl⟩, hsame (has_owner_of_owned ⟨hd, hT, c1⟩)⟩
  · rw [if_neg c1]
    obtain ⟨w, r1, r2, r3, r4, r5, r6, r7, r8⟩ :=
      check_reachable_loop_spec s none [T] [T] s.next_header hg.header_lt hg.bp_live
        (s.next_header + [T].length + 1) [T] [T] none
        (by simp) (by intro x hx; simp at hx; subst hx; exact ⟨hd, hT⟩)
        (by intro x hx; exact Or.inl hx)
        (by intro x hx; left; rcases hx with h | h <;> exact h)
        (by intro x hx; simp at hx; subst hx; exact ⟨x, by simp, Relation.ReflTransGen.refl⟩)
        (by intro x hx; exact Or.inl hx) (by intro v hv; cases hv)
        (by have := unseen_le s.next_header [T]; simp; omega)
    unfold check_reachable_static
    rw [add_nil, r1]; simp only
    by_cases c2 : w.result = true
    · rw [if_pos c2]
      obtain ⟨i, hi, ho⟩ := r7 c2
      simp at hi; subst hi
      exact ⟨[], s, rfl, Or.inl ⟨rfl, rfl⟩, hsame ho⟩
    · rw [if_neg c2]
      simp only [Bool.not_eq_true] at c2
      obtain ⟨q1, q2, q3⟩ := r8 c2
      have hdead : dead_closed s w.seen_parents := by
        intro u hu
        rcases q3 u (Or.inl hu) with h | ⟨hdu, h1, h2, h3⟩
        · simp [opt_contains] at h
        · refine ⟨hdu, h1, h2, fun y hy => ?_⟩
          rcases h3 y hy with h | h
          · simp [opt_contains] at h
          · exact h
      have hTin : T ∈ w.seen_parents := r3 T (by simp)
      have hnoT : ¬ has_owner s T := dead_closed_not_has_owner hdead hTin
      obtain ⟨U, s2, a1, a2, a3, a4, a5, a6, a7, a8, a9⟩ :=
        collect_ok nrf hinv hext hexh (sorted_le_of_lt r2)
          (List.Sorted.nodup r2) hdead
          (fun x hdx hx => (hcomplete x hdx hx).imp id (fun h => ⟨T, hTin, h⟩))
      rw [a1]; simp only
      exact ⟨U, s2, a2, Or.inr ⟨a8 T hTin, a2, a9⟩, a3, a4, a5, a6, a7,
        fun h => absurd h hnoT, fun _ => a8 T hTin⟩

theorem dec_internal_count_run {s : Heap} {exI exR : Option Nat} {T : Nat}
    {hd hd1 : root_ptr_header_block_base} (nrf : Nat → Nat → Heap → Option Heap)
    (hT : s.headers T = some hd) (hpos : 1 ≤ hd.internal_count)
    (hhd1 : hd1 = { hd with internal_count := hd.internal_count - 1 })
    (hinv : inv (s.set_header T (some hd1)) exI exR)
    (hext : ∀ p ip t, s.iptrs p = some ip → some p = exI → ip.header = some t →
      ∃ hd, (s.set_header T (some hd1)).headers t = some hd)
    (hexh : ∀ p, exI = some p → ∀ u hd b base,
      (s.set_header T (some hd1)).headers u = some hd →
      hd.get_internal_base = some b → s.bases b = some base → p ∈ base.pointers →
      has_owner (s.set_header T (some hd1)) u)
    (hcomplete : ∀ x hd, (s.set_header T (some hd1)).headers x = some hd →
      has_owner (s.set_header T (some hd1)) x ∨ bp_path (s.set_header T (some hd1)) x T) :
    ∃ U s2, dec_internal_count nrf T s = some s2 ∧
      ran nrf T (s.set_header T (some hd1)) s2 U ∧
      dec_result T (s.set_header T (some hd1)) s2 exI exR U := by
  have hT1 : (s.set_header T (some hd1)).headers T = some hd1 := by simp
  unfold dec_internal_count
  rw [hT]; simp only
  rw [dec_pos hpos, ← hhd1]
  by_cases c1 : hd.internal_count - 1 = 0
  · rw [if_pos c1]
    exact free_self_ok nrf hinv hT1 (by rw [hhd1]; exact c1) hext hexh hcomplete
  · rw [if_neg c1]
    by_cases c2 : (!hd.unreachable && decide (hd.owner_count = 0)) = true
    · rw [if_pos c2]
      exact check_reachable_ok nrf hinv hT1 hext hexh hcomplete
    · rw [if_neg c2]
      have hun : hd1.unreachable = false := (hinv.flags T hd1 hT1 (by simp)).1
      have hun0 : hd.unreachable = false := by rw [hhd1] at hun; exact hun
      have hoc : hd1.owner_count ≠ 0 := by
        rw [hhd1]; simp only
        intro h; apply c2; simp [hun0, h]
      have hown : has_owner (s.set_header T (some hd1)) T :=
        has_owner_of_owned ⟨hd1, hT1, by unfold is_owned; simp [hoc]⟩
      exact ⟨[], _, rfl, Or.inl ⟨rfl, rfl⟩, hinv, all_owned_of_top hcomplete hown,
        collected_refl _, by simp,
        by intro u hu; simp at hu, fun _ => ⟨rfl, rfl⟩, fun hn => absurd hown hn⟩

theorem dec_internal_count_ok {s : Heap} {exI exR : Option Nat} {T : Nat}
    {hd hd1 : root_ptr_header_block_base} (nrf : Nat → Nat → Heap → Option Heap)
    (hT : s.headers T = some hd) (hpos : 1 ≤ hd.internal_count)
    (hhd1 : hd1 = { hd with internal_count := hd.internal_count - 1 })
    (hinv : inv (s.set_header T (some hd1)) exI exR)
    (hext : ∀ p ip t, s.iptrs p = some ip → some p = exI → ip.header = some t →
      ∃ hd, (s.set_header T (some hd1)).headers t = some hd)
    (hexh : ∀ p, exI = some p → ∀ u hd b base,
      (s.set_header T (some hd1)).headers u = some hd →
      hd.get_internal_base = some b → s.bases b = some base → p ∈ base.pointers →
      has_owner (s.set_header T (some hd1)) u)
    (hcomplete : ∀ x hd, (s.set_header T (some hd1)).headers x = some hd →
      has_owner (s.set_header T (some hd1)) x ∨ bp_path (s.set_header T (some hd1)) x T) :
    ∃ U s2, dec_internal_count nrf T s = some s2 ∧
      dec_result T (s.set_header T (some hd1)) s2 exI exR U := by
  obtain ⟨U, s2, a1, _, a2⟩ := dec_internal_count_run nrf hT hpos hhd1 hinv hext hexh hcomplete
  exact ⟨U, s2, a1, a2⟩

theorem inv_core_retarget {s s1 : Heap} {exI exI1 exR exR1 : Option Nat} {p : Nat}
    (hi : inv_core s exI exR)
    (hnh : s1.next_header = s.next_header) (hni : s1.next_iptr = s.next_iptr)
    (hplt : p < s.next_iptr)
    (he : ∀ q, q ≠ p → iptr_edge s1 exI1 q = iptr_edge s exI q)
    (h1 : ∀ x hd, s.headers x = some hd →
      ∃ hd1, s1.headers x = some hd1 ∧ hdr_retarget s s1 exI exI1 p x hd hd1)
    (h2 : ∀ x, s.headers x = none → s1.headers x = none)
    (hoc : ∀ x hd1, s1.headers x = some hd1 → hd1.owner_count = root_count s1 exR1 x)
    (hbl : ∀ b base, s1.bases b = some base → b < s1.next_base)
    (hil : ∀ p ip, s1.iptrs p = some ip → p < s1.next_iptr)
    (hrl : ∀ r rp, s1.roots r = some rp → r < s1.next_root)
    (hhob : ∀ b base h, s1.bases b = some base → base.self_header = some h →
      ∃ base0, s.bases b = some base0 ∧ base0.self_header = some h)
    (hpob : ∀ b base, s1.bases b = some base → ∀ p ∈ base.pointers,
      ∃ ip, s1.iptrs p = some ip ∧ ip.base = b)
    (hnd : ∀ b base, s1.bases b = some base → base.pointers.Nodup)
    (hbop : ∀ p ip, s1.iptrs p = some ip → some p ≠ exI1 →
      ∃ base, s1.bases ip.base = some base ∧ p ∈ base.pointers)
    (htl : ∀ p ip t, s1.iptrs p = some ip → some p ≠ exI1 → ip.header = some t →
      ∃ hd, s1.headers t = some hd)
    (hrtl : ∀ r rp t, s1.roots r = some rp → some r ≠ exR1 → rp.header = some t →
      ∃ hd, s1.headers t = some hd) :
    inv_core s1 exI1 exR1 := by
  have back : ∀ x hd1, s1.headers x = some hd1 →
      ∃ hd, s.headers x = some hd ∧ hdr_retarget s s1 exI exI1 p x hd hd1 := by
    intro x hd1 hx
    cases h : s.headers x with
    | none => rw [h2 x h] at hx; cases hx
    | some hd =>
      obtain ⟨hd2, e1, e2⟩ := h1 x hd h
      rw [hx] at e1; cases e1
      exact ⟨hd, rfl, e2⟩
  have cnt : ∀ (f g : Nat → Bool), (∀ q, q ≠ p → g q = f q) →
      count_upto s.next_iptr g + (if f p then 1 else 0) =
        count_upto s.next_iptr f + (if g p then 1 else 0) := by
    intro f g hfg
    exact count_upto_update (fun x hx => (hfg x hx).symm) hplt
  constructor
  · intro h hd1 hx
    obtain ⟨hd, e1, _⟩ := back h hd1 hx
    rw [hnh]; exact hi.header_lt h hd e1
  · exact hbl
  · exact hil
  · exact hrl
  · intro h hd1 hx
    obtain ⟨hd, e1, e2⟩ := back h hd1 hx
    exact e2.sorted
  · intro b base h hx hs
    obtain ⟨base0, f0, f1⟩ := hhob b base h hx hs
    obtain ⟨hd, e1, e2⟩ := hi.header_of_base b base0 h f0 f1
    obtain ⟨hd1, f1, f2⟩ := h1 h hd e1
    exact ⟨hd1, f1, f2.gib.trans e2⟩
  · exact hpob
  · exact hnd
  · exact hbop
  · exact htl
  · exact hrtl
  · intro t hd1 hx P
    obtain ⟨hd, e1, e2⟩ := back t hd1 hx
    have := cnt (iptr_targets_from s exI t P) (iptr_targets_from s1 exI1 t P) (fun q hq => by
      rw [Bool.eq_iff_iff, iptr_targets_from_edge, iptr_targets_from_edge, he q hq])
    have hc := hi.bp_count t hd e1 P
    have hb := e2.bp P
    unfold iptr_count_from at hc ⊢
    rw [hni]; omega
  · intro t hd1 hx
    obtain ⟨hd, e1, e2⟩ := back t hd1 hx
    have := cnt (iptr_targets_bound s exI t) (iptr_targets_bound s1 exI1 t) (fun q hq => by
      rw [Bool.eq_iff_iff, iptr_targets_bound_edge, iptr_targets_bound_edge, he q hq])
    have hc := hi.bp_length t hd e1
    have hb := e2.len
    unfold iptr_count_bound at hc ⊢
    rw [hni]; omega
  · exact hoc
  · intro t hd1 hx
    obtain ⟨hd, e1, e2⟩ := back t hd1 hx
    have := cnt (iptr_targets s exI t) (iptr_targets s1 exI1 t) (fun q hq => by
      rw [Bool.eq_iff_iff, iptr_targets_edge, iptr_targets_edge, he q hq])
    have hc := hi.internal_count_eq t hd e1
    have hb := e2.ic
    have hle := e2.oc_le
    unfold iptr_count at hc ⊢
    rw [hni]; omega

/-- Transfer of the invariant when only roots and the two counters of header blocks change
(by the same amount). -/
theorem inv_core_reroot {s s1 : Heap} {exI exI1 exR exR1 : Option Nat}
    (hi : inv_core s exI exR)
    (hnh : s1.next_header = s.next_header) (hni : s1.next_iptr = s.next_iptr)
    (he : ∀ q, iptr_edge s1 exI1 q = iptr_edge s exI q)
    (h1 : ∀ x hd, s.headers x = some hd →
      ∃ hd1, s1.headers x = some hd1 ∧ hd1.get_internal_base = hd.get_internal_base ∧
        hd1.back_pointers = hd.back_pointers ∧
        hd1.internal_count + hd.owner_count = hd.internal_count + hd1.owner_count)
    (h2 : ∀ x, s.headers x = none → s1.headers x = none)
    (hoc : ∀ x hd1, s1.headers x = some hd1 → hd1.owner_count = root_count s1 exR1 x)
    (hbl : ∀ b base, s1.bases b = some base → b < s1.next_base)
    (hil : ∀ p ip, s1.iptrs p = some ip → p < s1.next_iptr)
    (hrl : ∀ r rp, s1.roots r = some rp → r < s1.next_root)
    (hhob : ∀ b base h, s1.bases b = some base → base.self_header = some h →
      ∃ base0, s.bases b = some base0 ∧ base0.self_header = some h)
    (hpob : ∀ b base, s1.bases b = some base → ∀ p ∈ base.pointers,
      ∃ ip, s1.iptrs p = some ip ∧ ip.base = b)
    (hnd : ∀ b base, s1.bases b = some base → base.pointers.Nodup)
    (hbop : ∀ p ip, s1.iptrs p = some ip → some p ≠ exI1 →
      ∃ base, s1.bases ip.base = some base ∧ p ∈ base.pointers)
    (htl : ∀ p ip t, s1.iptrs p = some ip → some p ≠ exI1 → ip.header = some t →
      ∃ hd, s1.headers t = some hd)
    (hrtl : ∀ r rp t, s1.roots r = some rp → some r ≠ exR1 → rp.header = some t →
      ∃ hd, s1.headers t = some hd) :
    inv_core s1 exI1 exR1 := by
  have back : ∀ x hd1, s1.headers x = some hd1 →
      ∃ hd, s.headers x = some hd ∧ hd1.get_internal_base = hd.get_internal_base ∧
        hd1.back_pointers = hd.back_pointers ∧
        hd1.internal_count + hd.owner_count = hd.internal_count + hd1.owner_count := by
    intro x hd1 hx
    cases h : s.headers x with
    | none => rw [h2 x h] at hx; cases hx
    | some hd =>
      obtain ⟨hd2, e1, e2⟩ := h1 x hd h
      rw [hx] at e1; cases e1
      exact ⟨hd, rfl, e2⟩
  obtain ⟨c1, c2, c3⟩ := counts_congr hni he
  constructor
  · intro h hd1 hx
    obtain ⟨hd, e1, _⟩ := back h hd1 hx
    rw [hnh]; exact hi.header_lt h hd e1
  · exact hbl
  · exact hil
  · exact hrl
  · intro h hd1 hx
    obtain ⟨hd, e1, e2, e3, e4⟩ := back h hd1 hx
    rw [e3]; exact hi.bp_sorted h hd e1
  · intro b base h hx hs
    obtain ⟨base0, f0, f1⟩ := hhob b base h hx hs
    obtain ⟨hd, e1, e2⟩ := hi.header_of_base b base0 h f0 f1
    obtain ⟨hd1, f1, f2, _⟩ := h1 h hd e1
    exact ⟨hd1, f1, f2.trans e2⟩
  · exact hpob
  · exact hnd
  · exact hbop
  · exact htl
  · exact hrtl
  · intro t hd1 hx P
    obtain ⟨hd, e1, e2, e3, e4⟩ := back t hd1 hx
    rw [e3, c2]; exact hi.bp_count t hd e1 P
  · intro t hd1 hx
    obtain ⟨hd, e1, e2, e3, e4⟩ := back t hd1 hx
    rw [e3, c3]; exact hi.bp_length t hd e1
  · exact hoc
  · intro t hd1 hx
    obtain ⟨hd, e1, e2, e3, e4⟩ := back t hd1 hx
    have := hi.internal_count_eq t hd e1
    rw [c1]; omega

/-- After an edge or an owner of `T` has been removed, every header still has an owner or lies
below `T`. -/
theorem complete_after_removal {s s1 : Heap} {T : Nat}
    (hall : all_owned s)
    (h1 : ∀ x hd, x ≠ T → s.headers x = some hd → ∃ hd1, s1.headers x = some hd1 ∧
      (∀ y ∈ hd.back_pointers, y ∈ hd1.back_pointers) ∧
      (is_owned hd = true → is_owned hd1 = true))
    (h2 : ∀ x hd1, s1.headers x = some hd1 → ∃ hd, s.headers x = some hd) :
    ∀ x hd1, s1.headers x = some hd1 → has_owner s1 x ∨ bp_path s1 x T := by
  intro x hd1 hx
  obtain ⟨hd, h0⟩ := h2 x hd1 hx
  obtain ⟨z, hp, hz⟩ := hall x hd h0
  clear hx h0 hd hd1
  induction hp using Relation.ReflTransGen.head_induction_on with
  | refl =>
    by_cases hzt : z = T
    · subst hzt; exact Or.inr Relation.ReflTransGen.refl
    · obtain ⟨hd, e1, e2⟩ := hz
      obtain ⟨hd1, f1, _, f3⟩ := h1 z hd hzt e1
      exact Or.inl (has_owner_of_owned ⟨hd1, f1, f3 e2⟩)
  | head he hp2 ih =>
    rename_i a c
    by_cases hat : a = T
    · subst hat; exact Or.inr Relation.ReflTransGen.refl
    · obtain ⟨hd, e1, e2⟩ := he
      obtain ⟨hd1, f1, f2, _⟩ := h1 a hd hat e1
      have hedge : bp_edge s1 a c := ⟨hd1, f1, f2 c e2⟩
      rcases ih with h | h
      · exact Or.inl (has_owner_of_edge hedge h)
      · exact Or.inr (Relation.ReflTransGen.head hedge h)

theorem root_targets_excl (s : Heap) (r t x : Nat) :
    root_targets s (some r) t x = if x = r then false else root_targets s none t x := by
  unfold root_targets
  by_cases h : x = r
  · subst h; simp
  · have : some x ≠ some r := fun e => h (Option.some.inj e)
    simp [h, this]

theorem root_count_excl {s : Heap} {exI exR : Option Nat} (hi : inv_core s exI exR) {r : Nat}
    {rp : root_ptr} (hr : s.roots r = some rp) (t : Nat) :
    root_count s (some r) t + (if rp.header = some t then 1 else 0) = root_count s none t := by
  unfold root_count
  have := count_upto_update (n := s.next_root) (f := root_targets s none t)
    (g := root_targets s (some r) t) (i := r)
    (fun x hx => by rw [root_targets_excl]; simp [hx]) (hi.root_lt r rp hr)
  rw [root_targets_excl] at this
  simp only [if_true, Bool.false_eq_true, if_false, add_zero] at this
  have hfr : root_targets s none t r = decide (rp.header = some t) := by
    unfold root_targets; rw [hr]; simp
  rw [hfr] at this
  by_cases h : rp.header = some t
  · simp only [h, decide_True, if_true] at this ⊢; omega
  · simp only [h, decide_False, Bool.false_eq_true, if_false] at this ⊢; omega

theorem remove_owner_run {s : Heap} {r T : Nat} {rp : root_ptr}
    {hd : root_ptr_header_block_base}
    (hinv : inv s none none) (hall : all_owned s)
    (hr : s.roots r = some rp) (hh : rp.header = some T) (hT : s.headers T = some hd) :
    1 ≤ hd.owner_count ∧ 1 ≤ hd.internal_count ∧
    inv (s.released T) none (some r) ∧
    ∃ U s2, remove_owner T s = some s2 ∧
      ran (not_reachable_from_depth s.next_header) T (s.released T) s2 U ∧
      dec_result T (s.released T) s2 none (some r) U := by
  have hrc := root_count_excl hinv.core hr T
  rw [if_pos hh] at hrc
  have hoc := hinv.core.owner_count_eq T hd hT
  have hic := hinv.core.internal_count_eq T hd hT
  have h1 : 1 ≤ hd.owner_count := by omega
  have h2 : 1 ≤ hd.internal_count := by omega
  refine ⟨h1, h2, ?_⟩
  obtain ⟨hd1, hhd1⟩ : ∃ hd1 : root_ptr_header_block_base, hd1 = { hd with
      owner_count := hd.owner_count - 1, internal_count := hd.internal_count - 1 } := ⟨_, rfl⟩
  have hrel : s.released T = s.set_header T (some hd1) := by
    unfold Heap.released; rw [hT]; simp only; rw [dec_pos h1, dec_pos h2, hhd1]
  rw [hrel]
  have e_oc : hd1.owner_count = hd.owner_count - 1 := by rw [hhd1]
  have e_ic : hd1.internal_count = hd.internal_count - 1 := by rw [hhd1]
  have e_bp : hd1.back_pointers = hd.back_pointers := by rw [hhd1]
  have e_un : hd1.unreachable = hd.unreachable := by rw [hhd1]
  have e_de : hd1.deleted = hd.deleted := by rw [hhd1]
  have e_gib : hd1.get_internal_base = hd.get_internal_base := by rw [hhd1]
  obtain ⟨s1, hs1⟩ : ∃ s1, s1 = s.set_header T (some hd1) := ⟨_, rfl⟩
  have g_h : ∀ x, x ≠ T → s1.headers x = s.headers x := by
    intro x hx; rw [hs1]; simp [Function.update_noteq hx]
  have g_hT : s1.headers T = some hd1 := by rw [hs1]; simp
  have g_b : s1.bases = s.bases := by rw [hs1]; rfl
  have g_p : s1.iptrs = s.iptrs := by rw [hs1]; rfl
  have g_r : s1.roots = s.roots := by rw [hs1]; rfl
  have g_nr : s1.next_root = s.next_root := by rw [hs1]; rfl
  have hlive : ∀ x hdx, s.headers x = some hdx → ∃ hd1, s1.headers x = some hd1 := by
    intro x hdx hx
    by_cases hxt : x = T
    · subst hxt; exact ⟨hd1, g_hT⟩
    · exact ⟨hdx, by rw [g_h x hxt]; exact hx⟩
  have hinv1 : inv s1 none (some r) := by
    refine ⟨?_, ?_, ?_⟩
    · refine inv_core_reroot hinv.core (by rw [hs1]; rfl) (by rw [hs1]; rfl)
        (fun q => by unfold iptr_edge; rw [g_p, g_b]) ?_ ?_ ?_
        (by rw [g_b, hs1]; exact hinv.core.base_lt) (by rw [g_p, hs1]; exact hinv.core.iptr_lt)
        (by rw [g_r, hs1]; exact hinv.core.root_lt)
        (fun b base h hx hs => ⟨base, by rw [← g_b]; exact hx, hs⟩)
        (by rw [g_b, g_p]; exact hinv.core.ptr_of_base)
        (by rw [g_b]; exact hinv.core.pointers_nodup)
        (by rw [g_b, g_p]; exact hinv.core.base_of_ptr) ?_ ?_
      · intro x hdx hx
        by_cases hxt : x = T
        · subst hxt; rw [hT] at hx; cases hx
          exact ⟨hd1, g_hT, e_gib, e_bp, by omega⟩
        · exact ⟨hdx, by rw [g_h x hxt]; exact hx, rfl, rfl, rfl⟩
      · intro x hx
        by_cases hxt : x = T
        · subst hxt; rw [hT] at hx; cases hx
        · rw [g_h x hxt]; exact hx
      · intro x hdx hx
        have hrx := root_count_excl hinv.core hr x
        have hrc1 : root_count s1 (some r) x = root_count s (some r) x := by
          unfold root_count root_targets; rw [g_nr, g_r]
        rw [hrc1]
        by_cases hxt : x = T
        · subst hxt; rw [g_hT] at hx; cases hx
          rw [if_pos hh] at hrx; omega
        · rw [g_h x hxt] at hx
          have : ¬ rp.header = some x := by rw [hh]; intro e; exact hxt (Option.some.inj e).symm
          rw [if_neg this] at hrx
          rw [hinv.core.owner_count_eq x hdx hx]; omega
      · intro p ip t hp hne ht
        rw [g_p] at hp
        obtain ⟨hdt, e1⟩ := hinv.core.target_live p ip t hp hne ht
        exact hlive t hdt e1
      · intro r0 rp0 t hp hne ht
        rw [g_r] at hp
        obtain ⟨hdt, e1⟩ := hinv.core.root_target_live r0 rp0 t hp (by simp) ht
        exact hlive t hdt e1
    · intro x hdx hx _
      by_cases hxt : x = T
      · subst hxt; rw [g_hT] at hx; cases hx
        rw [e_un, e_de]; exact hinv.flags x hd hT (by simp)
      · rw [g_h x hxt] at hx; exact hinv.flags x hdx hx (by simp)
    · intro x hdx b hx _ hg
      rw [g_b]
      by_cases hxt : x = T
      · subst hxt; rw [g_hT] at hx; cases hx
        exact hinv.header_base x hd b hT (by simp) (e_gib ▸ hg)
      · rw [g_h x hxt] at hx; exact hinv.header_base x hdx b hx (by simp) hg
  have hcomp := complete_after_removal (T := T) hall
    (fun x hdx hxt hx => ⟨hdx, by rw [g_h x hxt]; exact hx, fun _ h => h, id⟩)
    (fun x hdx hx => by
      by_cases hxt : x = T
      · subst hxt; exact ⟨hd, hT⟩
      · rw [g_h x hxt] at hx; exact ⟨hdx, hx⟩)
  unfold remove_owner
  rw [hT]; simp only
  rw [dec_pos h1]
  obtain ⟨U, s2, a1, a3, a2⟩ := dec_internal_count_run
    (s := s.set_header T (some { hd with owner_count := hd.owner_count - 1 }))
    (T := T)
    (not_reachable_from_depth s.next_header)
    (show (s.set_header T (some { hd with owner_count := hd.owner_count - 1 })).headers T =
      some { hd with owner_count := hd.owner_count - 1 } by simp) h2 hhd1
    (by
      have : (s.set_header T (some { hd with owner_count := hd.owner_count - 1 })).set_header T
          (some hd1) = s1 := by rw [hs1]; unfold Heap.set_header; simp
      rw [this]; exact hinv1)
    (by intro p ip t _ h; cases h)
    (by intro p h; cases h)
    (by
      have : (s.set_header T (some { hd with owner_count := hd.owner_count - 1 })).set_header T
          (some hd1) = s1 := by rw [hs1]; unfold Heap.set_header; simp
      rw [this]; exact hcomp)
  have hst : (s.set_header T (some { hd with owner_count := hd.owner_count - 1 })).set_header T
      (some hd1) = s1 := by rw [hs1]; unfold Heap.set_header; simp
  rw [hst] at a2 a3
  rw [← hs1]
  exact ⟨hinv1, U, s2, a1, a3, a2⟩

theorem remove_owner_ok {s : Heap} {r T : Nat} {rp : root_ptr}
    {hd : root_ptr_header_block_base}
    (hinv : inv s none none) (hall : all_owned s)
    (hr : s.roots r = some rp) (hh : rp.header = some T) (hT : s.headers T = some hd) :
    1 ≤ hd.owner_count ∧ 1 ≤ hd.internal_count ∧
    ∃ U s2, remove_owner T s = some s2 ∧ dec_result T (s.released T) s2 none (some r) U := by
  obtain ⟨h1, h2, _, U, s2, a1, _, a2⟩ := remove_owner_run hinv hall hr hh hT
  exact ⟨h1, h2, U, s2, a1, a2⟩

/-- The released `root_ptr` is cleared or goes away. -/
theorem root_ex_elim {s : Heap} {r : Nat} {rp : root_ptr} {v : Option root_ptr}
    (hinv : inv s none (some r)) (hr : s.roots r = some rp)
    (hv : ∀ rp1, v = some rp1 → rp1.header = none) :
    inv (s.set_root r v) none none := by
  have g_r : ∀ q, q ≠ r → (s.set_root r v).roots q = s.roots q := by
    intro q hq; simp [Function.update_noteq hq]
  have g_rr : (s.set_root r v).roots r = v := by simp
  refine ⟨?_, hinv.flags, hinv.header_base⟩
  refine inv_core_reroot hinv.core rfl rfl (fun q => rfl)
    (fun x hd hx => ⟨hd, hx, rfl, rfl, rfl⟩) (fun x hx => hx) ?_ hinv.core.base_lt
    hinv.core.iptr_lt ?_ (fun b base h hx hs => ⟨base, hx, hs⟩) hinv.core.ptr_of_base
    hinv.core.pointers_nodup hinv.core.base_of_ptr hinv.core.target_live ?_
  · intro x hd1 hx
    rw [hinv.core.owner_count_eq x hd1 hx]
    unfold root_count
    apply count_upto_congr
    intro q _
    rw [root_targets_excl]
    unfold root_targets
    by_cases hq : q = r
    · subst hq
      rw [g_rr]
      cases hv2 : v with
      | none => simp
      | some rp1 => simp [hv rp1 hv2]
    · rw [g_r q hq]; simp [hq]
  · intro q rq hq
    by_cases hqr : q = r
    · subst hqr; exact hinv.core.root_lt q rp hr
    · rw [g_r q hqr] at hq; exact hinv.core.root_lt q rq hq
  · intro q rq t hq _ ht
    by_cases hqr : q = r
    · subst hqr; rw [g_rr] at hq; rw [hv rq hq] at ht; cases ht
    · rw [g_r q hqr] at hq
      exact hinv.core.root_target_live q rq t hq
        (fun e => hqr (Option.some.inj e)) ht

theorem good_set_root_nil {s : Heap} {r : Nat} {rp : root_ptr} {v : Option root_ptr}
    (hg : good s) (hr : s.roots r = some rp) (hh : rp.header = none)
    (hv : ∀ rp1, v = some rp1 → rp1.header = none) : good (s.set_root r v) := by
  have g_r : ∀ q, q ≠ r → (s.set_root r v).roots q = s.roots q := by
    intro q hq; simp [Function.update_noteq hq]
  have g_rr : (s.set_root r v).roots r = v := by simp
  refine ⟨⟨?_, hg.inv0.flags, hg.inv0.header_base⟩, hg.owned⟩
  refine inv_core_reroot hg.inv0.core rfl rfl (fun q => rfl)
    (fun x hd hx => ⟨hd, hx, rfl, rfl, rfl⟩) (fun x hx => hx) ?_ hg.inv0.core.base_lt
    hg.inv0.core.iptr_lt ?_ (fun b base h hx hs => ⟨base, hx, hs⟩) hg.inv0.core.ptr_of_base
    hg.inv0.core.pointers_nodup hg.inv0.core.base_of_ptr hg.inv0.core.target_live ?_
  · intro x hd1 hx
    rw [hg.inv0.core.owner_count_eq x hd1 hx]
    unfold root_count
    apply count_upto_congr
    intro q _
    unfold root_targets
    by_cases hq : q = r
    · subst hq
      rw [g_rr, hr]
      cases hv2 : v with
      | none => simp [hh]
      | some rp1 => simp [hv rp1 hv2, hh]
    · rw [g_r q hq]
  · intro q rq hq
    by_cases hqr : q = r
    · subst hqr; exact hg.inv0.core.root_lt q rp hr
    · rw [g_r q hqr] at hq; exact hg.inv0.core.root_lt q rq hq
  · intro q rq t hq _ ht
    by_cases hqr : q = r
    · subst hqr; rw [g_rr] at hq; rw [hv rq hq] at ht; cases ht
    · rw [g_r q hqr] at hq
      exact hg.inv0.core.root_target_live q rq t hq (by simp) ht

theorem root_ptr_dtor_ok {s : Heap} {r : Nat} {rp : root_ptr} (hg : good s)
    (hr : s.roots r = some rp) :
    ∃ s1, root_ptr_dtor r s = some s1 ∧ good s1 ∧ release_result s r rp none s1 := by
  unfold root_ptr_dtor release_result
  rw [hr]; simp only
  cases hh : rp.header with
  | none =>
    exact ⟨_, rfl, good_set_root_nil hg hr hh (by simp), rfl⟩
  | some T =>
    simp only
    obtain ⟨hd, hT⟩ := hg.inv0.core.root_target_live r rp T hr (by simp) hh
    obtain ⟨_, _, U, s2, a1, a2⟩ := remove_owner_ok hg.inv0 hg.owned hr hh hT
    rw [a1]; simp only
    have hr2 : s2.roots r = some rp := by
      rw [a2.col.roots]; unfold Heap.released; rw [hT]; exact hr
    exact ⟨_, rfl, ⟨root_ex_elim a2.inv2 hr2 (by simp), a2.owned2⟩, U, s2, rfl, rfl, a2⟩

theorem root_ptr_reset_ok {s : Heap} {r : Nat} {rp : root_ptr} (hg : good s)
    (hr : s.roots r = some rp) :
    ∃ s1, root_ptr_reset r s = some s1 ∧ good s1 ∧
      release_result s r rp (some ⟨none, none⟩) s1 := by
  unfold root_ptr_reset release_result
  rw [hr]; simp only
  cases hh : rp.header with
  | none =>
    exact ⟨_, rfl, good_set_root_nil hg hr hh (by simp), rfl⟩
  | some T =>
    simp only
    obtain ⟨hd, hT⟩ := hg.inv0.core.root_target_live r rp T hr (by simp) hh
    obtain ⟨_, _, U, s2, a1, a2⟩ := remove_owner_ok hg.inv0 hg.owned hr hh hT
    rw [a1]; simp only
    have hr2 : s2.roots r = some rp := by
      rw [a2.col.roots]; unfold Heap.released; rw [hT]; exact hr
    rw [hr2]; simp only
    exact ⟨_, rfl, ⟨root_ex_elim a2.inv2 hr2 (by simp), a2.owned2⟩, U, s2, rfl, rfl, a2⟩

theorem count_remove {v : List Nat} (hs : v.Sorted (· ≤ ·)) (p x : Nat) :
    (remove v p).count x = v.count x - if x = p then 1 else 0 := by
  rw [remove_eq_erase hs, List.count_erase]
  by_cases h : x = p
  · subst h; simp
  · have : ¬ (p == x) = true := by simpa using fun e => h e.symm
    simp [h, this]

theorem length_remove {v : List Nat} (hs : v.Sorted (· ≤ ·)) {p : Nat} (hp : p ∈ v) :
    (remove v p).length + 1 = v.length := by
  rw [remove_eq_erase hs, List.length_erase_of_mem hp]
  have : 0 < v.length := List.length_pos_of_mem hp
  omega

theorem remove_add_cancel {v : List Nat} (hs : v.Sorted (· ≤ ·)) (p : Nat) :
    remove (add v p) p = v := by
  apply List.eq_of_perm_of_sorted _ (sorted_remove p (sorted_add p hs)) hs
  rw [List.perm_iff_count]
  intro x
  rw [count_remove (sorted_add p hs), count_add]
  split <;> omega

theorem add_remove_cancel {v : List Nat} (hs : v.Sorted (· ≤ ·)) {p : Nat} (hp : p ∈ v) :
    add (remove v p) p = v := by
  apply List.eq_of_perm_of_sorted _ (sorted_add p (sorted_remove p hs)) hs
  rw [List.perm_iff_count]
  intro x
  rw [count_add, count_remove hs]
  have : 1 ≤ v.count p := List.count_pos_iff.2 hp
  split
  · rename_i h; subst h; omega
  · omega

theorem ind_tgt {s : Heap} {ex : Option Nat} {p : Nat} {e : Option (Nat × Option Nat)}
    (he : iptr_edge s ex p = e) (x : Nat) :
    (if iptr_targets s ex x p = true then 1 else 0) = edge_tgt e x := by
  have h := iptr_targets_edge s ex x p
  rw [he] at h
  unfold edge_tgt
  rcases e with _ | ⟨t, o⟩
  · simp at h; simp [h]
  · simp at h
    by_cases c : t = x
    · simp [c, h.2 c]
    · have : iptr_targets s ex x p = false := by
        rw [Bool.eq_false_iff]; intro hh; exact c (h.1 hh)
      simp [c, this]

theorem ind_from {s : Heap} {ex : Option Nat} {p : Nat} {e : Option (Nat × Option Nat)}
    (he : iptr_edge s ex p = e) (x P : Nat) :
    (if iptr_targets_from s ex x P p = true then 1 else 0) = edge_from e x P := by
  have h := iptr_targets_from_edge s ex x P p
  rw [he] at h
  unfold edge_from
  rcases e with _ | ⟨t, _ | Q⟩
  · simp at h; simp [h]
  · simp at h; simp [h]
  · simp at h
    by_cases c : t = x ∧ Q = P
    · simp [c, h.2 c]
    · have : iptr_targets_from s ex x P p = false := by
        rw [Bool.eq_false_iff]; intro hh; exact c (h.1 hh)
      simp [c, this]

theorem ind_bound {s : Heap} {ex : Option Nat} {p : Nat} {e : Option (Nat × Option Nat)}
    (he : iptr_edge s ex p = e) (x : Nat) :
    (if iptr_targets_bound s ex x p = true then 1 else 0) = edge_bound e x := by
  have h := iptr_targets_bound_edge s ex x p
  rw [he] at h
  unfold edge_bound
  rcases e with _ | ⟨t, _ | Q⟩
  · simp at h; simp [h]
  · simp at h; simp [h]
  · simp at h
    by_cases c : t = x
    · simp [c, h.2 c]
    · have : iptr_targets_bound s ex x p = false := by
        rw [Bool.eq_false_iff]; intro hh; exact c (h.1 hh)
      simp [c, this]

/-- A path to an owned header survives when back pointers are only added and owned headers
stay owned. -/
theorem has_owner_mono {s s1 : Heap}
    (h1 : ∀ x hd, s.headers x = some hd → ∃ hd1, s1.headers x = some hd1 ∧
      (∀ y ∈ hd.back_pointers, y ∈ hd1.back_pointers) ∧
      (is_owned hd = true → is_owned hd1 = true)) {x : Nat}
    (h : has_owner s x) : has_owner s1 x := by
  obtain ⟨z, hp, hz⟩ := h
  induction hp using Relation.ReflTransGen.head_induction_on with
  | refl =>
    obtain ⟨hd, e1, e2⟩ := hz
    obtain ⟨hd1, f1, _, f3⟩ := h1 z hd e1
    exact has_owner_of_owned ⟨hd1, f1, f3 e2⟩
  | head he hp2 ih =>
    rename_i a c
    obtain ⟨hd, e1, e2⟩ := he
    obtain ⟨hd1, f1, f2, _⟩ := h1 a hd e1
    exact has_owner_of_edge ⟨hd1, f1, f2 c e2⟩ ih

theorem edge_target_live {s : Heap} {exI exR : Option Nat} (hi : inv_core s exI exR) {q t : Nat}
    {o : Option Nat} (h : iptr_edge s exI q = some (t, o)) : ∃ hd, s.headers t = some hd := by
  unfold iptr_edge at h
  by_cases c : some q = exI
  · rw [if_pos c] at h; cases h
  · rw [if_neg c] at h
    cases hq : s.iptrs q with
    | none => rw [hq] at h; cases h
    | some ip =>
      rw [hq] at h; simp only at h
      cases hh : ip.header with
      | none => rw [hh] at h; cases h
      | some t1 =>
        rw [hh] at h; simp only [Option.some.injEq, Prod.mk.injEq] at h
        obtain ⟨e, _⟩ := h; subst e
        exact hi.target_live q ip t1 hq c hh

theorem iptr_edge_of_header {s : Heap} {ex : Option Nat} {q t : Nat} {ip : internal_ptr}
    (hq : s.iptrs q = some ip) (hne : some q ≠ ex) (hh : ip.header = some t) :
    ∃ o, iptr_edge s ex q = some (t, o) := by
  unfold iptr_edge
  rw [if_neg hne, hq]; simp only; rw [hh]
  exact ⟨_, rfl⟩

/-- Transfer of the invariant when one handle `p` changes the edge it contributes from `e0` to
`e1` and the header blocks are adjusted accordingly. -/
theorem inv_edge {s s1 : Heap} {exI exI1 exR : Option Nat} {p : Nat}
    {e0 e1 : Option (Nat × Option Nat)}
    (hinv : inv s exI exR)
    (hr : s1.roots = s.roots)
    (hnh : s1.next_header = s.next_header) (hnb : s1.next_base = s.next_base)
    (hni : s1.next_iptr = s.next_iptr) (hnr : s1.next_root = s.next_root)
    (hplt : p < s.next_iptr)
    (he0 : iptr_edge s exI p = e0) (he1 : iptr_edge s1 exI1 p = e1)
    (he : ∀ q, q ≠ p → iptr_edge s1 exI1 q = iptr_edge s exI q)
    (ht1 : ∀ t o, e1 = some (t, o) → ∃ hd, s.headers t = some hd)
    (h1 : ∀ x hd, s.headers x = some hd → ∃ hd1, s1.headers x = some hd1 ∧
      hd1.get_internal_base = hd.get_internal_base ∧ hd1.owner_count = hd.owner_count ∧
      hd1.unreachable = hd.unreachable ∧ hd1.deleted = hd.deleted ∧
      hd1.back_pointers.Sorted (· ≤ ·) ∧
      (∀ P, hd1.back_pointers.count P + edge_from e0 x P =
        hd.back_pointers.count P + edge_from e1 x P) ∧
      hd1.back_pointers.length + edge_bound e0 x = hd.back_pointers.length + edge_bound e1 x ∧
      hd1.internal_count + edge_tgt e0 x = hd.internal_count + edge_tgt e1 x)
    (h2 : ∀ x, s.headers x = none → s1.headers x = none)
    (hbs : ∀ b, (s1.bases b).map internal_base.self_header =
      (s.bases b).map internal_base.self_header)
    (hil : ∀ q ip, s1.iptrs q = some ip → q < s1.next_iptr)
    (hpob : ∀ b base, s1.bases b = some base → ∀ q ∈ base.pointers,
      ∃ ip, s1.iptrs q = some ip ∧ ip.base = b)
    (hnd : ∀ b base, s1.bases b = some base → base.pointers.Nodup)
    (hbop : ∀ q ip, s1.iptrs q = some ip → some q ≠ exI1 →
      ∃ base, s1.bases ip.base = some base ∧ q ∈ base.pointers) :
    inv s1 exI1 exR := by
  have hb01 : ∀ b base, s1.bases b = some base →
      ∃ base0, s.bases b = some base0 ∧ base0.self_header = base.self_header := by
    intro b base hb
    have := hbs b
    rw [hb] at this
    cases h0 : s.bases b with
    | none => rw [h0] at this; cases this
    | some base0 =>
      rw [h0] at this; simp only [Option.map_some', Option.some.injEq] at this
      exact ⟨base0, rfl, this.symm⟩
  have hb10 : ∀ b base0, s.bases b = some base0 →
      ∃ base, s1.bases b = some base ∧ base.self_header = base0.self_header := by
    intro b base0 hb
    have := hbs b
    rw [hb] at this
    cases h0 : s1.bases b with
    | none => rw [h0] at this; cases this
    | some base =>
      rw [h0] at this; simp only [Option.map_some', Option.some.injEq] at this
      exact ⟨base, rfl, this⟩
  have hlive : ∀ t hd, s.headers t = some hd → ∃ hd1, s1.headers t = some hd1 := by
    intro t hd ht
    obtain ⟨hd1, a, _⟩ := h1 t hd ht
    exact ⟨hd1, a⟩
  have back : ∀ x hd1, s1.headers x = some hd1 → ∃ hd, s.headers x = some hd := by
    intro x hd1 hx
    cases h : s.headers x with
    | none => rw [h2 x h] at hx; cases hx
    | some hd => exact ⟨hd, rfl⟩
  refine ⟨?_, ?_, ?_⟩
  · refine inv_core_retarget hinv.core hnh hni hplt he ?_ h2 ?_ ?_ hil ?_ ?_ hpob hnd hbop ?_ ?_
    · intro x hd hx
      obtain ⟨hd1, a1, a2, a3, a4, a5, a6, a7, a8, a9⟩ := h1 x hd hx
      refine ⟨hd1, a1, a2, a6, ?_, ?_, ?_, by omega⟩
      · intro P; rw [ind_from he0, ind_from he1]; exact a7 P
      · rw [ind_bound he0, ind_bound he1]; exact a8
      · rw [ind_tgt he0, ind_tgt he1, a3]; omega
    · intro x hd1 hx
      obtain ⟨hd, h0⟩ := back x hd1 hx
      obtain ⟨hd2, a1, a2, a3, _⟩ := h1 x hd h0
      rw [hx] at a1; cases a1
      rw [a3, hinv.core.owner_count_eq x hd h0]
      unfold root_count root_targets; rw [hnr, hr]
    · intro b base hb
      obtain ⟨base0, f0, _⟩ := hb01 b base hb
      rw [hnb]; exact hinv.core.base_lt b base0 f0
    · intro r rp h; rw [hr] at h; rw [hnr]; exact hinv.core.root_lt r rp h
    · intro b base h hb hs
      obtain ⟨base0, f0, f1⟩ := hb01 b base hb
      exact ⟨base0, f0, f1.trans hs⟩
    · intro q ip t hq hne hh
      obtain ⟨o, ho⟩ := iptr_edge_of_header hq hne hh
      by_cases hqp : q = p
      · subst hqp
        rw [he1] at ho
        obtain ⟨hd, hd0⟩ := ht1 t o ho
        exact hlive t hd hd0
      · rw [he q hqp] at ho
        obtain ⟨hd, hd0⟩ := edge_target_live hinv.core ho
        exact hlive t hd hd0
    · intro r rp t h hne hh
      rw [hr] at h
      obtain ⟨hd, hd0⟩ := hinv.core.root_target_live r rp t h hne hh
      exact hlive t hd hd0
  · intro x hd1 hx _
    obtain ⟨hd, h0⟩ := back x hd1 hx
    obtain ⟨hd2, a1, a2, a3, a4, a5, _⟩ := h1 x hd h0
    rw [hx] at a1; cases a1
    rw [a4, a5]; exact hinv.flags x hd h0 (by simp)
  · intro x hd1 b hx _ hg
    obtain ⟨hd, h0⟩ := back x hd1 hx
    obtain ⟨hd2, a1, a2, _⟩ := h1 x hd h0
    rw [hx] at a1; cases a1
    obtain ⟨base0, f0, f1⟩ := hinv.header_base x hd b h0 (by simp) (a2 ▸ hg)
    obtain ⟨base, g0, g1⟩ := hb10 b base0 f0
    exact ⟨base, g0, g1.trans f1⟩

/-- Moving the allocation frontier of the handles keeps the invariant. -/
theorem inv_extend_iptr {s : Heap} {exI exR : Option Nat} (hinv : inv s exI exR) :
    inv { s with next_iptr := s.next_iptr + 1 } exI exR := by
  have hfree : s.iptrs s.next_iptr = none := by
    cases h : s.iptrs s.next_iptr with
    | none => rfl
    | some ip => exact absurd (hinv.core.iptr_lt _ ip h) (by omega)
  have z1 : ∀ t, iptr_targets s exI t s.next_iptr = false := by
    intro t; unfold iptr_targets; rw [hfree]; simp
  refine ⟨⟨hinv.core.header_lt, hinv.core.base_lt, ?_, hinv.core.root_lt, hinv.core.bp_sorted,
    hinv.core.header_of_base, hinv.core.ptr_of_base, hinv.core.pointers_nodup,
    hinv.core.base_of_ptr, hinv.core.target_live, hinv.core.root_target_live, ?_, ?_,
    hinv.core.owner_count_eq, ?_⟩, hinv.flags, hinv.header_base⟩
  · intro q ip hq
    have := hinv.core.iptr_lt q ip hq
    show q < s.next_iptr + 1
    omega
  · intro t hd ht P
    rw [hinv.core.bp_count t hd ht P]
    show count_upto s.next_iptr _ = count_upto (s.next_iptr + 1) _
    rw [count_upto_succ]
    have : iptr_targets_from { s with next_iptr := s.next_iptr + 1 } exI t P s.next_iptr
        = false := by
      show iptr_targets_from s exI t P s.next_iptr = false
      unfold iptr_targets_from; rw [z1 t]; rfl
    rw [this]; rfl
  · intro t hd ht
    rw [hinv.core.bp_length t hd ht]
    show count_upto s.next_iptr _ = count_upto (s.next_iptr + 1) _
    rw [count_upto_succ]
    have : iptr_targets_bound { s with next_iptr := s.next_iptr + 1 } exI t s.next_iptr
        = false := by
      show iptr_targets_bound s exI t s.next_iptr = false
      unfold iptr_targets_bound; rw [z1 t]; rfl
    rw [this]; rfl
  · intro t hd ht
    rw [hinv.core.internal_count_eq t hd ht]
    show _ = _ + count_upto (s.next_iptr + 1) _
    rw [count_upto_succ]
    rw [show iptr_targets { s with next_iptr := s.next_iptr + 1 } exI t s.next_iptr = false
      from z1 t]
    rfl

/-- Moving the allocation frontier of the root handles keeps the invariant. -/
theorem inv_extend_root {s : Heap} {exI exR : Option Nat} (hinv : inv s exI exR) :
    inv { s with next_root := s.next_root + 1 } exI exR := by
  have hfree : s.roots s.next_root = none := by
    cases h : s.roots s.next_root with
    | none => rfl
    | some ip => exact absurd (hinv.core.root_lt _ ip h) (by omega)
  refine ⟨⟨hinv.core.header_lt, hinv.core.base_lt, hinv.core.iptr_lt, ?_, hinv.core.bp_sorted,
    hinv.core.header_of_base, hinv.core.ptr_of_base, hinv.core.pointers_nodup,
    hinv.core.base_of_ptr, hinv.core.target_live, hinv.core.root_target_live,
    hinv.core.bp_count, hinv.core.bp_length, ?_, hinv.core.internal_count_eq⟩,
    hinv.flags, hinv.header_base⟩
  · intro q ip hq
    have := hinv.core.root_lt q ip hq
    show q < s.next_root + 1
    omega
  · intro t hd ht
    rw [hinv.core.owner_count_eq t hd ht]
    show count_upto s.next_root _ = count_upto (s.next_root + 1) _
    rw [count_upto_succ]
    have : root_targets { s with next_root := s.next_root + 1 } exR t s.next_root = false := by
      unfold root_targets
      rw [show ({ s with next_root := s.next_root + 1 } : Heap).roots s.next_root = none
        from hfree]
      simp
    rw [this]; rfl

theorem bp_path_congr {s s1 : Heap} (h : s1.headers = s.headers) {x z : Nat}
    (hp : bp_path s x z) : bp_path s1 x z := by
  induction hp with
  | refl => exact Relation.ReflTransGen.refl
  | tail _ he ih =>
    obtain ⟨hd, e1, e2⟩ := he
    exact Relation.ReflTransGen.tail ih ⟨hd, by rw [h]; exact e1, e2⟩

theorem has_owner_congr {s s1 : Heap} (h : s1.headers = s.headers) {x : Nat}
    (hp : has_owner s x) : has_owner s1 x := by
  obtain ⟨z, h1, hd, h2, h3⟩ := hp
  exact ⟨z, bp_path_congr h h1, hd, by rw [h]; exact h2, h3⟩

theorem all_owned_congr {s s1 : Heap} (h : s1.headers = s.headers) (hp : all_owned s) :
    all_owned s1 := by
  intro x hd hx
  rw [h] at hx
  exact has_owner_congr h (hp x hd hx)

/-- When one occurrence of `u` leaves the back pointers of `T`, a path that is lost can be
replaced by one that starts at `u`. -/
theorem path_after_unlink {s s1 : Heap} {T u : Nat}
    (h1 : ∀ x hd, x ≠ T → s.headers x = some hd → s1.headers x = some hd)
    (hT : ∀ hd, s.headers T = some hd → ∃ hd1, s1.headers T = some hd1 ∧
      ∀ y ∈ hd.back_pointers, y ≠ u → y ∈ hd1.back_pointers) {x z : Nat}
    (hp : bp_path s x z) : bp_path s1 x z ∨ bp_path s1 u z := by
  induction hp using Relation.ReflTransGen.head_induction_on with
  | refl => exact Or.inl Relation.ReflTransGen.refl
  | head he hp2 ih =>
    rename_i a c
    rcases ih with h | h
    · obtain ⟨hd, e1, e2⟩ := he
      by_cases hat : a = T
      · subst hat
        obtain ⟨hd1, f1, f2⟩ := hT hd e1
        by_cases hcu : c = u
        · subst hcu; exact Or.inr h
        · exact Or.inl (Relation.ReflTransGen.head ⟨hd1, f1, f2 c e2 hcu⟩ h)
      · exact Or.inl (Relation.ReflTransGen.head ⟨hd, h1 a hd hat e1, e2⟩ h)
    · exact Or.inr h

theorem unlinked_eq {s : Heap} {T : Nat} {hd : root_ptr_header_block_base}
    (hT : s.headers T = some hd) (sh : Option Nat) :
    s.unlinked T sh = s.set_header T (some (unlink_header hd sh)) := by
  unfold Heap.unlinked; rw [hT]

theorem iptr_edge_congr {s s1 : Heap} {ex ex1 : Option Nat} {q : Nat}
    (hq : s1.iptrs q = s.iptrs q) (hx : some q = ex1 ↔ some q = ex)
    (hbs : ∀ b, (s1.bases b).map internal_base.self_header =
      (s.bases b).map internal_base.self_header) :
    iptr_edge s1 ex1 q = iptr_edge s ex q := by
  unfold iptr_edge
  rw [hq]
  by_cases c : some q = ex
  · rw [if_pos c, if_pos (hx.2 c)]
  · rw [if_neg c, if_neg (fun h => c (hx.1 h))]
    cases s.iptrs q with
    | none => rfl
    | some ip =>
      simp only
      cases ip.header with
      | none => rfl
      | some t =>
        simp only
        have := hbs ip.base
        cases h1 : s1.bases ip.base <;> cases h0 : s.bases ip.base <;>
          rw [h1, h0] at this <;> simp_all

/-- The counters of the target of a live handle. -/
theorem target_counts {s : Heap} {exR : Option Nat} {p T : Nat} {ip : internal_ptr}
    {bs : internal_base} {hd : root_ptr_header_block_base}
    (hi : inv_core s none exR) (hp : s.iptrs p = some ip) (hh : ip.header = some T)
    (hb : s.bases ip.base = some bs) (hT : s.headers T = some hd) :
    iptr_edge s none p = some (T, bs.self_header) ∧ 1 ≤ hd.internal_count ∧
      hd.owner_count + 1 ≤ hd.internal_count ∧
      (∀ P, bs.self_header = some P → P ∈ hd.back_pointers) := by
  have hplt := hi.iptr_lt p ip hp
  have hedge : iptr_edge s none p = some (T, bs.self_header) := by
    unfold iptr_edge; simp [hp, hh, hb]
  have h1 : 1 ≤ iptr_count s none T :=
    count_upto_pos hplt (by rw [iptr_targets_edge, hedge]; rfl)
  have hic := hi.internal_count_eq T hd hT
  refine ⟨hedge, by omega, by omega, ?_⟩
  intro P hP
  have h2 : 1 ≤ iptr_count_from s none T P :=
    count_upto_pos hplt (by rw [iptr_targets_from_edge, hedge, hP])
  rw [← hi.bp_count T hd hT P] at h2
  exact List.count_pos_iff.1 h2

/-- The heap in which `not_reachable_from` of the target of the handle `p` has adjusted the
target satisfies the invariant with `p` left out. -/
theorem unlink_inv {s0 s : Heap} {p T : Nat} {ip : internal_ptr} {bs : internal_base}
    {hd : root_ptr_header_block_base}
    (hinv : inv s0 none none) (hp : s0.iptrs p = some ip) (hh : ip.header = some T)
    (hb : s0.bases ip.base = some bs) (hT : s0.headers T = some hd)
    (hs : s = s0 ∨ s = s0.set_base ip.base (some { bs with pointers := bs.pointers.erase p })) :
    inv (s.unlinked T bs.self_header) (some p) none := by
  obtain ⟨hedge, hpos, _, hmem⟩ := target_counts hinv.core hp hh hb hT
  have hsT : s.headers T = some hd := by rcases hs with h | h <;> rw [h] <;> exact hT
  rw [unlinked_eq hsT]
  obtain ⟨hd1, hhd1⟩ : ∃ hd1, hd1 = unlink_header hd bs.self_header := ⟨_, rfl⟩
  rw [← hhd1]
  have e_oc : hd1.owner_count = hd.owner_count := by rw [hhd1]; rfl
  have e_ic : hd1.internal_count = hd.internal_count - 1 := by
    rw [hhd1]; unfold unlink_header; simp only; exact dec_pos hpos
  have e_bp0 : bs.self_header = none → hd1.back_pointers = hd.back_pointers := by
    intro h; rw [hhd1]; unfold unlink_header; rw [h]
  have e_bp1 : ∀ P, bs.self_header = some P →
      hd1.back_pointers = remove hd.back_pointers P := by
    intro P h; rw [hhd1]; unfold unlink_header; rw [h]
  have e_un : hd1.unreachable = hd.unreachable := by rw [hhd1]; rfl
  have e_de : hd1.deleted = hd.deleted := by rw [hhd1]; rfl
  have e_gib : hd1.get_internal_base = hd.get_internal_base := by rw [hhd1]; rfl
  clear hhd1
  obtain ⟨s1, hs1⟩ : ∃ s1, s1 = s.set_header T (some hd1) := ⟨_, rfl⟩
  rw [← hs1]
  have g_h : ∀ x, x ≠ T → s1.headers x = s0.headers x := by
    intro x hx; rw [hs1]; rcases hs with h | h <;> rw [h] <;> simp [Function.update_noteq hx]
  have g_hT : s1.headers T = some hd1 := by rw [hs1]; simp
  have g_p : s1.iptrs = s0.iptrs := by rw [hs1]; rcases hs with h | h <;> rw [h] <;> rfl
  have g_r : s1.roots = s0.roots := by rw [hs1]; rcases hs with h | h <;> rw [h] <;> rfl
  have g_nh : s1.next_header = s0.next_header := by
    rw [hs1]; rcases hs with h | h <;> rw [h] <;> rfl
  have g_nb : s1.next_base = s0.next_base := by
    rw [hs1]; rcases hs with h | h <;> rw [h] <;> rfl
  have g_ni : s1.next_iptr = s0.next_iptr := by
    rw [hs1]; rcases hs with h | h <;> rw [h] <;> rfl
  have g_nr : s1.next_root = s0.next_root := by
    rw [hs1]; rcases hs with h | h <;> rw [h] <;> rfl
  have g_b : ∀ b, s1.bases b = s0.bases b ∨ (b = ip.base ∧
      s1.bases b = some { bs with pointers := bs.pointers.erase p }) := by
    intro b; rw [hs1]
    rcases hs with h | h
    · rw [h]; exact Or.inl rfl
    · rw [h]
      by_cases hbb : b = ip.base
      · subst hbb; right; simp
      · left; simp [Function.update_noteq hbb]
  clear hs1 hs hsT
  have hbs : ∀ b, (s1.bases b).map internal_base.self_header =
      (s0.bases b).map internal_base.self_header := by
    intro b
    rcases g_b b with h | ⟨h1, h2⟩
    · rw [h]
    · rw [h2, h1, hb]; rfl
  have hsub : ∀ b base, s1.bases b = some base → ∃ base0, s0.bases b = some base0 ∧
      base.pointers.Nodup ∧ ∀ q ∈ base.pointers, q ∈ base0.pointers := by
    intro b base hb1
    rcases g_b b with h | ⟨h1, h2⟩
    · rw [h] at hb1
      exact ⟨base, hb1, hinv.core.pointers_nodup b base hb1, fun _ h => h⟩
    · rw [h2] at hb1; cases hb1
      refine ⟨bs, h1 ▸ hb, (hinv.core.pointers_nodup _ bs hb).erase p, ?_⟩
      intro q hq; exact List.mem_of_mem_erase hq
  refine inv_edge (p := p) hinv g_r g_nh g_nb
    g_ni g_nr (hinv.core.iptr_lt p ip hp) hedge
    (show iptr_edge s1 (some p) p = none by unfold iptr_edge; simp) ?_
    (by intro t o h; cases h) ?_ ?_ hbs (by rw [g_p, g_ni]; exact hinv.core.iptr_lt) ?_ ?_ ?_
  · intro q hq
    exact iptr_edge_congr (by rw [g_p])
      (by simp; exact hq) hbs
  · intro x hdx hx
    by_cases hxt : x = T
    · subst hxt
      rw [hT] at hx; cases hx
      refine ⟨hd1, g_hT, e_gib, e_oc, e_un, e_de, ?_, ?_, ?_, ?_⟩
      · cases hsh : bs.self_header with
        | none => rw [e_bp0 hsh]; exact hinv.core.bp_sorted x hd hT
        | some P => rw [e_bp1 P hsh]; exact sorted_remove P (hinv.core.bp_sorted x hd hT)
      · intro P
        cases hsh : bs.self_header with
        | none => rw [e_bp0 hsh]; simp [edge_from]
        | some P0 =>
          rw [e_bp1 P0 hsh, count_remove (hinv.core.bp_sorted x hd hT)]
          have : 1 ≤ hd.back_pointers.count P0 := List.count_pos_iff.2 (hmem P0 hsh)
          unfold edge_from; simp only [true_and]
          by_cases c : P0 = P
          · subst c; simp; omega
          · have c2 : ¬ P = P0 := fun e => c e.symm
            simp [c, c2]
      · cases hsh : bs.self_header with
        | none => rw [e_bp0 hsh]; simp [edge_bound]
        | some P0 =>
          rw [e_bp1 P0 hsh]
          have := length_remove (hinv.core.bp_sorted x hd hT) (hmem P0 hsh)
          simp [edge_bound]; omega
      · rw [e_ic]; simp [edge_tgt]; omega
    · refine ⟨hdx, by rw [g_h x hxt]; exact hx, rfl, rfl, rfl, rfl,
        hinv.core.bp_sorted x hdx hx, ?_, ?_, ?_⟩
      · intro P
        have hne : ¬ T = x := fun h => hxt h.symm
        unfold edge_from
        cases bs.self_header with
        | none => simp
        | some P0 => simp [hne]
      · have hne : ¬ T = x := fun h => hxt h.symm
        unfold edge_bound
        cases bs.self_header with
        | none => simp
        | some P0 => simp [hne]
      · have hne : ¬ T = x := fun h => hxt h.symm
        simp [edge_tgt, hne]
  · intro x hx
    by_cases hxt : x = T
    · subst hxt; rw [hT] at hx; cases hx
    · rw [g_h x hxt]; exact hx
  · intro b base hb1 q hq
    obtain ⟨base0, f0, _, f2⟩ := hsub b base hb1
    rw [g_p]; exact hinv.core.ptr_of_base b base0 f0 q (f2 q hq)
  · intro b base hb1
    exact (hsub b base hb1).choose_spec.2.1
  · intro q iq hq hne
    rw [g_p] at hq
    obtain ⟨base0, f0, f1⟩ := hinv.core.base_of_ptr q iq hq (by simp)
    rcases g_b iq.base with h | ⟨h1, h2⟩
    · exact ⟨base0, by rw [h]; exact f0, f1⟩
    · refine ⟨_, h2, ?_⟩
      rw [h1, hb] at f0; cases f0
      have hqp : q ≠ p := fun e => hne (by rw [e])
      exact (List.mem_erase_of_ne hqp).2 f1

theorem set_header_set_header (s : Heap) (T : Nat) (a b : Option root_ptr_header_block_base) :
    (s.set_header T a).set_header T b = s.set_header T b := by
  unfold Heap.set_header; simp

theorem is_owned_unlink {hd : root_ptr_header_block_base} {P : Nat}
    (hs : hd.back_pointers.Sorted (· ≤ ·)) (hm : P ∈ hd.back_pointers)
    (hpos : 1 ≤ hd.internal_count) (h : is_owned hd = true) :
    is_owned (unlink_header hd (some P)) = true := by
  have hl := length_remove hs hm
  unfold is_owned at h ⊢
  unfold unlink_header
  simp only [dec_pos hpos]
  by_cases c : hd.owner_count ≠ 0
  · rw [if_pos c]
  · rw [if_neg c] at h ⊢
    by_cases c2 : hd.internal_count > hd.back_pointers.length
    · rw [if_pos (by omega)]
    · rw [if_neg c2] at h; cases h

/-- The call `not_reachable_from` made for the handle `p`, either directly (`reset`) or after
deregistration (the destructor): it returns, and what it collects is described by
`dec_result`. -/
theorem not_reachable_from_body_run {s0 s : Heap} {p T : Nat} {ip : internal_ptr}
    {bs : internal_base} {hd : root_ptr_header_block_base}
    (nrf : Nat → Nat → Heap → Option Heap)
    (hg : good s0) (hp : s0.iptrs p = some ip) (hh : ip.header = some T)
    (hb : s0.bases ip.base = some bs) (hT : s0.headers T = some hd)
    (hs : s = s0 ∨ s = s0.set_base ip.base (some { bs with pointers := bs.pointers.erase p })) :
    ∃ U s2, not_reachable_from_body nrf T ip.base s = some s2 ∧
      dec_result T (s.unlinked T bs.self_header) s2 (some p) none U ∧
      s2.iptrs p = some ip ∧ s2.bases ip.base = s.bases ip.base ∧
      ran nrf T (s.unlinked T bs.self_header) s2 U := by
  have hinv1 := unlink_inv hg.inv0 hp hh hb hT hs
  obtain ⟨hedge, hpos, _, hmem⟩ := target_counts hg.inv0.core hp hh hb hT
  have hsT : s.headers T = some hd := by rcases hs with h | h <;> rw [h] <;> exact hT
  have hsb : ∃ bs1, s.bases ip.base = some bs1 ∧ bs1.self_header = bs.self_header ∧
      (s = s0 ∨ p ∉ bs1.pointers) := by
    rcases hs with h | h
    · exact ⟨bs, by rw [h]; exact hb, rfl, Or.inl h⟩
    · refine ⟨{ bs with pointers := bs.pointers.erase p }, by rw [h]; simp, rfl, Or.inr ?_⟩
      intro hm
      exact ((List.Nodup.mem_erase_iff (hg.inv0.core.pointers_nodup _ bs hb)).1 hm).1 rfl
  have hsp : s.iptrs = s0.iptrs := by rcases hs with h | h <;> rw [h] <;> rfl
  have hsbo : ∀ b, b ≠ ip.base → s.bases b = s0.bases b := by
    intro b hbb
    rcases hs with h | h <;> rw [h]
    simp [Function.update_noteq hbb]
  have hsh0 : s.headers = s0.headers := by rcases hs with h | h <;> rw [h] <;> rfl
  rw [unlinked_eq hsT] at hinv1 ⊢
  obtain ⟨hd1, hhd1⟩ : ∃ hd1, hd1 = unlink_header hd bs.self_header := ⟨_, rfl⟩
  rw [← hhd1] at hinv1 ⊢
  obtain ⟨s1, hs1⟩ : ∃ s1, s1 = s.set_header T (some hd1) := ⟨_, rfl⟩
  rw [← hs1] at hinv1
  have g_h : ∀ x, x ≠ T → s1.headers x = s0.headers x := by
    intro x hx; rw [hs1, ← hsh0]; simp [Function.update_noteq hx]
  have g_hT : s1.headers T = some hd1 := by rw [hs1]; simp
  have g_p : s1.iptrs = s0.iptrs := by rw [hs1, ← hsp]; rfl
  have g_b : s1.bases = s.bases := by rw [hs1]; rfl
  -- the three side conditions of the decrement
  have hext : ∀ q iq t, s.iptrs q = some iq → some q = some p → iq.header = some t →
      ∃ hd, s1.headers t = some hd := by
    intro q iq t hq he ht
    cases he
    rw [hsp, hp] at hq; cases hq
    rw [hh] at ht; cases ht
    exact ⟨hd1, g_hT⟩
  have hparent : ∀ u hdu, s1.headers u = some hdu → hdu.get_internal_base = some ip.base →
      has_owner s1 u := by
    intro u hdu hu hgib
    obtain ⟨bs1, hb1, hsh1, _⟩ := hsb
    obtain ⟨base2, f1, f2⟩ := hinv1.header_base u hdu _ hu (by simp) hgib
    rw [g_b, hb1] at f1; cases f1
    rw [hsh1] at f2
    have hu0 : ∃ hdu0, s0.headers u = some hdu0 := by
      by_cases hut : u = T
      · subst hut; exact ⟨hd, hT⟩
      · exact ⟨hdu, by rw [← g_h u hut]; exact hu⟩
    obtain ⟨hdu0, hu0⟩ := hu0
    obtain ⟨z, hz1, hdz, hz2, hz3⟩ := hg.owned u hdu0 hu0
    have hpath : bp_path s1 u z := by
      have := path_after_unlink (s := s0) (T := T) (u := u)
        (fun x hdx hx h => by rw [g_h x hx]; exact h)
        (fun hd0 h0 => by
          rw [hT] at h0; cases h0
          refine ⟨hd1, g_hT, ?_⟩
          intro y hy hyu
          rw [hhd1]; unfold unlink_header; rw [f2]; simp only
          rw [remove_eq_erase (hg.inv0.core.bp_sorted T hd hT)]
          exact (List.mem_erase_of_ne hyu).2 hy) hz1
      rcases this with h | h <;> exact h
    refine ⟨z, hpath, ?_⟩
    by_cases hzt : z = T
    · subst hzt
      rw [hT] at hz2; cases hz2
      refine ⟨hd1, g_hT, ?_⟩
      rw [hhd1, f2]
      exact is_owned_unlink (hg.inv0.core.bp_sorted z hd hT) (hmem u f2) hpos hz3
    · exact ⟨hdz, by rw [g_h z hzt]; exact hz2, hz3⟩
  have hbase_of : ∀ b base, s.bases b = some base → p ∈ base.pointers → b = ip.base := by
    intro b base hbb hq
    by_contra hne
    rw [hsbo b hne] at hbb
    obtain ⟨iq, f1, f2⟩ := hg.inv0.core.ptr_of_base b base hbb p hq
    rw [hp] at f1; cases f1
    exact hne f2.symm
  have hexh : ∀ q, some p = some q → ∀ u hdu b base, s1.headers u = some hdu →
      hdu.get_internal_base = some b → s.bases b = some base → q ∈ base.pointers →
      has_owner s1 u := by
    intro q he u hdu b base hu hgib hbb hq
    cases he
    have := hbase_of b base hbb hq
    subst this
    exact hparent u hdu hu hgib
  have hkeep : ∀ U s2, dec_result T s1 s2 (some p) none U →
      s2.iptrs p = some ip ∧ s2.bases ip.base = s.bases ip.base := by
    intro U s2 a2
    constructor
    · rw [a2.col.iptrs_kept p, g_p, hp]
      intro u hu hm
      rw [mem_payload_handles] at hm
      obtain ⟨hdu, b, base, f1, f2, f3, f4⟩ := hm
      rw [g_b] at f3
      have := hbase_of b base f3 f4
      subst this
      exact dead_closed_not_has_owner a2.dead hu (hparent u hdu f1 f2)
    · rw [a2.col.bases_kept ip.base, g_b]
      intro u hu hdu f1 f2
      exact dead_closed_not_has_owner a2.dead hu (hparent u hdu f1 f2)
  have hcomp := complete_after_removal (T := T) hg.owned
    (fun x hdx hxt hx => ⟨hdx, by rw [g_h x hxt]; exact hx, fun _ h => h, id⟩)
    (fun x hdx hx => by
      by_cases hxt : x = T
      · subst hxt; exact ⟨hd, hT⟩
      · rw [g_h x hxt] at hx; exact ⟨hdx, hx⟩)
  obtain ⟨bs1, hb1, hsh1, _⟩ := hsb
  unfold not_reachable_from_body
  rw [hsT, hb1]; simp only
  rw [hsh1]
  cases hshc : bs.self_header with
  | none =>
    simp only
    have hhd1b : hd1 = { hd with internal_count := hd.internal_count - 1 } := by
      rw [hhd1, hshc]; unfold unlink_header; simp only [dec_pos hpos]
    obtain ⟨U, s2, a1, a3, a2⟩ := dec_internal_count_run
      (s := s) (T := T) nrf hsT hpos hhd1b
      (by rw [← hs1]; exact hinv1) (by rw [← hs1]; exact hext)
      (by rw [← hs1]; exact hexh) (by rw [← hs1]; exact hcomp)
    rw [← hs1] at a2 a3
    exact ⟨U, s2, a1, hs1 ▸ a2, (hkeep U s2 a2).1, (hkeep U s2 a2).2.trans hb1,
      (by rw [← hs1]; exact a3)⟩
  | some sh =>
    simp only
    have hhd1b : hd1 = { ({ hd with back_pointers := remove hd.back_pointers sh } :
        root_ptr_header_block_base) with internal_count := hd.internal_count - 1 } := by
      rw [hhd1, hshc]; unfold unlink_header; simp only [dec_pos hpos]
    have hst : (s.set_header T (some { hd with
        back_pointers := remove hd.back_pointers sh })).set_header T (some hd1) = s1 := by
      rw [set_header_set_header, hs1]
    obtain ⟨U, s2, a1, a3, a2⟩ := dec_internal_count_run
      (s := s.set_header T (some { hd with back_pointers := remove hd.back_pointers sh }))
      (T := T) nrf
      (show (s.set_header T (some { hd with
        back_pointers := remove hd.back_pointers sh })).headers T =
          some { hd with back_pointers := remove hd.back_pointers sh } by simp) hpos hhd1b
      (by rw [hst]; exact hinv1) (by rw [hst]; exact hext)
      (by rw [hst]; exact hexh) (by rw [hst]; exact hcomp)
    rw [hst] at a2 a3
    exact ⟨U, s2, a1, hs1 ▸ a2, (hkeep U s2 a2).1, (hkeep U s2 a2).2.trans hb1,
      (by rw [← hs1]; exact a3)⟩

/-- The call `not_reachable_from` made for the handle `p`, either directly (`reset`) or after
deregistration (the destructor): it returns, and what it collects is described by
`dec_result`. -/
theorem not_reachable_from_body_ok {s0 s : Heap} {p T : Nat} {ip : internal_ptr}
    {bs : internal_base} {hd : root_ptr_header_block_base}
    (nrf : Nat → Nat → Heap → Option Heap)
    (hg : good s0) (hp : s0.iptrs p = some ip) (hh : ip.header = some T)
    (hb : s0.bases ip.base = some bs) (hT : s0.headers T = some hd)
    (hs : s = s0 ∨ s = s0.set_base ip.base (some { bs with pointers := bs.pointers.erase p })) :
    ∃ U s2, not_reachable_from_body nrf T ip.base s = some s2 ∧
      dec_result T (s.unlinked T bs.self_header) s2 (some p) none U ∧
      s2.iptrs p = some ip ∧ s2.bases ip.base = s.bases ip.base := by
  obtain ⟨U, s2, a1, a2, a3, a4, _⟩ := not_reachable_from_body_run nrf hg hp hh hb hT hs
  exact ⟨U, s2, a1, a2, a3, a4⟩

/-- The handle whose removal was in progress is cleared or goes away. -/
theorem iptr_ex_elim {s : Heap} {p : Nat} {ip : internal_ptr} {v : Option internal_ptr}
    (hinv : inv s (some p) none) (hp : s.iptrs p = some ip)
    (hv0 : v = none → ∀ b base, s.bases b = some base → p ∉ base.pointers)
    (hv1 : ∀ w, v = some w → w.header = none ∧ w.base = ip.base ∧
      ∃ base, s.bases ip.base = some base ∧ p ∈ base.pointers) :
    inv (s.set_iptr p v) none none := by
  have g_q : ∀ q, q ≠ p → (s.set_iptr p v).iptrs q = s.iptrs q := by
    intro q hq; simp [Function.update_noteq hq]
  have g_pp : (s.set_iptr p v).iptrs p = v := by simp
  refine ⟨?_, hinv.flags, hinv.header_base⟩
  refine inv_core_transfer hinv.core rfl rfl rfl rfl
    (fun x hd hx => ⟨hd, hx, same_counts_refl hd⟩) (fun x hx => hx) ?_ hinv.core.base_lt ?_
    (fun b base h hx hs => ⟨base, hx, hs⟩) ?_ hinv.core.pointers_nodup ?_
  · intro q
    by_cases hq : q = p
    · subst hq
      unfold iptr_edge
      rw [g_pp]
      simp only [if_true]
      cases hv : v with
      | none => simp
      | some w => simp [(hv1 w hv).1]
    · unfold iptr_edge
      rw [g_q q hq]
      have : ¬ some q = some p := fun e => hq (Option.some.inj e)
      simp [this]
  · intro q iq hq
    by_cases hqp : q = p
    · subst hqp; exact hinv.core.iptr_lt q ip hp
    · rw [g_q q hqp] at hq; exact hinv.core.iptr_lt q iq hq
  · intro b base hb q hq
    by_cases hqp : q = p
    · subst hqp
      obtain ⟨iq, f1, f2⟩ := hinv.core.ptr_of_base b base hb q hq
      rw [hp] at f1; cases f1
      rw [g_pp]
      cases hv : v with
      | none => exact absurd hq (hv0 hv b base hb)
      | some w => exact ⟨w, rfl, (hv1 w hv).2.1.trans f2⟩
    · rw [g_q q hqp]; exact hinv.core.ptr_of_base b base hb q hq
  · intro q iq hq _
    by_cases hqp : q = p
    · subst hqp
      rw [g_pp] at hq
      obtain ⟨_, e2, base, e3, e4⟩ := hv1 iq hq
      exact ⟨base, by rw [e2]; exact e3, e4⟩
    · rw [g_q q hqp] at hq
      exact hinv.core.base_of_ptr q iq hq (fun e => hqp (Option.some.inj e))

theorem not_reachable_from_unfold (h b : Nat) (s : Heap) :
    not_reachable_from h b s =
      not_reachable_from_body (not_reachable_from_depth s.next_header) h b s := rfl

/-- Clearing a handle that has no target. -/
theorem good_set_iptr_nil {s : Heap} {p : Nat} {ip : internal_ptr} {v : Option internal_ptr}
    (hg : good s) (hp : s.iptrs p = some ip) (hh : ip.header = none)
    (hv0 : v = none → ∀ b base, s.bases b = some base → p ∉ base.pointers)
    (hv1 : ∀ w, v = some w → w.header = none ∧ w.base = ip.base) :
    inv (s.set_iptr p v) none none := by
  have g_q : ∀ q, q ≠ p → (s.set_iptr p v).iptrs q = s.iptrs q := by
    intro q hq; simp [Function.update_noteq hq]
  have g_pp : (s.set_iptr p v).iptrs p = v := by simp
  refine ⟨?_, hg.inv0.flags, hg.inv0.header_base⟩
  refine inv_core_transfer hg.inv0.core rfl rfl rfl rfl
    (fun x hd hx => ⟨hd, hx, same_counts_refl hd⟩) (fun x hx => hx) ?_ hg.inv0.core.base_lt ?_
    (fun b base h hx hs => ⟨base, hx, hs⟩) ?_ hg.inv0.core.pointers_nodup ?_
  · intro q
    by_cases hq : q = p
    · subst hq
      unfold iptr_edge
      rw [g_pp, hp]
      cases hv : v with
      | none => simp [hh]
      | some w => simp [(hv1 w hv).1, hh]
    · unfold iptr_edge
      rw [g_q q hq]
      rfl
  · intro q iq hq
    by_cases hqp : q = p
    · subst hqp; exact hg.inv0.core.iptr_lt q ip hp
    · rw [g_q q hqp] at hq; exact hg.inv0.core.iptr_lt q iq hq
  · intro b base hb q hq
    by_cases hqp : q = p
    · subst hqp
      obtain ⟨iq, f1, f2⟩ := hg.inv0.core.ptr_of_base b base hb q hq
      rw [hp] at f1; cases f1
      rw [g_pp]
      cases hv : v with
      | none => exact absurd hq (hv0 hv b base hb)
      | some w => exact ⟨w, rfl, (hv1 w hv).2.trans f2⟩
    · rw [g_q q hqp]; exact hg.inv0.core.ptr_of_base b base hb q hq
  · intro q iq hq _
    by_cases hqp : q = p
    · subst hqp
      rw [g_pp] at hq
      obtain ⟨base, e3, e4⟩ := hg.inv0.core.base_of_ptr q ip hp (by simp)
      exact ⟨base, by rw [(hv1 iq hq).2]; exact e3, e4⟩
    · rw [g_q q hqp] at hq
      exact hg.inv0.core.base_of_ptr q iq hq (by simp)

theorem internal_ptr_reset_ok {s : Heap} {p : Nat} {ip : internal_ptr} (hg : good s)
    (hp : s.iptrs p = some ip) :
    ∃ bs s1, s.bases ip.base = some bs ∧ internal_ptr_reset p s = some s1 ∧ good s1 ∧
      unlink_result s p ip bs.self_header (some { ip with header := none, ptr := none }) s1 := by
  obtain ⟨bs, hb, hpb⟩ := hg.inv0.core.base_of_ptr p ip hp (by simp)
  refine ⟨bs, ?_⟩
  unfold internal_ptr_reset unlink_result
  rw [hp]; simp only
  cases hh : ip.header with
  | none =>
    refine ⟨_, hb, rfl, ⟨good_set_iptr_nil hg hp hh (by simp) ?_, ?_⟩, rfl⟩
    · intro w hw; cases hw; exact ⟨rfl, rfl⟩
    · exact all_owned_congr rfl hg.owned
  | some T =>
    simp only
    obtain ⟨hd, hT⟩ := hg.inv0.core.target_live p ip T hp (by simp) hh
    obtain ⟨U, s2, a1, a2, a3, a4⟩ := not_reachable_from_body_ok
      (not_reachable_from_depth s.next_header) hg hp hh hb hT (Or.inl rfl)
    rw [not_reachable_from_unfold, a1]; simp only
    rw [a3]; simp only
    refine ⟨_, hb, rfl, ⟨iptr_ex_elim a2.inv2 a3 (by simp) ?_, all_owned_congr rfl a2.owned2⟩,
      U, s2, rfl, rfl, a2⟩
    intro w hw; cases hw
    exact ⟨rfl, rfl, bs, a4.trans hb, hpb⟩

/-- Deregistering a handle that has no target leaves the invariant with that handle left
out. -/
theorem deregister_inv {s : Heap} {p : Nat} {ip : internal_ptr} {bs : internal_base}
    (hinv : inv s none none) (hp : s.iptrs p = some ip) (hh : ip.header = none)
    (hb : s.bases ip.base = some bs) :
    inv (s.set_base ip.base (some { bs with pointers := bs.pointers.erase p })) (some p)
      none := by
  obtain ⟨sd, hsd⟩ : ∃ sd, sd = s.set_base ip.base
    (some { bs with pointers := bs.pointers.erase p }) := ⟨_, rfl⟩
  rw [← hsd]
  have g_b : ∀ b, b ≠ ip.base → sd.bases b = s.bases b := by
    intro b hbb; rw [hsd]; simp [Function.update_noteq hbb]
  have g_bb : sd.bases ip.base = some { bs with pointers := bs.pointers.erase p } := by
    rw [hsd]; simp
  have g_p : sd.iptrs = s.iptrs := by rw [hsd]; rfl
  have hbs : ∀ b, (sd.bases b).map internal_base.self_header =
      (s.bases b).map internal_base.self_header := by
    intro b
    by_cases hbb : b = ip.base
    · subst hbb; rw [g_bb, hb]; rfl
    · rw [g_b b hbb]
  have hsub : ∀ b base, sd.bases b = some base → ∃ base0, s.bases b = some base0 ∧
      base.self_header = base0.self_header ∧
      base.pointers.Nodup ∧ ∀ q ∈ base.pointers, q ∈ base0.pointers := by
    intro b base hb1
    by_cases hbb : b = ip.base
    · subst hbb
      rw [g_bb] at hb1; cases hb1
      exact ⟨bs, hb, rfl, (hinv.core.pointers_nodup _ bs hb).erase p,
        fun q hq => List.mem_of_mem_erase hq⟩
    · rw [g_b b hbb] at hb1
      exact ⟨base, hb1, rfl, hinv.core.pointers_nodup b base hb1, fun _ h => h⟩
  refine ⟨?_, by rw [hsd]; exact hinv.flags, ?_⟩
  · refine inv_core_transfer hinv.core (by rw [hsd]; rfl) (by rw [hsd]; rfl) (by rw [hsd]; rfl)
      (by rw [hsd]; rfl) (fun x hd hx => ⟨hd, by rw [hsd]; exact hx, same_counts_refl hd⟩)
      (fun x hx => by rw [hsd]; exact hx) ?_ ?_ ?_ ?_ ?_ ?_ ?_
    · intro q
      by_cases hq : q = p
      · subst hq
        unfold iptr_edge
        rw [hp]; simp [hh]
      · exact iptr_edge_congr (by rw [g_p]) (by simp [hq]) hbs
    · intro b base hb1
      obtain ⟨base0, f0, _⟩ := hsub b base hb1
      rw [hsd]; exact hinv.core.base_lt b base0 f0
    · rw [g_p, hsd]; exact hinv.core.iptr_lt
    · intro b base h hb1 hs
      obtain ⟨base0, f0, f1, _⟩ := hsub b base hb1
      exact ⟨base0, f0, f1 ▸ hs⟩
    · intro b base hb1 q hq
      obtain ⟨base0, f0, _, _, f2⟩ := hsub b base hb1
      rw [g_p]; exact hinv.core.ptr_of_base b base0 f0 q (f2 q hq)
    · intro b base hb1
      exact (hsub b base hb1).choose_spec.2.2.1
    · intro q iq hq hne
      rw [g_p] at hq
      obtain ⟨base0, f0, f1⟩ := hinv.core.base_of_ptr q iq hq (by simp)
      by_cases hbb : iq.base = ip.base
      · refine ⟨_, by rw [hbb]; exact g_bb, ?_⟩
        rw [hbb, hb] at f0; cases f0
        have hqp : q ≠ p := fun e => hne (by rw [e])
        exact (List.mem_erase_of_ne hqp).2 f1
      · exact ⟨base0, by rw [g_b _ hbb]; exact f0, f1⟩
  · intro x hd b hx hz hg
    obtain ⟨base0, f0, f1⟩ := hinv.header_base x hd b (by rw [hsd] at hx; exact hx) hz hg
    have := hbs b
    rw [f0] at this
    cases h1 : sd.bases b with
    | none => rw [h1] at this; cases this
    | some base =>
      rw [h1] at this; simp only [Option.map_some', Option.some.injEq] at this
      exact ⟨base, rfl, this.trans f1⟩

/-- After deregistration no `internal_base` lists the handle. -/
theorem not_mem_after_deregister {s : Heap} {p : Nat} {ip : internal_ptr} {bs : internal_base}
    (hinv : inv s none none) (hp : s.iptrs p = some ip) (hb : s.bases ip.base = some bs) :
    ∀ b base, (s.set_base ip.base (some { bs with pointers := bs.pointers.erase p })).bases b
      = some base → p ∉ base.pointers := by
  intro b base hb1 hm
  by_cases hbb : b = ip.base
  · subst hbb
    simp at hb1
    rw [← hb1] at hm
    exact ((List.Nodup.mem_erase_iff (hinv.core.pointers_nodup _ bs hb)).1 hm).1 rfl
  · simp [Function.update_noteq hbb] at hb1
    obtain ⟨iq, f1, f2⟩ := hinv.core.ptr_of_base b base hb1 p hm
    rw [hp] at f1; cases f1
    exact hbb f2.symm

theorem internal_ptr_dtor_ok {s : Heap} {p : Nat} {ip : internal_ptr} (hg : good s)
    (hp : s.iptrs p = some ip) :
    ∃ bs s1, s.bases ip.base = some bs ∧ internal_ptr_dtor p s = some s1 ∧ good s1 ∧
      unlink_result (s.set_base ip.base (some { bs with pointers := bs.pointers.erase p }))
        p ip bs.self_header none s1 := by
  obtain ⟨bs, hb, hpb⟩ := hg.inv0.core.base_of_ptr p ip hp (by simp)
  refine ⟨bs, ?_⟩
  unfold internal_ptr_dtor destroy_internal_ptr deregister_ptr unlink_result
  rw [hp]; simp only
  rw [hb]; simp only
  obtain ⟨sd, hsd⟩ : ∃ sd, sd = s.set_base ip.base
    (some { bs with pointers := bs.pointers.erase p }) := ⟨_, rfl⟩
  rw [← hsd]
  have hnm := not_mem_after_deregister hg.inv0 hp hb
  rw [← hsd] at hnm
  cases hh : ip.header with
  | none =>
    simp only
    have := deregister_inv hg.inv0 hp hh hb
    rw [← hsd] at this
    refine ⟨_, trivial, rfl, ⟨iptr_ex_elim this (by rw [hsd]; exact hp) (fun _ => hnm)
      (by intro w hw; cases hw), ?_⟩, rfl⟩
    exact all_owned_congr (by rw [hsd]; rfl) hg.owned
  | some T =>
    simp only
    obtain ⟨hd, hT⟩ := hg.inv0.core.target_live p ip T hp (by simp) hh
    obtain ⟨U, s2, a1, a2, a3, a4⟩ := not_reachable_from_body_ok
      (not_reachable_from_depth sd.next_header) hg hp hh hb hT (Or.inr hsd)
    rw [not_reachable_from_unfold, a1]; simp only
    refine ⟨_, trivial, rfl, ⟨iptr_ex_elim a2.inv2 a3 ?_ (by intro w hw; cases hw),
      all_owned_congr rfl a2.owned2⟩, U, s2, rfl, rfl, a2⟩
    intro _ b base hb2 hm
    by_cases hc : ∀ u ∈ U, ∀ hdu, (sd.unlinked T bs.self_header).headers u = some hdu →
        hdu.get_internal_base ≠ some b
    · rw [a2.col.bases_kept b hc] at hb2
      have hbe : (sd.unlinked T bs.self_header).bases = sd.bases := by
        unfold Heap.unlinked; cases sd.headers T <;> rfl
      rw [hbe] at hb2
      exact hnm b base hb2 hm
    · push_neg at hc
      obtain ⟨u, hu, hdu, f1, f2⟩ := hc
      rw [a2.col.bases_gone u hu hdu b f1 f2] at hb2; cases hb2

theorem reachable_from_eq {s : Heap} {h b : Nat} {hd : root_ptr_header_block_base}
    {base : internal_base} (hh : s.headers h = some hd) (hb : s.bases b = some base) :
    reachable_from h b s = some (s.set_header h (some (link_header hd base.self_header))) := by
  unfold reachable_from link_header
  rw [hh, hb]; simp only
  cases base.self_header <;> rfl

theorem is_owned_link {hd : root_ptr_header_block_base} (sh : Option Nat)
    (h : is_owned hd = true) : is_owned (link_header hd sh) = true := by
  unfold is_owned at h ⊢
  unfold link_header
  by_cases c : hd.owner_count ≠ 0
  · simp only; rw [if_pos c]
  · simp only; rw [if_neg c] at h ⊢
    by_cases c2 : hd.internal_count > hd.back_pointers.length
    · cases sh with
      | none => simp only; rw [if_pos (by omega)]
      | some P => simp only; rw [length_add, if_pos (by omega)]
    · rw [if_neg c2] at h; cases h

theorem mem_link {hd : root_ptr_header_block_base} (sh : Option Nat) {y : Nat}
    (h : y ∈ hd.back_pointers) : y ∈ (link_header hd sh).back_pointers := by
  unfold link_header
  cases sh with
  | none => exact h
  | some P => simp only; exact mem_add.2 (Or.inr h)

/-- A handle without an edge (cleared, or left out of the counts) is given the target `N`
and `reachable_from` is run on `N`. -/
theorem link_inv {s : Heap} {exI : Option Nat} {p N : Nat} {ip ip1 : internal_ptr}
    {bs : internal_base} {hdN : root_ptr_header_block_base}
    (hinv : inv s exI none) (hexI : exI = none ∨ exI = some p)
    (hp : s.iptrs p = some ip) (he0 : iptr_edge s exI p = none)
    (hb : s.bases ip.base = some bs) (hpb : p ∈ bs.pointers)
    (hN : s.headers N = some hdN)
    (hip1 : ip1.base = ip.base) (hh1 : ip1.header = some N) :
    inv ((s.set_iptr p (some ip1)).set_header N (some (link_header hdN bs.self_header)))
      none none := by
  obtain ⟨hd1, hhd1⟩ : ∃ hd1, hd1 = link_header hdN bs.self_header := ⟨_, rfl⟩
  rw [← hhd1]
  have e_oc : hd1.owner_count = hdN.owner_count := by rw [hhd1]; rfl
  have e_ic : hd1.internal_count = hdN.internal_count + 1 := by rw [hhd1]; rfl
  have e_bp0 : bs.self_header = none → hd1.back_pointers = hdN.back_pointers := by
    intro h; rw [hhd1]; unfold link_header; rw [h]
  have e_bp1 : ∀ P, bs.self_header = some P →
      hd1.back_pointers = add hdN.back_pointers P := by
    intro P h; rw [hhd1]; unfold link_header; rw [h]
  have e_un : hd1.unreachable = hdN.unreachable := by rw [hhd1]; rfl
  have e_de : hd1.deleted = hdN.deleted := by rw [hhd1]; rfl
  have e_gib : hd1.get_internal_base = hdN.get_internal_base := by rw [hhd1]; rfl
  clear hhd1
  obtain ⟨s1, hs1⟩ : ∃ s1, s1 = (s.set_iptr p (some ip1)).set_header N (some hd1) := ⟨_, rfl⟩
  rw [← hs1]
  have g_h : ∀ x, x ≠ N → s1.headers x = s.headers x := by
    intro x hx; rw [hs1]; simp [Function.update_noteq hx]
  have g_hN : s1.headers N = some hd1 := by rw [hs1]; simp
  have g_q : ∀ q, q ≠ p → s1.iptrs q = s.iptrs q := by
    intro q hq; rw [hs1]; simp [Function.update_noteq hq]
  have g_pp : s1.iptrs p = some ip1 := by rw [hs1]; simp
  have g_b : s1.bases = s.bases := by rw [hs1]; rfl
  have g_r : s1.roots = s.roots := by rw [hs1]; rfl
  have g_nh : s1.next_header = s.next_header := by rw [hs1]; rfl
  have g_nb : s1.next_base = s.next_base := by rw [hs1]; rfl
  have g_ni : s1.next_iptr = s.next_iptr := by rw [hs1]; rfl
  have g_nr : s1.next_root = s.next_root := by rw [hs1]; rfl
  clear hs1
  have hne : ∀ q, q ≠ p → some q ≠ exI := by
    intro q hq e
    rcases hexI with h | h
    · rw [h] at e; cases e
    · rw [h] at e; exact hq (Option.some.inj e)
  refine inv_edge (p := p) hinv g_r g_nh g_nb
    g_ni g_nr (hinv.core.iptr_lt p ip hp) he0
    (show iptr_edge s1 none p = some (N, bs.self_header) from ?_) ?_ ?_ ?_ ?_
    (by rw [g_b]; intro b; rfl) ?_ ?_
    (by rw [g_b]; exact hinv.core.pointers_nodup) ?_
  · unfold iptr_edge
    rw [g_pp, g_b]; simp only [if_false, hh1, hip1, hb]
    simp
  · intro q hq
    exact iptr_edge_congr (g_q q hq)
      ⟨fun h => (by cases h), fun h => absurd h (hne q hq)⟩ (by rw [g_b]; intro b; rfl)
  · intro t o h
    simp only [Option.some.injEq, Prod.mk.injEq] at h
    obtain ⟨h1, _⟩ := h; subst h1
    exact ⟨hdN, hN⟩
  · intro x hdx hx
    by_cases hxt : x = N
    · subst hxt
      rw [hN] at hx; cases hx
      refine ⟨hd1, g_hN, e_gib, e_oc, e_un, e_de, ?_, ?_, ?_, ?_⟩
      · cases hsh : bs.self_header with
        | none => rw [e_bp0 hsh]; exact hinv.core.bp_sorted x hdN hN
        | some P => rw [e_bp1 P hsh]; exact sorted_add P (hinv.core.bp_sorted x hdN hN)
      · intro P
        cases hsh : bs.self_header with
        | none => rw [e_bp0 hsh]; simp [edge_from]
        | some P0 =>
          rw [e_bp1 P0 hsh, count_add]
          unfold edge_from; simp only [true_and]
          by_cases c : P0 = P
          · subst c; simp
          · have c2 : ¬ P = P0 := fun e => c e.symm
            simp [c, c2]
      · cases hsh : bs.self_header with
        | none => rw [e_bp0 hsh]; simp [edge_bound]
        | some P0 => rw [e_bp1 P0 hsh, length_add]; simp [edge_bound]
      · rw [e_ic]; simp [edge_tgt]
    · have hne2 : ¬ N = x := fun h => hxt h.symm
      refine ⟨hdx, by rw [g_h x hxt]; exact hx, rfl, rfl, rfl, rfl,
        hinv.core.bp_sorted x hdx hx, ?_, ?_, ?_⟩
      · intro P
        unfold edge_from
        cases bs.self_header with
        | none => simp
        | some P0 => simp [hne2]
      · unfold edge_bound
        cases bs.self_header with
        | none => simp
        | some P0 => simp [hne2]
      · simp [edge_tgt, hne2]
  · intro x hx
    by_cases hxt : x = N
    · subst hxt; rw [hN] at hx; cases hx
    · rw [g_h x hxt]; exact hx
  · intro q iq hq
    rw [g_ni]
    by_cases hqp : q = p
    · subst hqp; exact hinv.core.iptr_lt q ip hp
    · rw [g_q q hqp] at hq; exact hinv.core.iptr_lt q iq hq
  · intro b base hb1 q hq
    rw [g_b] at hb1
    obtain ⟨iq, f1, f2⟩ := hinv.core.ptr_of_base b base hb1 q hq
    by_cases hqp : q = p
    · subst hqp
      rw [hp] at f1; cases f1
      exact ⟨ip1, g_pp, hip1.trans f2⟩
    · exact ⟨iq, by rw [g_q q hqp]; exact f1, f2⟩
  · intro q iq hq _
    rw [g_b]
    by_cases hqp : q = p
    · subst hqp
      rw [g_pp] at hq; cases hq
      exact ⟨bs, by rw [hip1]; exact hb, hpb⟩
    · rw [g_q q hqp] at hq
      exact hinv.core.base_of_ptr q iq hq (hne q hqp)

theorem all_owned_link {s s1 : Heap} {N : Nat} {hdN : root_ptr_header_block_base}
    (sh : Option Nat) (hall : all_owned s) (hN : s.headers N = some hdN)
    (h1 : s1.headers = Function.update s.headers N (some (link_header hdN sh))) :
    all_owned s1 := by
  have step : ∀ x hd, s.headers x = some hd → ∃ hd1, s1.headers x = some hd1 ∧
      (∀ y ∈ hd.back_pointers, y ∈ hd1.back_pointers) ∧
      (is_owned hd = true → is_owned hd1 = true) := by
    intro x hd hx
    by_cases hxn : x = N
    · subst hxn
      rw [hN] at hx; cases hx
      exact ⟨_, by rw [h1]; simp, fun y hy => mem_link sh hy, is_owned_link sh⟩
    · exact ⟨hd, by rw [h1]; simp [Function.update_noteq hxn, hx], fun _ h => h, id⟩
  intro x hd1 hx
  have : ∃ hd, s.headers x = some hd := by
    by_cases hxn : x = N
    · subst hxn; exact ⟨hdN, hN⟩
    · rw [h1] at hx; simp [Function.update_noteq hxn] at hx; exact ⟨hd1, hx⟩
  obtain ⟨hd, h0⟩ := this
  exact has_owner_mono step (hall x hd h0)

/-- The heap after the constructor `internal_ptr(internal_base *)`. -/
theorem internal_ptr_empty_eq {s : Heap} {b : Nat} {bs : internal_base}
    (hb : s.bases b = some bs) :
    internal_ptr_empty b s = some (({ s with next_iptr := s.next_iptr + 1 }.set_iptr s.next_iptr
      (some ⟨b, none, none⟩)).set_base b (some { bs with pointers := s.next_iptr :: bs.pointers }))
      := by
  unfold internal_ptr_empty register_ptr
  show (match s.bases b with
    | none => none
    | some base => _) = _
  rw [hb]

/-- A new handle without a target is registered with the `internal_base` at `b`. -/
theorem register_nil_inv {s : Heap} {b : Nat} {bs : internal_base} (x : Option Nat)
    (hinv : inv s none none) (hb : s.bases b = some bs) :
    inv (({ s with next_iptr := s.next_iptr + 1 }.set_iptr s.next_iptr
      (some ⟨b, none, x⟩)).set_base b (some { bs with pointers := s.next_iptr :: bs.pointers }))
      none none := by
  have hext := inv_extend_iptr hinv
  obtain ⟨se, hse⟩ : ∃ se : Heap, se = { s with next_iptr := s.next_iptr + 1 } := ⟨_, rfl⟩
  rw [← hse] at hext ⊢
  obtain ⟨p, hp⟩ : ∃ p, p = s.next_iptr := ⟨_, rfl⟩
  rw [← hp]
  have hfree : s.iptrs p = none := by
    cases h : s.iptrs p with
    | none => rfl
    | some ip => exact absurd (hinv.core.iptr_lt _ ip h) (by omega)
  obtain ⟨s1, hs1⟩ : ∃ s1, s1 = (se.set_iptr p (some ⟨b, none, x⟩)).set_base b
    (some { bs with pointers := p :: bs.pointers }) := ⟨_, rfl⟩
  rw [← hs1]
  have g_h : s1.headers = s.headers := by rw [hs1, hse]; rfl
  have g_q : ∀ q, q ≠ p → s1.iptrs q = s.iptrs q := by
    intro q hq; rw [hs1, hse]; simp [Function.update_noteq hq]
  have g_pp : s1.iptrs p = some ⟨b, none, x⟩ := by rw [hs1]; simp
  have g_b : ∀ c, c ≠ b → s1.bases c = s.bases c := by
    intro c hc; rw [hs1, hse]; simp [Function.update_noteq hc]
  have g_bb : s1.bases b = some { bs with pointers := p :: bs.pointers } := by rw [hs1]; simp
  have g_ni : s1.next_iptr = p + 1 := by rw [hs1, hse, hp]; rfl
  have e_h : se.headers = s.headers := by rw [hse]
  have e_p : se.iptrs = s.iptrs := by rw [hse]
  have e_b : se.bases = s.bases := by rw [hse]
  have hbs : ∀ c, (s1.bases c).map internal_base.self_header =
      (se.bases c).map internal_base.self_header := by
    intro c
    by_cases hc : c = b
    · subst hc; rw [g_bb, e_b, hb]; rfl
    · rw [g_b c hc, e_b]
  have hpn : p ∉ bs.pointers := by
    intro hm
    obtain ⟨iq, f1, _⟩ := hinv.core.ptr_of_base b bs hb p hm
    rw [hfree] at f1; cases f1
  refine ⟨?_, by rw [hs1, hse]; exact hinv.flags, ?_⟩
  · refine inv_core_transfer hext.core (by rw [hs1]; rfl) (by rw [hs1]; rfl) (by rw [hs1]; rfl)
      (by rw [hs1]; rfl) (fun x hd hx => ⟨hd, by rw [g_h, ← e_h]; exact hx, same_counts_refl hd⟩)
      (fun x hx => by rw [g_h, ← e_h]; exact hx) ?_ ?_ ?_ ?_ ?_ ?_ ?_
    · intro q
      by_cases hq : q = p
      · subst hq
        unfold iptr_edge
        rw [g_pp, e_p, hfree]
      · exact iptr_edge_congr (by rw [g_q q hq, e_p]) Iff.rfl hbs
    · intro c base hc
      have : s1.next_base = s.next_base := by rw [hs1, hse]; rfl
      rw [this]
      by_cases hcb : c = b
      · subst hcb; exact hinv.core.base_lt c bs hb
      · rw [g_b c hcb] at hc; exact hinv.core.base_lt c base hc
    · intro q iq hq
      rw [g_ni]
      by_cases hqp : q = p
      · omega
      · rw [g_q q hqp] at hq
        have := hinv.core.iptr_lt q iq hq
        omega
    · intro c base h hc hs
      have := hbs c
      rw [hc] at this
      cases h0 : se.bases c with
      | none => rw [h0] at this; cases this
      | some base0 =>
        rw [h0] at this; simp only [Option.map_some', Option.some.injEq] at this
        exact ⟨base0, rfl, this ▸ hs⟩
    · intro c base hc q hq
      by_cases hcb : c = b
      · subst hcb
        rw [g_bb] at hc; cases hc
        rcases List.mem_cons.1 hq with h | h
        · subst h; exact ⟨_, g_pp, rfl⟩
        · have hqp : q ≠ p := fun e => hpn (e ▸ h)
          rw [g_q q hqp]
          exact hinv.core.ptr_of_base c bs hb q h
      · rw [g_b c hcb] at hc
        have hqp : q ≠ p := by
          intro e; subst e
          obtain ⟨iq, f1, _⟩ := hinv.core.ptr_of_base c base hc q hq
          rw [hfree] at f1; cases f1
        rw [g_q q hqp]
        exact hinv.core.ptr_of_base c base hc q hq
    · intro c base hc
      by_cases hcb : c = b
      · subst hcb
        rw [g_bb] at hc; cases hc
        exact List.nodup_cons.2 ⟨hpn, hinv.core.pointers_nodup c bs hb⟩
      · rw [g_b c hcb] at hc
        exact hinv.core.pointers_nodup c base hc
    · intro q iq hq _
      by_cases hqp : q = p
      · subst hqp
        rw [g_pp] at hq; cases hq
        exact ⟨_, g_bb, List.mem_cons_self _ _⟩
      · rw [g_q q hqp] at hq
        obtain ⟨base0, f0, f1⟩ := hinv.core.base_of_ptr q iq hq (by simp)
        by_cases hcb : iq.base = b
        · rw [hcb] at f0 ⊢
          rw [hb] at f0; cases f0
          exact ⟨_, g_bb, List.mem_cons_of_mem _ f1⟩
        · exact ⟨base0, by rw [g_b _ hcb]; exact f0, f1⟩
  · intro x hd c hx hz hgib
    rw [g_h] at hx
    obtain ⟨base0, f0, f1⟩ := hinv.header_base x hd c hx hz hgib
    by_cases hcb : c = b
    · subst hcb
      rw [hb] at f0; cases f0
      exact ⟨_, g_bb, f1⟩
    · exact ⟨base0, by rw [g_b c hcb]; exact f0, f1⟩

theorem register_nil_ok {s : Heap} {b : Nat} {bs : internal_base} (x : Option Nat)
    (hg : good s) (hb : s.bases b = some bs) :
    good (({ s with next_iptr := s.next_iptr + 1 }.set_iptr s.next_iptr
      (some ⟨b, none, x⟩)).set_base b (some { bs with pointers := s.next_iptr :: bs.pointers }))
      :=
  ⟨register_nil_inv x hg.inv0 hb, all_owned_congr rfl hg.owned⟩

theorem internal_ptr_empty_ok {s : Heap} {b : Nat} {bs : internal_base} (hg : good s)
    (hb : s.bases b = some bs) :
    ∃ s1, internal_ptr_empty b s = some s1 ∧ good s1 := by
  rw [internal_ptr_empty_eq hb]
  exact ⟨_, rfl, register_nil_ok none hg hb⟩

/-- The heap after the constructors `internal_ptr(base_, p)`. -/
theorem internal_ptr_ctor_eq {s : Heap} {b : Nat} {bs : internal_base} (header x : Option Nat)
    (hb : s.bases b = some bs)
    (hN : ∀ N, header = some N → ∃ hd, s.headers N = some hd) :
    internal_ptr_ctor b header x s = some (
      match header with
      | none => ({ s with next_iptr := s.next_iptr + 1 }.set_iptr s.next_iptr
          (some ⟨b, none, x⟩)).set_base b (some { bs with pointers := s.next_iptr :: bs.pointers })
      | some N =>
        match s.headers N with
        | some hd => (({ s with next_iptr := s.next_iptr + 1 }.set_iptr s.next_iptr
            (some ⟨b, some N, x⟩)).set_base b
              (some { bs with pointers := s.next_iptr :: bs.pointers })).set_header N
                (some (link_header hd bs.self_header))
        | none => s) := by
  unfold internal_ptr_ctor register_ptr
  have hb1 : ({ s with next_iptr := s.next_iptr + 1 }.set_iptr s.next_iptr
      (some ⟨b, header, x⟩)).bases b = some bs := hb
  rw [hb1]; simp only
  cases header with
  | none => rfl
  | some N =>
    simp only
    obtain ⟨hd, hh⟩ := hN N rfl
    rw [hh]; simp only
    rw [reachable_from_eq (by simpa using hh)
      (show _ = some ({ bs with pointers := s.next_iptr :: bs.pointers } : internal_base)
        by simp)]

theorem internal_ptr_ctor_ok {s : Heap} {b : Nat} {bs : internal_base} (header x : Option Nat)
    (hg : good s) (hb : s.bases b = some bs)
    (hN : ∀ N, header = some N → ∃ hd, s.headers N = some hd) :
    ∃ s1, internal_ptr_ctor b header x s = some s1 ∧ good s1 := by
  rw [internal_ptr_ctor_eq header x hb hN]
  refine ⟨_, rfl, ?_⟩
  cases header with
  | none => exact register_nil_ok x hg hb
  | some N =>
    simp only
    obtain ⟨hd, hh⟩ := hN N rfl
    rw [hh]; simp only
    have hg1 := register_nil_ok x hg hb
    obtain ⟨sA, hsA⟩ : ∃ sA, sA = ({ s with next_iptr := s.next_iptr + 1 }.set_iptr s.next_iptr
      (some ⟨b, none, x⟩)).set_base b (some { bs with pointers := s.next_iptr :: bs.pointers })
      := ⟨_, rfl⟩
    rw [← hsA] at hg1
    have hpA : sA.iptrs s.next_iptr = some ⟨b, none, x⟩ := by rw [hsA]; simp
    have hbA : sA.bases b = some { bs with pointers := s.next_iptr :: bs.pointers } := by
      rw [hsA]; simp
    have hhA : sA.headers N = some hd := by rw [hsA]; exact hh
    have := link_inv hg1.inv0 (Or.inl rfl) hpA
      (by unfold iptr_edge; rw [hpA]; simp) hbA (List.mem_cons_self _ _) hhA
      (show (⟨b, some N, x⟩ : internal_ptr).base = _ from rfl) rfl
    have heq : (({ s with next_iptr := s.next_iptr + 1 }.set_iptr s.next_iptr
        (some ⟨b, some N, x⟩)).set_base b
          (some { bs with pointers := s.next_iptr :: bs.pointers })).set_header N
            (some (link_header hd bs.self_header)) =
        (sA.set_iptr s.next_iptr (some ⟨b, some N, x⟩)).set_header N
          (some (link_header hd bs.self_header)) := by
      rw [hsA]; simp [Heap.set_iptr, Heap.set_base, Heap.set_header]
    rw [heq]
    exact ⟨this, all_owned_link (s := sA) bs.self_header hg1.owned hhA rfl⟩

/-- A cleared handle is pointed at what the `root_ptr` value `rp` designates. -/
theorem link_root_ok {s : Heap} {p : Nat} {ip : internal_ptr} {rp : root_ptr}
    (hg : good s) (hp : s.iptrs p = some ip) (hh : ip.header = none)
    (hN : ∀ N, rp.header = some N → ∃ hd, s.headers N = some hd) :
    ∃ s1, (match rp.header with
      | some h => reachable_from h ip.base
          (s.set_iptr p (some { ip with ptr := rp.ptr, header := rp.header }))
      | none => some (s.set_iptr p (some { ip with ptr := rp.ptr, header := rp.header })))
        = some s1 ∧ good s1 := by
  obtain ⟨bs, hb, hpb⟩ := hg.inv0.core.base_of_ptr p ip hp (by simp)
  cases hrh : rp.header with
  | none =>
    simp only
    refine ⟨_, rfl, good_set_iptr_nil hg hp hh (by simp) ?_, all_owned_congr rfl hg.owned⟩
    intro w hw; cases hw; exact ⟨rfl, rfl⟩
  | some N =>
    simp only
    obtain ⟨hd, hT⟩ := hN N hrh
    rw [reachable_from_eq (by simpa using hT) (by simpa using hb)]
    refine ⟨_, rfl, ?_, ?_⟩
    · exact link_inv hg.inv0 (Or.inl rfl)
        hp (by unfold iptr_edge; rw [hp]; simp [hh]) hb hpb hT rfl rfl
    · exact all_owned_link (s := s) bs.self_header hg.owned hT rfl

theorem unlink_result_roots {sd : Heap} {p : Nat} {ip : internal_ptr} {sh : Option Nat}
    {v : Option internal_ptr} {s1 : Heap} (h : unlink_result sd p ip sh v s1) :
    s1.roots = sd.roots := by
  unfold unlink_result at h
  cases hh : ip.header with
  | none => rw [hh] at h; simp only at h; rw [h]; rfl
  | some T =>
    rw [hh] at h; simp only at h
    obtain ⟨U, s2, _, a2, a3⟩ := h
    rw [a2]
    show s2.roots = sd.roots
    rw [a3.col.roots]
    unfold Heap.unlinked; cases sd.headers T <;> rfl

theorem unlink_result_iptr {sd : Heap} {p : Nat} {ip : internal_ptr} {sh : Option Nat}
    {v : Option internal_ptr} {s1 : Heap} (h : unlink_result sd p ip sh v s1) :
    s1.iptrs p = v := by
  unfold unlink_result at h
  cases hh : ip.header with
  | none => rw [hh] at h; simp only at h; rw [h]; simp
  | some T =>
    rw [hh] at h; simp only at h
    obtain ⟨U, s2, _, a2, a3⟩ := h
    rw [a2]; simp

theorem internal_ptr_assign_root_ok {s : Heap} {p r : Nat} {ip : internal_ptr} {rp : root_ptr}
    (hg : good s) (hp : s.iptrs p = some ip) (hr : s.roots r = some rp) :
    ∃ s1, internal_ptr_assign_root p r s = some s1 ∧ good s1 := by
  obtain ⟨bs, sa, hb, a1, a2, a3⟩ := internal_ptr_reset_ok hg hp
  unfold internal_ptr_assign_root
  rw [a1]; simp only
  have hpa := unlink_result_iptr a3
  have hra : sa.roots r = some rp := by rw [unlink_result_roots a3]; exact hr
  rw [hpa, hra]; simp only
  have := link_root_ok a2 hpa rfl
    (fun N hN => a2.inv0.core.root_target_live r rp N hra (by simp) hN)
  exact this

theorem heap_ext {a b : Heap} (h1 : a.headers = b.headers) (h2 : a.bases = b.bases)
    (h3 : a.iptrs = b.iptrs) (h4 : a.roots = b.roots) (h5 : a.next_header = b.next_header)
    (h6 : a.next_base = b.next_base) (h7 : a.next_iptr = b.next_iptr)
    (h8 : a.next_root = b.next_root) (h9 : a.trace = b.trace) : a = b := by
  cases a; cases b; simp only at *; simp [*]

/-- The general form of a call `not_reachable_from`: it returns whenever the heap with the
target adjusted satisfies the invariant and the side conditions of the decrement. -/
theorem not_reachable_from_body_core {s : Heap} {exI exR : Option Nat} {T b : Nat}
    {hd : root_ptr_header_block_base} {bs : internal_base}
    (nrf : Nat → Nat → Heap → Option Heap)
    (hT : s.headers T = some hd) (hb : s.bases b = some bs) (hpos : 1 ≤ hd.internal_count)
    (hinv : inv (s.unlinked T bs.self_header) exI exR)
    (hext : ∀ p ip t, s.iptrs p = some ip → some p = exI → ip.header = some t →
      ∃ hd, (s.unlinked T bs.self_header).headers t = some hd)
    (hexh : ∀ p, exI = some p → ∀ u hd b base,
      (s.unlinked T bs.self_header).headers u = some hd →
      hd.get_internal_base = some b → s.bases b = some base → p ∈ base.pointers →
      has_owner (s.unlinked T bs.self_header) u)
    (hcomplete : ∀ x hd, (s.unlinked T bs.self_header).headers x = some hd →
      has_owner (s.unlinked T bs.self_header) x ∨ bp_path (s.unlinked T bs.self_header) x T) :
    ∃ U s2, not_reachable_from_body nrf T b s = some s2 ∧
      dec_result T (s.unlinked T bs.self_header) s2 exI exR U := by
  rw [unlinked_eq hT] at hinv hext hexh hcomplete ⊢
  unfold not_reachable_from_body
  rw [hT, hb]; simp only
  cases hshc : bs.self_header with
  | none =>
    simp only
    rw [hshc] at hinv hext hexh hcomplete
    have hhd1b : unlink_header hd none = { hd with internal_count := hd.internal_count - 1 } := by
      unfold unlink_header; simp only [dec_pos hpos]
    exact dec_internal_count_ok
      (s := s) (T := T) nrf hT hpos hhd1b
      hinv hext hexh hcomplete
  | some sh =>
    simp only
    rw [hshc] at hinv hext hexh hcomplete
    have hhd1b : unlink_header hd (some sh) =
        { ({ hd with back_pointers := remove hd.back_pointers sh } :
        root_ptr_header_block_base) with internal_count := hd.internal_count - 1 } := by
      unfold unlink_header; simp only [dec_pos hpos]
    have hst : (s.set_header T (some { hd with
        back_pointers := remove hd.back_pointers sh })).set_header T
          (some (unlink_header hd (some sh))) = s.set_header T
            (some (unlink_header hd (some sh))) := by
      rw [set_header_set_header]
    obtain ⟨U, s2, a1, a2⟩ := dec_internal_count_ok
      (s := s.set_header T (some { hd with back_pointers := remove hd.back_pointers sh }))
      (T := T) nrf
      (show (s.set_header T (some { hd with
        back_pointers := remove hd.back_pointers sh })).headers T =
          some { hd with back_pointers := remove hd.back_pointers sh } by simp) hpos hhd1b
      (by rw [hst]; exact hinv) (by rw [hst]; exact hext)
      (by rw [hst]; exact hexh) (by rw [hst]; exact hcomplete)
    rw [hst] at a2
    exact ⟨U, s2, a1, a2⟩

theorem unlink_link_header {hd : root_ptr_header_block_base} {sh : Option Nat}
    (hs : hd.back_pointers.Sorted (· ≤ ·)) (hm : ∀ P, sh = some P → P ∈ hd.back_pointers)
    (hpos : 1 ≤ hd.internal_count) :
    unlink_header (link_header hd sh) sh = link_header (unlink_header hd sh) sh := by
  unfold unlink_header link_header
  cases sh with
  | none =>
    simp only [dec_pos hpos]
    have : dec (hd.internal_count + 1) = hd.internal_count - 1 + 1 := by
      rw [dec_pos (by omega)]; omega
    rw [this]
  | some P =>
    simp only [dec_pos hpos]
    have : dec (hd.internal_count + 1) = hd.internal_count - 1 + 1 := by
      rw [dec_pos (by omega)]; omega
    rw [this, remove_add_cancel hs, add_remove_cancel hs (hm P rfl)]

/-- The invariant at the moment `operator=` has established the new edge and
`not_reachable_from` of the old target `T` has adjusted `T`. -/
theorem assign_mid_inv {s : Heap} {p T : Nat} {ip ip1 : internal_ptr} {bs : internal_base}
    {hd : root_ptr_header_block_base}
    (hg : good s) (hp : s.iptrs p = some ip) (hh : ip.header = some T)
    (hb : s.bases ip.base = some bs) (hT : s.headers T = some hd)
    (hip1 : ip1.base = ip.base)
    (hN : ∀ N, ip1.header = some N → ∃ hd, s.headers N = some hd) :
    inv ((s.retargeted p ip1 bs.self_header).unlinked T bs.self_header) none none := by
  obtain ⟨hedge, hpos, _, hmem⟩ := target_counts hg.inv0.core hp hh hb hT
  obtain ⟨_, _, hpb⟩ := hg.inv0.core.base_of_ptr p ip hp (by simp)
  have hpb : p ∈ bs.pointers := by
    obtain ⟨b2, e1, e2⟩ := hg.inv0.core.base_of_ptr p ip hp (by simp)
    rw [hb] at e1; cases e1; exact e2
  have hA := unlink_inv hg.inv0 hp hh hb hT (Or.inl rfl)
  have hAp : (s.unlinked T bs.self_header).iptrs p = some ip := by
    rw [unlinked_eq hT]; exact hp
  have hAb : (s.unlinked T bs.self_header).bases ip.base = some bs := by
    rw [unlinked_eq hT]; exact hb
  cases hh1 : ip1.header with
  | none =>
    have := iptr_ex_elim (v := some ip1) hA hAp (by simp)
      (by intro w hw; cases hw; exact ⟨hh1, hip1, bs, hAb, hpb⟩)
    have heq : (s.retargeted p ip1 bs.self_header).unlinked T bs.self_header =
        (s.unlinked T bs.self_header).set_iptr p (some ip1) := by
      unfold Heap.retargeted; rw [hh1]; simp only
      rw [unlinked_eq (s := s.set_iptr p (some ip1)) hT, unlinked_eq hT]
      rfl
    rw [heq]; exact this
  | some N =>
    obtain ⟨hdN, hN0⟩ := hN N hh1
    by_cases hNT : N = T
    · subst hNT
      rw [hT] at hN0; cases hN0
      have hAN : (s.unlinked N bs.self_header).headers N =
          some (unlink_header hd bs.self_header) := by rw [unlinked_eq hT]; simp
      have := link_inv hA (Or.inr rfl) hAp (by unfold iptr_edge; simp) hAb hpb
        hAN hip1 hh1
      have heq : (s.retargeted p ip1 bs.self_header).unlinked N bs.self_header =
          ((s.unlinked N bs.self_header).set_iptr p (some ip1)).set_header N
            (some (link_header (unlink_header hd bs.self_header) bs.self_header)) := by
        unfold Heap.retargeted; rw [hh1]; simp only; rw [hT]; simp only
        rw [unlinked_eq (show ((s.set_iptr p (some ip1)).set_header N
          (some (link_header hd bs.self_header))).headers N =
            some (link_header hd bs.self_header) by simp), unlinked_eq hT,
          unlink_link_header (hg.inv0.core.bp_sorted N hd hT) hmem hpos]
        apply heap_ext <;> simp [Heap.set_header, Heap.set_iptr]
      rw [heq]; exact this
    · have hAN : (s.unlinked T bs.self_header).headers N = some hdN := by
        rw [unlinked_eq hT]; simp [Function.update_noteq hNT, hN0]
      have := link_inv hA (Or.inr rfl) hAp (by unfold iptr_edge; simp) hAb hpb
        hAN hip1 hh1
      have heq : (s.retargeted p ip1 bs.self_header).unlinked T bs.self_header =
          ((s.unlinked T bs.self_header).set_iptr p (some ip1)).set_header N
            (some (link_header hdN bs.self_header)) := by
        unfold Heap.retargeted; rw [hh1]; simp only; rw [hN0]; simp only
        rw [unlinked_eq (show ((s.set_iptr p (some ip1)).set_header N
          (some (link_header hdN bs.self_header))).headers T = some hd
            by simp [Function.update_noteq (Ne.symm hNT), hT]), unlinked_eq hT]
        apply heap_ext <;> simp [Heap.set_header, Heap.set_iptr]
        exact Function.update_comm hNT _ _ _
      rw [heq]; exact this

theorem retargeted_headers {s : Heap} {p : Nat} {ip1 : internal_ptr} {sh : Option Nat}
    (x : Nat) : (s.headers x = none → (s.retargeted p ip1 sh).headers x = none) ∧
    ∀ hd, s.headers x = some hd → (s.retargeted p ip1 sh).headers x = some hd ∨
      (ip1.header = some x ∧ (s.retargeted p ip1 sh).headers x = some (link_header hd sh)) := by
  unfold Heap.retargeted
  cases hh : ip1.header with
  | none => exact ⟨fun h => h, fun hd h => Or.inl h⟩
  | some N =>
    simp only
    cases hN : s.headers N with
    | none => exact ⟨fun h => h, fun hd h => Or.inl h⟩
    | some hdN =>
      simp only
      by_cases hx : x = N
      · subst hx
        refine ⟨fun h => (by rw [hN] at h; cases h), fun hd h => Or.inr ⟨rfl, ?_⟩⟩
        rw [hN] at h; cases h; simp
      · refine ⟨fun h => by simp [Function.update_noteq hx, h], fun hd h => Or.inl ?_⟩
        simp [Function.update_noteq hx, h]

theorem retargeted_rest (s : Heap) (p : Nat) (ip1 : internal_ptr) (sh : Option Nat) :
    (s.retargeted p ip1 sh).bases = s.bases ∧ (s.retargeted p ip1 sh).roots = s.roots ∧
    (s.retargeted p ip1 sh).iptrs = Function.update s.iptrs p (some ip1) ∧
    (s.retargeted p ip1 sh).next_header = s.next_header ∧
    (s.retargeted p ip1 sh).trace = s.trace := by
  unfold Heap.retargeted
  cases ip1.header with
  | none => exact ⟨rfl, rfl, rfl, rfl, rfl⟩
  | some N =>
    simp only
    cases s.headers N with
    | none => exact ⟨rfl, rfl, rfl, rfl, rfl⟩
    | some hdN => exact ⟨rfl, rfl, rfl, rfl, rfl⟩

theorem unlinked_rest (s : Heap) (T : Nat) (sh : Option Nat) :
    (s.unlinked T sh).bases = s.bases ∧ (s.unlinked T sh).roots = s.roots ∧
    (s.unlinked T sh).iptrs = s.iptrs ∧ (s.unlinked T sh).next_header = s.next_header ∧
    (s.unlinked T sh).trace = s.trace ∧
    (∀ x, x ≠ T → (s.unlinked T sh).headers x = s.headers x) := by
  unfold Heap.unlinked
  cases s.headers T with
  | none => exact ⟨rfl, rfl, rfl, rfl, rfl, fun _ _ => rfl⟩
  | some hd =>
    exact ⟨rfl, rfl, rfl, rfl, rfl, fun x hx => by simp [Function.update_noteq hx]⟩

/-- Overwriting a handle that has no target. -/
theorem retargeted_good {s : Heap} {p : Nat} {ip ip1 : internal_ptr} {bs : internal_base}
    (hg : good s) (hp : s.iptrs p = some ip) (hh : ip.header = none)
    (hb : s.bases ip.base = some bs) (hip1 : ip1.base = ip.base)
    (hN : ∀ N, ip1.header = some N → ∃ hd, s.headers N = some hd) :
    good (s.retargeted p ip1 bs.self_header) := by
  have hpb : p ∈ bs.pointers := by
    obtain ⟨b2, e1, e2⟩ := hg.inv0.core.base_of_ptr p ip hp (by simp)
    rw [hb] at e1; cases e1; exact e2
  unfold Heap.retargeted
  cases hh1 : ip1.header with
  | none =>
    simp only
    refine ⟨good_set_iptr_nil hg hp hh (by simp) ?_, all_owned_congr rfl hg.owned⟩
    intro w hw; cases hw; exact ⟨hh1, hip1⟩
  | some N =>
    simp only
    obtain ⟨hd, hT⟩ := hN N hh1
    rw [hT]; simp only
    refine ⟨?_, ?_⟩
    · exact link_inv hg.inv0 (Or.inl rfl)
        hp (by unfold iptr_edge; rw [hp]; simp [hh]) hb hpb hT hip1 hh1
    · exact all_owned_link (s := s) bs.self_header hg.owned hT rfl

/-- The call `not_reachable_from` of the old target made by `operator=`. -/
theorem assign_collect {s : Heap} {p T : Nat} {ip ip1 : internal_ptr} {bs : internal_base}
    (hg : good s) (hp : s.iptrs p = some ip) (hh : ip.header = some T)
    (hb : s.bases ip.base = some bs) (hip1 : ip1.base = ip.base)
    (hN : ∀ N, ip1.header = some N → ∃ hd, s.headers N = some hd) :
    ∃ U s3, not_reachable_from T ip.base (s.retargeted p ip1 bs.self_header) = some s3 ∧
      dec_result T ((s.retargeted p ip1 bs.self_header).unlinked T bs.self_header) s3
        none none U := by
  obtain ⟨hd, hT⟩ := hg.inv0.core.target_live p ip T hp (by simp) hh
  obtain ⟨hedge, hpos, _, hmem⟩ := target_counts hg.inv0.core hp hh hb hT
  have hmid := assign_mid_inv hg hp hh hb hT hip1 hN
  obtain ⟨bA, bB, bC, bD, bE⟩ := retargeted_rest s p ip1 bs.self_header
  obtain ⟨s2, hs2⟩ : ∃ s2, s2 = s.retargeted p ip1 bs.self_header := ⟨_, rfl⟩
  rw [← hs2] at hmid bA bB bC bD bE ⊢
  have hT2 : ∃ hd2, s2.headers T = some hd2 ∧ 1 ≤ hd2.internal_count := by
    rcases (retargeted_headers (p := p) T).2 hd hT
      with h | ⟨_, h⟩
    · exact ⟨hd, hs2 ▸ h, hpos⟩
    · exact ⟨_, hs2 ▸ h, by unfold link_header; simp⟩
  obtain ⟨hd2, hT2, hpos2⟩ := hT2
  obtain ⟨uA, uB, uC, uD, uE, uF⟩ := unlinked_rest s2 T bs.self_header
  have hcomp := complete_after_removal (T := T)
    hg.owned
    (fun x hdx hxt hx => by
      rw [uF x hxt]
      rcases (retargeted_headers (p := p) x).2 hdx hx
        with h | ⟨_, h⟩
      · exact ⟨hdx, hs2 ▸ h, fun _ h => h, id⟩
      · exact ⟨_, hs2 ▸ h, fun y hy => mem_link _ hy, is_owned_link _⟩)
    (fun x hdx hx => by
      by_cases hxt : x = T
      · subst hxt; exact ⟨hd, hT⟩
      · rw [uF x hxt] at hx
        cases h0 : s.headers x with
        | none =>
          have h9 : (s.retargeted p ip1 bs.self_header).headers x = none :=
            (retargeted_headers x).1 h0
          rw [← hs2, hx] at h9; cases h9
        | some hd0 => exact ⟨hd0, rfl⟩)
  obtain ⟨U, s3, a1, a2⟩ := not_reachable_from_body_core
    (not_reachable_from_depth s2.next_header) hT2 (by rw [bA]; exact hb) hpos2 hmid
    (by intro _ _ _ _ h; cases h) (by intro _ h; cases h) hcomp
  exact ⟨U, s3, by rw [not_reachable_from_unfold, a1], a2⟩

theorem internal_ptr_assign_ok {s : Heap} {p q : Nat} {ip src : internal_ptr} (hg : good s)
    (hp : s.iptrs p = some ip) (hq : s.iptrs q = some src) :
    ∃ bs s1, s.bases ip.base = some bs ∧ internal_ptr_assign p q s = some s1 ∧ good s1 ∧
      ((src.header = ip.header ∧ src.ptr = ip.ptr ∧ s1 = s) ∨
       ((src.header ≠ ip.header ∨ src.ptr ≠ ip.ptr) ∧
         assign_result s p ip ⟨ip.base, src.header, src.ptr⟩ bs.self_header s1)) := by
  obtain ⟨bs, hb, hpb⟩ := hg.inv0.core.base_of_ptr p ip hp (by simp)
  refine ⟨bs, ?_⟩
  unfold internal_ptr_assign
  rw [hp, hq]; simp only
  by_cases hc : src.header ≠ ip.header ∨ src.ptr ≠ ip.ptr
  swap
  · rw [if_neg hc]
    push_neg at hc
    exact ⟨s, hb, rfl, hg, Or.inl ⟨hc.1, hc.2, rfl⟩⟩
  rw [if_pos hc]
  obtain ⟨ip1, hip1⟩ : ∃ ip1 : internal_ptr, ip1 = ⟨ip.base, src.header, src.ptr⟩ :=
    ⟨_, rfl⟩
  rw [← hip1]
  have e_b : ip1.base = ip.base := by rw [hip1]
  have e_h : ip1.header = src.header := by rw [hip1]
  have hN : ∀ N, ip1.header = some N → ∃ hd, s.headers N = some hd := by
    intro N h; rw [e_h] at h
    exact hg.inv0.core.target_live q src N hq (by simp) h
  -- the heap after the new edge has been established
  have hcode : ∀ sc, (src.header = none → sc = s.set_iptr p (some ip1)) →
      (∀ N hd, src.header = some N → s.headers N = some hd →
        sc = (s.set_iptr p (some ip1)).set_header N (some (link_header hd bs.self_header))) →
      sc = s.retargeted p ip1 bs.self_header := by
    intro sc h0 h1
    unfold Heap.retargeted
    rw [e_h]
    cases hsh : src.header with
    | none => exact h0 hsh
    | some N =>
      simp only
      obtain ⟨hd, hd0⟩ := hN N (e_h.trans hsh)
      rw [hd0]; exact h1 N hd hsh hd0
  have hfin : ∀ sc, sc = s.retargeted p ip1 bs.self_header →
      ∀ r : Option Heap, (ip.header = none → r = some sc) →
      (∀ T, ip.header = some T → r = not_reachable_from T ip.base sc) →
      ∃ s1, s.bases ip.base = some bs ∧ r = some s1 ∧ good s1 ∧
      ((src.header = ip.header ∧ src.ptr = ip.ptr ∧ s1 = s) ∨
       ((src.header ≠ ip.header ∨ src.ptr ≠ ip.ptr) ∧
         assign_result s p ip ip1 bs.self_header s1)) := by
    intro sc hsc r h0 h1
    subst hsc
    unfold assign_result
    cases hh : ip.header with
    | none =>
      exact ⟨_, hb, h0 hh, retargeted_good hg hp hh hb e_b hN, Or.inr ⟨hh ▸ hc, rfl⟩⟩
    | some T =>
      obtain ⟨U, s3, a1, a2⟩ := assign_collect hg hp hh hb e_b hN
      exact ⟨s3, hb, (h1 T hh).trans a1, ⟨a2.inv2, a2.owned2⟩, Or.inr ⟨hh ▸ hc, U, a2⟩⟩
  cases hsh : src.header with
  | none =>
    simp only
    rw [hsh] at hfin
    refine hfin (s.set_iptr p (some ip1))
      (hcode _ (fun _ => rfl) (fun N hd h _ => by rw [hsh] at h; cases h)) _ ?_ ?_
    · intro h; rw [h]
    · intro T h; rw [h]
  | some N =>
    simp only
    obtain ⟨hd, hd0⟩ := hN N (e_h.trans hsh)
    rw [reachable_from_eq (s := s.set_iptr p (some ip1)) hd0 hb]
    simp only
    rw [hsh] at hfin
    refine hfin ((s.set_iptr p (some ip1)).set_header N
      (some (link_header hd bs.self_header)))
      (hcode _ (fun h => by rw [hsh] at h; cases h) (fun N1 hd1 h h2 => by
        rw [hsh] at h; cases h; rw [hd0] at h2; cases h2; rfl)) _ ?_ ?_
    · intro h; rw [h]
    · intro T h; rw [h]

theorem rooted_rest (s : Heap) (v : root_ptr) :
    (s.rooted v).bases = s.bases ∧ (s.rooted v).iptrs = s.iptrs ∧
    (s.rooted v).roots = Function.update s.roots s.next_root (some v) ∧
    (s.rooted v).next_header = s.next_header ∧ (s.rooted v).next_base = s.next_base ∧
    (s.rooted v).next_iptr = s.next_iptr ∧ (s.rooted v).next_root = s.next_root + 1 ∧
    (s.rooted v).trace = s.trace := by
  unfold Heap.rooted
  cases v.header with
  | none => exact ⟨rfl, rfl, rfl, rfl, rfl, rfl, rfl, rfl⟩
  | some h =>
    simp only
    cases s.headers h with
    | none => exact ⟨rfl, rfl, rfl, rfl, rfl, rfl, rfl, rfl⟩
    | some hd => exact ⟨rfl, rfl, rfl, rfl, rfl, rfl, rfl, rfl⟩

theorem rooted_headers (s : Heap) (v : root_ptr) (x : Nat) :
    (s.headers x = none → (s.rooted v).headers x = none) ∧
    ∀ hd, s.headers x = some hd →
      (v.header ≠ some x ∧ (s.rooted v).headers x = some hd) ∨
      (v.header = some x ∧ (s.rooted v).headers x = some (own_header hd)) := by
  unfold Heap.rooted
  cases hh : v.header with
  | none => exact ⟨fun h => h, fun hd h => Or.inl ⟨by simp, h⟩⟩
  | some N =>
    simp only
    by_cases hx : x = N
    · subst hx
      cases hN : s.headers x with
      | none => exact ⟨fun _ => hN, fun hd h => by cases h⟩
      | some hdN =>
        refine ⟨fun h => (by cases h), fun hd h => Or.inr ⟨rfl, ?_⟩⟩
        cases h; simp
    · have hne : ¬ N = x := fun e => hx e.symm
      cases hN : s.headers N with
      | none => exact ⟨fun h => h, fun hd h => Or.inl ⟨by simp [hne], h⟩⟩
      | some hdN =>
        refine ⟨fun h => ?_, fun hd h => Or.inl ⟨by simp [hne], ?_⟩⟩
        · simp [Function.update_noteq hx, h]
        · simp [Function.update_noteq hx, h]

theorem is_owned_own (hd : root_ptr_header_block_base) : is_owned (own_header hd) = true := by
  unfold is_owned own_header; simp

theorem rooted_good {s : Heap} (v : root_ptr) (hg : good s)
    (hv : ∀ h, v.header = some h → ∃ hd, s.headers h = some hd) :
    good (s.rooted v) := by
  obtain ⟨rB, rI, rR, rNH, rNB, rNI, rNR, rT⟩ := rooted_rest s v
  have hH := rooted_headers s v
  obtain ⟨F, hF⟩ : ∃ F, F = s.rooted v := ⟨_, rfl⟩
  rw [← hF] at rB rI rR rNH rNB rNI rNR rT hH ⊢
  clear hF
  have hfree : s.roots s.next_root = none := by
    cases h : s.roots s.next_root with
    | none => rfl
    | some ip => exact absurd (hg.inv0.core.root_lt _ ip h) (by omega)
  have hlive : ∀ x hd, s.headers x = some hd → ∃ hd1, F.headers x = some hd1 := by
    intro x hd hx
    rcases (hH x).2 hd hx with ⟨_, h⟩ | ⟨_, h⟩
    · exact ⟨_, h⟩
    · exact ⟨_, h⟩
  have back : ∀ x hd1, F.headers x = some hd1 → ∃ hd, s.headers x = some hd := by
    intro x hd1 hx
    cases h : s.headers x with
    | none => rw [(hH x).1 h] at hx; cases hx
    | some hd => exact ⟨hd, rfl⟩
  refine ⟨⟨?_, ?_, ?_⟩, ?_⟩
  · refine inv_core_reroot hg.inv0.core rNH rNI
      (fun q => by unfold iptr_edge; rw [rI, rB]) ?_ (fun x hx => (hH x).1 hx) ?_
      (by rw [rB, rNB]; exact hg.inv0.core.base_lt) (by rw [rI, rNI]; exact hg.inv0.core.iptr_lt)
      ?_ (fun b base h hx hs => ⟨base, by rw [← rB]; exact hx, hs⟩)
      (by rw [rB, rI]; exact hg.inv0.core.ptr_of_base)
      (by rw [rB]; exact hg.inv0.core.pointers_nodup)
      (by rw [rB, rI]; exact hg.inv0.core.base_of_ptr) ?_ ?_
    · intro x hd hx
      rcases (hH x).2 hd hx with ⟨_, h⟩ | ⟨_, h⟩
      · exact ⟨hd, h, rfl, rfl, rfl⟩
      · exact ⟨_, h, rfl, rfl, by unfold own_header; simp only; omega⟩
    · intro x hd1 hx
      obtain ⟨hd, h0⟩ := back x hd1 hx
      have hc : root_count F none x =
          root_count s none x + (if v.header = some x then 1 else 0) := by
        unfold root_count
        rw [rNR, count_upto_succ]
        congr 1
        · apply count_upto_congr
          intro q hq
          unfold root_targets
          rw [rR, Function.update_noteq (by omega)]
        · unfold root_targets
          rw [rR]; simp
      rw [hc, ← hg.inv0.core.owner_count_eq x hd h0]
      rcases (hH x).2 hd h0 with ⟨h1, h⟩ | ⟨h1, h⟩
      · rw [hx] at h; cases h; simp [h1]
      · rw [hx] at h; cases h; simp [h1, own_header]
    · intro q rq hq
      rw [rNR]
      by_cases hqn : q = s.next_root
      · omega
      · rw [rR, Function.update_noteq hqn] at hq
        have := hg.inv0.core.root_lt q rq hq
        omega
    · intro p ip t hp _ ht
      rw [rI] at hp
      obtain ⟨hd, e1⟩ := hg.inv0.core.target_live p ip t hp (by simp) ht
      exact hlive t hd e1
    · intro q rq t hq _ ht
      by_cases hqn : q = s.next_root
      · subst hqn
        rw [rR] at hq; simp at hq
        subst hq
        obtain ⟨hd, e1⟩ := hv t ht
        exact hlive t hd e1
      · rw [rR, Function.update_noteq hqn] at hq
        obtain ⟨hd, e1⟩ := hg.inv0.core.root_target_live q rq t hq (by simp) ht
        exact hlive t hd e1
  · intro x hd1 hx _
    obtain ⟨hd, h0⟩ := back x hd1 hx
    rcases (hH x).2 hd h0 with ⟨_, h⟩ | ⟨_, h⟩
    · rw [hx] at h; cases h; exact hg.inv0.flags x hd1 h0 (by simp)
    · rw [hx] at h; cases h; exact hg.inv0.flags x hd h0 (by simp)
  · intro x hd1 b hx _ hgib
    rw [rB]
    obtain ⟨hd, h0⟩ := back x hd1 hx
    rcases (hH x).2 hd h0 with ⟨_, h⟩ | ⟨_, h⟩
    · rw [hx] at h; cases h; exact hg.inv0.header_base x hd1 b h0 (by simp) hgib
    · rw [hx] at h; cases h; exact hg.inv0.header_base x hd b h0 (by simp) hgib
  · intro x hd1 hx
    obtain ⟨hd, h0⟩ := back x hd1 hx
    refine has_owner_mono ?_ (hg.owned x hd h0)
    intro y hdy hy
    rcases (hH y).2 hdy hy with ⟨_, h⟩ | ⟨_, h⟩
    · exact ⟨_, h, fun _ h => h, id⟩
    · exact ⟨_, h, fun _ h => h, fun _ => is_owned_own hdy⟩

theorem root_ptr_default_eq (s : Heap) : root_ptr_default s = s.rooted ⟨none, none⟩ := rfl

theorem add_owner_eq {s : Heap} {h : Nat} {hd : root_ptr_header_block_base}
    (hh : s.headers h = some hd) :
    add_owner h s = some (s.set_header h (some (own_header hd))) := by
  unfold add_owner; rw [hh]; rfl

theorem rooted_eq_some {s : Heap} {v : root_ptr} {h : Nat} {hd : root_ptr_header_block_base}
    (hv : v.header = some h) (hh : s.headers h = some hd) :
    s.rooted v = ({ s with next_root := s.next_root + 1 }.set_root s.next_root
      (some v)).set_header h (some (own_header hd)) := by
  unfold Heap.rooted; rw [hv]; simp only; rw [hh]

theorem rooted_eq_none {s : Heap} {v : root_ptr} (hv : v.header = none) :
    s.rooted v = { s with next_root := s.next_root + 1 }.set_root s.next_root (some v) := by
  unfold Heap.rooted; rw [hv]

theorem root_ptr_copy_ok {s : Heap} {r : Nat} {rp : root_ptr} (hg : good s)
    (hr : s.roots r = some rp) :
    root_ptr_copy r s = some (s.rooted rp) ∧ good (s.rooted rp) := by
  have hv : ∀ h, rp.header = some h → ∃ hd, s.headers h = some hd :=
    fun h hh => hg.inv0.core.root_target_live r rp h hr (by simp) hh
  refine ⟨?_, rooted_good rp hg hv⟩
  unfold root_ptr_copy
  rw [hr]; simp only
  cases hh : rp.header with
  | none => simp only; rw [rooted_eq_none hh]
  | some h =>
    simp only
    obtain ⟨hd, hd0⟩ := hv h hh
    rw [rooted_eq_some hh hd0]
    exact add_owner_eq (s := { s with next_root := s.next_root + 1 }.set_root s.next_root
      (some rp)) hd0

theorem root_ptr_alias_ok {s : Heap} {r : Nat} {rp : root_ptr} (x : Option Nat) (hg : good s)
    (hr : s.roots r = some rp) :
    root_ptr_alias r x s = some (s.rooted ⟨x, rp.header⟩) ∧ good (s.rooted ⟨x, rp.header⟩) := by
  have hv : ∀ h, rp.header = some h → ∃ hd, s.headers h = some hd :=
    fun h hh => hg.inv0.core.root_target_live r rp h hr (by simp) hh
  refine ⟨?_, rooted_good ⟨x, rp.header⟩ hg hv⟩
  unfold root_ptr_alias
  rw [hr]; simp only
  cases hh : rp.header with
  | none => simp only; rw [rooted_eq_none rfl]
  | some h =>
    simp only
    obtain ⟨hd, hd0⟩ := hv h hh
    rw [rooted_eq_some (v := ⟨x, some h⟩) rfl hd0]
    exact add_owner_eq (s := { s with next_root := s.next_root + 1 }.set_root s.next_root
      (some ⟨x, some h⟩)) hd0

theorem root_ptr_from_internal_ok {s : Heap} {p : Nat} {ip : internal_ptr} (hg : good s)
    (hp : s.iptrs p = some ip) :
    root_ptr_from_internal p s = some (s.rooted ⟨ip.ptr, ip.header⟩) ∧
      good (s.rooted ⟨ip.ptr, ip.header⟩) := by
  have hv : ∀ h, ip.header = some h → ∃ hd, s.headers h = some hd :=
    fun h hh => hg.inv0.core.target_live p ip h hp (by simp) hh
  refine ⟨?_, rooted_good ⟨ip.ptr, ip.header⟩ hg hv⟩
  unfold root_ptr_from_internal
  rw [hp]; simp only
  cases hh : ip.header with
  | none => simp only; rw [rooted_eq_none rfl]
  | some h =>
    simp only
    obtain ⟨hd, hd0⟩ := hv h hh
    have hun : hd.unreachable = false := (hg.inv0.flags h hd hd0 (by simp)).1
    rw [rooted_eq_some (v := ⟨ip.ptr, some h⟩) rfl hd0]
    unfold owner_from_internal
    have : ({ s with next_root := s.next_root + 1 } : Heap).headers h = some hd := hd0
    rw [this]; simp only
    rw [if_neg (by rw [hun]; simp)]
    rfl

theorem count_upto_update_lt {n : Nat} {f g : Nat → Bool} {i : Nat}
    (h : ∀ x, x < n → x ≠ i → f x = g x) (hi : i < n) :
    count_upto n g + (if f i then 1 else 0) = count_upto n f + (if g i then 1 else 0) := by
  have h1 := count_upto_update (n := n) (f := f) (g := fun x => if x < n then g x else f x)
    (i := i) (fun x hx => by
      by_cases hxn : x < n
      · simp [hxn, h x hxn hx]
      · simp [hxn]) hi
  simp only [hi, if_true] at h1
  rw [count_upto_congr (f := fun x => if x < n then g x else f x) (g := g)
    (fun x hx => by simp [hx])] at h1
  exact h1

theorem count_upto_two {n : Nat} {f g : Nat → Bool} {a b : Nat} (ha : a < n) (hb : b < n)
    (hab : a ≠ b) (h : ∀ x, x ≠ a → x ≠ b → g x = f x)
    (hsum : (if g a then 1 else 0) + (if g b then 1 else 0) =
      (if f a then 1 else 0) + (if f b then 1 else 0)) :
    count_upto n g = count_upto n f := by
  have h1 := count_upto_update (n := n) (f := f) (g := fun x => if x = a then g a else f x)
    (i := a) (fun x hx => by simp [hx]) ha
  have h2 := count_upto_update (n := n) (f := fun x => if x = a then g a else f x) (g := g)
    (i := b) (fun x hx => by
      by_cases hxa : x = a
      · subst hxa; simp
      · simp [hxa, h x hxa hx]) hb
  simp only [if_true] at h1
  have hba : ¬ b = a := fun e => hab e.symm
  simp only [hba, if_false] at h2
  omega

/-- Transfer of the invariant when only the table of `root_ptr` handles changes and every
header is shared by as many handles as before. -/
theorem good_reroot {s F : Heap} (hg : good s)
    (hH : F.headers = s.headers) (hB : F.bases = s.bases) (hI : F.iptrs = s.iptrs)
    (hNH : F.next_header = s.next_header) (hNB : F.next_base = s.next_base)
    (hNI : F.next_iptr = s.next_iptr)
    (hc : ∀ x, root_count F none x = root_count s none x)
    (hrl : ∀ r rp, F.roots r = some rp → r < F.next_root)
    (hrt : ∀ r rp t, F.roots r = some rp → rp.header = some t →
      ∃ r0 rp0, s.roots r0 = some rp0 ∧ rp0.header = some t) : good F := by
  refine ⟨⟨?_, by unfold flags_ok; rw [hH]; exact hg.inv0.flags,
    by unfold header_base_ok; rw [hH, hB]; exact hg.inv0.header_base⟩,
    all_owned_congr hH hg.owned⟩
  refine inv_core_reroot hg.inv0.core hNH hNI
    (fun q => by unfold iptr_edge; rw [hI, hB])
    (fun x hd hx => ⟨hd, by rw [hH]; exact hx, rfl, rfl, rfl⟩)
    (fun x hx => by rw [hH]; exact hx) ?_
    (by rw [hB, hNB]; exact hg.inv0.core.base_lt) (by rw [hI, hNI]; exact hg.inv0.core.iptr_lt)
    hrl (fun b base h hx hs => ⟨base, by rw [← hB]; exact hx, hs⟩)
    (by rw [hB, hI]; exact hg.inv0.core.ptr_of_base)
    (by rw [hB]; exact hg.inv0.core.pointers_nodup)
    (by rw [hB, hI]; exact hg.inv0.core.base_of_ptr)
    (by rw [hI, hH]; exact hg.inv0.core.target_live) ?_
  · intro x hd1 hx
    rw [hH] at hx
    rw [hc, hg.inv0.core.owner_count_eq x hd1 hx]
  · intro r rp t hr _ ht
    obtain ⟨r0, rp0, e1, e2⟩ := hrt r rp t hr ht
    rw [hH]
    exact hg.inv0.core.root_target_live r0 rp0 t e1 (by simp) e2

theorem root_ptr_move_ok {s : Heap} {r : Nat} {rp : root_ptr} (hg : good s)
    (hr : s.roots r = some rp) :
    ∃ s1, root_ptr_move r s = some s1 ∧ good s1 := by
  unfold root_ptr_move
  rw [hr]
  refine ⟨_, rfl, ?_⟩
  obtain ⟨n, hn⟩ : ∃ n, n = s.next_root := ⟨_, rfl⟩
  have hrn : r < n := by rw [hn]; exact hg.inv0.core.root_lt r rp hr
  have hfree : s.roots n = none := by
    cases h : s.roots n with
    | none => rfl
    | some ip => exact absurd (hg.inv0.core.root_lt _ ip h) (by omega)
  obtain ⟨F, hF⟩ : ∃ F, F = ({ s with next_root := s.next_root + 1 }.set_root s.next_root
    (some rp)).set_root r (some ⟨none, none⟩) := ⟨_, rfl⟩
  rw [← hF]
  have g_r : F.roots r = some ⟨none, none⟩ := by rw [hF]; simp
  have g_n : F.roots n = some rp := by
    rw [hF, hn]; simp [Function.update_noteq (show s.next_root ≠ r by omega)]
  have g_q : ∀ q, q ≠ r → q ≠ n → F.roots q = s.roots q := by
    intro q h1 h2; rw [hF]; rw [hn] at h2
    simp [Function.update_noteq h1, Function.update_noteq h2]
  have g_nr : F.next_root = n + 1 := by rw [hF, hn]; rfl
  refine good_reroot hg (by rw [hF]; rfl) (by rw [hF]; rfl) (by rw [hF]; rfl) (by rw [hF]; rfl)
    (by rw [hF]; rfl) (by rw [hF]; rfl) ?_ ?_ ?_
  · intro x
    unfold root_count
    rw [g_nr, ← hn, count_upto_succ]
    have h1 := count_upto_update_lt (n := n) (f := root_targets s none x)
      (g := root_targets F none x) (i := r) (fun q hqn hq => by
        unfold root_targets; rw [g_q q hq (by omega)]) hrn
    have h2 : root_targets F none x r = false := by unfold root_targets; rw [g_r]; simp
    have h3 : root_targets F none x n = root_targets s none x r := by
      unfold root_targets; rw [g_n, hr]; simp
    rw [h3]; rw [h2] at h1
    simp only [Bool.false_eq_true, if_false] at h1
    omega
  · intro q rq hq
    rw [g_nr]
    by_cases hqn : q = n
    · omega
    · by_cases hqr : q = r
      · omega
      · rw [g_q q hqr hqn] at hq
        have := hg.inv0.core.root_lt q rq hq
        omega
  · intro q rq t hq ht
    by_cases hqn : q = n
    · subst hqn; rw [g_n] at hq; cases hq; exact ⟨r, _, hr, ht⟩
    · by_cases hqr : q = r
      · subst hqr; rw [g_r] at hq; cases hq; cases ht
      · rw [g_q q hqr hqn] at hq; exact ⟨q, rq, hq, ht⟩

theorem root_ptr_swap_ok {s : Heap} {a b : Nat} {ra rb : root_ptr} (hg : good s)
    (ha : s.roots a = some ra) (hb : s.roots b = some rb) :
    ∃ s1, root_ptr_swap a b s = some s1 ∧ good s1 := by
  unfold root_ptr_swap
  rw [ha, hb]
  refine ⟨_, rfl, ?_⟩
  obtain ⟨F, hF⟩ : ∃ F, F = (s.set_root a (some rb)).set_root b (some ra) := ⟨_, rfl⟩
  rw [← hF]
  have g_b : F.roots b = some ra := by rw [hF]; simp
  have g_a : a ≠ b → F.roots a = some rb := by
    intro h; rw [hF]; simp [Function.update_noteq h]
  have g_q : ∀ q, q ≠ a → q ≠ b → F.roots q = s.roots q := by
    intro q h1 h2; rw [hF]
    simp [Function.update_noteq h1, Function.update_noteq h2]
  have hal := hg.inv0.core.root_lt a ra ha
  have hbl := hg.inv0.core.root_lt b rb hb
  refine good_reroot hg (by rw [hF]; rfl) (by rw [hF]; rfl) (by rw [hF]; rfl) (by rw [hF]; rfl)
    (by rw [hF]; rfl) (by rw [hF]; rfl) ?_ ?_ ?_
  · intro x
    unfold root_count
    have hn : F.next_root = s.next_root := by rw [hF]; rfl
    rw [hn]
    by_cases hab : a = b
    · subst hab
      rw [ha] at hb; cases hb
      apply count_upto_congr
      intro q _
      unfold root_targets
      by_cases hq : q = a
      · subst hq; rw [g_b, ha]
      · rw [g_q q hq hq]
    · apply count_upto_two hal hbl hab
      · intro q h1 h2; unfold root_targets; rw [g_q q h1 h2]
      · have e1 : root_targets F none x a = root_targets s none x b := by
          unfold root_targets; rw [g_a hab, hb]; simp
        have e2 : root_targets F none x b = root_targets s none x a := by
          unfold root_targets; rw [g_b, ha]; simp
        rw [e1, e2]; omega
  · intro q rq hq
    have hn : F.next_root = s.next_root := by rw [hF]; rfl
    rw [hn]
    by_cases hqb : q = b
    · subst hqb; exact hbl
    · by_cases hqa : q = a
      · subst hqa; exact hal
      · rw [g_q q hqa hqb] at hq; exact hg.inv0.core.root_lt q rq hq
  · intro q rq t hq ht
    by_cases hqb : q = b
    · subst hqb; rw [g_b] at hq; cases hq; exact ⟨a, _, ha, ht⟩
    · by_cases hqa : q = a
      · subst hqa; rw [g_a hqb] at hq; cases hq; exact ⟨b, _, hb, ht⟩
      · rw [g_q q hqa hqb] at hq; exact ⟨q, rq, hq, ht⟩

theorem iptr_edge_congr_bind {s s1 : Heap} {ex ex1 : Option Nat} {q : Nat}
    (hq : s1.iptrs q = s.iptrs q) (hx : some q = ex1 ↔ some q = ex)
    (hbs : ∀ b, (s1.bases b).bind internal_base.self_header =
      (s.bases b).bind internal_base.self_header) :
    iptr_edge s1 ex1 q = iptr_edge s ex q := by
  unfold iptr_edge
  rw [hq]
  by_cases c : some q = ex
  · rw [if_pos c, if_pos (hx.2 c)]
  · rw [if_neg c, if_neg (fun h => c (hx.1 h))]
    cases s.iptrs q with
    | none => rfl
    | some ip =>
      simp only
      cases ip.header with
      | none => rfl
      | some t =>
        simp only
        have := hbs ip.base
        cases h1 : s1.bases ip.base <;> cases h0 : s.bases ip.base <;>
          rw [h1, h0] at this <;> simp_all

theorem internal_base_ctor_ok {s : Heap} (hg : good s) : good (internal_base_ctor s) := by
  unfold internal_base_ctor
  obtain ⟨n, hn⟩ : ∃ n, n = s.next_base := ⟨_, rfl⟩
  have hfree : s.bases n = none := by
    cases h : s.bases n with
    | none => rfl
    | some ip => exact absurd (hg.inv0.core.base_lt _ ip h) (by omega)
  obtain ⟨F, hF⟩ : ∃ F, F = { s with next_base := s.next_base + 1 }.set_base s.next_base
    (some ⟨none, []⟩) := ⟨_, rfl⟩
  rw [← hF]
  have g_n : F.bases n = some ⟨none, []⟩ := by rw [hF, hn]; simp
  have g_q : ∀ q, q ≠ n → F.bases q = s.bases q := by
    intro q h; rw [hF]; rw [hn] at h; simp [Function.update_noteq h]
  have g_h : F.headers = s.headers := by rw [hF]; rfl
  have g_p : F.iptrs = s.iptrs := by rw [hF]; rfl
  have hbs : ∀ b base, F.bases b = some base → b ≠ n → s.bases b = some base := by
    intro b base h1 h2; rw [g_q b h2] at h1; exact h1
  refine ⟨⟨?_, by rw [hF]; exact hg.inv0.flags, ?_⟩, all_owned_congr g_h hg.owned⟩
  · refine inv_core_transfer hg.inv0.core (by rw [hF]; rfl) (by rw [hF]; rfl) (by rw [hF]; rfl)
      (by rw [hF]; rfl) (fun x hd hx => ⟨hd, by rw [g_h]; exact hx, same_counts_refl hd⟩)
      (fun x hx => by rw [g_h]; exact hx) ?_ ?_ (by rw [g_p, hF]; exact hg.inv0.core.iptr_lt)
      ?_ ?_ ?_ ?_
    · intro q
      apply iptr_edge_congr_bind (by rw [g_p]) Iff.rfl
      intro b
      by_cases hbn : b = n
      · subst hbn; rw [g_n, hfree]; rfl
      · rw [g_q b hbn]
    · intro b base hb
      have : F.next_base = n + 1 := by rw [hF, hn]; rfl
      rw [this]
      by_cases hbn : b = n
      · omega
      · have := hg.inv0.core.base_lt b base (hbs b base hb hbn); omega
    · intro b base h hb hs
      by_cases hbn : b = n
      · subst hbn; rw [g_n] at hb; cases hb; cases hs
      · exact ⟨base, hbs b base hb hbn, hs⟩
    · intro b base hb q hq
      by_cases hbn : b = n
      · subst hbn; rw [g_n] at hb; cases hb; simp at hq
      · rw [g_p]; exact hg.inv0.core.ptr_of_base b base (hbs b base hb hbn) q hq
    · intro b base hb
      by_cases hbn : b = n
      · subst hbn; rw [g_n] at hb; cases hb; exact List.nodup_nil
      · exact hg.inv0.core.pointers_nodup b base (hbs b base hb hbn)
    · intro q iq hq _
      rw [g_p] at hq
      obtain ⟨base, e1, e2⟩ := hg.inv0.core.base_of_ptr q iq hq (by simp)
      have : iq.base ≠ n := by intro e; rw [e, hfree] at e1; cases e1
      exact ⟨base, by rw [g_q _ this]; exact e1, e2⟩
  · intro x hd b hx _ hgib
    rw [g_h] at hx
    obtain ⟨base, e1, e2⟩ := hg.inv0.header_base x hd b hx (by simp) hgib
    have : b ≠ n := by intro e; rw [e, hfree] at e1; cases e1
    exact ⟨base, by rw [g_q _ this]; exact e1, e2⟩

theorem internal_base_dtor_ok {s : Heap} {b : Nat} {bs : internal_base} (hg : good s)
    (hb : s.bases b = some bs) (hp : bs.pointers = []) (hs : bs.self_header = none) :
    ∃ s1, internal_base_dtor b s = some s1 ∧ good s1 := by
  unfold internal_base_dtor
  rw [hb]
  refine ⟨_, rfl, ?_⟩
  obtain ⟨F, hF⟩ : ∃ F, F = s.set_base b none := ⟨_, rfl⟩
  rw [← hF]
  have g_n : F.bases b = none := by rw [hF]; simp
  have g_q : ∀ q, q ≠ b → F.bases q = s.bases q := by
    intro q h; rw [hF]; simp [Function.update_noteq h]
  have g_h : F.headers = s.headers := by rw [hF]; rfl
  have g_p : F.iptrs = s.iptrs := by rw [hF]; rfl
  have hbs : ∀ c base, F.bases c = some base → c ≠ b ∧ s.bases c = some base := by
    intro c base h1
    by_cases hcb : c = b
    · subst hcb; rw [g_n] at h1; cases h1
    · rw [g_q c hcb] at h1; exact ⟨hcb, h1⟩
  refine ⟨⟨?_, by rw [hF]; exact hg.inv0.flags, ?_⟩, all_owned_congr g_h hg.owned⟩
  · refine inv_core_transfer hg.inv0.core (by rw [hF]; rfl) (by rw [hF]; rfl) (by rw [hF]; rfl)
      (by rw [hF]; rfl) (fun x hd hx => ⟨hd, by rw [g_h]; exact hx, same_counts_refl hd⟩)
      (fun x hx => by rw [g_h]; exact hx) ?_ ?_ (by rw [g_p, hF]; exact hg.inv0.core.iptr_lt)
      ?_ ?_ ?_ ?_
    · intro q
      apply iptr_edge_congr_bind (by rw [g_p]) Iff.rfl
      intro c
      by_cases hcb : c = b
      · subst hcb; rw [g_n, hb]; simp [hs]
      · rw [g_q c hcb]
    · intro c base hc
      have : F.next_base = s.next_base := by rw [hF]; rfl
      rw [this]
      exact hg.inv0.core.base_lt c base (hbs c base hc).2
    · intro c base h hc hsh
      exact ⟨base, (hbs c base hc).2, hsh⟩
    · intro c base hc q hq
      rw [g_p]; exact hg.inv0.core.ptr_of_base c base (hbs c base hc).2 q hq
    · intro c base hc
      exact hg.inv0.core.pointers_nodup c base (hbs c base hc).2
    · intro q iq hq _
      rw [g_p] at hq
      obtain ⟨base, e1, e2⟩ := hg.inv0.core.base_of_ptr q iq hq (by simp)
      have : iq.base ≠ b := by
        intro e; rw [e, hb] at e1; cases e1; rw [hp] at e2; simp at e2
      exact ⟨base, by rw [g_q _ this]; exact e1, e2⟩
  · intro x hd c hx _ hgib
    rw [g_h] at hx
    obtain ⟨base, e1, e2⟩ := hg.inv0.header_base x hd c hx (by simp) hgib
    have : c ≠ b := by
      intro e; rw [e, hb] at e1; cases e1; rw [hs] at e2; cases e2
    exact ⟨base, by rw [g_q _ this]; exact e1, e2⟩

theorem link_unlink_header {hd : root_ptr_header_block_base} {sh : Option Nat}
    (hs : hd.back_pointers.Sorted (· ≤ ·)) (hm : ∀ P, sh = some P → P ∈ hd.back_pointers)
    (hpos : 1 ≤ hd.internal_count) :
    link_header (unlink_header hd sh) sh = hd := by
  unfold unlink_header link_header
  have e : dec hd.internal_count + 1 = hd.internal_count := by rw [dec_pos hpos]; omega
  cases sh with
  | none => simp only [e]
  | some P => simp only [e, add_remove_cancel hs (hm P rfl)]

theorem internal_ptr_move_ok {s : Heap} {p : Nat} {ip : internal_ptr} (hg : good s)
    (hp : s.iptrs p = some ip) :
    ∃ s1, internal_ptr_move p s = some s1 ∧ good s1 := by
  obtain ⟨bs, hb, hpb⟩ := hg.inv0.core.base_of_ptr p ip hp (by simp)
  unfold internal_ptr_move register_ptr
  rw [hp]; simp only
  have hb1 : ({ s with next_iptr := s.next_iptr + 1 }.set_iptr s.next_iptr (some ip)).bases
      ip.base = some bs := hb
  rw [hb1]; simp only
  refine ⟨_, rfl, ?_, all_owned_congr rfl hg.owned⟩
  have hpn : p ≠ s.next_iptr := by
    have := hg.inv0.core.iptr_lt p ip hp; omega
  obtain ⟨b, x, ih⟩ : ∃ b x ih, ip = ⟨b, ih, x⟩ := ⟨ip.base, ip.ptr, ip.header, rfl⟩
  obtain ⟨ih, hip⟩ := ih
  subst hip
  simp only at hb hb1 hpb ⊢
  cases ih with
  | none =>
    have h1 := register_nil_inv x hg.inv0 hb
    obtain ⟨sr, hsr⟩ : ∃ sr, sr = ({ s with next_iptr := s.next_iptr + 1 }.set_iptr
      s.next_iptr (some ⟨b, none, x⟩)).set_base b
        (some { bs with pointers := s.next_iptr :: bs.pointers }) := ⟨_, rfl⟩
    rw [← hsr] at h1 ⊢
    have hpr : sr.iptrs p = some ⟨b, none, x⟩ := by
      rw [hsr]; simp [Function.update_noteq hpn, hp]
    exact good_set_iptr_nil ⟨h1, all_owned_congr (by rw [hsr]; rfl) hg.owned⟩ hpr rfl
      (by simp) (by intro w hw; cases hw; exact ⟨rfl, rfl⟩)
  | some T =>
    obtain ⟨hd, hT⟩ := hg.inv0.core.target_live p _ T hp (by simp) rfl
    obtain ⟨hedge, hpos, _, hmem⟩ := target_counts hg.inv0.core hp rfl hb hT
    have hA := unlink_inv hg.inv0 hp rfl hb hT (Or.inl rfl)
    obtain ⟨uA, uB, uC, uD, uE, uF⟩ := unlinked_rest s T bs.self_header
    have hAT : (s.unlinked T bs.self_header).headers T =
        some (unlink_header hd bs.self_header) := by rw [unlinked_eq hT]; simp
    obtain ⟨su, hsu⟩ : ∃ su, su = s.unlinked T bs.self_header := ⟨_, rfl⟩
    rw [← hsu] at hA uA uB uC uD uE uF hAT
    have hsuni : su.next_iptr = s.next_iptr := by rw [hsu]; unfold Heap.unlinked; rw [hT]; rfl
    have hB := iptr_ex_elim (v := some ⟨b, none, none⟩) hA (by rw [uC]; exact hp) (by simp)
      (by intro w hw; cases hw; exact ⟨rfl, rfl, bs, by rw [uA]; exact hb, hpb⟩)
    have hC := register_nil_inv (b := b) x hB
      (show (su.set_iptr p (some ⟨b, none, none⟩)).bases b = some bs from by
        show su.bases b = some bs
        rw [uA]; exact hb)
    obtain ⟨sb, hsb⟩ : ∃ sb, sb = ({ su.set_iptr p (some ⟨b, none, none⟩) with
      next_iptr := (su.set_iptr p (some ⟨b, none, none⟩)).next_iptr + 1 }.set_iptr
        (su.set_iptr p (some ⟨b, none, none⟩)).next_iptr (some ⟨b, none, x⟩)).set_base b
          (some { bs with pointers :=
            (su.set_iptr p (some ⟨b, none, none⟩)).next_iptr :: bs.pointers }) := ⟨_, rfl⟩
    rw [← hsb] at hC
    have hn : (su.set_iptr p (some ⟨b, none, none⟩)).next_iptr = s.next_iptr := hsuni
    have hbn : sb.iptrs s.next_iptr = some ⟨b, none, x⟩ := by rw [hsb, hn]; simp
    have hbb : sb.bases b = some { bs with pointers := s.next_iptr :: bs.pointers } := by
      rw [hsb, hn]; simp
    have hbT : sb.headers T = some (unlink_header hd bs.self_header) := by
      rw [hsb]; exact hAT
    have hD := link_inv hC (Or.inl rfl) hbn (by unfold iptr_edge; rw [hbn]; simp)
      hbb (List.mem_cons_self _ _) hbT (show (⟨b, some T, x⟩ : internal_ptr).base = _ from rfl)
      rfl
    have heq : (({ s with next_iptr := s.next_iptr + 1 }.set_iptr s.next_iptr
        (some ⟨b, some T, x⟩)).set_base b
          (some { bs with pointers := s.next_iptr :: bs.pointers })).set_iptr p
            (some ⟨b, none, none⟩) =
        (sb.set_iptr s.next_iptr (some ⟨b, some T, x⟩)).set_header T
          (some (link_header (unlink_header hd bs.self_header) bs.self_header)) := by
      rw [link_unlink_header (hg.inv0.core.bp_sorted T hd hT) hmem hpos, hsb, hn, hsu,
        unlinked_eq hT]
      apply heap_ext <;> simp [Heap.set_header, Heap.set_iptr, Heap.set_base]
      · exact hT
      · rw [Function.update_comm hpn]
    rw [heq]; exact hD

theorem has_owner_mono2 {s s1 : Heap}
    (h1 : ∀ x hd, s.headers x = some hd → ∃ hd1, s1.headers x = some hd1 ∧
      (∀ y ∈ hd.back_pointers, y ∈ hd1.back_pointers) ∧
      (is_owned hd = true → has_owner s1 x)) {x : Nat}
    (h : has_owner s x) : has_owner s1 x := by
  obtain ⟨z, hp, hz⟩ := h
  induction hp using Relation.ReflTransGen.head_induction_on with
  | refl =>
    obtain ⟨hd, e1, e2⟩ := hz
    obtain ⟨hd1, _, _, f3⟩ := h1 z hd e1
    exact f3 e2
  | head he hp2 ih =>
    rename_i a c
    obtain ⟨hd, e1, e2⟩ := he
    obtain ⟨hd1, f1, f2, _⟩ := h1 a hd e1
    exact has_owner_of_edge ⟨hd1, f1, f2 c e2⟩ ih

/-- Counting over the addresses below `n` and counting over a duplicate-free list of such
addresses agree. -/
theorem count_upto_list {n : Nat} {L : List Nat} (f : Nat → Bool) (hnd : L.Nodup)
    (hlt : ∀ q ∈ L, q < n) :
    count_upto n (fun q => decide (q ∈ L) && f q) = L.countP f := by
  unfold count_upto
  have hperm : ((List.range n).filter (fun q => decide (q ∈ L))).Perm L := by
    rw [List.perm_ext_iff_of_nodup ((List.nodup_range n).filter _) hnd]
    intro a
    simp only [List.mem_filter, List.mem_range, decide_eq_true_eq]
    exact ⟨fun h => h.2, fun h => ⟨hlt a h, h⟩⟩
  rw [← hperm.countP_eq f, List.countP_filter]
  congr 1
  funext q
  rw [Bool.and_comm]

/-- The loop of `set_self_header`: every registered handle with a target adds the new header
to the back pointers of that target. -/
theorem set_self_header_loop_spec (h : Nat) (ps : List Nat) :
    ∀ s : Heap, (∀ p ∈ ps, ∃ ip, s.iptrs p = some ip ∧
      ∀ t, ip.header = some t → ∃ hd, s.headers t = some hd) →
    (∀ t hd, s.headers t = some hd → hd.back_pointers.Sorted (· ≤ ·)) →
    ∃ s1, set_self_header_loop h ps s = some s1 ∧ s1.bases = s.bases ∧ s1.iptrs = s.iptrs ∧
      s1.roots = s.roots ∧ s1.next_header = s.next_header ∧ s1.next_base = s.next_base ∧
      s1.next_iptr = s.next_iptr ∧ s1.next_root = s.next_root ∧ s1.trace = s.trace ∧
      (∀ t, s.headers t = none → s1.headers t = none) ∧
      (∀ t hd, s.headers t = some hd → ∃ hd1, s1.headers t = some hd1 ∧
        hd1.owner_count = hd.owner_count ∧ hd1.internal_count = hd.internal_count ∧
        hd1.unreachable = hd.unreachable ∧ hd1.deleted = hd.deleted ∧
        hd1.get_internal_base = hd.get_internal_base ∧
        hd1.back_pointers.Sorted (· ≤ ·) ∧
        (∀ y ∈ hd.back_pointers, y ∈ hd1.back_pointers) ∧
        (∀ P, hd1.back_pointers.count P = hd.back_pointers.count P +
          (if P = h then ps.countP (iptr_targets s none t) else 0)) ∧
        hd1.back_pointers.length = hd.back_pointers.length +
          ps.countP (iptr_targets s none t)) := by
  induction ps with
  | nil =>
    intro s _ hs
    refine ⟨s, rfl, rfl, rfl, rfl, rfl, rfl, rfl, rfl, rfl, fun _ h => h, ?_⟩
    intro t hd ht
    exact ⟨hd, ht, rfl, rfl, rfl, rfl, rfl, hs t hd ht, fun _ h => h, by simp, by simp⟩
  | cons p ps ih =>
    intro s hps hs
    obtain ⟨ip, hip, hlive⟩ := hps p (List.mem_cons_self _ _)
    unfold set_self_header_loop
    rw [hip]; simp only
    cases hh : ip.header with
    | none =>
      simp only
      obtain ⟨s1, a1, a2, a3, a4, a5, a6, a7, a8, a9, a10, a11⟩ :=
        ih s (fun q hq => hps q (List.mem_cons_of_mem _ hq)) hs
      refine ⟨s1, a1, a2, a3, a4, a5, a6, a7, a8, a9, a10, ?_⟩
      intro t hd ht
      obtain ⟨hd1, b1, b2, b3, b4, b5, b6, b7, b8, b9, b10⟩ := a11 t hd ht
      have hz : iptr_targets s none t p = false := by
        unfold iptr_targets; rw [hip]; simp [hh]
      refine ⟨hd1, b1, b2, b3, b4, b5, b6, b7, b8, ?_, ?_⟩
      · intro P; rw [b9 P, List.countP_cons, hz]; simp
      · rw [b10, List.countP_cons, hz]; simp
    | some t0 =>
      simp only
      obtain ⟨hd0, ht0⟩ := hlive t0 hh
      unfold add_back_pointer
      rw [ht0]; simp only
      obtain ⟨sa, hsa⟩ : ∃ sa, sa = s.set_header t0
        (some { hd0 with back_pointers := add hd0.back_pointers h }) := ⟨_, rfl⟩
      rw [← hsa]
      have g_h : ∀ x, x ≠ t0 → sa.headers x = s.headers x := by
        intro x hx; rw [hsa]; simp [Function.update_noteq hx]
      have g_t : sa.headers t0 = some { hd0 with back_pointers := add hd0.back_pointers h } := by
        rw [hsa]; simp
      have g_p : sa.iptrs = s.iptrs := by rw [hsa]; rfl
      obtain ⟨s1, a1, a2, a3, a4, a5, a6, a7, a8, a9, a10, a11⟩ :=
        ih sa (fun q hq => by
          obtain ⟨iq, e1, e2⟩ := hps q (List.mem_cons_of_mem _ hq)
          refine ⟨iq, by rw [g_p]; exact e1, fun t ht => ?_⟩
          obtain ⟨hd, e3⟩ := e2 t ht
          by_cases htt : t = t0
          · subst htt; exact ⟨_, g_t⟩
          · exact ⟨hd, by rw [g_h t htt]; exact e3⟩)
          (fun t hd ht => by
            by_cases htt : t = t0
            · subst htt; rw [g_t] at ht; cases ht
              exact sorted_add h (hs t hd0 ht0)
            · rw [g_h t htt] at ht; exact hs t hd ht)
      have hcnt : ∀ t, ps.countP (iptr_targets sa none t) = ps.countP (iptr_targets s none t) := by
        intro t; unfold iptr_targets; rw [g_p]
      refine ⟨s1, a1, a2.trans (by rw [hsa]; rfl), a3.trans g_p, a4.trans (by rw [hsa]; rfl),
        a5.trans (by rw [hsa]; rfl), a6.trans (by rw [hsa]; rfl), a7.trans (by rw [hsa]; rfl),
        a8.trans (by rw [hsa]; rfl), a9.trans (by rw [hsa]; rfl), ?_, ?_⟩
      · intro t ht
        have htt : t ≠ t0 := by intro e; rw [e, ht0] at ht; cases ht
        exact a10 t (by rw [g_h t htt]; exact ht)
      · intro t hd ht
        by_cases htt : t = t0
        · subst htt
          rw [ht0] at ht; cases ht
          obtain ⟨hd1, b1, b2, b3, b4, b5, b6, b7, b8, b9, b10⟩ := a11 t _ g_t
          have hz : iptr_targets s none t p = true := by
            unfold iptr_targets; rw [hip]; simp [hh]
          refine ⟨hd1, b1, b2, b3, b4, b5, b6, b7,
            fun y hy => b8 y (mem_add.2 (Or.inr hy)), ?_, ?_⟩
          · intro P
            rw [b9 P, List.countP_cons, hz, hcnt]
            simp only [count_add]
            split <;> simp <;> omega
          · rw [b10, List.countP_cons, hz, hcnt]
            simp only [length_add]
            simp; omega
        · obtain ⟨hd1, b1, b2, b3, b4, b5, b6, b7, b8, b9, b10⟩ :=
            a11 t hd (by rw [g_h t htt]; exact ht)
          have hz : iptr_targets s none t p = false := by
            unfold iptr_targets; rw [hip]; simp [hh]
            exact fun e => htt e.symm
          refine ⟨hd1, b1, b2, b3, b4, b5, b6, b7, b8, ?_, ?_⟩
          · intro P; rw [b9 P, List.countP_cons, hz, hcnt]; simp
          · rw [b10, List.countP_cons, hz, hcnt]; simp

theorem count_upto_or {n : Nat} {f g : Nat → Bool} (h : ∀ q, f q = true → g q = true → False) :
    count_upto n (fun q => f q || g q) = count_upto n f + count_upto n g := by
  induction n with
  | zero => rfl
  | succ n ih =>
    simp only [count_upto_succ, ih]
    have := h n
    cases hf : f n <;> cases hg : g n <;> simp_all <;> omega

/-- The invariant after a fresh header block `h`, owned by one new `root_ptr`, has been
bound to a payload whose `internal_base` (if any) holds the handles `L`. -/
theorem good_bind {s F : Heap} {h nr : Nat} {L : List Nat} {O : Option Nat} (hg : good s)
    (hh : h = s.next_header) (hnr : nr = s.next_root)
    (hguard : ∀ b, O = some b → ∃ base, s.bases b = some base ∧ base.self_header = none ∧
      base.pointers = L)
    (hL : O = none → L = [])
    (fI : F.iptrs = s.iptrs)
    (fR : F.roots = Function.update s.roots nr (some ⟨some h, some h⟩))
    (fB0 : ∀ c, some c ≠ O → F.bases c = s.bases c)
    (fB1 : ∀ c base, some c = O → s.bases c = some base →
      F.bases c = some { base with self_header := some h })
    (fNH : F.next_header = h + 1) (fNB : F.next_base = s.next_base)
    (fNI : F.next_iptr = s.next_iptr) (fNR : F.next_root = nr + 1)
    (fHh : ∃ hdh, F.headers h = some hdh ∧ hdh.owner_count = 1 ∧ hdh.internal_count = 1 ∧
      hdh.back_pointers = [] ∧ hdh.unreachable = false ∧ hdh.deleted = false ∧
      hdh.get_internal_base = O)
    (fHn : ∀ t, t ≠ h → s.headers t = none → F.headers t = none)
    (fHs : ∀ t hd, s.headers t = some hd → ∃ hd1, F.headers t = some hd1 ∧
        hd1.owner_count = hd.owner_count ∧ hd1.internal_count = hd.internal_count ∧
        hd1.unreachable = hd.unreachable ∧ hd1.deleted = hd.deleted ∧
        hd1.get_internal_base = hd.get_internal_base ∧
        hd1.back_pointers.Sorted (· ≤ ·) ∧
        (∀ y ∈ hd.back_pointers, y ∈ hd1.back_pointers) ∧
        (∀ P, hd1.back_pointers.count P = hd.back_pointers.count P +
          (if P = h then L.countP (iptr_targets s none t) else 0)) ∧
        hd1.back_pointers.length = hd.back_pointers.length +
          L.countP (iptr_targets s none t)) :
    good F := by
  obtain ⟨hdh, hFh, oc_h, ic_h, bp_h, un_h, de_h, gib_h⟩ := fHh
  have hi := hg.inv0.core
  have hdead : s.headers h = none := by
    cases e : s.headers h with
    | none => rfl
    | some hd => exact absurd (hi.header_lt _ hd e) (by omega)
  have hne_of_live : ∀ t hd, s.headers t = some hd → t ≠ h := by
    intro t hd ht e; rw [e, hdead] at ht; cases ht
  have hfreeR : s.roots nr = none := by
    cases e : s.roots nr with
    | none => rfl
    | some rp => exact absurd (hi.root_lt _ rp e) (by omega)
  have back : ∀ t hd1, F.headers t = some hd1 → t ≠ h → ∃ hd, s.headers t = some hd := by
    intro t hd1 ht hth
    cases e : s.headers t with
    | none => rw [fHn t hth e] at ht; cases ht
    | some hd => exact ⟨hd, rfl⟩
  have hlive : ∀ t hd, s.headers t = some hd → ∃ hd1, F.headers t = some hd1 := by
    intro t hd ht
    obtain ⟨hd1, a, _⟩ := fHs t hd ht
    exact ⟨hd1, a⟩
  -- the `internal_base` table
  have hbase : ∀ c base1, F.bases c = some base1 → ∃ base, s.bases c = some base ∧
      base1.pointers = base.pointers ∧
      ((some c ≠ O ∧ base1.self_header = base.self_header) ∨
       (some c = O ∧ base1.self_header = some h ∧ base.self_header = none ∧
         base.pointers = L)) := by
    intro c base1 hc
    by_cases hco : some c = O
    · obtain ⟨base, e1, e2, e3⟩ := hguard c hco.symm
      rw [fB1 c base hco e1] at hc; cases hc
      exact ⟨base, e1, rfl, Or.inr ⟨hco, rfl, e2, e3⟩⟩
    · rw [fB0 c hco] at hc
      exact ⟨base1, hc, rfl, Or.inl ⟨hco, rfl⟩⟩
  have hbase' : ∀ c base, s.bases c = some base → ∃ base1, F.bases c = some base1 ∧
      base1.pointers = base.pointers ∧
      ((some c ≠ O ∧ base1.self_header = base.self_header) ∨
       (some c = O ∧ base1.self_header = some h ∧ base.self_header = none ∧
         base.pointers = L)) := by
    intro c base hc
    by_cases hco : some c = O
    · obtain ⟨base0, e1, e2, e3⟩ := hguard c hco.symm
      rw [hc] at e1; cases e1
      exact ⟨_, fB1 c base hco hc, rfl, Or.inr ⟨hco, rfl, e2, e3⟩⟩
    · exact ⟨base, by rw [fB0 c hco]; exact hc, rfl, Or.inl ⟨hco, rfl⟩⟩
  have no_parent_h : ∀ c base, s.bases c = some base → base.self_header ≠ some h := by
    intro c base hc e
    obtain ⟨hd, e1, _⟩ := hi.header_of_base c base h hc e
    rw [hdead] at e1; cases e1
  -- no handle has the new header as its target
  have no_target_h : ∀ q, iptr_targets F none h q = false := by
    intro q
    unfold iptr_targets
    rw [fI]
    cases e : s.iptrs q with
    | none => simp
    | some iq =>
      simp only [Bool.and_eq_false_imp, decide_eq_true_eq, decide_eq_false_iff_not]
      intro _ e2
      obtain ⟨hd, e3⟩ := hi.target_live q iq h e (by simp) e2
      rw [hdead] at e3; cases e3
  have tgt_same : ∀ t q, iptr_targets F none t q = iptr_targets s none t q := by
    intro t q; unfold iptr_targets; rw [fI]
  -- a handle is in `L` exactly when its `internal_base` is the one being bound
  have mem_L : ∀ q iq, s.iptrs q = some iq → (q ∈ L ↔ some iq.base = O) := by
    intro q iq hq
    obtain ⟨base, e1, e2⟩ := hi.base_of_ptr q iq hq (by simp)
    constructor
    · intro hm
      cases hob : O with
      | none => rw [hL hob] at hm; simp at hm
      | some b =>
        obtain ⟨base0, f1, _, f3⟩ := hguard b hob
        rw [← f3] at hm
        obtain ⟨iq0, g1, g2⟩ := hi.ptr_of_base b base0 f1 q hm
        rw [hq] at g1; cases g1
        rw [g2]
    · intro hco
      obtain ⟨base0, f1, _, f3⟩ := hguard iq.base hco.symm
      rw [e1] at f1; cases f1
      rw [← f3]; exact e2
  have L_lt : ∀ q ∈ L, q < s.next_iptr := by
    intro q hq
    cases hob : O with
    | none => rw [hL hob] at hq; simp at hq
    | some b =>
      obtain ⟨base0, f1, _, f3⟩ := hguard b hob
      rw [← f3] at hq
      obtain ⟨iq0, g1, _⟩ := hi.ptr_of_base b base0 f1 q hq
      exact hi.iptr_lt q iq0 g1
  have L_nd : L.Nodup := by
    cases hob : O with
    | none => rw [hL hob]; exact List.nodup_nil
    | some b =>
      obtain ⟨base0, f1, _, f3⟩ := hguard b hob
      rw [← f3]; exact hi.pointers_nodup b base0 f1
  -- the parent of a handle, before and after
  have parent : ∀ q iq, s.iptrs q = some iq → ∃ base base1, s.bases iq.base = some base ∧
      F.bases iq.base = some base1 ∧
      ((q ∉ L ∧ base1.self_header = base.self_header) ∨
       (q ∈ L ∧ base1.self_header = some h ∧ base.self_header = none)) := by
    intro q iq hq
    obtain ⟨base, e1, e2⟩ := hi.base_of_ptr q iq hq (by simp)
    obtain ⟨base1, f1, _, f3⟩ := hbase' iq.base base e1
    refine ⟨base, base1, e1, f1, ?_⟩
    rcases f3 with ⟨g1, g2⟩ | ⟨g1, g2, g3, _⟩
    · exact Or.inl ⟨fun hm => g1 ((mem_L q iq hq).1 hm), g2⟩
    · exact Or.inr ⟨(mem_L q iq hq).2 g1, g2, g3⟩
  have from_eq : ∀ t P q, iptr_targets_from F none t P q =
      if P = h then (decide (q ∈ L) && iptr_targets s none t q)
      else iptr_targets_from s none t P q := by
    intro t P q
    unfold iptr_targets_from
    rw [tgt_same]
    cases hq : s.iptrs q with
    | none =>
      have : iptr_targets s none t q = false := by unfold iptr_targets; rw [hq]; simp
      rw [this]; simp
    | some iq =>
      rw [fI, hq]; simp only
      obtain ⟨base, base1, e1, e2, e3⟩ := parent q iq hq
      rw [e1, e2]; simp only
      rcases e3 with ⟨g1, g2⟩ | ⟨g1, g2, g3⟩
      · rw [g2]
        by_cases hP : P = h
        · subst hP
          simp [g1, no_parent_h iq.base base e1]
        · simp [hP]
      · rw [g2, g3]
        by_cases hP : P = h
        · subst hP; simp [g1, Bool.and_comm]
        · have : ¬ h = P := fun e => hP e.symm
          simp [hP, this]
  have bound_eq : ∀ t q, iptr_targets_bound F none t q =
      (iptr_targets_bound s none t q || (decide (q ∈ L) && iptr_targets s none t q)) := by
    intro t q
    unfold iptr_targets_bound
    rw [tgt_same]
    cases hq : s.iptrs q with
    | none =>
      have : iptr_targets s none t q = false := by unfold iptr_targets; rw [hq]; simp
      rw [this]; simp
    | some iq =>
      rw [fI, hq]; simp only
      obtain ⟨base, base1, e1, e2, e3⟩ := parent q iq hq
      rw [e1, e2]; simp only
      rcases e3 with ⟨g1, g2⟩ | ⟨g1, g2, g3⟩
      · rw [g2]; simp [g1]
      · rw [g2, g3]; simp [g1, Bool.and_comm]
  have cnt_from : ∀ t P, iptr_count_from F none t P = iptr_count_from s none t P +
      (if P = h then L.countP (iptr_targets s none t) else 0) := by
    intro t P
    unfold iptr_count_from
    rw [fNI]
    by_cases hP : P = h
    · subst hP
      rw [if_pos rfl]
      have z : count_upto s.next_iptr (iptr_targets_from s none t P) = 0 := by
        apply count_upto_zero
        intro q _
        unfold iptr_targets_from
        cases hq : s.iptrs q with
        | none => simp
        | some iq =>
          simp only
          cases hb : s.bases iq.base with
          | none => simp
          | some base => simp [no_parent_h iq.base base hb]
      rw [z, Nat.zero_add, ← count_upto_list (iptr_targets s none t) L_nd L_lt]
      apply count_upto_congr
      intro q _
      rw [from_eq, if_pos rfl]
    · rw [if_neg hP, Nat.add_zero]
      apply count_upto_congr
      intro q _
      rw [from_eq, if_neg hP]
  have cnt_bound : ∀ t, iptr_count_bound F none t = iptr_count_bound s none t +
      L.countP (iptr_targets s none t) := by
    intro t
    unfold iptr_count_bound
    rw [fNI, ← count_upto_list (iptr_targets s none t) L_nd L_lt, ← count_upto_or]
    · apply count_upto_congr
      intro q _
      rw [bound_eq]
    · intro q h1 h2
      simp only [Bool.and_eq_true, decide_eq_true_eq] at h2
      unfold iptr_targets_bound at h1
      cases hq : s.iptrs q with
      | none => rw [hq] at h1; simp at h1
      | some iq =>
        rw [hq] at h1; simp only at h1
        obtain ⟨base, base1, e1, e2, e3⟩ := parent q iq hq
        rw [e1] at h1; simp only at h1
        rcases e3 with ⟨g1, _⟩ | ⟨_, _, g3⟩
        · exact g1 h2.1
        · rw [g3] at h1; simp at h1
  have cnt_tgt : ∀ t, iptr_count F none t = iptr_count s none t := by
    intro t; unfold iptr_count; rw [fNI]
    exact count_upto_congr (fun q _ => tgt_same t q)
  have cnt_root : ∀ t, root_count F none t = root_count s none t +
      (if t = h then 1 else 0) := by
    intro t
    unfold root_count
    rw [fNR, hnr, count_upto_succ]
    congr 1
    · apply count_upto_congr
      intro q hq
      unfold root_targets
      rw [fR, Function.update_noteq (by omega)]
    · unfold root_targets
      rw [fR, hnr]; simp
      by_cases e : t = h
      · simp [e]
      · have : ¬ h = t := fun e2 => e e2.symm
        simp [e, this]
  have root_h : root_count s none h = 0 := by
    unfold root_count
    apply count_upto_zero
    intro q _
    unfold root_targets
    cases hq : s.roots q with
    | none => simp
    | some rq =>
      simp only [Bool.and_eq_false_imp, decide_eq_true_eq, decide_eq_false_iff_not]
      intro _ e2
      obtain ⟨hd, e3⟩ := hi.root_target_live q rq h hq (by simp) e2
      rw [hdead] at e3; cases e3
  have tgt_h : iptr_count F none h = 0 := by
    unfold iptr_count
    exact count_upto_zero (fun q _ => no_target_h q)
  have owned_h : has_owner F h :=
    has_owner_of_owned ⟨hdh, hFh, by unfold is_owned; simp [oc_h]⟩
  refine ⟨⟨⟨?_, ?_, ?_, ?_, ?_, ?_, ?_, ?_, ?_, ?_, ?_, ?_, ?_, ?_, ?_⟩, ?_, ?_⟩, ?_⟩
  · intro t hd1 ht
    rw [fNH]
    by_cases hth : t = h
    · omega
    · obtain ⟨hd, e⟩ := back t hd1 ht hth
      have := hi.header_lt t hd e
      omega
  · intro c base1 hc
    obtain ⟨base, e1, _⟩ := hbase c base1 hc
    rw [fNB]; exact hi.base_lt c base e1
  · rw [fI, fNI]; exact hi.iptr_lt
  · intro q rq hq
    rw [fNR]
    by_cases hqn : q = nr
    · omega
    · rw [fR, Function.update_noteq hqn] at hq
      have := hi.root_lt q rq hq
      omega
  · intro t hd1 ht
    by_cases hth : t = h
    · subst hth; rw [hFh] at ht; cases ht; rw [bp_h]; exact List.sorted_nil
    · obtain ⟨hd, e⟩ := back t hd1 ht hth
      obtain ⟨hd2, a1, _, _, _, _, _, a7, _⟩ := fHs t hd e
      rw [ht] at a1; cases a1; exact a7
  · intro c base1 x hc hs
    obtain ⟨base, e1, _, e3⟩ := hbase c base1 hc
    rcases e3 with ⟨_, g2⟩ | ⟨g1, g2, _, _⟩
    · rw [g2] at hs
      obtain ⟨hd, f1, f2⟩ := hi.header_of_base c base x e1 hs
      obtain ⟨hd1, a1, _, _, _, _, a6, _⟩ := fHs x hd f1
      exact ⟨hd1, a1, a6.trans f2⟩
    · rw [g2] at hs; cases hs
      exact ⟨hdh, hFh, gib_h.trans g1.symm⟩
  · intro c base1 hc q hq
    obtain ⟨base, e1, e2, _⟩ := hbase c base1 hc
    rw [fI]; exact hi.ptr_of_base c base e1 q (e2 ▸ hq)
  · intro c base1 hc
    obtain ⟨base, e1, e2, _⟩ := hbase c base1 hc
    rw [e2]; exact hi.pointers_nodup c base e1
  · intro q iq hq _
    rw [fI] at hq
    obtain ⟨base, e1, e2⟩ := hi.base_of_ptr q iq hq (by simp)
    obtain ⟨base1, f1, f2, _⟩ := hbase' iq.base base e1
    exact ⟨base1, f1, f2 ▸ e2⟩
  · intro q iq t hq _ ht
    rw [fI] at hq
    obtain ⟨hd, e⟩ := hi.target_live q iq t hq (by simp) ht
    exact hlive t hd e
  · intro q rq t hq _ ht
    by_cases hqn : q = nr
    · subst hqn
      rw [fR] at hq; simp at hq; subst hq
      simp at ht; subst ht
      exact ⟨hdh, hFh⟩
    · rw [fR, Function.update_noteq hqn] at hq
      obtain ⟨hd, e⟩ := hi.root_target_live q rq t hq (by simp) ht
      exact hlive t hd e
  · intro t hd1 ht P
    by_cases hth : t = h
    · subst hth
      rw [hFh] at ht; cases ht
      rw [bp_h, List.count_nil]
      unfold iptr_count_from
      symm
      apply count_upto_zero
      intro q _
      unfold iptr_targets_from
      rw [no_target_h]; rfl
    · obtain ⟨hd, e⟩ := back t hd1 ht hth
      obtain ⟨hd2, a1, _, _, _, _, _, _, _, a9, _⟩ := fHs t hd e
      rw [ht] at a1; cases a1
      rw [a9 P, cnt_from, hi.bp_count t hd e P]
  · intro t hd1 ht
    by_cases hth : t = h
    · subst hth
      rw [hFh] at ht; cases ht
      rw [bp_h, List.length_nil]
      unfold iptr_count_bound
      symm
      apply count_upto_zero
      intro q _
      unfold iptr_targets_bound
      rw [no_target_h]; rfl
    · obtain ⟨hd, e⟩ := back t hd1 ht hth
      obtain ⟨hd2, a1, _, _, _, _, _, _, _, _, a10⟩ := fHs t hd e
      rw [ht] at a1; cases a1
      rw [a10, cnt_bound, hi.bp_length t hd e]
  · intro t hd1 ht
    by_cases hth : t = h
    · subst hth
      rw [hFh] at ht; cases ht
      rw [cnt_root, root_h, oc_h]; simp
    · obtain ⟨hd, e⟩ := back t hd1 ht hth
      obtain ⟨hd2, a1, a2, _⟩ := fHs t hd e
      rw [ht] at a1; cases a1
      rw [cnt_root, if_neg hth, a2, hi.owner_count_eq t hd e]; rfl
  · intro t hd1 ht
    by_cases hth : t = h
    · subst hth
      rw [hFh] at ht; cases ht
      rw [tgt_h, oc_h, ic_h]
    · obtain ⟨hd, e⟩ := back t hd1 ht hth
      obtain ⟨hd2, a1, a2, a3, _⟩ := fHs t hd e
      rw [ht] at a1; cases a1
      rw [cnt_tgt, a2, a3]; exact hi.internal_count_eq t hd e
  · intro t hd1 ht _
    by_cases hth : t = h
    · subst hth; rw [hFh] at ht; cases ht; exact ⟨un_h, de_h⟩
    · obtain ⟨hd, e⟩ := back t hd1 ht hth
      obtain ⟨hd2, a1, _, _, a4, a5, _⟩ := fHs t hd e
      rw [ht] at a1; cases a1
      rw [a4, a5]; exact hg.inv0.flags t hd e (by simp)
  · intro t hd1 c ht _ hgib
    by_cases hth : t = h
    · subst hth
      rw [hFh] at ht; cases ht
      rw [gib_h] at hgib
      obtain ⟨base, e1, _, _⟩ := hguard c hgib
      exact ⟨_, fB1 c base hgib.symm e1, rfl⟩
    · obtain ⟨hd, e⟩ := back t hd1 ht hth
      obtain ⟨hd2, a1, _, _, _, _, a6, _⟩ := fHs t hd e
      rw [ht] at a1; cases a1
      obtain ⟨base, f1, f2⟩ := hg.inv0.header_base t hd c e (by simp) (a6 ▸ hgib)
      obtain ⟨base1, g1, _, g3⟩ := hbase' c base f1
      rcases g3 with ⟨_, k2⟩ | ⟨_, _, k3, _⟩
      · exact ⟨base1, g1, k2.trans f2⟩
      · rw [k3] at f2; cases f2
  · intro t hd1 ht
    by_cases hth : t = h
    · subst hth; exact owned_h
    · obtain ⟨hd, e⟩ := back t hd1 ht hth
      refine has_owner_mono2 ?_ (hg.owned t hd e)
      intro x hdx hx
      obtain ⟨hdx1, a1, a2, a3, _, _, _, _, a8, a9, a10⟩ := fHs x hdx hx
      refine ⟨hdx1, a1, a8, fun hown => ?_⟩
      by_cases hK : L.countP (iptr_targets s none x) = 0
      · refine has_owner_of_owned ⟨hdx1, a1, ?_⟩
        unfold is_owned at hown ⊢
        rw [a2, a3, a10, hK]; exact hown
      · have : 0 < hdx1.back_pointers.count h := by
          rw [a9 h, if_pos rfl]; omega
        exact has_owner_of_edge ⟨hdx1, a1, List.count_pos_iff.1 this⟩ owned_h

theorem root_ptr_from_raw_ok {s : Heap} (ob : Option Nat) (hg : good s)
    (hguard : ∀ b, ob = some b → ∃ base, s.bases b = some base ∧ base.self_header = none) :
    ∃ s1, root_ptr_from_raw ob s = some s1 ∧ good s1 ∧ s1.trace = s.trace ∧
      s1.next_header = s.next_header + 1 ∧ (∃ hd, s1.headers s.next_header = some hd) ∧
      ∀ t, t ≠ s.next_header → (s1.headers t = none ↔ s.headers t = none) := by
  have hi := hg.inv0.core
  have hdead : s.headers s.next_header = none := by
    cases e : s.headers s.next_header with
    | none => rfl
    | some hd => exact absurd (hi.header_lt _ hd e) (by omega)
  unfold root_ptr_from_raw set_owner
  simp only
  obtain ⟨S1, hS1⟩ : ∃ S1, S1 = ((⟨s.headers, s.bases, s.iptrs, s.roots, s.next_header + 1,
    s.next_base, s.next_iptr, s.next_root + 1, s.trace⟩ : Heap).set_header s.next_header
      (some (new_header ob))).set_root s.next_root
        (some ⟨some s.next_header, some s.next_header⟩) := ⟨_, rfl⟩
  rw [← hS1]
  have g_hh : S1.headers s.next_header = some (new_header ob) := by rw [hS1]; simp
  have g_h : ∀ t, t ≠ s.next_header → S1.headers t = s.headers t := by
    intro t ht; rw [hS1]; simp [Function.update_noteq ht]
  have g_b : S1.bases = s.bases := by rw [hS1]; rfl
  have g_p : S1.iptrs = s.iptrs := by rw [hS1]; rfl
  have g_r : S1.roots = Function.update s.roots s.next_root
      (some ⟨some s.next_header, some s.next_header⟩) := by rw [hS1]; rfl
  have g_nh : S1.next_header = s.next_header + 1 := by rw [hS1]; rfl
  have g_nb : S1.next_base = s.next_base := by rw [hS1]; rfl
  have g_ni : S1.next_iptr = s.next_iptr := by rw [hS1]; rfl
  have g_nr : S1.next_root = s.next_root + 1 := by rw [hS1]; rfl
  have g_t : S1.trace = s.trace := by rw [hS1]; rfl
  clear hS1
  rw [g_hh]; simp only
  have hgib : (new_header ob).get_internal_base = ob := rfl
  rw [hgib]
  cases hob : ob with
  | none =>
    simp only
    refine ⟨S1, rfl, ?_, g_t, g_nh, ⟨_, g_hh⟩, fun t ht => by rw [g_h t ht]⟩
    refine good_bind (L := []) (O := none) hg rfl rfl (by intro b hb; cases hb) (fun _ => rfl)
      g_p g_r (fun c _ => by rw [g_b]) (by intro c base hc; cases hc) g_nh g_nb g_ni g_nr
      ⟨_, g_hh, rfl, rfl, rfl, rfl, rfl, by rw [hob]; rfl⟩
      (fun t ht hn => by rw [g_h t ht]; exact hn) ?_
    intro t hd ht
    have hth : t ≠ s.next_header := by intro e; rw [e, hdead] at ht; cases ht
    exact ⟨hd, by rw [g_h t hth]; exact ht, rfl, rfl, rfl, rfl, rfl, hi.bp_sorted t hd ht,
      fun _ h => h, by simp, by simp⟩
  | some b =>
    simp only
    obtain ⟨base, hb, hsh⟩ := hguard b hob
    unfold set_self_header
    rw [g_b, hb]; simp only
    obtain ⟨S2, hS2⟩ : ∃ S2, S2 = S1.set_base b
      (some { base with self_header := some s.next_header }) := ⟨_, rfl⟩
    rw [← hS2]
    have k_h : S2.headers = S1.headers := by rw [hS2]; rfl
    have k_p : S2.iptrs = s.iptrs := by rw [hS2]; exact g_p
    obtain ⟨F, a1, a2, a3, a4, a5, a6, a7, a8, a9, a10, a11⟩ :=
      set_self_header_loop_spec s.next_header base.pointers S2
        (fun p hp => by
          obtain ⟨ip, e1, _⟩ := hi.ptr_of_base b base hb p hp
          refine ⟨ip, by rw [k_p]; exact e1, fun t ht => ?_⟩
          obtain ⟨hd, e3⟩ := hi.target_live p ip t e1 (by simp) ht
          have hth : t ≠ s.next_header := by intro e; rw [e, hdead] at e3; cases e3
          exact ⟨hd, by rw [k_h, g_h t hth]; exact e3⟩)
        (fun t hd ht => by
          rw [k_h] at ht
          by_cases hth : t = s.next_header
          · subst hth; rw [g_hh] at ht; cases ht; exact List.sorted_nil
          · rw [g_h t hth] at ht; exact hi.bp_sorted t hd ht)
    have hcnt : ∀ t, base.pointers.countP (iptr_targets S2 none t) =
        base.pointers.countP (iptr_targets s none t) := by
      intro t; unfold iptr_targets; rw [k_p]
    have hz : base.pointers.countP (iptr_targets s none s.next_header) = 0 := by
      rw [List.countP_eq_zero]
      intro q _
      unfold iptr_targets
      cases hq : s.iptrs q with
      | none => simp
      | some iq =>
        simp only [Bool.and_eq_true, decide_eq_true_eq, not_and]
        intro _ e2
        obtain ⟨hd, e3⟩ := hi.target_live q iq _ hq (by simp) e2
        rw [hdead] at e3; cases e3
    refine ⟨F, a1, ?_, a9.trans (by rw [hS2]; exact g_t), a5.trans (by rw [hS2]; exact g_nh),
      ?_, ?_⟩
    rotate_left
    · obtain ⟨hd1, b1, _⟩ := a11 s.next_header (new_header ob) (by rw [k_h]; exact g_hh)
      exact ⟨hd1, b1⟩
    · intro t ht
      constructor
      · intro hn
        cases e : s.headers t with
        | none => rfl
        | some hd =>
          obtain ⟨hd1, b1, _⟩ := a11 t hd (by rw [k_h, g_h t ht]; exact e)
          rw [hn] at b1; cases b1
      · intro hn
        exact a10 t (by rw [k_h, g_h t ht]; exact hn)
    refine good_bind (L := base.pointers) (O := some b) hg rfl rfl
      (by intro c hc; cases hc; exact ⟨base, hb, hsh, rfl⟩) (by intro hc; cases hc)
      (a3.trans k_p) (a4.trans (by rw [hS2]; exact g_r)) ?_ ?_
      (a5.trans (by rw [hS2]; exact g_nh)) (a6.trans (by rw [hS2]; exact g_nb))
      (a7.trans (by rw [hS2]; exact g_ni)) (a8.trans (by rw [hS2]; exact g_nr)) ?_ ?_ ?_
    · intro c hc
      have hcb : c ≠ b := fun e => hc (by rw [e])
      rw [a2, hS2]; simp [Function.update_noteq hcb, g_b]
    · intro c base0 hc hc0
      cases hc
      rw [hb] at hc0; cases hc0
      rw [a2, hS2]; simp
    · obtain ⟨hd1, b1, b2, b3, b4, b5, b6, b7, b8, b9, b10⟩ :=
        a11 s.next_header (new_header ob) (by rw [k_h]; exact g_hh)
      refine ⟨hd1, b1, b2, b3, ?_, b4, b5, by rw [b6, hob]; rfl⟩
      apply List.eq_nil_of_length_eq_zero
      rw [b10, hcnt, hz]; rfl
    · intro t ht hn
      exact a10 t (by rw [k_h, g_h t ht]; exact hn)
    · intro t hd ht
      have hth : t ≠ s.next_header := by intro e; rw [e, hdead] at ht; cases ht
      obtain ⟨hd1, b1, b2, b3, b4, b5, b6, b7, b8, b9, b10⟩ :=
        a11 t hd (by rw [k_h, g_h t hth]; exact ht)
      refine ⟨hd1, b1, b2, b3, b4, b5, b6, b7, b8, ?_, ?_⟩
      · intro P; rw [b9 P, hcnt]
      · rw [b10, hcnt]

/-- A path to an owned header in the heap left by a collection exists before it as well. -/
theorem has_owner_before {U : List Nat} {m s2 : Heap} (hc : collected U m s2) {x : Nat}
    (h : has_owner s2 x) : has_owner m x := by
  have back : ∀ a hd2, s2.headers a = some hd2 →
      ∃ hd, m.headers a = some hd ∧ hdr_step U hd hd2 := by
    intro a hd2 ha
    cases e : m.headers a with
    | none => rw [hc.headers_none a e] at ha; cases ha
    | some hd =>
      have hau : a ∉ U := fun hu => by rw [hc.freed a hu] at ha; cases ha
      obtain ⟨hd1, f1, f2⟩ := hc.kept a hd hau e
      rw [ha] at f1; cases f1
      exact ⟨hd, rfl, f2⟩
  obtain ⟨z, hp, hz⟩ := h
  induction hp using Relation.ReflTransGen.head_induction_on with
  | refl =>
    obtain ⟨hd2, e1, e2⟩ := hz
    obtain ⟨hd, f1, f2⟩ := back z hd2 e1
    exact has_owner_of_owned ⟨hd, f1, f2.owned ▸ e2⟩
  | head he hp2 ih =>
    rename_i a c
    obtain ⟨hd2, e1, e2⟩ := he
    obtain ⟨hd, f1, f2⟩ := back a hd2 e1
    exact has_owner_of_edge ⟨hd, f1, f2.bp_sub c e2⟩ ih

/-- The set collected is exactly the set of live headers without a path to an owned
header. -/
theorem dec_result_exact {T : Nat} {m s2 : Heap} {exI exR : Option Nat} {U : List Nat}
    (h : dec_result T m s2 exI exR U) (x : Nat) :
    x ∈ U ↔ (∃ hd, m.headers x = some hd) ∧ ¬ has_owner m x := by
  constructor
  · intro hx
    obtain ⟨hd, e, _⟩ := h.dead x hx
    exact ⟨⟨hd, e⟩, dead_closed_not_has_owner h.dead hx⟩
  · rintro ⟨⟨hd, e⟩, hn⟩
    by_contra hx
    obtain ⟨hd1, f1, _⟩ := h.col.kept x hd hx e
    exact hn (has_owner_before h.col (h.owned2 x hd1 f1))

theorem quiet_refl (s : Heap) : quiet s s := ⟨rfl, rfl, fun _ => Iff.rfl⟩

theorem quiet_trans {a b c : Heap} (h1 : quiet a b) (h2 : quiet b c) : quiet a c :=
  ⟨h2.1.trans h1.1, h2.2.1.trans h1.2.1, fun x => (h2.2.2 x).trans (h1.2.2 x)⟩

theorem quiet_of_headers {s s1 : Heap} (h1 : s1.headers = s.headers)
    (h2 : s1.next_header = s.next_header) (h3 : s1.trace = s.trace) : quiet s s1 :=
  ⟨h2, h3, fun x => by rw [h1]⟩

theorem effect_of_quiet {s s1 : Heap} (h : quiet s s1) : effect [] s s1 :=
  ⟨h.1, List.nodup_nil, by intro u hu; simp at hu, fun x => by simp [h.2.2 x],
    ⟨fun _ => [], by intro u o ho; simp at ho, by simp [h.2.1]⟩⟩

theorem effect_of_collected {s m s2 s1 : Heap} {U : List Nat} (h1 : quiet s m)
    (hc : collected U m s2) (hnd : U.Nodup) (hdead : dead_closed m U) (h2 : quiet s2 s1) :
    effect U s s1 := by
  refine ⟨h2.1.trans (hc.next_header.trans h1.1), hnd, ?_, ?_, ?_⟩
  · intro u hu
    obtain ⟨hd, e, _⟩ := hdead u hu
    cases e0 : s.headers u with
    | none => rw [(h1.2.2 u).2 e0] at e; cases e
    | some hd0 => exact ⟨hd0, rfl⟩
  · intro x
    rw [h2.2.2 x, ← h1.2.2 x]
    constructor
    · intro hx
      by_cases hxu : x ∈ U
      · exact Or.inr hxu
      · left
        cases e : m.headers x with
        | none => rfl
        | some hd =>
          obtain ⟨hd1, f, _⟩ := hc.kept x hd hxu e
          rw [hx] at f; cases f
    · rintro (hx | hx)
      · exact hc.headers_none x hx
      · exact hc.freed x hx
  · obtain ⟨obs, o1, o2⟩ := hc.trace
    exact ⟨obs, o1, by rw [h2.2.1, o2, h1.2.1]⟩

theorem destroy_count_append (a b : List Event) (h : Nat) :
    destroy_count (a ++ b) h = destroy_count a h + destroy_count b h := by
  unfold destroy_count; rw [List.countP_append]

theorem destroy_count_marked (U : List Nat) (h : Nat) :
    destroy_count (U.map Event.marked) h = 0 := by
  unfold destroy_count
  rw [List.countP_eq_zero]
  intro e he
  rw [List.mem_map] at he
  obtain ⟨u, _, rfl⟩ := he
  simp

theorem destroy_count_freed (U : List Nat) (h : Nat) :
    destroy_count (U.map Event.freed) h = 0 := by
  unfold destroy_count
  rw [List.countP_eq_zero]
  intro e he
  rw [List.mem_map] at he
  obtain ⟨u, _, rfl⟩ := he
  simp

theorem destroy_count_destroyed (U : List Nat) (obs : Nat → List (Option Nat)) (h : Nat) :
    destroy_count (U.map (fun u => Event.destroyed u (obs u))) h = U.count h := by
  unfold destroy_count
  induction U with
  | nil => rfl
  | cons u U ih =>
    rw [List.map_cons, List.countP_cons, ih, List.count_cons]
    by_cases e : u = h
    · simp [e]
    · simp [e]

theorem destroy_count_effect {U : List Nat} {s s1 : Heap} (h : effect U s s1) (x : Nat) :
    destroy_count s1.trace x = destroy_count s.trace x + (if x ∈ U then 1 else 0) := by
  obtain ⟨obs, _, o2⟩ := h.trace
  rw [o2, destroy_count_append, destroy_count_append, destroy_count_append,
    destroy_count_marked, destroy_count_freed, destroy_count_destroyed]
  by_cases hx : x ∈ U
  · rw [List.count_eq_one_of_mem h.nodup hx]; simp [hx]
  · rw [List.count_eq_zero_of_not_mem hx]; simp [hx]

theorem trace_ok_effect {U : List Nat} {s s1 : Heap} (hi : inv_core s none none)
    (ht : trace_ok s) (h : effect U s s1) : trace_ok s1 := by
  intro x
  rw [destroy_count_effect h x, ht x, h.next_header]
  by_cases hx : x ∈ U
  · obtain ⟨hd, e⟩ := h.live x hx
    have h1 : s1.headers x = none := (h.gone x).2 (Or.inr hx)
    have h2 := hi.header_lt x hd e
    simp [hx, e, h1, h2]
  · by_cases e : s.headers x = none
    · have h1 : s1.headers x = none := (h.gone x).2 (Or.inl e)
      simp [hx, e, h1]
    · have h1 : ¬ s1.headers x = none := by
        intro h1; rcases (h.gone x).1 h1 with h2 | h2
        · exact e h2
        · exact hx h2
      simp [hx, e, h1]

theorem quiet_set_header {s : Heap} {T : Nat} {hd hd1 : root_ptr_header_block_base}
    (h : s.headers T = some hd) : quiet s (s.set_header T (some hd1)) := by
  refine ⟨rfl, rfl, fun x => ?_⟩
  by_cases hx : x = T
  · subst hx; simp [h]
  · simp [Function.update_noteq hx]

theorem released_quiet (s : Heap) (T : Nat) : quiet s (s.released T) := by
  unfold Heap.released
  cases h : s.headers T with
  | none => exact quiet_refl s
  | some hd => exact quiet_set_header h

theorem unlinked_quiet (s : Heap) (T : Nat) (sh : Option Nat) : quiet s (s.unlinked T sh) := by
  unfold Heap.unlinked
  cases h : s.headers T with
  | none => exact quiet_refl s
  | some hd => exact quiet_set_header h

theorem retargeted_quiet (s : Heap) (p : Nat) (ip1 : internal_ptr) (sh : Option Nat) :
    quiet s (s.retargeted p ip1 sh) := by
  unfold Heap.retargeted
  cases ip1.header with
  | none => exact quiet_of_headers rfl rfl rfl
  | some N =>
    simp only
    cases h : s.headers N with
    | none => exact quiet_of_headers rfl rfl rfl
    | some hd =>
      exact quiet_trans (quiet_of_headers rfl rfl rfl)
        (quiet_set_header (s := s.set_iptr p (some ip1)) h)

theorem rooted_quiet (s : Heap) (v : root_ptr) : quiet s (s.rooted v) := by
  unfold Heap.rooted
  cases v.header with
  | none => exact quiet_of_headers rfl rfl rfl
  | some N =>
    simp only
    cases h : s.headers N with
    | none => exact quiet_of_headers rfl rfl rfl
    | some hd =>
      exact quiet_trans (quiet_of_headers
       
        rfl rfl rfl)
        (quiet_set_header
          (s := { s with next_root := s.next_root + 1 }.set_root s.next_root (some v)) h)

theorem effect_of_release {s s1 : Heap} {r : Nat} {rp : root_ptr} {v : Option root_ptr}
    (h : release_result s r rp v s1) : ∃ U, effect U s s1 := by
  unfold release_result at h
  cases hh : rp.header with
  | none =>
    rw [hh] at h; simp only at h
    exact ⟨[], effect_of_quiet (h ▸ quiet_of_headers rfl rfl rfl)⟩
  | some T =>
    rw [hh] at h; simp only at h
    obtain ⟨U, s2, _, a2, a3⟩ := h
    exact ⟨U, effect_of_collected (released_quiet s T) a3.col a3.nodup a3.dead
      (a2 ▸ quiet_of_headers rfl rfl rfl)⟩

theorem effect_of_unlink {s sd s1 : Heap} {p : Nat} {ip : internal_ptr} {sh : Option Nat}
    {v : Option internal_ptr} (hq : quiet s sd) (h : unlink_result sd p ip sh v s1) :
    ∃ U, effect U s s1 := by
  unfold unlink_result at h
  cases hh : ip.header with
  | none =>
    rw [hh] at h; simp only at h
    exact ⟨[], effect_of_quiet (quiet_trans hq (h ▸ quiet_of_headers rfl rfl rfl))⟩
  | some T =>
    rw [hh] at h; simp only at h
    obtain ⟨U, s2, _, a2, a3⟩ := h
    exact ⟨U, effect_of_collected (quiet_trans hq (unlinked_quiet sd T sh)) a3.col a3.nodup
      a3.dead (a2 ▸ quiet_of_headers rfl rfl rfl)⟩

theorem effect_of_assign {s s1 : Heap} {p : Nat} {ip ip1 : internal_ptr} {sh : Option Nat}
    (h : assign_result s p ip ip1 sh s1) : ∃ U, effect U s s1 := by
  unfold assign_result at h
  cases hh : ip.header with
  | none =>
    rw [hh] at h; simp only at h
    exact ⟨[], effect_of_quiet (h ▸ retargeted_quiet s p ip1 sh)⟩
  | some T =>
    rw [hh] at h; simp only at h
    obtain ⟨U, a3⟩ := h
    exact ⟨U, effect_of_collected
      (quiet_trans (retargeted_quiet s p ip1 sh) (unlinked_quiet _ T sh)) a3.col a3.nodup
      a3.dead (quiet_refl s1)⟩

theorem internal_ptr_assign_root_step {s : Heap} {p r : Nat} {ip : internal_ptr}
    {rp : root_ptr} (hg : good s) (hp : s.iptrs p = some ip) (hr : s.roots r = some rp) :
    ∃ bs sa s1, s.bases ip.base = some bs ∧
      unlink_result s p ip bs.self_header (some ⟨ip.base, none, none⟩) sa ∧
      internal_ptr_assign_root p r s = some s1 ∧ good s1 ∧ quiet sa s1 := by
  obtain ⟨bs, sa, hb, a1, a2, a3⟩ := internal_ptr_reset_ok hg hp
  have hpa := unlink_result_iptr a3
  have hra : sa.roots r = some rp := by rw [unlink_result_roots a3]; exact hr
  obtain ⟨s1, b1, b2⟩ := link_root_ok a2 hpa rfl
    (fun N hN => a2.inv0.core.root_target_live r rp N hra (by simp) hN)
  have hq : quiet sa s1 := by
    cases hh : rp.header with
    | none =>
      rw [hh] at b1; simp only at b1
      cases b1
      exact quiet_of_headers rfl rfl rfl
    | some N =>
      rw [hh] at b1; simp only at b1
      obtain ⟨hd, hN⟩ := a2.inv0.core.root_target_live r rp N hra (by simp) hh
      obtain ⟨bs1, hb1, _⟩ := a2.inv0.core.base_of_ptr p _ hpa (by simp)
      rw [reachable_from_eq (s := sa.set_iptr p (some ⟨ip.base, some N, rp.ptr⟩)) hN hb1] at b1
      cases b1
      exact quiet_trans (quiet_of_headers rfl rfl rfl) (quiet_set_header hN)
  refine ⟨bs, sa, s1, hb, a3, ?_, b2, hq⟩
  unfold internal_ptr_assign_root
  rw [a1]; simp only
  rw [hpa, hra]; simp only
  exact b1

/-! ## The public operations as a machine -/

theorem trace_ok_quiet {s s1 : Heap} (ht : trace_ok s) (h : quiet s s1) : trace_ok s1 := by
  intro x
  rw [h.2.1, ht x, h.1]
  by_cases e : s.headers x = none
  · simp [e, (h.2.2 x).2 e]
  · have e1 : ¬ s1.headers x = none := fun h1 => e ((h.2.2 x).1 h1)
    simp [e, e1]

theorem trace_ok_allocates {s s1 : Heap} (ht : trace_ok s) (h : allocates s s1) :
    trace_ok s1 := by
  obtain ⟨h1, h2, ⟨hd, h3⟩, h4⟩ := h
  intro x
  rw [h1, ht x, h2]
  by_cases hx : x = s.next_header
  · subst hx
    simp [h3]
  · by_cases e : s.headers x = none
    · have e1 : s1.headers x = none := (h4 x hx).2 e
      have : x < s.next_header + 1 ↔ x < s.next_header := by omega
      simp [e, e1, this]
    · have e1 : ¬ s1.headers x = none := fun h => e ((h4 x hx).1 h)
      simp [e, e1]

theorem inv_core_quiet {s m : Heap} (hi : inv_core s none none) (h : quiet s m) :
    ∀ x hd, m.headers x = some hd → x < m.next_header := by
  intro x hd hx
  rw [h.1]
  cases e : s.headers x with
  | none => rw [(h.2.2 x).2 e] at hx; cases hx
  | some hd0 => exact hi.header_lt x hd0 e

theorem trace_ok_spec {op : Op} {s s1 : Heap} (hi : inv_core s none none) (ht : trace_ok s)
    (h : step_spec op s s1) : trace_ok s1 := by
  rcases h with ⟨_, h | h⟩ | ⟨m, U, _, hq, he, _⟩
  · exact trace_ok_quiet ht h
  · exact trace_ok_allocates ht h
  · have htm := trace_ok_quiet ht hq
    intro x
    rw [destroy_count_effect he x, htm x, he.next_header]
    by_cases hx : x ∈ U
    · obtain ⟨hd, e⟩ := he.live x hx
      have h1 : s1.headers x = none := (he.gone x).2 (Or.inr hx)
      have h2 := inv_core_quiet hi hq x hd e
      simp [hx, e, h1, h2]
    · by_cases e : m.headers x = none
      · have h1 : s1.headers x = none := (he.gone x).2 (Or.inl e)
        simp [hx, e, h1]
      · have h1 : ¬ s1.headers x = none := by
          intro h1; rcases (he.gone x).1 h1 with h2 | h2
          · exact e h2
          · exact hx h2
        simp [hx, e, h1]

theorem effect_of_dec {T : Nat} {m s2 s1 : Heap} {exI exR : Option Nat} {U : List Nat}
    (h : dec_result T m s2 exI exR U) (hq : quiet s2 s1) :
    effect U m s1 ∧ exact_set m U :=
  ⟨effect_of_collected (quiet_refl m) h.col h.nodup h.dead hq, dec_result_exact h⟩

theorem spec_of_release {s s1 : Heap} {r : Nat} {rp : root_ptr} {v : Option root_ptr}
    (hr : s.roots r = some rp) (h : release_result s r rp v s1) :
    (root_moment r s = none ∧ quiet s s1) ∨
    (∃ m U, root_moment r s = some m ∧ quiet s m ∧ effect U m s1 ∧ exact_set m U) := by
  unfold release_result at h
  unfold root_moment
  rw [hr]; simp only
  cases hh : rp.header with
  | none =>
    rw [hh] at h; simp only at h
    exact Or.inl ⟨rfl, h ▸ quiet_of_headers rfl rfl rfl⟩
  | some T =>
    rw [hh] at h; simp only at h
    obtain ⟨U, s2, _, a2, a3⟩ := h
    obtain ⟨e1, e2⟩ := effect_of_dec a3
      (show quiet s2 s1 by rw [a2]; exact quiet_of_headers rfl rfl rfl)
    exact Or.inr ⟨_, U, rfl, released_quiet s T, e1, e2⟩

theorem spec_of_unlink {s sd s1 : Heap} {p : Nat} {ip : internal_ptr} {sh : Option Nat}
    {v : Option internal_ptr} (hq : quiet s sd) (h : unlink_result sd p ip sh v s1) :
    (ip.header = none ∧ quiet s s1) ∨
    (∃ T U, ip.header = some T ∧ quiet s (sd.unlinked T sh) ∧
      effect U (sd.unlinked T sh) s1 ∧ exact_set (sd.unlinked T sh) U) := by
  unfold unlink_result at h
  cases hh : ip.header with
  | none =>
    rw [hh] at h; simp only at h
    exact Or.inl ⟨rfl, quiet_trans hq (h ▸ quiet_of_headers rfl rfl rfl)⟩
  | some T =>
    rw [hh] at h; simp only at h
    obtain ⟨U, s2, _, a2, a3⟩ := h
    obtain ⟨e1, e2⟩ := effect_of_dec a3
      (show quiet s2 s1 by rw [a2]; exact quiet_of_headers rfl rfl rfl)
    exact Or.inr ⟨T, U, rfl, quiet_trans hq (unlinked_quiet sd T sh), e1, e2⟩

theorem effect_quiet_right {U : List Nat} {m s1 s2 : Heap} (h : effect U m s1)
    (hq : quiet s1 s2) : effect U m s2 := by
  refine ⟨hq.1.trans h.next_header, h.nodup, h.live, fun x => ?_, ?_⟩
  · rw [hq.2.2 x]; exact h.gone x
  · obtain ⟨obs, o1, o2⟩ := h.trace
    exact ⟨obs, o1, by rw [hq.2.1, o2]⟩

theorem internal_ptr_ctor_step {s s1 : Heap} {b : Nat} (header x : Option Nat) (hg : good s)
    (hN : ∀ N, header = some N → ∃ hd, s.headers N = some hd)
    (h : internal_ptr_ctor b header x s = some s1) : good s1 ∧ quiet s s1 := by
  cases hb : s.bases b with
  | none =>
    unfold internal_ptr_ctor register_ptr at h
    have hb1 : ({ s with next_iptr := s.next_iptr + 1 }.set_iptr s.next_iptr
        (some ⟨b, header, x⟩)).bases b = none := hb
    rw [hb1] at h; cases h
  | some bs =>
    obtain ⟨s2, a1, a2⟩ := internal_ptr_ctor_ok header x hg hb hN
    rw [a1] at h; cases h
    refine ⟨a2, ?_⟩
    rw [internal_ptr_ctor_eq header x hb hN] at a1
    cases header with
    | none =>
      simp only at a1; cases a1
      exact quiet_of_headers rfl rfl rfl
    | some N =>
      obtain ⟨hd, hh⟩ := hN N rfl
      simp only at a1; rw [hh] at a1; simp only at a1; cases a1
      exact quiet_trans (quiet_of_headers rfl rfl rfl)
        (quiet_set_header (show _ = some hd from hh))

theorem step_full {s s1 : Heap} (op : Op) (hg : good s) (h : op.apply s = some s1) :
    good s1 ∧ step_spec op s s1 := by
  cases op with
  | base_ctor =>
    simp only [Op.apply, Option.some.injEq] at h
    subst h
    exact ⟨internal_base_ctor_ok hg, Or.inl ⟨rfl, Or.inl (quiet_of_headers rfl rfl rfl)⟩⟩
  | base_dtor b =>
    simp only [Op.apply] at h
    cases hb : s.bases b with
    | none => rw [hb] at h; cases h
    | some base =>
      rw [hb] at h; simp only at h
      by_cases hc : base.pointers = [] ∧ base.self_header = none
      · rw [if_pos hc] at h
        obtain ⟨s2, a1, a2⟩ := internal_base_dtor_ok hg hb hc.1 hc.2
        rw [a1] at h; cases h
        refine ⟨a2, Or.inl ⟨rfl, Or.inl ?_⟩⟩
        unfold internal_base_dtor at a1
        rw [hb] at a1; cases a1
        exact quiet_of_headers rfl rfl rfl
      · rw [if_neg hc] at h; cases h
  | iptr_empty b =>
    simp only [Op.apply] at h
    cases hb : s.bases b with
    | none =>
      unfold internal_ptr_empty register_ptr at h
      have hb1 : ({ s with next_iptr := s.next_iptr + 1 }.set_iptr s.next_iptr
          (some ⟨b, none, none⟩)).bases b = none := hb
      rw [hb1] at h; cases h
    | some base =>
      rw [internal_ptr_empty_eq hb] at h; cases h
      exact ⟨register_nil_ok none hg hb, Or.inl ⟨rfl, Or.inl (quiet_of_headers rfl rfl rfl)⟩⟩
  | iptr_from_root b r =>
    simp only [Op.apply] at h
    unfold internal_ptr_from_root at h
    cases hr : s.roots r with
    | none => rw [hr] at h; cases h
    | some rp =>
      rw [hr] at h; simp only at h
      obtain ⟨a1, a2⟩ := internal_ptr_ctor_step rp.header rp.ptr hg
        (fun N hN => hg.inv0.core.root_target_live r rp N hr (by simp) hN) h
      exact ⟨a1, Or.inl ⟨rfl, Or.inl a2⟩⟩
  | iptr_from_internal b p =>
    simp only [Op.apply] at h
    unfold internal_ptr_from_internal at h
    cases hp : s.iptrs p with
    | none => rw [hp] at h; cases h
    | some ip =>
      rw [hp] at h; simp only at h
      obtain ⟨a1, a2⟩ := internal_ptr_ctor_step ip.header ip.ptr hg
        (fun N hN => hg.inv0.core.target_live p ip N hp (by simp) hN) h
      exact ⟨a1, Or.inl ⟨rfl, Or.inl a2⟩⟩
  | iptr_move p =>
    simp only [Op.apply] at h
    cases hp : s.iptrs p with
    | none => unfold internal_ptr_move at h; rw [hp] at h; cases h
    | some ip =>
      obtain ⟨s2, a1, a2⟩ := internal_ptr_move_ok hg hp
      rw [a1] at h; cases h
      refine ⟨a2, Or.inl ⟨rfl, Or.inl ?_⟩⟩
      obtain ⟨bs, hb, _⟩ := hg.inv0.core.base_of_ptr p ip hp (by simp)
      unfold internal_ptr_move register_ptr at a1
      rw [hp] at a1; simp only at a1
      have hb1 : ({ s with next_iptr := s.next_iptr + 1 }.set_iptr s.next_iptr
          (some ip)).bases ip.base = some bs := hb
      rw [hb1] at a1; cases a1
      exact quiet_of_headers rfl rfl rfl
  | iptr_reset p =>
    simp only [Op.apply] at h
    cases hp : s.iptrs p with
    | none => unfold internal_ptr_reset at h; rw [hp] at h; cases h
    | some ip =>
      obtain ⟨bs, s2, hb, a1, a2, a3⟩ := internal_ptr_reset_ok hg hp
      rw [a1] at h; cases h
      refine ⟨a2, ?_⟩
      rcases spec_of_unlink (quiet_refl s) a3 with ⟨e1, e2⟩ | ⟨T, U, e1, e2, e3, e4⟩
      · exact Or.inl ⟨by simp [Op.moment, reset_moment, hp, e1], Or.inl e2⟩
      · exact Or.inr ⟨_, U, by simp [Op.moment, reset_moment, hp, e1, hb], e2, e3, e4⟩
  | iptr_assign_root p r =>
    simp only [Op.apply] at h
    cases hp : s.iptrs p with
    | none =>
      unfold internal_ptr_assign_root internal_ptr_reset at h; rw [hp] at h; cases h
    | some ip =>
      cases hr : s.roots r with
      | none =>
        exfalso
        obtain ⟨bs, sa, hb, a1, a2, a3⟩ := internal_ptr_reset_ok hg hp
        unfold internal_ptr_assign_root at h
        rw [a1] at h; simp only at h
        rw [unlink_result_iptr a3, unlink_result_roots a3, hr] at h
        cases h
      | some rp =>
        obtain ⟨bs, sa, s2, hb, a3, a1, a2, a4⟩ := internal_ptr_assign_root_step hg hp hr
        rw [a1] at h; cases h
        refine ⟨a2, ?_⟩
        rcases spec_of_unlink (quiet_refl s) a3 with ⟨e1, e2⟩ | ⟨T, U, e1, e2, e3, e4⟩
        · exact Or.inl ⟨by simp [Op.moment, reset_moment, hp, e1],
            Or.inl (quiet_trans e2 a4)⟩
        · exact Or.inr ⟨_, U, by simp [Op.moment, reset_moment, hp, e1, hb], e2,
            effect_quiet_right e3 a4, e4⟩
  | iptr_assign p q =>
    simp only [Op.apply] at h
    cases hp : s.iptrs p with
    | none => unfold internal_ptr_assign at h; rw [hp] at h; cases h
    | some ip =>
      cases hq : s.iptrs q with
      | none => unfold internal_ptr_assign at h; rw [hp, hq] at h; cases h
      | some src =>
        obtain ⟨bs, s2, hb, a1, a2, a3⟩ := internal_ptr_assign_ok hg hp hq
        rw [a1] at h; cases h
        refine ⟨a2, ?_⟩
        rcases a3 with ⟨e1, e2, e⟩ | ⟨hc, e⟩
        · refine Or.inl ⟨?_, Or.inl (e ▸ quiet_refl s)⟩
          simp [Op.moment, assign_moment, hp, hq, e1, e2]
        · unfold assign_result at e
          cases hh : ip.header with
          | none =>
            rw [hh] at e; simp only at e
            refine Or.inl ⟨?_, Or.inl (e ▸ retargeted_quiet s p _ _)⟩
            simp [Op.moment, assign_moment, hp, hq, hh]
          | some T =>
            rw [hh] at e; simp only at e
            obtain ⟨U, e3⟩ := e
            obtain ⟨f1, f2⟩ := effect_of_dec e3 (quiet_refl s1)
            refine Or.inr ⟨_, U, ?_,
              quiet_trans (retargeted_quiet s p _ _) (unlinked_quiet _ T _), f1, f2⟩
            simp only [Op.moment, assign_moment, hp, hq, hh, hb]
            rw [if_pos (hh ▸ hc)]
  | iptr_dtor p =>
    simp only [Op.apply] at h
    cases hp : s.iptrs p with
    | none =>
      unfold internal_ptr_dtor destroy_internal_ptr at h; rw [hp] at h; cases h
    | some ip =>
      obtain ⟨bs, s2, hb, a1, a2, a3⟩ := internal_ptr_dtor_ok hg hp
      rw [a1] at h; cases h
      have hq : quiet s (s.set_base ip.base
          (some { bs with pointers := bs.pointers.erase p })) :=
        quiet_of_headers rfl rfl rfl
      refine ⟨a2, ?_⟩
      rcases spec_of_unlink hq a3 with ⟨e1, e2⟩ | ⟨T, U, e1, e2, e3, e4⟩
      · exact Or.inl ⟨by simp [Op.moment, dtor_moment, hp, e1], Or.inl e2⟩
      · exact Or.inr ⟨_, U, by simp [Op.moment, dtor_moment, hp, e1, hb], e2, e3, e4⟩
  | root_default =>
    simp only [Op.apply, Option.some.injEq] at h
    subst h
    rw [root_ptr_default_eq]
    exact ⟨rooted_good _ hg (by intro t ht; cases ht),
      Or.inl ⟨rfl, Or.inl (rooted_quiet _ _)⟩⟩
  | root_from_raw ob =>
    cases ob with
    | none =>
      simp only [Op.apply] at h
      obtain ⟨s2, a1, a2, a3⟩ := root_ptr_from_raw_ok none hg (by intro b hb; cases hb)
      rw [a1] at h; cases h
      exact ⟨a2, Or.inl ⟨rfl, Or.inr a3⟩⟩
    | some b =>
      simp only [Op.apply] at h
      cases hb : s.bases b with
      | none => rw [hb] at h; cases h
      | some base =>
        rw [hb] at h; simp only at h
        by_cases hc : base.self_header = none
        · rw [if_pos hc] at h
          obtain ⟨s2, a1, a2, a3⟩ := root_ptr_from_raw_ok (some b) hg
            (by intro c hcb; cases hcb; exact ⟨base, hb, hc⟩)
          rw [a1] at h; cases h
          exact ⟨a2, Or.inl ⟨rfl, Or.inr a3⟩⟩
        · rw [if_neg hc] at h; cases h
  | root_copy r =>
    simp only [Op.apply] at h
    cases hr : s.roots r with
    | none => unfold root_ptr_copy at h; rw [hr] at h; cases h
    | some rp =>
      obtain ⟨a1, a2⟩ := root_ptr_copy_ok hg hr
      rw [a1] at h; cases h
      exact ⟨a2, Or.inl ⟨rfl, Or.inl (rooted_quiet _ _)⟩⟩
  | root_alias r x =>
    simp only [Op.apply] at h
    cases hr : s.roots r with
    | none => unfold root_ptr_alias at h; rw [hr] at h; cases h
    | some rp =>
      obtain ⟨a1, a2⟩ := root_ptr_alias_ok x hg hr
      rw [a1] at h; cases h
      exact ⟨a2, Or.inl ⟨rfl, Or.inl (rooted_quiet _ _)⟩⟩
  | root_move r =>
    simp only [Op.apply] at h
    cases hr : s.roots r with
    | none => unfold root_ptr_move at h; rw [hr] at h; cases h
    | some rp =>
      obtain ⟨s2, a1, a2⟩ := root_ptr_move_ok hg hr
      rw [a1] at h; cases h
      refine ⟨a2, Or.inl ⟨rfl, Or.inl ?_⟩⟩
      unfold root_ptr_move at a1
      rw [hr] at a1; cases a1
      exact quiet_of_headers rfl rfl rfl
  | root_from_internal p =>
    simp only [Op.apply] at h
    cases hp : s.iptrs p with
    | none => unfold root_ptr_from_internal at h; rw [hp] at h; cases h
    | some ip =>
      obtain ⟨a1, a2⟩ := root_ptr_from_internal_ok hg hp
      rw [a1] at h; cases h
      exact ⟨a2, Or.inl ⟨rfl, Or.inl (rooted_quiet _ _)⟩⟩
  | root_dtor r =>
    simp only [Op.apply] at h
    cases hr : s.roots r with
    | none => unfold root_ptr_dtor at h; rw [hr] at h; cases h
    | some rp =>
      obtain ⟨s2, a1, a2, a3⟩ := root_ptr_dtor_ok hg hr
      rw [a1] at h; cases h
      refine ⟨a2, ?_⟩
      rcases spec_of_release hr a3 with ⟨e1, e2⟩ | ⟨m, U, e1, e2, e3, e4⟩
      · exact Or.inl ⟨e1, Or.inl e2⟩
      · exact Or.inr ⟨m, U, e1, e2, e3, e4⟩
  | root_reset r =>
    simp only [Op.apply] at h
    cases hr : s.roots r with
    | none => unfold root_ptr_reset at h; rw [hr] at h; cases h
    | some rp =>
      obtain ⟨s2, a1, a2, a3⟩ := root_ptr_reset_ok hg hr
      rw [a1] at h; cases h
      refine ⟨a2, ?_⟩
      rcases spec_of_release hr a3 with ⟨e1, e2⟩ | ⟨m, U, e1, e2, e3, e4⟩
      · exact Or.inl ⟨e1, Or.inl e2⟩
      · exact Or.inr ⟨m, U, e1, e2, e3, e4⟩
  | root_swap a b =>
    simp only [Op.apply] at h
    cases ha : s.roots a with
    | none => unfold root_ptr_swap at h; rw [ha] at h; cases h
    | some ra =>
      cases hb : s.roots b with
      | none => unfold root_ptr_swap at h; rw [ha, hb] at h; cases h
      | some rb =>
        obtain ⟨s2, a1, a2⟩ := root_ptr_swap_ok hg ha hb
        rw [a1] at h; cases h
        refine ⟨a2, Or.inl ⟨rfl, Or.inl ?_⟩⟩
        unfold root_ptr_swap at a1
        rw [ha, hb] at a1; cases a1
        exact quiet_of_headers rfl rfl rfl

theorem good_empty : good Heap.empty := by
  have e3 : ∀ {α : Type} {P : Nat → α → Prop} (f : Nat → Option α),
      (∀ x, f x = none) → ∀ x y, f x = some y → P x y := by
    intro α P f hf x y h; rw [hf x] at h; cases h
  have e4 : ∀ {α : Type} {P : Nat → α → Nat → Prop} (f : Nat → Option α),
      (∀ x, f x = none) → ∀ x y z, f x = some y → P x y z := by
    intro α P f hf x y z h; rw [hf x] at h; cases h
  exact ⟨⟨⟨e3 _ (fun _ => rfl), e3 _ (fun _ => rfl), e3 _ (fun _ => rfl), e3 _ (fun _ => rfl),
    e3 _ (fun _ => rfl), e4 _ (fun _ => rfl), e3 _ (fun _ => rfl), e3 _ (fun _ => rfl),
    e3 _ (fun _ => rfl), e4 _ (fun _ => rfl), e4 _ (fun _ => rfl), e3 _ (fun _ => rfl),
    e3 _ (fun _ => rfl), e3 _ (fun _ => rfl), e3 _ (fun _ => rfl)⟩,
    e3 _ (fun _ => rfl), e4 _ (fun _ => rfl)⟩, e3 _ (fun _ => rfl)⟩

theorem sound_empty : sound Heap.empty :=
  ⟨good_empty, fun h => by simp [destroy_count, Heap.empty]⟩

theorem sound_step {s s1 : Heap} (op : Op) (hs : sound s) (h : op.apply s = some s1) :
    sound s1 := by
  obtain ⟨a1, a2⟩ := step_full op hs.good0 h
  exact ⟨a1, trace_ok_spec hs.good0.inv0.core hs.trace0 a2⟩

theorem sound_run (ops : List Op) : ∀ {s s1 : Heap}, sound s → run ops s = some s1 →
    sound s1 := by
  induction ops with
  | nil => intro s s1 hs h; cases h; exact hs
  | cons op ops ih =>
    intro s s1 hs h
    unfold run at h
    cases hop : op.apply s with
    | none => rw [hop] at h; cases h
    | some s2 =>
      rw [hop] at h
      exact ih (sound_step op hs hop) h

theorem sound_of_reachable {s : Heap} (h : reachable s) : sound s := by
  obtain ⟨ops, hops⟩ := h
  exact sound_run ops sound_empty hops

theorem run_append (a b : List Op) (s : Heap) :
    run (a ++ b) s = (run a s).bind (run b) := by
  induction a generalizing s with
  | nil => rfl
  | cons op a ih =>
    simp only [List.cons_append, run]
    cases op.apply s with
    | none => rfl
    | some s1 => exact ih s1

theorem reachable_step {s s1 : Heap} {op : Op} (h : reachable s) (h1 : op.apply s = some s1) :
    reachable s1 := by
  obtain ⟨ops, hops⟩ := h
  refine ⟨ops ++ [op], ?_⟩
  rw [run_append, hops]
  simp [run, h1]

theorem reachable_run {s s1 : Heap} {ops : List Op} (h : reachable s)
    (h1 : run ops s = some s1) : reachable s1 := by
  obtain ⟨ops0, hops⟩ := h
  refine ⟨ops0 ++ ops, ?_⟩
  rw [run_append, hops]
  exact h1

theorem internal_ptr_swap_run (p q : Nat) (s : Heap) :
    internal_ptr_swap p q s = run [Op.root_from_internal q, Op.root_from_internal p,
      Op.iptr_assign_root q (s.next_root + 1), Op.iptr_assign_root p s.next_root,
      Op.root_dtor (s.next_root + 1), Op.root_dtor s.next_root] s := by
  unfold internal_ptr_swap
  simp only [run, Op.apply]
  cases root_ptr_from_internal q s with
  | none => rfl
  | some s1 =>
    simp only
    cases root_ptr_from_internal p s1 with
    | none => rfl
    | some s2 =>
      simp only
      cases internal_ptr_assign_root q (s.next_root + 1) s2 with
      | none => rfl
      | some s3 =>
        simp only
        cases internal_ptr_assign_root p s.next_root s3 with
        | none => rfl
        | some s4 =>
          simp only
          cases root_ptr_dtor (s.next_root + 1) s4 with
          | none => rfl
          | some s5 =>
            simp only
            cases root_ptr_dtor s.next_root s5 <;> rfl

theorem count_bounds_of_inv_core {s : Heap} {exI exR : Option Nat} (hi : inv_core s exI exR) :
    count_bounds s := by
  intro H hd hH
  have h1 := hi.internal_count_eq H hd hH
  have h2 := hi.bp_length H hd hH
  have h3 := iptr_count_bound_le s exI H
  omega

theorem count_bounds_set_header {s : Heap} {T : Nat} {hd1 : root_ptr_header_block_base}
    (h : count_bounds s)
    (h1 : hd1.back_pointers.length ≤ hd1.internal_count ∧
      hd1.owner_count ≤ hd1.internal_count ∧
      hd1.internal_count - hd1.back_pointers.length ≥ hd1.owner_count) :
    count_bounds (s.set_header T (some hd1)) := by
  intro H hd hH
  by_cases e : H = T
  · subst e; simp at hH; subst hH; exact h1
  · simp [Function.update_noteq e] at hH; exact h H hd hH

/-- C7: in every heap reachable through the public handle operations, every live header
satisfies `|back_pointers| <= internal_count`, `owner_count <= internal_count` and
`internal_count - |back_pointers| >= owner_count`; every public operation, and each of
`add_owner`, `owner_from_internal`, `reachable_from`, `remove_owner` and
`not_reachable_from` called for a live handle, leaves a heap in which the headers that
remain live satisfy them (`set_owner` runs inside `Op.root_from_raw`). -/
theorem C7_count_bounds {s : Heap} (h : reachable s) :
    count_bounds s ∧
    (∀ op s1, Op.apply op s = some s1 → count_bounds s1) ∧
    (∀ T hd, s.headers T = some hd → ∃ s1, add_owner T s = some s1 ∧ count_bounds s1) ∧
    (∀ T hd, s.headers T = some hd →
      ∃ s1 b, owner_from_internal T s = some (s1, b) ∧ count_bounds s1) ∧
    (∀ T hd b base, s.headers T = some hd → s.bases b = some base →
      ∃ s1, reachable_from T b s = some s1 ∧ count_bounds s1) ∧
    (∀ r rp T, s.roots r = some rp → rp.header = some T →
      ∃ s1, remove_owner T s = some s1 ∧ count_bounds s1) ∧
    (∀ p ip T, s.iptrs p = some ip → ip.header = some T →
      ∃ s1, not_reachable_from T ip.base s = some s1 ∧ count_bounds s1) := by
  have hs := sound_of_reachable h
  have hb := count_bounds_of_inv_core hs.good0.inv0.core
  refine ⟨hb, ?_, ?_, ?_, ?_, ?_, ?_⟩
  · intro op s1 h1
    exact count_bounds_of_inv_core (sound_of_reachable (reachable_step h h1)).good0.inv0.core
  · intro T hd hT
    rw [add_owner_eq hT]
    refine ⟨_, rfl, count_bounds_set_header hb ?_⟩
    have := hb T hd hT
    unfold own_header; simp only; omega
  · intro T hd hT
    unfold owner_from_internal
    rw [hT]; simp only
    rw [if_neg (by rw [(hs.good0.inv0.flags T hd hT (by simp)).1]; simp)]
    refine ⟨_, _, rfl, count_bounds_set_header hb ?_⟩
    have := hb T hd hT
    simp only; omega
  · intro T hd b base hT hbs
    rw [reachable_from_eq hT hbs]
    refine ⟨_, rfl, count_bounds_set_header hb ?_⟩
    have := hb T hd hT
    unfold link_header
    cases base.self_header with
    | none => simp only; omega
    | some P => simp only [length_add]; omega
  · intro r rp T hr hh
    obtain ⟨hd, hT⟩ := hs.good0.inv0.core.root_target_live r rp T hr (by simp) hh
    obtain ⟨_, _, U, s2, a1, a2⟩ := remove_owner_ok hs.good0.inv0 hs.good0.owned hr hh hT
    exact ⟨s2, a1, count_bounds_of_inv_core a2.inv2.core⟩
  · intro p ip T hp hh
    obtain ⟨bs, hbs, _⟩ := hs.good0.inv0.core.base_of_ptr p ip hp (by simp)
    obtain ⟨hd, hT⟩ := hs.good0.inv0.core.target_live p ip T hp (by simp) hh
    obtain ⟨U, s2, a1, a2, _⟩ := not_reachable_from_body_ok
      (not_reachable_from_depth s.next_header) hs.good0 hp hh hbs hT (Or.inl rfl)
    exact ⟨s2, by rw [not_reachable_from_unfold]; exact a1,
      count_bounds_of_inv_core a2.inv2.core⟩

/-- C6: in every heap reachable through the public handle operations, for every
`internal_ptr` with non-nil target header `T` that is registered with an `internal_base`
whose `self_header` `P` is non-nil, the header `T` is live and `P` is an element of
`back_pointers(T)`; the heap after any further public operation (construction, assignment,
reset, move, destruction of an `internal_ptr`, and `set_owner` inside
`Op.root_from_raw`) and after `internal_ptr::swap` has the same property. -/
theorem C6_bijection {s : Heap} (h : reachable s) :
    (∀ p ip T base P, s.iptrs p = some ip → ip.header = some T →
      s.bases ip.base = some base → p ∈ base.pointers → base.self_header = some P →
      ∃ hd, s.headers T = some hd ∧ P ∈ hd.back_pointers) ∧
    (∀ op s1, Op.apply op s = some s1 →
      ∀ p ip T base P, s1.iptrs p = some ip → ip.header = some T →
      s1.bases ip.base = some base → p ∈ base.pointers → base.self_header = some P →
      ∃ hd, s1.headers T = some hd ∧ P ∈ hd.back_pointers) ∧
    (∀ a b s1, internal_ptr_swap a b s = some s1 →
      ∀ p ip T base P, s1.iptrs p = some ip → ip.header = some T →
      s1.bases ip.base = some base → p ∈ base.pointers → base.self_header = some P →
      ∃ hd, s1.headers T = some hd ∧ P ∈ hd.back_pointers) := by
  have key : ∀ {s : Heap}, reachable s →
      ∀ p ip T base P, s.iptrs p = some ip → ip.header = some T →
      s.bases ip.base = some base → p ∈ base.pointers → base.self_header = some P →
      ∃ hd, s.headers T = some hd ∧ P ∈ hd.back_pointers := by
    intro s h p ip T base P hp hh hb _ hP
    have hs := sound_of_reachable h
    obtain ⟨hd, hT⟩ := hs.good0.inv0.core.target_live p ip T hp (by simp) hh
    obtain ⟨_, _, _, hm⟩ := target_counts hs.good0.inv0.core hp hh hb hT
    exact ⟨hd, hT, hm P hP⟩
  refine ⟨key h, fun op s1 h1 => key (reachable_step h h1), fun a b s1 h1 => ?_⟩
  rw [internal_ptr_swap_run] at h1
  exact key (reachable_run h h1)

theorem reachable_one_edge : reachable one_edge_heap := ⟨one_edge_program, rfl⟩

theorem reachable_two_edges : reachable two_edges_heap := ⟨two_edges_program, rfl⟩

/-- C8 (counterexample): in the reachable heap `one_edge_heap` the back pointers of `X` are
`[A]` and the `internal_base` of `A` has `self_header = A`; `reachable_from` applied to `X`
with that `internal_base` changes the back pointers to `[A, A]`; and in the reachable heap
`two_edges_heap` the parent `A` appears twice in the back pointers of `X`. -/
theorem C8_counterexample :
    reachable one_edge_heap ∧
    (one_edge_heap.headers 1).map (fun hd => hd.back_pointers) = some [0] ∧
    (one_edge_heap.bases 0).map (fun base => base.self_header) = some (some 0) ∧
    (reachable_from 1 0 one_edge_heap).bind
      (fun s => (s.headers 1).map (fun hd => hd.back_pointers)) = some [0, 0] ∧
    reachable two_edges_heap ∧
    (two_edges_heap.headers 1).map (fun hd => hd.back_pointers) = some [0, 0] :=
  ⟨⟨one_edge_program, rfl⟩, rfl, rfl, rfl, ⟨two_edges_program, rfl⟩, rfl⟩

/-- C8 (amended): `back_pointers` is a sorted multiset.  In every reachable heap the number
of occurrences of a parent header `P` in the back pointers of a live header `t` is the
number of `internal_ptr` handles with target `t` held by the payload of `P`; and
`reachable_from`, called with an `internal_base` whose `self_header` is `P`, increments
`internal_count` and inserts one more occurrence of `P`, whether or not `P` is there
already. -/
theorem C8_back_pointers_multiset {s : Heap} (h : reachable s) :
    (∀ t hd P, s.headers t = some hd → hd.back_pointers.Sorted (· ≤ ·) ∧
      hd.back_pointers.count P = iptr_count_from s none t P) ∧
    (∀ T b hd base P, s.headers T = some hd → s.bases b = some base →
      base.self_header = some P →
      ∃ s1 hd1, reachable_from T b s = some s1 ∧ s1.headers T = some hd1 ∧
        hd1.internal_count = hd.internal_count + 1 ∧
        hd1.back_pointers = add hd.back_pointers P ∧
        hd1.back_pointers.length = hd.back_pointers.length + 1 ∧
        ∀ y, hd1.back_pointers.count y = hd.back_pointers.count y + if y = P then 1 else 0)
    := by
  have hs := sound_of_reachable h
  refine ⟨fun t hd P ht => ⟨hs.good0.inv0.core.bp_sorted t hd ht,
    hs.good0.inv0.core.bp_count t hd ht P⟩, ?_⟩
  intro T b hd base P hT hb hP
  rw [reachable_from_eq hT hb]
  refine ⟨_, link_header hd base.self_header, rfl, by simp, ?_⟩
  rw [hP]
  unfold link_header
  exact ⟨rfl, rfl, length_add _ _, fun y => count_add _ _ _⟩

/-- C8 (witness): the amended statement at `two_edges_heap`, where the parent `A` occurs
twice in the back pointers of `X` and holds two handles with target `X`. -/
theorem C8_witness :
    reachable two_edges_heap ∧
    (∀ hd, two_edges_heap.headers 1 = some hd →
      hd.back_pointers.count 0 = iptr_count_from two_edges_heap none 1 0) ∧
    iptr_count_from two_edges_heap none 1 0 = 2 :=
  ⟨reachable_two_edges,
    fun hd hh => ((C8_back_pointers_multiset reachable_two_edges).1 1 hd 0 hh).2, by decide⟩

theorem use_count_of_header {s : Heap} (hs : sound s) {t : Nat}
    {hd : root_ptr_header_block_base} (ht : s.headers t = some hd) :
    header_use_count hd = root_count s none t + iptr_count s none t := by
  unfold header_use_count
  rw [(hs.good0.inv0.flags t hd ht (by simp)).1]
  simp only [Bool.false_eq_true, if_false]
  rw [hs.good0.inv0.core.internal_count_eq t hd ht, hs.good0.inv0.core.owner_count_eq t hd ht]

theorem root_use_count_eq {s : Heap} {r t : Nat} {rp : root_ptr}
    {hd : root_ptr_header_block_base} (hr : s.roots r = some rp) (hh : rp.header = some t)
    (ht : s.headers t = some hd) : root_ptr_use_count s r = some (header_use_count hd) := by
  unfold root_ptr_use_count; rw [hr]; simp only; rw [hh]; simp only; rw [ht]

theorem iptr_use_count_eq {s : Heap} {p t : Nat} {ip : internal_ptr}
    {hd : root_ptr_header_block_base} (hp : s.iptrs p = some ip) (hh : ip.header = some t)
    (ht : s.headers t = some hd) : internal_ptr_use_count s p = some (header_use_count hd) := by
  unfold internal_ptr_use_count; rw [hp]; simp only; rw [hh]; simp only; rw [ht]

theorem use_count_own (hd : root_ptr_header_block_base) (h : hd.unreachable = false) :
    header_use_count (own_header hd) = header_use_count hd + 1 := by
  unfold header_use_count own_header; simp [h]

/-- C5: in every heap reachable through the public handle operations no live header is
flagged unreachable, `owner_count` is the number of `root_ptr` handles sharing the header and
`internal_count` is `owner_count` plus the number of `internal_ptr` handles whose target is
the header; so `use_count()` of a `root_ptr` or `internal_ptr` with a target is the number
of root and internal handles with that target, and that of an empty handle is 0.  Copying
a `root_ptr` or promoting an `internal_ptr` adds 1 to the use count; resetting a handle
subtracts 1 for the object, if it stays alive. -/
theorem C5_use_count {s : Heap} (h : reachable s) :
    (∀ t hd, s.headers t = some hd → hd.unreachable = false ∧
      hd.owner_count = root_count s none t ∧
      hd.internal_count = hd.owner_count + iptr_count s none t) ∧
    (∀ r rp t, s.roots r = some rp → rp.header = some t →
      root_ptr_use_count s r = some (root_count s none t + iptr_count s none t)) ∧
    (∀ p ip t, s.iptrs p = some ip → ip.header = some t →
      internal_ptr_use_count s p = some (root_count s none t + iptr_count s none t)) ∧
    (∀ r rp, s.roots r = some rp → rp.header = none → root_ptr_use_count s r = some 0) ∧
    (∀ p ip, s.iptrs p = some ip → ip.header = none →
      internal_ptr_use_count s p = some 0) ∧
    (∀ r rp t, s.roots r = some rp → rp.header = some t →
      ∃ s1 n, root_ptr_copy r s = some s1 ∧ root_ptr_use_count s r = some n ∧
        root_ptr_use_count s1 r = some (n + 1) ∧
        root_ptr_use_count s1 s.next_root = some (n + 1)) ∧
    (∀ p ip t, s.iptrs p = some ip → ip.header = some t →
      ∃ s1 n, root_ptr_from_internal p s = some s1 ∧ internal_ptr_use_count s p = some n ∧
        internal_ptr_use_count s1 p = some (n + 1) ∧
        root_ptr_use_count s1 s.next_root = some (n + 1)) ∧
    (∀ r rp t, s.roots r = some rp → rp.header = some t →
      ∃ s1, root_ptr_reset r s = some s1 ∧ root_ptr_use_count s1 r = some 0 ∧
        ∀ hd hd1, s.headers t = some hd → s1.headers t = some hd1 →
          header_use_count hd1 + 1 = header_use_count hd) ∧
    (∀ p ip t, s.iptrs p = some ip → ip.header = some t →
      ∃ s1, internal_ptr_reset p s = some s1 ∧ internal_ptr_use_count s1 p = some 0 ∧
        ∀ hd hd1, s.headers t = some hd → s1.headers t = some hd1 →
          header_use_count hd1 + 1 = header_use_count hd) := by
  have hs := sound_of_reachable h
  have hi := hs.good0.inv0.core
  have hfl : ∀ t hd, s.headers t = some hd → hd.unreachable = false :=
    fun t hd ht => (hs.good0.inv0.flags t hd ht (by simp)).1
  refine ⟨?_, ?_, ?_, ?_, ?_, ?_, ?_, ?_, ?_⟩
  · intro t hd ht
    exact ⟨hfl t hd ht, hi.owner_count_eq t hd ht, hi.internal_count_eq t hd ht⟩
  · intro r rp t hr hh
    obtain ⟨hd, ht⟩ := hi.root_target_live r rp t hr (by simp) hh
    rw [root_use_count_eq hr hh ht, use_count_of_header hs ht]
  · intro p ip t hp hh
    obtain ⟨hd, ht⟩ := hi.target_live p ip t hp (by simp) hh
    rw [iptr_use_count_eq hp hh ht, use_count_of_header hs ht]
  · intro r rp hr hh
    unfold root_ptr_use_count; rw [hr]; simp only; rw [hh]
  · intro p ip hp hh
    unfold internal_ptr_use_count; rw [hp]; simp only; rw [hh]
  · intro r rp t hr hh
    obtain ⟨hd, ht⟩ := hi.root_target_live r rp t hr (by simp) hh
    obtain ⟨a1, _⟩ := root_ptr_copy_ok hs.good0 hr
    have hrn : r ≠ s.next_root := by have := hi.root_lt r rp hr; omega
    obtain ⟨_, _, rR, _⟩ := rooted_rest s rp
    have hH : (s.rooted rp).headers t = some (own_header hd) := by
      rcases (rooted_headers s rp t).2 hd ht with ⟨e, _⟩ | ⟨_, e⟩
      · exact absurd hh e
      · exact e
    refine ⟨_, header_use_count hd, a1, root_use_count_eq hr hh ht, ?_, ?_⟩
    · rw [root_use_count_eq (by rw [rR, Function.update_noteq hrn]; exact hr) hh hH,
        use_count_own hd (hfl t hd ht)]
    · rw [root_use_count_eq (by rw [rR]; simp) hh hH, use_count_own hd (hfl t hd ht)]
  · intro p ip t hp hh
    obtain ⟨hd, ht⟩ := hi.target_live p ip t hp (by simp) hh
    obtain ⟨a1, _⟩ := root_ptr_from_internal_ok hs.good0 hp
    obtain ⟨_, rI, rR, _⟩ := rooted_rest s ⟨ip.ptr, ip.header⟩
    have hH : (s.rooted ⟨ip.ptr, ip.header⟩).headers t = some (own_header hd) := by
      rcases (rooted_headers s ⟨ip.ptr, ip.header⟩ t).2 hd ht with ⟨e, _⟩ | ⟨_, e⟩
      · exact absurd hh e
      · exact e
    refine ⟨_, header_use_count hd, a1, iptr_use_count_eq hp hh ht, ?_, ?_⟩
    · rw [iptr_use_count_eq (by rw [rI]; exact hp) hh hH, use_count_own hd (hfl t hd ht)]
    · rw [root_use_count_eq (show (s.rooted ⟨ip.ptr, ip.header⟩).roots s.next_root =
          some (⟨ip.ptr, ip.header⟩ : root_ptr) by rw [rR]; simp) hh hH,
        use_count_own hd (hfl t hd ht)]
  · intro r rp t hr hh
    obtain ⟨s1, a1, a2, a3⟩ := root_ptr_reset_ok hs.good0 hr
    unfold release_result at a3
    rw [hh] at a3; simp only at a3
    obtain ⟨U, s2, b1, b2, b3⟩ := a3
    refine ⟨s1, a1, ?_, ?_⟩
    · unfold root_ptr_use_count; rw [b2]; simp
    · intro hd hd1 ht ht1
      have ht2 : s2.headers t = some hd1 := by rw [b2] at ht1; exact ht1
      have htu : t ∉ U := fun hu => by rw [b3.col.freed t hu] at ht2; cases ht2
      have hown : has_owner (s.released t) t := by
        by_contra hn; exact htu (b3.mem hn)
      obtain ⟨e1, _⟩ := b3.same hown
      rw [e1] at ht2
      unfold Heap.released at ht2
      rw [ht] at ht2; simp at ht2
      subst ht2
      have hpos : 1 ≤ hd.internal_count := by
        obtain ⟨c1, c2, _⟩ := remove_owner_ok hs.good0.inv0 hs.good0.owned hr hh ht
        exact c2
      unfold header_use_count
      simp only [hfl t hd ht, Bool.false_eq_true, if_false, dec_pos hpos]
      omega
  · intro p ip t hp hh
    obtain ⟨bs, s1, hb, a1, a2, a3⟩ := internal_ptr_reset_ok hs.good0 hp
    have hpa := unlink_result_iptr a3
    unfold unlink_result at a3
    rw [hh] at a3; simp only at a3
    obtain ⟨U, s2, b1, b2, b3⟩ := a3
    refine ⟨s1, a1, ?_, ?_⟩
    · unfold internal_ptr_use_count; rw [hpa]
    · intro hd hd1 ht ht1
      have ht2 : s2.headers t = some hd1 := by rw [b2] at ht1; exact ht1
      have htu : t ∉ U := fun hu => by rw [b3.col.freed t hu] at ht2; cases ht2
      have hown : has_owner (s.unlinked t bs.self_header) t := by
        by_contra hn; exact htu (b3.mem hn)
      obtain ⟨e1, _⟩ := b3.same hown
      rw [e1, unlinked_eq ht] at ht2
      simp at ht2
      subst ht2
      obtain ⟨_, hpos, _⟩ := target_counts hi hp hh hb ht
      unfold header_use_count unlink_header
      simp only [hfl t hd ht, Bool.false_eq_true, if_false, dec_pos hpos]
      omega

/-- C5 (witness): at `two_edges_heap` the object `X` has one `root_ptr` and two
`internal_ptr` handles, and `use_count()` of its `root_ptr` is 3. -/
theorem C5_witness :
    reachable two_edges_heap ∧
    root_ptr_use_count two_edges_heap 1 =
      some (root_count two_edges_heap none 1 + iptr_count two_edges_heap none 1) ∧
    root_count two_edges_heap none 1 + iptr_count two_edges_heap none 1 = 3 :=
  ⟨reachable_two_edges,
    (C5_use_count reachable_two_edges).2.1 1 ⟨some 1, some 1⟩ 1 rfl rfl, by decide⟩

/-- C6 (witness): at `two_edges_heap` the handle 0 of `A` has the target `X`, and `A` is in
the back pointers of `X`. -/
theorem C6_witness :
    reachable two_edges_heap ∧
    ∃ hd, two_edges_heap.headers 1 = some hd ∧ 0 ∈ hd.back_pointers :=
  ⟨reachable_two_edges,
    (C6_bijection reachable_two_edges).1 0 ⟨0, some 1, some 1⟩ 1 ⟨some 0, [1, 0]⟩ 0 rfl rfl rfl
      (by decide) rfl⟩

/-- C7 (witness): the count bounds hold at `two_edges_heap`. -/
theorem C7_witness : reachable two_edges_heap ∧ count_bounds two_edges_heap :=
  ⟨reachable_two_edges, (C7_count_bounds reachable_two_edges).1⟩

/-- What a collection of exactly the ownerless headers of the moment `m` means for one
header `x`. -/
theorem effect_facts {U : List Nat} {s m s1 : Heap} (ht : trace_ok s) (hq : quiet s m)
    (he : effect U m s1) (hx : exact_set m U) (x : Nat) :
    ((∃ hd, m.headers x = some hd) → ¬ has_owner m x →
      s1.headers x = none ∧ destroy_count s.trace x = 0 ∧ destroy_count s1.trace x = 1) ∧
    ((∃ hd, m.headers x = some hd) → has_owner m x →
      (∃ hd, s1.headers x = some hd) ∧ destroy_count s1.trace x = 0) := by
  obtain ⟨q1, q2, q3⟩ := hq
  have hdc := destroy_count_effect he x
  rw [q2] at hdc
  have hlive : (∃ hd, m.headers x = some hd) → destroy_count s.trace x = 0 := by
    rintro ⟨hd, hm⟩
    rw [ht x]
    have : s.headers x ≠ none := fun hn => by rw [(q3 x).2 hn] at hm; cases hm
    simp [this]
  constructor
  · intro hl hn
    have hU : x ∈ U := (hx x).2 ⟨hl, hn⟩
    refine ⟨(he.gone x).2 (Or.inr hU), hlive hl, ?_⟩
    rw [hdc, hlive hl]; simp [hU]
  · intro hl ho
    have hU : x ∉ U := fun hu => ((hx x).1 hu).2 ho
    constructor
    · cases h1 : s1.headers x with
      | some hd => exact ⟨hd, rfl⟩
      | none =>
        rcases (he.gone x).1 h1 with hn | hu
        · obtain ⟨hd, hm⟩ := hl
          rw [hn] at hm; cases hm
        · exact absurd hu hU
    · rw [hdc, hlive hl]; simp [hU]

theorem not_owned_counts {hd : root_ptr_header_block_base} (h : is_owned hd = false) :
    hd.owner_count = 0 ∧ hd.internal_count ≤ hd.back_pointers.length := by
  unfold is_owned at h
  by_cases h0 : hd.owner_count = 0
  · by_cases h1 : hd.internal_count > hd.back_pointers.length
    · simp [h0, h1] at h
    · exact ⟨h0, by omega⟩
  · simp [h0] at h

theorem no_owner_counts {m : Heap} {x : Nat} (h : ¬ has_owner m x) :
    ∀ z hd, bp_path m x z → m.headers z = some hd →
      hd.owner_count = 0 ∧ hd.internal_count ≤ hd.back_pointers.length := by
  intro z hd hp hz
  apply not_owned_counts
  cases ho : is_owned hd with
  | false => rfl
  | true => exact absurd ⟨z, hp, hd, hz, ho⟩ h

theorem mem_passes {U : List Nat} (obs : Nat → List (Option Nat)) {x : Nat}
    (h : Event.marked x ∈ (U.map Event.marked ++
        U.map (fun u => Event.destroyed u (obs u)) ++ U.map Event.freed) ∨
      (∃ o, Event.destroyed x o ∈ (U.map Event.marked ++
        U.map (fun u => Event.destroyed u (obs u)) ++ U.map Event.freed)) ∨
      Event.freed x ∈ (U.map Event.marked ++
        U.map (fun u => Event.destroyed u (obs u)) ++ U.map Event.freed)) : x ∈ U := by
  simp only [List.mem_append, List.mem_map] at h
  rcases h with ((⟨a, ha, e⟩ | ⟨a, _, e⟩) | ⟨a, _, e⟩) | ⟨o, (⟨a, _, e⟩ | ⟨a, ha, e⟩) | ⟨a, _, e⟩⟩ |
    ((⟨a, _, e⟩ | ⟨a, _, e⟩) | ⟨a, ha, e⟩)
  all_goals first
    | (cases e; exact ha)
    | cases e

theorem count_upto_ge_two {n : Nat} {f : Nat → Bool} {a b : Nat} (ha : a < n) (hb : b < n)
    (hab : a ≠ b) (hfa : f a = true) (hfb : f b = true) : 2 ≤ count_upto n f := by
  have h1 := count_upto_list (n := n) (L := [a, b]) f (by simp [hab])
    (by intro q hq; simp at hq; rcases hq with rfl | rfl <;> assumption)
  have h2 : count_upto n (fun q => decide (q ∈ [a, b]) && f q) ≤ count_upto n f :=
    count_upto_mono (fun x hx => by simp at hx; exact hx.2)
  have h3 : [a, b].countP f = 2 := by simp [List.countP_cons, hfa, hfb]
  omega

/-- Releasing the header `T` through one of two `root_ptr` handles that share it collects
nothing. -/
theorem release_shared {s : Heap} (hg : good s) {r r2 T : Nat} {rp rp2 : root_ptr}
    (hne : r ≠ r2) (hr : s.roots r = some rp) (hr2 : s.roots r2 = some rp2)
    (hh : rp.header = some T) (hh2 : rp2.header = some T) :
    remove_owner T s = some (s.released T) ∧
    ∀ v s1, release_result s r rp v s1 → s1 = (s.released T).set_root r v := by
  have hi := hg.inv0.core
  obtain ⟨hd, hT⟩ := hi.root_target_live r rp T hr (by simp) hh
  have h2 : 2 ≤ hd.owner_count := by
    rw [hi.owner_count_eq T hd hT]
    unfold root_count
    refine count_upto_ge_two (hi.root_lt r rp hr) (hi.root_lt r2 rp2 hr2) hne ?_ ?_
    · unfold root_targets; rw [hr]; simp [hh]
    · unfold root_targets; rw [hr2]; simp [hh2]
  have hown : has_owner (s.released T) T := by
    refine ⟨T, Relation.ReflTransGen.refl, ?_⟩
    unfold owned_at Heap.released
    rw [hT]
    have hne0 : dec hd.owner_count ≠ 0 := by rw [dec_pos (by omega)]; omega
    refine ⟨{ hd with owner_count := dec hd.owner_count,
                      internal_count := dec hd.internal_count },
      by simp [Heap.set_header], ?_⟩
    unfold is_owned
    simp [hne0]
  obtain ⟨_, _, U, s2, a1, a2⟩ := remove_owner_ok hg.inv0 hg.owned hr hh hT
  obtain ⟨e1, _⟩ := a2.same hown
  refine ⟨by rw [a1, e1], ?_⟩
  intro v s1 h
  unfold release_result at h
  rw [hh] at h; simp only at h
  obtain ⟨U1, s3, b1, b2, _⟩ := h
  rw [a1] at b1
  cases b1
  rw [b2, e1]

/-- C1: in every heap `s` reachable through the public handle operations, a call of
`remove_owner` made by a `root_ptr` for its header, a call of `not_reachable_from` made by an
`internal_ptr` for its target, and every public operation return; in the heap they return
every live header has a back-pointer path of length `>= 0` to a header for which `is_owned()`
is true; and every header that is live but has no such path at the moment the counters have
been decremented (it lost its last reachability from a root, whether or not it sits on a
cycle of internal handles) is freed, its payload having been destroyed during the call: not
before it, once after it. -/
theorem C1_completeness {s : Heap} (h : reachable s) :
    (∀ r rp T, s.roots r = some rp → rp.header = some T →
      ∃ s2, remove_owner T s = some s2 ∧
        (∀ x hd, s2.headers x = some hd → has_owner s2 x) ∧
        ∀ x, (∃ hd, (s.released T).headers x = some hd) → ¬ has_owner (s.released T) x →
          s2.headers x = none ∧ destroy_count s.trace x = 0 ∧
            destroy_count s2.trace x = 1) ∧
    (∀ p ip T, s.iptrs p = some ip → ip.header = some T →
      ∃ bs s2, s.bases ip.base = some bs ∧ not_reachable_from T ip.base s = some s2 ∧
        (∀ x hd, s2.headers x = some hd → has_owner s2 x) ∧
        ∀ x, (∃ hd, (s.unlinked T bs.self_header).headers x = some hd) →
          ¬ has_owner (s.unlinked T bs.self_header) x →
          s2.headers x = none ∧ destroy_count s.trace x = 0 ∧
            destroy_count s2.trace x = 1) ∧
    (∀ op s1, Op.apply op s = some s1 →
      (∀ x hd, s1.headers x = some hd → has_owner s1 x) ∧
      ∀ m, Op.moment op s = some m →
        ∀ x, (∃ hd, m.headers x = some hd) → ¬ has_owner m x →
          s1.headers x = none ∧ destroy_count s.trace x = 0 ∧
            destroy_count s1.trace x = 1) := by
  have hs := sound_of_reachable h
  have hi := hs.good0.inv0.core
  refine ⟨?_, ?_, ?_⟩
  · intro r rp T hr hh
    obtain ⟨hd, hT⟩ := hi.root_target_live r rp T hr (by simp) hh
    obtain ⟨_, _, U, s2, a1, a2⟩ := remove_owner_ok hs.good0.inv0 hs.good0.owned hr hh hT
    obtain ⟨e1, e2⟩ := effect_of_dec a2 (quiet_refl s2)
    refine ⟨s2, a1, a2.owned2, fun x hl hn => ?_⟩
    exact (effect_facts hs.trace0 (released_quiet s T) e1 e2 x).1 hl hn
  · intro p ip T hp hh
    obtain ⟨hd, hT⟩ := hi.target_live p ip T hp (by simp) hh
    obtain ⟨bs, hb, _⟩ := hi.base_of_ptr p ip hp (by simp)
    obtain ⟨U, s2, a1, a2, _⟩ := not_reachable_from_body_ok
      (not_reachable_from_depth s.next_header) hs.good0 hp hh hb hT (Or.inl rfl)
    obtain ⟨e1, e2⟩ := effect_of_dec a2 (quiet_refl s2)
    refine ⟨bs, s2, hb, by rw [not_reachable_from_unfold]; exact a1, a2.owned2,
      fun x hl hn => ?_⟩
    exact (effect_facts hs.trace0 (unlinked_quiet s T bs.self_header) e1 e2 x).1 hl hn
  · intro op s1 h1
    obtain ⟨g1, sp⟩ := step_full op hs.good0 h1
    refine ⟨g1.owned, fun m hm x hl hn => ?_⟩
    rcases sp with ⟨h0, _⟩ | ⟨m1, U, hm1, hq, e1, e2⟩
    · rw [h0] at hm; cases hm
    · rw [hm1] at hm; cases hm
      exact (effect_facts hs.trace0 hq e1 e2 x).1 hl hn

/-- C2: in every heap `s` reachable through the public handle operations, a public operation
appends to the trace only events of headers that, at the moment the operation has decremented
the counters and decides what to collect, are live and have no back-pointer path of length
`>= 0` to a header with `owner_count > 0` or `internal_count > |back_pointers|`: no other
header is marked unreachable, has its payload destroyed or is freed, and a header that has
such a path stays live.  In particular, releasing (by the destructor or by `reset`) one of
two `root_ptr` handles that share a header logs nothing and frees nothing, `remove_owner`
returning right after the two decrements. -/
theorem C2_soundness {s : Heap} (h : reachable s) :
    (∀ op s1, Op.apply op s = some s1 →
      ∃ ev, s1.trace = s.trace ++ ev ∧
        (∀ x, (Event.marked x ∈ ev ∨ (∃ o, Event.destroyed x o ∈ ev) ∨ Event.freed x ∈ ev ∨
            ((∃ hd, s.headers x = some hd) ∧ s1.headers x = none)) →
          ∃ m, Op.moment op s = some m ∧ (∃ hd, m.headers x = some hd) ∧
            ∀ z hd, bp_path m x z → m.headers z = some hd →
              hd.owner_count = 0 ∧ hd.internal_count ≤ hd.back_pointers.length) ∧
        (∀ m x, Op.moment op s = some m → (∃ hd, m.headers x = some hd) → has_owner m x →
          (∃ hd, s1.headers x = some hd) ∧ destroy_count s1.trace x = 0)) ∧
    (∀ r r2 rp rp2 T, r ≠ r2 → s.roots r = some rp → s.roots r2 = some rp2 →
      rp.header = some T → rp2.header = some T →
      remove_owner T s = some (s.released T) ∧
      (∃ s1, root_ptr_dtor r s = some s1 ∧ s1.trace = s.trace ∧
        ∀ x, s1.headers x = none ↔ s.headers x = none) ∧
      (∃ s1, root_ptr_reset r s = some s1 ∧ s1.trace = s.trace ∧
        ∀ x, s1.headers x = none ↔ s.headers x = none)) := by
  have hs := sound_of_reachable h
  have hi := hs.good0.inv0.core
  constructor
  · intro op s1 h1
    obtain ⟨g1, sp⟩ := step_full op hs.good0 h1
    rcases sp with ⟨h0, hqa⟩ | ⟨m1, U, hm1, hq, e1, e2⟩
    · have htr : s1.trace = s.trace := by
        rcases hqa with hq | ha
        · exact hq.2.1
        · exact ha.1
      refine ⟨[], by rw [htr]; simp, fun x hx => ?_, fun m x hm => ?_⟩
      · exfalso
        rcases hx with hx | ⟨o, hx⟩ | hx | ⟨⟨hd, hl⟩, hn⟩
        · cases hx
        · cases hx
        · cases hx
        · rcases hqa with hq | ha
          · rw [(hq.2.2 x).1 hn] at hl; cases hl
          · have hlt := hi.header_lt x hd hl
            rw [(ha.2.2.2 x (by omega)).1 hn] at hl; cases hl
      · rw [h0] at hm; cases hm
    · obtain ⟨obs, _, htr⟩ := e1.trace
      refine ⟨U.map Event.marked ++ U.map (fun u => Event.destroyed u (obs u)) ++
        U.map Event.freed, ?_, fun x hx => ?_, fun m x hm hl ho => ?_⟩
      · rw [htr, hq.2.1]; simp [List.append_assoc]
      · have hU : x ∈ U := by
          rcases hx with hx | hx | hx | ⟨⟨hd, hl⟩, hn⟩
          · exact mem_passes obs (Or.inl hx)
          · exact mem_passes obs (Or.inr (Or.inl hx))
          · exact mem_passes obs (Or.inr (Or.inr hx))
          · rcases (e1.gone x).1 hn with h2 | h2
            · rw [(hq.2.2 x).1 h2] at hl; cases hl
            · exact h2
        obtain ⟨hl, hn⟩ := (e2 x).1 hU
        exact ⟨m1, hm1, hl, no_owner_counts hn⟩
      · rw [hm1] at hm; cases hm
        exact (effect_facts hs.trace0 hq e1 e2 x).2 hl ho
  · intro r r2 rp rp2 T hne hr hr2 hh hh2
    obtain ⟨a1, a2⟩ := release_shared hs.good0 hne hr hr2 hh hh2
    obtain ⟨q1, q2, q3⟩ := released_quiet s T
    refine ⟨a1, ?_, ?_⟩
    · obtain ⟨s1, b1, _, b3⟩ := root_ptr_dtor_ok hs.good0 hr
      refine ⟨s1, b1, ?_, ?_⟩
      · rw [a2 _ _ b3]; exact q2
      · rw [a2 _ _ b3]; exact q3
    · obtain ⟨s1, b1, _, b3⟩ := root_ptr_reset_ok hs.good0 hr
      refine ⟨s1, b1, ?_, ?_⟩
      · rw [a2 _ _ b3]; exact q2
      · rw [a2 _ _ b3]; exact q3

theorem nil_handle_reads_nil {st : Heap} {q : Nat} {ip : internal_ptr}
    (hq : st.iptrs q = some ip) (hh : ip.header = none) :
    internal_ptr_get st q = some none ∧ internal_ptr_bool st q = some false := by
  have hget : internal_ptr_get st q = some none := by
    unfold internal_ptr_get; rw [hq]; simp only; rw [hh]
  exact ⟨hget, by unfold internal_ptr_bool; rw [hget]; rfl⟩

/-- C4: in every heap `s` reachable through the public handle operations, a call of
`remove_owner` made by a `root_ptr` for its header and a call of `not_reachable_from` made by
an `internal_ptr` for its target either return the heap `m` in which the counters have been
decremented, or return what `cleanup_unreachable_nodes(Z)` returns from `m`, for a set `Z`
that contains the header; and the three loops of that call return and do what `passes`
says: when the first loop is done, only `marked` events have been logged, every member of
`Z` is flagged `unreachable` and every handle registered with the payload of a member has a
nil target, `get()` returns nil for it and it converts to `false`; the second loop logs the
`destroyed` event of each member, the targets read from the handles of the payload when
its destructor starts being all nil, and leaves every header block of `Z` allocated; the third
loop frees the header blocks.  For every public operation the events appended to the trace are
the `marked` events of a set, then its `destroyed` events, in which every handle reads as
nil, then its `freed` events.  A handle whose `header` is nil returns nil from `get()` and
converts to `false`. -/
theorem C4_destructor_sees_nil {s : Heap} (h : reachable s) :
    (∀ r rp T, s.roots r = some rp → rp.header = some T →
      remove_owner T s = some (s.released T) ∨
      ∃ Z s3, T ∈ Z ∧ remove_owner T s = some s3 ∧
        cleanup_unreachable_nodes (not_reachable_from_depth s.next_header) Z (s.released T) =
          some s3 ∧
        passes (not_reachable_from_depth s.next_header) Z (s.released T) s3) ∧
    (∀ p ip T bs, s.iptrs p = some ip → ip.header = some T → s.bases ip.base = some bs →
      not_reachable_from T ip.base s = some (s.unlinked T bs.self_header) ∨
      ∃ Z s3, T ∈ Z ∧ not_reachable_from T ip.base s = some s3 ∧
        cleanup_unreachable_nodes (not_reachable_from_depth s.next_header) Z
          (s.unlinked T bs.self_header) = some s3 ∧
        passes (not_reachable_from_depth s.next_header) Z (s.unlinked T bs.self_header) s3) ∧
    (∀ op s1, Op.apply op s = some s1 →
      ∃ (U : List Nat) (obs : Nat → List (Option Nat)), (∀ u, ∀ o ∈ obs u, o = none) ∧
        s1.trace = s.trace ++ U.map Event.marked ++
          U.map (fun u => Event.destroyed u (obs u)) ++ U.map Event.freed) ∧
    (∀ st q ip, st.iptrs q = some ip → ip.header = none →
      internal_ptr_get st q = some none ∧ internal_ptr_bool st q = some false) := by
  have hs := sound_of_reachable h
  have hi := hs.good0.inv0.core
  refine ⟨?_, ?_, ?_, fun st q ip hq hh => nil_handle_reads_nil hq hh⟩
  · intro r rp T hr hh
    obtain ⟨hd, hT⟩ := hi.root_target_live r rp T hr (by simp) hh
    obtain ⟨_, _, _, U, s2, a1, a3, _⟩ :=
      remove_owner_run hs.good0.inv0 hs.good0.owned hr hh hT
    rcases a3 with ⟨_, e⟩ | ⟨b1, b2, b3⟩
    · left; rw [a1, e]
    · right; exact ⟨U, s2, b1, a1, b2, b3⟩
  · intro p ip T bs hp hh hb
    obtain ⟨hd, hT⟩ := hi.target_live p ip T hp (by simp) hh
    obtain ⟨U, s2, a1, _, _, _, a3⟩ := not_reachable_from_body_run
      (not_reachable_from_depth s.next_header) hs.good0 hp hh hb hT (Or.inl rfl)
    rw [← not_reachable_from_unfold] at a1
    rcases a3 with ⟨_, e⟩ | ⟨b1, b2, b3⟩
    · left; rw [a1, e]
    · right; exact ⟨U, s2, b1, a1, b2, b3⟩
  · intro op s1 h1
    obtain ⟨_, sp⟩ := step_full op hs.good0 h1
    rcases sp with ⟨_, hqa⟩ | ⟨m1, U, _, hq, e1, _⟩
    · have htr : s1.trace = s.trace := by
        rcases hqa with hq | ha
        · exact hq.2.1
        · exact ha.1
      refine ⟨[], fun _ => [], ?_, ?_⟩
      · intro u o ho; cases ho
      · rw [htr]; simp
    · obtain ⟨obs, ho, htr⟩ := e1.trace
      exact ⟨U, obs, ho, by rw [htr, hq.2.1]⟩

theorem released_rest (s : Heap) (T : Nat) :
    (s.released T).bases = s.bases ∧ (s.released T).roots = s.roots ∧
    (s.released T).iptrs = s.iptrs ∧ (s.released T).trace = s.trace ∧
    (s.released T).next_header = s.next_header := by
  unfold Heap.released
  cases h : s.headers T <;> exact ⟨rfl, rfl, rfl, rfl, rfl⟩

/-- A counted handle makes a back-pointer edge from its target to the header of the payload
that holds it. -/
theorem edge_of_handle {m : Heap} {exI exR : Option Nat} (hi : inv_core m exI exR)
    {p y x : Nat} {ip : internal_ptr} {base : internal_base}
    (hp : m.iptrs p = some ip) (hne : some p ≠ exI) (hh : ip.header = some y)
    (hb : m.bases ip.base = some base) (hsh : base.self_header = some x) : bp_edge m y x := by
  obtain ⟨hd, hy⟩ := hi.target_live p ip y hp hne hh
  refine ⟨hd, hy, ?_⟩
  have hc := hi.bp_count y hd hy x
  have h1 : 1 ≤ iptr_count_from m exI y x := by
    unfold iptr_count_from
    apply count_upto_pos (hi.iptr_lt p ip hp)
    unfold iptr_targets_from iptr_targets
    rw [hp]; simp [hne, hh, hb, hsh]
  exact List.count_pos_iff.1 (by omega)

/-- The header that a counted `root_ptr` shares is owned. -/
theorem owned_of_root {m : Heap} {exI exR : Option Nat} (hi : inv_core m exI exR)
    {r z : Nat} {rp : root_ptr} (hr : m.roots r = some rp) (hne : some r ≠ exR)
    (hh : rp.header = some z) : owned_at m z := by
  obtain ⟨hd, hz⟩ := hi.root_target_live r rp z hr hne hh
  refine ⟨hd, hz, ?_⟩
  have h0 := hi.owner_count_eq z hd hz
  have h1 : 1 ≤ root_count m exR z := by
    unfold root_count
    apply count_upto_pos (hi.root_lt r rp hr)
    unfold root_targets
    rw [hr]; simp [hne, hh]
  unfold is_owned
  have : hd.owner_count ≠ 0 := by omega
  simp [this]

/-- A set of headers that no counted `root_ptr` shares and whose members are the target only
of handles held by payloads of members: no member has an owner. -/
theorem closed_region_dead {m : Heap} {exI exR : Option Nat} (hi : inv_core m exI exR)
    (W : Nat → Prop)
    (hroot : ∀ r rp x, m.roots r = some rp → some r ≠ exR → rp.header = some x → ¬ W x)
    (hclosed : ∀ p ip x, m.iptrs p = some ip → some p ≠ exI → ip.header = some x → W x →
      ∃ base y, m.bases ip.base = some base ∧ base.self_header = some y ∧ W y) :
    ∀ x, W x → ¬ has_owner m x := by
  have key : ∀ x hd, W x → m.headers x = some hd →
      is_owned hd = false ∧ ∀ y ∈ hd.back_pointers, W y := by
    intro x hd hW hx
    constructor
    · rw [is_owned_false_iff]
      have hoc : hd.owner_count = 0 := by
        rw [hi.owner_count_eq x hd hx]
        unfold root_count
        apply count_upto_zero
        intro r _
        unfold root_targets
        cases hrr : m.roots r with
        | none => simp
        | some rp =>
          by_cases hne : some r = exR
          · simp [hne]
          · by_cases hh : rp.header = some x
            · exact absurd hW (hroot r rp x hrr hne hh)
            · simp [hh]
      refine ⟨hoc, ?_⟩
      rw [hi.internal_count_eq x hd hx, hoc, hi.bp_length x hd hx, Nat.zero_add]
      unfold iptr_count iptr_count_bound
      apply count_upto_mono
      intro p hp
      unfold iptr_targets_bound
      rw [hp]; simp only [Bool.true_and]
      unfold iptr_targets at hp
      cases hpp : m.iptrs p with
      | none => rw [hpp] at hp; simp at hp
      | some ip =>
        rw [hpp] at hp
        simp at hp
        obtain ⟨base, y, hb, hy, _⟩ := hclosed p ip x hpp hp.1 hp.2 hW
        simp [hb, hy]
    · intro y hy
      have hc := hi.bp_count x hd hx y
      have hpos : 0 < iptr_count_from m exI x y := by
        rw [← hc]; exact List.count_pos_iff.2 hy
      obtain ⟨p, _, hp⟩ := exists_of_count_upto_pos hpos
      unfold iptr_targets_from iptr_targets at hp
      cases hpp : m.iptrs p with
      | none => rw [hpp] at hp; simp at hp
      | some ip =>
        rw [hpp] at hp
        cases hbb : m.bases ip.base with
        | none => simp [hbb] at hp
        | some base =>
          simp [hbb] at hp
          obtain ⟨⟨h1, h2⟩, h3⟩ := hp
          obtain ⟨base1, y1, hb1, hy1, hWy⟩ := hclosed p ip x hpp h1 h2 hW
          rw [hbb] at hb1; cases hb1
          rw [h3] at hy1; cases hy1
          exact hWy
  have hW2 : ∀ x z, W x → bp_path m x z → W z := by
    intro x z hW hp
    induction hp with
    | refl => exact hW
    | tail _ he ih =>
      obtain ⟨hdb, hb, hy⟩ := he
      exact (key _ hdb ih hb).2 _ hy
  intro x hW ⟨z, hp, hd, hz, ho⟩
  rw [(key z hd (hW2 x z hW hp) hz).1] at ho; cases ho

/-- Releasing a header that still has an owner afterwards: both the destructor and `reset`
of the `root_ptr` return the heap in which the two counters are decremented and the handle is
gone (or empty). -/
theorem release_live {s : Heap} (hg : good s) {r T : Nat} {rp : root_ptr}
    (hr : s.roots r = some rp) (hh : rp.header = some T)
    (hown : has_owner (s.released T) T) :
    root_ptr_dtor r s = some ((s.released T).set_root r none) ∧
    root_ptr_reset r s = some ((s.released T).set_root r (some ⟨none, none⟩)) := by
  obtain ⟨hd, hT⟩ := hg.inv0.core.root_target_live r rp T hr (by simp) hh
  obtain ⟨_, _, U, s2, a1, a2⟩ := remove_owner_ok hg.inv0 hg.owned hr hh hT
  obtain ⟨e1, _⟩ := a2.same hown
  have key : ∀ v s1, release_result s r rp v s1 → s1 = (s.released T).set_root r v := by
    intro v s1 h
    unfold release_result at h
    rw [hh] at h; simp only at h
    obtain ⟨U1, s3, b1, b2, _⟩ := h
    rw [a1] at b1; cases b1
    rw [b2, e1]
  obtain ⟨s1, b1, _, b3⟩ := root_ptr_dtor_ok hg hr
  obtain ⟨s1r, c1, _, c3⟩ := root_ptr_reset_ok hg hr
  exact ⟨by rw [b1, key _ _ b3], by rw [c1, key _ _ c3]⟩

/-- Along a ring of `next` handles every node has a back-pointer path to every other one. -/
theorem ring_path {m : Heap} {exI exR : Option Nat} (hi : inv_core m exI exR) (n : Nat)
    (hn : 0 < n) (hdr : Nat → Nat)
    (hnext : ∀ i, i < n → ∃ p ip base, m.iptrs p = some ip ∧ some p ≠ exI ∧
      ip.header = some (hdr ((i + 1) % n)) ∧ m.bases ip.base = some base ∧
      base.self_header = some (hdr i)) (j : Nat) (hj : j < n) :
    ∀ d, bp_path m (hdr ((j + d) % n)) (hdr j) := by
  intro d
  induction d with
  | zero => rw [Nat.add_zero, Nat.mod_eq_of_lt hj]; exact Relation.ReflTransGen.refl
  | succ d ih =>
    obtain ⟨p, ip, base, h1, h2, h3, h4, h5⟩ := hnext ((j + d) % n) (Nat.mod_lt _ hn)
    have he := edge_of_handle hi h1 h2 h3 h4 h5
    have hmod : ((j + d) % n + 1) % n = (j + (d + 1)) % n := by
      rw [Nat.mod_add_mod, Nat.add_assoc]
    rw [hmod] at he
    exact Relation.ReflTransGen.head he ih

/-- One release in a ring of `next` handles while a root of another ring node remains: the
released header keeps an owner, so nothing is collected. -/
theorem ring_release_step {s : Heap} (h : reachable s) (n : Nat) (hn : 0 < n) (hdr : Nat → Nat)
    (hnext : ∀ i, i < n → ∃ p ip base, s.iptrs p = some ip ∧
      ip.header = some (hdr ((i + 1) % n)) ∧ s.bases ip.base = some base ∧
      base.self_header = some (hdr i))
    {r r0 i j : Nat} {rp rp0 : root_ptr} (hi : i < n) (hj : j < n) (hne : r ≠ r0)
    (hr : s.roots r = some rp) (hh : rp.header = some (hdr i))
    (hr0 : s.roots r0 = some rp0) (hh0 : rp0.header = some (hdr j)) :
    root_ptr_dtor r s = some ((s.released (hdr i)).set_root r none) ∧
    root_ptr_reset r s = some ((s.released (hdr i)).set_root r (some ⟨none, none⟩)) := by
  have hs := sound_of_reachable h
  obtain ⟨hd, hT⟩ := hs.good0.inv0.core.root_target_live r rp _ hr (by simp) hh
  obtain ⟨_, _, hinvm, _⟩ := remove_owner_run hs.good0.inv0 hs.good0.owned hr hh hT
  obtain ⟨mb, mr, mi, _, _⟩ := released_rest s (hdr i)
  have hpath := ring_path hinvm.core n hn hdr (fun i1 hi1 => by
    obtain ⟨p, ip, base, h1, h2, h3, h4⟩ := hnext i1 hi1
    exact ⟨p, ip, base, by rw [mi]; exact h1, by simp, h2, by rw [mb]; exact h3, h4⟩) j hj
    (i + n - j)
  have hmod : (j + (i + n - j)) % n = i := by
    have : j + (i + n - j) = i + n := by omega
    rw [this, Nat.add_mod_right, Nat.mod_eq_of_lt hi]
  rw [hmod] at hpath
  have hown : owned_at (s.released (hdr i)) (hdr j) :=
    owned_of_root hinvm.core (show (s.released (hdr i)).roots r0 = some rp0 by rw [mr]; exact hr0)
      (fun e => hne (Option.some.inj e).symm) hh0
  exact release_live hs.good0 hr hh (has_owner_of_path hpath (has_owner_of_owned hown))

/-- Releasing, in any order, the roots of all nodes of a ring but that of node `k`: every
release returns, and the handles, the `internal_base` objects, the trace and the set of allocated
header blocks are those of the start. -/
theorem ring_release_others (n : Nat) (hn : 0 < n) (hdr rt : Nat → Nat) (byreset : Nat → Bool)
    (hinj : ∀ i j, i < n → j < n → hdr i = hdr j → i = j) (k : Nat) (hk : k < n) :
    ∀ (order : List Nat) (s : Heap), reachable s → order.Nodup →
      (∀ i ∈ order, i < n ∧ i ≠ k) →
      (∀ i, i < n → (i ∈ order ∨ i = k) →
        ∃ rp, s.roots (rt i) = some rp ∧ rp.header = some (hdr i)) →
      (∀ i, i < n → ∃ p ip base, s.iptrs p = some ip ∧
        ip.header = some (hdr ((i + 1) % n)) ∧ s.bases ip.base = some base ∧
        base.self_header = some (hdr i)) →
      ∃ s1, run (order.map (fun i =>
          if byreset i then Op.root_reset (rt i) else Op.root_dtor (rt i))) s = some s1 ∧
        reachable s1 ∧ s1.iptrs = s.iptrs ∧ s1.bases = s.bases ∧ s1.trace = s.trace ∧
        (∀ x, s1.headers x = none ↔ s.headers x = none) ∧
        (∀ r, (∀ i ∈ order, r ≠ rt i) → s1.roots r = s.roots r) ∧
        (∀ i ∈ order, ∀ rp, s1.roots (rt i) = some rp → rp.header = none) := by
  intro order
  induction order with
  | nil =>
    intro s h _ _ _ _
    exact ⟨s, rfl, h, rfl, rfl, rfl, fun _ => Iff.rfl, fun _ _ => rfl,
      fun i hi => by cases hi⟩
  | cons i rest ih =>
    intro s h hnd hord hroot hnext
    obtain ⟨hin, hik⟩ := hord i (by simp)
    have hnd2 := List.nodup_cons.1 hnd
    obtain ⟨rp, hr, hh⟩ := hroot i hin (Or.inl (by simp))
    obtain ⟨rp0, hr0, hh0⟩ := hroot k hk (Or.inr rfl)
    -- the roots of different nodes are different handles
    have hdiff : ∀ j, j < n → (j ∈ rest ∨ j = k) → rt j ≠ rt i := by
      intro j hj hjm e
      obtain ⟨rpj, f1, f2⟩ := hroot j hj (hjm.imp (fun x => List.mem_cons_of_mem _ x) id)
      rw [e, hr] at f1; cases f1
      rw [hh] at f2
      have := hinj i j hin hj (Option.some.inj f2)
      subst this
      rcases hjm with hjm | hjm
      · exact hnd2.1 hjm
      · exact hik hjm
    obtain ⟨e1, e2⟩ := ring_release_step h n hn hdr hnext hin hk
      (fun e => hdiff k hk (Or.inr rfl) e.symm) hr hh hr0 hh0
    obtain ⟨v, hv, happly⟩ : ∃ v : Option root_ptr, (∀ w, v = some w → w.header = none) ∧
        Op.apply (if byreset i then Op.root_reset (rt i) else Op.root_dtor (rt i)) s =
          some ((s.released (hdr i)).set_root (rt i) v) := by
      cases byreset i with
      | true => exact ⟨some ⟨none, none⟩, fun w hw => (by cases hw; rfl), e2⟩
      | false => exact ⟨none, fun w hw => (by cases hw), e1⟩
    obtain ⟨mb, mr, mi, mt, _⟩ := released_rest s (hdr i)
    obtain ⟨_, _, mq⟩ := released_quiet s (hdr i)
    have hroots1 : ((s.released (hdr i)).set_root (rt i) v).roots =
        Function.update s.roots (rt i) v := by rw [← mr]; rfl
    obtain ⟨s1, a1, a2, a3, a4, a5, a6, a7, a8⟩ := ih _ (reachable_step h happly) hnd2.2
      (fun j hj => hord j (List.mem_cons_of_mem _ hj))
      (fun j hj hjm => by
        obtain ⟨rpj, f1, f2⟩ := hroot j hj (hjm.imp (fun x => List.mem_cons_of_mem _ x) id)
        exact ⟨rpj, by rw [hroots1, Function.update_noteq (hdiff j hj hjm)]; exact f1, f2⟩)
      (fun j hj => by
        obtain ⟨p, ip, base, h1, h2, h3, h4⟩ := hnext j hj
        exact ⟨p, ip, base, (show (s.released (hdr i)).iptrs p = some ip by rw [mi]; exact h1),
          h2, (show (s.released (hdr i)).bases ip.base = some base by rw [mb]; exact h3), h4⟩)
    refine ⟨s1, ?_, a2, a3.trans mi, a4.trans mb, a5.trans mt,
      fun x => (a6 x).trans (mq x), ?_, ?_⟩
    · simp only [List.map_cons, run]
      rw [happly]
      exact a1
    · intro r hrn
      rw [a7 r (fun j hj => hrn j (List.mem_cons_of_mem _ hj)), hroots1,
        Function.update_noteq (hrn i (by simp))]
    · intro j hj rpj hrj
      rcases List.mem_cons.1 hj with rfl | hj
      · rw [a7 (rt j) (fun j1 hj1 e => hdiff j1 (hord j1 (List.mem_cons_of_mem _ hj1)).1
          (Or.inl hj1) e.symm), hroots1, Function.update_same] at hrj
        exact hv rpj hrj
      · exact a8 j hj rpj hrj

/-- C3: in a heap reachable through the public handle operations, let `n >= 1` (in particular
`n >= 2`) distinct nodes form a ring: node `i` (header `hdr i`) is shared by its own
`root_ptr` `rt i` and no other, the payload of node `i` holds a handle whose target is node
`(i + 1) mod n`, and the handles whose target is a node of the ring are held by payloads of
nodes of the ring.  Releasing (by the destructor or by `reset`) the roots of all nodes but
node `k`, in any order, returns; afterwards every one of the `n` header blocks is still
allocated and no payload has been destroyed.  Releasing then the root of node `k`
returns; afterwards every one of the `n` header blocks is freed and every one of the `n`
payloads has been destroyed exactly once. -/
theorem C3_ring {s : Heap} (h : reachable s) (n : Nat) (hn : 1 ≤ n) (hdr rt : Nat → Nat)
    (byreset : Nat → Bool)
    (hinj : ∀ i j, i < n → j < n → hdr i = hdr j → i = j)
    (hroot : ∀ i, i < n → ∃ rp, s.roots (rt i) = some rp ∧ rp.header = some (hdr i))
    (honly : ∀ r rp j, j < n → s.roots r = some rp → rp.header = some (hdr j) → r = rt j)
    (hnext : ∀ i, i < n → ∃ p ip base, s.iptrs p = some ip ∧
      ip.header = some (hdr ((i + 1) % n)) ∧ s.bases ip.base = some base ∧
      base.self_header = some (hdr i))
    (hclosed : ∀ p ip j, j < n → s.iptrs p = some ip → ip.header = some (hdr j) →
      ∃ base i, i < n ∧ s.bases ip.base = some base ∧ base.self_header = some (hdr i))
    (k : Nat) (hk : k < n) (order : List Nat) (hnd : order.Nodup)
    (hord : ∀ i, i ∈ order ↔ i < n ∧ i ≠ k) :
    ∃ s1 s2,
      run (order.map (fun i =>
        if byreset i then Op.root_reset (rt i) else Op.root_dtor (rt i))) s = some s1 ∧
      (∀ i, i < n → (∃ hd, s1.headers (hdr i) = some hd) ∧
        destroy_count s1.trace (hdr i) = 0) ∧
      Op.apply (if byreset k then Op.root_reset (rt k) else Op.root_dtor (rt k)) s1 =
        some s2 ∧
      (∀ i, i < n → s2.headers (hdr i) = none ∧ destroy_count s2.trace (hdr i) = 1) := by
  have hs := sound_of_reachable h
  obtain ⟨s1, a1, a2, a3, a4, a5, a6, a7, a8⟩ :=
    ring_release_others n hn hdr rt byreset hinj k hk order s h hnd (fun i hi => (hord i).1 hi)
      (fun i hi _ => hroot i hi) hnext
  have hs1 := sound_of_reachable a2
  have hlive : ∀ i, i < n → ∃ hd, s.headers (hdr i) = some hd := by
    intro i hi
    obtain ⟨rp, f1, f2⟩ := hroot i hi
    exact hs.good0.inv0.core.root_target_live _ rp _ f1 (by simp) f2
  have hlive1 : ∀ i, i < n → ∃ hd, s1.headers (hdr i) = some hd := by
    intro i hi
    obtain ⟨hd, f1⟩ := hlive i hi
    cases h1 : s1.headers (hdr i) with
    | some hd1 => exact ⟨hd1, rfl⟩
    | none => rw [(a6 _).1 h1] at f1; cases f1
  -- the root of node `k` is still there
  have hrtk : ∀ i ∈ order, rt k ≠ rt i := by
    intro i hi e
    obtain ⟨hin, hik⟩ := (hord i).1 hi
    obtain ⟨rpi, f1, f2⟩ := hroot i hin
    obtain ⟨rpk, g1, g2⟩ := hroot k hk
    rw [e, f1] at g1; cases g1
    rw [f2] at g2
    exact hik (hinj i k hin hk (Option.some.inj g2))
  obtain ⟨rpk, g1, g2⟩ := hroot k hk
  have hr1 : s1.roots (rt k) = some rpk := by rw [a7 _ hrtk]; exact g1
  obtain ⟨hdk, hTk⟩ := hlive1 k hk
  obtain ⟨_, _, hinvm, _⟩ := remove_owner_run hs1.good0.inv0 hs1.good0.owned hr1 g2 hTk
  obtain ⟨mb, mr, mi, _, _⟩ := released_rest s1 (hdr k)
  obtain ⟨_, _, mq⟩ := released_quiet s1 (hdr k)
  have hdead := closed_region_dead hinvm.core (fun x => ∃ i, i < n ∧ x = hdr i)
    (by
      rintro r rp x hr hne hx ⟨j, hj, rfl⟩
      rw [mr] at hr
      by_cases hex : ∃ i ∈ order, r = rt i
      · obtain ⟨i, hi, rfl⟩ := hex
        rw [a8 i hi rp hr] at hx; cases hx
      · push_neg at hex
        rw [a7 r hex] at hr
        have hrj := honly r rp j hj hr hx
        by_cases hjk : j = k
        · subst hjk; exact hne (by rw [hrj])
        · exact hex j ((hord j).2 ⟨hj, hjk⟩) hrj)
    (by
      rintro p ip x hp _ hx ⟨j, hj, rfl⟩
      rw [mi, a3] at hp
      obtain ⟨base, i, hi, f1, f2⟩ := hclosed p ip j hj hp hx
      exact ⟨base, hdr i, by rw [mb, a4]; exact f1, f2, i, hi, rfl⟩)
  obtain ⟨s2, happly⟩ : ∃ s2,
      Op.apply (if byreset k then Op.root_reset (rt k) else Op.root_dtor (rt k)) s1 =
        some s2 := by
    cases byreset k with
    | true =>
      obtain ⟨s2, b1, _⟩ := root_ptr_reset_ok hs1.good0 hr1
      exact ⟨s2, b1⟩
    | false =>
      obtain ⟨s2, b1, _⟩ := root_ptr_dtor_ok hs1.good0 hr1
      exact ⟨s2, b1⟩
  have hmom : Op.moment (if byreset k then Op.root_reset (rt k) else Op.root_dtor (rt k)) s1 =
      some (s1.released (hdr k)) := by
    have : root_moment (rt k) s1 = some (s1.released (hdr k)) := by
      unfold root_moment; rw [hr1]; simp only; rw [g2]
    cases byreset k with
    | true => exact this
    | false => exact this
  refine ⟨s1, s2, a1, fun i hi => ⟨hlive1 i hi, ?_⟩, happly, fun i hi => ?_⟩
  · rw [a5, hs.trace0]
    obtain ⟨hd, f1⟩ := hlive i hi
    simp [f1]
  · obtain ⟨_, sp⟩ := step_full _ hs1.good0 happly
    rcases sp with ⟨h0, _⟩ | ⟨m1, U, hm1, hq, e1, e2⟩
    · rw [hmom] at h0; cases h0
    · rw [hmom] at hm1; cases hm1
      obtain ⟨hd1, f1⟩ := hlive1 i hi
      have hlm : ∃ hd, (s1.released (hdr k)).headers (hdr i) = some hd := by
        cases h1 : (s1.released (hdr k)).headers (hdr i) with
        | some hd => exact ⟨hd, rfl⟩
        | none => rw [(mq _).1 h1] at f1; cases f1
      obtain ⟨c1, _, c3⟩ := (effect_facts hs1.trace0 hq e1 e2 (hdr i)).1 hlm
        (hdead (hdr i) ⟨i, hi, rfl⟩)
      exact ⟨c1, c3⟩

theorem reachable_ring3 : reachable ring3_heap := ⟨ring3_program, rfl⟩

/-- C3 (witness): the ring of three nodes built by `ring3_program`; the roots of the nodes 1
and 2 are released first, then the root of node 0. -/
theorem C3_witness :
    reachable ring3_heap ∧
    ∃ s1 s2,
      run [Op.root_dtor 1, Op.root_dtor 2] ring3_heap = some s1 ∧
      (∀ i, i < 3 → (∃ hd, s1.headers i = some hd) ∧ destroy_count s1.trace i = 0) ∧
      Op.apply (Op.root_dtor 0) s1 = some s2 ∧
      (∀ i, i < 3 → s2.headers i = none ∧ destroy_count s2.trace i = 1) :=
  ⟨reachable_ring3,
    C3_ring reachable_ring3 3 (by decide) (fun i => i) (fun i => i) (fun _ => false)
      (fun _ _ _ _ e => e)
      (by intro i hi; interval_cases i <;> exact ⟨_, rfl, rfl⟩)
      (by
        intro r rp j _ hr hx
        have hlt := (sound_of_reachable reachable_ring3).good0.inv0.core.root_lt r rp hr
        have hn : ring3_heap.next_root = 3 := rfl
        rw [hn] at hlt
        interval_cases r
        · rw [show ring3_heap.roots 0 = some ⟨some 0, some 0⟩ from rfl] at hr
          cases hr; exact (Option.some.inj hx)
        · rw [show ring3_heap.roots 1 = some ⟨some 1, some 1⟩ from rfl] at hr
          cases hr; exact (Option.some.inj hx)
        · rw [show ring3_heap.roots 2 = some ⟨some 2, some 2⟩ from rfl] at hr
          cases hr; exact (Option.some.inj hx))
      (by
        intro i hi
        interval_cases i
        · exact ⟨0, ⟨0, some 1, some 1⟩, ⟨some 0, [0]⟩, rfl, rfl, rfl, rfl⟩
        · exact ⟨1, ⟨1, some 2, some 2⟩, ⟨some 1, [1]⟩, rfl, rfl, rfl, rfl⟩
        · exact ⟨2, ⟨2, some 0, some 0⟩, ⟨some 2, [2]⟩, rfl, rfl, rfl, rfl⟩)
      (by
        intro p ip j _ hp _
        have hlt := (sound_of_reachable reachable_ring3).good0.inv0.core.iptr_lt p ip hp
        have hn : ring3_heap.next_iptr = 3 := rfl
        rw [hn] at hlt
        interval_cases p
        · rw [show ring3_heap.iptrs 0 = some ⟨0, some 1, some 1⟩ from rfl] at hp
          cases hp; exact ⟨_, 0, by decide, rfl, rfl⟩
        · rw [show ring3_heap.iptrs 1 = some ⟨1, some 2, some 2⟩ from rfl] at hp
          cases hp; exact ⟨_, 1, by decide, rfl, rfl⟩
        · rw [show ring3_heap.iptrs 2 = some ⟨2, some 0, some 0⟩ from rfl] at hp
          cases hp; exact ⟨_, 2, by decide, rfl, rfl⟩)
      0 (by decide) [1, 2] (by decide)
      (by intro i; constructor
          · intro hi; simp at hi; omega
          · intro hi; simp; omega)⟩

/-- Resetting a handle whose target still has an owner afterwards returns the heap in which
the back pointer is removed, the counter is decremented and the handle is empty. -/
theorem reset_live {s : Heap} (hg : good s) {p T : Nat} {ip : internal_ptr} {bs : internal_base}
    (hp : s.iptrs p = some ip) (hh : ip.header = some T) (hb : s.bases ip.base = some bs)
    (hown : has_owner (s.unlinked T bs.self_header) T) :
    internal_ptr_reset p s = some ((s.unlinked T bs.self_header).set_iptr p
      (some { ip with header := none, ptr := none })) := by
  obtain ⟨bs1, s1, hb1, a1, _, a3⟩ := internal_ptr_reset_ok hg hp
  rw [hb] at hb1; cases hb1
  unfold unlink_result at a3
  rw [hh] at a3; simp only at a3
  obtain ⟨U, s2, _, b2, b3⟩ := a3
  obtain ⟨e1, _⟩ := b3.same hown
  rw [a1, b2, e1]

/-- The number of handles whose target is `x`, when these handles are those of the list
`P`. -/
theorem iptr_count_list {s : Heap} (hi : inv_core s none none) {x : Nat} {P : List Nat}
    (hP : P.Nodup)
    (hchar : ∀ q, q ∈ P ↔ ∃ ip, s.iptrs q = some ip ∧ ip.header = some x) :
    iptr_count s none x = P.length := by
  unfold iptr_count
  have h1 := count_upto_list (n := s.next_iptr) (L := P) (fun _ => true) hP
    (fun q hq => by
      obtain ⟨ip, f1, _⟩ := (hchar q).1 hq
      exact hi.iptr_lt q ip f1)
  have h2 : P.countP (fun _ => true) = P.length := by
    rw [List.countP_eq_length]; intro a _; rfl
  rw [← h2, ← h1]
  apply count_upto_congr
  intro q _
  rw [Bool.eq_iff_iff]
  unfold iptr_targets
  simp only [Bool.and_true, decide_eq_true_eq, Bool.and_eq_true, ne_eq, not_false_eq_true,
    true_and, reduceCtorEq]
  rw [hchar q]
  cases hq : s.iptrs q with
  | none => simp
  | some ip => simp

/-- Resetting some of the `k` handles that the payload of a rooted object `A` holds to an
object `X` which has no other handle and no root. -/
theorem dup_resets (a x bA ra : Nat) (rpa : root_ptr) (baseA : internal_base) (xp : Option Nat)
    (hrah : rpa.header = some a) (hsh : baseA.self_header = some a) :
    ∀ (Q : List Nat) (s : Heap) (P : List Nat), reachable s →
      s.roots ra = some rpa → s.bases bA = some baseA →
      (∀ r rp, s.roots r = some rp → rp.header ≠ some x) →
      P.Nodup → (∀ p ∈ P, s.iptrs p = some ⟨bA, some x, xp⟩) →
      (∀ p ip, s.iptrs p = some ip → ip.header = some x → p ∈ P) →
      Q.Nodup → (∀ q ∈ Q, q ∈ P) → Q.length < P.length →
      ∃ s1, run (Q.map Op.iptr_reset) s = some s1 ∧
        (∃ hd, s1.headers x = some hd) ∧ destroy_count s1.trace x = 0 ∧
        (∀ p ∈ P, p ∉ Q → internal_ptr_get s1 p = some xp ∧
          internal_ptr_use_count s1 p = some (P.length - Q.length)) ∧
        (Q.length + 1 = P.length → ∀ z ∈ P, z ∉ Q →
          ∃ s2, Op.apply (Op.iptr_reset z) s1 = some s2 ∧ s2.headers x = none ∧
            destroy_count s2.trace x = 1) := by
  intro Q
  induction Q with
  | nil =>
    intro s P h hra hbA hnoroot hP hheld hall _ _ hlen
    have hs := sound_of_reachable h
    have hi := hs.good0.inv0.core
    obtain ⟨p0, hp0⟩ : ∃ p0, p0 ∈ P := List.exists_mem_of_length_pos hlen
    obtain ⟨hd, hx⟩ := hi.target_live p0 _ x (hheld p0 hp0) (by simp) rfl
    have hdc : destroy_count s.trace x = 0 := by rw [hs.trace0]; simp [hx]
    have huc : header_use_count hd = P.length := by
      rw [use_count_of_header hs hx]
      have : root_count s none x = 0 := by
        unfold root_count
        apply count_upto_zero
        intro r _
        unfold root_targets
        cases hr : s.roots r with
        | none => simp
        | some rp => simp [hnoroot r rp hr]
      rw [this, Nat.zero_add]
      exact iptr_count_list hi hP (fun q => ⟨fun hq => ⟨_, hheld q hq, rfl⟩,
        fun ⟨ip, f1, f2⟩ => hall q ip f1 f2⟩)
    refine ⟨s, rfl, ⟨hd, hx⟩, hdc, fun p hp _ => ⟨?_, ?_⟩, fun h1 z hz _ => ?_⟩
    · unfold internal_ptr_get
      rw [hheld p hp]; simp only; rw [hx]; simp only
      rw [(hs.good0.inv0.flags x hd hx (by simp)).1]; rfl
    · rw [iptr_use_count_eq (hheld p hp) rfl hx, huc]; rfl
    · -- the last handle
      have hmid := unlink_inv hs.good0.inv0 (hheld z hz) rfl hbA hx (Or.inl rfl)
      obtain ⟨ub, ur, ui, _, _, _⟩ := unlinked_rest s x baseA.self_header
      obtain ⟨_, _, uq⟩ := unlinked_quiet s x baseA.self_header
      have hdead := closed_region_dead hmid.core (fun y => y = x)
        (by
          rintro r rp y hr _ hy rfl
          rw [ur] at hr
          exact hnoroot r rp hr hy)
        (by
          rintro q iq y hq hne hy rfl
          rw [ui] at hq
          have hqP := hall q iq hq hy
          have hPz : P = [z] := by
            match P, hz, h1 with
            | [w], hz, _ => simp at hz; rw [hz]
          rw [hPz] at hqP
          simp at hqP
          exact absurd (by rw [hqP]) hne)
      obtain ⟨_, s2, _, happly, _⟩ := internal_ptr_reset_ok hs.good0 (hheld z hz)
      have hmom : Op.moment (Op.iptr_reset z) s = some (s.unlinked x baseA.self_header) := by
        show reset_moment z s = _
        unfold reset_moment
        rw [hheld z hz]; simp only; rw [hbA]
      obtain ⟨_, sp⟩ := step_full (Op.iptr_reset z) hs.good0 happly
      rcases sp with ⟨h0, _⟩ | ⟨m1, U, hm1, hq, e1, e2⟩
      · rw [hmom] at h0; cases h0
      · rw [hmom] at hm1; cases hm1
        have hlm : ∃ hd, (s.unlinked x baseA.self_header).headers x = some hd := by
          cases h2 : (s.unlinked x baseA.self_header).headers x with
          | some hd => exact ⟨hd, rfl⟩
          | none => rw [(uq _).1 h2] at hx; cases hx
        obtain ⟨c1, _, c3⟩ := (effect_facts hs.trace0 hq e1 e2 x).1 hlm (hdead x rfl)
        exact ⟨s2, happly, c1, c3⟩
  | cons q rest ih =>
    intro s P h hra hbA hnoroot hP hheld hall hQ hQP hlen
    have hs := sound_of_reachable h
    have hi := hs.good0.inv0.core
    have hqP : q ∈ P := hQP q (by simp)
    obtain ⟨hqr, hrest⟩ := List.nodup_cons.1 hQ
    obtain ⟨hd, hx⟩ := hi.target_live q _ x (hheld q hqP) (by simp) rfl
    have hlenE : (P.erase q).length + 1 = P.length := by
      rw [List.length_erase_of_mem hqP]
      have : 0 < P.length := List.length_pos_of_mem hqP
      omega
    simp only [List.length_cons] at hlen
    -- another handle to `X` remains
    obtain ⟨p1, hp1⟩ : ∃ p1, p1 ∈ P.erase q :=
      List.exists_mem_of_length_pos (by omega)
    have hp1P : p1 ∈ P := List.mem_of_mem_erase hp1
    have hp1q : p1 ≠ q := fun e => by
      rw [e] at hp1; exact (List.Nodup.not_mem_erase hP) hp1
    have hmid := unlink_inv hs.good0.inv0 (hheld q hqP) rfl hbA hx (Or.inl rfl)
    obtain ⟨ub, ur, ui, _, ut, _⟩ := unlinked_rest s x baseA.self_header
    obtain ⟨_, _, uq⟩ := unlinked_quiet s x baseA.self_header
    have hedge : bp_edge (s.unlinked x baseA.self_header) x a :=
      edge_of_handle hmid.core (show (s.unlinked x baseA.self_header).iptrs p1 = some _ by
          rw [ui]; exact hheld p1 hp1P)
        (fun e => hp1q (Option.some.inj e)) rfl
        (show (s.unlinked x baseA.self_header).bases bA = some baseA by rw [ub]; exact hbA) hsh
    have hown : has_owner (s.unlinked x baseA.self_header) x :=
      has_owner_of_edge hedge (has_owner_of_owned (owned_of_root hmid.core
        (show (s.unlinked x baseA.self_header).roots ra = some rpa by rw [ur]; exact hra)
        (by simp) hrah))
    have happly := reset_live hs.good0 (hheld q hqP) rfl hbA hown
    obtain ⟨s0, hs0⟩ : ∃ s0, s0 = (s.unlinked x baseA.self_header).set_iptr q
        (some ⟨bA, none, none⟩) := ⟨_, rfl⟩
    have happly2 : Op.apply (Op.iptr_reset q) s = some s0 := by rw [hs0]; exact happly
    have g_i : s0.iptrs = Function.update s.iptrs q (some ⟨bA, none, none⟩) := by
      rw [hs0, ← ui]; rfl
    have g_b : s0.bases = s.bases := by rw [hs0, ← ub]; rfl
    have g_r : s0.roots = s.roots := by rw [hs0, ← ur]; rfl
    have g_t : s0.trace = s.trace := by rw [hs0, ← ut]; rfl
    have hmemE : ∀ p, p ∈ P.erase q ↔ p ∈ P ∧ p ≠ q := by
      intro p
      rw [List.Nodup.mem_erase_iff hP]
      exact ⟨fun ⟨x1, x2⟩ => ⟨x2, x1⟩, fun ⟨x1, x2⟩ => ⟨x2, x1⟩⟩
    obtain ⟨s1, a1, a2, a3, a4, a5⟩ := ih s0 (P.erase q) (reachable_step h happly2)
      (by rw [g_r]; exact hra) (by rw [g_b]; exact hbA)
      (by intro r rp hr; rw [g_r] at hr; exact hnoroot r rp hr)
      (hP.erase q)
      (by
        intro p hp
        obtain ⟨f1, f2⟩ := (hmemE p).1 hp
        rw [g_i, Function.update_noteq f2]; exact hheld p f1)
      (by
        intro p ip hp hh
        rw [g_i] at hp
        by_cases hpq : p = q
        · subst hpq
          rw [Function.update_same] at hp
          cases hp; cases hh
        · rw [Function.update_noteq hpq] at hp
          exact (hmemE p).2 ⟨hall p ip hp hh, hpq⟩)
      hrest
      (by
        intro z hz
        exact (hmemE z).2 ⟨hQP z (List.mem_cons_of_mem _ hz), fun e => hqr (e ▸ hz)⟩)
      (by omega)
    refine ⟨s1, ?_, a2, a3, ?_, ?_⟩
    · simp only [List.map_cons, run]
      rw [happly2]; exact a1
    · intro p hp hpQ
      have hpq : p ≠ q := fun e => hpQ (by rw [e]; simp)
      obtain ⟨f1, f2⟩ := a4 p ((hmemE p).2 ⟨hp, hpq⟩)
        (fun hpr => hpQ (List.mem_cons_of_mem _ hpr))
      refine ⟨f1, ?_⟩
      rw [f2]
      simp only [List.length_cons]
      congr 1
      omega
    · intro h1 z hz hzQ
      simp only [List.length_cons] at h1
      have hzq : z ≠ q := fun e => hzQ (by rw [e]; simp)
      exact a5 (by omega) z ((hmemE z).2 ⟨hz, hzq⟩)
        (fun hzr => hzQ (List.mem_cons_of_mem _ hzr))

/-- C9: in a heap reachable through the public handle operations, let the payload of an
object `A` that a `root_ptr` shares hold the `k >= 1` handles of the list `P`, all with
target `X`, let no other handle have the target `X` and let no `root_ptr` share `X`.  Then
`use_count()` of each of the handles is `k`.  Resetting fewer than `k` of the handles, in
any order, returns; afterwards `X` is alive, its payload has not been destroyed, and each
remaining handle still returns its pointer from `get()` and has a `use_count()` that has
dropped by 1 per reset.  When `k - 1` handles have been reset, resetting the last one returns,
frees the header block of `X` and destroys its payload once. -/
theorem C9_duplicated_edges {s : Heap} (h : reachable s) (a x bA ra : Nat) (rpa : root_ptr)
    (baseA : internal_base) (xp : Option Nat) (P : List Nat)
    (hra : s.roots ra = some rpa) (hrah : rpa.header = some a)
    (hbA : s.bases bA = some baseA) (hsh : baseA.self_header = some a)
    (hnoroot : ∀ r rp, s.roots r = some rp → rp.header ≠ some x)
    (hP : P.Nodup) (hk : 1 ≤ P.length)
    (hheld : ∀ p ∈ P, s.iptrs p = some ⟨bA, some x, xp⟩)
    (hall : ∀ p ip, s.iptrs p = some ip → ip.header = some x → p ∈ P) :
    (∀ p ∈ P, internal_ptr_use_count s p = some P.length) ∧
    ∀ Q : List Nat, Q.Nodup → (∀ q ∈ Q, q ∈ P) → Q.length < P.length →
      ∃ s1, run (Q.map Op.iptr_reset) s = some s1 ∧
        (∃ hd, s1.headers x = some hd) ∧ destroy_count s1.trace x = 0 ∧
        (∀ p ∈ P, p ∉ Q → internal_ptr_get s1 p = some xp ∧
          internal_ptr_use_count s1 p = some (P.length - Q.length)) ∧
        (Q.length + 1 = P.length → ∀ z ∈ P, z ∉ Q →
          ∃ s2, Op.apply (Op.iptr_reset z) s1 = some s2 ∧ s2.headers x = none ∧
            destroy_count s2.trace x = 1) := by
  have key := fun Q => dup_resets a x bA ra rpa baseA xp hrah hsh Q s P h hra hbA hnoroot hP
    hheld hall
  constructor
  · intro p hp
    obtain ⟨s1, a1, _, _, a4, _⟩ := key [] (by simp) (by simp) (by simpa using hk)
    cases a1
    exact (a4 p hp (by simp)).2
  · intro Q hQ hQP hlen
    exact key Q hQ hQP hlen

theorem reachable_dup2 : reachable dup2_heap := ⟨dup2_program, rfl⟩

/-- C9 (witness): in `dup2_heap` the two handles 0 and 1 of `A` have the target `X`, and
`use_count()` of both is 2. -/
theorem C9_witness :
    reachable dup2_heap ∧ ∀ p ∈ [0, 1], internal_ptr_use_count dup2_heap p = some 2 :=
  ⟨reachable_dup2,
    (C9_duplicated_edges reachable_dup2 0 1 0 0 ⟨some 0, some 0⟩ ⟨some 0, [1, 0]⟩ (some 1)
      [0, 1] rfl rfl rfl rfl
      (by
        intro r rp hr
        have hlt := (sound_of_reachable reachable_dup2).good0.inv0.core.root_lt r rp hr
        have hn : dup2_heap.next_root = 2 := rfl
        rw [hn] at hlt
        interval_cases r
        · rw [show dup2_heap.roots 0 = some ⟨some 0, some 0⟩ from rfl] at hr
          cases hr; decide
        · rw [show dup2_heap.roots 1 = none from rfl] at hr
          cases hr)
      (by decide) (by decide)
      (by
        intro p hp
        simp at hp
        rcases hp with rfl | rfl
        · rfl
        · rfl)
      (by
        intro p ip hp _
        have hlt := (sound_of_reachable reachable_dup2).good0.inv0.core.iptr_lt p ip hp
        have hn : dup2_heap.next_iptr = 2 := rfl
        rw [hn] at hlt
        interval_cases p <;> simp)).1⟩

theorem get_of_live {s : Heap} (hg : good s) {p T : Nat} {ip : internal_ptr}
    (hp : s.iptrs p = some ip) (hh : ip.header = some T) :
    internal_ptr_get s p = some ip.ptr := by
  obtain ⟨hd, hT⟩ := hg.inv0.core.target_live p ip T hp (by simp) hh
  unfold internal_ptr_get
  rw [hp]; simp only; rw [hh]; simp only; rw [hT]; simp only
  rw [(hg.inv0.flags T hd hT (by simp)).1]; rfl

/-- C10: in a heap reachable through the public handle operations, let `n` distinct nodes form
a chain: the payload of node `t` (header `hdr t`) holds the handle `nx t` whose target is
node `t + 1`, the handles whose target is a node of the chain are these handles, and the
first node is the only node of the chain that a `root_ptr` shares.  For nodes `a` and `c` with
`a + 2 <= c < n` (the nodes `N_i` and `N_j` of a chain numbered from 1, `i < j - 1 < n`), the
assignment `nx a = nx (c - 1)` between handles returns; afterwards the nodes up to `a` and
from `c` on are alive and their payloads have not been destroyed, the header blocks of the
nodes strictly between `a` and `c` are freed and each of their payloads has been destroyed
exactly once, and the handle `nx a` has the target `c` and returns from `get()` what
`nx (c - 1)` returned before. -/
theorem C10_assign_in_chain {s : Heap} (h : reachable s) (n : Nat) (hdr nx : Nat → Nat)
    (r0 : Nat) (rp0 : root_ptr)
    (hinj : ∀ t u, t < n → u < n → hdr t = hdr u → t = u)
    (hr0 : s.roots r0 = some rp0) (hrh : rp0.header = some (hdr 0))
    (honly : ∀ r rp t, t < n → s.roots r = some rp → rp.header = some (hdr t) → t = 0)
    (hnext : ∀ t, t + 1 < n → ∃ ip base, s.iptrs (nx t) = some ip ∧
      ip.header = some (hdr (t + 1)) ∧ s.bases ip.base = some base ∧
      base.self_header = some (hdr t))
    (hclosed : ∀ p ip t, t < n → s.iptrs p = some ip → ip.header = some (hdr t) →
      ∃ u, u + 1 = t ∧ p = nx u)
    (a c : Nat) (hac : a + 2 ≤ c) (hcn : c < n) :
    ∃ s1, Op.apply (Op.iptr_assign (nx a) (nx (c - 1))) s = some s1 ∧
      (∀ t, t < n → (t ≤ a ∨ c ≤ t) →
        (∃ hd, s1.headers (hdr t) = some hd) ∧ destroy_count s1.trace (hdr t) = 0) ∧
      (∀ t, a < t → t < c →
        s1.headers (hdr t) = none ∧ destroy_count s1.trace (hdr t) = 1) ∧
      (∃ ip1, s1.iptrs (nx a) = some ip1 ∧ ip1.header = some (hdr c)) ∧
      internal_ptr_get s1 (nx a) = internal_ptr_get s (nx (c - 1)) := by
  have hs := sound_of_reachable h
  have hi := hs.good0.inv0.core
  obtain ⟨ip, bs, hp, hh, hb, hsh⟩ := hnext a (by omega)
  obtain ⟨src, bsq, hq, hqh, _, _⟩ := hnext (c - 1) (by omega)
  have hc1 : c - 1 + 1 = c := by omega
  rw [hc1] at hqh
  obtain ⟨hdT, hT⟩ := hi.target_live _ ip _ hp (by simp) hh
  obtain ⟨hdN, hN⟩ := hi.target_live _ src _ hq (by simp) hqh
  obtain ⟨bs1, s1, hb1, happly, hg1, hres⟩ := internal_ptr_assign_ok hs.good0 hp hq
  rw [hb] at hb1; cases hb1
  have hne : src.header ≠ ip.header := by
    rw [hqh, hh]
    intro e
    have := hinj c (a + 1) hcn (by omega) (Option.some.inj e)
    omega
  rcases hres with ⟨e, _⟩ | ⟨_, hres⟩
  · exact absurd e hne
  unfold assign_result at hres
  rw [hh] at hres; simp only at hres
  obtain ⟨U, hdec⟩ := hres
  obtain ⟨ip1, hip1⟩ : ∃ ip1 : internal_ptr, ip1 = ⟨ip.base, src.header, src.ptr⟩ := ⟨_, rfl⟩
  rw [← hip1] at hdec
  have hip1h : ip1.header = some (hdr c) := by rw [hip1]; exact hqh
  have hip1b : ip1.base = ip.base := by rw [hip1]
  obtain ⟨m, hm⟩ : ∃ m, m = (s.retargeted (nx a) ip1 bs.self_header).unlinked (hdr (a + 1))
      bs.self_header := ⟨_, rfl⟩
  rw [← hm] at hdec
  have hinvm : inv m none none := by
    rw [hm]
    exact assign_mid_inv hs.good0 hp hh hb hT hip1b
      (fun N hN1 => by rw [hip1h] at hN1; cases hN1; exact ⟨hdN, hN⟩)
  obtain ⟨ub, ur, ui, _, _, _⟩ := unlinked_rest (s.retargeted (nx a) ip1 bs.self_header)
    (hdr (a + 1)) bs.self_header
  obtain ⟨rb, rr, ri, _, _⟩ := retargeted_rest s (nx a) ip1 bs.self_header
  have m_b : m.bases = s.bases := by rw [hm, ub, rb]
  have m_r : m.roots = s.roots := by rw [hm, ur, rr]
  have m_i : m.iptrs = Function.update s.iptrs (nx a) (some ip1) := by rw [hm, ui, ri]
  have hq_m : quiet s m := by
    rw [hm]
    exact quiet_trans (retargeted_quiet s (nx a) ip1 bs.self_header) (unlinked_quiet _ _ _)
  -- the handles of the other nodes are different handles
  have hnx : ∀ u, u + 1 < n → u ≠ a → nx u ≠ nx a := by
    intro u hu hua e
    obtain ⟨ipu, _, f1, f2, _, _⟩ := hnext u hu
    rw [e, hp] at f1; cases f1
    rw [hh] at f2
    have := hinj (a + 1) (u + 1) (by omega) hu (Option.some.inj f2)
    omega
  have hedge : ∀ u, u + 1 < n → u ≠ a → bp_edge m (hdr (u + 1)) (hdr u) := by
    intro u hu hua
    obtain ⟨ipu, bu, f1, f2, f3, f4⟩ := hnext u hu
    exact edge_of_handle hinvm.core
      (show m.iptrs (nx u) = some ipu by
        rw [m_i, Function.update_noteq (hnx u hu hua)]; exact f1)
      (by simp) f2 (show m.bases ipu.base = some bu by rw [m_b]; exact f3) f4
  have hedge2 : bp_edge m (hdr c) (hdr a) :=
    edge_of_handle hinvm.core (show m.iptrs (nx a) = some ip1 by rw [m_i]; simp)
      (by simp) hip1h (show m.bases ip1.base = some bs by rw [m_b, hip1b]; exact hb) hsh
  have hown0 : has_owner m (hdr 0) :=
    has_owner_of_owned (owned_of_root hinvm.core
      (show m.roots r0 = some rp0 by rw [m_r]; exact hr0) (by simp) hrh)
  have hlow : ∀ t, t ≤ a → has_owner m (hdr t) := by
    intro t
    induction t with
    | zero => intro _; exact hown0
    | succ t ih =>
      intro ht
      exact has_owner_of_edge (hedge t (by omega) (by omega)) (ih (by omega))
  have hhigh : ∀ d, c + d < n → has_owner m (hdr (c + d)) := by
    intro d
    induction d with
    | zero => intro _; exact has_owner_of_edge hedge2 (hlow a (Nat.le_refl a))
    | succ d ih =>
      intro hd
      exact has_owner_of_edge (hedge (c + d) (by omega) (by omega)) (ih (by omega))
  have halive : ∀ t, t < n → (t ≤ a ∨ c ≤ t) → has_owner m (hdr t) := by
    intro t ht hcase
    rcases hcase with h1 | h1
    · exact hlow t h1
    · have := hhigh (t - c) (by omega)
      rwa [show c + (t - c) = t by omega] at this
  have hdead := closed_region_dead hinvm.core (fun y => ∃ t, a < t ∧ t < c ∧ y = hdr t)
    (by
      rintro r rp y hr _ hy ⟨t, ht1, ht2, rfl⟩
      rw [m_r] at hr
      have := honly r rp t (by omega) hr hy
      omega)
    (by
      rintro p iq y hpq _ hy ⟨t, ht1, ht2, rfl⟩
      rw [m_i] at hpq
      by_cases hpa : p = nx a
      · subst hpa
        rw [Function.update_same] at hpq
        cases hpq
        rw [hip1h] at hy
        have := hinj c t hcn (by omega) (Option.some.inj hy)
        omega
      · rw [Function.update_noteq hpa] at hpq
        obtain ⟨u, hu1, hu2⟩ := hclosed p iq t (by omega) hpq hy
        have hua : u ≠ a := fun e => hpa (by rw [hu2, e])
        obtain ⟨ipu, bu, f1, f2, f3, f4⟩ := hnext u (by omega)
        rw [← hu2, hpq] at f1; cases f1
        exact ⟨bu, hdr u, by rw [m_b]; exact f3, f4, u, by omega, by omega, rfl⟩)
  have hlive : ∀ t, t < n → ∃ hd, m.headers (hdr t) = some hd := by
    intro t ht
    have hls : ∃ hd, s.headers (hdr t) = some hd := by
      cases t with
      | zero => exact hi.root_target_live r0 rp0 _ hr0 (by simp) hrh
      | succ u =>
        obtain ⟨ipu, _, f1, f2, _, _⟩ := hnext u ht
        exact hi.target_live _ ipu _ f1 (by simp) f2
    obtain ⟨hd, f1⟩ := hls
    cases h2 : m.headers (hdr t) with
    | some hd2 => exact ⟨hd2, rfl⟩
    | none => rw [(hq_m.2.2 _).1 h2] at f1; cases f1
  obtain ⟨e1, e2⟩ := effect_of_dec hdec (quiet_refl s1)
  have hkeep : s1.iptrs (nx a) = some ip1 := by
    rw [hdec.col.iptrs_kept (nx a), m_i]; simp
    intro u hu hmem
    obtain ⟨hdu, b, base, f1, f2, f3, f4⟩ := mem_payload_handles.1 hmem
    obtain ⟨ipx, g1, g2⟩ := hinvm.core.ptr_of_base b base f3 _ f4
    rw [m_i] at g1; simp at g1; subst g1
    obtain ⟨base2, k1, k2⟩ := hinvm.header_base u hdu b f1 (by simp) f2
    rw [← g2, m_b, hip1b, hb] at k1; cases k1
    rw [hsh] at k2; cases k2
    exact ((e2 (hdr a)).1 hu).2 (hlow a (Nat.le_refl a))
  refine ⟨s1, happly, fun t ht hcase => ?_, fun t ht1 ht2 => ?_, ⟨ip1, hkeep, hip1h⟩, ?_⟩
  · exact (effect_facts hs.trace0 hq_m e1 e2 (hdr t)).2 (hlive t ht) (halive t ht hcase)
  · obtain ⟨c1, _, c3⟩ := (effect_facts hs.trace0 hq_m e1 e2 (hdr t)).1 (hlive t (by omega))
      (hdead (hdr t) ⟨t, ht1, ht2, rfl⟩)
    exact ⟨c1, c3⟩
  · rw [get_of_live hg1 hkeep hip1h, get_of_live hs.good0 hq hqh, hip1]

theorem reachable_chain3 : reachable chain3_heap := ⟨chain3_program, rfl⟩

/-- C10 (witness): in the chain of three nodes the handle of node 0 is assigned the handle of
node 1, whose target is node 2: node 1 is destroyed, the nodes 0 and 2 stay alive. -/
theorem C10_witness :
    reachable chain3_heap ∧
    ∃ s1, Op.apply (Op.iptr_assign 0 1) chain3_heap = some s1 ∧
      (∀ t, t < 3 → (t ≤ 0 ∨ 2 ≤ t) →
        (∃ hd, s1.headers t = some hd) ∧ destroy_count s1.trace t = 0) ∧
      (∀ t, 0 < t → t < 2 → s1.headers t = none ∧ destroy_count s1.trace t = 1) ∧
      (∃ ip1, s1.iptrs 0 = some ip1 ∧ ip1.header = some 2) ∧
      internal_ptr_get s1 0 = internal_ptr_get chain3_heap 1 :=
  ⟨reachable_chain3,
    C10_assign_in_chain reachable_chain3 3 (fun t => t) (fun t => t) 0 ⟨some 0, some 0⟩
      (fun _ _ _ _ e => e) rfl rfl
      (by
        intro r rp t _ hr hx
        have hlt := (sound_of_reachable reachable_chain3).good0.inv0.core.root_lt r rp hr
        have hn : chain3_heap.next_root = 3 := rfl
        rw [hn] at hlt
        interval_cases r
        · rw [show chain3_heap.roots 0 = some ⟨some 0, some 0⟩ from rfl] at hr
          cases hr; exact (Option.some.inj hx).symm
        · rw [show chain3_heap.roots 1 = none from rfl] at hr; cases hr
        · rw [show chain3_heap.roots 2 = none from rfl] at hr; cases hr)
      (by
        intro t ht
        have ht2 : t < 2 := by omega
        interval_cases t
        · exact ⟨⟨0, some 1, some 1⟩, ⟨some 0, [0]⟩, rfl, rfl, rfl, rfl⟩
        · exact ⟨⟨1, some 2, some 2⟩, ⟨some 1, [1]⟩, rfl, rfl, rfl, rfl⟩)
      (by
        intro p ip t _ hp hx
        have hlt := (sound_of_reachable reachable_chain3).good0.inv0.core.iptr_lt p ip hp
        have hn : chain3_heap.next_iptr = 3 := rfl
        rw [hn] at hlt
        interval_cases p
        · rw [show chain3_heap.iptrs 0 = some ⟨0, some 1, some 1⟩ from rfl] at hp
          cases hp; exact ⟨0, Option.some.inj hx, rfl⟩
        · rw [show chain3_heap.iptrs 1 = some ⟨1, some 2, some 2⟩ from rfl] at hp
          cases hp; exact ⟨1, Option.some.inj hx, rfl⟩
        · rw [show chain3_heap.iptrs 2 = some ⟨2, none, none⟩ from rfl] at hp
          cases hp; cases hx)
      0 2 (by decide) (by decide)⟩

theorem reachable_ring3_last : reachable ring3_last_heap := ⟨ring3_last_program, rfl⟩

/-- C1 (witness): the release of the last root of the ring of three nodes. -/
theorem C1_witness :
    reachable ring3_last_heap ∧
    ∀ s1, Op.apply (Op.root_dtor 0) ring3_last_heap = some s1 →
      (∀ x hd, s1.headers x = some hd → has_owner s1 x) ∧
      ∀ m, Op.moment (Op.root_dtor 0) ring3_last_heap = some m →
        ∀ x, (∃ hd, m.headers x = some hd) → ¬ has_owner m x →
          s1.headers x = none ∧ destroy_count ring3_last_heap.trace x = 0 ∧
            destroy_count s1.trace x = 1 :=
  ⟨reachable_ring3_last, (C1_completeness reachable_ring3_last).2.2 (Op.root_dtor 0)⟩

/-- C2 (witness): the release of the root 1 of the object `X` in the heap `two_edges_heap`, in
which the payload of the rooted object `A` holds two handles to `X`. -/
theorem C2_witness :
    reachable two_edges_heap ∧
    ∀ s1, Op.apply (Op.root_dtor 1) two_edges_heap = some s1 →
      ∃ ev, s1.trace = two_edges_heap.trace ++ ev ∧
        (∀ x, (Event.marked x ∈ ev ∨ (∃ o, Event.destroyed x o ∈ ev) ∨ Event.freed x ∈ ev ∨
            ((∃ hd, two_edges_heap.headers x = some hd) ∧ s1.headers x = none)) →
          ∃ m, Op.moment (Op.root_dtor 1) two_edges_heap = some m ∧
            (∃ hd, m.headers x = some hd) ∧
            ∀ z hd, bp_path m x z → m.headers z = some hd →
              hd.owner_count = 0 ∧ hd.internal_count ≤ hd.back_pointers.length) ∧
        (∀ m x, Op.moment (Op.root_dtor 1) two_edges_heap = some m →
          (∃ hd, m.headers x = some hd) → has_owner m x →
          (∃ hd, s1.headers x = some hd) ∧ destroy_count s1.trace x = 0) :=
  ⟨reachable_two_edges, (C2_soundness reachable_two_edges).1 (Op.root_dtor 1)⟩

/-- C4 (witness): the call of `remove_owner` made when the last root of the ring of three
nodes is released. -/
theorem C4_witness :
    reachable ring3_last_heap ∧
    (remove_owner 0 ring3_last_heap = some (ring3_last_heap.released 0) ∨
      ∃ Z s3, 0 ∈ Z ∧ remove_owner 0 ring3_last_heap = some s3 ∧
        cleanup_unreachable_nodes (not_reachable_from_depth ring3_last_heap.next_header) Z
          (ring3_last_heap.released 0) = some s3 ∧
        passes (not_reachable_from_depth ring3_last_heap.next_header) Z
          (ring3_last_heap.released 0) s3) :=
  ⟨reachable_ring3_last,
    (C4_destructor_sees_nil reachable_ring3_last).1 0 ⟨some 0, some 0⟩ 0 rfl rfl⟩

theorem reachable_reassign : reachable reassign_heap := ⟨reassign_program, rfl⟩

/-- C11 (evaluation): `operator=(root_ptr const &)` applied in `reassign_heap` to the handle 0
of `A`, whose target is `B`, with the root 2 of `C`.  The call starts with `reset()`, which
calls `not_reachable_from` on the header of `B` in `reassign_heap` itself: there the handle
still names `B` and `internal_count` of `C` is 1.  When `reset()` has returned, the payload of
`B` has been destroyed and its header block freed, the handle is empty and `internal_count`
of `C` is still 1.  Only then is `reachable_from` called on the header of `C`, after which its
`internal_count` is 2. -/
theorem C11_reset_first :
    reachable reassign_heap ∧
    (reassign_heap.iptrs 0).map (fun ip => ip.header) = some (some 1) ∧
    (reassign_heap.headers 2).map (fun hd => hd.internal_count) = some 1 ∧
    internal_ptr_reset 0 reassign_heap = some reassign_mid ∧
    reassign_mid.headers 1 = none ∧ destroy_count reassign_mid.trace 1 = 1 ∧
    reassign_mid.iptrs 0 = some ⟨0, none, none⟩ ∧
    (reassign_mid.headers 2).map (fun hd => hd.internal_count) = some 1 ∧
    internal_ptr_assign_root 0 2 reassign_heap =
      reachable_from 2 0 (reassign_mid.set_iptr 0 (some ⟨0, some 2, some 2⟩)) ∧
    (internal_ptr_assign_root 0 2 reassign_heap).bind
      (fun s => (s.headers 2).map (fun hd => hd.internal_count)) = some 2 :=
  ⟨reachable_reassign, rfl, rfl, rfl, rfl, by decide, rfl, rfl, rfl, rfl⟩

/-- Assigning to a handle a `root_ptr` that shares the handle's target: `reset()` collects
nothing, and `reachable_from` restores the header block. -/
theorem assign_root_same {s : Heap} (hg : good s) {p r T : Nat} {ip : internal_ptr}
    {rp : root_ptr} (hp : s.iptrs p = some ip) (hr : s.roots r = some rp)
    (hh : ip.header = some T) (hrh : rp.header = some T) :
    internal_ptr_assign_root p r s = some (s.set_iptr p (some ⟨ip.base, some T, rp.ptr⟩)) := by
  have hi := hg.inv0.core
  obtain ⟨bs, hb, _⟩ := hi.base_of_ptr p ip hp (by simp)
  obtain ⟨hd, hT⟩ := hi.target_live p ip T hp (by simp) hh
  obtain ⟨_, hpos, _, hmem⟩ := target_counts hi hp hh hb hT
  have hmid := unlink_inv hg.inv0 hp hh hb hT (Or.inl rfl)
  obtain ⟨ub, ur, ui, _, _, _⟩ := unlinked_rest s T bs.self_header
  have hown : has_owner (s.unlinked T bs.self_header) T :=
    has_owner_of_owned (owned_of_root hmid.core
      (show (s.unlinked T bs.self_header).roots r = some rp by rw [ur]; exact hr)
      (by simp) hrh)
  have hreset := reset_live hg hp hh hb hown
  obtain ⟨s1, hs1⟩ : ∃ s1, s1 = (s.unlinked T bs.self_header).set_iptr p
      (some { ip with header := none, ptr := none }) := ⟨_, rfl⟩
  rw [← hs1] at hreset
  have e1 : s1.iptrs p = some { ip with header := none, ptr := none } := by
    rw [hs1]; simp [Heap.set_iptr]
  have e2 : s1.roots r = some rp := by rw [hs1]; exact (congrFun ur r).trans hr
  have e3 : s1.headers T = some (unlink_header hd bs.self_header) := by
    rw [hs1, unlinked_eq hT]; simp [Heap.set_iptr, Heap.set_header]
  have e4 : s1.bases ip.base = some bs := by rw [hs1]; exact (congrFun ub _).trans hb
  unfold internal_ptr_assign_root
  rw [hreset]; simp only
  rw [e1, e2]; simp only
  rw [hrh]; simp only
  rw [@reachable_from_eq _ _ _ (unlink_header hd bs.self_header) _
    (by simpa [Heap.set_iptr] using e3)
    (by simpa [Heap.set_iptr] using e4),
    link_unlink_header (hi.bp_sorted T hd hT) hmem hpos]
  congr 1
  rw [hs1, unlinked_eq hT]
  apply heap_ext <;> simp [Heap.set_iptr, Heap.set_header, hT]

/-- C12: in a heap reachable through the public handle operations, assigning to an internal
handle `p` the handle itself, or another `internal_ptr` with the same header and pointer,
returns the heap unchanged, whatever the use count of the target is; and assigning to a
handle `p` with target `T` a `root_ptr` that shares `T` returns the heap in which only the
stored pointer of `p` is replaced by that of the `root_ptr`: nothing is logged, no header block
changes (the two counters and the back pointers of `T` are as before), and the target of
`p` is `T` as before. -/
theorem C12_same_target {s : Heap} (h : reachable s) :
    (∀ p ip, s.iptrs p = some ip → internal_ptr_assign p p s = some s) ∧
    (∀ p q ip iq, s.iptrs p = some ip → s.iptrs q = some iq → iq.header = ip.header →
      iq.ptr = ip.ptr → internal_ptr_assign p q s = some s) ∧
    (∀ p r ip rp T, s.iptrs p = some ip → s.roots r = some rp → ip.header = some T →
      rp.header = some T →
      ∃ s1, internal_ptr_assign_root p r s = some s1 ∧
        s1 = s.set_iptr p (some ⟨ip.base, some T, rp.ptr⟩) ∧
        s1.headers = s.headers ∧ s1.trace = s.trace ∧ s1.bases = s.bases ∧
        s1.roots = s.roots ∧ (∀ q, q ≠ p → s1.iptrs q = s.iptrs q) ∧
        (∃ ip1, s1.iptrs p = some ip1 ∧ ip1.header = some T ∧ ip1.base = ip.base) ∧
        (rp.ptr = ip.ptr → s1 = s)) := by
  have hs := sound_of_reachable h
  have hsame : ∀ p q ip iq, s.iptrs p = some ip → s.iptrs q = some iq →
      iq.header = ip.header → iq.ptr = ip.ptr → internal_ptr_assign p q s = some s := by
    intro p q ip iq hp hq e1 e2
    unfold internal_ptr_assign
    rw [hp, hq]; simp only
    rw [if_neg (by simp [e1, e2])]
  refine ⟨fun p ip hp => hsame p p ip ip hp hp rfl rfl, hsame, ?_⟩
  intro p r ip rp T hp hr hh hrh
  refine ⟨_, assign_root_same hs.good0 hp hr hh hrh, rfl, rfl, rfl, rfl, rfl, ?_, ?_, ?_⟩
  · intro q hq
    simp [Heap.set_iptr, Function.update_noteq hq]
  · exact ⟨⟨ip.base, some T, rp.ptr⟩, by simp [Heap.set_iptr], rfl, rfl⟩
  · intro e
    apply heap_ext <;> try rfl
    show Function.update s.iptrs p _ = s.iptrs
    rw [e, ← hh]
    exact Function.update_eq_self_iff.2 hp.symm

theorem reachable_solo : reachable solo_heap := ⟨solo_program, rfl⟩

/-- C12 (witness): in `solo_heap` the use count of the target of the handle 0 is 1, and
assigning the handle to itself returns the heap unchanged. -/
theorem C12_witness :
    reachable solo_heap ∧ internal_ptr_use_count solo_heap 0 = some 1 ∧
    internal_ptr_assign 0 0 solo_heap = some solo_heap :=
  ⟨reachable_solo, rfl, (C12_same_target reachable_solo).1 0 ⟨0, some 1, some 1⟩ rfl⟩

/-- C13: for a live header block, `owner_from_internal` returns `false` exactly when the
`unreachable` flag is set, and then the heap is unchanged; otherwise it returns `true` and
the heap differs only in that `owner_count` and `internal_count` of the header are
incremented by 1.  Constructing a `root_ptr` from an `internal_ptr` whose header is flagged
`unreachable` gives a `root_ptr` with nil pointer and nil header, and changes nothing
else. -/
theorem C13_owner_from_internal (s : Heap) (h : Nat) (hd : root_ptr_header_block_base)
    (hh : s.headers h = some hd) :
    (∃ s1 b, owner_from_internal h s = some (s1, b) ∧
      (b = false ↔ hd.unreachable = true) ∧
      (hd.unreachable = true → s1 = s) ∧
      (hd.unreachable = false →
        s1 = s.set_header h (some { hd with owner_count := hd.owner_count + 1,
                                            internal_count := hd.internal_count + 1 }))) ∧
    (∀ p ip, s.iptrs p = some ip → ip.header = some h → hd.unreachable = true →
      root_ptr_from_internal p s =
        some ({ s with next_root := s.next_root + 1 }.set_root s.next_root
          (some ⟨none, none⟩))) ∧
    (∀ p ip, s.iptrs p = some ip → ip.header = some h → hd.unreachable = false →
      root_ptr_from_internal p s =
        some (({ s with next_root := s.next_root + 1 }.set_header h
          (some { hd with owner_count := hd.owner_count + 1,
                          internal_count := hd.internal_count + 1 })).set_root s.next_root
          (some ⟨ip.ptr, some h⟩))) := by
  refine ⟨?_, ?_, ?_⟩
  · unfold owner_from_internal
    rw [hh]; simp only
    by_cases hu : hd.unreachable = true
    · rw [if_pos hu]
      exact ⟨s, false, rfl, (by simp [hu]), (fun _ => rfl),
        (fun e => by rw [hu] at e; cases e)⟩
    · rw [if_neg hu]
      have hf : hd.unreachable = false := by simpa using hu
      exact ⟨_, true, rfl, (by simp [hf]), (fun e => absurd e hu), (fun _ => rfl)⟩
  · intro p ip hp hph hu
    unfold root_ptr_from_internal
    rw [hp]; simp only; rw [hph]; simp only
    unfold owner_from_internal
    have : ({ s with next_root := s.next_root + 1 } : Heap).headers h = some hd := hh
    rw [this]; simp only
    rw [if_pos hu]
  · intro p ip hp hph hu
    unfold root_ptr_from_internal
    rw [hp]; simp only; rw [hph]; simp only
    unfold owner_from_internal
    have : ({ s with next_root := s.next_root + 1 } : Heap).headers h = some hd := hh
    rw [this]; simp only
    rw [if_neg (by rw [hu]; simp)]

/-- C13 (witness): the header block of `X` in `one_edge_heap`, which is not flagged. -/
theorem C13_witness :
    ∃ s1 b, owner_from_internal 1 one_edge_heap = some (s1, b) ∧
      (b = false ↔ (⟨1, 2, [0], false, false, some 1⟩ : root_ptr_header_block_base).unreachable
        = true) ∧
      ((⟨1, 2, [0], false, false, some 1⟩ : root_ptr_header_block_base).unreachable = true →
        s1 = one_edge_heap) ∧
      ((⟨1, 2, [0], false, false, some 1⟩ : root_ptr_header_block_base).unreachable = false →
        s1 = one_edge_heap.set_header 1 (some { (⟨1, 2, [0], false, false, some 1⟩ :
          root_ptr_header_block_base) with owner_count := 1 + 1, internal_count := 2 + 1 })) :=
  (C13_owner_from_internal one_edge_heap 1 ⟨1, 2, [0], false, false, some 1⟩ rfl).1

/-- C14 (evaluation): releasing the last root of the ring of three nodes finds the set of the
three headers unreachable and collects it; `severed_heap` is the heap after the severance pass
of that collection.  There the handle 0, which belongs to the payload of node 0 and had
node 1 as its target, has a nil header: its `use_count()` is 0 and its `get()` is nil.  But
its stored pointer is still that of node 1, and the `root_ptr` constructed from it copies that
pointer: the new `root_ptr` has `use_count()` 0 and a nil header, while its `get()` is the
pointer of node 1 and it converts to `true`. -/
theorem C14_stale_promotion :
    reachable ring3_last_heap ∧
    (check_reachable_static (ring3_last_heap.released 0) (add [] 0) [0] none none).map
      (fun w => (w.result, w.seen_parents)) = some (false, [0, 1, 2]) ∧
    find_unreachable_children (ring3_last_heap.released 0) [0, 1, 2] = some [0, 1, 2] ∧
    (remove_owner 0 ring3_last_heap).map (fun s => s.trace) =
      some [Event.marked 0, Event.marked 1, Event.marked 2, Event.destroyed 0 [none],
        Event.destroyed 1 [none], Event.destroyed 2 [none], Event.freed 0, Event.freed 1,
        Event.freed 2] ∧
    mark_all [0, 1, 2] (ring3_last_heap.released 0) = some severed_heap ∧
    ring3_last_heap.iptrs 0 = some ⟨0, some 1, some 1⟩ ∧
    severed_heap.iptrs 0 = some ⟨0, none, some 1⟩ ∧
    internal_ptr_use_count severed_heap 0 = some 0 ∧
    internal_ptr_get severed_heap 0 = some none ∧
    (root_ptr_from_internal 0 severed_heap).bind
      (fun s => s.roots severed_heap.next_root) = some ⟨some 1, none⟩ ∧
    (root_ptr_from_internal 0 severed_heap).bind
      (fun s => root_ptr_use_count s severed_heap.next_root) = some 0 ∧
    (root_ptr_from_internal 0 severed_heap).bind
      (fun s => root_ptr_get s severed_heap.next_root) = some (some 1) ∧
    (root_ptr_from_internal 0 severed_heap).bind
      (fun s => root_ptr_bool s severed_heap.next_root) = some true :=
  ⟨reachable_ring3_last, by decide, by decide, by decide, rfl, rfl, rfl, rfl, rfl, rfl, rfl,
    rfl, rfl⟩

theorem reachable_alias : reachable alias_heap := ⟨alias_program, rfl⟩

/-- C15 (counterexample): in the reachable heap `alias_heap` the target header of the handle 0
is not nil and not flagged `unreachable`, and `get()` returns nil: the stored pointer is
nil. -/
theorem C15_counterexample :
    reachable alias_heap ∧
    alias_heap.iptrs 0 = some ⟨1, some 0, none⟩ ∧
    (alias_heap.headers 0).map (fun hd => hd.unreachable) = some false ∧
    internal_ptr_get alias_heap 0 = some none ∧
    ¬ (internal_ptr_get alias_heap 0 = some none ↔
        ((alias_heap.iptrs 0).bind (fun ip => ip.header) = none ∨
         (alias_heap.headers 0).map (fun hd => hd.unreachable) = some true)) :=
  ⟨reachable_alias, rfl, rfl, rfl, by decide⟩

/-- C15 (amended): for a handle whose target header is nil, `get()` returns nil, the handle
converts to `false` and `use_count()` is 0.  For a handle whose target header is a live header
block, `get()` returns nil when the block is flagged `unreachable` and the stored payload
pointer (which may be nil) otherwise, so that `get()` is nil exactly when the block is flagged
or the stored pointer is nil; `use_count()` is 0 when the block is flagged and
`internal_count` otherwise.  In both cases the conversion to `bool` is `true` exactly when
`get()` is not nil. -/
theorem C15_get (s : Heap) (p : Nat) (ip : internal_ptr) (hp : s.iptrs p = some ip) :
    (ip.header = none →
      internal_ptr_get s p = some none ∧ internal_ptr_bool s p = some false ∧
      internal_ptr_use_count s p = some 0) ∧
    (∀ h hd, ip.header = some h → s.headers h = some hd →
      (hd.unreachable = true → internal_ptr_get s p = some none) ∧
      (hd.unreachable = false → internal_ptr_get s p = some ip.ptr) ∧
      (internal_ptr_get s p = some none ↔ (hd.unreachable = true ∨ ip.ptr = none)) ∧
      (hd.unreachable = true → internal_ptr_use_count s p = some 0) ∧
      (hd.unreachable = false → internal_ptr_use_count s p = some hd.internal_count)) ∧
    (∀ g, internal_ptr_get s p = some g →
      internal_ptr_bool s p = some (decide (g ≠ none))) := by
  refine ⟨?_, ?_, ?_⟩
  · intro hh
    have hget : internal_ptr_get s p = some none := by
      unfold internal_ptr_get; rw [hp]; simp only; rw [hh]
    refine ⟨hget, by unfold internal_ptr_bool; rw [hget]; rfl, ?_⟩
    unfold internal_ptr_use_count; rw [hp]; simp only; rw [hh]
  · intro h hd hh hl
    have hget : internal_ptr_get s p = some (if hd.unreachable then none else ip.ptr) := by
      unfold internal_ptr_get; rw [hp]; simp only; rw [hh]; simp only; rw [hl]
    have huc : internal_ptr_use_count s p = some (header_use_count hd) := by
      unfold internal_ptr_use_count; rw [hp]; simp only; rw [hh]; simp only; rw [hl]
    refine ⟨fun hu => by rw [hget, hu]; rfl, fun hu => by rw [hget, hu]; rfl, ?_,
      fun hu => by rw [huc]; unfold header_use_count; rw [hu]; rfl,
      fun hu => by rw [huc]; unfold header_use_count; rw [hu]; rfl⟩
    rw [hget]
    cases hu : hd.unreachable with
    | true => simp
    | false =>
      simp only [Bool.false_eq_true, if_false, false_or]
      constructor
      · intro e; exact (Option.some.inj e)
      · intro e; rw [e]
  · intro g hg
    unfold internal_ptr_bool
    rw [hg]
    cases g <;> simp

/-- C15 (witness): the handle 0 of `alias_heap`, whose target is live and whose stored
pointer is nil. -/
theorem C15_witness :
    alias_heap.iptrs 0 = some ⟨1, some 0, none⟩ ∧
    ∀ g, internal_ptr_get alias_heap 0 = some g →
      internal_ptr_bool alias_heap 0 = some (decide (g ≠ none)) :=
  ⟨rfl, (C15_get alias_heap 0 ⟨1, some 0, none⟩ rfl).2.2⟩

/-- What binding the object whose `internal_base` is `b` to its first `root_ptr` does, in
detail: a header block is allocated at the frontier, `set_owner` makes it the `self_header`
of `b` and adds it to the back pointers of the target of every handle registered with `b`. -/
theorem root_ptr_from_raw_detail {s : Heap} (hg : good s) {b : Nat} {base : internal_base}
    (hb : s.bases b = some base) :
    ∃ s1, root_ptr_from_raw (some b) s = some s1 ∧ s1.iptrs = s.iptrs ∧ s1.trace = s.trace ∧
      s1.roots = Function.update s.roots s.next_root
        (some ⟨some s.next_header, some s.next_header⟩) ∧
      s1.bases = Function.update s.bases b
        (some { base with self_header := some s.next_header }) ∧
      s1.headers s.next_header = some (new_header (some b)) ∧
      (∀ t hd, s.headers t = some hd → ∃ hd1, s1.headers t = some hd1 ∧
        hd1.owner_count = hd.owner_count ∧ hd1.internal_count = hd.internal_count ∧
        hd1.unreachable = hd.unreachable ∧ hd1.deleted = hd.deleted ∧
        hd1.get_internal_base = hd.get_internal_base ∧
        (∀ P, hd1.back_pointers.count P = hd.back_pointers.count P +
          (if P = s.next_header then base.pointers.countP (iptr_targets s none t) else 0)) ∧
        hd1.back_pointers.length = hd.back_pointers.length +
          base.pointers.countP (iptr_targets s none t)) := by
  have hi := hg.inv0.core
  have hdead : s.headers s.next_header = none := by
    cases e : s.headers s.next_header with
    | none => rfl
    | some hd => exact absurd (hi.header_lt _ hd e) (by omega)
  unfold root_ptr_from_raw set_owner
  simp only
  obtain ⟨S1, hS1⟩ : ∃ S1, S1 = ((⟨s.headers, s.bases, s.iptrs, s.roots, s.next_header + 1,
    s.next_base, s.next_iptr, s.next_root + 1, s.trace⟩ : Heap).set_header s.next_header
      (some (new_header (some b)))).set_root s.next_root
        (some ⟨some s.next_header, some s.next_header⟩) := ⟨_, rfl⟩
  rw [← hS1]
  have g_hh : S1.headers s.next_header = some (new_header (some b)) := by rw [hS1]; simp
  have g_h : ∀ t, t ≠ s.next_header → S1.headers t = s.headers t := by
    intro t ht; rw [hS1]; simp [Function.update_noteq ht]
  have g_b : S1.bases = s.bases := by rw [hS1]; rfl
  have g_p : S1.iptrs = s.iptrs := by rw [hS1]; rfl
  have g_r : S1.roots = Function.update s.roots s.next_root
      (some ⟨some s.next_header, some s.next_header⟩) := by rw [hS1]; rfl
  have g_t : S1.trace = s.trace := by rw [hS1]; rfl
  clear hS1
  rw [g_hh]; simp only
  have hgib : (new_header (some b)).get_internal_base = some b := rfl
  rw [hgib]
  simp only
  unfold set_self_header
  rw [g_b, hb]; simp only
  obtain ⟨S2, hS2⟩ : ∃ S2, S2 = S1.set_base b
    (some { base with self_header := some s.next_header }) := ⟨_, rfl⟩
  rw [← hS2]
  have k_h : S2.headers = S1.headers := by rw [hS2]; rfl
  have k_p : S2.iptrs = s.iptrs := by rw [hS2]; exact g_p
  obtain ⟨F, a1, a2, a3, a4, a5, a6, a7, a8, a9, a10, a11⟩ :=
    set_self_header_loop_spec s.next_header base.pointers S2
      (fun p hp => by
        obtain ⟨ip, e1, _⟩ := hi.ptr_of_base b base hb p hp
        refine ⟨ip, by rw [k_p]; exact e1, fun t ht => ?_⟩
        obtain ⟨hd, e3⟩ := hi.target_live p ip t e1 (by simp) ht
        have hth : t ≠ s.next_header := by intro e; rw [e, hdead] at e3; cases e3
        exact ⟨hd, by rw [k_h, g_h t hth]; exact e3⟩)
      (fun t hd ht => by
        rw [k_h] at ht
        by_cases hth : t = s.next_header
        · subst hth; rw [g_hh] at ht; cases ht; exact List.sorted_nil
        · rw [g_h t hth] at ht; exact hi.bp_sorted t hd ht)
  have hcnt : ∀ t, base.pointers.countP (iptr_targets S2 none t) =
      base.pointers.countP (iptr_targets s none t) := by
    intro t; unfold iptr_targets; rw [k_p]
  have hz : base.pointers.countP (iptr_targets s none s.next_header) = 0 := by
    rw [List.countP_eq_zero]
    intro q _
    unfold iptr_targets
    cases hq : s.iptrs q with
    | none => simp
    | some iq =>
      simp only [Bool.and_eq_true, decide_eq_true_eq, not_and]
      intro _ e2
      obtain ⟨hd, e3⟩ := hi.target_live q iq _ hq (by simp) e2
      rw [hdead] at e3; cases e3
  refine ⟨F, a1, a3.trans k_p, a9.trans (by rw [hS2]; exact g_t),
    a4.trans (by rw [hS2]; exact g_r), ?_, ?_, ?_⟩
  · rw [a2, hS2, ← g_b]; rfl
  · obtain ⟨hd1, b1, b2, b3, b4, b5, b6, b7, b8, b9, b10⟩ :=
      a11 s.next_header (new_header (some b)) (by rw [k_h]; exact g_hh)
    rw [b1]
    have hnil : hd1.back_pointers = [] := by
      apply List.eq_nil_of_length_eq_zero
      rw [b10, hcnt, hz]; rfl
    congr 1
    cases hd1
    simp only at b2 b3 b4 b5 b6 hnil
    rw [b2, b3, b4, b5, b6, hnil]
    rfl
  · intro t hd ht
    have hth : t ≠ s.next_header := by intro e; rw [e, hdead] at ht; cases ht
    obtain ⟨hd1, b1, b2, b3, b4, b5, b6, b7, b8, b9, b10⟩ :=
      a11 t hd (by rw [k_h, g_h t hth]; exact ht)
    refine ⟨hd1, b1, b2, b3, b4, b5, b6, ?_, ?_⟩
    · intro P; rw [b9 P, hcnt]
    · rw [b10, hcnt]

/-- Binding a payload that is not an `internal_base` to its first `root_ptr`. -/
theorem root_ptr_from_raw_none (s : Heap) :
    root_ptr_from_raw none s = some
      (({ s with next_header := s.next_header + 1, next_root := s.next_root + 1 }.set_header
        s.next_header (some (new_header none))).set_root s.next_root
          (some ⟨some s.next_header, some s.next_header⟩)) := by
  unfold root_ptr_from_raw set_owner
  simp [Heap.set_root, Heap.set_header, new_header]

/-- Releasing the only `root_ptr` of a header that no handle has as its target frees the
header block and destroys the payload, once. -/
theorem sole_root_release {s : Heap} (h : reachable s) {r T : Nat} {rp : root_ptr}
    (hr : s.roots r = some rp) (hh : rp.header = some T)
    (honly : ∀ r1 rp1, s.roots r1 = some rp1 → rp1.header = some T → r1 = r)
    (hnone : ∀ p ip, s.iptrs p = some ip → ip.header ≠ some T) (byreset : Bool) :
    ∃ s1, Op.apply (if byreset then Op.root_reset r else Op.root_dtor r) s = some s1 ∧
      s1.headers T = none ∧ destroy_count s.trace T = 0 ∧ destroy_count s1.trace T = 1 ∧
      sound s1 ∧
      (∀ x, (∃ hd, (s.released T).headers x = some hd) → ¬ has_owner (s.released T) x →
        s1.headers x = none ∧ destroy_count s1.trace x = 1) ∧
      (∀ x, (∃ hd, (s.released T).headers x = some hd) → has_owner (s.released T) x →
        (∃ hd, s1.headers x = some hd) ∧ destroy_count s1.trace x = 0) := by
  have hs := sound_of_reachable h
  obtain ⟨hd, hT⟩ := hs.good0.inv0.core.root_target_live r rp T hr (by simp) hh
  obtain ⟨_, _, hinvm, _⟩ := remove_owner_run hs.good0.inv0 hs.good0.owned hr hh hT
  obtain ⟨mb, mr, mi, _, _⟩ := released_rest s T
  obtain ⟨_, _, mq⟩ := released_quiet s T
  have hdead := closed_region_dead hinvm.core (fun y => y = T)
    (by
      rintro r1 rp1 y hr1 hne hy rfl
      rw [mr] at hr1
      exact hne (by rw [honly r1 rp1 hr1 hy]))
    (by
      rintro q iq y hq _ hy rfl
      rw [mi] at hq
      exact absurd hy (hnone q iq hq))
  obtain ⟨s1, happly⟩ : ∃ s1,
      Op.apply (if byreset then Op.root_reset r else Op.root_dtor r) s = some s1 := by
    cases byreset with
    | true =>
      obtain ⟨s2, b1, _⟩ := root_ptr_reset_ok hs.good0 hr
      exact ⟨s2, b1⟩
    | false =>
      obtain ⟨s2, b1, _⟩ := root_ptr_dtor_ok hs.good0 hr
      exact ⟨s2, b1⟩
  have hmom : Op.moment (if byreset then Op.root_reset r else Op.root_dtor r) s =
      some (s.released T) := by
    have : root_moment r s = some (s.released T) := by
      unfold root_moment; rw [hr]; simp only; rw [hh]
    cases byreset with
    | true => exact this
    | false => exact this
  obtain ⟨_, sp⟩ := step_full _ hs.good0 happly
  rcases sp with ⟨h0, _⟩ | ⟨m1, U, hm1, hq, e1, e2⟩
  · rw [hmom] at h0; cases h0
  · rw [hmom] at hm1; cases hm1
    have hlm : ∃ hd, (s.released T).headers T = some hd := by
      cases h1 : (s.released T).headers T with
      | some hd1 => exact ⟨hd1, rfl⟩
      | none => rw [(mq _).1 h1] at hT; cases hT
    obtain ⟨c1, c2, c3⟩ := (effect_facts hs.trace0 hq e1 e2 T).1 hlm (hdead T rfl)
    refine ⟨s1, happly, c1, c2, c3, sound_of_reachable (reachable_step h happly), ?_, ?_⟩
    · intro x hl hn
      obtain ⟨d1, _, d3⟩ := (effect_facts hs.trace0 hq e1 e2 x).1 hl hn
      exact ⟨d1, d3⟩
    · intro x hl ho
      exact (effect_facts hs.trace0 hq e1 e2 x).2 hl ho

/-- C16: in a heap reachable through the public handle operations, binding an object whose
`internal_base` `b` has no header yet to its first `root_ptr` returns.  The header block `H`
allocated for it becomes the `self_header` of `b`; every other header block keeps its
`owner_count` and `internal_count`, does not have `H` among its back pointers before, and
gains one occurrence of `H` per handle registered with `b` whose target it is, its other back
pointers staying as they are.  Afterwards every handle registered with `b` that has a target
finds `H` among the back pointers of its target.  Releasing the new `root_ptr` right away
returns, frees `H` and destroys its payload once, frees and destroys every header that has no
owner once the counters of `H` are decremented, and leaves no live header without an
owner. -/
theorem C16_bind_after_construction {s : Heap} (h : reachable s) (b : Nat)
    (base : internal_base) (hb : s.bases b = some base) (hsh : base.self_header = none) :
    ∃ s1, Op.apply (Op.root_from_raw (some b)) s = some s1 ∧
      s1.bases b = some { base with self_header := some s.next_header } ∧
      s1.headers s.next_header = some (new_header (some b)) ∧
      (∀ t hd, s.headers t = some hd → ∃ hd1, s1.headers t = some hd1 ∧
        hd1.owner_count = hd.owner_count ∧ hd1.internal_count = hd.internal_count ∧
        hd.back_pointers.count s.next_header = 0 ∧
        (∀ P, hd1.back_pointers.count P = hd.back_pointers.count P +
          (if P = s.next_header then base.pointers.countP (iptr_targets s none t) else 0))) ∧
      (∀ p ∈ base.pointers, ∀ ip T, s1.iptrs p = some ip → ip.header = some T →
        ∃ hd1, s1.headers T = some hd1 ∧ s.next_header ∈ hd1.back_pointers) ∧
      ∃ s2, Op.apply (Op.root_dtor s.next_root) s1 = some s2 ∧
        s2.headers s.next_header = none ∧ destroy_count s2.trace s.next_header = 1 ∧
        (∀ x hd, s2.headers x = some hd → has_owner s2 x) ∧
        (∀ x, (∃ hd, (s1.released s.next_header).headers x = some hd) →
          ¬ has_owner (s1.released s.next_header) x →
          s2.headers x = none ∧ destroy_count s2.trace x = 1) := by
  have hs := sound_of_reachable h
  have hi := hs.good0.inv0.core
  have hdead : s.headers s.next_header = none := by
    cases e : s.headers s.next_header with
    | none => rfl
    | some hd => exact absurd (hi.header_lt _ hd e) (by omega)
  obtain ⟨s1, a1, a2, a3, a4, a5, a6, a7⟩ := root_ptr_from_raw_detail hs.good0 hb
  have happly : Op.apply (Op.root_from_raw (some b)) s = some s1 := by
    show (match s.bases b with
      | some base => if base.self_header = none then root_ptr_from_raw (some b) s else none
      | none => none) = some s1
    rw [hb]; simp only; rw [if_pos hsh]; exact a1
  have hr1 := reachable_step h happly
  have hs1 := sound_of_reachable hr1
  have hb1 : s1.bases b = some { base with self_header := some s.next_header } := by
    rw [a5]; simp
  refine ⟨s1, happly, hb1, a6, ?_, ?_, ?_⟩
  · intro t hd ht
    obtain ⟨hd1, b1, b2, b3, _, _, _, b7, _⟩ := a7 t hd ht
    refine ⟨hd1, b1, b2, b3, ?_, b7⟩
    rw [List.count_eq_zero]
    intro hmem
    obtain ⟨q, iq, bq, _, _, _, f4, f5, _⟩ := handle_of_bp hi ht hmem
    obtain ⟨hdx, f6, _⟩ := hi.header_of_base _ bq _ f4 f5
    rw [hdead] at f6; cases f6
  · intro p hp ip T hip hh
    have hp1 : p ∈ ({ base with self_header := some s.next_header } : internal_base).pointers :=
      hp
    obtain ⟨ipx, f1, f2⟩ := hs1.good0.inv0.core.ptr_of_base b _ hb1 p hp1
    rw [hip] at f1; cases f1
    obtain ⟨hdT, hT⟩ := hs1.good0.inv0.core.target_live p ip T hip (by simp) hh
    obtain ⟨_, _, _, hm⟩ := target_counts hs1.good0.inv0.core hip hh
      (show s1.bases ip.base = some _ by rw [f2]; exact hb1) hT
    exact ⟨hdT, hT, hm s.next_header rfl⟩
  · obtain ⟨s2, c1, c2, _, c4, c5, c6, _⟩ := sole_root_release hr1
      (show s1.roots s.next_root = some ⟨some s.next_header, some s.next_header⟩ by
        rw [a4]; simp) rfl
      (by
        intro r1 rp1 hr1x hh1
        rw [a4] at hr1x
        by_contra hne
        rw [Function.update_noteq hne] at hr1x
        obtain ⟨hdx, f1⟩ := hi.root_target_live r1 rp1 _ hr1x (by simp) hh1
        rw [hdead] at f1; cases f1)
      (by
        intro p ip hp hh1
        rw [a2] at hp
        obtain ⟨hdx, f1⟩ := hi.target_live p ip _ hp (by simp) hh1
        rw [hdead] at f1; cases f1) false
    exact ⟨s2, c1, c2, c4, c5.good0.owned, c6⟩

theorem reachable_unbound : reachable unbound_heap := ⟨unbound_program, rfl⟩

/-- C16 (witness): binding the `internal_base` 0 of `unbound_heap` to a `root_ptr` makes the
new header 1 its `self_header`; releasing the `root_ptr` destroys the new object and the
object `X2`, which is reachable only through it. -/
theorem C16_witness :
    reachable unbound_heap ∧
    (∃ s1, Op.apply (Op.root_from_raw (some 0)) unbound_heap = some s1 ∧
      s1.bases 0 = some ⟨some 1, [0]⟩) ∧
    (run [Op.root_from_raw (some 0), Op.root_dtor 1] unbound_heap).map
      (fun s => (s.headers 0, s.headers 1, destroy_count s.trace 0, destroy_count s.trace 1)) =
        some (none, none, 1, 1) :=
  ⟨reachable_unbound,
    (by
      obtain ⟨s1, a1, a2, _⟩ :=
        C16_bind_after_construction reachable_unbound 0 ⟨none, [0]⟩ rfl rfl
      exact ⟨s1, a1, a2⟩),
    by decide⟩

/-- C20: a freshly constructed header block has `owner_count = 1`, `internal_count = 1`, no
back pointers and both flags false.  In a heap reachable through the public handle
operations, binding a new object to its first `root_ptr` returns and leaves the block as
constructed: the new `root_ptr` has `use_count() = 1`, the block is live and its payload is not
destroyed.  Releasing the new `root_ptr` (by the destructor or by `reset`) returns, frees the
block and destroys the payload exactly once; and so does, in any reachable heap, releasing a
`root_ptr` that is the only one to share its header when no handle has that header as its
target. -/
theorem C20_first_root {s : Heap} (h : reachable s) (ob : Option Nat)
    (hguard : ∀ b, ob = some b → ∃ base, s.bases b = some base ∧ base.self_header = none) :
    new_header ob = ⟨1, 1, [], false, false, ob⟩ ∧
    (∃ s1, Op.apply (Op.root_from_raw ob) s = some s1 ∧
      s1.headers s.next_header = some (new_header ob) ∧
      s1.roots s.next_root = some ⟨some s.next_header, some s.next_header⟩ ∧
      root_ptr_use_count s1 s.next_root = some 1 ∧
      destroy_count s1.trace s.next_header = 0 ∧
      ∀ byreset : Bool, ∃ s2,
        Op.apply (if byreset then Op.root_reset s.next_root else Op.root_dtor s.next_root) s1 =
          some s2 ∧
        s2.headers s.next_header = none ∧ destroy_count s2.trace s.next_header = 1) ∧
    (∀ r rp T (byreset : Bool), s.roots r = some rp → rp.header = some T →
      (∀ r1 rp1, s.roots r1 = some rp1 → rp1.header = some T → r1 = r) →
      (∀ p ip, s.iptrs p = some ip → ip.header ≠ some T) →
      ∃ s1, Op.apply (if byreset then Op.root_reset r else Op.root_dtor r) s = some s1 ∧
        s1.headers T = none ∧ destroy_count s.trace T = 0 ∧ destroy_count s1.trace T = 1) := by
  have hs := sound_of_reachable h
  have hi := hs.good0.inv0.core
  have hdead : s.headers s.next_header = none := by
    cases e : s.headers s.next_header with
    | none => rfl
    | some hd => exact absurd (hi.header_lt _ hd e) (by omega)
  refine ⟨rfl, ?_, ?_⟩
  · obtain ⟨s1, happly, hH, hR, hI⟩ : ∃ s1, Op.apply (Op.root_from_raw ob) s = some s1 ∧
        s1.headers s.next_header = some (new_header ob) ∧
        s1.roots = Function.update s.roots s.next_root
          (some ⟨some s.next_header, some s.next_header⟩) ∧ s1.iptrs = s.iptrs := by
      cases ob with
      | none =>
        refine ⟨_, root_ptr_from_raw_none s, ?_, rfl, rfl⟩
        simp [Heap.set_root, Heap.set_header]
      | some b =>
        obtain ⟨base, hb, hsh⟩ := hguard b rfl
        obtain ⟨s1, a1, a2, a3, a4, a5, a6, a7⟩ := root_ptr_from_raw_detail hs.good0 hb
        refine ⟨s1, ?_, a6, a4, a2⟩
        show (match s.bases b with
          | some base => if base.self_header = none then root_ptr_from_raw (some b) s else none
          | none => none) = some s1
        rw [hb]; simp only; rw [if_pos hsh]; exact a1
    have hr1 := reachable_step h happly
    have hs1 := sound_of_reachable hr1
    have hroot : s1.roots s.next_root = some ⟨some s.next_header, some s.next_header⟩ := by
      rw [hR]; simp
    have hrel := fun byreset => sole_root_release hr1 hroot rfl
      (by
        intro r1 rp1 hr1x hh1
        rw [hR] at hr1x
        by_contra hne
        rw [Function.update_noteq hne] at hr1x
        obtain ⟨hdx, f1⟩ := hi.root_target_live r1 rp1 _ hr1x (by simp) hh1
        rw [hdead] at f1; cases f1)
      (by
        intro p ip hp hh1
        rw [hI] at hp
        obtain ⟨hdx, f1⟩ := hi.target_live p ip _ hp (by simp) hh1
        rw [hdead] at f1; cases f1) byreset
    refine ⟨s1, happly, hH, hroot, ?_, ?_, ?_⟩
    · rw [root_use_count_eq hroot rfl hH]; rfl
    · obtain ⟨_, _, _, c3, _⟩ := hrel false
      exact c3
    · intro byreset
      obtain ⟨s2, c1, c2, _, c4, _⟩ := hrel byreset
      exact ⟨s2, c1, c2, c4⟩
  · intro r rp T byreset hr hh honly hnone
    obtain ⟨s1, c1, c2, c3, c4, _⟩ := sole_root_release h hr hh honly hnone byreset
    exact ⟨s1, c1, c2, c3, c4⟩

/-- C20 (witness): binding a new object that is not an `internal_base` in the empty heap, and
releasing its `root_ptr`. -/
theorem C20_witness :
    (∀ b, (none : Option Nat) = some b →
      ∃ base, Heap.empty.bases b = some base ∧ base.self_header = none) ∧
    ∃ s1, Op.apply (Op.root_from_raw none) Heap.empty = some s1 ∧
      root_ptr_use_count s1 0 = some 1 :=
  ⟨fun b hb => (by cases hb),
    (by
      obtain ⟨_, ⟨s1, a1, _, _, a4, _⟩, _⟩ :=
        C20_first_root (s := Heap.empty) ⟨[], rfl⟩ none (fun b hb => (by cases hb))
      exact ⟨s1, a1, a4⟩)⟩

/-- C17: in a heap reachable through the public handle operations, let the payload of an
object `A` that a `root_ptr` shares hold the handle `na` with target `B`, let the payload of
`B` hold the handle `nb` with target `C` and the payload of `C` the handle `nc` with target
`B`, let no `root_ptr` share `B` or `C`, and let no other handle have `B` or `C` as its
target.  Before the reset the three header blocks are live and no payload has been destroyed.
`na.reset()` returns; afterwards the header blocks of `B` and `C` are freed and each of the
two payloads has been destroyed exactly once, `A` is live and its payload has not been
destroyed, and the handle `na` is empty: `get()` returns nil. -/
theorem C17_reset_into_cycle {s : Heap} (h : reachable s) (a b c na nb nc ra : Nat)
    (rpa : root_ptr) (ipa ipb ipc : internal_ptr) (baseA baseB baseC : internal_base)
    (hra : s.roots ra = some rpa) (hrah : rpa.header = some a)
    (hna : s.iptrs na = some ipa) (hnah : ipa.header = some b)
    (hbA : s.bases ipa.base = some baseA) (hsA : baseA.self_header = some a)
    (hnb : s.iptrs nb = some ipb) (hnbh : ipb.header = some c)
    (hbB : s.bases ipb.base = some baseB) (hsB : baseB.self_header = some b)
    (hnc : s.iptrs nc = some ipc) (hnch : ipc.header = some b)
    (hbC : s.bases ipc.base = some baseC) (hsC : baseC.self_header = some c)
    (hnoroot : ∀ r rp, s.roots r = some rp → rp.header ≠ some b ∧ rp.header ≠ some c)
    (hclosedB : ∀ p ip, s.iptrs p = some ip → ip.header = some b → p = na ∨ p = nc)
    (hclosedC : ∀ p ip, s.iptrs p = some ip → ip.header = some c → p = nb) :
    ((∃ hd, s.headers a = some hd) ∧ (∃ hd, s.headers b = some hd) ∧
      (∃ hd, s.headers c = some hd) ∧
      destroy_count s.trace a = 0 ∧ destroy_count s.trace b = 0 ∧
      destroy_count s.trace c = 0) ∧
    ∃ s1, Op.apply (Op.iptr_reset na) s = some s1 ∧
      s1.headers b = none ∧ destroy_count s1.trace b = 1 ∧
      s1.headers c = none ∧ destroy_count s1.trace c = 1 ∧
      (∃ hd, s1.headers a = some hd) ∧ destroy_count s1.trace a = 0 ∧
      s1.iptrs na = some ⟨ipa.base, none, none⟩ ∧
      internal_ptr_get s1 na = some none ∧ internal_ptr_bool s1 na = some false := by
  have hs := sound_of_reachable h
  have hi := hs.good0.inv0.core
  obtain ⟨hdA, hA⟩ := hi.root_target_live ra rpa a hra (by simp) hrah
  obtain ⟨hdB, hB⟩ := hi.target_live na ipa b hna (by simp) hnah
  obtain ⟨hdC, hC⟩ := hi.target_live nb ipb c hnb (by simp) hnbh
  have hdc : ∀ x hd, s.headers x = some hd → destroy_count s.trace x = 0 := by
    intro x hd hx; rw [hs.trace0]; simp [hx]
  refine ⟨⟨⟨hdA, hA⟩, ⟨hdB, hB⟩, ⟨hdC, hC⟩, hdc a hdA hA, hdc b hdB hB, hdc c hdC hC⟩, ?_⟩
  have hmid := unlink_inv hs.good0.inv0 hna hnah hbA hB (Or.inl rfl)
  obtain ⟨ub, ur, ui, _, _, _⟩ := unlinked_rest s b baseA.self_header
  obtain ⟨_, _, uq⟩ := unlinked_quiet s b baseA.self_header
  have hdead := closed_region_dead hmid.core (fun y => y = b ∨ y = c)
    (by
      rintro r rp y hr _ hy hW
      rw [ur] at hr
      rcases hW with rfl | rfl
      · exact (hnoroot r rp hr).1 hy
      · exact (hnoroot r rp hr).2 hy)
    (by
      rintro q iq y hq hne hy hW
      rw [ui] at hq
      have hqa : q ≠ na := fun e => hne (by rw [e])
      rcases hW with rfl | rfl
      · rcases hclosedB q iq hq hy with e | e
        · exact absurd e hqa
        · subst e
          rw [hnc] at hq; cases hq
          exact ⟨baseC, c, by rw [ub]; exact hbC, hsC, Or.inr rfl⟩
      · have e := hclosedC q iq hq hy
        subst e
        rw [hnb] at hq; cases hq
        exact ⟨baseB, b, by rw [ub]; exact hbB, hsB, Or.inl rfl⟩)
  have hownA : has_owner (s.unlinked b baseA.self_header) a :=
    has_owner_of_owned (owned_of_root hmid.core
      (show (s.unlinked b baseA.self_header).roots ra = some rpa by rw [ur]; exact hra)
      (by simp) hrah)
  obtain ⟨bs1, s1, hb1, happly, hg1, hres⟩ := internal_ptr_reset_ok hs.good0 hna
  rw [hbA] at hb1; cases hb1
  have hpa := unlink_result_iptr hres
  have hmom : Op.moment (Op.iptr_reset na) s = some (s.unlinked b baseA.self_header) := by
    show reset_moment na s = _
    unfold reset_moment
    rw [hna]; simp only; rw [hnah, hbA]
  have hlm : ∀ x hd, s.headers x = some hd →
      ∃ hd1, (s.unlinked b baseA.self_header).headers x = some hd1 := by
    intro x hd hx
    cases h2 : (s.unlinked b baseA.self_header).headers x with
    | some hd2 => exact ⟨hd2, rfl⟩
    | none => rw [(uq _).1 h2] at hx; cases hx
  obtain ⟨_, sp⟩ := step_full (Op.iptr_reset na) hs.good0 happly
  rcases sp with ⟨h0, _⟩ | ⟨m1, U, hm1, hq, e1, e2⟩
  · rw [hmom] at h0; cases h0
  · rw [hmom] at hm1; cases hm1
    obtain ⟨b1, _, b3⟩ := (effect_facts hs.trace0 hq e1 e2 b).1 (hlm b hdB hB)
      (hdead b (Or.inl rfl))
    obtain ⟨c1, _, c3⟩ := (effect_facts hs.trace0 hq e1 e2 c).1 (hlm c hdC hC)
      (hdead c (Or.inr rfl))
    obtain ⟨a1, a3⟩ := (effect_facts hs.trace0 hq e1 e2 a).2 (hlm a hdA hA) hownA
    exact ⟨s1, happly, b1, b3, c1, c3, a1, a3, hpa,
      (nil_handle_reads_nil hpa rfl).1, (nil_handle_reads_nil hpa rfl).2⟩

theorem reachable_lasso : reachable lasso_heap := ⟨lasso_program, rfl⟩

/-- C17 (witness): resetting the handle of node 0 in `lasso_heap`. -/
theorem C17_witness :
    reachable lasso_heap ∧
    ∃ s1, Op.apply (Op.iptr_reset 0) lasso_heap = some s1 ∧
      s1.headers 1 = none ∧ destroy_count s1.trace 1 = 1 ∧
      s1.headers 2 = none ∧ destroy_count s1.trace 2 = 1 ∧
      (∃ hd, s1.headers 0 = some hd) ∧ destroy_count s1.trace 0 = 0 ∧
      s1.iptrs 0 = some ⟨0, none, none⟩ ∧
      internal_ptr_get s1 0 = some none ∧ internal_ptr_bool s1 0 = some false :=
  ⟨reachable_lasso,
    (C17_reset_into_cycle reachable_lasso 0 1 2 0 1 2 0 ⟨some 0, some 0⟩
      ⟨0, some 1, some 1⟩ ⟨1, some 2, some 2⟩ ⟨2, some 1, some 1⟩
      ⟨some 0, [0]⟩ ⟨some 1, [1]⟩ ⟨some 2, [2]⟩
      rfl rfl rfl rfl rfl rfl rfl rfl rfl rfl rfl rfl rfl rfl
      (by
        intro r rp hr
        have hlt := (sound_of_reachable reachable_lasso).good0.inv0.core.root_lt r rp hr
        have hn : lasso_heap.next_root = 3 := rfl
        rw [hn] at hlt
        interval_cases r
        · rw [show lasso_heap.roots 0 = some ⟨some 0, some 0⟩ from rfl] at hr
          cases hr; exact ⟨by decide, by decide⟩
        · rw [show lasso_heap.roots 1 = none from rfl] at hr; cases hr
        · rw [show lasso_heap.roots 2 = none from rfl] at hr; cases hr)
      (by
        intro p ip hp hx
        have hlt := (sound_of_reachable reachable_lasso).good0.inv0.core.iptr_lt p ip hp
        have hn : lasso_heap.next_iptr = 3 := rfl
        rw [hn] at hlt
        interval_cases p
        · exact Or.inl rfl
        · rw [show lasso_heap.iptrs 1 = some ⟨1, some 2, some 2⟩ from rfl] at hp
          cases hp; cases hx
        · exact Or.inr rfl)
      (by
        intro p ip hp hx
        have hlt := (sound_of_reachable reachable_lasso).good0.inv0.core.iptr_lt p ip hp
        have hn : lasso_heap.next_iptr = 3 := rfl
        rw [hn] at hlt
        interval_cases p
        · rw [show lasso_heap.iptrs 0 = some ⟨0, some 1, some 1⟩ from rfl] at hp
          cases hp; cases hx
        · rfl
        · rw [show lasso_heap.iptrs 2 = some ⟨2, some 1, some 1⟩ from rfl] at hp
          cases hp; cases hx)).2⟩

theorem unlinked_next (s : Heap) (T : Nat) (sh : Option Nat) :
    (s.unlinked T sh).next_root = s.next_root ∧ (s.unlinked T sh).next_iptr = s.next_iptr := by
  unfold Heap.unlinked
  cases s.headers T <;> exact ⟨rfl, rfl⟩

theorem released_next (s : Heap) (T : Nat) :
    (s.released T).next_root = s.next_root ∧ (s.released T).next_iptr = s.next_iptr := by
  unfold Heap.released
  cases s.headers T <;> exact ⟨rfl, rfl⟩

/-- The tables after `reset()` of a handle whose target, if any, is shared by a
`root_ptr`: only the handle changes. -/
theorem reset_rooted {s : Heap} (hg : good s) {p : Nat} {ip : internal_ptr}
    (hp : s.iptrs p = some ip)
    (hroot : ∀ T, ip.header = some T →
      ∃ r0 rp0, s.roots r0 = some rp0 ∧ rp0.header = some T) :
    ∃ sa, internal_ptr_reset p s = some sa ∧
      sa.iptrs = Function.update s.iptrs p (some ⟨ip.base, none, none⟩) ∧
      sa.bases = s.bases ∧ sa.roots = s.roots ∧ sa.trace = s.trace ∧
      sa.next_root = s.next_root ∧ sa.next_iptr = s.next_iptr ∧
      ∀ x, sa.headers x = none ↔ s.headers x = none := by
  obtain ⟨bs, hb, hpb⟩ := hg.inv0.core.base_of_ptr p ip hp (by simp)
  cases hh : ip.header with
  | none =>
    refine ⟨s.set_iptr p (some { ip with header := none, ptr := none }), ?_, rfl, rfl, rfl,
      rfl, rfl, rfl, fun _ => Iff.rfl⟩
    unfold internal_ptr_reset
    rw [hp]; simp only; rw [hh]
  | some T =>
    obtain ⟨r0, rp0, hr0, hrh⟩ := hroot T hh
    obtain ⟨hd, hT⟩ := hg.inv0.core.target_live p ip T hp (by simp) hh
    have hmid := unlink_inv hg.inv0 hp hh hb hT (Or.inl rfl)
    obtain ⟨ub, ur, ui, _, ut, _⟩ := unlinked_rest s T bs.self_header
    obtain ⟨un1, un2⟩ := unlinked_next s T bs.self_header
    obtain ⟨_, _, uq⟩ := unlinked_quiet s T bs.self_header
    have hown : has_owner (s.unlinked T bs.self_header) T :=
      has_owner_of_owned (owned_of_root hmid.core
        (show (s.unlinked T bs.self_header).roots r0 = some rp0 by rw [ur]; exact hr0)
        (by simp) hrh)
    refine ⟨_, reset_live hg hp hh hb hown, ?_, ub, ur, ut, un1, un2, uq⟩
    show Function.update (s.unlinked T bs.self_header).iptrs p _ = _
    rw [ui]

/-- The tables after `operator=(root_ptr const &)` on a handle whose old target, if any, is
shared by a `root_ptr`: only the handle changes, and nothing is collected. -/
theorem assign_root_rooted {s : Heap} (hg : good s) {p r : Nat} {ip : internal_ptr}
    {rp : root_ptr} (hp : s.iptrs p = some ip) (hr : s.roots r = some rp)
    (hroot : ∀ T, ip.header = some T →
      ∃ r0 rp0, s.roots r0 = some rp0 ∧ rp0.header = some T) :
    ∃ s1, internal_ptr_assign_root p r s = some s1 ∧ good s1 ∧
      s1.iptrs = Function.update s.iptrs p (some ⟨ip.base, rp.header, rp.ptr⟩) ∧
      s1.bases = s.bases ∧ s1.roots = s.roots ∧ s1.trace = s.trace ∧
      s1.next_root = s.next_root ∧ s1.next_iptr = s.next_iptr ∧
      ∀ x, s1.headers x = none ↔ s.headers x = none := by
  obtain ⟨bs, hb, hpb⟩ := hg.inv0.core.base_of_ptr p ip hp (by simp)
  obtain ⟨sa, a1, ai, ab, ar, at1, an1, an2, aq⟩ := reset_rooted hg hp hroot
  obtain ⟨s1, e1, g1⟩ := internal_ptr_assign_root_ok hg hp hr
  have hpa : sa.iptrs p = some ⟨ip.base, none, none⟩ := by rw [ai]; simp
  have hra : sa.roots r = some rp := by rw [ar]; exact hr
  have hupd : Function.update sa.iptrs p (some (⟨ip.base, rp.header, rp.ptr⟩ : internal_ptr)) =
      Function.update s.iptrs p (some ⟨ip.base, rp.header, rp.ptr⟩) := by
    rw [ai]; simp
  refine ⟨s1, e1, g1, ?_⟩
  unfold internal_ptr_assign_root at e1
  rw [a1] at e1; simp only at e1
  rw [hpa, hra] at e1; simp only at e1
  cases hrh : rp.header with
  | none =>
    rw [hrh] at e1 hupd; simp only at e1
    cases e1
    exact ⟨hupd, ab, ar, at1, an1, an2, aq⟩
  | some h =>
    rw [hrh] at e1 hupd; simp only at e1
    obtain ⟨hd, hh⟩ := hg.inv0.core.root_target_live r rp h hr (by simp) hrh
    have hla : ∃ hd1, sa.headers h = some hd1 := by
      cases h2 : sa.headers h with
      | some hd2 => exact ⟨hd2, rfl⟩
      | none => rw [(aq h).1 h2] at hh; cases hh
    obtain ⟨hd1, hh1⟩ := hla
    rw [@reachable_from_eq _ _ _ hd1 bs (by simpa using hh1)
      (by simpa [ab] using hb)] at e1
    cases e1
    refine ⟨hupd, ab, ar, at1, an1, an2, fun x => ?_⟩
    have hq := @quiet_set_header (sa.set_iptr p (some ⟨ip.base, some h, rp.ptr⟩)) h hd1
      (link_header hd1 bs.self_header) (by simpa using hh1)
    exact (hq.2.2 x).trans (aq x)

/-- What the destructor of a `root_ptr` does to the tables and to the trace, with the set `U`
of headers whose payload it destroys; with `U` empty only the handle goes away. -/
theorem dtor_cases {s : Heap} (hg : good s) {r : Nat} {rp : root_ptr}
    (hr : s.roots r = some rp) :
    ∃ s1 U, root_ptr_dtor r s = some s1 ∧ good s1 ∧
      s1.roots = Function.update s.roots r none ∧ s1.next_root = s.next_root ∧
      s1.next_iptr = s.next_iptr ∧
      (∀ x, destroy_count s1.trace x = destroy_count s.trace x + if x ∈ U then 1 else 0) ∧
      (U = [] → s1.iptrs = s.iptrs ∧ s1.bases = s.bases ∧ s1.trace = s.trace ∧
        ∀ x, s1.headers x = none ↔ s.headers x = none) := by
  obtain ⟨s1, e1, g1, hres⟩ := root_ptr_dtor_ok hg hr
  unfold release_result at hres
  cases hh : rp.header with
  | none =>
    rw [hh] at hres; simp only at hres
    subst hres
    exact ⟨_, [], e1, g1, rfl, rfl, rfl, fun x => by simp, fun _ =>
      ⟨rfl, rfl, rfl, fun _ => Iff.rfl⟩⟩
  | some T =>
    rw [hh] at hres; simp only at hres
    obtain ⟨U, s2, _, b2, d⟩ := hres
    subst b2
    obtain ⟨rb, rr, ri, rt, _⟩ := released_rest s T
    obtain ⟨rn1, rn2⟩ := released_next s T
    obtain ⟨_, _, rq⟩ := released_quiet s T
    have he := (effect_of_dec d (quiet_refl s2)).1
    refine ⟨_, U, e1, g1, ?_, ?_, ?_, ?_, ?_⟩
    · show Function.update s2.roots r none = _
      rw [d.col.roots, rr]
    · show s2.next_root = _
      rw [d.col.next_root, rn1]
    · show s2.next_iptr = _
      rw [d.col.next_iptr, rn2]
    · intro x
      have := destroy_count_effect he x
      rw [rt] at this
      exact this
    · intro hU
      subst hU
      refine ⟨?_, ?_, ?_, fun x => ?_⟩
      · show s2.iptrs = _
        funext q
        rw [d.col.iptrs_kept q (fun u hu => by simp at hu), ri]
      · show s2.bases = _
        funext q
        rw [d.col.bases_kept q (fun u hu => by simp at hu), rb]
      · show s2.trace = _
        obtain ⟨obs, _, o2⟩ := d.col.trace
        rw [o2, rt]; simp
      · show s2.headers x = none ↔ _
        have := he.gone x
        simp only [List.not_mem_nil, or_false] at this
        exact this.trans (rq x)

/-- What `get()` returns for a handle of a heap between two operations. -/
theorem get_of_good {s : Heap} (hg : good s) {p : Nat} {ip : internal_ptr}
    (hp : s.iptrs p = some ip) :
    internal_ptr_get s p = some (if ip.header = none then none else ip.ptr) := by
  cases hh : ip.header with
  | none => rw [(nil_handle_reads_nil hp hh).1]; simp
  | some T => rw [get_of_live hg hp hh]; simp

/-- The tables after `a.swap(b)` between two `internal_ptr` handles. -/
theorem swap_tables {s : Heap} (hg : good s) {a b : Nat} {ia ib : internal_ptr}
    (ha : s.iptrs a = some ia) (hb : s.iptrs b = some ib) :
    ∃ s6, internal_ptr_swap a b s = some s6 ∧ good s6 ∧
      s6.roots = Function.update (Function.update s.roots s.next_root none)
        (s.next_root + 1) none ∧
      s6.next_root = s.next_root + 2 ∧ s6.next_iptr = s.next_iptr ∧
      ((∀ x, destroy_count s6.trace x = destroy_count s.trace x) →
        s6.iptrs = Function.update (Function.update s.iptrs b
            (some ⟨ib.base, ia.header, ia.ptr⟩)) a (some ⟨ia.base, ib.header, ib.ptr⟩) ∧
        s6.bases = s.bases ∧ s6.trace = s.trace ∧
        ∀ x, s6.headers x = none ↔ s.headers x = none) := by
  obtain ⟨e1, g1⟩ := root_ptr_from_internal_ok hg hb
  obtain ⟨r1b, r1i, r1r, _, _, r1ni, r1nr, r1t⟩ := rooted_rest s ⟨ib.ptr, ib.header⟩
  obtain ⟨_, _, q1⟩ := rooted_quiet s ⟨ib.ptr, ib.header⟩
  have ha1 : (s.rooted ⟨ib.ptr, ib.header⟩).iptrs a = some ia := by rw [r1i]; exact ha
  obtain ⟨e2, g2⟩ := root_ptr_from_internal_ok g1 ha1
  obtain ⟨r2b, r2i, r2r, _, _, r2ni, r2nr, r2t⟩ :=
    rooted_rest (s.rooted ⟨ib.ptr, ib.header⟩) ⟨ia.ptr, ia.header⟩
  obtain ⟨_, _, q2⟩ := rooted_quiet (s.rooted ⟨ib.ptr, ib.header⟩) ⟨ia.ptr, ia.header⟩
  generalize hS2 : (s.rooted ⟨ib.ptr, ib.header⟩).rooted ⟨ia.ptr, ia.header⟩ = S2
    at e2 g2 r2b r2i r2r r2ni r2nr r2t q2
  rw [r1nr] at r2r r2nr
  rw [r1r] at r2r
  rw [r1i] at r2i
  rw [r1b] at r2b
  rw [r1t] at r2t
  rw [r1ni] at r2ni
  have hne : s.next_root ≠ s.next_root + 1 := by omega
  have hb2 : S2.iptrs b = some ib := by rw [r2i]; exact hb
  have hr2a : S2.roots (s.next_root + 1) = some ⟨ia.ptr, ia.header⟩ := by rw [r2r]; simp
  have hr2b : S2.roots s.next_root = some ⟨ib.ptr, ib.header⟩ := by
    rw [r2r, Function.update_noteq hne]; simp
  obtain ⟨S3, e3, g3, i3, b3, ro3, t3, nr3, ni3, q3⟩ :=
    assign_root_rooted g2 hb2 hr2a (fun T hT => ⟨s.next_root, _, hr2b, hT⟩)
  have ha3 : S3.iptrs a = some ia := by
    rw [i3]
    by_cases hab : a = b
    · subst hab
      rw [ha] at hb; cases hb
      simp
    · rw [Function.update_noteq hab, r2i]; exact ha
  obtain ⟨S4, e4, g4, i4, b4, ro4, t4, nr4, ni4, q4⟩ :=
    assign_root_rooted g3 ha3 (show S3.roots s.next_root = some ⟨ib.ptr, ib.header⟩ by
      rw [ro3]; exact hr2b)
      (fun T hT => ⟨s.next_root + 1, ⟨ia.ptr, ia.header⟩, by rw [ro3]; exact hr2a, hT⟩)
  obtain ⟨S5, U5, e5, g5, ro5, nr5, ni5, dc5, k5⟩ :=
    dtor_cases g4 (show S4.roots (s.next_root + 1) = some ⟨ia.ptr, ia.header⟩ by
      rw [ro4, ro3]; exact hr2a)
  have hr5 : S5.roots s.next_root = some ⟨ib.ptr, ib.header⟩ := by
    rw [ro5, Function.update_noteq hne, ro4, ro3]; exact hr2b
  obtain ⟨S6, U6, e6, g6, ro6, nr6, ni6, dc6, k6⟩ := dtor_cases g5 hr5
  have hrun : internal_ptr_swap a b s = some S6 := by
    rw [internal_ptr_swap_run]
    simp only [run, Op.apply]
    rw [e1]; simp only
    rw [e2]; simp only
    rw [e3]; simp only
    rw [e4]; simp only
    rw [e5]; simp only
    rw [e6]
  refine ⟨S6, hrun, g6, ?_, ?_, ?_, ?_⟩
  · rw [ro6, ro5, ro4, ro3, r2r]
    funext x
    by_cases h1 : x = s.next_root
    · subst h1; simp
    · by_cases h2 : x = s.next_root + 1
      · subst h2; simp
      · simp [Function.update_noteq h1, Function.update_noteq h2]
  · rw [nr6, nr5, nr4, nr3, r2nr]
  · rw [ni6, ni5, ni4, ni3, r2ni]
  · intro hdc
    have htr : S4.trace = s.trace := by rw [t4, t3, r2t]
    have hU : ∀ x, x ∉ U5 ∧ x ∉ U6 := by
      intro x
      have h5 := dc5 x
      have h6 := dc6 x
      have h0 := hdc x
      rw [htr] at h5
      by_cases m5 : x ∈ U5 <;> by_cases m6 : x ∈ U6 <;> simp [m5, m6] at h5 h6 ⊢ <;> omega
    have hU5 : U5 = [] := List.eq_nil_iff_forall_not_mem.2 (fun x => (hU x).1)
    have hU6 : U6 = [] := List.eq_nil_iff_forall_not_mem.2 (fun x => (hU x).2)
    obtain ⟨i5, b5, t5, q5⟩ := k5 hU5
    obtain ⟨i6, b6, t6, q6⟩ := k6 hU6
    refine ⟨?_, ?_, ?_, fun x => ?_⟩
    · rw [i6, i5, i4, i3, r2i]
    · rw [b6, b5, b4, b3, r2b]
    · rw [t6, t5, htr]
    · exact (q6 x).trans ((q5 x).trans ((q4 x).trans ((q3 x).trans ((q2 x).trans (q1 x)))))

theorem reachable_rooted_chain : reachable rooted_chain_heap := ⟨rooted_chain_program, rfl⟩

/-- C19 (counterexample): in `chain3_heap` the root of node 0 is the only one, the handle 0 of
node 0 has the live node 1 as its target and the handle 1 of node 1 the live node 2.  The
swap of the two handles returns, and it has destroyed the payload of node 1, which after the
exchange is the target of its own handle only; the handle 1 is gone with it. -/
theorem C19_counterexample :
    reachable chain3_heap ∧
    chain3_heap.iptrs 0 = some ⟨0, some 1, some 1⟩ ∧
    chain3_heap.iptrs 1 = some ⟨1, some 2, some 2⟩ ∧
    (chain3_heap.headers 1).isSome = true ∧ (chain3_heap.headers 2).isSome = true ∧
    destroy_count chain3_heap.trace 1 = 0 ∧
    (internal_ptr_swap 0 1 chain3_heap).map (fun s1 => destroy_count s1.trace 1) = some 1 ∧
    (internal_ptr_swap 0 1 chain3_heap).map (fun s1 => (s1.headers 1).isSome) = some false ∧
    (internal_ptr_swap 0 1 chain3_heap).map (fun s1 => (s1.iptrs 1).isSome) = some false ∧
    ¬ ∃ s1, internal_ptr_swap 0 1 chain3_heap = some s1 ∧
        ∀ x, destroy_count s1.trace x = destroy_count chain3_heap.trace x := by
  have h1 : (internal_ptr_swap 0 1 chain3_heap).map (fun s1 => destroy_count s1.trace 1) =
      some 1 := by decide!
  refine ⟨⟨chain3_program, rfl⟩, rfl, rfl, rfl, rfl, by decide, h1, by decide!, by decide!, ?_⟩
  rintro ⟨s1, e, hx⟩
  rw [e] at h1
  have h2 := hx 1
  rw [show destroy_count chain3_heap.trace 1 = 0 by decide] at h2
  simp only [Option.map_some'] at h1
  rw [h2] at h1
  cases h1

/-- C19 (amended): in a heap reachable through the public handle operations, `a.swap(b)`
between two `internal_ptr` handles returns (in a heap that is reachable again), and when it
has destroyed no payload, then: `a.get()` returns what `b.get()` returned before and
`b.get()` what `a.get()` returned, each of the two handles is registered with the
`internal_base` it was registered with and has the former target of the other, the table of
the `internal_base` objects (with their lists of registered handles) is the same, the same
header blocks are live, and `owner_count` and `internal_count` of every header block are the
same as before. -/
theorem C19_swap {s : Heap} (h : reachable s) (a b : Nat) (ia ib : internal_ptr)
    (ha : s.iptrs a = some ia) (hb : s.iptrs b = some ib) :
    ∃ s1, internal_ptr_swap a b s = some s1 ∧ reachable s1 ∧
      ((∀ x, destroy_count s1.trace x = destroy_count s.trace x) →
        internal_ptr_get s1 a = internal_ptr_get s b ∧
        internal_ptr_get s1 b = internal_ptr_get s a ∧
        (∃ ia1 ib1, s1.iptrs a = some ia1 ∧ ia1.base = ia.base ∧ ia1.header = ib.header ∧
          s1.iptrs b = some ib1 ∧ ib1.base = ib.base ∧ ib1.header = ia.header) ∧
        s1.bases = s.bases ∧
        (∀ x, s1.headers x = none ↔ s.headers x = none) ∧
        ∀ x hd hd1, s.headers x = some hd → s1.headers x = some hd1 →
          hd1.owner_count = hd.owner_count ∧ hd1.internal_count = hd.internal_count) := by
  have hg := (sound_of_reachable h).good0
  obtain ⟨s6, hrun, g6, ro6, nr6, ni6, hq⟩ := swap_tables hg ha hb
  refine ⟨s6, hrun, reachable_run h (by rw [← internal_ptr_swap_run]; exact hrun), ?_⟩
  intro hdc
  obtain ⟨i6, b6, _, q6⟩ := hq hdc
  have hpa : s6.iptrs a = some ⟨ia.base, ib.header, ib.ptr⟩ := by rw [i6]; simp
  have hpb : ∃ ib1, s6.iptrs b = some ib1 ∧ ib1.base = ib.base ∧ ib1.header = ia.header ∧
      ib1.ptr = ia.ptr := by
    by_cases hab : a = b
    · subst hab
      rw [ha] at hb; cases hb
      exact ⟨_, hpa, rfl, rfl, rfl⟩
    · refine ⟨⟨ib.base, ia.header, ia.ptr⟩, ?_, rfl, rfl, rfl⟩
      rw [i6, Function.update_noteq (fun e => hab e.symm)]; simp
  obtain ⟨ib1, hpb1, hb1, hb2, hb3⟩ := hpb
  refine ⟨?_, ?_, ⟨_, ib1, hpa, rfl, rfl, hpb1, hb1, hb2⟩, b6, q6, ?_⟩
  · rw [get_of_good g6 hpa, get_of_good hg hb]
  · rw [get_of_good g6 hpb1, get_of_good hg ha, hb2, hb3]
  · intro x hd hd1 hx hx1
    have o1 := g6.inv0.core.owner_count_eq x hd1 hx1
    have o0 := hg.inv0.core.owner_count_eq x hd hx
    have c1 := g6.inv0.core.internal_count_eq x hd1 hx1
    have c0 := hg.inv0.core.internal_count_eq x hd hx
    have hroot : root_count s6 none x = root_count s none x := by
      unfold root_count
      rw [nr6, count_upto_succ, count_upto_succ]
      have z1 : root_targets s6 none x s.next_root = false := by
        unfold root_targets
        rw [ro6, Function.update_noteq (by omega)]; simp
      have z2 : root_targets s6 none x (s.next_root + 1) = false := by
        unfold root_targets
        rw [ro6]; simp
      rw [z1, z2]
      simp only [Bool.false_eq_true, if_false, Nat.add_zero]
      apply count_upto_congr
      intro i hi
      unfold root_targets
      rw [ro6, Function.update_noteq (by omega), Function.update_noteq (by omega)]
    have hiptr : iptr_count s6 none x = iptr_count s none x := by
      unfold iptr_count
      rw [ni6]
      by_cases hab : a = b
      · subst hab
        rw [ha] at hb; cases hb
        have e : s6.iptrs = s.iptrs := by
          rw [i6]; simp only [Function.update_idem]
          have : (⟨ia.base, ia.header, ia.ptr⟩ : internal_ptr) = ia := by cases ia; rfl
          rw [this, ← ha, Function.update_eq_self]
        apply count_upto_congr
        intro i _
        unfold iptr_targets
        rw [e]
      · apply count_upto_two (hg.inv0.core.iptr_lt a ia ha) (hg.inv0.core.iptr_lt b ib hb) hab
        · intro i h1 h2
          unfold iptr_targets
          rw [i6, Function.update_noteq h1, Function.update_noteq h2]
        · have v1 : iptr_targets s6 none x a = decide (ib.header = some x) := by
            unfold iptr_targets; rw [hpa]; simp
          have v2 : iptr_targets s6 none x b = decide (ia.header = some x) := by
            unfold iptr_targets; rw [hpb1]; simp [hb2]
          have v3 : iptr_targets s none x a = decide (ia.header = some x) := by
            unfold iptr_targets; rw [ha]; simp
          have v4 : iptr_targets s none x b = decide (ib.header = some x) := by
            unfold iptr_targets; rw [hb]; simp
          rw [v1, v2, v3, v4]
          omega
    omega

/-- C19 (witness): the swap of the handles of the nodes 0 and 1 in `rooted_chain_heap`, where
every node is shared by a `root_ptr`. -/
theorem C19_witness :
    reachable rooted_chain_heap ∧
    rooted_chain_heap.iptrs 0 = some ⟨0, some 1, some 1⟩ ∧
    rooted_chain_heap.iptrs 1 = some ⟨1, some 2, some 2⟩ ∧
    ∃ s1, internal_ptr_swap 0 1 rooted_chain_heap = some s1 ∧ reachable s1 :=
  ⟨reachable_rooted_chain, rfl, rfl,
    (by
      obtain ⟨s1, e, r, _⟩ := C19_swap reachable_rooted_chain 0 1 ⟨0, some 1, some 1⟩
        ⟨1, some 2, some 2⟩ rfl rfl
      exact ⟨s1, e, r⟩)⟩

theorem released_edge {s : Heap} (N : Nat) {x y : Nat} (he : bp_edge s x y) :
    bp_edge (s.released N) x y := by
  obtain ⟨hd, hx, hy⟩ := he
  unfold Heap.released
  cases hN : s.headers N with
  | none => exact ⟨hd, hx, hy⟩
  | some hdN =>
    simp only
    by_cases e : x = N
    · subst e
      rw [hN] at hx; cases hx
      exact ⟨{ hd with owner_count := dec hd.owner_count,
                       internal_count := dec hd.internal_count },
        by simp [Heap.set_header], hy⟩
    · exact ⟨hd, by simp [Heap.set_header, Function.update_noteq e, hx], hy⟩

theorem released_owned {s : Heap} {N z : Nat} (ho : owned_at s z) (hne : z ≠ N) :
    owned_at (s.released N) z := by
  obtain ⟨hd, hz, hy⟩ := ho
  unfold Heap.released
  cases hN : s.headers N with
  | none => exact ⟨hd, hz, hy⟩
  | some hdN =>
    exact ⟨hd, by simp [Heap.set_header, Function.update_noteq hne, hz], hy⟩

/-- When every target of the handles held by the payload of `N` keeps an owner once the
counters of `N` are decremented, every other live header keeps one. -/
theorem leaf_others_owned {s : Heap} (hg : good s) {N : Nat}
    (hlive : ∀ p ip base T, s.iptrs p = some ip → s.bases ip.base = some base →
      base.self_header = some N → ip.header = some T → has_owner (s.released N) T) :
    ∀ x hd, x ≠ N → s.headers x = some hd → has_owner (s.released N) x := by
  have key : ∀ x z, bp_path s x z → owned_at s z → x ≠ N → has_owner (s.released N) x := by
    intro x z hp
    induction hp using Relation.ReflTransGen.head_induction_on with
    | refl => intro ho hne; exact has_owner_of_owned (released_owned ho hne)
    | @head a c he _ ih =>
      intro ho hne
      by_cases hc : c = N
      · subst hc
        obtain ⟨hd, hx, hP⟩ := he
        obtain ⟨q, iq, base, h1, _, h3, h4, h5, _⟩ := handle_of_bp hg.inv0.core hx hP
        exact hlive q iq base a h1 h4 h5 h3
      · exact has_owner_of_edge (released_edge N he) (ih ho hc)
  intro x hd hne hx
  obtain ⟨z, hp, ho⟩ := hg.owned x hd hx
  exact key x z hp ho hne

theorem eq_singleton_of_nodup {U : List Nat} {N : Nat} (hnd : U.Nodup)
    (h : ∀ x, x ∈ U ↔ x = N) : U = [N] := by
  have : U.Perm [N] :=
    (List.perm_ext_iff_of_nodup hnd (List.nodup_singleton N)).2 (fun x => by simp [h x])
  exact List.perm_singleton.1 this

theorem held_of_mem {s : Heap} (hg : good s) {N q : Nat} {hdN : root_ptr_header_block_base}
    (hT : s.headers N = some hdN) (hq : q ∈ payload_handles s N) :
    ∃ iq base, s.iptrs q = some iq ∧ s.bases iq.base = some base ∧
      base.self_header = some N ∧ hdN.get_internal_base = some iq.base := by
  obtain ⟨hd, b, base, h1, h2, h3, h4⟩ := mem_payload_handles.1 hq
  rw [hT] at h1; cases h1
  obtain ⟨iq, e1, e2⟩ := hg.inv0.core.ptr_of_base b base h3 q h4
  obtain ⟨base1, f1, f2⟩ := hg.inv0.header_base N hdN b hT (by simp) h2
  subst e2
  exact ⟨iq, base1, e1, f1, f2, h2⟩

theorem mem_of_gib {s : Heap} (hg : good s) {N q : Nat} {hdN : root_ptr_header_block_base}
    {iq : internal_ptr} (hT : s.headers N = some hdN) (hq : s.iptrs q = some iq)
    (hb : hdN.get_internal_base = some iq.base) : q ∈ payload_handles s N := by
  obtain ⟨base1, f1, f2⟩ := hg.inv0.core.base_of_ptr q iq hq (by simp)
  exact mem_payload_handles.2 ⟨hdN, iq.base, base1, hT, hb, f1, f2⟩

theorem mem_of_held {s : Heap} (hg : good s) {N q : Nat} {iq : internal_ptr}
    {base : internal_base} (hq : s.iptrs q = some iq) (hb : s.bases iq.base = some base)
    (hsh : base.self_header = some N) : q ∈ payload_handles s N := by
  obtain ⟨hd, e1, e2⟩ := hg.inv0.core.header_of_base iq.base base N hb hsh
  exact mem_of_gib hg e1 hq e2

/-- The tables after the release of the last `root_ptr` of a header `N` that no handle has
as its target, when every target of the handles of its payload keeps an owner: the payload of
`N` is the only one destroyed, the handles registered with it go away with it. -/
theorem leaf_tables {s : Heap} (h : reachable s) {r N : Nat} {rp : root_ptr}
    (hr : s.roots r = some rp) (hh : rp.header = some N)
    (honly : ∀ r1 rp1, s.roots r1 = some rp1 → rp1.header = some N → r1 = r)
    (hnone : ∀ p ip, s.iptrs p = some ip → ip.header ≠ some N)
    (hlive : ∀ p ip base T, s.iptrs p = some ip → s.bases ip.base = some base →
      base.self_header = some N → ip.header = some T → has_owner (s.released N) T)
    (byreset : Bool) :
    ∃ s1, Op.apply (if byreset then Op.root_reset r else Op.root_dtor r) s = some s1 ∧
      sound s1 ∧ s1.headers N = none ∧ destroy_count s.trace N = 0 ∧
      destroy_count s1.trace N = 1 ∧
      (∀ x hd, x ≠ N → s.headers x = some hd →
        (∃ hd1, s1.headers x = some hd1) ∧ destroy_count s1.trace x = 0) ∧
      (∀ q, q ∈ payload_handles s N → s1.iptrs q = none) ∧
      (∀ q, q ∉ payload_handles s N → s1.iptrs q = s.iptrs q) ∧
      (∀ bb hdN, s.headers N = some hdN → hdN.get_internal_base ≠ some bb →
        s1.bases bb = s.bases bb) ∧
      (∀ r2, r2 ≠ r → s1.roots r2 = s.roots r2) ∧
      (∀ v, s1.roots r = some v → v.header = none) ∧
      s1.next_root = s.next_root ∧ s1.next_iptr = s.next_iptr := by
  have hs := sound_of_reachable h
  have hg := hs.good0
  obtain ⟨hdN, hT⟩ := hg.inv0.core.root_target_live r rp N hr (by simp) hh
  obtain ⟨s1, happly, c1, c2, c3, c4, _, c6⟩ := sole_root_release h hr hh honly hnone byreset
  obtain ⟨mb, mr, mi, _, _⟩ := released_rest s N
  obtain ⟨mn1, mn2⟩ := released_next s N
  obtain ⟨_, _, mq⟩ := released_quiet s N
  have hlm : ∀ x hd, s.headers x = some hd → ∃ hd1, (s.released N).headers x = some hd1 := by
    intro x hd hx
    cases h2 : (s.released N).headers x with
    | some hd2 => exact ⟨hd2, rfl⟩
    | none => rw [(mq _).1 h2] at hx; cases hx
  have hothers := leaf_others_owned hg hlive
  have hTm : (s.released N).headers N = some { hdN with
      owner_count := dec hdN.owner_count, internal_count := dec hdN.internal_count } := by
    unfold Heap.released; rw [hT]; simp [Heap.set_header]
  have hres : ∃ v : Option root_ptr, (∀ w, v = some w → w.header = none) ∧
      release_result s r rp v s1 := by
    cases byreset with
    | true =>
      obtain ⟨s2, b1, _, b3⟩ := root_ptr_reset_ok hg hr
      have e : some s1 = some s2 := happly.symm.trans b1
      cases e
      exact ⟨some ⟨none, none⟩, fun w hw => (by cases hw; rfl), b3⟩
    | false =>
      obtain ⟨s2, b1, _, b3⟩ := root_ptr_dtor_ok hg hr
      have e : some s1 = some s2 := happly.symm.trans b1
      cases e
      exact ⟨none, fun w hw => (by cases hw), b3⟩
  obtain ⟨v, hv, hrel⟩ := hres
  unfold release_result at hrel
  rw [hh] at hrel; simp only at hrel
  obtain ⟨U, s2, _, e2, d⟩ := hrel
  have hex := dec_result_exact d
  have hU : U = [N] := by
    apply eq_singleton_of_nodup d.nodup
    intro x
    constructor
    · intro hx
      by_contra hne
      obtain ⟨⟨hd, hxl⟩, hno⟩ := (hex x).1 hx
      cases hx0 : s.headers x with
      | none => rw [(mq x).2 hx0] at hxl; cases hxl
      | some hd0 => exact hno (hothers x hd0 hne hx0)
    · rintro rfl
      by_contra hx
      obtain ⟨hd1, f1, _⟩ := d.col.kept x _ hx hTm
      have : s1.headers x = some hd1 := by rw [e2]; exact f1
      rw [c1] at this; cases this
  subst hU
  have hph : payload_handles (s.released N) N = payload_handles s N :=
    payload_handles_congr hT hTm rfl mb
  refine ⟨s1, happly, c4, c1, c2, c3, ?_, ?_, ?_, ?_, ?_, ?_, ?_, ?_⟩
  · intro x hd hne hx
    exact c6 x (hlm x hd hx) (hothers x hd hne hx)
  · intro q hq
    rw [e2]
    show s2.iptrs q = none
    exact d.col.iptrs_gone N (by simp) q (by rw [hph]; exact hq)
  · intro q hq
    rw [e2]
    show s2.iptrs q = _
    rw [d.col.iptrs_kept q (fun u hu => by
      simp only [List.mem_singleton] at hu
      subst hu; rw [hph]; exact hq), mi]
  · intro bb hdN1 hN1 hne
    rw [hT] at hN1; cases hN1
    rw [e2]
    show s2.bases bb = _
    rw [d.col.bases_kept bb (fun u hu hd hd0 => by
      simp only [List.mem_singleton] at hu
      subst hu
      rw [hTm] at hd0; cases hd0
      exact hne), mb]
  · intro r2 hne
    rw [e2]
    show Function.update s2.roots r v r2 = _
    rw [Function.update_noteq hne, d.col.roots, mr]
  · intro w hw
    rw [e2] at hw
    have : Function.update s2.roots r v r = some w := hw
    rw [Function.update_same] at this
    exact hv w this
  · rw [e2]
    show s2.next_root = _
    rw [d.col.next_root, mn1]
  · rw [e2]
    show s2.next_iptr = _
    rw [d.col.next_iptr, mn2]

/-- The three counters of a handle that is not held by the payload of `N`, after the release
of `N` that `leaf_tables` describes: the handle and the `internal_base` holding it are as
before. -/
theorem kept_handle_counts {s s1 : Heap} (hg : good s) {N q : Nat}
    {hdN : root_ptr_header_block_base} (hT : s.headers N = some hdN)
    (hq : q ∉ payload_handles s N) (hi : s1.iptrs q = s.iptrs q)
    (hb : ∀ bb, hdN.get_internal_base ≠ some bb → s1.bases bb = s.bases bb) (T P : Nat) :
    iptr_targets s1 none T q = iptr_targets s none T q ∧
    iptr_targets_from s1 none T P q = iptr_targets_from s none T P q ∧
    iptr_targets_bound s1 none T q = iptr_targets_bound s none T q := by
  unfold iptr_targets_from iptr_targets_bound iptr_targets
  rw [hi]
  cases hq0 : s.iptrs q with
  | none => exact ⟨rfl, rfl, rfl⟩
  | some iq =>
    have e := hb iq.base (fun e => hq (mem_of_gib hg hT hq0 e))
    simp only [e, and_self]

/-- A handle that is not held by the payload of `N` is not counted among the handles of
`N`. -/
theorem from_false_of_not_mem {s : Heap} (hg : good s) {N q : Nat}
    (hq : q ∉ payload_handles s N) (T : Nat) : iptr_targets_from s none T N q = false := by
  unfold iptr_targets_from
  cases hq0 : s.iptrs q with
  | none => simp
  | some iq =>
    simp only
    cases hb0 : s.bases iq.base with
    | none => simp
    | some base =>
      simp only
      by_cases e : base.self_header = some N
      · exact absurd (mem_of_held hg hq0 hb0 e) hq
      · simp [e]

/-- A handle held by the payload of `N`: it is counted among the handles of `N` and among the
handles whose holder has a header, whenever it is counted at all, and it is counted for no
other holder. -/
theorem from_eq_of_mem {s : Heap} (hg : good s) {N q : Nat}
    {hdN : root_ptr_header_block_base} (hT : s.headers N = some hdN)
    (hq : q ∈ payload_handles s N) (T : Nat) :
    iptr_targets_from s none T N q = iptr_targets s none T q ∧
    iptr_targets_bound s none T q = iptr_targets s none T q ∧
    ∀ P, P ≠ N → iptr_targets_from s none T P q = false := by
  obtain ⟨iq, base, h1, h2, h3, _⟩ := held_of_mem hg hT hq
  unfold iptr_targets_from iptr_targets_bound
  rw [h1]; simp only; rw [h2]; simp only; rw [h3]
  refine ⟨by simp, by simp, fun P hP => ?_⟩
  have : ¬ (some N = some P) := fun e => hP (Option.some.inj e).symm
  simp [this]

/-- A handle that is gone is counted nowhere. -/
theorem gone_handle_counts {s1 : Heap} {q : Nat} (hq : s1.iptrs q = none) (T P : Nat) :
    iptr_targets s1 none T q = false ∧ iptr_targets_from s1 none T P q = false ∧
    iptr_targets_bound s1 none T q = false := by
  unfold iptr_targets_from iptr_targets_bound iptr_targets
  rw [hq]; simp

theorem released_gib {s : Heap} {N u : Nat} {hdm : root_ptr_header_block_base}
    (h : (s.released N).headers u = some hdm) :
    ∃ hd, s.headers u = some hd ∧ hd.get_internal_base = hdm.get_internal_base := by
  unfold Heap.released at h
  cases hN : s.headers N with
  | none => rw [hN] at h; exact ⟨hdm, h, rfl⟩
  | some hdN =>
    rw [hN] at h
    simp only [Heap.set_header] at h
    by_cases e : u = N
    · subst e
      rw [Function.update_same] at h
      cases h
      exact ⟨hdN, hN, rfl⟩
    · rw [Function.update_noteq e] at h
      exact ⟨hdm, h, rfl⟩

theorem payload_handles_released (s : Heap) (N u : Nat) :
    payload_handles (s.released N) u = payload_handles s u := by
  have hb : (s.released N).bases = s.bases := (released_rest s N).1
  cases hm : (s.released N).headers u with
  | none =>
    have h0 : s.headers u = none := ((released_quiet s N).2.2 u).1 hm
    unfold payload_handles
    rw [hm, h0]
  | some hdm =>
    obtain ⟨hd, h1, h2⟩ := released_gib hm
    exact payload_handles_congr h1 hm h2.symm hb

/-- The three counters of a handle that is as before, and so is the `internal_base` that
holds it. -/
theorem kept_counts_of_tables {s s1 : Heap} {q : Nat} (hi : s1.iptrs q = s.iptrs q)
    (hb : ∀ iq, s.iptrs q = some iq → s1.bases iq.base = s.bases iq.base) (T P : Nat) :
    iptr_targets s1 none T q = iptr_targets s none T q ∧
    iptr_targets_from s1 none T P q = iptr_targets_from s none T P q ∧
    iptr_targets_bound s1 none T q = iptr_targets_bound s none T q := by
  unfold iptr_targets_from iptr_targets_bound iptr_targets
  rw [hi]
  cases hq0 : s.iptrs q with
  | none => exact ⟨rfl, rfl, rfl⟩
  | some iq =>
    have e := hb iq hq0
    simp only [e, and_self]

theorem any_payload_iff (s : Heap) (U : List Nat) (q : Nat) :
    U.any (fun u => decide (q ∈ payload_handles s u)) = true ↔
      ∃ u, u ∈ U ∧ q ∈ payload_handles s u := by
  simp [List.any_eq_true]

/-- The release of the only `root_ptr` of a header `N` that no `internal_ptr` has as its
target: the set `U` of the headers collected and what the call does to the tables. -/
theorem release_tables {s : Heap} (h : reachable s) {r N : Nat} {rp : root_ptr}
    (hr : s.roots r = some rp) (hh : rp.header = some N)
    (honly : ∀ r1 rp1, s.roots r1 = some rp1 → rp1.header = some N → r1 = r)
    (hnone : ∀ p ip, s.iptrs p = some ip → ip.header ≠ some N) (byreset : Bool) :
    ∃ (s1 : Heap) (U : List Nat),
      Op.apply (if byreset then Op.root_reset r else Op.root_dtor r) s = some s1 ∧
      sound s1 ∧ s1.headers N = none ∧ destroy_count s.trace N = 0 ∧
      destroy_count s1.trace N = 1 ∧ U.Nodup ∧ N ∈ U ∧
      (∀ x, x ∈ U ↔ (∃ hd, s.headers x = some hd) ∧ ¬ has_owner (s.released N) x) ∧
      (∀ u ∈ U, s1.headers u = none ∧ destroy_count s1.trace u = 1) ∧
      (∀ x hd, s.headers x = some hd → has_owner (s.released N) x →
        (∃ hd1, s1.headers x = some hd1) ∧ destroy_count s1.trace x = 0) ∧
      (∀ u ∈ U, ∀ q ∈ payload_handles s u, s1.iptrs q = none) ∧
      (∀ q, (∀ u ∈ U, q ∉ payload_handles s u) → s1.iptrs q = s.iptrs q) ∧
      (∀ bb, (∀ u ∈ U, ∀ hd, s.headers u = some hd → hd.get_internal_base ≠ some bb) →
        s1.bases bb = s.bases bb) ∧
      (∀ r2, r2 ≠ r → s1.roots r2 = s.roots r2) ∧
      (∀ v, s1.roots r = some v → v.header = none) ∧
      s1.next_root = s.next_root ∧ s1.next_iptr = s.next_iptr := by
  have hs := sound_of_reachable h
  have hg := hs.good0
  obtain ⟨hdN, hT⟩ := hg.inv0.core.root_target_live r rp N hr (by simp) hh
  obtain ⟨s1, happly, c1, c2, c3, c4, c5, c6⟩ :=
    sole_root_release h hr hh honly hnone byreset
  obtain ⟨mb, mr, mi, _, _⟩ := released_rest s N
  obtain ⟨mn1, mn2⟩ := released_next s N
  obtain ⟨_, _, mq⟩ := released_quiet s N
  have hlm : ∀ x hd, s.headers x = some hd → ∃ hd1, (s.released N).headers x = some hd1 := by
    intro x hd hx
    cases h2 : (s.released N).headers x with
    | some hd2 => exact ⟨hd2, rfl⟩
    | none => rw [(mq _).1 h2] at hx; cases hx
  have hml : ∀ x hd, (s.released N).headers x = some hd → ∃ hd1, s.headers x = some hd1 := by
    intro x hd hx
    cases h2 : s.headers x with
    | some hd2 => exact ⟨hd2, rfl⟩
    | none => rw [(mq _).2 h2] at hx; cases hx
  have hres : ∃ v : Option root_ptr, (∀ w, v = some w → w.header = none) ∧
      release_result s r rp v s1 := by
    cases byreset with
    | true =>
      obtain ⟨s2, b1, _, b3⟩ := root_ptr_reset_ok hg hr
      have e : some s1 = some s2 := happly.symm.trans b1
      cases e
      exact ⟨some ⟨none, none⟩, fun w hw => (by cases hw; rfl), b3⟩
    | false =>
      obtain ⟨s2, b1, _, b3⟩ := root_ptr_dtor_ok hg hr
      have e : some s1 = some s2 := happly.symm.trans b1
      cases e
      exact ⟨none, fun w hw => (by cases hw), b3⟩
  obtain ⟨v, hv, hrel⟩ := hres
  unfold release_result at hrel
  rw [hh] at hrel; simp only at hrel
  obtain ⟨U, s2, _, e2, d⟩ := hrel
  have hex := dec_result_exact d
  have hmem : ∀ x, x ∈ U ↔ (∃ hd, s.headers x = some hd) ∧ ¬ has_owner (s.released N) x := by
    intro x
    rw [hex x]
    constructor
    · rintro ⟨⟨hd, hx⟩, hno⟩
      exact ⟨hml x hd hx, hno⟩
    · rintro ⟨⟨hd, hx⟩, hno⟩
      exact ⟨hlm x hd hx, hno⟩
  have hNU : N ∈ U := by
    by_contra hx
    obtain ⟨hdm, hm⟩ := hlm N hdN hT
    obtain ⟨hd1, f1, _⟩ := d.col.kept N hdm hx hm
    have : s1.headers N = some hd1 := by rw [e2]; exact f1
    rw [c1] at this; cases this
  refine ⟨s1, U, happly, c4, c1, c2, c3, d.nodup, hNU, hmem, ?_, ?_, ?_, ?_, ?_, ?_, ?_, ?_, ?_⟩
  · intro u hu
    obtain ⟨⟨hd, hx⟩, hno⟩ := (hmem u).1 hu
    exact c5 u (hlm u hd hx) hno
  · intro x hd hx ho
    exact c6 x (hlm x hd hx) ho
  · intro u hu q hq
    rw [e2]
    show s2.iptrs q = none
    exact d.col.iptrs_gone u hu q (by rw [payload_handles_released]; exact hq)
  · intro q hq
    rw [e2]
    show s2.iptrs q = _
    rw [d.col.iptrs_kept q (fun u hu => by rw [payload_handles_released]; exact hq u hu), mi]
  · intro bb hbb
    rw [e2]
    show s2.bases bb = _
    rw [d.col.bases_kept bb (fun u hu hdm hm => by
      obtain ⟨hd, h1, h2⟩ := released_gib hm
      rw [← h2]
      exact hbb u hu hd h1), mb]
  · intro r2 hne
    rw [e2]
    show Function.update s2.roots r v r2 = _
    rw [Function.update_noteq hne, d.col.roots, mr]
  · intro w hw
    rw [e2] at hw
    have : Function.update s2.roots r v r = some w := hw
    rw [Function.update_same] at this
    exact hv w this
  · rw [e2]
    show s2.next_root = _
    rw [d.col.next_root, mn1]
  · rw [e2]
    show s2.next_iptr = _
    rw [d.col.next_iptr, mn2]

/-- The counters of a surviving header `T` after a collection of the set `U` that the tables
describe: what the handles of the collected payloads contributed is gone, the rest is as
before. -/
theorem collected_counts {s s1 : Heap} (hg : good s) (g1 : good s1) {U : List Nat}
    (hlive : ∀ u ∈ U, ∃ hd, s.headers u = some hd)
    (hfreed : ∀ u ∈ U, s1.headers u = none)
    (igone : ∀ u ∈ U, ∀ q ∈ payload_handles s u, s1.iptrs q = none)
    (ikept : ∀ q, (∀ u ∈ U, q ∉ payload_handles s u) → s1.iptrs q = s.iptrs q)
    (bkept : ∀ bb, (∀ u ∈ U, ∀ hd, s.headers u = some hd → hd.get_internal_base ≠ some bb) →
      s1.bases bb = s.bases bb)
    (ni : s1.next_iptr = s.next_iptr)
    {T : Nat} {hd hd1 : root_ptr_header_block_base}
    (hx : s.headers T = some hd) (hx1 : s1.headers T = some hd1)
    (hroot : root_count s1 none T = root_count s none T) :
    hd1.internal_count + iptr_count_in s T U = hd.internal_count ∧
    (∀ P ∈ U, hd.back_pointers.count P = iptr_count_from s none T P ∧
      hd1.back_pointers.count P = 0) ∧
    (∀ P, P ∉ U → hd1.back_pointers.count P = hd.back_pointers.count P) ∧
    hd1.back_pointers.length + iptr_count_in s T U = hd.back_pointers.length ∧
    hd1.owner_count = hd.owner_count ∧ hd1.unreachable = hd.unreachable ∧
    hd1.deleted = hd.deleted := by
  have hkept : ∀ q, (¬ ∃ u, u ∈ U ∧ q ∈ payload_handles s u) → ∀ P,
      iptr_targets s1 none T q = iptr_targets s none T q ∧
      iptr_targets_from s1 none T P q = iptr_targets_from s none T P q ∧
      iptr_targets_bound s1 none T q = iptr_targets_bound s none T q := by
    intro q hq P
    apply kept_counts_of_tables (ikept q (fun u hu hm => hq ⟨u, hu, hm⟩))
    intro iq hq0
    apply bkept
    intro u hu hdu hu1 e
    exact hq ⟨u, hu, mem_of_gib hg hu1 hq0 e⟩
  have hgone : ∀ q, (∃ u, u ∈ U ∧ q ∈ payload_handles s u) → ∀ P,
      iptr_targets s1 none T q = false ∧ iptr_targets_from s1 none T P q = false ∧
      iptr_targets_bound s1 none T q = false := by
    rintro q ⟨u, hu, hm⟩ P
    exact gone_handle_counts (igone u hu q hm) T P
  have hany := any_payload_iff s U
  have hanyf : ∀ q, (¬ ∃ u, u ∈ U ∧ q ∈ payload_handles s u) →
      U.any (fun u => decide (q ∈ payload_handles s u)) = false := by
    intro q hq
    cases hc : U.any (fun u => decide (q ∈ payload_handles s u)) with
    | false => rfl
    | true => exact absurd ((hany q).1 hc) hq
  have hiptr : iptr_count s none T = iptr_count s1 none T + iptr_count_in s T U := by
    unfold iptr_count iptr_count_in
    rw [ni, ← count_upto_or (fun q h1 h2 => by
      simp only [Bool.and_eq_true] at h2
      rw [(hgone q ((hany q).1 h2.2) T).1] at h1; cases h1)]
    apply count_upto_congr
    intro q _
    by_cases hq : ∃ u, u ∈ U ∧ q ∈ payload_handles s u
    · rw [(hgone q hq T).1, (hany q).2 hq]; simp
    · rw [(hkept q hq T).1, hanyf q hq]; simp
  have hbound : iptr_count_bound s none T =
      iptr_count_bound s1 none T + iptr_count_in s T U := by
    unfold iptr_count_bound iptr_count_in
    rw [ni, ← count_upto_or (fun q h1 h2 => by
      simp only [Bool.and_eq_true] at h2
      rw [(hgone q ((hany q).1 h2.2) T).2.2] at h1; cases h1)]
    apply count_upto_congr
    intro q _
    by_cases hq : ∃ u, u ∈ U ∧ q ∈ payload_handles s u
    · obtain ⟨u, hu, hm⟩ := hq
      obtain ⟨hdu, hu1⟩ := hlive u hu
      rw [(hgone q ⟨u, hu, hm⟩ T).2.2, (hany q).2 ⟨u, hu, hm⟩,
        (from_eq_of_mem hg hu1 hm T).2.1]; simp
    · rw [(hkept q hq T).2.2, hanyf q hq]; simp
  have hfromU : ∀ P ∈ U, iptr_count_from s1 none T P = 0 := by
    intro P hP
    unfold iptr_count_from
    apply count_upto_zero
    intro q _
    unfold iptr_targets_from
    cases hq0 : s1.iptrs q with
    | none => simp
    | some iq =>
      simp only
      cases hb0 : s1.bases iq.base with
      | none => simp
      | some base =>
        simp only
        by_cases e : base.self_header = some P
        · obtain ⟨hd2, e1, _⟩ := g1.inv0.core.header_of_base iq.base base P hb0 e
          rw [hfreed P hP] at e1; cases e1
        · simp [e]
  have hfromP : ∀ P, P ∉ U → iptr_count_from s1 none T P = iptr_count_from s none T P := by
    intro P hP
    unfold iptr_count_from
    rw [ni]
    apply count_upto_congr
    intro q _
    by_cases hq : ∃ u, u ∈ U ∧ q ∈ payload_handles s u
    · obtain ⟨u, hu, hm⟩ := hq
      obtain ⟨hdu, hu1⟩ := hlive u hu
      have hne : P ≠ u := fun e => hP (e ▸ hu)
      rw [(hgone q ⟨u, hu, hm⟩ P).2.1, (from_eq_of_mem hg hu1 hm T).2.2 P hne]
    · exact (hkept q hq P).2.1
  have o1 := g1.inv0.core.owner_count_eq T hd1 hx1
  have o0 := hg.inv0.core.owner_count_eq T hd hx
  have i1 := g1.inv0.core.internal_count_eq T hd1 hx1
  have i0 := hg.inv0.core.internal_count_eq T hd hx
  have l1 := g1.inv0.core.bp_length T hd1 hx1
  have l0 := hg.inv0.core.bp_length T hd hx
  have f1 := g1.inv0.flags T hd1 hx1 (by simp)
  have f0 := hg.inv0.flags T hd hx (by simp)
  refine ⟨by omega, ?_, ?_, by omega, by omega, by rw [f1.1, f0.1], by rw [f1.2, f0.2]⟩
  · intro P hP
    exact ⟨hg.inv0.core.bp_count T hd hx P,
      by rw [g1.inv0.core.bp_count T hd1 hx1 P, hfromU P hP]⟩
  · intro P hP
    rw [g1.inv0.core.bp_count T hd1 hx1 P, hg.inv0.core.bp_count T hd hx P, hfromP P hP]

/-- When no member of `U` other than `N` holds a handle whose target is `T`, the handles of
the payloads of `U` with target `T` are those of the payload of `N`. -/
theorem iptr_count_in_single {s : Heap} (hg : good s) {U : List Nat} {N T : Nat}
    (hlive : ∀ u ∈ U, ∃ hd, s.headers u = some hd) (hN : N ∈ U)
    (h0 : ∀ u ∈ U, u ≠ N → iptr_count_from s none T u = 0) :
    iptr_count_in s T U = iptr_count_from s none T N := by
  obtain ⟨hdN, hT⟩ := hlive N hN
  unfold iptr_count_in
  show _ = count_upto s.next_iptr (iptr_targets_from s none T N)
  apply count_upto_congr
  intro q hqlt
  by_cases hqN : q ∈ payload_handles s N
  · rw [(any_payload_iff s U q).2 ⟨N, hN, hqN⟩, (from_eq_of_mem hg hT hqN T).1]; simp
  · rw [from_false_of_not_mem hg hqN T]
    cases hc : U.any (fun u => decide (q ∈ payload_handles s u)) with
    | false => simp
    | true =>
      obtain ⟨u, hu, hm⟩ := (any_payload_iff s U q).1 hc
      have hne : u ≠ N := fun e => hqN (e ▸ hm)
      obtain ⟨hdu, hu1⟩ := hlive u hu
      have hz := h0 u hu hne
      have e1 := (from_eq_of_mem hg hu1 hm T).1
      cases ht : iptr_targets s none T q with
      | false => simp
      | true =>
        rw [ht] at e1
        have := count_upto_pos hqlt e1
        unfold iptr_count_from at hz
        omega

theorem reachable_diamond : reachable diamond_heap := ⟨diamond_program, rfl⟩

/-- C18 (counterexample): a target of an outgoing handle of `N` that is a live object is
destroyed with `N` when it has no other owner, and a surviving target can lose more than the
handles that `N` held.  In `chain3_heap` the `root_ptr` 0 is the only one of header 0, no
handle has header 0 as its target, and the handle 0 of its payload has the live header 1 as
its target; the release of the `root_ptr` 0 frees the headers 0, 1 and 2 and destroys the
payload of each.  In `diamond_heap` the payload of header 0 holds one handle whose target is
header 2 (header 2 lists header 0 once among its back pointers), and the release of the only
`root_ptr` of header 0 leaves header 2 alive with `internal_count` 1 instead of 3: the
payload of header 1, destroyed in the same release, held a handle to header 2 as well. -/
theorem C18_counterexample :
    reachable chain3_heap ∧
    chain3_heap.roots 0 = some ⟨some 0, some 0⟩ ∧ chain3_heap.roots 1 = none ∧
    chain3_heap.roots 2 = none ∧
    chain3_heap.iptrs 0 = some ⟨0, some 1, some 1⟩ ∧
    chain3_heap.iptrs 1 = some ⟨1, some 2, some 2⟩ ∧
    chain3_heap.iptrs 2 = some ⟨2, none, none⟩ ∧
    chain3_heap.bases 0 = some ⟨some 0, [0]⟩ ∧
    chain3_heap.headers 1 = some ⟨0, 1, [0], false, false, some 1⟩ ∧
    (Op.apply (Op.root_dtor 0) chain3_heap).map
        (fun s1 => (s1.headers 0, s1.headers 1, s1.headers 2, destroy_count s1.trace 0,
          destroy_count s1.trace 1, destroy_count s1.trace 2)) =
      some (none, none, none, 1, 1, 1) ∧
    (¬ ∃ s1, Op.apply (Op.root_dtor 0) chain3_heap = some s1 ∧
        ∃ hd1, s1.headers 1 = some hd1 ∧ destroy_count s1.trace 1 = 0) ∧
    reachable diamond_heap ∧
    diamond_heap.roots 0 = some ⟨some 0, some 0⟩ ∧ diamond_heap.roots 1 = none ∧
    diamond_heap.roots 2 = some ⟨some 2, some 2⟩ ∧
    diamond_heap.iptrs 0 = some ⟨0, some 1, some 1⟩ ∧
    diamond_heap.iptrs 1 = some ⟨0, some 2, some 2⟩ ∧
    diamond_heap.iptrs 2 = some ⟨1, some 2, some 2⟩ ∧
    diamond_heap.bases 0 = some ⟨some 0, [1, 0]⟩ ∧
    diamond_heap.bases 1 = some ⟨some 1, [2]⟩ ∧
    diamond_heap.headers 2 = some ⟨1, 3, [0, 1], false, false, some 2⟩ ∧
    (Op.apply (Op.root_dtor 0) diamond_heap).map
        (fun s1 => (s1.headers 0, s1.headers 1, s1.headers 2, destroy_count s1.trace 2)) =
      some (none, none, some ⟨1, 1, [], false, false, some 2⟩, 0) ∧
    ¬ ∃ s1, Op.apply (Op.root_dtor 0) diamond_heap = some s1 ∧
        ∃ hd1, s1.headers 2 = some hd1 ∧ hd1.internal_count + 1 = 3 := by
  have h1 : (Op.apply (Op.root_dtor 0) chain3_heap).map
        (fun s1 => (s1.headers 0, s1.headers 1, s1.headers 2, destroy_count s1.trace 0,
          destroy_count s1.trace 1, destroy_count s1.trace 2)) =
      some (none, none, none, 1, 1, 1) := by decide
  have h2 : (Op.apply (Op.root_dtor 0) diamond_heap).map
        (fun s1 => (s1.headers 0, s1.headers 1, s1.headers 2, destroy_count s1.trace 2)) =
      some (none, none, some ⟨1, 1, [], false, false, some 2⟩, 0) := by decide
  refine ⟨reachable_chain3, rfl, rfl, rfl, rfl, rfl, rfl, rfl, rfl, h1, ?_,
    reachable_diamond, rfl, rfl, rfl, rfl, rfl, rfl, rfl, rfl, rfl, h2, ?_⟩
  · rintro ⟨s1, e, hd1, e1, _⟩
    rw [e] at h1
    simp only [Option.map_some', Option.some.injEq, Prod.mk.injEq] at h1
    rw [h1.2.1] at e1
    cases e1
  · rintro ⟨s1, e, hd1, e1, e2⟩
    rw [e] at h2
    simp only [Option.map_some', Option.some.injEq, Prod.mk.injEq] at h2
    rw [h2.2.2.1] at e1
    cases e1
    cases e2

/-- C18 (amended): in a heap reachable through the public handle operations, let the
`root_ptr` at `r` be the only one sharing the header `N`, and let no `internal_ptr` have `N`
as its target.  Releasing `r` (by destructor or by `reset()`) returns and destroys the
payload of `N` during that call, exactly once, and frees its header block, whatever the
handles of that payload have as targets.  The headers freed by the call are exactly the live
headers that have no owner once the counters of `N` are decremented (the set `U`, which
contains `N`), and the payload of each is destroyed once.  Every live header `T` that still
has an owner then (it is reachable from a root without `N`) stays live and its payload is not
destroyed; `internal_count` of `T` decreases by exactly the number of handles with target
`T` that the payloads of the members of `U` held; every member of `U` occurred in the back
pointers of `T` once per handle that its payload held with target `T` and does not occur
afterwards, the other back pointers occur as often as before; `owner_count` and the two flags
of `T` are unchanged; and when no member of `U` other than `N` held a handle to `T`, that
number is the number of handles that `N` held to `T`.  When every target of a handle held by
the payload of `N` keeps an owner, `N` is the only header freed and every other live header
`T` is as the claim says: not destroyed, `internal_count` decreased by exactly the number
`k` of handles that `N` held to `T`, `N` removed from the back pointers of `T` `k` times,
`owner_count` and flags unchanged. -/
theorem C18_release_with_outgoing {s : Heap} (h : reachable s) (r N : Nat) (rp : root_ptr)
    (hr : s.roots r = some rp) (hh : rp.header = some N)
    (honly : ∀ r1 rp1, s.roots r1 = some rp1 → rp1.header = some N → r1 = r)
    (hnone : ∀ p ip, s.iptrs p = some ip → ip.header ≠ some N)
    (byreset : Bool) :
    ∃ (s1 : Heap) (U : List Nat),
      Op.apply (if byreset then Op.root_reset r else Op.root_dtor r) s = some s1 ∧
      s1.headers N = none ∧ destroy_count s.trace N = 0 ∧ destroy_count s1.trace N = 1 ∧
      U.Nodup ∧ N ∈ U ∧
      (∀ x, x ∈ U ↔ (∃ hd, s.headers x = some hd) ∧ ¬ has_owner (s.released N) x) ∧
      (∀ u ∈ U, s1.headers u = none ∧ destroy_count s1.trace u = 1) ∧
      (∀ T hd, s.headers T = some hd → has_owner (s.released N) T →
        ∃ hd1, s1.headers T = some hd1 ∧ destroy_count s1.trace T = 0 ∧
          hd1.internal_count + iptr_count_in s T U = hd.internal_count ∧
          (∀ P ∈ U, hd.back_pointers.count P = iptr_count_from s none T P ∧
            hd1.back_pointers.count P = 0) ∧
          (∀ P, P ∉ U → hd1.back_pointers.count P = hd.back_pointers.count P) ∧
          hd1.back_pointers.length + iptr_count_in s T U = hd.back_pointers.length ∧
          hd1.owner_count = hd.owner_count ∧ hd1.unreachable = hd.unreachable ∧
          hd1.deleted = hd.deleted ∧
          ((∀ u ∈ U, u ≠ N → iptr_count_from s none T u = 0) →
            iptr_count_in s T U = iptr_count_from s none T N)) ∧
      ((∀ p ip base T, s.iptrs p = some ip → s.bases ip.base = some base →
          base.self_header = some N → ip.header = some T → has_owner (s.released N) T) →
        U = [N] ∧
        ∀ T hd, T ≠ N → s.headers T = some hd →
          ∃ hd1, s1.headers T = some hd1 ∧ destroy_count s1.trace T = 0 ∧
            hd1.internal_count + iptr_count_from s none T N = hd.internal_count ∧
            hd.back_pointers.count N = iptr_count_from s none T N ∧
            hd1.back_pointers.count N = 0 ∧
            (∀ P, P ≠ N → hd1.back_pointers.count P = hd.back_pointers.count P) ∧
            hd1.back_pointers.length + iptr_count_from s none T N =
              hd.back_pointers.length ∧
            hd1.owner_count = hd.owner_count ∧ hd1.unreachable = hd.unreachable ∧
            hd1.deleted = hd.deleted) := by
  have hg := (sound_of_reachable h).good0
  obtain ⟨s1, U, happly, hs1, c1, c2, c3, hnd, hNU, hmem, hfreed, clive, igone, ikept, bkept,
    rkept, rnil, nr, ni⟩ := release_tables h hr hh honly hnone byreset
  have g1 := hs1.good0
  have hliveU : ∀ u ∈ U, ∃ hd, s.headers u = some hd := fun u hu => ((hmem u).1 hu).1
  have hroot : ∀ T, T ≠ N → root_count s1 none T = root_count s none T := by
    intro T hne
    unfold root_count
    rw [nr]
    apply count_upto_congr
    intro i _
    unfold root_targets
    by_cases hi : i = r
    · subst hi
      rw [hr]
      have e0 : ¬ (rp.header = some T) := by
        rw [hh]; exact fun e => hne (Option.some.inj e).symm
      cases hv : s1.roots i with
      | none => simp [e0]
      | some v => simp [e0, rnil v hv]
    · rw [rkept i hi]
  have key : ∀ T hd, s.headers T = some hd → has_owner (s.released N) T →
      ∃ hd1, s1.headers T = some hd1 ∧ destroy_count s1.trace T = 0 ∧
        hd1.internal_count + iptr_count_in s T U = hd.internal_count ∧
        (∀ P ∈ U, hd.back_pointers.count P = iptr_count_from s none T P ∧
          hd1.back_pointers.count P = 0) ∧
        (∀ P, P ∉ U → hd1.back_pointers.count P = hd.back_pointers.count P) ∧
        hd1.back_pointers.length + iptr_count_in s T U = hd.back_pointers.length ∧
        hd1.owner_count = hd.owner_count ∧ hd1.unreachable = hd.unreachable ∧
        hd1.deleted = hd.deleted ∧
        ((∀ u ∈ U, u ≠ N → iptr_count_from s none T u = 0) →
          iptr_count_in s T U = iptr_count_from s none T N) := by
    intro T hd hx ho
    obtain ⟨⟨hd1, hx1⟩, dc⟩ := clive T hd hx ho
    have hne : T ≠ N := by
      rintro rfl
      exact ((hmem T).1 hNU).2 ho
    obtain ⟨k1, k2, k3, k4, k5, k6, k7⟩ := collected_counts hg g1 hliveU
      (fun u hu => (hfreed u hu).1) igone ikept bkept ni hx hx1 (hroot T hne)
    exact ⟨hd1, hx1, dc, k1, k2, k3, k4, k5, k6, k7,
      fun h0 => iptr_count_in_single hg hliveU hNU h0⟩
  refine ⟨s1, U, happly, c1, c2, c3, hnd, hNU, hmem, hfreed, key, ?_⟩
  intro hlive
  have hothers := leaf_others_owned hg hlive
  have hU : U = [N] := by
    apply eq_singleton_of_nodup hnd
    intro x
    constructor
    · intro hx
      by_contra hne
      obtain ⟨⟨hd, hxl⟩, hno⟩ := (hmem x).1 hx
      exact hno (hothers x hd hne hxl)
    · rintro rfl
      exact hNU
  refine ⟨hU, ?_⟩
  intro T hd hne hx
  obtain ⟨hd1, hx1, dc, k1, k2, k3, k4, k5, k6, k7, k8⟩ := key T hd hx (hothers T hd hne hx)
  have hk : iptr_count_in s T U = iptr_count_from s none T N := by
    apply k8
    intro u hu hun
    rw [hU] at hu
    simp only [List.mem_singleton] at hu
    exact absurd hu hun
  rw [hk] at k1 k4
  refine ⟨hd1, hx1, dc, k1, (k2 N hNU).1, (k2 N hNU).2, ?_, k4, k5, k6, k7⟩
  intro P hP
  apply k3
  rw [hU]
  simpa using hP

/-- C18 (witness): in `two_edges_heap` the payload of node 0 holds two handles whose target is
node 1, which has a `root_ptr` of its own; the release of the only `root_ptr` of node 0
destroys node 0 alone and takes two from `internal_count` of node 1. -/
theorem C18_witness :
    reachable two_edges_heap ∧
    ∃ s1, Op.apply (Op.root_dtor 0) two_edges_heap = some s1 ∧
      s1.headers 0 = none ∧ destroy_count s1.trace 0 = 1 ∧
      ∃ hd1, s1.headers 1 = some hd1 ∧ destroy_count s1.trace 1 = 0 ∧
        hd1.internal_count + 2 = 3 ∧ hd1.back_pointers.count 0 = 0 ∧
        hd1.back_pointers.length + 2 = 2 ∧ hd1.owner_count = 1 := by
  have hi := (sound_of_reachable reachable_two_edges).good0.inv0.core
  have owned1 : has_owner (two_edges_heap.released 0) 1 :=
    ⟨1, Relation.ReflTransGen.refl, ⟨1, 3, [0, 0], false, false, some 1⟩, rfl, rfl⟩
  obtain ⟨s1, U, a1, a2, _, a4, _, _, _, _, _, a5⟩ :=
    C18_release_with_outgoing reachable_two_edges 0 0 ⟨some 0, some 0⟩ rfl rfl
      (by
        intro r1 rp1 hr1 hx
        have hlt := hi.root_lt r1 rp1 hr1
        have hn : two_edges_heap.next_root = 2 := rfl
        rw [hn] at hlt
        interval_cases r1
        · rfl
        · rw [show two_edges_heap.roots 1 = some ⟨some 1, some 1⟩ from rfl] at hr1
          cases hr1; cases hx)
      (by
        intro p ip hp hx
        have hlt := hi.iptr_lt p ip hp
        have hn : two_edges_heap.next_iptr = 2 := rfl
        rw [hn] at hlt
        interval_cases p
        · rw [show two_edges_heap.iptrs 0 = some ⟨0, some 1, some 1⟩ from rfl] at hp
          cases hp; cases hx
        · rw [show two_edges_heap.iptrs 1 = some ⟨0, some 1, some 1⟩ from rfl] at hp
          cases hp; cases hx)
      false
  obtain ⟨_, a6⟩ := a5 (by
    intro p ip base T hp _ _ hx
    have hlt := hi.iptr_lt p ip hp
    have hn : two_edges_heap.next_iptr = 2 := rfl
    rw [hn] at hlt
    interval_cases p
    · rw [show two_edges_heap.iptrs 0 = some ⟨0, some 1, some 1⟩ from rfl] at hp
      cases hp; cases hx; exact owned1
    · rw [show two_edges_heap.iptrs 1 = some ⟨0, some 1, some 1⟩ from rfl] at hp
      cases hp; cases hx; exact owned1)
  obtain ⟨hd1, b1, b2, b3, b4, b5, _, b7, b8, _⟩ :=
    a6 1 ⟨1, 3, [0, 0], false, false, some 1⟩ (by decide) rfl
  have hk : iptr_count_from two_edges_heap none 1 0 = 2 := by rw [← b4]; rfl
  rw [hk] at b3 b7
  exact ⟨reachable_two_edges, s1, a1, a2, a4, hd1, b1, b2, b3, b5, b7, b8⟩

/-- C30: in a heap reachable through the public handle operations, move-constructing an
`internal_ptr` from the handle `p` returns.  The new handle (at the allocation frontier) is
registered at the head of the list of the `internal_base` that holds `p` and has the target
header and the pointer of `p`; `p` keeps its `internal_base` and has a nil header and a nil
pointer; no header block, no `root_ptr`, no other handle and no other `internal_base`
changes, and nothing is logged.  Destroying `p` afterwards returns, removes `p` (and only
`p`) from the list of its `internal_base`, and again changes no header block and logs
nothing: the new handle reports the `use_count()` and the `get()` that `p` reported before
the move. -/
theorem C30_move_internal {s : Heap} (h : reachable s) (p : Nat) (ip : internal_ptr)
    (hp : s.iptrs p = some ip) :
    ∃ bs s1 s2, s.bases ip.base = some bs ∧
      Op.apply (Op.iptr_move p) s = some s1 ∧
      s1.headers = s.headers ∧ s1.roots = s.roots ∧ s1.trace = s.trace ∧
      s1.iptrs s.next_iptr = some ip ∧ s1.iptrs p = some ⟨ip.base, none, none⟩ ∧
      (∀ q, q ≠ p → q ≠ s.next_iptr → s1.iptrs q = s.iptrs q) ∧
      s1.bases ip.base = some { bs with pointers := s.next_iptr :: bs.pointers } ∧
      (∀ b, b ≠ ip.base → s1.bases b = s.bases b) ∧
      Op.apply (Op.iptr_dtor p) s1 = some s2 ∧
      s2.headers = s.headers ∧ s2.roots = s.roots ∧ s2.trace = s.trace ∧
      s2.iptrs p = none ∧ (∀ q, q ≠ p → s2.iptrs q = s1.iptrs q) ∧
      s2.bases ip.base = some { bs with pointers := s.next_iptr :: bs.pointers.erase p } ∧
      (∀ b, b ≠ ip.base → s2.bases b = s.bases b) ∧
      internal_ptr_use_count s2 s.next_iptr = internal_ptr_use_count s p ∧
      internal_ptr_get s2 s.next_iptr = internal_ptr_get s p := by
  have hi := (sound_of_reachable h).good0.inv0.core
  obtain ⟨bs, hb, _⟩ := hi.base_of_ptr p ip hp (by simp)
  have hpn : p ≠ s.next_iptr := by
    have := hi.iptr_lt p ip hp; omega
  have hnp : s.next_iptr ≠ p := fun e => hpn e.symm
  obtain ⟨s1, hs1⟩ : ∃ s1, s1 = (({ s with next_iptr := s.next_iptr + 1 }.set_iptr s.next_iptr
      (some ip)).set_base ip.base
        (some { bs with pointers := s.next_iptr :: bs.pointers })).set_iptr p
          (some { ip with header := none, ptr := none }) := ⟨_, rfl⟩
  have hmove : internal_ptr_move p s = some s1 := by
    unfold internal_ptr_move register_ptr
    rw [hp]; simp only
    have hb1 : ({ s with next_iptr := s.next_iptr + 1 }.set_iptr s.next_iptr
        (some ip)).bases ip.base = some bs := hb
    rw [hb1, hs1]
  have h1p : s1.iptrs p = some ⟨ip.base, none, none⟩ := by rw [hs1]; simp [Heap.set_iptr]
  have h1n : s1.iptrs s.next_iptr = some ip := by
    rw [hs1]; simp [Heap.set_iptr, Heap.set_base, Function.update_noteq hnp]
  have h1b : s1.bases ip.base = some { bs with pointers := s.next_iptr :: bs.pointers } := by
    rw [hs1]; simp [Heap.set_iptr, Heap.set_base]
  obtain ⟨s2, hs2⟩ : ∃ s2, s2 = (s1.set_base ip.base
      (some { bs with pointers := s.next_iptr :: bs.pointers.erase p })).set_iptr p none :=
    ⟨_, rfl⟩
  have herase : (s.next_iptr :: bs.pointers).erase p = s.next_iptr :: bs.pointers.erase p := by
    rw [List.erase_cons_tail]
    simpa using hnp
  have hdtor : internal_ptr_dtor p s1 = some s2 := by
    unfold internal_ptr_dtor destroy_internal_ptr deregister_ptr
    rw [h1p]; simp only
    rw [h1b]; simp only
    rw [herase, hs2]
  have h2n : s2.iptrs s.next_iptr = some ip := by
    rw [hs2]
    show Function.update s1.iptrs p none s.next_iptr = _
    rw [Function.update_noteq hnp]; exact h1n
  have h2h : s2.headers = s.headers := by rw [hs2, hs1]; rfl
  refine ⟨bs, s1, s2, hb, hmove, by rw [hs1]; rfl, by rw [hs1]; rfl, by rw [hs1]; rfl, h1n, h1p,
    ?_, h1b, ?_, hdtor, h2h, by rw [hs2, hs1]; rfl, by rw [hs2, hs1]; rfl, ?_, ?_, ?_, ?_, ?_,
    ?_⟩
  · intro q hq1 hq2
    rw [hs1]; simp [Heap.set_iptr, Heap.set_base, Function.update_noteq hq1,
      Function.update_noteq hq2]
  · intro b hb0
    rw [hs1]; simp [Heap.set_iptr, Heap.set_base, Function.update_noteq hb0]
  · rw [hs2]; simp [Heap.set_iptr]
  · intro q hq
    rw [hs2]; simp [Heap.set_iptr, Heap.set_base, Function.update_noteq hq]
  · rw [hs2]; simp [Heap.set_iptr, Heap.set_base]
  · intro b hb0
    rw [hs2, hs1]; simp [Heap.set_iptr, Heap.set_base, Function.update_noteq hb0]
  · unfold internal_ptr_use_count
    rw [h2n, hp, h2h]
  · unfold internal_ptr_get
    rw [h2n, hp, h2h]

/-- C30 (witness): moving the handle 0 of `one_edge_heap`, whose target is the object `X`, and
destroying it afterwards. -/
theorem C30_witness :
    one_edge_heap.iptrs 0 = some ⟨0, some 1, some 1⟩ ∧
    ∃ s1 s2, Op.apply (Op.iptr_move 0) one_edge_heap = some s1 ∧
      Op.apply (Op.iptr_dtor 0) s1 = some s2 ∧ s2.headers = one_edge_heap.headers ∧
      internal_ptr_use_count s2 one_edge_heap.next_iptr =
        internal_ptr_use_count one_edge_heap 0 := by
  obtain ⟨_, s1, s2, _, a1, _, _, _, _, _, _, _, _, a2, a3, _, _, _, _, _, _, a4, _⟩ :=
    C30_move_internal reachable_one_edge 0 ⟨0, some 1, some 1⟩ rfl
  exact ⟨rfl, s1, s2, a1, a2, a3, a4⟩

theorem count_upto_lt {n : Nat} {f g : Nat → Bool} (h : ∀ x, g x = true → f x = true)
    {i : Nat} (hi : i < n) (hf : f i = true) (hg : g i = false) :
    count_upto n g < count_upto n f := by
  induction n with
  | zero => omega
  | succ n ih =>
    rw [count_upto_succ, count_upto_succ]
    have hle : count_upto n g ≤ count_upto n f :=
      count_upto_mono h
    by_cases hin : i = n
    · subst hin
      rw [hf, hg]; simp; omega
    · have := ih (by omega)
      have h2 := h n
      cases hgn : g n <;> cases hfn : f n <;> simp_all <;> omega

/-- C23: in every heap reachable through the public handle operations, for every live header
block `H` (none is flagged `unreachable` there): `is_owned()` holds for `H` if and only if a
`root_ptr` shares `H` or an `internal_ptr` whose target is `H` is registered with an
`internal_base` whose `self_header` is nil. -/
theorem C23_is_owned_meaning {s : Heap} (h : reachable s) (H : Nat)
    (hd : root_ptr_header_block_base) (hH : s.headers H = some hd) :
    hd.unreachable = false ∧
    (is_owned hd = true ↔
      ((∃ r rp, s.roots r = some rp ∧ rp.header = some H) ∨
       (∃ p ip base, s.iptrs p = some ip ∧ ip.header = some H ∧
          s.bases ip.base = some base ∧ p ∈ base.pointers ∧ base.self_header = none))) := by
  have hg := (sound_of_reachable h).good0
  have hi := hg.inv0.core
  have o0 := hi.owner_count_eq H hd hH
  have c0 := hi.internal_count_eq H hd hH
  have l0 := hi.bp_length H hd hH
  have hsub : ∀ x, iptr_targets_bound s none H x = true →
      iptr_targets s none H x = true := by
    intro x hx
    unfold iptr_targets_bound at hx
    simp only [Bool.and_eq_true] at hx
    exact hx.1
  refine ⟨(hg.inv0.flags H hd hH (by simp)).1, ?_⟩
  constructor
  · intro ho
    by_cases hoc : hd.owner_count = 0
    · right
      have hlt : hd.back_pointers.length < hd.internal_count := by
        unfold is_owned at ho
        simp only [hoc, ne_eq, not_true_eq_false, if_false] at ho
        by_contra hc
        simp [hc] at ho
      have hex : ∃ q, q < s.next_iptr ∧ iptr_targets s none H q = true ∧
          iptr_targets_bound s none H q = false := by
        by_contra hc
        push_neg at hc
        have : iptr_count s none H = iptr_count_bound s none H := by
          unfold iptr_count iptr_count_bound
          apply count_upto_congr
          intro x hx
          cases ht : iptr_targets s none H x with
          | true => exact (by simpa using hc x hx ht : iptr_targets_bound s none H x = true).symm
          | false =>
            cases hb : iptr_targets_bound s none H x with
            | false => rfl
            | true => rw [hsub x hb] at ht; cases ht
        omega
      obtain ⟨q, _, hq1, hq2⟩ := hex
      unfold iptr_targets_bound at hq2
      rw [hq1] at hq2
      unfold iptr_targets at hq1
      cases hq : s.iptrs q with
      | none => rw [hq] at hq1; simp at hq1
      | some iq =>
        rw [hq] at hq1 hq2
        simp only [ne_eq, reduceCtorEq, not_false_eq_true, decide_True, Bool.true_and,
          decide_eq_true_eq] at hq1 hq2
        obtain ⟨base, hb, hm⟩ := hi.base_of_ptr q iq hq (by simp)
        rw [hb] at hq2
        simp only at hq2
        refine ⟨q, iq, base, hq, hq1, hb, hm, ?_⟩
        cases hsh : base.self_header with
        | none => rfl
        | some x => rw [hsh] at hq2; simp at hq2
    · left
      have hpos : 0 < root_count s none H := by omega
      obtain ⟨r, _, hr⟩ := exists_of_count_upto_pos hpos
      unfold root_targets at hr
      cases hrr : s.roots r with
      | none => rw [hrr] at hr; simp at hr
      | some rp =>
        rw [hrr] at hr
        exact ⟨r, rp, hrr, by simpa using hr⟩
  · rintro (⟨r, rp, hr, hh⟩ | ⟨p, ip, base, hp, hh, hb, _, hsh⟩)
    · have h1 : 1 ≤ root_count s none H := by
        apply count_upto_pos (hi.root_lt r rp hr)
        unfold root_targets
        rw [hr]; simp [hh]
      unfold is_owned
      have : hd.owner_count ≠ 0 := by omega
      simp [this]
    · have hlt : iptr_count_bound s none H < iptr_count s none H := by
        apply count_upto_lt hsub (hi.iptr_lt p ip hp)
        · unfold iptr_targets
          rw [hp]; simp [hh]
        · unfold iptr_targets_bound
          rw [hp]; simp only; rw [hb]; simp [hsh]
      unfold is_owned
      by_cases hoc : hd.owner_count = 0
      · have : hd.back_pointers.length < hd.internal_count := by omega
        simp [hoc, this]
      · simp [hoc]

/-- C23 (witness): the header block of the object `X` in `two_edges_heap`, which a `root_ptr`
shares. -/
theorem C23_witness :
    two_edges_heap.headers 1 = some ⟨1, 3, [0, 0], false, false, some 1⟩ ∧
    (is_owned ⟨1, 3, [0, 0], false, false, some 1⟩ = true ↔
      ((∃ r rp, two_edges_heap.roots r = some rp ∧ rp.header = some 1) ∨
       (∃ p ip base, two_edges_heap.iptrs p = some ip ∧ ip.header = some 1 ∧
          two_edges_heap.bases ip.base = some base ∧ p ∈ base.pointers ∧
          base.self_header = none))) :=
  ⟨rfl, (C23_is_owned_meaning reachable_two_edges 1 ⟨1, 3, [0, 0], false, false, some 1⟩ rfl).2⟩

theorem count_upto_two_sum {n : Nat} {f g : Nat → Bool} {a b : Nat} (ha : a < n) (hb : b < n)
    (hab : a ≠ b) (h : ∀ x, x ≠ a → x ≠ b → g x = f x) :
    count_upto n g + (if f a then 1 else 0) + (if f b then 1 else 0) =
      count_upto n f + (if g a then 1 else 0) + (if g b then 1 else 0) := by
  have h1 := count_upto_update (n := n) (f := f) (g := fun x => if x = a then g a else f x)
    (i := a) (fun x hx => by simp [hx]) ha
  have h2 := count_upto_update (n := n) (f := fun x => if x = a then g a else f x) (g := g)
    (i := b) (fun x hx => by
      by_cases hxa : x = a
      · subst hxa; simp
      · simp [hxa, h x hxa hx]) hb
  simp only [if_true] at h1
  have hba : ¬ b = a := fun e => hab e.symm
  simp only [hba, if_false] at h2
  omega

/-- What the release of the target of a `root_ptr` (by its destructor, or by `reset()`) does
to the tables and to the trace, with the set `U` of headers whose payload it destroys; with
`U` empty only the handle changes. -/
theorem release_cases {s s1 : Heap} {r : Nat} {rp : root_ptr}
    {v : Option root_ptr} (hres : release_result s r rp v s1) :
    ∃ U, s1.roots = Function.update s.roots r v ∧ s1.next_root = s.next_root ∧
      s1.next_iptr = s.next_iptr ∧
      (∀ x, destroy_count s1.trace x = destroy_count s.trace x + if x ∈ U then 1 else 0) ∧
      (U = [] → s1.iptrs = s.iptrs ∧ s1.bases = s.bases ∧ s1.trace = s.trace ∧
        ∀ x, s1.headers x = none ↔ s.headers x = none) := by
  unfold release_result at hres
  cases hh : rp.header with
  | none =>
    rw [hh] at hres; simp only at hres
    subst hres
    exact ⟨[], rfl, rfl, rfl, fun x => by simp, fun _ => ⟨rfl, rfl, rfl, fun _ => Iff.rfl⟩⟩
  | some T =>
    rw [hh] at hres; simp only at hres
    obtain ⟨U, s2, _, b2, d⟩ := hres
    subst b2
    obtain ⟨rb, rr, ri, rt, _⟩ := released_rest s T
    obtain ⟨rn1, rn2⟩ := released_next s T
    obtain ⟨_, _, rq⟩ := released_quiet s T
    have he := (effect_of_dec d (quiet_refl s2)).1
    refine ⟨U, ?_, ?_, ?_, ?_, ?_⟩
    · show Function.update s2.roots r v = _
      rw [d.col.roots, rr]
    · show s2.next_root = _
      rw [d.col.next_root, rn1]
    · show s2.next_iptr = _
      rw [d.col.next_iptr, rn2]
    · intro x
      have := destroy_count_effect he x
      rw [rt] at this
      exact this
    · intro hU
      subst hU
      refine ⟨?_, ?_, ?_, fun x => ?_⟩
      · show s2.iptrs = _
        funext q
        rw [d.col.iptrs_kept q (fun u hu => by simp at hu), ri]
      · show s2.bases = _
        funext q
        rw [d.col.bases_kept q (fun u hu => by simp at hu), rb]
      · show s2.trace = _
        obtain ⟨obs, _, o2⟩ := d.col.trace
        rw [o2, rt]; simp
      · show s2.headers x = none ↔ _
        have := he.gone x
        simp only [List.not_mem_nil, or_false] at this
        exact this.trans (rq x)

theorem reachable_shared : reachable shared_heap := ⟨shared_program, rfl⟩

/-- C21 (counterexample): in `shared_heap` the distinct handles 0 and 1 share the header 0,
whose counters are both 2.  The move assignment of the handle 1 to the handle 0 returns,
leaves the handle 0 with the header 0 and the handle 1 empty, and leaves both counters of
header 0, the former target of the source, at 1: they have changed.  In `one_edge_heap` the
handle 0 is the only owner of payload 0, whose member handle points to header 1, the target of
the handle 1; the move assignment of the handle 1 to the handle 0 collects payload 0, and the
`internal_count` of header 1, the former target of the source, goes from 2 to 1. -/
theorem C21_counterexample :
    reachable shared_heap ∧
    shared_heap.roots 0 = some ⟨some 0, some 0⟩ ∧
    shared_heap.roots 1 = some ⟨some 0, some 0⟩ ∧
    shared_heap.headers 0 = some ⟨2, 2, [], false, false, none⟩ ∧
    (root_ptr_move_assign 0 1 shared_heap).map (fun s1 => (s1.roots 0, s1.roots 1)) =
      some (some ⟨some 0, some 0⟩, some ⟨none, none⟩) ∧
    (root_ptr_move_assign 0 1 shared_heap).map (fun s1 => s1.headers 0) =
      some (some ⟨1, 1, [], false, false, none⟩) ∧
    (¬ ∃ s1, root_ptr_move_assign 0 1 shared_heap = some s1 ∧
        ∃ hd1, s1.headers 0 = some hd1 ∧ hd1.owner_count = 2 ∧ hd1.internal_count = 2) ∧
    reachable one_edge_heap ∧
    one_edge_heap.roots 0 = some ⟨some 0, some 0⟩ ∧
    one_edge_heap.roots 1 = some ⟨some 1, some 1⟩ ∧
    one_edge_heap.headers 1 = some ⟨1, 2, [0], false, false, some 1⟩ ∧
    (root_ptr_move_assign 0 1 one_edge_heap).map (fun s1 => (s1.roots 0, s1.roots 1)) =
      some (some ⟨some 1, some 1⟩, some ⟨none, none⟩) ∧
    (root_ptr_move_assign 0 1 one_edge_heap).map (fun s1 => s1.headers 1) =
      some (some ⟨1, 1, [], false, false, some 1⟩) ∧
    ¬ ∃ s1, root_ptr_move_assign 0 1 one_edge_heap = some s1 ∧
        ∃ hd1, s1.headers 1 = some hd1 ∧ hd1.owner_count = 1 ∧ hd1.internal_count = 2 := by
  have h1 : (root_ptr_move_assign 0 1 shared_heap).map (fun s1 => s1.headers 0) =
      some (some ⟨1, 1, [], false, false, none⟩) := by decide
  have h2 : (root_ptr_move_assign 0 1 one_edge_heap).map (fun s1 => s1.headers 1) =
      some (some ⟨1, 1, [], false, false, some 1⟩) := by decide
  refine ⟨reachable_shared, rfl, rfl, rfl, by decide, h1, ?_, reachable_one_edge, rfl, rfl,
    rfl, by decide, h2, ?_⟩
  · rintro ⟨s1, e, hd1, e1, e2, _⟩
    rw [e] at h1
    simp only [Option.map_some', Option.some.injEq] at h1
    rw [e1] at h1
    cases h1
    cases e2
  · rintro ⟨s1, e, hd1, e1, _, e2⟩
    rw [e] at h2
    simp only [Option.map_some', Option.some.injEq] at h2
    rw [e1] at h2
    cases h2
    cases e2

/-- C21 (amended): in a heap reachable through the public handle operations, let `d` and `r`
be distinct `root_ptr` handles.  Move-constructing from `r` returns: the new handle has the
pointer and the header that `r` had, `r` is empty (`get()` nil, `use_count()` 0), and no
header block, handle of another kind or `internal_base` changes.  The move assignment
`d = move(r)` returns: `d` has the pointer and the header that `r` had, `r` is empty, the
other `root_ptr` handles are as before.  When `d` was empty nothing else changes; when `d`
shared the header `T0`, the call is exactly one `remove_owner` applied to `T0` after the
two handles have been exchanged.  The former target `Tr` of `r` is live afterwards; when `d`
did not share `Tr` its `owner_count` is unchanged, and so is its `internal_count` when the
call has logged nothing (nothing was collected); when `d` shared `Tr` too, `owner_count` and
`internal_count` of `Tr` have each decreased by exactly one and nothing is logged. -/
theorem C21_move_root {s : Heap} (h : reachable s) (d r : Nat) (rd rr : root_ptr)
    (hd0 : s.roots d = some rd) (hr0 : s.roots r = some rr) (hne : d ≠ r) :
    (∃ s1, Op.apply (Op.root_move r) s = some s1 ∧
      s1.roots s.next_root = some rr ∧ s1.roots r = some ⟨none, none⟩ ∧
      root_ptr_get s1 r = some none ∧ root_ptr_use_count s1 r = some 0 ∧
      s1.headers = s.headers ∧ s1.iptrs = s.iptrs ∧ s1.bases = s.bases ∧
      s1.trace = s.trace ∧ ∀ q, q ≠ r → q ≠ s.next_root → s1.roots q = s.roots q) ∧
    ∃ s1, root_ptr_move_assign d r s = some s1 ∧ reachable s1 ∧
      s1.roots d = some rr ∧ s1.roots r = some ⟨none, none⟩ ∧
      root_ptr_get s1 r = some none ∧ root_ptr_use_count s1 r = some 0 ∧
      (∀ q, q ≠ d → q ≠ r → s1.roots q = s.roots q) ∧
      (rd.header = none → s1.headers = s.headers ∧ s1.iptrs = s.iptrs ∧
        s1.bases = s.bases ∧ s1.trace = s.trace) ∧
      (∀ T0, rd.header = some T0 →
        ∃ s2, remove_owner T0 ((s.set_root d (some rr)).set_root r (some rd)) = some s2 ∧
          s1 = s2.set_root r (some ⟨none, none⟩)) ∧
      (∀ Tr hd, rr.header = some Tr → s.headers Tr = some hd →
        ∃ hd1, s1.headers Tr = some hd1 ∧
          (rd.header ≠ some Tr → hd1.owner_count = hd.owner_count ∧
            (s1.trace = s.trace → hd1.internal_count = hd.internal_count)) ∧
          (rd.header = some Tr → hd1.owner_count + 1 = hd.owner_count ∧
            hd1.internal_count + 1 = hd.internal_count ∧ s1.trace = s.trace)) := by
  have hg := (sound_of_reachable h).good0
  have hi := hg.inv0.core
  have hrn : r ≠ s.next_root := by have := hi.root_lt r rr hr0; omega
  constructor
  · obtain ⟨sm, hsm⟩ : ∃ sm, sm = ({ s with next_root := s.next_root + 1 }.set_root
        s.next_root (some rr)).set_root r (some ⟨none, none⟩) := ⟨_, rfl⟩
    have hmr : sm.roots r = some ⟨none, none⟩ := by rw [hsm]; simp [Heap.set_root]
    refine ⟨sm, by show root_ptr_move r s = _; unfold root_ptr_move; rw [hr0, hsm], ?_, hmr,
      ?_, ?_, by rw [hsm]; rfl, by rw [hsm]; rfl, by rw [hsm]; rfl, by rw [hsm]; rfl, ?_⟩
    · rw [hsm]; simp [Heap.set_root, Function.update_noteq (fun e => hrn e.symm)]
    · unfold root_ptr_get; rw [hmr]
    · unfold root_ptr_use_count; rw [hmr]
    · intro q h1 h2
      rw [hsm]; simp [Heap.set_root, Function.update_noteq h1, Function.update_noteq h2]
  · obtain ⟨sw, hsw⟩ : ∃ sw, sw = (s.set_root d (some rr)).set_root r (some rd) := ⟨_, rfl⟩
    have hswap : root_ptr_swap d r s = some sw := by
      unfold root_ptr_swap; rw [hd0, hr0, hsw]
    obtain ⟨sw1, e1, gsw⟩ := root_ptr_swap_ok hg hd0 hr0
    rw [hswap] at e1; cases e1
    have hwr : sw.roots r = some rd := by rw [hsw]; simp [Heap.set_root]
    have hwd : sw.roots d = some rr := by
      rw [hsw]; simp [Heap.set_root, Function.update_noteq hne]
    have hwq : ∀ q, q ≠ d → q ≠ r → sw.roots q = s.roots q := by
      intro q h1 h2
      rw [hsw]; simp [Heap.set_root, Function.update_noteq h1, Function.update_noteq h2]
    obtain ⟨s1, e2, g1, hres⟩ := root_ptr_reset_ok gsw hwr
    have hma : root_ptr_move_assign d r s = some s1 := by
      unfold root_ptr_move_assign; rw [hswap]; exact e2
    have hreach : reachable s1 := by
      apply @reachable_run s s1 [Op.root_swap d r, Op.root_reset r] h
      simp only [run, Op.apply]
      rw [hswap]; simp only; rw [e2]
    obtain ⟨U, c1, c2, c3, c4, c5⟩ := release_cases hres
    have h1r : s1.roots r = some ⟨none, none⟩ := by rw [c1]; simp
    have h1d : s1.roots d = some rr := by rw [c1, Function.update_noteq hne]; exact hwd
    have h1q : ∀ q, q ≠ d → q ≠ r → s1.roots q = s.roots q := by
      intro q q1 q2
      rw [c1, Function.update_noteq q2]; exact hwq q q1 q2
    have hsame : U = [] → s1.iptrs = s.iptrs ∧ s1.bases = s.bases ∧ s1.trace = s.trace := by
      intro hU
      obtain ⟨a, b, c, _⟩ := c5 hU
      exact ⟨by rw [a, hsw]; rfl, by rw [b, hsw]; rfl, by rw [c, hsw]; rfl⟩
    have hUnil : s1.trace = s.trace → U = [] := by
      intro ht
      apply List.eq_nil_iff_forall_not_mem.2
      intro x hx
      have := c4 x
      rw [ht, show sw.trace = s.trace by rw [hsw]; rfl] at this
      simp [hx] at this
    refine ⟨s1, hma, hreach, h1d, h1r, ?_, ?_, h1q, ?_, ?_, ?_⟩
    · unfold root_ptr_get; rw [h1r]
    · unfold root_ptr_use_count; rw [h1r]
    · intro hn
      unfold release_result at hres
      rw [hn] at hres; simp only at hres
      rw [hres, hsw]
      exact ⟨rfl, rfl, rfl, rfl⟩
    · intro T0 hT0
      unfold release_result at hres
      rw [hT0] at hres; simp only at hres
      obtain ⟨_, s2, a1, a2, _⟩ := hres
      rw [hsw] at a1
      exact ⟨s2, a1, a2⟩
    · intro Tr hd hTr hx
      obtain ⟨hd1, hx1⟩ := g1.inv0.core.root_target_live d rr Tr h1d (by simp) hTr
      have o1 := g1.inv0.core.owner_count_eq Tr hd1 hx1
      have o0 := hi.owner_count_eq Tr hd hx
      have i1 := g1.inv0.core.internal_count_eq Tr hd1 hx1
      have i0 := hi.internal_count_eq Tr hd hx
      have hcount : root_count s1 none Tr + (if rd.header = some Tr then 1 else 0) =
          root_count s none Tr := by
        have hsum := count_upto_two_sum (n := s.next_root) (f := root_targets s none Tr)
          (g := root_targets s1 none Tr) (hi.root_lt d rd hd0) (hi.root_lt r rr hr0) hne
          (fun x x1 x2 => by unfold root_targets; rw [h1q x x1 x2])
        have v1 : root_targets s none Tr d = decide (rd.header = some Tr) := by
          unfold root_targets; rw [hd0]; simp
        have v2 : root_targets s none Tr r = true := by
          unfold root_targets; rw [hr0]; simp [hTr]
        have v3 : root_targets s1 none Tr d = true := by
          unfold root_targets; rw [h1d]; simp [hTr]
        have v4 : root_targets s1 none Tr r = false := by
          unfold root_targets; rw [h1r]; simp
        rw [v1, v2, v3, v4] at hsum
        unfold root_count
        rw [c2, show sw.next_root = s.next_root by rw [hsw]; rfl]
        by_cases hc : rd.header = some Tr
        · simp [hc] at hsum ⊢; omega
        · simp [hc] at hsum ⊢; omega
      have hiptr : s1.trace = s.trace → iptr_count s1 none Tr = iptr_count s none Tr := by
        intro ht
        obtain ⟨a, _, _⟩ := hsame (hUnil ht)
        unfold iptr_count
        rw [c3, show sw.next_iptr = s.next_iptr by rw [hsw]; rfl]
        apply count_upto_congr
        intro x _
        unfold iptr_targets
        rw [a]
      refine ⟨hd1, hx1, ?_, ?_⟩
      · intro hc
        rw [if_neg hc] at hcount
        exact ⟨by omega, fun ht => by have := hiptr ht; omega⟩
      · intro hc
        rw [if_pos hc] at hcount
        obtain ⟨_, a2⟩ := release_shared gsw (fun e => hne e.symm) hwr hwd hc hTr
        have hs1 := a2 _ _ hres
        have ht : s1.trace = s.trace := by
          rw [hs1]
          show (sw.released Tr).trace = _
          rw [(released_rest sw Tr).2.2.2.1, hsw]; rfl
        have := hiptr ht
        exact ⟨by omega, by omega, ht⟩

/-- C21 (witness): the move assignment of the handle 1 of the object `X` to the handle 0 of
the object `A` in `one_edge_heap`. -/
theorem C21_witness :
    reachable one_edge_heap ∧
    one_edge_heap.roots 0 = some ⟨some 0, some 0⟩ ∧
    one_edge_heap.roots 1 = some ⟨some 1, some 1⟩ ∧
    ∃ s1, root_ptr_move_assign 0 1 one_edge_heap = some s1 ∧
      s1.roots 0 = some ⟨some 1, some 1⟩ ∧ s1.roots 1 = some ⟨none, none⟩ := by
  obtain ⟨s1, a1, _, a3, a4, _⟩ :=
    (C21_move_root reachable_one_edge 0 1 ⟨some 0, some 0⟩ ⟨some 1, some 1⟩ rfl rfl
      (by decide)).2
  exact ⟨reachable_one_edge, rfl, rfl, s1, a1, a3, a4⟩

/-- C22: a `local_ptr` does not count.  Constructing one from a live `root_ptr`, or from a live
`internal_ptr` whose target (if any) is a live header block, returns and leaves the heap as it
is: no header field changes and the `use_count()` of the source is what it was; so does the
assignment of such a handle to a `local_ptr`.  The new `local_ptr` returns from `get()` what
the handle returns from `get()` at that moment: nil for an `internal_ptr` whose header is nil
or is flagged `unreachable`.  After `reset()` (which touches no heap object) `get()` is nil,
the conversion to `bool` is false, and the `local_ptr` compares unequal to every handle and
to every plain pointer whose `get()` is not nil. -/
theorem C22_local_ptr (s : Heap) :
    (∀ r rp, s.roots r = some rp →
      ∃ l, local_ptr_from_root r s = some (s, l) ∧
        some (local_ptr_get l) = root_ptr_get s r ∧
        ∀ old, local_ptr_assign_root old r s = some (s, l)) ∧
    (∀ p ip, s.iptrs p = some ip → (∀ t, ip.header = some t → ∃ hd, s.headers t = some hd) →
      ∃ l, local_ptr_from_internal p s = some (s, l) ∧
        some (local_ptr_get l) = internal_ptr_get s p ∧
        (ip.header = none → local_ptr_get l = none) ∧
        (∀ t hd, ip.header = some t → s.headers t = some hd → hd.unreachable = true →
          local_ptr_get l = none) ∧
        (∀ t hd, ip.header = some t → s.headers t = some hd → hd.unreachable = false →
          local_ptr_get l = ip.ptr) ∧
        ∀ old, local_ptr_assign_internal old p s = some (s, l)) ∧
    (∀ l, local_ptr_get (local_ptr_reset l) = none ∧
      local_ptr_bool (local_ptr_reset l) = false ∧
      (∀ g, local_ptr_eq_raw (local_ptr_reset l) (some g) = false) ∧
      (∀ r g, root_ptr_get s r = some (some g) →
        local_ptr_eq_root s (local_ptr_reset l) r = some false ∧
        local_ptr_ne_root s (local_ptr_reset l) r = some true) ∧
      (∀ p g, internal_ptr_get s p = some (some g) →
        local_ptr_eq_internal s (local_ptr_reset l) p = some false ∧
        local_ptr_ne_internal s (local_ptr_reset l) p = some true)) := by
  refine ⟨?_, ?_, ?_⟩
  · intro r rp hr
    have hget : root_ptr_get s r = some rp.ptr := by unfold root_ptr_get; rw [hr]
    have hfrom : local_ptr_from_root r s = some (s, ⟨rp.ptr⟩) := by
      unfold local_ptr_from_root; rw [hget]
    refine ⟨⟨rp.ptr⟩, hfrom, by rw [hget]; rfl, fun old => ?_⟩
    unfold local_ptr_assign_root; rw [hfrom]
  · intro p ip hp hlive
    have hget : ∃ g, internal_ptr_get s p = some g := by
      unfold internal_ptr_get
      rw [hp]; simp only
      cases hh : ip.header with
      | none => exact ⟨_, rfl⟩
      | some t =>
        obtain ⟨hd, e⟩ := hlive t hh
        simp only; rw [e]; exact ⟨_, rfl⟩
    obtain ⟨g, hg⟩ := hget
    have hfrom : local_ptr_from_internal p s = some (s, ⟨g⟩) := by
      unfold local_ptr_from_internal; rw [hg]
    refine ⟨⟨g⟩, hfrom, by rw [hg]; rfl, ?_, ?_, ?_, fun old => ?_⟩
    · intro hh
      have := (nil_handle_reads_nil hp hh).1
      rw [hg] at this
      exact Option.some.inj this
    · intro t hd hh ht hu
      unfold internal_ptr_get at hg
      rw [hp] at hg; simp only at hg
      rw [hh] at hg; simp only at hg
      rw [ht] at hg; simp only at hg
      rw [hu] at hg
      exact (Option.some.inj hg).symm
    · intro t hd hh ht hu
      unfold internal_ptr_get at hg
      rw [hp] at hg; simp only at hg
      rw [hh] at hg; simp only at hg
      rw [ht] at hg; simp only at hg
      rw [hu] at hg
      exact (Option.some.inj hg).symm
    · unfold local_ptr_assign_internal; rw [hfrom]
  · intro l
    refine ⟨rfl, rfl, fun g => by simp [local_ptr_eq_raw, local_ptr_reset, local_ptr_get],
      ?_, ?_⟩
    · intro r g hr
      have h1 : local_ptr_eq_root s (local_ptr_reset l) r = some false := by
        unfold local_ptr_eq_root
        rw [hr]; simp [local_ptr_reset, local_ptr_get]
      exact ⟨h1, by unfold local_ptr_ne_root; rw [h1]; rfl⟩
    · intro p g hp
      have h1 : local_ptr_eq_internal s (local_ptr_reset l) p = some false := by
        unfold local_ptr_eq_internal
        rw [hp]; simp [local_ptr_reset, local_ptr_get]
      exact ⟨h1, by unfold local_ptr_ne_internal; rw [h1]; rfl⟩

/-- C22 (witness): a `local_ptr` built from the handle 0 of `one_edge_heap`, whose target is
the live object `X`. -/
theorem C22_witness :
    one_edge_heap.iptrs 0 = some ⟨0, some 1, some 1⟩ ∧
    ∃ l, local_ptr_from_internal 0 one_edge_heap = some (one_edge_heap, l) ∧
      some (local_ptr_get l) = internal_ptr_get one_edge_heap 0 := by
  obtain ⟨l, a1, a2, _⟩ := (C22_local_ptr one_edge_heap).2.1 0 ⟨0, some 1, some 1⟩ rfl
    (by
      intro t ht
      cases ht
      exact ⟨⟨1, 2, [0], false, false, some 1⟩, rfl⟩)
  exact ⟨rfl, l, a1, a2⟩

theorem outside_of_path {s : Heap} {U : List Nat} (hd : dead_closed s U) {c z : Nat}
    (hp : bp_path s c z) (hz : z ∉ U) : c ∉ U ∧ bp_path_outside s U c z := by
  induction hp with
  | refl => exact ⟨hz, Relation.ReflTransGen.refl⟩
  | tail hcy he ih =>
    rename_i y z1
    have hy : y ∉ U := by
      intro hyU
      obtain ⟨hdy, e1, e2⟩ := he
      obtain ⟨hdy1, f1, _, f3⟩ := hd y hyU
      rw [e1] at f1; cases f1
      exact hz (f3 _ e2)
    obtain ⟨a1, a2⟩ := ih hy
    exact ⟨a1, Relation.ReflTransGen.tail a2 ⟨he, hz⟩⟩

/-- C24: on a finite header graph (every live header block lies below the allocation
frontier, and every back pointer of a live block is a live block), for every live header `h`
the static `check_reachable` started with `seen_parents = {h}`, `pending = [h]` and no
auxiliary sets returns; it returns `true` if and only if some header in the
reflexive-transitive closure of `h` under back pointers satisfies `is_owned()`; and when it
returns `false`, `pending` is empty and `seen_parents` is exactly that closure, each header
once (the vector is strictly sorted). -/
theorem C24_traversal {s : Heap}
    (hfront : ∀ x hd, s.headers x = some hd → x < s.next_header)
    (hlive : ∀ x hd, s.headers x = some hd → ∀ y ∈ hd.back_pointers,
      ∃ hd1, s.headers y = some hd1)
    (h : Nat) (hh : ∃ hd, s.headers h = some hd) :
    ∃ w, check_reachable_static s (add [] h) [h] none none = some w ∧
      (w.result = true ↔ ∃ z, bp_path s h z ∧ ∃ hd, s.headers z = some hd ∧ is_owned hd = true) ∧
      (w.result = false →
        w.pending = [] ∧ (∀ x, x ∈ w.seen_parents ↔ bp_path s h x) ∧
        w.seen_parents.Nodup ∧ w.seen_parents.Sorted (· < ·)) := by
  obtain ⟨hd, hT⟩ := hh
  obtain ⟨w, r1, r2, r3, r4, r5, r6, r7, r8⟩ :=
    check_reachable_loop_spec s none [h] [h] s.next_header hfront hlive
      (s.next_header + [h].length + 1) [h] [h] none
      (by simp) (by intro x hx; simp at hx; subst hx; exact ⟨hd, hT⟩)
      (by intro x hx; exact Or.inl hx)
      (by intro x hx; left; rcases hx with h | h <;> exact h)
      (by intro x hx; simp at hx; subst hx; exact ⟨x, by simp, Relation.ReflTransGen.refl⟩)
      (by intro x hx; exact Or.inl hx) (by intro v hv; cases hv)
      (by have := unseen_le s.next_header [h]; simp; omega)
  have hin : h ∈ w.seen_parents := r3 h (by simp)
  have hdead : w.result = false → dead_closed s w.seen_parents := by
    intro c2
    obtain ⟨_, _, q3⟩ := r8 c2
    intro u hu
    rcases q3 u (Or.inl hu) with h1 | ⟨hdu, h1, h2, h3⟩
    · simp [opt_contains] at h1
    · refine ⟨hdu, h1, h2, fun y hy => ?_⟩
      rcases h3 y hy with h4 | h4
      · simp [opt_contains] at h4
      · exact h4
  refine ⟨w, by unfold check_reachable_static; rw [add_nil]; exact r1, ?_, ?_⟩
  · constructor
    · intro c
      obtain ⟨i, hi, ho⟩ := r7 c
      simp at hi; subst hi
      exact ho
    · intro ho
      by_contra c
      simp only [Bool.not_eq_true] at c
      exact dead_closed_not_has_owner (hdead c) hin ho
  · intro c
    refine ⟨(r8 c).1, fun x => ⟨fun hx => ?_, fun hp => dead_closed_path (hdead c) hp hin⟩,
      List.Sorted.nodup r2, r2⟩
    rcases r4 x hx with h1 | ⟨i, hi, hp⟩
    · simp at h1; subst h1; exact Relation.ReflTransGen.refl
    · simp at hi; subst hi; exact hp

/-- C24 (witness): the traversal started at node 0 of the ring of three rooted nodes. -/
theorem C24_witness :
    ∃ w, check_reachable_static ring3_heap (add [] 0) [0] none none = some w ∧
      (w.result = true ↔
        ∃ z, bp_path ring3_heap 0 z ∧
          ∃ hd, ring3_heap.headers z = some hd ∧ is_owned hd = true) := by
  have hg := graph_ok_of_inv (sound_of_reachable reachable_ring3).good0.inv0
    (by intro p ip t _ e; cases e)
  obtain ⟨w, a1, a2, _⟩ := C24_traversal hg.header_lt hg.bp_live 0
    ⟨⟨1, 2, [2], false, false, some 0⟩, rfl⟩
  exact ⟨w, a1, a2⟩

/-- C25: on a well-formed header graph (nothing that the traversals dereference dangles), let
`S0` be a set (a sorted vector without repetition) of live headers none of which satisfies
`is_owned()` and which is closed under back pointers.  `find_unreachable_children` returns a
set `U` such that: (a) `S0` is a subset of `U`; (b) no member of `U` satisfies `is_owned()` and
every back pointer of a member of `U` is in `U`; (c) every target of a handle registered with
the payload of a member of `U` is in `U`, or is outside `U` and has a back-pointer path of
length `>= 0` through headers outside `U` to a header that satisfies `is_owned()`. -/
theorem C25_unreachable_children {s : Heap} (hg : graph_ok s) (S0 : List Nat)
    (hs : S0.Sorted (· ≤ ·)) (hn : S0.Nodup) (hd : dead_closed s S0) :
    ∃ U, find_unreachable_children s S0 = some U ∧ U.Sorted (· ≤ ·) ∧ U.Nodup ∧
      (∀ x ∈ S0, x ∈ U) ∧
      (∀ u ∈ U, ∃ hdu, s.headers u = some hdu ∧ is_owned hdu = false ∧
        ∀ y ∈ hdu.back_pointers, y ∈ U) ∧
      (∀ u ∈ U, ∀ hdu b base, s.headers u = some hdu → hdu.get_internal_base = some b →
        s.bases b = some base → ∀ p ∈ base.pointers, ∀ ip c, s.iptrs p = some ip →
          ip.header = some c →
            c ∈ U ∨ (c ∉ U ∧ ∃ z, bp_path_outside s U c z ∧ z ∉ U ∧
              ∃ hdz, s.headers z = some hdz ∧ is_owned hdz = true)) := by
  obtain ⟨U, a1, a2, a3, a4, a5, a6⟩ := find_unreachable_children_spec hg hs hn hd
  refine ⟨U, a1, a2, a3, a5, a4, ?_⟩
  intro u hu hdu b base h1 h2 h3 p hp ip c h4 h5
  rcases a6 u hu hdu b base h1 h2 h3 p hp ip c h4 h5 with hc | ⟨z, hpz, hdz, hz1, hz2⟩
  · exact Or.inl hc
  · right
    have hzU : z ∉ U := by
      intro hz
      obtain ⟨hdz1, f1, f2, _⟩ := a4 z hz
      rw [hz1] at f1; cases f1
      rw [hz2] at f2; cases f2
    obtain ⟨b1, b2⟩ := outside_of_path a4 hpz hzU
    exact ⟨b1, z, b2, hzU, hdz, hz1, hz2⟩

/-- C25 (witness): the ring of three nodes at the moment its last root has decremented the
counters of node 0; the set of the three nodes is closed and has no owned member. -/
theorem C25_witness :
    ∃ U, find_unreachable_children (ring3_last_heap.released 0) [0, 1, 2] = some U ∧
      (∀ x ∈ [0, 1, 2], x ∈ U) := by
  have hs := sound_of_reachable reachable_ring3_last
  obtain ⟨_, _, hinv, _⟩ := @remove_owner_run ring3_last_heap 0 0 ⟨some 0, some 0⟩
    ⟨1, 2, [2], false, false, some 0⟩ hs.good0.inv0 hs.good0.owned rfl rfl rfl
  have hg := graph_ok_of_inv hinv (by intro p ip t _ e; cases e)
  obtain ⟨U, a1, _, _, a4, _⟩ := C25_unreachable_children hg [0, 1, 2] (by simp) (by simp)
    (by
      intro u hu
      simp only [List.mem_cons, List.mem_singleton, List.not_mem_nil, or_false] at hu
      rcases hu with rfl | rfl | rfl
      · exact ⟨⟨0, 1, [2], false, false, some 0⟩, rfl, rfl, by simp⟩
      · exact ⟨⟨0, 1, [0], false, false, some 1⟩, rfl, rfl, by simp⟩
      · exact ⟨⟨0, 1, [1], false, false, some 2⟩, rfl, rfl, by simp⟩)
  exact ⟨U, a1, a4⟩

/-- A handle registered with the payload of the live header `H`, at a moment at which the
handle `exI` (if any) is not registered with that payload: it is a live handle, counted, held
by an `internal_base` whose `self_header` is `H`. -/
theorem held_of_mem_ex {s : Heap} {exI exR : Option Nat} (hi : inv_core s exI exR) {H q : Nat}
    {hd : root_ptr_header_block_base} (hH : s.headers H = some hd)
    (hhb : ∀ b, hd.get_internal_base = some b →
      ∃ base, s.bases b = some base ∧ base.self_header = some H)
    (hex : ∀ p, exI = some p → ∀ b base, hd.get_internal_base = some b →
      s.bases b = some base → p ∉ base.pointers)
    (hq : q ∈ payload_handles s H) :
    ∃ iq base, s.iptrs q = some iq ∧ s.bases iq.base = some base ∧
      base.self_header = some H ∧ some q ≠ exI := by
  obtain ⟨hd1, b, base, h1, h2, h3, h4⟩ := mem_payload_handles.1 hq
  rw [hH] at h1; cases h1
  obtain ⟨iq, e1, e2⟩ := hi.ptr_of_base b base h3 q h4
  obtain ⟨base1, f1, f2⟩ := hhb b h2
  subst e2
  exact ⟨iq, base1, e1, f1, f2, fun e => hex q e.symm _ base h2 h3 h4⟩

/-- A counted handle held by an `internal_base` whose `self_header` is `H` is registered with
the payload of `H`. -/
theorem mem_of_held_ex {s : Heap} {exI exR : Option Nat} (hi : inv_core s exI exR) {H q : Nat}
    {iq : internal_ptr} {base : internal_base} (hq : s.iptrs q = some iq)
    (hne : some q ≠ exI) (hb : s.bases iq.base = some base)
    (hsh : base.self_header = some H) : q ∈ payload_handles s H := by
  obtain ⟨hd, e1, e2⟩ := hi.header_of_base iq.base base H hb hsh
  obtain ⟨base1, f1, f2⟩ := hi.base_of_ptr q iq hq hne
  exact mem_payload_handles.2 ⟨hd, iq.base, base1, e1, e2, f1, f2⟩

theorem from_false_of_not_mem_ex {s : Heap} {exI exR : Option Nat} (hi : inv_core s exI exR)
    {H q : Nat} (hq : q ∉ payload_handles s H) (T : Nat) :
    iptr_targets_from s exI T H q = false := by
  unfold iptr_targets_from iptr_targets
  by_cases hne : some q = exI
  · simp [hne]
  · cases hq0 : s.iptrs q with
    | none => simp
    | some iq =>
      simp only
      cases hb0 : s.bases iq.base with
      | none => simp
      | some base =>
        simp only
        by_cases e : base.self_header = some H
        · exact absurd (mem_of_held_ex hi hq0 hne hb0 e) hq
        · simp [e]

theorem from_eq_of_mem_ex {s : Heap} {exI exR : Option Nat} (hi : inv_core s exI exR)
    {H q : Nat} {hd : root_ptr_header_block_base} (hH : s.headers H = some hd)
    (hhb : ∀ b, hd.get_internal_base = some b →
      ∃ base, s.bases b = some base ∧ base.self_header = some H)
    (hex : ∀ p, exI = some p → ∀ b base, hd.get_internal_base = some b →
      s.bases b = some base → p ∉ base.pointers)
    (hq : q ∈ payload_handles s H) (T : Nat) :
    iptr_targets_from s exI T H q = iptr_targets s exI T q ∧
    iptr_targets_bound s exI T q = iptr_targets s exI T q ∧
    iptr_targets s exI T q = iptr_targets s none T q ∧
    ∀ P, P ≠ H → iptr_targets_from s exI T P q = false := by
  obtain ⟨iq, base, h1, h2, h3, h4⟩ := held_of_mem_ex hi hH hhb hex hq
  unfold iptr_targets_from iptr_targets_bound iptr_targets
  rw [h1]; simp only; rw [h2]; simp only; rw [h3]
  refine ⟨by simp, by simp, by simp [h4], fun P hP => ?_⟩
  have : ¬ (some H = some P) := fun e => hP (Option.some.inj e).symm
  simp [this]

/-- C27: at any moment at which the counting invariant holds (`exI` and `exR` being the
handles, if any, whose removal is in progress), let `H` be a live header block whose payload,
when it is an `internal_base`, has `H` as its `self_header` and does not hold `exI`.
`mark_unreachable` on `H` returns.  Afterwards `H` is flagged `unreachable`; every handle
registered with the payload of `H` has a nil target header; the handles of every other
payload are not touched; no `internal_base` and no `root_ptr` changes; the only event logged is `marked H`, and no header
block is freed or allocated.  For every live header `T`, with `k` the number of handles
registered with the payload of `H` whose target is `T`: `internal_count` of `T` has
decreased by exactly `k`; `H` occurred `k` times among the back pointers of `T` and does not
occur afterwards, every other back pointer occurs as often as before, and the length of the
vector has decreased by `k`; `owner_count` and `get_internal_base` are unchanged, `deleted`
is unchanged, and `unreachable` is unchanged when `T` is not `H`. -/
theorem C27_mark_unreachable {s : Heap} {exI exR : Option Nat} (hi : inv_core s exI exR)
    (H : Nat) (hd : root_ptr_header_block_base) (hH : s.headers H = some hd)
    (hhb : ∀ b, hd.get_internal_base = some b →
      ∃ base, s.bases b = some base ∧ base.self_header = some H)
    (hex : ∀ p, exI = some p → ∀ b base, hd.get_internal_base = some b →
      s.bases b = some base → p ∉ base.pointers) :
    ∃ s1, mark_unreachable H s = some s1 ∧
      (∃ hd1, s1.headers H = some hd1 ∧ hd1.unreachable = true) ∧
      (∀ q ∈ payload_handles s H, ∃ ip1, s1.iptrs q = some ip1 ∧ ip1.header = none) ∧
      (∀ q, q ∉ payload_handles s H → s1.iptrs q = s.iptrs q) ∧
      s1.bases = s.bases ∧ s1.roots = s.roots ∧
      s1.trace = s.trace ++ [Event.marked H] ∧
      s1.next_header = s.next_header ∧
      (∀ x, s1.headers x = none ↔ s.headers x = none) ∧
      ∀ T hdT, s.headers T = some hdT →
        ∃ hdT1, s1.headers T = some hdT1 ∧
          iptr_count_from s exI T H =
            (payload_handles s H).countP (fun q => iptr_targets s none T q) ∧
          hdT1.internal_count + iptr_count_from s exI T H = hdT.internal_count ∧
          hdT.back_pointers.count H = iptr_count_from s exI T H ∧
          hdT1.back_pointers.count H = 0 ∧
          (∀ P, P ≠ H → hdT1.back_pointers.count P = hdT.back_pointers.count P) ∧
          hdT1.back_pointers.length + iptr_count_from s exI T H =
            hdT.back_pointers.length ∧
          hdT1.owner_count = hdT.owner_count ∧
          hdT1.get_internal_base = hdT.get_internal_base ∧
          hdT1.deleted = hdT.deleted ∧
          (T ≠ H → hdT1.unreachable = hdT.unreachable) := by
  obtain ⟨s1, a1, a2, a3, a4, a5, a6, a7, _, a9, a10⟩ :=
    mark_unreachable_ok (Z := [H]) hi (by simp) hH hhb hex
  have hmem : ∀ q, q ∈ payload_handles s H ↔ ∃ b base, hd.get_internal_base = some b ∧
      s.bases b = some base ∧ q ∈ base.pointers := by
    intro q
    rw [mem_payload_handles]
    constructor
    · rintro ⟨hd1, b, base, h1, h2, h3, h4⟩
      rw [hH] at h1; cases h1
      exact ⟨b, base, h2, h3, h4⟩
    · rintro ⟨b, base, h2, h3, h4⟩
      exact ⟨hd, b, base, hH, h2, h3, h4⟩
  have hgone : ∀ q ∈ payload_handles s H, ∃ ip1, s1.iptrs q = some ip1 ∧ ip1.header = none := by
    intro q hq
    obtain ⟨b, base, h2, h3, h4⟩ := (hmem q).1 hq
    exact a9 b base h2 h3 q h4
  have hkept : ∀ q, q ∉ payload_handles s H → s1.iptrs q = s.iptrs q := by
    intro q hq
    apply a7
    intro b base h2 h3 h4
    exact hq ((hmem q).2 ⟨b, base, h2, h3, h4⟩)
  have hlive : ∀ x, s1.headers x = none ↔ s.headers x = none := by
    intro x
    constructor
    · intro h1
      cases h0 : s.headers x with
      | none => rfl
      | some hd0 =>
        obtain ⟨hd1, e1, _⟩ := a3.headers_some x hd0 h0
        rw [h1] at e1; cases e1
    · exact a3.headers_none x
  refine ⟨s1, a1, a6, hgone, hkept, a4, a3.roots, a5, a3.next_header, hlive, ?_⟩
  intro T hdT hT
  obtain ⟨hdT1, hT1, hstep, hfl⟩ := a3.headers_some T hdT hT
  have g1 : ∀ q, q ∈ payload_handles s H → ∀ P,
      iptr_targets s1 exI T q = false ∧ iptr_targets_from s1 exI T P q = false ∧
      iptr_targets_bound s1 exI T q = false := by
    intro q hq P
    obtain ⟨ip1, e1, e2⟩ := hgone q hq
    unfold iptr_targets_from iptr_targets_bound iptr_targets
    rw [e1]; simp [e2]
  have g2 : ∀ q, q ∉ payload_handles s H → ∀ P,
      iptr_targets s1 exI T q = iptr_targets s exI T q ∧
      iptr_targets_from s1 exI T P q = iptr_targets_from s exI T P q ∧
      iptr_targets_bound s1 exI T q = iptr_targets_bound s exI T q := by
    intro q hq P
    unfold iptr_targets_from iptr_targets_bound iptr_targets
    rw [hkept q hq, a4]
    exact ⟨rfl, rfl, rfl⟩
  have hdis : ∀ q, iptr_targets_from s exI T H q = true → q ∈ payload_handles s H := by
    intro q hq
    by_contra hc
    rw [from_false_of_not_mem_ex hi hc T] at hq
    cases hq
  have hiptr : iptr_count s exI T = iptr_count s1 exI T + iptr_count_from s exI T H := by
    unfold iptr_count iptr_count_from
    rw [a3.next_iptr, ← count_upto_or (fun q h1 h2 => by
      rw [(g1 q (hdis q h2) H).1] at h1; cases h1)]
    apply count_upto_congr
    intro q _
    by_cases hq : q ∈ payload_handles s H
    · rw [(g1 q hq H).1, (from_eq_of_mem_ex hi hH hhb hex hq T).1]; simp
    · rw [(g2 q hq H).1, from_false_of_not_mem_ex hi hq T]; simp
  have hbound : iptr_count_bound s exI T =
      iptr_count_bound s1 exI T + iptr_count_from s exI T H := by
    unfold iptr_count_bound iptr_count_from
    rw [a3.next_iptr, ← count_upto_or (fun q h1 h2 => by
      rw [(g1 q (hdis q h2) H).2.2] at h1; cases h1)]
    apply count_upto_congr
    intro q _
    by_cases hq : q ∈ payload_handles s H
    · rw [(g1 q hq H).2.2, (from_eq_of_mem_ex hi hH hhb hex hq T).1,
        (from_eq_of_mem_ex hi hH hhb hex hq T).2.1]; simp
    · rw [(g2 q hq H).2.2, from_false_of_not_mem_ex hi hq T]; simp
  have hfromH : iptr_count_from s1 exI T H = 0 := by
    unfold iptr_count_from
    apply count_upto_zero
    intro q _
    by_cases hq : q ∈ payload_handles s H
    · exact (g1 q hq H).2.1
    · rw [(g2 q hq H).2.1]; exact from_false_of_not_mem_ex hi hq T
  have hfromP : ∀ P, P ≠ H → iptr_count_from s1 exI T P = iptr_count_from s exI T P := by
    intro P hP
    unfold iptr_count_from
    rw [a3.next_iptr]
    apply count_upto_congr
    intro q _
    by_cases hq : q ∈ payload_handles s H
    · rw [(g1 q hq P).2.1, (from_eq_of_mem_ex hi hH hhb hex hq T).2.2.2 P hP]
    · exact (g2 q hq P).2.1
  have hk : iptr_count_from s exI T H =
      (payload_handles s H).countP (fun q => iptr_targets s none T q) := by
    have hnd : (payload_handles s H).Nodup := by
      unfold payload_handles
      rw [hH]; simp only
      cases hgb : hd.get_internal_base with
      | none => simp
      | some b =>
        simp only
        cases hb : s.bases b with
        | none => simp
        | some base => exact hi.pointers_nodup b base hb
    rw [← count_upto_list (n := s.next_iptr) (fun q => iptr_targets s none T q) hnd
      (fun q hq => by
        obtain ⟨iq, _, e1, _⟩ := held_of_mem_ex hi hH hhb hex hq
        exact hi.iptr_lt q iq e1)]
    unfold iptr_count_from
    apply count_upto_congr
    intro q _
    by_cases hq : q ∈ payload_handles s H
    · obtain ⟨e1, _, e3, _⟩ := from_eq_of_mem_ex hi hH hhb hex hq T
      rw [e1, e3]; simp [hq]
    · rw [from_false_of_not_mem_ex hi hq T]; simp [hq]
  have o1 := a2.owner_count_eq T hdT1 hT1
  have i1 := a2.internal_count_eq T hdT1 hT1
  have i0 := hi.internal_count_eq T hdT hT
  have l1 := a2.bp_length T hdT1 hT1
  have l0 := hi.bp_length T hdT hT
  have ho := hstep.owner
  refine ⟨hdT1, hT1, hk, by omega, hi.bp_count T hdT hT H, ?_, ?_, by omega, ho, hstep.gib,
    a10 T hdT hdT1 hT hT1, fun hne => (hfl (by simpa using hne)).1⟩
  · rw [a2.bp_count T hdT1 hT1 H, hfromH]
  · intro P hP
    rw [a2.bp_count T hdT1 hT1 P, hi.bp_count T hdT hT P, hfromP P hP]

/-- C27 (witness): `mark_unreachable` on the header of the object `A` of `two_edges_heap`,
whose payload holds two handles with target `X`. -/
theorem C27_witness :
    reachable two_edges_heap ∧
    two_edges_heap.headers 0 = some ⟨1, 1, [], false, false, some 0⟩ ∧
    ∃ s1, mark_unreachable 0 two_edges_heap = some s1 ∧
      ∃ hdT1, s1.headers 1 = some hdT1 ∧ hdT1.internal_count + 2 = 3 ∧
        hdT1.back_pointers.count 0 = 0 ∧ hdT1.owner_count = 1 := by
  have hinv := (sound_of_reachable reachable_two_edges).good0.inv0
  obtain ⟨s1, a1, _, _, _, _, _, _, _, _, a10⟩ :=
    C27_mark_unreachable hinv.core 0 ⟨1, 1, [], false, false, some 0⟩ rfl
      (fun b hb => hinv.header_base 0 _ b rfl (by simp) hb)
      (by intro p hp; cases hp)
  obtain ⟨hdT1, b1, _, b3, b4, b5, _, _, b8, _⟩ :=
    a10 1 ⟨1, 3, [0, 0], false, false, some 1⟩ rfl
  have hk : iptr_count_from two_edges_heap none 1 0 = 2 := by rw [← b4]; rfl
  rw [hk] at b3
  exact ⟨reachable_two_edges, rfl, s1, a1, hdT1, b1, b3, b5, b8⟩

/-- The heap in which the third loop of `cleanup_unreachable_nodes(Z)` starts: every member of
`Z` has no owner, no reference and no back pointer left. -/
theorem cleanup_zero {s : Heap} {exI exR : Option Nat} {Z : List Nat}
    (nrf : Nat → Nat → Heap → Option Heap)
    (hinv : inv s exI exR) (hnd : Z.Nodup) (hdead : dead_closed s Z)
    (hex : excluded s exI Z) :
    ∃ s1 s2 s3, mark_all Z s = some s1 ∧ delete_all nrf Z s1 = some s2 ∧
      free_all Z s2 = some s3 ∧ cleanup_unreachable_nodes nrf Z s = some s3 ∧
      (∀ u ∈ Z, ∃ hd, s2.headers u = some hd ∧ hd.owner_count = 0 ∧
        hd.internal_count = 0 ∧ hd.back_pointers = []) ∧
      (∀ u ∈ Z, s3.headers u = none) ∧
      (∀ x, x ∉ Z → (s3.headers x = none ↔ s.headers x = none)) := by
  obtain ⟨s3, c1, _, c3, s1, s2, p1, p2, p3, _⟩ := cleanup_passes nrf hinv hnd hdead hex
  have hlive : ∀ u ∈ Z, ∃ hd, s.headers u = some hd := by
    intro u hu; obtain ⟨hd, h1, _⟩ := hdead u hu; exact ⟨hd, h1⟩
  have hhb : ∀ u hd b, s.headers u = some hd → hd.get_internal_base = some b →
      ∃ base, s.bases b = some base ∧ base.self_header = some u :=
    fun u hd b h1 h2 => hinv.header_base u hd b h1 (by simp) h2
  obtain ⟨s1', a1, a2, a3, a4, a5, a6, a7, a8, a9, a10⟩ :=
    mark_all_ok (Z := Z) Z hinv.core (fun _ h => h) hlive
      (fun u _ hd b h1 h2 => hhb u hd b h1 h2) hex
  rw [p1] at a1; cases a1
  have hph1 : ∀ u, u ∈ Z → payload_handles s1 u = payload_handles s u := by
    intro u hu
    obtain ⟨hd, h1⟩ := hlive u hu
    obtain ⟨hd1, e1, e2, _⟩ := a3.headers_some u hd h1
    exact payload_handles_congr h1 e1 e2.gib a4
  have hnil1 : ∀ u ∈ Z, ∀ q ∈ payload_handles s1 u,
      ∃ ip, s1.iptrs q = some ip ∧ ip.header = none := by
    intro u hu q hq
    rw [hph1 u hu] at hq
    obtain ⟨hd, b, base, e1, e2, e3, e4⟩ := mem_payload_handles.1 hq
    exact a9 u hu hd b base e1 e2 e3 q e4
  have hdead1 : dead_closed s1 Z := by
    intro u hu
    obtain ⟨hd, h1, h2, h3⟩ := hdead u hu
    obtain ⟨hd1, e1, e2, _⟩ := a3.headers_some u hd h1
    exact ⟨hd1, e1, e2.owned.trans h2, fun y hy => h3 y (e2.bp_sub y hy)⟩
  have hzero : ∀ u ∈ Z, ∃ hd1, s1.headers u = some hd1 ∧ hd1.owner_count = 0 ∧
      hd1.internal_count = 0 ∧ hd1.back_pointers = [] := by
    intro u hu
    obtain ⟨hd1, e1, e2, e3⟩ := hdead1 u hu
    have hbp : hd1.back_pointers = [] := by
      apply List.eq_nil_iff_forall_not_mem.2
      intro P hP
      exact bp_nil_of_severed a2 hnil1 e1 P (e3 P hP) hP
    obtain ⟨f1, f2⟩ := (is_owned_false_iff hd1).1 e2
    rw [hbp] at f2
    exact ⟨hd1, e1, f1, by simpa using f2, hbp⟩
  have hex1 : ∀ u ∈ Z, ∀ q ∈ payload_handles s1 u, some q ≠ exI := by
    intro u hu q hq
    rw [hph1 u hu] at hq
    obtain ⟨hd, b, base, e1, e2, e3, e4⟩ := mem_payload_handles.1 hq
    intro e
    exact hex q e.symm u hu hd b base e1 e2 e3 e4
  have hready : ∀ u ∈ Z, ready_to_delete s1 exI u := by
    intro u hu
    obtain ⟨hd, h1⟩ := hlive u hu
    obtain ⟨hd1, e1, e2, _⟩ := a3.headers_some u hd h1
    refine ⟨⟨hd1, e1, ?_, ?_⟩, hnil1 u hu, hex1 u hu⟩
    · rw [a10 u hd hd1 h1 e1]; exact (hinv.flags u hd h1 (by simp)).2
    · intro b hb
      rw [a4]; exact hhb u hd b h1 (e2.gib ▸ hb)
  obtain ⟨s2', b1, _, b3, _⟩ := delete_all_ok nrf Z a2 hnd hready
  rw [p2] at b1; cases b1
  refine ⟨s1, s2, s3, p1, p2, p3, c1, ?_, c3.freed, ?_⟩
  · intro u hu
    obtain ⟨hd1, e1, z1, z2, z3⟩ := hzero u hu
    obtain ⟨hd2, f1, f2, _⟩ := b3 u hd1 e1
    exact ⟨hd2, f1, by rw [f2.1, z1], by rw [f2.2.1, z2], by rw [f2.2.2.1, z3]⟩
  · intro x hx
    constructor
    · intro h3
      cases h0 : s.headers x with
      | none => rfl
      | some hd0 =>
        obtain ⟨hd1, e1, _⟩ := c3.kept x hd0 hx h0
        rw [h3] at e1; cases e1
    · exact c3.headers_none x

/-- From the description of a run of `dec_internal_count` to the state of the collected
headers when their blocks are freed. -/
theorem zero_of_ran {m s2 : Heap} {exI exR : Option Nat} {T : Nat} {U : List Nat}
    {nrf : Nat → Nat → Heap → Option Heap} (hinv : inv m exI exR)
    (hex : excluded m exI U) (d : dec_result T m s2 exI exR U) (hr : ran nrf T m s2 U) :
    frees_at_zero nrf T m s2 := by
  rcases hr with ⟨_, e⟩ | ⟨b1, b2, _⟩
  · exact Or.inl e
  · obtain ⟨s1, sb, s3, a1, a2, a3, a4, a5, a6, a7⟩ :=
      cleanup_zero nrf hinv d.nodup d.dead hex
    rw [b2] at a4; cases a4
    exact Or.inr ⟨U, s1, sb, b1, b2, a1, a2, a3, a5, a6, a7⟩

/-- The call `not_reachable_from` at a moment described by the invariant, with the
description of what `dec_internal_count` ran. -/
theorem not_reachable_from_body_core_run {s : Heap} {exI exR : Option Nat} {T b : Nat}
    {hd : root_ptr_header_block_base} {bs : internal_base}
    (nrf : Nat → Nat → Heap → Option Heap)
    (hT : s.headers T = some hd) (hb : s.bases b = some bs) (hpos : 1 ≤ hd.internal_count)
    (hinv : inv (s.unlinked T bs.self_header) exI exR)
    (hext : ∀ p ip t, s.iptrs p = some ip → some p = exI → ip.header = some t →
      ∃ hd, (s.unlinked T bs.self_header).headers t = some hd)
    (hexh : ∀ p, exI = some p → ∀ u hd b base,
      (s.unlinked T bs.self_header).headers u = some hd →
      hd.get_internal_base = some b → s.bases b = some base → p ∈ base.pointers →
      has_owner (s.unlinked T bs.self_header) u)
    (hcomplete : ∀ x hd, (s.unlinked T bs.self_header).headers x = some hd →
      has_owner (s.unlinked T bs.self_header) x ∨ bp_path (s.unlinked T bs.self_header) x T) :
    ∃ U s2, not_reachable_from_body nrf T b s = some s2 ∧
      ran nrf T (s.unlinked T bs.self_header) s2 U ∧
      dec_result T (s.unlinked T bs.self_header) s2 exI exR U := by
  rw [unlinked_eq hT] at hinv hext hexh hcomplete ⊢
  unfold not_reachable_from_body
  rw [hT, hb]; simp only
  cases hshc : bs.self_header with
  | none =>
    simp only
    rw [hshc] at hinv hext hexh hcomplete
    have hhd1b : unlink_header hd none = { hd with internal_count := hd.internal_count - 1 } := by
      unfold unlink_header; simp only [dec_pos hpos]
    exact dec_internal_count_run
      (s := s) (T := T) nrf hT hpos hhd1b
      hinv hext hexh hcomplete
  | some sh =>
    simp only
    rw [hshc] at hinv hext hexh hcomplete
    have hhd1b : unlink_header hd (some sh) =
        { ({ hd with back_pointers := remove hd.back_pointers sh } :
        root_ptr_header_block_base) with internal_count := hd.internal_count - 1 } := by
      unfold unlink_header; simp only [dec_pos hpos]
    have hst : (s.set_header T (some { hd with
        back_pointers := remove hd.back_pointers sh })).set_header T
          (some (unlink_header hd (some sh))) = s.set_header T
            (some (unlink_header hd (some sh))) := by
      rw [set_header_set_header]
    obtain ⟨U, s2, a1, a2, a3⟩ := dec_internal_count_run
      (s := s.set_header T (some { hd with back_pointers := remove hd.back_pointers sh }))
      (T := T) nrf
      (show (s.set_header T (some { hd with
        back_pointers := remove hd.back_pointers sh })).headers T =
          some { hd with back_pointers := remove hd.back_pointers sh } by simp) hpos hhd1b
      (by rw [hst]; exact hinv) (by rw [hst]; exact hext)
      (by rw [hst]; exact hexh) (by rw [hst]; exact hcomplete)
    rw [hst] at a2 a3
    exact ⟨U, s2, a1, a2, a3⟩

/-- The call `not_reachable_from` of the old target made by `operator=`, with the description
of what `dec_internal_count` ran. -/
theorem assign_collect_run {s : Heap} {p T : Nat} {ip ip1 : internal_ptr} {bs : internal_base}
    (hg : good s) (hp : s.iptrs p = some ip) (hh : ip.header = some T)
    (hb : s.bases ip.base = some bs) (hip1 : ip1.base = ip.base)
    (hN : ∀ N, ip1.header = some N → ∃ hd, s.headers N = some hd) :
    ∃ U s3, not_reachable_from T ip.base (s.retargeted p ip1 bs.self_header) = some s3 ∧
      ran (not_reachable_from_depth s.next_header) T
        ((s.retargeted p ip1 bs.self_header).unlinked T bs.self_header) s3 U ∧
      dec_result T ((s.retargeted p ip1 bs.self_header).unlinked T bs.self_header) s3
        none none U ∧
      inv ((s.retargeted p ip1 bs.self_header).unlinked T bs.self_header) none none := by
  obtain ⟨hd, hT⟩ := hg.inv0.core.target_live p ip T hp (by simp) hh
  obtain ⟨hedge, hpos, _, hmem⟩ := target_counts hg.inv0.core hp hh hb hT
  have hmid := assign_mid_inv hg hp hh hb hT hip1 hN
  obtain ⟨bA, bB, bC, bD, bE⟩ := retargeted_rest s p ip1 bs.self_header
  obtain ⟨s2, hs2⟩ : ∃ s2, s2 = s.retargeted p ip1 bs.self_header := ⟨_, rfl⟩
  rw [← hs2] at hmid bA bB bC bD bE ⊢
  have hT2 : ∃ hd2, s2.headers T = some hd2 ∧ 1 ≤ hd2.internal_count := by
    rcases (retargeted_headers (p := p) T).2 hd hT
      with h | ⟨_, h⟩
    · exact ⟨hd, hs2 ▸ h, hpos⟩
    · exact ⟨_, hs2 ▸ h, by unfold link_header; simp⟩
  obtain ⟨hd2, hT2, hpos2⟩ := hT2
  obtain ⟨uA, uB, uC, uD, uE, uF⟩ := unlinked_rest s2 T bs.self_header
  have hcomp := complete_after_removal (T := T)
    hg.owned
    (fun x hdx hxt hx => by
      rw [uF x hxt]
      rcases (retargeted_headers (p := p) x).2 hdx hx
        with h | ⟨_, h⟩
      · exact ⟨hdx, hs2 ▸ h, fun _ h => h, id⟩
      · exact ⟨_, hs2 ▸ h, fun y hy => mem_link _ hy, is_owned_link _⟩)
    (fun x hdx hx => by
      by_cases hxt : x = T
      · subst hxt; exact ⟨hd, hT⟩
      · rw [uF x hxt] at hx
        cases h0 : s.headers x with
        | none =>
          have h9 : (s.retargeted p ip1 bs.self_header).headers x = none :=
            (retargeted_headers x).1 h0
          rw [← hs2, hx] at h9; cases h9
        | some hd0 => exact ⟨hd0, rfl⟩)
  obtain ⟨U, s3, a1, a2, a3⟩ := not_reachable_from_body_core_run
    (not_reachable_from_depth s2.next_header) hT2 (by rw [bA]; exact hb) hpos2 hmid
    (by intro _ _ _ _ h; cases h) (by intro _ h; cases h) hcomp
  rw [bD] at a1 a2
  exact ⟨U, s3, by rw [not_reachable_from_unfold, bD, a1], a2, a3, hmid⟩

/-- C28: in every heap `s` reachable through the public handle operations, each call that
decrements a counter of a header `T` and may collect returns and satisfies `frees_at_zero`
from the heap `m` in which the counter has just been decremented: the call `remove_owner`
made by a `root_ptr` for the header it shares; the call `not_reachable_from` made by an
`internal_ptr` for its target in `reset()` (and in the assignment from a `root_ptr`, which
starts with `reset()`); the same call made by the destructor of the handle after it has
deregistered itself; and the same call made for the old target by the assignment between
handles after the new target has been linked.  That is: when any header block is freed, the
deallocation loop of `cleanup_unreachable_nodes` starts in a heap in which every member of
the collected set is a live header block with `internal_count == 0`, `owner_count == 0` and
empty `back_pointers`, and the blocks it frees are exactly the members of that set. -/
theorem C28_freed_at_zero {s : Heap} (h : reachable s) :
    (∀ r rp T, s.roots r = some rp → rp.header = some T →
      ∃ s3, remove_owner T s = some s3 ∧
        frees_at_zero (not_reachable_from_depth s.next_header) T (s.released T) s3) ∧
    (∀ p ip T bs, s.iptrs p = some ip → ip.header = some T → s.bases ip.base = some bs →
      (∃ s3, not_reachable_from T ip.base s = some s3 ∧
        frees_at_zero (not_reachable_from_depth s.next_header) T
          (s.unlinked T bs.self_header) s3) ∧
      (∃ s3, not_reachable_from T ip.base
          (s.set_base ip.base (some { bs with pointers := bs.pointers.erase p })) = some s3 ∧
        frees_at_zero (not_reachable_from_depth s.next_header) T
          ((s.set_base ip.base (some { bs with pointers := bs.pointers.erase p })).unlinked T
            bs.self_header) s3) ∧
      (∀ ip1 : internal_ptr, ip1.base = ip.base →
        (∀ N, ip1.header = some N → ∃ hd, s.headers N = some hd) →
        ∃ s3, not_reachable_from T ip.base (s.retargeted p ip1 bs.self_header) = some s3 ∧
          frees_at_zero (not_reachable_from_depth s.next_header) T
            ((s.retargeted p ip1 bs.self_header).unlinked T bs.self_header) s3)) := by
  have hs := sound_of_reachable h
  have hi := hs.good0.inv0.core
  constructor
  · intro r rp T hr hh
    obtain ⟨hd, hT⟩ := hi.root_target_live r rp T hr (by simp) hh
    obtain ⟨_, _, hinv, U, s2, a1, a3, a2⟩ :=
      remove_owner_run hs.good0.inv0 hs.good0.owned hr hh hT
    exact ⟨s2, a1, zero_of_ran hinv (by intro p hp; cases hp) a2 a3⟩
  · intro p ip T bs hp hh hb
    obtain ⟨hd, hT⟩ := hi.target_live p ip T hp (by simp) hh
    have key : ∀ s0 : Heap, (s0 = s ∨
        s0 = s.set_base ip.base (some { bs with pointers := bs.pointers.erase p })) →
        ∃ s3, not_reachable_from T ip.base s0 = some s3 ∧
          frees_at_zero (not_reachable_from_depth s.next_header) T
            (s0.unlinked T bs.self_header) s3 := by
      intro s0 hs0
      obtain ⟨U, s2, a1, a2, a3, _, a5⟩ := not_reachable_from_body_run
        (not_reachable_from_depth s.next_header) hs.good0 hp hh hb hT hs0
      have hnh : s0.next_header = s.next_header := by
        rcases hs0 with e | e <;> rw [e] <;> rfl
      refine ⟨s2, by rw [not_reachable_from_unfold, hnh]; exact a1,
        zero_of_ran (unlink_inv hs.good0.inv0 hp hh hb hT hs0) ?_ a2 a5⟩
      intro q hq u hu hdu b base h1 h2 h3 h4
      cases hq
      have := a2.col.iptrs_gone u hu p (mem_payload_handles.2 ⟨hdu, b, base, h1, h2, h3, h4⟩)
      rw [a3] at this; cases this
    refine ⟨key s (Or.inl rfl), key _ (Or.inr rfl), ?_⟩
    intro ip1 hip1 hN
    obtain ⟨U, s3, a1, a2, a3, a4⟩ := assign_collect_run hs.good0 hp hh hb hip1 hN
    exact ⟨s3, a1, zero_of_ran a4 (by intro q hq; cases hq) a3 a2⟩

/-- C28 (witness): the release of the last root of the ring of three nodes. -/
theorem C28_witness :
    reachable ring3_last_heap ∧
    ∃ s3, remove_owner 0 ring3_last_heap = some s3 ∧
      frees_at_zero (not_reachable_from_depth ring3_last_heap.next_header) 0
        (ring3_last_heap.released 0) s3 :=
  ⟨reachable_ring3_last,
    (C28_freed_at_zero reachable_ring3_last).1 0 ⟨some 0, some 0⟩ 0 rfl rfl⟩

theorem sticky_refl (s : Heap) : sticky s s :=
  ⟨fun _ h => h, fun h hd hd1 e e1 => by rw [e] at e1; cases e1; exact ⟨id, id⟩⟩

theorem sticky_trans {a b c : Heap} (h1 : sticky a b) (h2 : sticky b c) : sticky a c := by
  refine ⟨fun h e => h2.1 h (h1.1 h e), fun h hd hd2 e e2 => ?_⟩
  cases eb : b.headers h with
  | none => rw [h2.1 h eb] at e2; cases e2
  | some hdb =>
    have x := h1.2 h hd hdb e eb
    have y := h2.2 h hdb hd2 eb e2
    exact ⟨fun u => y.1 (x.1 u), fun u => y.2 (x.2 u)⟩

theorem sticky_of_headers {s s1 : Heap} (e : s1.headers = s.headers) : sticky s s1 :=
  ⟨fun h hh => by rw [e]; exact hh,
    fun h hd hd1 a b => by rw [e, a] at b; cases b; exact ⟨id, id⟩⟩

theorem sticky_set_header {s : Heap} {h : Nat} {hd hd1 : root_ptr_header_block_base}
    (hh : s.headers h = some hd) (hu : hd.unreachable = true → hd1.unreachable = true)
    (hdl : hd.deleted = true → hd1.deleted = true) :
    sticky s (s.set_header h (some hd1)) := by
  constructor
  · intro x hx
    by_cases e : x = h
    · subst e; rw [hh] at hx; cases hx
    · simp [Function.update_noteq e, hx]
  · intro x hdx hdx1 a b
    by_cases e : x = h
    · subst e
      rw [hh] at a; cases a
      simp at b; subst b
      exact ⟨hu, hdl⟩
    · simp [Function.update_noteq e] at b
      rw [a] at b; cases b
      exact ⟨id, id⟩

theorem sticky_free (s : Heap) (h : Nat) : sticky s (s.set_header h none) := by
  constructor
  · intro x hx
    by_cases e : x = h
    · subst e; simp
    · simp [Function.update_noteq e, hx]
  · intro x hdx hdx1 a b
    by_cases e : x = h
    · subst e; simp at b
    · simp [Function.update_noteq e] at b
      rw [a] at b; cases b
      exact ⟨id, id⟩

theorem sever_sticky {this child : Nat} {s s1 : Heap} (h : sever this child s = some s1) :
    sticky s s1 := by
  unfold sever at h
  cases hc : s.iptrs child with
  | none => rw [hc] at h; cases h
  | some ip =>
    rw [hc] at h; simp only at h
    cases hh : ip.header with
    | none => rw [hh] at h; cases h; exact sticky_refl s
    | some t =>
      rw [hh] at h; simp only at h
      cases ht : s.headers t with
      | none => rw [ht] at h; cases h
      | some hd =>
        rw [ht] at h; cases h
        exact sticky_trans (@sticky_set_header s t hd { hd with
          internal_count := dec hd.internal_count,
          back_pointers := remove hd.back_pointers this } ht id id) (sticky_of_headers rfl)

theorem sever_all_sticky {this : Nat} (ps : List Nat) :
    ∀ {s s1 : Heap}, sever_all this ps s = some s1 → sticky s s1 := by
  induction ps with
  | nil => intro s s1 h; cases h; exact sticky_refl s
  | cons p ps ih =>
    intro s s1 h
    unfold sever_all at h
    cases h1 : sever this p s with
    | none => rw [h1] at h; cases h
    | some s2 =>
      rw [h1] at h
      exact sticky_trans (sever_sticky h1) (ih h)

theorem mark_unreachable_sticky {u : Nat} {s s1 : Heap} (h : mark_unreachable u s = some s1) :
    sticky s s1 := by
  unfold mark_unreachable at h
  cases hu : s.headers u with
  | none => rw [hu] at h; cases h
  | some hd =>
    rw [hu] at h; simp only at h
    obtain ⟨S0, hS0⟩ : ∃ S0, S0 = (s.set_header u (some { hd with unreachable := true })).log
        (Event.marked u) := ⟨_, rfl⟩
    have h0 : sticky s S0 := by
      rw [hS0]
      exact sticky_trans (@sticky_set_header s u hd { hd with unreachable := true } hu
        (fun _ => rfl) id) (sticky_of_headers rfl)
    rw [← hS0] at h
    cases hb : hd.get_internal_base with
    | none => rw [hb] at h; cases h; exact h0
    | some b =>
      rw [hb] at h; simp only at h
      cases hbb : S0.bases b with
      | none => rw [hbb] at h; cases h
      | some base =>
        rw [hbb] at h
        exact sticky_trans h0 (sever_all_sticky _ h)

theorem mark_all_sticky (L : List Nat) :
    ∀ {s s1 : Heap}, mark_all L s = some s1 → sticky s s1 := by
  induction L with
  | nil => intro s s1 h; cases h; exact sticky_refl s
  | cons p ps ih =>
    intro s s1 h
    unfold mark_all at h
    cases h1 : mark_unreachable p s with
    | none => rw [h1] at h; cases h
    | some s2 =>
      rw [h1] at h
      exact sticky_trans (mark_unreachable_sticky h1) (ih h)

theorem free_header_sticky {p : Nat} {s s1 : Heap} (h : free_header p s = some s1) :
    sticky s s1 := by
  unfold free_header at h
  cases hp : s.headers p with
  | none => rw [hp] at h; cases h
  | some hd =>
    rw [hp] at h; cases h
    exact sticky_trans (sticky_free s p) (sticky_of_headers rfl)

theorem free_all_sticky (L : List Nat) :
    ∀ {s s1 : Heap}, free_all L s = some s1 → sticky s s1 := by
  induction L with
  | nil => intro s s1 h; cases h; exact sticky_refl s
  | cons p ps ih =>
    intro s s1 h
    unfold free_all at h
    cases h1 : free_header p s with
    | none => rw [h1] at h; cases h
    | some s2 =>
      rw [h1] at h
      exact sticky_trans (free_header_sticky h1) (ih h)

theorem deregister_ptr_sticky {nrf : Nat → Nat → Heap → Option Heap}
    (hn : ∀ h b s s1, nrf h b s = some s1 → sticky s s1) {b p : Nat} {s s1 : Heap}
    (h : deregister_ptr nrf b p s = some s1) : sticky s s1 := by
  unfold deregister_ptr at h
  cases hb : s.bases b with
  | none => rw [hb] at h; cases h
  | some base =>
    cases hp : s.iptrs p with
    | none => rw [hb, hp] at h; cases h
    | some ip =>
      rw [hb, hp] at h; simp only at h
      cases hh : ip.header with
      | none => rw [hh] at h; cases h; exact sticky_of_headers rfl
      | some t =>
        rw [hh] at h; simp only at h
        exact sticky_trans (b := s.set_base b
          (some { base with pointers := base.pointers.erase p }))
          (sticky_of_headers rfl) (hn _ _ _ _ h)

theorem destroy_internal_ptr_sticky {nrf : Nat → Nat → Heap → Option Heap}
    (hn : ∀ h b s s1, nrf h b s = some s1 → sticky s s1) {p : Nat} {s s1 : Heap}
    (h : destroy_internal_ptr nrf p s = some s1) : sticky s s1 := by
  unfold destroy_internal_ptr at h
  cases hp : s.iptrs p with
  | none => rw [hp] at h; cases h
  | some ip =>
    rw [hp] at h; simp only at h
    cases hd : deregister_ptr nrf ip.base p s with
    | none => rw [hd] at h; cases h
    | some s2 =>
      rw [hd] at h; cases h
      exact sticky_trans (deregister_ptr_sticky hn hd) (sticky_of_headers rfl)

theorem destroy_members_sticky {nrf : Nat → Nat → Heap → Option Heap}
    (hn : ∀ h b s s1, nrf h b s = some s1 → sticky s s1) (ps : List Nat) :
    ∀ {s s1 : Heap}, destroy_members nrf ps s = some s1 → sticky s s1 := by
  induction ps with
  | nil => intro s s1 h; cases h; exact sticky_refl s
  | cons p ps ih =>
    intro s s1 h
    unfold destroy_members at h
    cases h1 : destroy_internal_ptr nrf p s with
    | none => rw [h1] at h; cases h
    | some s2 =>
      rw [h1] at h
      exact sticky_trans (destroy_internal_ptr_sticky hn h1) (ih h)

theorem do_delete_sticky {nrf : Nat → Nat → Heap → Option Heap}
    (hn : ∀ h b s s1, nrf h b s = some s1 → sticky s s1) {u : Nat} {s s1 : Heap}
    (h : do_delete nrf u s = some s1) : sticky s s1 := by
  unfold do_delete at h
  cases hu : s.headers u with
  | none => rw [hu] at h; cases h
  | some hd =>
    rw [hu] at h; simp only at h
    cases hb : hd.get_internal_base with
    | none => rw [hb] at h; cases h; exact sticky_of_headers rfl
    | some b =>
      rw [hb] at h; simp only at h
      cases hbb : s.bases b with
      | none => rw [hbb] at h; cases h
      | some base =>
        rw [hbb] at h; simp only at h
        cases hm : destroy_members nrf base.pointers
            (s.log (Event.destroyed u (observe s base.pointers))) with
        | none => rw [hm] at h; cases h
        | some s2 =>
          rw [hm] at h; cases h
          exact sticky_trans (b := s.log (Event.destroyed u (observe s base.pointers)))
            (sticky_of_headers rfl)
            (sticky_trans (destroy_members_sticky hn _ hm) (sticky_of_headers rfl))

theorem delete_object_sticky {nrf : Nat → Nat → Heap → Option Heap}
    (hn : ∀ h b s s1, nrf h b s = some s1 → sticky s s1) {u : Nat} {s s1 : Heap}
    (h : delete_object nrf u s = some s1) : sticky s s1 := by
  unfold delete_object at h
  cases hu : s.headers u with
  | none => rw [hu] at h; cases h
  | some hd =>
    rw [hu] at h; simp only at h
    by_cases hdl : hd.deleted = true
    · rw [hdl] at h; cases h; exact sticky_refl s
    · simp only [Bool.not_eq_true] at hdl
      rw [hdl] at h
      exact sticky_trans (@sticky_set_header s u hd { hd with deleted := true } hu id
        (fun _ => rfl)) (do_delete_sticky hn h)

theorem delete_all_sticky {nrf : Nat → Nat → Heap → Option Heap}
    (hn : ∀ h b s s1, nrf h b s = some s1 → sticky s s1) (L : List Nat) :
    ∀ {s s1 : Heap}, delete_all nrf L s = some s1 → sticky s s1 := by
  induction L with
  | nil => intro s s1 h; cases h; exact sticky_refl s
  | cons p ps ih =>
    intro s s1 h
    unfold delete_all at h
    cases h1 : delete_object nrf p s with
    | none => rw [h1] at h; cases h
    | some s2 =>
      rw [h1] at h
      exact sticky_trans (delete_object_sticky hn h1) (ih h)

theorem cleanup_sticky {nrf : Nat → Nat → Heap → Option Heap}
    (hn : ∀ h b s s1, nrf h b s = some s1 → sticky s s1) {Z : List Nat} {s s1 : Heap}
    (h : cleanup_unreachable_nodes nrf Z s = some s1) : sticky s s1 := by
  unfold cleanup_unreachable_nodes at h
  cases h1 : mark_all Z s with
  | none => rw [h1] at h; cases h
  | some sa =>
    rw [h1] at h; simp only at h
    cases h2 : delete_all nrf Z sa with
    | none => rw [h2] at h; cases h
    | some sb =>
      rw [h2] at h
      exact sticky_trans (mark_all_sticky Z h1)
        (sticky_trans (delete_all_sticky hn Z h2) (free_all_sticky Z h))

theorem free_self_sticky {nrf : Nat → Nat → Heap → Option Heap}
    (hn : ∀ h b s s1, nrf h b s = some s1 → sticky s s1) {u : Nat} {s s1 : Heap}
    (h : free_self nrf u s = some s1) : sticky s s1 := by
  unfold free_self at h
  cases hu : s.headers u with
  | none => rw [hu] at h; cases h
  | some hd =>
    rw [hu] at h; simp only at h
    by_cases hf : hd.unreachable = true
    · rw [if_pos hf] at h; cases h; exact sticky_refl s
    · rw [if_neg hf] at h
      cases hc : find_unreachable_children s (add [] u) with
      | none => rw [hc] at h; cases h
      | some seen => rw [hc] at h; exact cleanup_sticky hn h

theorem check_reachable_sticky {nrf : Nat → Nat → Heap → Option Heap}
    (hn : ∀ h b s s1, nrf h b s = some s1 → sticky s s1) {u : Nat} {s s1 : Heap}
    (h : check_reachable nrf u s = some s1) : sticky s s1 := by
  unfold check_reachable at h
  cases hu : s.headers u with
  | none => rw [hu] at h; cases h
  | some hd =>
    rw [hu] at h; simp only at h
    by_cases ho : is_owned hd = true
    · rw [if_pos ho] at h; cases h; exact sticky_refl s
    · rw [if_neg ho] at h
      cases hw : check_reachable_static s (add [] u) [u] none none with
      | none => rw [hw] at h; cases h
      | some w =>
        rw [hw] at h; simp only at h
        by_cases hr : w.result = true
        · rw [if_pos hr] at h; cases h; exact sticky_refl s
        · rw [if_neg hr] at h
          cases hc : find_unreachable_children s w.seen_parents with
          | none => rw [hc] at h; cases h
          | some seen => rw [hc] at h; exact cleanup_sticky hn h

theorem dec_internal_count_sticky {nrf : Nat → Nat → Heap → Option Heap}
    (hn : ∀ h b s s1, nrf h b s = some s1 → sticky s s1) {u : Nat} {s s1 : Heap}
    (h : dec_internal_count nrf u s = some s1) : sticky s s1 := by
  unfold dec_internal_count at h
  cases hu : s.headers u with
  | none => rw [hu] at h; cases h
  | some hd =>
    rw [hu] at h; simp only at h
    have h0 : sticky s (s.set_header u
        (some { hd with internal_count := dec hd.internal_count })) :=
      sticky_set_header hu id id
    by_cases hz : dec hd.internal_count = 0
    · rw [if_pos hz] at h
      exact sticky_trans h0 (free_self_sticky hn h)
    · rw [if_neg hz] at h
      by_cases hc : (!hd.unreachable && decide (hd.owner_count = 0)) = true
      · rw [if_pos hc] at h
        exact sticky_trans h0 (check_reachable_sticky hn h)
      · rw [if_neg hc] at h; cases h; exact h0

theorem not_reachable_from_body_sticky {nrf : Nat → Nat → Heap → Option Heap}
    (hn : ∀ h b s s1, nrf h b s = some s1 → sticky s s1) {u b : Nat} {s s1 : Heap}
    (h : not_reachable_from_body nrf u b s = some s1) : sticky s s1 := by
  unfold not_reachable_from_body at h
  cases hu : s.headers u with
  | none => rw [hu] at h; cases h
  | some hd =>
    cases hb : s.bases b with
    | none => rw [hu, hb] at h; cases h
    | some base =>
      rw [hu, hb] at h; simp only at h
      cases hs : base.self_header with
      | none => rw [hs] at h; exact dec_internal_count_sticky hn h
      | some sh =>
        rw [hs] at h; simp only at h
        exact sticky_trans (@sticky_set_header s u hd { hd with
          back_pointers := remove hd.back_pointers sh } hu id id)
          (dec_internal_count_sticky hn h)

theorem not_reachable_from_depth_sticky (d : Nat) :
    ∀ h b s s1, not_reachable_from_depth d h b s = some s1 → sticky s s1 := by
  induction d with
  | zero => intro h b s s1 e; cases e
  | succ d ih =>
    intro h b s s1 e
    exact not_reachable_from_body_sticky ih e

theorem remove_owner_sticky {u : Nat} {s s1 : Heap} (h : remove_owner u s = some s1) :
    sticky s s1 := by
  unfold remove_owner at h
  cases hu : s.headers u with
  | none => rw [hu] at h; cases h
  | some hd =>
    rw [hu] at h; simp only at h
    exact sticky_trans (@sticky_set_header s u hd { hd with
      owner_count := dec hd.owner_count } hu id id)
      (dec_internal_count_sticky (not_reachable_from_depth_sticky _) h)

theorem sticky_set_counts {s : Heap} {h : Nat} {hd : root_ptr_header_block_base}
    (hh : s.headers h = some hd) (oc ic : Nat) (bp : List Nat) :
    sticky s (s.set_header h (some { hd with
      owner_count := oc, internal_count := ic, back_pointers := bp })) :=
  sticky_set_header hh id id

theorem add_back_pointer_sticky {h p : Nat} {s s1 : Heap}
    (e : add_back_pointer h p s = some s1) : sticky s s1 := by
  unfold add_back_pointer at e
  cases hu : s.headers h with
  | none => rw [hu] at e; cases e
  | some hd =>
    rw [hu] at e; cases e
    exact sticky_set_counts hu hd.owner_count hd.internal_count (add hd.back_pointers p)

theorem add_owner_sticky {h : Nat} {s s1 : Heap} (e : add_owner h s = some s1) :
    sticky s s1 := by
  unfold add_owner at e
  cases hu : s.headers h with
  | none => rw [hu] at e; cases e
  | some hd =>
    rw [hu] at e; cases e
    exact sticky_set_counts hu (hd.owner_count + 1) (hd.internal_count + 1) hd.back_pointers

theorem owner_from_internal_sticky {h : Nat} {s s1 : Heap} {b : Bool}
    (e : owner_from_internal h s = some (s1, b)) : sticky s s1 := by
  unfold owner_from_internal at e
  cases hu : s.headers h with
  | none => rw [hu] at e; cases e
  | some hd =>
    rw [hu] at e; simp only at e
    by_cases hf : hd.unreachable = true
    · rw [if_pos hf] at e; cases e; exact sticky_refl s
    · rw [if_neg hf] at e; cases e
      exact sticky_set_counts hu (hd.owner_count + 1) (hd.internal_count + 1)
        hd.back_pointers

theorem reachable_from_sticky {h b : Nat} {s s1 : Heap} (e : reachable_from h b s = some s1) :
    sticky s s1 := by
  unfold reachable_from at e
  cases hu : s.headers h with
  | none => rw [hu] at e; cases e
  | some hd =>
    cases hb : s.bases b with
    | none => rw [hu, hb] at e; cases e
    | some base =>
      rw [hu, hb] at e; simp only at e
      cases hs : base.self_header with
      | none =>
        rw [hs] at e; cases e
        exact sticky_set_counts hu hd.owner_count (hd.internal_count + 1) hd.back_pointers
      | some sh =>
        rw [hs] at e; cases e
        exact sticky_set_counts hu hd.owner_count (hd.internal_count + 1)
          (add hd.back_pointers sh)

theorem set_self_header_loop_sticky (header : Nat) (ps : List Nat) :
    ∀ {s s1 : Heap}, set_self_header_loop header ps s = some s1 → sticky s s1 := by
  induction ps with
  | nil => intro s s1 h; cases h; exact sticky_refl s
  | cons p ps ih =>
    intro s s1 h
    unfold set_self_header_loop at h
    cases hp : s.iptrs p with
    | none => rw [hp] at h; cases h
    | some ip =>
      rw [hp] at h; simp only at h
      cases hh : ip.header with
      | none => rw [hh] at h; exact ih h
      | some t =>
        rw [hh] at h; simp only at h
        cases ha : add_back_pointer t header s with
        | none => rw [ha] at h; cases h
        | some s2 =>
          rw [ha] at h
          exact sticky_trans (add_back_pointer_sticky ha) (ih h)

theorem set_owner_sticky {h : Nat} {s s1 : Heap} (e : set_owner h s = some s1) :
    sticky s s1 := by
  unfold set_owner at e
  cases hu : s.headers h with
  | none => rw [hu] at e; cases e
  | some hd =>
    rw [hu] at e; simp only at e
    cases hg : hd.get_internal_base with
    | none => rw [hg] at e; cases e; exact sticky_refl s
    | some target =>
      rw [hg] at e; simp only at e
      unfold set_self_header at e
      cases hb : s.bases target with
      | none => rw [hb] at e; cases e
      | some base =>
        rw [hb] at e; simp only at e
        exact sticky_trans (b := s.set_base target
          (some { base with self_header := some h })) (sticky_of_headers rfl)
          (set_self_header_loop_sticky _ _ e)

/-- C29: the flags are sticky.  (1) Every method of the header block that writes a header
block (`mark_unreachable`, `delete_object`, `cleanup_unreachable_nodes`,
`dec_internal_count`, `not_reachable_from` at every nesting depth, `remove_owner`,
`reachable_from`, `add_owner`, `owner_from_internal`, `add_back_pointer`, `set_owner`)
satisfies `sticky`: it brings no freed block back, and on a block that is live before and
after it, `unreachable` and `deleted` stay set once they are set.  (2) `delete_object` on a
block whose `deleted` flag is set returns the heap as it is, without invoking the
payload-destroy hook; on a block whose flag is not set it sets the flag and invokes the hook
once; a second call right after a call that returned changes nothing; and in every heap
reachable through the public handle operations the payload of any header has been destroyed
at most once.  (3) `dec_internal_count` on a block flagged `unreachable` returns the heap in
which `internal_count` has been decremented and nothing else has happened; on a block that
is not flagged it is `free_self` from that heap when the decremented count is zero, and
otherwise `check_reachable` from that heap when `owner_count == 0`, and that heap itself when
`owner_count != 0`. -/
theorem C29_sticky_flags :
    ((∀ d h b s s1, not_reachable_from_depth d h b s = some s1 → sticky s s1) ∧
     (∀ h b s s1, not_reachable_from h b s = some s1 → sticky s s1) ∧
     (∀ h s s1, remove_owner h s = some s1 → sticky s s1) ∧
     (∀ h s s1, mark_unreachable h s = some s1 → sticky s s1) ∧
     (∀ nrf : Nat → Nat → Heap → Option Heap,
        (∀ h b s s1, nrf h b s = some s1 → sticky s s1) →
        (∀ h s s1, delete_object nrf h s = some s1 → sticky s s1) ∧
        (∀ Z s s1, cleanup_unreachable_nodes nrf Z s = some s1 → sticky s s1) ∧
        (∀ h s s1, dec_internal_count nrf h s = some s1 → sticky s s1)) ∧
     (∀ h b s s1, reachable_from h b s = some s1 → sticky s s1) ∧
     (∀ h s s1, add_owner h s = some s1 → sticky s s1) ∧
     (∀ h s s1 b, owner_from_internal h s = some (s1, b) → sticky s s1) ∧
     (∀ h p s s1, add_back_pointer h p s = some s1 → sticky s s1) ∧
     (∀ h s s1, set_owner h s = some s1 → sticky s s1)) ∧
    ((∀ (nrf : Nat → Nat → Heap → Option Heap) h s hd, s.headers h = some hd →
        hd.deleted = true → delete_object nrf h s = some s) ∧
     (∀ (nrf : Nat → Nat → Heap → Option Heap) h s hd, s.headers h = some hd →
        hd.deleted = false →
        delete_object nrf h s =
          do_delete nrf h (s.set_header h (some { hd with deleted := true }))) ∧
     (∀ nrf : Nat → Nat → Heap → Option Heap,
        (∀ h b s s1, nrf h b s = some s1 → sticky s s1) →
        ∀ h s s1 s2, delete_object nrf h s = some s1 → delete_object nrf h s1 = some s2 →
          s2 = s1) ∧
     (∀ s, reachable s → ∀ h, destroy_count s.trace h ≤ 1)) ∧
    (∀ (nrf : Nat → Nat → Heap → Option Heap) h s hd, s.headers h = some hd →
      (hd.unreachable = true →
        dec_internal_count nrf h s =
          some (s.set_header h (some { hd with internal_count := dec hd.internal_count }))) ∧
      (hd.unreachable = false → dec hd.internal_count = 0 →
        dec_internal_count nrf h s = free_self nrf h
          (s.set_header h (some { hd with internal_count := dec hd.internal_count }))) ∧
      (hd.unreachable = false → dec hd.internal_count ≠ 0 → hd.owner_count = 0 →
        dec_internal_count nrf h s = check_reachable nrf h
          (s.set_header h (some { hd with internal_count := dec hd.internal_count }))) ∧
      (hd.unreachable = false → dec hd.internal_count ≠ 0 → hd.owner_count ≠ 0 →
        dec_internal_count nrf h s =
          some (s.set_header h (some { hd with internal_count := dec hd.internal_count })))) := by
  have hdel1 : ∀ (nrf : Nat → Nat → Heap → Option Heap) h s hd, s.headers h = some hd →
      hd.deleted = true → delete_object nrf h s = some s := by
    intro nrf h s hd hh hdl
    unfold delete_object
    rw [hh]; simp only; rw [hdl]; rfl
  have hdel2 : ∀ (nrf : Nat → Nat → Heap → Option Heap) h s hd, s.headers h = some hd →
      hd.deleted = false →
      delete_object nrf h s =
        do_delete nrf h (s.set_header h (some { hd with deleted := true })) := by
    intro nrf h s hd hh hdl
    unfold delete_object
    rw [hh]; simp only; rw [hdl]; rfl
  refine ⟨⟨not_reachable_from_depth_sticky, fun h b s s1 e =>
      not_reachable_from_depth_sticky _ h b s s1 e, fun h s s1 e => remove_owner_sticky e,
      fun h s s1 e => mark_unreachable_sticky e,
      fun nrf hn => ⟨fun h s s1 e => delete_object_sticky hn e,
        fun Z s s1 e => cleanup_sticky hn e, fun h s s1 e => dec_internal_count_sticky hn e⟩,
      fun h b s s1 e => reachable_from_sticky e, fun h s s1 e => add_owner_sticky e,
      fun h s s1 b e => owner_from_internal_sticky e,
      fun h p s s1 e => add_back_pointer_sticky e, fun h s s1 e => set_owner_sticky e⟩,
    ⟨hdel1, hdel2, ?_, ?_⟩, ?_⟩
  · intro nrf hn h s s1 s2 e1 e2
    have hst := delete_object_sticky hn e1
    cases h0 : s.headers h with
    | none => unfold delete_object at e1; rw [h0] at e1; cases e1
    | some hd =>
      cases h1 : s1.headers h with
      | none => unfold delete_object at e2; rw [h1] at e2; cases e2
      | some hd1 =>
        have hd1del : hd1.deleted = true := by
          cases hdl : hd.deleted with
          | true => exact (hst.2 h hd hd1 h0 h1).2 hdl
          | false =>
            rw [hdel2 nrf h s hd h0 hdl] at e1
            have hst2 := do_delete_sticky hn e1
            exact (hst2.2 h { hd with deleted := true } hd1 (by simp) h1).2 rfl
        rw [hdel1 nrf h s1 hd1 h1 hd1del] at e2
        exact (Option.some.inj e2).symm
  · intro s hs h
    have := (sound_of_reachable hs).trace0 h
    rw [this]
    split <;> omega
  · intro nrf h s hd hh
    refine ⟨?_, ?_, ?_, ?_⟩
    · intro hu
      unfold dec_internal_count
      rw [hh]; simp only
      by_cases hz : dec hd.internal_count = 0
      · rw [if_pos hz]
        unfold free_self
        simp [hu]
      · rw [if_neg hz]
        simp [hu]
    · intro _ hz
      unfold dec_internal_count
      rw [hh]; simp only
      rw [if_pos hz]
    · intro hu hz ho
      unfold dec_internal_count
      rw [hh]; simp only
      rw [if_neg hz]
      simp [hu, ho]
    · intro hu hz ho
      unfold dec_internal_count
      rw [hh]; simp only
      rw [if_neg hz]
      simp [hu, ho]

/-- C29 (witness): `dec_internal_count` on the header of the object `X` of `two_edges_heap`,
which is not flagged, has `internal_count == 3` and `owner_count == 1`: the count is
decremented and nothing else happens. -/
theorem C29_witness :
    two_edges_heap.headers 1 = some ⟨1, 3, [0, 0], false, false, some 1⟩ ∧
    dec_internal_count not_reachable_from 1 two_edges_heap =
      some (two_edges_heap.set_header 1 (some ⟨1, 2, [0, 0], false, false, some 1⟩)) :=
  ⟨rfl, (C29_sticky_flags.2.2 not_reachable_from 1 two_edges_heap
    ⟨1, 3, [0, 0], false, false, some 1⟩ rfl).2.2.2 rfl (by decide) (by decide)⟩

theorem check_reachable_bps_log_fst (node : Nat) (unr : Option (List Nat)) (bps : List Nat) :
    ∀ (seen pending : List Nat) (owned : Option (List Nat)) (log : List Nat),
    (check_reachable_bps_log node unr bps seen pending owned log).1 =
      check_reachable_bps node unr bps seen pending owned ∧
    ∃ new, (check_reachable_bps_log node unr bps seen pending owned log).2 = log ++ new ∧
      (check_reachable_bps node unr bps seen pending owned).pending = new.reverse ++ pending := by
  induction bps with
  | nil =>
    intro seen pending owned log
    exact ⟨rfl, [], by simp [check_reachable_bps_log], by simp [check_reachable_bps]⟩
  | cons bp bps ih =>
    intro seen pending owned log
    unfold check_reachable_bps_log check_reachable_bps
    by_cases c1 : (opt_contains unr bp || contains seen bp) = true
    · rw [if_pos c1, if_pos c1]
      exact ih seen pending owned log
    · rw [if_neg c1, if_neg c1]
      by_cases c2 : opt_contains owned bp = true
      · rw [if_pos c2, if_pos c2]
        exact ⟨rfl, [], by simp, by simp⟩
      · rw [if_neg c2, if_neg c2]
        obtain ⟨a1, new, a2, a3⟩ := ih (add seen bp) (bp :: pending) owned (log ++ [bp])
        refine ⟨a1, bp :: new, ?_, ?_⟩
        · rw [a2]; simp
        · rw [a3]; simp

theorem check_reachable_loop_log_fst (headers : Nat → Option root_ptr_header_block_base)
    (unr : Option (List Nat)) :
    ∀ (fuel : Nat) (seen pending : List Nat) (owned : Option (List Nat)) (log : List Nat),
    (check_reachable_loop_log headers unr fuel seen pending owned log).map Prod.fst =
      check_reachable_loop headers unr fuel seen pending owned := by
  intro fuel
  induction fuel with
  | zero =>
    intro seen pending owned log
    cases pending with
    | nil => simp [check_reachable_loop_log, check_reachable_loop]
    | cons node pending => simp [check_reachable_loop_log, check_reachable_loop]
  | succ fuel ih =>
    intro seen pending owned log
    cases pending with
    | nil => simp [check_reachable_loop_log, check_reachable_loop]
    | cons node pending =>
      unfold check_reachable_loop_log check_reachable_loop
      by_cases c1 : opt_contains owned node = true
      · rw [if_pos c1, if_pos c1]; rfl
      · rw [if_neg c1, if_neg c1]
        by_cases c2 : opt_contains unr node = true
        · rw [if_pos c2, if_pos c2]; exact ih _ _ _ _
        · rw [if_neg c2, if_neg c2]
          cases hn : headers node with
          | none => rfl
          | some hd =>
            simp only
            by_cases c3 : (!is_owned hd) = true
            · rw [if_pos c3, if_pos c3]
              have h1 := (check_reachable_bps_log_fst node unr hd.back_pointers seen pending
                owned log).1
              rw [← h1]
              by_cases c4 : (check_reachable_bps_log node unr hd.back_pointers seen pending
                  owned log).1.result = true
              · rw [if_pos c4, if_pos c4]; rfl
              · rw [if_neg c4, if_neg c4]; exact ih _ _ _ _
            · rw [if_neg c3, if_neg c3]; rfl

/-- The instrumented loop returns on a finite graph, and its log of pushes has no
repetition: every header pushed is new to `seen_parents` at that moment and is added to
it. -/
theorem check_reachable_loop_log_spec (s : Heap) (unr : Option (List Nat)) (N : Nat)
    (hfront : ∀ x hd, s.headers x = some hd → x < N)
    (hlive : ∀ x hd, s.headers x = some hd → ∀ y ∈ hd.back_pointers,
      ∃ hd1, s.headers y = some hd1) :
    ∀ (fuel : Nat) (seen pending : List Nat) (owned : Option (List Nat)) (log : List Nat),
    seen.Sorted (· < ·) →
    (∀ x ∈ pending, ∃ hd, s.headers x = some hd) →
    pending.length + unseen N seen < fuel →
    log.Nodup → (∀ x ∈ log, x ∈ seen) →
    ∃ r, check_reachable_loop_log s.headers unr fuel seen pending owned log = some r ∧
      r.2.Nodup ∧ (∀ x ∈ r.2, x ∈ r.1.seen_parents) ∧ r.1.seen_parents.Sorted (· < ·) ∧
      ∃ ext, r.2 = log ++ ext ∧ (∀ x ∈ ext, x ∉ seen ∧ ∃ hd, s.headers x = some hd) ∧
        (∀ x, x ∈ r.1.seen_parents ↔ x ∈ seen ∨ x ∈ ext) := by
  intro fuel
  induction fuel with
  | zero =>
    intro seen pending owned log hs hp hm hn hl
    cases pending with
    | nil =>
      exact ⟨(⟨false, seen, [], owned⟩, log), by simp [check_reachable_loop_log], hn, hl, hs,
        [], by simp, by simp, by simp⟩
    | cons node pending => simp at hm
  | succ fuel ih =>
    intro seen pending owned log hs hp hm hn hl
    cases pending with
    | nil =>
      exact ⟨(⟨false, seen, [], owned⟩, log), by simp [check_reachable_loop_log], hn, hl, hs,
        [], by simp, by simp, by simp⟩
    | cons node pending =>
      have hp2 : ∀ x ∈ pending, ∃ hd, s.headers x = some hd :=
        fun x hx => hp x (List.mem_cons_of_mem _ hx)
      have hm2 : pending.length + unseen N seen < fuel := by
        simp only [List.length_cons] at hm; omega
      unfold check_reachable_loop_log
      by_cases c1 : opt_contains owned node = true
      · rw [if_pos c1]
        exact ⟨(⟨true, seen, pending, owned⟩, log), rfl, hn, hl, hs, [], by simp, by simp,
          by simp⟩
      · rw [if_neg c1]
        by_cases c2 : opt_contains unr node = true
        · rw [if_pos c2]
          exact ih seen pending owned log hs hp2 hm2 hn hl
        · rw [if_neg c2]
          obtain ⟨hd, hnode⟩ := hp node (List.mem_cons_self _ _)
          rw [hnode]; simp only
          by_cases c3 : (!is_owned hd) = true
          · rw [if_pos c3]
            obtain ⟨e1, new1, e2, e3⟩ := check_reachable_bps_log_fst node unr hd.back_pointers
              seen pending owned log
            obtain ⟨new, b1, b2, b3, b4, b5, _, _⟩ := check_reachable_bps_spec node unr
              hd.back_pointers seen pending owned _ hs rfl
            have hnew : new = new1.reverse := by
              rw [b1] at e3
              exact List.append_cancel_right e3
            have hmem1 : ∀ x, x ∈ new1 ↔ x ∈ new := by
              intro x; rw [hnew]; simp
            have hnd1 : new1.Nodup := by
              rw [hnew] at b4; exact List.nodup_reverse.1 b4
            obtain ⟨r0, hr0⟩ : ∃ r0, r0 = check_reachable_bps_log node unr hd.back_pointers
                seen pending owned log := ⟨_, rfl⟩
            rw [← hr0] at e1 e2 ⊢
            rw [← e1] at b2 b3
            have hlog1 : r0.2.Nodup := by
              rw [e2]
              apply List.Nodup.append hn hnd1
              intro x hx1 hx2
              exact (b5 x ((hmem1 x).1 hx2)).2.2 (hl x hx1)
            have hin1 : ∀ x ∈ r0.2, x ∈ r0.1.seen_parents := by
              intro x hx
              rw [e2] at hx
              rcases List.mem_append.1 hx with h1 | h1
              · exact (b3 x).2 (Or.inl (hl x h1))
              · exact (b3 x).2 (Or.inr ((hmem1 x).1 h1))
            have hext1 : ∀ x ∈ new1, x ∉ seen ∧ ∃ hd1, s.headers x = some hd1 := by
              intro x hx
              obtain ⟨f1, _, f3⟩ := b5 x ((hmem1 x).1 hx)
              exact ⟨f3, hlive node hd hnode x f1⟩
            have hseen1 : ∀ x, x ∈ r0.1.seen_parents ↔ x ∈ seen ∨ x ∈ new1 := by
              intro x; rw [b3 x, hmem1 x]
            by_cases c4 : r0.1.result = true
            · rw [if_pos c4]
              exact ⟨r0, rfl, hlog1, hin1, b2, new1, e2, hext1, hseen1⟩
            · rw [if_neg c4]
              have hpend : r0.1.pending = new ++ pending := by rw [e1]; exact b1
              have hun := unseen_add_new N seen r0.1.seen_parents new b3 b4
                (fun x hx => ⟨(b5 x hx).2.2, by
                  obtain ⟨hdx, ex⟩ := hlive node hd hnode x (b5 x hx).1
                  exact hfront x hdx ex⟩)
              obtain ⟨r, q1, q2, q3, q4, ext, q5, q6, q7⟩ := ih r0.1.seen_parents r0.1.pending
                r0.1.owned_nodes r0.2 b2
                (by
                  intro x hx
                  rw [hpend] at hx
                  rcases List.mem_append.1 hx with h1 | h1
                  · exact hlive node hd hnode x (b5 x h1).1
                  · exact hp2 x h1)
                (by rw [hpend, List.length_append]; omega)
                hlog1 hin1
              refine ⟨r, q1, q2, q3, q4, new1 ++ ext, by rw [q5, e2, List.append_assoc], ?_, ?_⟩
              · intro x hx
                rcases List.mem_append.1 hx with h1 | h1
                · exact hext1 x h1
                · obtain ⟨g1, g2⟩ := q6 x h1
                  exact ⟨fun hx0 => g1 ((hseen1 x).2 (Or.inl hx0)), g2⟩
              · intro x
                rw [q7 x, hseen1 x, List.mem_append]
                tauto
          · rw [if_neg c3]
            exact ⟨(⟨true, seen, pending, opt_add_unique owned node⟩, log), rfl, hn, hl, hs,
              [], by simp, by simp, by simp⟩

/-- The static `check_reachable` returns on a finite graph for every sorted `seen_parents`
and every `pending` of live headers, with or without the two auxiliary sets; its pushes are
pairwise distinct, each a live header that was not in `seen_parents` before the call. -/
theorem check_reachable_static_log_spec {s : Heap}
    (hfront : ∀ x hd, s.headers x = some hd → x < s.next_header)
    (hlive : ∀ x hd, s.headers x = some hd → ∀ y ∈ hd.back_pointers,
      ∃ hd1, s.headers y = some hd1)
    (seen pending : List Nat) (unr owned : Option (List Nat))
    (hs : seen.Sorted (· < ·)) (hp : ∀ x ∈ pending, ∃ hd, s.headers x = some hd) :
    ∃ r, check_reachable_static_log s seen pending unr owned = some r ∧
      check_reachable_static s seen pending unr owned = some r.1 ∧
      r.2.Nodup ∧ r.1.seen_parents.Sorted (· < ·) ∧
      (∀ x ∈ r.2, x ∉ seen ∧ ∃ hd, s.headers x = some hd) ∧
      (∀ x, x ∈ r.1.seen_parents ↔ x ∈ seen ∨ x ∈ r.2) := by
  obtain ⟨r, a1, a2, _, a4, ext, a5, a6, a7⟩ := check_reachable_loop_log_spec s unr
    s.next_header hfront hlive (s.next_header + pending.length + 1) seen pending owned []
    hs hp (by have := unseen_le s.next_header seen; omega) List.nodup_nil (by simp)
  simp only [List.nil_append] at a5
  subst a5
  refine ⟨r, a1, ?_, a2, a4, a6, a7⟩
  have := check_reachable_loop_log_fst s.headers unr (s.next_header + pending.length + 1)
    seen pending owned []
  unfold check_reachable_static
  rw [← this, a1]; rfl

theorem add_seen_parents_log_fst (ps : List Nat) :
    ∀ (U W log : List Nat), (add_seen_parents_log ps U W log).1 = add_seen_parents ps U W := by
  induction ps with
  | nil => intro U W log; rfl
  | cons p ps ih =>
    intro U W log
    unfold add_seen_parents_log add_seen_parents
    by_cases c : (add_unique U p).2 = true
    · rw [if_pos c, if_pos c]; exact ih _ _ _
    · rw [if_neg c, if_neg c]; exact ih _ _ _

theorem check_child_log_fst (s : Heap) (c : Nat) (st : Search) (log : List Nat) :
    (check_child_log s c st log).map Prod.fst = check_child s c st := by
  unfold check_child_log check_child
  by_cases c1 : (contains st.unreachable_nodes c || contains st.owned_nodes c) = true
  · rw [if_pos c1, if_pos c1]; rfl
  · rw [if_neg c1, if_neg c1]
    cases hc : s.headers c with
    | none => rfl
    | some hd =>
      simp only
      by_cases c2 : is_owned hd = true
      · rw [if_pos c2, if_pos c2]; rfl
      · rw [if_neg c2, if_neg c2]
        cases hw : check_reachable_static s [] [c] (some st.unreachable_nodes)
            (some st.owned_nodes) with
        | none => rfl
        | some w =>
          simp only
          by_cases c3 : (!w.result) = true
          · rw [if_pos c3, if_pos c3]
            simp only [Option.map_some', add_seen_parents_log_fst]
          · rw [if_neg c3, if_neg c3]; rfl

theorem check_children_log_fst (s : Heap) (ps : List Nat) :
    ∀ (st : Search) (log : List Nat),
    (check_children_log s ps st log).map Prod.fst = check_children s ps st := by
  induction ps with
  | nil => intro st log; rfl
  | cons p ps ih =>
    intro st log
    unfold check_children_log check_children
    cases hp : s.iptrs p with
    | none => rfl
    | some ip =>
      simp only
      cases hh : ip.header with
      | none => simp only; exact ih st log
      | some c =>
        simp only
        have h1 := check_child_log_fst s c st log
        cases hr : check_child_log s c st log with
        | none =>
          rw [hr] at h1
          rw [← h1]; rfl
        | some r =>
          rw [hr] at h1
          rw [← h1]
          simp only [Option.map_some']
          exact ih r.1 r.2

theorem find_unreachable_children_loop_log_fst (s : Heap) :
    ∀ (fuel : Nat) (st : Search) (log : List Nat),
    (find_unreachable_children_loop_log s fuel st log).map Prod.fst =
      find_unreachable_children_loop s fuel st := by
  intro fuel
  induction fuel with
  | zero =>
    intro st log
    unfold find_unreachable_children_loop_log find_unreachable_children_loop
    cases st.nodes_to_check_children <;> rfl
  | succ fuel ih =>
    intro st log
    unfold find_unreachable_children_loop_log find_unreachable_children_loop
    cases hw : st.nodes_to_check_children with
    | nil => rfl
    | cons next rest =>
      simp only
      cases hn : s.headers next with
      | none => rfl
      | some hd =>
        simp only
        cases hg : hd.get_internal_base with
        | none => simp only; exact ih _ _
        | some b =>
          simp only
          cases hb : s.bases b with
          | none => rfl
          | some base =>
            simp only
            have h1 := check_children_log_fst s base.pointers
              { st with nodes_to_check_children := rest } log
            cases hr : check_children_log s base.pointers
                { st with nodes_to_check_children := rest } log with
            | none =>
              rw [hr] at h1
              rw [← h1]; rfl
            | some r =>
              rw [hr] at h1
              rw [← h1]
              simp only [Option.map_some']
              exact ih r.1 r.2

theorem add_seen_parents_log_spec (ps : List Nat) :
    ∀ (U W log : List Nat), U.Sorted (· ≤ ·) → U.Nodup → log.Nodup → (∀ x ∈ log, x ∈ U) →
    (add_seen_parents_log ps U W log).1.1.Sorted (· ≤ ·) ∧
    (add_seen_parents_log ps U W log).1.1.Nodup ∧
    (∀ x, x ∈ (add_seen_parents_log ps U W log).1.1 ↔ x ∈ U ∨ x ∈ ps) ∧
    (add_seen_parents_log ps U W log).2.Nodup ∧
    (∀ x ∈ (add_seen_parents_log ps U W log).2, x ∈ (add_seen_parents_log ps U W log).1.1) ∧
    ∃ new, (add_seen_parents_log ps U W log).2 = log ++ new ∧
      (add_seen_parents_log ps U W log).1.2 = new.reverse ++ W ∧
      (add_seen_parents_log ps U W log).1.1.length = U.length + new.length := by
  induction ps with
  | nil =>
    intro U W log hs hn hl hsub
    refine ⟨hs, hn, by simp [add_seen_parents_log], hl, hsub, [], ?_, ?_, ?_⟩ <;>
      simp [add_seen_parents_log]
  | cons p ps ih =>
    intro U W log hs hn hl hsub
    have hs1 := sorted_add_unique p hs
    have hn1 := nodup_add_unique hs hn p
    have hlen := @length_add_unique U p
    unfold add_seen_parents_log
    by_cases c : (add_unique U p).2 = true
    · rw [if_pos c]
      rw [if_pos c] at hlen
      have hp : p ∉ U := (add_unique_snd hs p).1 c
      have hl1 : (log ++ [p]).Nodup := by
        rw [List.nodup_append]
        refine ⟨hl, List.nodup_singleton p, ?_⟩
        intro x hx hx1
        simp only [List.mem_singleton] at hx1
        subst hx1
        exact hp (hsub x hx)
      have hsub1 : ∀ x ∈ log ++ [p], x ∈ (add_unique U p).1 := by
        intro x hx
        rw [mem_add_unique]
        simp only [List.mem_append, List.mem_singleton] at hx
        rcases hx with h | h
        · exact Or.inr (hsub x h)
        · exact Or.inl h
      obtain ⟨a1, a2, a3, a4, a5, new, a6, a7, a8⟩ :=
        ih (add_unique U p).1 (p :: W) (log ++ [p]) hs1 hn1 hl1 hsub1
      refine ⟨a1, a2, ?_, a4, a5, p :: new, ?_, ?_, ?_⟩
      · intro x
        rw [a3, mem_add_unique, List.mem_cons]
        tauto
      · rw [a6]; simp
      · rw [a7]; simp
      · rw [a8, hlen]; simp; omega
    · rw [if_neg c]
      rw [if_neg c] at hlen
      have hp : p ∈ U := by
        by_contra hp
        exact c ((add_unique_snd hs p).2 hp)
      have hsub1 : ∀ x ∈ log, x ∈ (add_unique U p).1 := by
        intro x hx
        rw [mem_add_unique]
        exact Or.inr (hsub x hx)
      obtain ⟨a1, a2, a3, a4, a5, new, a6, a7, a8⟩ :=
        ih (add_unique U p).1 W log hs1 hn1 hl hsub1
      refine ⟨a1, a2, ?_, a4, a5, new, a6, a7, ?_⟩
      · intro x
        rw [a3, mem_add_unique, List.mem_cons]
        constructor
        · rintro ((rfl | h) | h)
          · exact Or.inl hp
          · exact Or.inl h
          · exact Or.inr (Or.inr h)
        · rintro (h | rfl | h)
          · exact Or.inl (Or.inr h)
          · exact Or.inl (Or.inl rfl)
          · exact Or.inr h
      · rw [a8, hlen]; simp

theorem work_step_refl (st : Search) (log : List Nat) : work_step st log st log :=
  ⟨[], by simp, by simp, by simp⟩

theorem work_step_trans {a b c : Search} {la lb lc : List Nat}
    (h1 : work_step a la b lb) (h2 : work_step b lb c lc) : work_step a la c lc := by
  obtain ⟨n1, e1, e2, e3⟩ := h1
  obtain ⟨n2, f1, f2, f3⟩ := h2
  refine ⟨n1 ++ n2, ?_, ?_, ?_⟩
  · rw [f1, e1]; simp
  · rw [f2, e2]; simp
  · rw [f3, e3]; simp; omega

theorem check_child_log_spec {s : Heap} (hg : graph_ok s) {c : Nat} {st : Search}
    {log : List Nat} (hc : ∃ hd, s.headers c = some hd) (hw : work_ok s st log) :
    ∃ r, check_child_log s c st log = some r ∧ work_ok s r.1 r.2 ∧
      work_step st log r.1 r.2 := by
  obtain ⟨hd, hhd⟩ := hc
  unfold check_child_log
  by_cases c1 : (contains st.unreachable_nodes c || contains st.owned_nodes c) = true
  · rw [if_pos c1]
    exact ⟨(st, log), rfl, hw, work_step_refl st log⟩
  · rw [if_neg c1, hhd]
    simp only
    by_cases c2 : is_owned hd = true
    · rw [if_pos c2]
      exact ⟨({ st with owned_nodes := add st.owned_nodes c }, log), rfl,
        ⟨hw.sorted, hw.nodup, hw.live, hw.work, hw.log_nodup, hw.log_sub⟩,
        ⟨[], by simp, by simp, by simp⟩⟩
    · rw [if_neg c2]
      obtain ⟨r0, _, b2, _, _, b5, b6⟩ := check_reachable_static_log_spec hg.header_lt
        hg.bp_live [] [c] (some st.unreachable_nodes) (some st.owned_nodes)
        List.sorted_nil (by intro x hx; simp only [List.mem_singleton] at hx; subst hx
                            exact ⟨hd, hhd⟩)
      rw [b2]
      simp only
      have hsp : ∀ x ∈ r0.1.seen_parents, ∃ hd1, s.headers x = some hd1 := by
        intro x hx
        rcases (b6 x).1 hx with h | h
        · simp at h
        · exact (b5 x h).2
      by_cases c3 : (!r0.1.result) = true
      · rw [if_pos c3]
        obtain ⟨a1, a2, a3, a4, a5, new, a6, a7, a8⟩ := add_seen_parents_log_spec
          r0.1.seen_parents st.unreachable_nodes st.nodes_to_check_children log
          hw.sorted hw.nodup hw.log_nodup hw.log_sub
        generalize add_seen_parents_log r0.1.seen_parents st.unreachable_nodes
          st.nodes_to_check_children log = rA at a1 a2 a3 a4 a5 a6 a7 a8
        have hs1 := sorted_add_unique c a1
        have hn1 := nodup_add_unique a1 a2 c
        have hlen := @length_add_unique rA.1.1 c
        have hlive1 : ∀ x ∈ (add_unique rA.1.1 c).1, ∃ hd1, s.headers x = some hd1 := by
          intro x hx
          rw [mem_add_unique] at hx
          rcases hx with rfl | hx
          · exact ⟨hd, hhd⟩
          · rcases (a3 x).1 hx with h | h
            · exact hw.live x h
            · exact hsp x h
        have hwork0 : ∀ x ∈ rA.1.2, x ∈ (add_unique rA.1.1 c).1 := by
          intro x hx
          rw [mem_add_unique, a3]
          rw [a7] at hx
          simp only [List.mem_append, List.mem_reverse] at hx
          rcases hx with h | h
          · have := a5 x (by rw [a6]; simp [h])
            exact Or.inr ((a3 x).1 this)
          · exact Or.inr (Or.inl (hw.work x h))
        by_cases c4 : (add_unique rA.1.1 c).2 = true
        · rw [if_pos c4] at hlen
          have hcn : c ∉ rA.1.1 := (add_unique_snd a1 c).1 c4
          refine ⟨(_, _), rfl, ⟨hs1, hn1, hlive1, ?_, ?_, ?_⟩, new ++ [c], ?_, ?_, ?_⟩
          · intro x hx
            simp only [if_pos c4, List.mem_cons] at hx
            rcases hx with rfl | hx
            · rw [mem_add_unique]; exact Or.inl rfl
            · exact hwork0 x hx
          · simp only [if_pos c4]
            rw [List.nodup_append]
            refine ⟨a4, List.nodup_singleton c, ?_⟩
            intro x hx hx1
            simp only [List.mem_singleton] at hx1
            subst hx1
            exact hcn (a5 x hx)
          · intro x hx
            simp only [if_pos c4, List.mem_append, List.mem_singleton] at hx
            rw [mem_add_unique]
            rcases hx with h | h
            · exact Or.inr (a5 x h)
            · exact Or.inl h
          · simp only [if_pos c4]; rw [a6]; simp
          · simp only [if_pos c4]; rw [a7]; simp
          · simp only; rw [hlen, a8]; simp; omega
        · rw [if_neg c4] at hlen
          refine ⟨(_, _), rfl, ⟨hs1, hn1, hlive1, ?_, ?_, ?_⟩, new, ?_, ?_, ?_⟩
          · intro x hx
            simp only [if_neg c4] at hx
            exact hwork0 x hx
          · simp only [if_neg c4]; exact a4
          · intro x hx
            simp only [if_neg c4] at hx
            rw [mem_add_unique]
            exact Or.inr (a5 x hx)
          · simp only [if_neg c4]; exact a6
          · simp only [if_neg c4]; exact a7
          · simp only; rw [hlen, a8]; simp
      · rw [if_neg c3]
        exact ⟨(_, log), rfl,
          ⟨hw.sorted, hw.nodup, hw.live, hw.work, hw.log_nodup, hw.log_sub⟩,
          ⟨[], by simp, by simp, by simp⟩⟩

theorem check_children_log_spec {s : Heap} (hg : graph_ok s) (ps : List Nat) :
    ∀ (st : Search) (log : List Nat), (∀ p ∈ ps, ∃ ip, s.iptrs p = some ip) →
    work_ok s st log →
    ∃ r, check_children_log s ps st log = some r ∧ work_ok s r.1 r.2 ∧
      work_step st log r.1 r.2 := by
  induction ps with
  | nil =>
    intro st log _ hw
    exact ⟨(st, log), rfl, hw, work_step_refl st log⟩
  | cons p ps ih =>
    intro st log hps hw
    obtain ⟨ip, hip⟩ := hps p (by simp)
    have hps1 : ∀ q ∈ ps, ∃ iq, s.iptrs q = some iq := fun q hq => hps q (by simp [hq])
    unfold check_children_log
    rw [hip]
    simp only
    cases hh : ip.header with
    | none => simp only; exact ih st log hps1 hw
    | some c =>
      simp only
      obtain ⟨r, a1, a2, a3⟩ := check_child_log_spec hg
        (hg.target_live p ip c hip hh) hw
      rw [a1]
      simp only
      obtain ⟨r1, b1, b2, b3⟩ := ih r.1 r.2 hps1 a2
      exact ⟨r1, b1, b2, work_step_trans a3 b3⟩

theorem find_unreachable_children_loop_log_spec {s : Heap} (hg : graph_ok s) :
    ∀ (fuel : Nat) (st : Search) (log : List Nat), work_ok s st log →
    st.nodes_to_check_children.length + (s.next_header - st.unreachable_nodes.length) < fuel →
    ∃ r, find_unreachable_children_loop_log s fuel st log = some r ∧ work_ok s r.1 r.2 ∧
      ∃ new, r.2 = log ++ new := by
  intro fuel
  induction fuel with
  | zero => intro st log _ hf; omega
  | succ fuel ih =>
    intro st log hw hf
    unfold find_unreachable_children_loop_log
    cases hwk : st.nodes_to_check_children with
    | nil => exact ⟨(st, log), rfl, hw, [], by simp⟩
    | cons next rest =>
      simp only
      rw [hwk] at hf
      have hnext : next ∈ st.unreachable_nodes := hw.work next (by rw [hwk]; simp)
      obtain ⟨hd, hhd⟩ := hw.live next hnext
      rw [hhd]
      simp only
      have hw0 : work_ok s { st with nodes_to_check_children := rest } log :=
        ⟨hw.sorted, hw.nodup, hw.live,
          fun x hx => hw.work x (by rw [hwk]; simp [hx]), hw.log_nodup, hw.log_sub⟩
      cases hb : hd.get_internal_base with
      | none =>
        simp only
        exact ih _ log hw0 (by simp only [List.length_cons] at hf ⊢; omega)
      | some b =>
        simp only
        obtain ⟨base, hbase⟩ := hg.base_live next hd b hhd hb
        rw [hbase]
        simp only
        obtain ⟨r, a1, a2, new, a3, a4, a5⟩ := check_children_log_spec hg base.pointers
          { st with nodes_to_check_children := rest } log (hg.ptr_live b base hbase) hw0
        rw [a1]
        simp only
        have hle : r.1.unreachable_nodes.length ≤ s.next_header :=
          length_le_of_nodup_lt a2.nodup (fun x hx => by
            obtain ⟨hx1, hx2⟩ := a2.live x hx
            exact hg.header_lt x hx1 hx2)
        obtain ⟨r1, b1, b2, new1, b3⟩ := ih r.1 r.2 a2 (by
          rw [a4]
          simp only [List.length_append, List.length_reverse, List.length_cons] at hf ⊢
          simp only at a5
          omega)
        exact ⟨r1, b1, b2, new ++ new1, by rw [b3, a3]; simp⟩

theorem find_unreachable_children_log_spec {s : Heap} (hg : graph_ok s) {S0 : List Nat}
    (hs : S0.Sorted (· ≤ ·)) (hn : S0.Nodup) (hl : ∀ x ∈ S0, ∃ hd, s.headers x = some hd) :
    ∃ r, find_unreachable_children_log s S0 = some r ∧
      find_unreachable_children s S0 = some r.1 ∧ r.2.Nodup ∧
      (∀ x ∈ r.2, x ∈ r.1) ∧ ∃ new, r.2 = S0 ++ new := by
  obtain ⟨r, a1, a2, new, a3⟩ := find_unreachable_children_loop_log_spec hg
    (s.next_header + S0.length + 1)
    { unreachable_nodes := S0, nodes_to_check_children := S0.reverse, owned_nodes := [],
      seen_parents := [], pending := [] } S0
    ⟨hs, hn, hl, by simp, hn, fun x hx => hx⟩ (by simp; omega)
  have e := find_unreachable_children_loop_log_fst s (s.next_header + S0.length + 1)
    { unreachable_nodes := S0, nodes_to_check_children := S0.reverse, owned_nodes := [],
      seen_parents := [], pending := [] } S0
  rw [a1] at e
  refine ⟨(r.1.unreachable_nodes, r.2), ?_, ?_, a2.log_nodup, a2.log_sub, new, a3⟩
  · unfold find_unreachable_children_log
    rw [a1]
  · unfold find_unreachable_children
    rw [← e]
    rfl

/-- C26: termination of the two static traversals.  Every heap reached by the public
operations is a well-formed finite header graph (`graph_ok`).  On a heap whose live headers
lie below the allocation frontier and whose back-pointer entries are live (nothing is assumed
about self-loops, cycles, sharing or repeated back-pointer entries), the static
`check_reachable`, started with any sorted `seen_parents`, any `pending` of live headers, and
with or without the `unreachable_nodes` / `owned_nodes` sets, returns, and the list of the
headers it pushed onto `pending` has no repetition and contains no header that was in
`seen_parents` at the start.  On a well-formed header graph `find_unreachable_children`,
started on a set of live headers without repetition, returns, and the list of the headers
that entered its work list (first the initial set, then every header pushed) has no
repetition. -/
theorem C26_termination (s : Heap) :
    (reachable s → graph_ok s) ∧
    ((∀ x hd, s.headers x = some hd → x < s.next_header) →
      (∀ x hd, s.headers x = some hd → ∀ y ∈ hd.back_pointers, ∃ hd1, s.headers y = some hd1) →
      ∀ (seen pending : List Nat) (unr owned : Option (List Nat)),
        seen.Sorted (· < ·) → (∀ x ∈ pending, ∃ hd, s.headers x = some hd) →
        ∃ r, check_reachable_static_log s seen pending unr owned = some r ∧
          check_reachable_static s seen pending unr owned = some r.1 ∧
          r.2.Nodup ∧ ∀ x ∈ r.2, x ∉ seen) ∧
    (graph_ok s → ∀ S0 : List Nat, S0.Sorted (· ≤ ·) → S0.Nodup →
      (∀ x ∈ S0, ∃ hd, s.headers x = some hd) →
      ∃ r, find_unreachable_children_log s S0 = some r ∧
        find_unreachable_children s S0 = some r.1 ∧
        r.2.Nodup ∧ ∃ new, r.2 = S0 ++ new) := by
  refine ⟨?_, ?_, ?_⟩
  · intro h
    exact graph_ok_of_inv (sound_of_reachable h).good0.inv0 (by intro p ip t _ e; cases e)
  · intro hfront hlive seen pending unr owned hs hp
    obtain ⟨r, a1, a2, a3, _, a5, _⟩ :=
      check_reachable_static_log_spec hfront hlive seen pending unr owned hs hp
    exact ⟨r, a1, a2, a3, fun x hx => (a5 x hx).1⟩
  · intro hg S0 hs hn hl
    obtain ⟨r, a1, a2, a3, _, a5⟩ := find_unreachable_children_log_spec hg hs hn hl
    exact ⟨r, a1, a2, a3, a5⟩

/-- C26 (witness): the walk from header 1 of the heap with two handles to the same target
(header 1 lists header 0 twice among its back pointers), and the search for unreachable
children from node 0 of the ring of three nodes. -/
theorem C26_witness :
    (∃ r, check_reachable_static_log two_edges_heap (add [] 1) [1] none none = some r ∧
      check_reachable_static two_edges_heap (add [] 1) [1] none none = some r.1 ∧
      r.2.Nodup) ∧
    (∃ r, find_unreachable_children_log ring3_heap [0] = some r ∧
      find_unreachable_children ring3_heap [0] = some r.1 ∧ r.2.Nodup) := by
  have hg2 := (C26_termination two_edges_heap).1 reachable_two_edges
  have hg3 := (C26_termination ring3_heap).1 reachable_ring3
  obtain ⟨r, a1, a2, a3, _⟩ := (C26_termination two_edges_heap).2.1 hg2.header_lt hg2.bp_live
    (add [] 1) [1] none none (by decide)
    (by intro x hx
        simp only [List.mem_singleton] at hx
        subst hx
        exact ⟨⟨1, 3, [0, 0], false, false, some 1⟩, rfl⟩)
  obtain ⟨r1, b1, b2, b3, _⟩ := (C26_termination ring3_heap).2.2 hg3 [0] (by simp) (by simp)
    (by intro x hx
        simp only [List.mem_singleton] at hx
        subst hx
        exact ⟨⟨1, 2, [2], false, false, some 0⟩, rfl⟩)
  exact ⟨⟨r, a1, a2, a3⟩, ⟨r1, b1, b2, b3⟩⟩

/-- In a set of headers none of which satisfies `is_owned()` and which is closed under back
pointers, no counted `root_ptr` shares a member, and every counted `internal_ptr` whose
target is a member is registered with the payload of a member. -/
theorem dead_handles_inside {m : Heap} {exI exR : Option Nat} {Z : List Nat}
    (hi : inv_core m exI exR) (hdead : dead_closed m Z) :
    (∀ r rp u, m.roots r = some rp → some r ≠ exR → rp.header = some u → u ∉ Z) ∧
    (∀ q iq u, m.iptrs q = some iq → some q ≠ exI → iq.header = some u → u ∈ Z →
      ∃ w, w ∈ Z ∧ q ∈ payload_handles m w) := by
  constructor
  · intro r rp u hr hne hh hu
    obtain ⟨hd, h1, h2, _⟩ := hdead u hu
    obtain ⟨f1, _⟩ := (is_owned_false_iff hd).1 h2
    have h0 : root_count m exR u = 0 := by rw [← hi.owner_count_eq u hd h1]; exact f1
    exact not_root_targets_of_count_zero hi h0 r rp hr hne hh
  · intro q iq u hq hne hh hu
    obtain ⟨hd, h1, h2, h3⟩ := hdead u hu
    obtain ⟨f1, f2⟩ := (is_owned_false_iff hd).1 h2
    have c0 := hi.internal_count_eq u hd h1
    have l0 := hi.bp_length u hd h1
    obtain ⟨base, hb, hm⟩ := hi.base_of_ptr q iq hq hne
    have hsub : ∀ x, iptr_targets_bound m exI u x = true → iptr_targets m exI u x = true := by
      intro x hx
      unfold iptr_targets_bound at hx
      simp only [Bool.and_eq_true] at hx
      exact hx.1
    have ht : iptr_targets m exI u q = true := by
      unfold iptr_targets
      rw [hq]; simp [hne, hh]
    cases hsh : base.self_header with
    | none =>
      exfalso
      have hlt : iptr_count_bound m exI u < iptr_count m exI u := by
        apply count_upto_lt hsub (hi.iptr_lt q iq hq) ht
        unfold iptr_targets_bound
        rw [hq]; simp only; rw [hb]; simp [hsh]
      omega
    | some w =>
      obtain ⟨hdw, g1, g2⟩ := hi.header_of_base iq.base base w hb hsh
      have hcount : 0 < iptr_count_from m exI u w := by
        apply count_upto_pos (hi.iptr_lt q iq hq)
        unfold iptr_targets_from
        rw [ht, hq]; simp only; rw [hb]; simp [hsh]
      rw [← hi.bp_count u hd h1 w] at hcount
      have hw : w ∈ Z := h3 w (List.count_pos_iff.1 hcount)
      exact ⟨w, hw, mem_payload_handles.2 ⟨hdw, iq.base, base, g1, g2, hb, hm⟩⟩

/-- From the description of a run of `dec_internal_count` to what it did to the handles. -/
theorem no_dangling_of_ran {m s2 : Heap} {exI exR : Option Nat} {T : Nat} {U : List Nat}
    {nrf : Nat → Nat → Heap → Option Heap} (hinv : inv m exI exR)
    (hex : excluded m exI U) (d : dec_result T m s2 exI exR U) (hr : ran nrf T m s2 U) :
    no_dangling nrf T exI exR m s2 := by
  rcases hr with ⟨_, e⟩ | ⟨b1, b2, sa, sb, p1, _⟩
  · exact Or.inl e
  · have hlive : ∀ u ∈ U, ∃ hd, m.headers u = some hd := by
      intro u hu; obtain ⟨hd, h1, _⟩ := d.dead u hu; exact ⟨hd, h1⟩
    have hhb : ∀ u hd b, m.headers u = some hd → hd.get_internal_base = some b →
        ∃ base, m.bases b = some base ∧ base.self_header = some u :=
      fun u hd b h1 h2 => hinv.header_base u hd b h1 (by simp) h2
    obtain ⟨sa1, a1, _, a3, _, _, _, a7, _, a9, _⟩ :=
      mark_all_ok (Z := U) U hinv.core (fun _ h => h) hlive
        (fun u _ hd b h1 h2 => hhb u hd b h1 h2) hex
    rw [p1] at a1; cases a1
    obtain ⟨k1, k2⟩ := dead_handles_inside hinv.core d.dead
    refine Or.inr ⟨U, sa, b1, b2, p1, ?_, ?_, k1, k2, ?_, a3.roots, ?_, d.col.iptrs_gone,
      d.col.roots, d.col.iptrs_kept, ?_, ?_⟩
    · intro u hu
      exact ⟨hlive u hu, d.col.freed u hu⟩
    · intro x hx
      constructor
      · intro h3
        cases h0 : m.headers x with
        | none => rfl
        | some hd0 =>
          obtain ⟨hd1, e1, _⟩ := d.col.kept x hd0 hx h0
          rw [h3] at e1; cases e1
      · exact d.col.headers_none x
    · intro w hw q hq
      obtain ⟨hd, b, base, e1, e2, e3, e4⟩ := mem_payload_handles.1 hq
      exact a9 w hw hd b base e1 e2 e3 q e4
    · intro q hq
      apply a7
      intro u hu hd b base e1 e2 e3 e4
      exact hq u hu (mem_payload_handles.2 ⟨hd, b, base, e1, e2, e3, e4⟩)
    · intro r rp u hr hne hh
      exact d.inv2.core.root_target_live r rp u hr hne hh
    · intro q iq u hq hne hh
      exact d.inv2.core.target_live q iq u hq hne hh

/-- C31 (counterexample): the handle whose release triggers a collection targets a member of
the collected set, belongs to no payload of that set, and is not set to nil by the severance
pass.  In `ring3_last_heap` the `root_ptr` 0 is the only owner of the ring of the headers 0,
1, 2; `reset()` of that handle frees the three header blocks; after the severance pass of
that collection the handle still has the header 0, and it still has it when `remove_owner`
returns with the block of header 0 freed; only the `clear()` that ends `reset()` sets it to
nil.  In `solo_heap` the `internal_ptr` 0 is registered with the payload of header 0, which
stays alive, and is the only handle whose target is header 1; `reset()` of that handle frees
the block of header 1, and when `not_reachable_from` returns the handle still has the freed
header 1 as its target. -/
theorem C31_counterexample :
    reachable ring3_last_heap ∧
    ring3_last_heap.roots 0 = some ⟨some 0, some 0⟩ ∧
    (Op.apply (Op.root_reset 0) ring3_last_heap).map
        (fun s1 => (s1.headers 0, s1.headers 1, s1.headers 2, s1.roots 0)) =
      some (none, none, none, some ⟨none, none⟩) ∧
    (mark_all [0, 1, 2] (ring3_last_heap.released 0)).map
        (fun sa => (sa.roots 0, sa.iptrs 0, sa.iptrs 1, sa.iptrs 2)) =
      some (some ⟨some 0, some 0⟩, some ⟨0, none, some 1⟩, some ⟨1, none, some 2⟩,
        some ⟨2, none, some 0⟩) ∧
    (remove_owner 0 ring3_last_heap).map (fun s3 => (s3.headers 0, s3.roots 0)) =
      some (none, some ⟨some 0, some 0⟩) ∧
    (¬ ∃ s3, remove_owner 0 ring3_last_heap = some s3 ∧
        ∀ r rp u, s3.roots r = some rp → rp.header = some u → ∃ hd, s3.headers u = some hd) ∧
    reachable solo_heap ∧
    solo_heap.iptrs 0 = some ⟨0, some 1, some 1⟩ ∧
    solo_heap.bases 0 = some ⟨some 0, [1, 0]⟩ ∧
    (Op.apply (Op.iptr_reset 0) solo_heap).map
        (fun s1 => ((s1.headers 0).isSome, s1.headers 1, s1.iptrs 0)) =
      some (true, none, some ⟨0, none, none⟩) ∧
    (not_reachable_from 1 0 solo_heap).map
        (fun s3 => ((s3.headers 0).isSome, s3.headers 1, s3.iptrs 0, s3.bases 0)) =
      some (true, none, some ⟨0, some 1, some 1⟩, some ⟨some 0, [1, 0]⟩) ∧
    ¬ ∃ s3, not_reachable_from 1 0 solo_heap = some s3 ∧
        ∀ q iq u, s3.iptrs q = some iq → iq.header = some u → ∃ hd, s3.headers u = some hd := by
  have h1 : (remove_owner 0 ring3_last_heap).map (fun s3 => (s3.headers 0, s3.roots 0)) =
      some (none, some ⟨some 0, some 0⟩) := by decide
  have h2 : (not_reachable_from 1 0 solo_heap).map
        (fun s3 => ((s3.headers 0).isSome, s3.headers 1, s3.iptrs 0, s3.bases 0)) =
      some (true, none, some ⟨0, some 1, some 1⟩, some ⟨some 0, [1, 0]⟩) := by decide
  refine ⟨reachable_ring3_last, rfl, by decide, by decide, h1, ?_, reachable_solo, rfl, rfl,
    by decide, h2, ?_⟩
  · rintro ⟨s3, e, hall⟩
    rw [e] at h1
    simp only [Option.map_some', Option.some.injEq, Prod.mk.injEq] at h1
    obtain ⟨hd, hhd⟩ := hall 0 ⟨some 0, some 0⟩ 0 h1.2 rfl
    rw [h1.1] at hhd
    cases hhd
  · rintro ⟨s3, e, hall⟩
    rw [e] at h2
    simp only [Option.map_some', Option.some.injEq, Prod.mk.injEq] at h2
    obtain ⟨hd, hhd⟩ := hall 0 ⟨0, some 1, some 1⟩ 1 h2.2.2.1 rfl
    rw [h2.2.1] at hhd
    cases hhd

/-- C31 (amended): in every heap `s` reachable through the public handle operations no
`root_ptr` and no `internal_ptr` has a freed header as its target.  Each call that may collect
returns and satisfies `no_dangling`, where the excepted handle is the one whose release
triggered the call: the call `remove_owner` made by `reset()` or the destructor of a
`root_ptr` (the handle is excepted; `reset()` sets it to nil and the destructor removes it
right after the call); the call `not_reachable_from` made by `reset()` of an `internal_ptr`
(the handle is excepted and set to nil right after the call); the same call made by the
destructor of an `internal_ptr` after it has deregistered itself (the handle is excepted and
removed right after the call); and the same call made for the old target by the assignment
between handles (no handle is excepted: the assigned handle has its new target already).
That is: when a collection frees a set of headers, every handle other than the triggering one
that targeted a member of the set belonged to a payload of the set and was set to nil by the
severance pass, and when the collection returns no handle other than the triggering one has
a freed header as its target. -/
theorem C31_no_dangling {s : Heap} (h : reachable s) :
    (∀ r rp u, s.roots r = some rp → rp.header = some u → ∃ hd, s.headers u = some hd) ∧
    (∀ q iq u, s.iptrs q = some iq → iq.header = some u → ∃ hd, s.headers u = some hd) ∧
    (∀ r rp T, s.roots r = some rp → rp.header = some T →
      ∃ s3, remove_owner T s = some s3 ∧
        no_dangling (not_reachable_from_depth s.next_header) T none (some r)
          (s.released T) s3 ∧
        Op.apply (Op.root_reset r) s = some (s3.set_root r (some ⟨none, none⟩)) ∧
        Op.apply (Op.root_dtor r) s = some (s3.set_root r none)) ∧
    (∀ p ip T bs, s.iptrs p = some ip → ip.header = some T → s.bases ip.base = some bs →
      (∃ s3, not_reachable_from T ip.base s = some s3 ∧
        no_dangling (not_reachable_from_depth s.next_header) T (some p) none
          (s.unlinked T bs.self_header) s3 ∧
        Op.apply (Op.iptr_reset p) s =
          some (s3.set_iptr p (some { ip with header := none, ptr := none }))) ∧
      (∃ s3, not_reachable_from T ip.base
          (s.set_base ip.base (some { bs with pointers := bs.pointers.erase p })) = some s3 ∧
        no_dangling (not_reachable_from_depth s.next_header) T (some p) none
          ((s.set_base ip.base (some { bs with pointers := bs.pointers.erase p })).unlinked T
            bs.self_header) s3 ∧
        Op.apply (Op.iptr_dtor p) s = some (s3.set_iptr p none)) ∧
      (∀ ip1 : internal_ptr, ip1.base = ip.base →
        (∀ N, ip1.header = some N → ∃ hd, s.headers N = some hd) →
        ∃ s3, not_reachable_from T ip.base (s.retargeted p ip1 bs.self_header) = some s3 ∧
          no_dangling (not_reachable_from_depth s.next_header) T none none
            ((s.retargeted p ip1 bs.self_header).unlinked T bs.self_header) s3)) := by
  have hs := sound_of_reachable h
  have hi := hs.good0.inv0.core
  refine ⟨fun r rp u hr hh => hi.root_target_live r rp u hr (by simp) hh,
    fun q iq u hq hh => hi.target_live q iq u hq (by simp) hh, ?_, ?_⟩
  · intro r rp T hr hh
    obtain ⟨hd, hT⟩ := hi.root_target_live r rp T hr (by simp) hh
    obtain ⟨_, _, hinv, U, s2, a1, a3, a2⟩ :=
      remove_owner_run hs.good0.inv0 hs.good0.owned hr hh hT
    have hroots : s2.roots r = some rp := by
      rw [a2.col.roots, (released_rest s T).2.1]; exact hr
    refine ⟨s2, a1, no_dangling_of_ran hinv (by intro p hp; cases hp) a2 a3, ?_, ?_⟩
    · show root_ptr_reset r s = _
      unfold root_ptr_reset
      rw [hr]; simp only
      rw [hh]; simp only
      rw [a1]; simp only
      rw [hroots]
    · show root_ptr_dtor r s = _
      unfold root_ptr_dtor
      rw [hr]; simp only
      rw [hh]; simp only
      rw [a1]
  · intro p ip T bs hp hh hb
    obtain ⟨hd, hT⟩ := hi.target_live p ip T hp (by simp) hh
    have key : ∀ s0 : Heap, (s0 = s ∨
        s0 = s.set_base ip.base (some { bs with pointers := bs.pointers.erase p })) →
        ∃ s3, not_reachable_from T ip.base s0 = some s3 ∧
          no_dangling (not_reachable_from_depth s.next_header) T (some p) none
            (s0.unlinked T bs.self_header) s3 ∧ s3.iptrs p = some ip := by
      intro s0 hs0
      obtain ⟨U, s2, a1, a2, a3, _, a5⟩ := not_reachable_from_body_run
        (not_reachable_from_depth s.next_header) hs.good0 hp hh hb hT hs0
      have hnh : s0.next_header = s.next_header := by
        rcases hs0 with e | e <;> rw [e] <;> rfl
      refine ⟨s2, by rw [not_reachable_from_unfold, hnh]; exact a1,
        no_dangling_of_ran (unlink_inv hs.good0.inv0 hp hh hb hT hs0) ?_ a2 a5, a3⟩
      intro q hq u hu hdu b base h1 h2 h3 h4
      cases hq
      have := a2.col.iptrs_gone u hu p (mem_payload_handles.2 ⟨hdu, b, base, h1, h2, h3, h4⟩)
      rw [a3] at this; cases this
    refine ⟨?_, ?_, ?_⟩
    · obtain ⟨s3, b1, b2, b3⟩ := key s (Or.inl rfl)
      refine ⟨s3, b1, b2, ?_⟩
      show internal_ptr_reset p s = _
      unfold internal_ptr_reset
      rw [hp]; simp only
      rw [hh]; simp only
      rw [b1]; simp only
      rw [b3]
    · obtain ⟨s3, b1, b2, b3⟩ := key _ (Or.inr rfl)
      refine ⟨s3, b1, b2, ?_⟩
      show internal_ptr_dtor p s = _
      unfold internal_ptr_dtor destroy_internal_ptr deregister_ptr
      rw [hp]; simp only
      rw [hb]; simp only
      rw [hh]; simp only
      rw [b1]
    · intro ip1 hip1 hN
      obtain ⟨U, s3, a1, a2, a3, a4⟩ := assign_collect_run hs.good0 hp hh hb hip1 hN
      exact ⟨s3, a1, no_dangling_of_ran a4 (by intro q hq; cases hq) a3 a2⟩

/-- C31 (witness): the release of the last root of the ring of three nodes. -/
theorem C31_witness :
    reachable ring3_last_heap ∧
    ∃ s3, remove_owner 0 ring3_last_heap = some s3 ∧
      no_dangling (not_reachable_from_depth ring3_last_heap.next_header) 0 none (some 0)
        (ring3_last_heap.released 0) s3 ∧
      Op.apply (Op.root_reset 0) ring3_last_heap = some (s3.set_root 0 (some ⟨none, none⟩)) := by
  obtain ⟨s3, a, b, c, _⟩ :=
    (C31_no_dangling reachable_ring3_last).2.2.1 0 ⟨some 0, some 0⟩ 0 rfl rfl
  exact ⟨reachable_ring3_last, s3, a, b, c⟩

/-- On a sorted vector `find_bp_pos` is the partition point that `std::lower_bound` returns:
every element before it is less than `p`, no element from it on is. -/
theorem find_bp_pos_spec (v : List Nat) (p : Nat) (hs : v.Sorted (· ≤ ·)) :
    (∀ x ∈ v.take (find_bp_pos v p), x < p) ∧ (∀ x ∈ v.drop (find_bp_pos v p), p ≤ x) := by
  induction v with
  | nil => simp [find_bp_pos]
  | cons y v ih =>
    rw [List.sorted_cons] at hs
    obtain ⟨i1, i2⟩ := ih hs.2
    unfold find_bp_pos
    by_cases c : y < p
    · rw [if_pos c]
      simp only [List.take_succ_cons, List.drop_succ_cons, List.mem_cons]
      refine ⟨?_, i2⟩
      rintro x (rfl | hx)
      · exact c
      · exact i1 x hx
    · rw [if_neg c]
      simp only [List.take_zero, List.drop_zero, List.not_mem_nil, List.mem_cons]
      refine ⟨fun _ h => h.elim, ?_⟩
      rintro x (rfl | hx)
      · omega
      · have := hs.1 x hx; omega

theorem add_perm (v : List Nat) (p : Nat) : (add v p).Perm (p :: v) := by
  unfold add
  have h := @List.perm_middle _ p (v.take (find_bp_pos v p)) (v.drop (find_bp_pos v p))
  rw [List.take_append_drop] at h
  exact h

/-- C32: `pointer_set` on a vector `v` sorted in ascending order, for any pointer `p`.
`find_bp_pos` is the lower bound of `p` (all elements before it are less than `p`, none from
it on is).  `add`, `add_unique` and `remove` leave the vector sorted.  `contains(p)` is true
exactly when `p` is an element.  `add_unique(p)` returns true exactly when `p` was absent, and
then the vector is the one `add(p)` gives; when `p` was present it returns false and the vector
is unchanged.  `add(p)` gives a permutation of `p` followed by the old elements: one element
more, one more occurrence of `p`, every other element as often as before.  `remove(p)` of a
present `p` leaves a vector that with one `p` added back is a permutation of the old one: one
element less, one occurrence of `p` less; it never changes how often another element occurs;
and when `p` is absent it leaves the vector unchanged.  `add(p)` followed by `remove(p)`
gives back the original vector. -/
theorem C32_pointer_set (v : List Nat) (hs : v.Sorted (· ≤ ·)) (p : Nat) :
    (find_bp_pos v p ≤ v.length ∧ (∀ x ∈ v.take (find_bp_pos v p), x < p) ∧
      (∀ x ∈ v.drop (find_bp_pos v p), p ≤ x)) ∧
    ((add v p).Sorted (· ≤ ·) ∧ (add_unique v p).1.Sorted (· ≤ ·) ∧
      (remove v p).Sorted (· ≤ ·)) ∧
    (contains v p = true ↔ p ∈ v) ∧
    (((add_unique v p).2 = true ↔ p ∉ v) ∧
      (p ∉ v → add_unique v p = (add v p, true)) ∧
      (p ∈ v → add_unique v p = (v, false))) ∧
    ((add v p).Perm (p :: v) ∧ (add v p).length = v.length + 1 ∧
      (add v p).count p = v.count p + 1 ∧
      ∀ x, x ≠ p → (add v p).count x = v.count x) ∧
    ((p ∈ v → v.Perm (p :: remove v p) ∧ (remove v p).length + 1 = v.length ∧
        (remove v p).count p + 1 = v.count p) ∧
      (∀ x, x ≠ p → (remove v p).count x = v.count x) ∧
      (p ∉ v → remove v p = v)) ∧
    remove (add v p) p = v := by
  obtain ⟨l1, l2⟩ := find_bp_pos_spec v p hs
  refine ⟨⟨find_bp_pos_le v p, l1, l2⟩,
    ⟨sorted_add p hs, sorted_add_unique p hs, sorted_remove p hs⟩,
    contains_iff_mem hs p, ⟨add_unique_snd hs p, ?_, ?_⟩,
    ⟨add_perm v p, length_add v p, ?_, ?_⟩, ⟨?_, ?_, ?_⟩, remove_add_cancel hs p⟩
  · intro hp
    have hc : ¬ contains v p = true := fun h => hp ((contains_iff_mem hs p).1 h)
    unfold add_unique
    rw [if_neg hc]
  · intro hp
    unfold add_unique
    rw [if_pos ((contains_iff_mem hs p).2 hp)]
  · rw [count_add]; simp
  · intro x hx
    rw [count_add]; simp [hx]
  · intro hp
    refine ⟨?_, length_remove hs hp, ?_⟩
    · rw [remove_eq_erase hs p]
      exact List.perm_cons_erase hp
    · rw [count_remove hs p p]
      have : 0 < v.count p := List.count_pos_iff.2 hp
      simp only [if_true]
      omega
  · intro x hx
    rw [count_remove hs p x]; simp [hx]
  · intro hp
    rw [remove_eq_erase hs p]
    exact List.erase_of_not_mem hp

/-- C32 (witness): the vector `[1, 3, 3, 5]` and the pointer 3. -/
theorem C32_witness :
    add [1, 3, 3, 5] 3 = [1, 3, 3, 3, 5] ∧ remove [1, 3, 3, 5] 3 = [1, 3, 5] ∧
    add_unique [1, 3, 3, 5] 3 = ([1, 3, 3, 5], false) ∧
    ([1, 3, 3, 5] : List Nat).Sorted (· ≤ ·) ∧
    (contains [1, 3, 3, 5] 3 = true ↔ 3 ∈ [1, 3, 3, 5]) ∧
    remove (add [1, 3, 3, 5] 3) 3 = [1, 3, 3, 5] :=
  ⟨by decide, by decide, by decide, by decide,
    (C32_pointer_set [1, 3, 3, 5] (by decide) 3).2.2.1,
    (C32_pointer_set [1, 3, 3, 5] (by decide) 3).2.2.2.2.2.2⟩

end jss
